import Mathlib

/-!
# Tetexact: the stochastic reaction-diffusion engine of STEPS on a tetrahedral mesh

A shallow embedding of `src/cpp/tetexact` (Reac, SReac, Diff, the
composition-rejection selector and the driver loops of `Tetexact`).

Conventions of the embedding

* `double` is embedded as `ℚ` (exact arithmetic).
* `uint` is embedded as `Nat`, `int` as `Int`; the conversions between the two and
  the 32-bit wrap-around are explicit (`toInt`, `wrapInt`, `toUInt`).
* Objects live in arenas indexed by `Nat` (`State.tets`, `State.tris`,
  `State.pKProcs`); a non-null pointer is the index of its object, a pointer that
  may be null is an `Option Nat`.
* C arrays are functions on `Nat`; loops over `0 .. n-1` are recursions over
  `List.range n`.
* A failing `assert`, a `throw;` without active exception and a loop that runs out
  of fuel are the errors of `Except Err`.
-/

namespace Tetexact

/-- Ways in which a call does not return normally. -/
inductive Err
  | argErr
  | assertFail
  | nullDeref
  | terminate
  | outOfFuel
  deriving DecidableEq, Repr

/-! ## Machine integers -/

/-- Conversion `static_cast<int>(uint)`: the 32-bit pattern read as two's complement. -/
def toInt (n : Nat) : Int :=
  if n % 4294967296 < 2147483648 then ((n % 4294967296 : Nat) : Int)
  else ((n % 4294967296 : Nat) : Int) - 4294967296

/-- Conversion `static_cast<uint>(int)`: reduction modulo 2^32. -/
def toUInt (z : Int) : Nat := (z % 4294967296).toNat

/-- Result of an `int` operation whose mathematical value is `z` (two's-complement wrap). -/
def wrapInt (z : Int) : Int := toInt (toUInt z)

/-- The sentinel `LIDX_UNDEFINED` of solver/types.hpp (all bits set). -/
def LIDX_UNDEFINED : Nat := 4294967295

/-! ## The random number generator (consumed interface) -/

/-- The operations of `steps::rng::RNG` used by the engine, over a generator state `σ`.
The generator is an external collaborator; each operation returns its draw and the
next generator state. -/
structure RNG (σ : Type) where
  /-- Uniform on the closed interval [0,1]. -/
  getUnfII : σ → ℚ × σ
  /-- Uniform on [0,1). -/
  getUnfIE : σ → ℚ × σ
  /-- Uniform on the open interval (0,1). -/
  getUnfEE : σ → ℚ × σ
  /-- Raw 32-bit unsigned integer. -/
  get : σ → Nat × σ
  /-- Exponential draw with the given rate. -/
  getExp : ℚ → σ → ℚ × σ

/-! ## Static definitions (solver/*def) -/

/-- The part of `solver::Reacdef` read by the engine. -/
structure Reacdef where
  gidx : Nat
  order : Nat
  dep : Nat → Bool
  updColl : List Nat

/-- The part of `solver::SReacdef` read by the engine. -/
structure SReacdef where
  gidx : Nat
  order : Nat
  surf_surf : Bool
  inside : Bool
  outside : Bool
  dep_S : Nat → Bool
  dep_I : Nat → Bool
  dep_O : Nat → Bool
  updColl_S : List Nat
  updColl_I : List Nat
  updColl_O : List Nat

/-- The part of `solver::Diffdef` read by the engine. -/
structure Diffdef where
  gidx : Nat
  lig : Nat

/-- The part of `solver::Compdef` read by the engine: index maps, per-reaction lhs and
update vectors (indexed by local reaction index, then local species index) and the
default constants. -/
structure Compdef where
  gidx : Nat
  vol : ℚ
  countSpecs : Nat
  countReacs : Nat
  countDiffs : Nat
  specG2L : Nat → Nat
  reacG2L : Nat → Nat
  diffG2L : Nat → Nat
  reac_lhs_bgn : Nat → Nat → Nat
  reac_upd_bgn : Nat → Nat → Int
  kcst : Nat → ℚ
  dcst : Nat → ℚ

/-- The part of `solver::Patchdef` read by the engine. -/
structure Patchdef where
  gidx : Nat
  area : ℚ
  countSpecs : Nat
  countSpecs_I : Nat
  countSpecs_O : Nat
  countSReacs : Nat
  specG2L : Nat → Nat
  sreacG2L : Nat → Nat
  sreac_lhs_S_bgn : Nat → Nat → Nat
  sreac_lhs_I_bgn : Nat → Nat → Nat
  sreac_lhs_O_bgn : Nat → Nat → Nat
  sreac_upd_S_bgn : Nat → Nat → Int
  sreac_upd_I_bgn : Nat → Nat → Int
  sreac_upd_O_bgn : Nat → Nat → Int
  kcst : Nat → ℚ

/-! ## Voxels and facets -/

/-- A tetrahedron of the mesh (`tetexact::Tet`), fields named after its accessors. -/
structure Tet where
  idx : Nat
  compdef : Compdef
  vol : ℚ
  area : Nat → ℚ
  dist : Nat → ℚ
  nextTet : Nat → Option Nat
  nextTri : Nat → Option Nat
  getDiffBndDirection : Nat → Bool
  pools : Nat → Nat
  clamped : Nat → Bool
  kprocs : List Nat

/-- A triangle of a patch (`tetexact::Tri`), fields named after its accessors. -/
structure Tri where
  idx : Nat
  patchdef : Patchdef
  area : ℚ
  iTet : Option Nat
  oTet : Option Nat
  pools : Nat → Nat
  clamped : Nat → Bool
  kprocs : List Nat

/-- Modelled from the spec: `Tet::setCount(s, n)` (tet.cpp is not among the sources)
stores `n` as the count of local species `s`. The aggregate count it also maintains
lives in the absent `Compdef` and is never read by the embedded code. -/
def Tet.setCount (t : Tet) (lidx count : Nat) : Tet :=
  { t with pools := Function.update t.pools lidx count }

/-- Modelled from the spec: `Tet::incCount(s, delta)` (tet.cpp is not among the
sources) adds the signed `delta` to the unsigned 32-bit count of local species `s`. -/
def Tet.incCount (t : Tet) (lidx : Nat) (inc : Int) : Tet :=
  { t with pools := Function.update t.pools lidx (toUInt ((t.pools lidx : Int) + inc)) }

/-- Modelled from the spec: `Tri::setCount(s, n)` (tri.cpp is not among the sources)
stores `n` as the count of local species `s`. -/
def Tri.setCount (t : Tri) (lidx count : Nat) : Tri :=
  { t with pools := Function.update t.pools lidx count }

/-! ## Kinetic processes -/

/-- The record `CRKProcData` of crstruct.hpp. -/
structure CRKProcData where
  recorded : Bool
  pow : Int
  pos : Nat
  rate : ℚ

/-- The group `CRGroup` of crstruct.hpp; `indices` holds schedule indices of KProcs. -/
structure CRGroup where
  capacity : Nat
  size : Nat
  max : ℚ
  sum : ℚ
  indices : Nat → Nat

/-- Data members of `tetexact::Reac`. -/
structure Reac where
  pReacdef : Reacdef
  pTet : Nat
  pUpdVec : List Nat
  pCcst : ℚ
  pKcst : ℚ

/-- Data members of `tetexact::SReac`. -/
structure SReac where
  pSReacdef : SReacdef
  pTri : Nat
  pUpdVec : List Nat
  pCcst : ℚ
  pKcst : ℚ

/-- Data members of `tetexact::Diff`. -/
structure Diff where
  ligGIdx : Nat
  lidxTet : Nat
  pDiffdef : Diffdef
  pTet : Nat
  pUpdVec : Nat → List Nat
  pNeighbCompLidx : Nat → Int
  pScaledDcst : ℚ
  pDcst : ℚ
  pCDFSelector : Nat → ℚ
  pDiffBndActive : Nat → Bool
  pDiffBndDirection : Nat → Bool

/-- The three variants of a kinetic process. -/
inductive KProcVariant
  | reac (r : Reac)
  | sreac (sr : SReac)
  | diff (d : Diff)

/-- Base class `tetexact::KProc` together with the derived object. -/
structure KProc where
  rExtent : Nat
  pFlags : Nat
  pSchedIDX : Nat
  crData : CRKProcData
  variant : KProcVariant

/-- The flag bit `KProc::INACTIVATED`. -/
def INACTIVATED : Nat := 1

/-- Accessor `KProc::inactive()`: the INACTIVATED bit of the flags is set. -/
def KProc.inactive (k : KProc) : Bool := k.pFlags &&& INACTIVATED != 0

/-- Mutator `KProc::setActive(active)` of kproc.cpp. -/
def KProc.setActive (k : KProc) (active : Bool) : KProc :=
  if active then { k with pFlags := k.pFlags &&& (4294967295 - INACTIVATED) }
  else { k with pFlags := k.pFlags ||| INACTIVATED }

/-! ## Engine state -/

/-- The mutable state of a `Tetexact` solver: the arenas of tets, tris and KProcs,
the composition-rejection groups, the total propensity, and the time and step
counter kept by the `Statedef`. -/
structure State where
  tets : Nat → Tet
  tris : Nat → Tri
  pKProcs : Nat → KProc
  nEntries : Nat
  nGroups : Nat → CRGroup
  nGroupsSize : Nat
  pGroups : Nat → CRGroup
  pGroupsSize : Nat
  pSum : ℚ
  nSum : ℚ
  pA0 : ℚ
  pTime : ℚ
  pNSteps : Nat

/-- Replace the tet stored at index `i`. -/
def State.setTet (s : State) (i : Nat) (t : Tet) : State :=
  { s with tets := Function.update s.tets i t }

/-- Replace the tri stored at index `i`. -/
def State.setTri (s : State) (i : Nat) (t : Tri) : State :=
  { s with tris := Function.update s.tris i t }

/-- Replace the KProc stored at schedule index `i`. -/
def State.setKProc (s : State) (i : Nat) (k : KProc) : State :=
  { s with pKProcs := Function.update s.pKProcs i k }

/-- The increment `rExtent++` of the unsigned 32-bit extent counter. -/
def KProc.incExtent (k : KProc) : KProc :=
  { k with rExtent := (k.rExtent + 1) % 4294967296 }

/-! ## Propensities -/

/-- The fall-through `switch (lhs)` shared by the propensity loops of reac.cpp and
sreac.cpp: for `lhs` in 1..4 it multiplies `h_mu` by `cnt-3`, `cnt-2`, `cnt-1`, `cnt`
from the entry case downwards; the default case is `assert(0)`. It is only reached
with `lhs <= cnt`, so the unsigned subtractions do not wrap. -/
def switchLhs (lhs cnt : Nat) (h_mu : ℚ) : Except Err ℚ :=
  match lhs with
  | 4 => .ok (h_mu * ((cnt - 3 : Nat) : ℚ) * ((cnt - 2 : Nat) : ℚ) * ((cnt - 1 : Nat) : ℚ)
      * ((cnt : Nat) : ℚ))
  | 3 => .ok (h_mu * ((cnt - 2 : Nat) : ℚ) * ((cnt - 1 : Nat) : ℚ) * ((cnt : Nat) : ℚ))
  | 2 => .ok (h_mu * ((cnt - 1 : Nat) : ℚ) * ((cnt : Nat) : ℚ))
  | 1 => .ok (h_mu * ((cnt : Nat) : ℚ))
  | _ => .error .assertFail

/-- The loop of `Reac::rate` over the species of the compartment; an insufficient
reactant sets `h_mu = 0` and leaves the loop. -/
def Reac.hmuLoop (lhs_vec cnt_vec : Nat → Nat) : List Nat → ℚ → Except Err ℚ
  | [], h_mu => .ok h_mu
  | pool :: rest, h_mu =>
    if lhs_vec pool = 0 then Reac.hmuLoop lhs_vec cnt_vec rest h_mu
    else if lhs_vec pool > cnt_vec pool then .ok 0
    else
      match switchLhs (lhs_vec pool) (cnt_vec pool) h_mu with
      | .error e => .error e
      | .ok h2 => Reac.hmuLoop lhs_vec cnt_vec rest h2

/-- Propensity `Reac::rate()` of the reaction `r` carried by the KProc `k`. -/
def Reac.rate (s : State) (k : KProc) (r : Reac) : Except Err ℚ :=
  if k.inactive then .ok 0
  else
    let cdef := (s.tets r.pTet).compdef
    let nspecs := cdef.countSpecs
    let lhs_vec := cdef.reac_lhs_bgn (cdef.reacG2L r.pReacdef.gidx)
    let cnt_vec := (s.tets r.pTet).pools
    match Reac.hmuLoop lhs_vec cnt_vec (List.range nspecs) 1 with
    | .error e => .error e
    | .ok h_mu => .ok (h_mu * r.pCcst)

/-- One of the three loops of `SReac::rate`; an insufficient reactant makes the
whole function `return 0.0` (result `none`). -/
def SReac.hmuLoop (lhs_vec cnt_vec : Nat → Nat) : List Nat → ℚ → Except Err (Option ℚ)
  | [], h_mu => .ok (some h_mu)
  | sp :: rest, h_mu =>
    if lhs_vec sp = 0 then SReac.hmuLoop lhs_vec cnt_vec rest h_mu
    else if lhs_vec sp > cnt_vec sp then .ok none
    else
      match switchLhs (lhs_vec sp) (cnt_vec sp) h_mu with
      | .error e => .error e
      | .ok h2 => SReac.hmuLoop lhs_vec cnt_vec rest h2

/-- The volume part of `SReac::rate` on the tet pointed to by `tet`, continuing from
the surface factor `h_mu`. -/
def SReac.rateVol (s : State) (sr : SReac) (lhs_vec : Nat → Nat) (nspecs : Nat)
    (tet : Option Nat) (h_mu : ℚ) : Except Err ℚ :=
  match tet with
  | none => .error .nullDeref
  | some t =>
    match SReac.hmuLoop lhs_vec (s.tets t).pools (List.range nspecs) h_mu with
    | .error e => .error e
    | .ok none => .ok 0
    | .ok (some h2) => .ok (h2 * sr.pCcst)

/-- Propensity `SReac::rate()` of the surface reaction `sr` carried by the KProc `k`. -/
def SReac.rate (s : State) (k : KProc) (sr : SReac) : Except Err ℚ :=
  if k.inactive then .ok 0
  else
    let tri := s.tris sr.pTri
    let pdef := tri.patchdef
    let lidx := pdef.sreacG2L sr.pSReacdef.gidx
    match SReac.hmuLoop (pdef.sreac_lhs_S_bgn lidx) tri.pools (List.range pdef.countSpecs) 1 with
    | .error e => .error e
    | .ok none => .ok 0
    | .ok (some h_mu) =>
      if sr.pSReacdef.inside then
        SReac.rateVol s sr (pdef.sreac_lhs_I_bgn lidx) pdef.countSpecs_I tri.iTet h_mu
      else if sr.pSReacdef.outside then
        SReac.rateVol s sr (pdef.sreac_lhs_O_bgn lidx) pdef.countSpecs_O tri.oTet h_mu
      else .ok (h_mu * sr.pCcst)

/-- Propensity `Diff::rate()` of the diffusion `d` carried by the KProc `k`. -/
def Diff.rate (s : State) (k : KProc) (d : Diff) : Except Err ℚ :=
  if k.inactive then .ok 0
  else .ok (d.pScaledDcst * (((s.tets d.pTet).pools d.lidxTet : Nat) : ℚ))

/-- Virtual call `KProc::rate()`. -/
def KProc.rate (s : State) (k : KProc) : Except Err ℚ :=
  match k.variant with
  | .reac r => Reac.rate s k r
  | .sreac sr => SReac.rate s k sr
  | .diff d => Diff.rate s k d

/-! ## Firing -/

/-- The loop of `Reac::apply` over the species of the compartment, acting on the tet
of the reaction. -/
def Reac.applyLoop (upd_vec : Nat → Int) : List Nat → Tet → Tet
  | [], t => t
  | i :: rest, t =>
    if t.clamped i = true then Reac.applyLoop upd_vec rest t
    else if upd_vec i = 0 then Reac.applyLoop upd_vec rest t
    else
      let nc := wrapInt (toInt (t.pools i) + upd_vec i)
      Reac.applyLoop upd_vec rest (t.setCount i (toUInt nc))

/-- Firing `Reac::apply(rng)` of the reaction `r` carried by the KProc at schedule
index `kidx`; returns the new state and the update list `pUpdVec`. -/
def Reac.apply (s : State) (kidx : Nat) (r : Reac) : State × List Nat :=
  let cdef := (s.tets r.pTet).compdef
  let l_ridx := cdef.reacG2L r.pReacdef.gidx
  let upd_vec := cdef.reac_upd_bgn l_ridx
  let nspecs := cdef.countSpecs
  let s1 := s.setTet r.pTet (Reac.applyLoop upd_vec (List.range nspecs) (s.tets r.pTet))
  (s1.setKProc kidx (s1.pKProcs kidx).incExtent, r.pUpdVec)

/-- The first loop of `SReac::apply`, over the species of the patch, acting on the
triangle; `assert(nc >= 0)` guards every stored count. -/
def SReac.applyLoopTri (upd_vec : Nat → Int) : List Nat → Tri → Except Err Tri
  | [], t => .ok t
  | sp :: rest, t =>
    if t.clamped sp = true then SReac.applyLoopTri upd_vec rest t
    else if upd_vec sp = 0 then SReac.applyLoopTri upd_vec rest t
    else
      let nc := wrapInt (toInt (t.pools sp) + upd_vec sp)
      if nc < 0 then .error .assertFail
      else SReac.applyLoopTri upd_vec rest (t.setCount sp (toUInt nc))

/-- The loops of `SReac::apply` over the species of the inner or outer compartment,
acting on the inner or outer tet; `assert(nc >= 0)` guards every stored count. -/
def SReac.applyLoopTet (upd_vec : Nat → Int) : List Nat → Tet → Except Err Tet
  | [], t => .ok t
  | sp :: rest, t =>
    if t.clamped sp = true then SReac.applyLoopTet upd_vec rest t
    else if upd_vec sp = 0 then SReac.applyLoopTet upd_vec rest t
    else
      let nc := wrapInt (toInt (t.pools sp) + upd_vec sp)
      if nc < 0 then .error .assertFail
      else SReac.applyLoopTet upd_vec rest (t.setCount sp (toUInt nc))

/-- The block of `SReac::apply` that updates the pools of the inner or outer tet when
the pointer `tet` is not null. -/
def SReac.applyVol (s : State) (upd_vec : Nat → Int) (nspecs : Nat) (tet : Option Nat) :
    Except Err State :=
  match tet with
  | none => .ok s
  | some t =>
    match SReac.applyLoopTet upd_vec (List.range nspecs) (s.tets t) with
    | .error e => .error e
    | .ok t2 => .ok (s.setTet t t2)

/-- Firing `SReac::apply(rng)` of the surface reaction `sr` carried by the KProc at
schedule index `kidx`; returns the new state and the update list `pUpdVec`. -/
def SReac.apply (s : State) (kidx : Nat) (sr : SReac) : Except Err (State × List Nat) :=
  let pdef := (s.tris sr.pTri).patchdef
  let lidx := pdef.sreacG2L sr.pSReacdef.gidx
  match SReac.applyLoopTri (pdef.sreac_upd_S_bgn lidx) (List.range pdef.countSpecs)
      (s.tris sr.pTri) with
  | .error e => .error e
  | .ok tri2 =>
    let s1 := s.setTri sr.pTri tri2
    match SReac.applyVol s1 (pdef.sreac_upd_I_bgn lidx) pdef.countSpecs_I
        (s1.tris sr.pTri).iTet with
    | .error e => .error e
    | .ok s2 =>
      match SReac.applyVol s2 (pdef.sreac_upd_O_bgn lidx) pdef.countSpecs_O
          (s2.tris sr.pTri).oTet with
      | .error e => .error e
      | .ok s3 => .ok (s3.setKProc kidx (s3.pKProcs kidx).incExtent, sr.pUpdVec)

/-- The mutations of a direction branch of `Diff::apply` once its asserts have passed:
the increment in the neighbour tet unless the ligand is clamped there, the decrement in
the source tet unless it is clamped, and `rExtent++`. -/
def Diff.hop (s : State) (kidx : Nat) (d : Diff) (clamped : Bool) (dir nexttet : Nat) : State :=
  let nlidx := toUInt (d.pNeighbCompLidx dir)
  let s1 := if (s.tets nexttet).clamped nlidx = false
    then s.setTet nexttet ((s.tets nexttet).incCount nlidx 1) else s
  let s2 := if clamped = false
    then s1.setTet d.pTet ((s1.tets d.pTet).incCount d.lidxTet (-1)) else s1
  s2.setKProc kidx (s2.pKProcs kidx).incExtent

/-- One of the four textually identical direction branches of `Diff::apply`: the
asserts on the neighbour, the mutations, and the update list of the direction. -/
def Diff.applyDir (s : State) (kidx : Nat) (d : Diff) (clamped : Bool) (dir : Nat) :
    Except Err (State × List Nat) :=
  match (s.tets d.pTet).nextTet dir with
  | none => .error .assertFail
  | some nexttet =>
    if ¬ (d.pNeighbCompLidx dir > -1) then .error .assertFail
    else .ok (Diff.hop s kidx d clamped dir nexttet, d.pUpdVec dir)

/-- Firing `Diff::apply(rng)` of the diffusion `d` carried by the KProc at schedule
index `kidx`; returns the new state, the update list of the chosen direction and the
generator state after the single `getUnfEE` draw. -/
def Diff.apply {σ : Type} (R : RNG σ) (s : State) (kidx : Nat) (d : Diff) (rng : σ) :
    Except Err (State × List Nat × σ) :=
  let clamped := (s.tets d.pTet).clamped d.lidxTet
  if clamped = false ∧ ¬ ((s.tets d.pTet).pools d.lidxTet > 0) then .error .assertFail
  else
    let sel := (R.getUnfEE rng).1
    let rng1 := (R.getUnfEE rng).2
    let res :=
      if sel < d.pCDFSelector 0 then Diff.applyDir s kidx d clamped 0
      else if sel < d.pCDFSelector 1 then Diff.applyDir s kidx d clamped 1
      else if sel < d.pCDFSelector 2 then Diff.applyDir s kidx d clamped 2
      else Diff.applyDir s kidx d clamped 3
    match res with
    | .error e => .error e
    | .ok (s2, upd) => .ok (s2, upd, rng1)

/-- Virtual call `kp->apply(rng)` on the KProc at schedule index `kidx`. -/
def KProc.apply {σ : Type} (R : RNG σ) (s : State) (kidx : Nat) (rng : σ) :
    Except Err (State × List Nat × σ) :=
  match (s.pKProcs kidx).variant with
  | .reac r => .ok ((Reac.apply s kidx r).1, (Reac.apply s kidx r).2, rng)
  | .sreac sr =>
    match SReac.apply s kidx sr with
    | .error e => .error e
    | .ok (s2, upd) => .ok (s2, upd, rng)
  | .diff d => Diff.apply R s kidx d rng

/-! ## Diffusion constants -/

/-- The local array `d[4]` computed by `Diff::setDcst(dcst)` (and by the constructor):
the scaled transfer coefficient through face `i`. -/
def Diff.dArray (s : State) (d : Diff) (dcst : ℚ) (i : Nat) : ℚ :=
  let dist := (s.tets d.pTet).dist i
  if dist > 0 ∧ ((s.tets d.pTet).nextTet i).isSome then
    if d.pDiffBndDirection i = true then
      if d.pDiffBndActive i = true
      then ((s.tets d.pTet).area i * dcst) / ((s.tets d.pTet).vol * dist)
      else 0
    else ((s.tets d.pTet).area i * dcst) / ((s.tets d.pTet).vol * dist)
  else 0

/-- Mutator `Diff::setDcst(dcst)`: recomputes `pScaledDcst` and the three entries of
the cumulative selector. -/
def Diff.setDcst (s : State) (d : Diff) (dcst : ℚ) : Except Err Diff :=
  if ¬ (dcst ≥ 0) then .error .assertFail
  else
    let dv := Diff.dArray s d dcst
    let scaled : ℚ := 0 + dv 0 + dv 1 + dv 2 + dv 3
    if ¬ (scaled ≥ 0) then .error .assertFail
    else if scaled = 0 then
      .ok { d with
        pDcst := dcst
        pScaledDcst := scaled
        pCDFSelector := Function.update (Function.update (Function.update
          d.pCDFSelector 0 0) 1 0) 2 0 }
    else
      let c0 := dv 0 / scaled
      let c1 := c0 + dv 1 / scaled
      let c2 := c1 + dv 2 / scaled
      .ok { d with
        pDcst := dcst
        pScaledDcst := scaled
        pCDFSelector := Function.update (Function.update (Function.update
          d.pCDFSelector 0 c0) 1 c1) 2 c2 }

/-- Mutator `Diff::setDiffBndActive(i, active)`. -/
def Diff.setDiffBndActive (s : State) (d : Diff) (i : Nat) (active : Bool) : Except Err Diff :=
  if ¬ (i < 4) then .error .assertFail
  else if ¬ (d.pDiffBndDirection i = true) then .error .assertFail
  else if d.pDiffBndActive i != active then
    Diff.setDcst s { d with pDiffBndActive := Function.update d.pDiffBndActive i active } d.pDcst
  else .ok d

/-- The cleared composition-rejection record written by every `reset()`. -/
def CRKProcData.cleared : CRKProcData :=
  { recorded := false, pow := 0, pos := 0, rate := 0 }

/-- Method `Diff::reset()` on the KProc `k` that carries the diffusion `d`. -/
def Diff.reset (s : State) (k : KProc) (d : Diff) : Except Err KProc :=
  let d1 := { d with pDiffBndActive := Function.update (Function.update (Function.update
    (Function.update d.pDiffBndActive 0 false) 1 false) 2 false) 3 false }
  let cdef := (s.tets d.pTet).compdef
  let ldidx := cdef.diffG2L d.pDiffdef.gidx
  match Diff.setDcst s d1 (cdef.dcst ldidx) with
  | .error e => .error e
  | .ok d2 =>
    .ok (KProc.setActive
      { k with crData := CRKProcData.cleared, rExtent := 0, variant := .diff d2 } true)

/-- Constructor `Diff::Diff(ddef, tet)` for the tet at index `tet`. The member array
`pDiffBndActive` is not written by the constructor, so what it reads from it is whatever the
memory held: the parameter `stale`. -/
def Diff.new (s : State) (ddef : Diffdef) (tet : Nat) (stale : Nat → Bool) : Except Err Diff :=
  let ligGIdx := ddef.lig
  let cdef := (s.tets tet).compdef
  let d0 : Diff :=
    { ligGIdx := ligGIdx
      lidxTet := cdef.specG2L ligGIdx
      pDiffdef := ddef
      pTet := tet
      pUpdVec := fun _ => []
      pNeighbCompLidx := fun i =>
        match (s.tets tet).nextTet i with
        | none => -1
        | some next => toInt ((s.tets next).compdef.specG2L ligGIdx)
      pScaledDcst := 0
      pDcst := cdef.dcst (cdef.diffG2L ddef.gidx)
      pCDFSelector := fun _ => 0
      pDiffBndActive := stale
      pDiffBndDirection := (s.tets tet).getDiffBndDirection }
  let dv := Diff.dArray s d0 d0.pDcst
  let scaled : ℚ := 0 + dv 0 + dv 1 + dv 2 + dv 3
  if ¬ (scaled ≥ 0) then .error .assertFail
  else if scaled = 0 then .ok { d0 with pScaledDcst := scaled }
  else
    let c0 := dv 0 / scaled
    let c1 := c0 + dv 1 / scaled
    let c2 := c1 + dv 2 / scaled
    .ok { d0 with
      pScaledDcst := scaled
      pCDFSelector := Function.update (Function.update (Function.update
        d0.pCDFSelector 0 c0) 1 c1) 2 c2 }

/-! ## The composition-rejection selector -/

/-- The binary exponent returned by `frexp(r, &pow)` for `r > 0`: the integer `p`
with `2^(p-1) <= r < 2^p`. -/
def frexpExp (r : ℚ) : Int := Int.log 2 r + 1

/-- Constructor `CRGroup(power)` of crstruct.hpp. -/
def CRGroup.new (power : Int) : CRGroup :=
  { capacity := 1024, size := 0, max := (2 : ℚ) ^ power, sum := 0, indices := fun _ => 0 }

/-- Helper `_extendGroup(group)` with the default increment of 1024 slots. -/
def _extendGroup (g : CRGroup) : CRGroup :=
  { g with capacity := g.capacity + 1024 }

/-- The loop of `_extendPGroups`: push `n` fresh positive groups. -/
def extendPLoop : Nat → State → State
  | 0, s => s
  | n + 1, s =>
    extendPLoop n { s with
      pGroups := Function.update s.pGroups s.pGroupsSize (CRGroup.new (s.pGroupsSize : Int))
      pGroupsSize := s.pGroupsSize + 1 }

/-- Helper `_extendPGroups(new_size)`. -/
def _extendPGroups (s : State) (new_size : Nat) : State :=
  extendPLoop (new_size - s.pGroupsSize) s

/-- The loop of `_extendNGroups`: push `n` fresh negative groups. -/
def extendNLoop : Nat → State → State
  | 0, s => s
  | n + 1, s =>
    extendNLoop n { s with
      nGroups := Function.update s.nGroups s.nGroupsSize (CRGroup.new (-(s.nGroupsSize : Int)))
      nGroupsSize := s.nGroupsSize + 1 }

/-- Helper `_extendNGroups(new_size)`. -/
def _extendNGroups (s : State) (new_size : Nat) : State :=
  extendNLoop (new_size - s.nGroupsSize) s

/-- Helper `_getGroup(pow)`: positive group `pow` when `pow >= 0`, else negative group
`-pow`. -/
def _getGroup (s : State) (pow : Int) : CRGroup :=
  if pow ≥ 0 then s.pGroups pow.toNat else s.nGroups (-pow).toNat

/-- Write through the pointer returned by `_getGroup(pow)`. -/
def State.setGroup (s : State) (pow : Int) (g : CRGroup) : State :=
  if pow ≥ 0 then { s with pGroups := Function.update s.pGroups pow.toNat g }
  else { s with nGroups := Function.update s.nGroups (-pow).toNat g }

/-- Write the record `crData` of the KProc at schedule index `kp`. -/
def State.setCRData (s : State) (kp : Nat) (data : CRKProcData) : State :=
  s.setKProc kp { s.pKProcs kp with crData := data }

/-- The block "remove old" of `_updateElement`: take the KProc `kp` out of the group
of power `old_pow`, moving the last member of the group into its slot. -/
def removeOld (s : State) (kp : Nat) (old_pow : Int) (old_rate : ℚ) : State :=
  let old_group := _getGroup s old_pow
  let size1 := (old_group.size + 4294967295) % 4294967296
  if size1 = 0 then s.setGroup old_pow { old_group with size := size1, sum := 0 }
  else
    let pos := (s.pKProcs kp).crData.pos
    let last := old_group.indices size1
    let s1 := s.setGroup old_pow { old_group with
      size := size1
      sum := old_group.sum - old_rate
      indices := Function.update old_group.indices pos last }
    s1.setCRData last { (s1.pKProcs last).crData with pos := pos }

/-- The block "add new" of `_updateElement` for a positive group. -/
def addNewP (s : State) (kp : Nat) (new_pow : Int) (new_rate : ℚ) : State :=
  let s1 := if s.pGroupsSize ≤ new_pow.toNat then _extendPGroups s (new_pow.toNat + 1) else s
  let new_group := s1.pGroups new_pow.toNat
  let g1 := if new_group.size = new_group.capacity then _extendGroup new_group else new_group
  let pos := g1.size
  let g2 := { g1 with
    indices := Function.update g1.indices pos kp
    size := g1.size + 1
    sum := g1.sum + new_rate }
  let s2 := { s1 with pGroups := Function.update s1.pGroups new_pow.toNat g2 }
  s2.setCRData kp { (s2.pKProcs kp).crData with pos := pos }

/-- The block "add new" of `_updateElement` for a negative group. -/
def addNewN (s : State) (kp : Nat) (new_pow : Int) (new_rate : ℚ) : State :=
  let s1 := if s.nGroupsSize ≤ (-new_pow).toNat then _extendNGroups s ((-new_pow).toNat + 1)
    else s
  let new_group := s1.nGroups (-new_pow).toNat
  let g1 := if new_group.size = new_group.capacity then _extendGroup new_group else new_group
  let pos := g1.size
  let g2 := { g1 with
    indices := Function.update g1.indices pos kp
    size := g1.size + 1
    sum := g1.sum + new_rate }
  let s2 := { s1 with nGroups := Function.update s1.nGroups (-new_pow).toNat g2 }
  s2.setCRData kp { (s2.pKProcs kp).crData with pos := pos }

/-- The branch of `_updateElement` shared by the positive and the negative case: same
power and recorded means the group sum is adjusted, otherwise the KProc moves. -/
def moveOrAdjust (s : State) (kp : Nat) (old_rate new_rate : ℚ) (positive : Bool) : State :=
  let data := (s.pKProcs kp).crData
  let old_pow := data.pow
  let new_pow := frexpExp new_rate
  let s3 :=
    if old_pow = new_pow ∧ data.recorded = true then
      let old_group := _getGroup s old_pow
      s.setGroup old_pow { old_group with sum := old_group.sum + (new_rate - old_rate) }
    else
      let s1 := s.setCRData kp { data with pow := new_pow }
      let s2 := if data.recorded = true then removeOld s1 kp old_pow old_rate else s1
      if positive then addNewP s2 kp new_pow new_rate else addNewN s2 kp new_pow new_rate
  s3.setCRData kp { (s3.pKProcs kp).crData with recorded := true }

/-- Method `Tetexact::_updateElement(kp)`. -/
def _updateElement (s : State) (kp : Nat) : Except Err State :=
  match KProc.rate s (s.pKProcs kp) with
  | .error e => .error e
  | .ok new_rate =>
    let old_rate := (s.pKProcs kp).crData.rate
    let s1 := s.setCRData kp { (s.pKProcs kp).crData with rate := new_rate }
    if old_rate = new_rate then .ok s1
    else if new_rate ≥ 1 / 2 then .ok (moveOrAdjust s1 kp old_rate new_rate true)
    else if new_rate < 1 / 2 ∧ new_rate > 1 / 100000000000000000000 then
      .ok (moveOrAdjust s1 kp old_rate new_rate false)
    else
      let data := (s1.pKProcs kp).crData
      let s2 := if data.recorded = true then removeOld s1 kp data.pow old_rate else s1
      .ok (s2.setCRData kp { (s2.pKProcs kp).crData with recorded := false })

/-- Method `Tetexact::_updateSum()`: the total propensity is recomputed from the group
sums, negative groups first. -/
def _updateSum (s : State) : State :=
  let a1 := (List.range s.nGroupsSize).foldl (fun a i => a + (s.nGroups i).sum) (0 : ℚ)
  let a2 := (List.range s.pGroupsSize).foldl (fun a i => a + (s.pGroups i).sum) a1
  { s with pA0 := a2 }

/-- The loop of `Tetexact::_update(upd_entries)`. -/
def updateLoop : List Nat → State → Except Err State
  | [], s => .ok s
  | kp :: rest, s =>
    match _updateElement s kp with
    | .error e => .error e
    | .ok s1 => updateLoop rest s1

/-- Method `Tetexact::_update(upd_entries)`. -/
def _update (s : State) (upd_entries : List Nat) : Except Err State :=
  match updateLoop upd_entries s with
  | .error e => .error e
  | .ok s1 => .ok (_updateSum s1)

/-- Method `Tetexact::_update()` over all `nEntries` KProcs. -/
def _updateAll (s : State) : Except Err State :=
  _update s (List.range s.nEntries)

/-- The scan of `_getNext` over one list of groups, from index `i`, with `n` groups
left: empty groups are skipped, a group whose sum lies below the selector adds its sum
to the partial sum, and the first other group is entered (its index is returned). -/
def scanGroups (groups : Nat → CRGroup) (selector : ℚ) : Nat → Nat → ℚ → Option Nat × ℚ
  | 0, _, partial_sum => (none, partial_sum)
  | n + 1, i, partial_sum =>
    if (groups i).size = 0 then scanGroups groups selector n (i + 1) partial_sum
    else if selector > partial_sum + (groups i).sum then
      scanGroups groups selector n (i + 1) (partial_sum + (groups i).sum)
    else (some i, partial_sum)

/-- The rejection sampling of `_getNext` inside the entered group: draw a rate below
the group maximum and a member, until the member's stored rate exceeds the drawn rate.
Each unit of fuel pays for one pair of draws. -/
def rejectionLoop {σ : Type} (R : RNG σ) (s : State) (group : CRGroup) :
    Nat → σ → Except Err (Nat × σ)
  | 0, _ => .error .outOfFuel
  | fuel + 1, rng =>
    let random_rate := group.max * (R.getUnfII rng).1
    let rng1 := (R.getUnfII rng).2
    let random_pos := (R.get rng1).1 % group.size
    let rng2 := (R.get rng1).2
    let random_kp := group.indices random_pos
    if (s.pKProcs random_kp).crData.rate ≤ random_rate then rejectionLoop R s group fuel rng2
    else .ok (random_kp, rng2)

/-- Method `Tetexact::_getNext()`: `none` is the NULL returned when the total
propensity is zero; the terminal `throw;` is the error `terminate`. -/
def _getNext {σ : Type} (R : RNG σ) (rfuel : Nat) (s : State) (rng : σ) :
    Except Err (Option Nat × σ) :=
  if ¬ (s.pA0 ≥ 0) then .error .assertFail
  else if s.pA0 = 0 then .ok (none, rng)
  else
    let selector := s.pA0 * (R.getUnfII rng).1
    let rng1 := (R.getUnfII rng).2
    match scanGroups s.nGroups selector s.nGroupsSize 0 0 with
    | (some i, _) =>
      match rejectionLoop R s (s.nGroups i) rfuel rng1 with
      | .error e => .error e
      | .ok (kp, rng2) => .ok (some kp, rng2)
    | (none, partial_sum) =>
      match scanGroups s.pGroups selector s.pGroupsSize 0 partial_sum with
      | (some i, _) =>
        match rejectionLoop R s (s.pGroups i) rfuel rng1 with
        | .error e => .error e
        | .ok (kp, rng2) => .ok (some kp, rng2)
      | (none, _) => .error .terminate

/-! ## The driver -/

/-- Method `Tetexact::_executeStep(kp, dt)`: apply, refresh, advance the time (whose
`incTime` asserts `dt >= 0`) and increment the unsigned 32-bit step counter. -/
def _executeStep {σ : Type} (R : RNG σ) (s : State) (kp : Nat) (dt : ℚ) (rng : σ) :
    Except Err (State × σ) :=
  match KProc.apply R s kp rng with
  | .error e => .error e
  | .ok (s1, upd, rng1) =>
    match _update s1 upd with
    | .error e => .error e
    | .ok s2 =>
      if ¬ (dt ≥ 0) then .error .assertFail
      else .ok ({ s2 with pTime := s2.pTime + dt, pNSteps := (s2.pNSteps + 1) % 4294967296 }, rng1)

/-- Method `Tetexact::step()`. -/
def step {σ : Type} (R : RNG σ) (rfuel : Nat) (s : State) (rng : σ) : Except Err (State × σ) :=
  match _getNext R rfuel s rng with
  | .error e => .error e
  | .ok (none, rng1) => .ok (s, rng1)
  | .ok (some kp, rng1) =>
    let a0 := s.pA0
    if a0 = 0 then .ok (s, rng1)
    else _executeStep R s kp (R.getExp a0 rng1).1 (R.getExp a0 rng1).2

/-- An executed event as recorded by the driver loops below: the schedule index of the
KProc, the simulation time and the total propensity before the event, and the drawn time
increment. -/
structure Event where
  kp : Nat
  time : ℚ
  a0 : ℚ
  dt : ℚ

/-- The `while` loop of `Tetexact::run(endtime)`; `fuel` bounds the number of
iterations. Besides the state and the generator it returns the list of the events it
executed, first event first (a ghost value, not part of the program state). -/
def runLoop {σ : Type} (R : RNG σ) (rfuel : Nat) (endtime : ℚ) :
    Nat → State → σ → Except Err (State × σ × List Event)
  | 0, s, rng => if s.pTime < endtime then .error .outOfFuel else .ok (s, rng, [])
  | fuel + 1, s, rng =>
    if ¬ (s.pTime < endtime) then .ok (s, rng, [])
    else
      match _getNext R rfuel s rng with
      | .error e => .error e
      | .ok (none, rng1) => .ok (s, rng1, [])
      | .ok (some kp, rng1) =>
        let a0 := s.pA0
        if a0 = 0 then .ok (s, rng1, [])
        else
          let dt := (R.getExp a0 rng1).1
          let rng2 := (R.getExp a0 rng1).2
          if s.pTime + dt > endtime then .ok (s, rng2, [])
          else
            match _executeStep R s kp dt rng2 with
            | .error e => .error e
            | .ok (s1, rng3) =>
              match runLoop R rfuel endtime fuel s1 rng3 with
              | .error e => .error e
              | .ok (s2, rng4, evs) => .ok (s2, rng4, { kp := kp, time := s.pTime, a0 := a0, dt := dt } :: evs)

/-- Method `Tetexact::run(endtime)`; the final `setTime` asserts `endtime >= 0`. -/
def run {σ : Type} (R : RNG σ) (rfuel fuel : Nat) (endtime : ℚ) (s : State) (rng : σ) :
    Except Err (State × σ) :=
  if endtime < s.pTime then .error .argErr
  else
    match runLoop R rfuel endtime fuel s rng with
    | .error e => .error e
    | .ok (s1, rng1, _) =>
      if ¬ (endtime ≥ 0) then .error .assertFail
      else .ok ({ s1 with pTime := endtime }, rng1)

/-- Method `Tetexact::advanceSteps(nsteps)`, by recursion on the remaining number of
steps; the third component of the result is the ghost list of executed events. -/
def advanceSteps {σ : Type} (R : RNG σ) (rfuel : Nat) :
    Nat → State → σ → Except Err (State × σ × List Event)
  | 0, s, rng => .ok (s, rng, [])
  | nsteps + 1, s, rng =>
    match _getNext R rfuel s rng with
    | .error e => .error e
    | .ok (none, rng1) => .ok (s, rng1, [])
    | .ok (some kp, rng1) =>
      let a0 := s.pA0
      if a0 = 0 then .ok (s, rng1, [])
      else
        let dt := (R.getExp a0 rng1).1
        let rng2 := (R.getExp a0 rng1).2
        match _executeStep R s kp dt rng2 with
        | .error e => .error e
        | .ok (s1, rng3) =>
          match advanceSteps R rfuel nsteps s1 rng3 with
          | .error e => .error e
          | .ok (s2, rng4, evs) => .ok (s2, rng4, { kp := kp, time := s.pTime, a0 := a0, dt := dt } :: evs)

/-! ## Named views of the definition tables -/

/-- The lhs vector read by `Reac::rate`: `cdef->reac_lhs_bgn(cdef->reacG2L(gidx))`. -/
def Reac.lhs_vec (s : State) (r : Reac) : Nat → Nat :=
  (s.tets r.pTet).compdef.reac_lhs_bgn ((s.tets r.pTet).compdef.reacG2L r.pReacdef.gidx)

/-- The update vector read by `Reac::apply`: `cdef->reac_upd_bgn(cdef->reacG2L(gidx))`. -/
def Reac.upd_vec (s : State) (r : Reac) : Nat → Int :=
  (s.tets r.pTet).compdef.reac_upd_bgn ((s.tets r.pTet).compdef.reacG2L r.pReacdef.gidx)

/-- The number of species of the compartment of the reaction's tet. -/
def Reac.nspecs (s : State) (r : Reac) : Nat := (s.tets r.pTet).compdef.countSpecs

/-- The local index of the surface reaction in the patch of its triangle. -/
def SReac.lidx (s : State) (sr : SReac) : Nat :=
  (s.tris sr.pTri).patchdef.sreacG2L sr.pSReacdef.gidx

/-- The surface lhs vector `pdef->sreac_lhs_S_bgn(lidx)`. -/
def SReac.lhs_S (s : State) (sr : SReac) : Nat → Nat :=
  (s.tris sr.pTri).patchdef.sreac_lhs_S_bgn (SReac.lidx s sr)

/-- The inner-volume lhs vector `pdef->sreac_lhs_I_bgn(lidx)`. -/
def SReac.lhs_I (s : State) (sr : SReac) : Nat → Nat :=
  (s.tris sr.pTri).patchdef.sreac_lhs_I_bgn (SReac.lidx s sr)

/-- The outer-volume lhs vector `pdef->sreac_lhs_O_bgn(lidx)`. -/
def SReac.lhs_O (s : State) (sr : SReac) : Nat → Nat :=
  (s.tris sr.pTri).patchdef.sreac_lhs_O_bgn (SReac.lidx s sr)

/-- The surface update vector `pdef->sreac_upd_S_bgn(lidx)`. -/
def SReac.upd_S (s : State) (sr : SReac) : Nat → Int :=
  (s.tris sr.pTri).patchdef.sreac_upd_S_bgn (SReac.lidx s sr)

/-- The inner-volume update vector `pdef->sreac_upd_I_bgn(lidx)`. -/
def SReac.upd_I (s : State) (sr : SReac) : Nat → Int :=
  (s.tris sr.pTri).patchdef.sreac_upd_I_bgn (SReac.lidx s sr)

/-- The outer-volume update vector `pdef->sreac_upd_O_bgn(lidx)`. -/
def SReac.upd_O (s : State) (sr : SReac) : Nat → Int :=
  (s.tris sr.pTri).patchdef.sreac_upd_O_bgn (SReac.lidx s sr)

/-! ## Specification-side quantities -/

/-- The combinatorial factor of the propensity formula as the specification words it:
the product over the species `p < n` of the falling factorial
`cnt[p]·(cnt[p]-1)·…·(cnt[p]-lhs[p]+1)`, which is 1 when `lhs[p] = 0` and 0 when
`cnt[p] < lhs[p]`. -/
def fallProd (lhs_vec cnt_vec : Nat → Nat) (n : Nat) : ℚ :=
  ∏ p ∈ Finset.range n, (Nat.descFactorial (cnt_vec p) (lhs_vec p) : ℚ)

/-- The per-face coefficient as the specification words it, for the diffusion constant
and boundary flags currently stored in `d`: `area[i]·D/(vol·dist[i])` if neighbour tet
`i` exists, `dist[i] > 0` and face `i` is not a diffusion-boundary face or its
boundary-active flag is set; 0 otherwise. -/
def Diff.dSpec (s : State) (d : Diff) (i : Nat) : ℚ :=
  if ((s.tets d.pTet).nextTet i).isSome = true ∧ (s.tets d.pTet).dist i > 0 ∧
      (d.pDiffBndDirection i = false ∨ d.pDiffBndActive i = true)
  then (s.tets d.pTet).area i * d.pDcst / ((s.tets d.pTet).vol * (s.tets d.pTet).dist i)
  else 0

/-- The direction of a diffusion hop as the specification words it: the first index `k`
in {0,1,2} with `u < CDF[k]`, or 3 if there is none. -/
def Diff.direction (d : Diff) (u : ℚ) : Nat :=
  ((List.range 3).find? (fun k => decide (u < d.pCDFSelector k))).getD 3

/-! ## Frame of the selector bookkeeping -/

/-- Two states differ at most in the composition-rejection bookkeeping (the groups, the
total propensity and the `crData` records of the KProcs): tets, tris, time, step counter and
the extent, flags and derived object of every KProc agree. -/
def CRFrame (s s2 : State) : Prop :=
  s2.tets = s.tets ∧ s2.tris = s.tris ∧ s2.nEntries = s.nEntries ∧
  s2.pTime = s.pTime ∧ s2.pNSteps = s.pNSteps ∧
  ∀ j, (s2.pKProcs j).rExtent = (s.pKProcs j).rExtent ∧
    (s2.pKProcs j).pFlags = (s.pKProcs j).pFlags ∧
    (s2.pKProcs j).pSchedIDX = (s.pKProcs j).pSchedIDX ∧
    (s2.pKProcs j).variant = (s.pKProcs j).variant

/-- Two states differ at most in the tets and tris (that is, in molecule counts):
KProcs, selector groups, total propensity, time and step counter agree. -/
def PoolFrame (s s2 : State) : Prop :=
  s2.pKProcs = s.pKProcs ∧ s2.nEntries = s.nEntries ∧
  s2.nGroups = s.nGroups ∧ s2.nGroupsSize = s.nGroupsSize ∧
  s2.pGroups = s.pGroups ∧ s2.pGroupsSize = s.pGroupsSize ∧
  s2.pSum = s.pSum ∧ s2.nSum = s.nSum ∧ s2.pA0 = s.pA0 ∧
  s2.pTime = s.pTime ∧ s2.pNSteps = s.pNSteps

/-- What firing the KProc `kp` leaves alone, whatever its variant: the only change outside
tets and tris is the increment of the extent of `kp`. -/
def ApplyFrame (s : State) (kp : Nat) (s1 : State) : Prop :=
  s1.pKProcs = Function.update s.pKProcs kp (s.pKProcs kp).incExtent ∧
  s1.nEntries = s.nEntries ∧
  s1.nGroups = s.nGroups ∧ s1.nGroupsSize = s.nGroupsSize ∧
  s1.pGroups = s.pGroups ∧ s1.pGroupsSize = s.pGroupsSize ∧
  s1.pSum = s.pSum ∧ s1.nSum = s.nSum ∧ s1.pA0 = s.pA0 ∧
  s1.pTime = s.pTime ∧ s1.pNSteps = s.pNSteps

/-- The public `step()` called `n` times in a row. -/
def iterStep {σ : Type} (R : RNG σ) (rfuel : Nat) : Nat → State → σ → Except Err (State × σ)
  | 0, s, rng => .ok (s, rng)
  | n + 1, s, rng =>
    match step R rfuel s rng with
    | .error e => .error e
    | .ok (s1, rng1) => iterStep R rfuel n s1 rng1

/-- Forget the ghost list of events returned by a driver loop. -/
def dropEvents {σ : Type} (r : Except Err (State × σ × List Event)) : Except Err (State × σ) :=
  match r with
  | .error e => .error e
  | .ok (s, rng, _) => .ok (s, rng)

/-! ## A small concrete system

Two tets in one compartment with species A (0) and B (1), a triangle on tet 0 with the
surface species S (0), and three KProcs in tet 0 and on the triangle: the reaction A → B, the
diffusion of A into tet 1 and the surface reaction S + A(inner) → B(inner). The selector holds
all three, each with propensity 2, in positive group 2. -/

namespace Demo

/-- The compartment definition: reaction 0 is A → B. -/
def cdef : Compdef :=
  { gidx := 0, vol := 2, countSpecs := 2, countReacs := 1, countDiffs := 1
    specG2L := fun g => g, reacG2L := fun g => g, diffG2L := fun g => g
    reac_lhs_bgn := fun _ sp => if sp = 0 then 1 else 0
    reac_upd_bgn := fun _ sp => if sp = 0 then -1 else if sp = 1 then 1 else 0
    kcst := fun _ => 1, dcst := fun _ => 1 }

/-- The patch definition: surface reaction 0 is S + A(inner) → B(inner). -/
def pdef : Patchdef :=
  { gidx := 0, area := 1, countSpecs := 1, countSpecs_I := 2, countSpecs_O := 2
    countSReacs := 1, specG2L := fun g => g, sreacG2L := fun g => g
    sreac_lhs_S_bgn := fun _ sp => if sp = 0 then 1 else 0
    sreac_lhs_I_bgn := fun _ sp => if sp = 0 then 1 else 0
    sreac_lhs_O_bgn := fun _ _ => 0
    sreac_upd_S_bgn := fun _ sp => if sp = 0 then -1 else 0
    sreac_upd_I_bgn := fun _ sp => if sp = 0 then -1 else if sp = 1 then 1 else 0
    sreac_upd_O_bgn := fun _ _ => 0
    kcst := fun _ => 1 }

/-- Tet 0 holds 2 A and 1 B; its neighbour in direction 0 is tet 1. -/
def tet0 : Tet :=
  { idx := 0, compdef := cdef, vol := 1, area := fun _ => 1, dist := fun _ => 1
    nextTet := fun i => if i = 0 then some 1 else none
    nextTri := fun i => if i = 1 then some 0 else none
    getDiffBndDirection := fun _ => false
    pools := fun sp => if sp = 0 then 2 else if sp = 1 then 1 else 0
    clamped := fun _ => false, kprocs := [0, 1] }

/-- Tet 1 is empty; its neighbour in direction 0 is tet 0. -/
def tet1 : Tet :=
  { idx := 1, compdef := cdef, vol := 1, area := fun _ => 1, dist := fun _ => 1
    nextTet := fun i => if i = 0 then some 0 else none
    nextTri := fun _ => none
    getDiffBndDirection := fun _ => false
    pools := fun _ => 0
    clamped := fun _ => false, kprocs := [] }

/-- Triangle 0 holds 1 S; its inner tet is tet 0 and it has no outer tet. -/
def tri0 : Tri :=
  { idx := 0, patchdef := pdef, area := 1, iTet := some 0, oTet := none
    pools := fun sp => if sp = 0 then 1 else 0
    clamped := fun _ => false, kprocs := [2] }

/-- The reaction A → B in tet 0, with `c = 1`. -/
def reac0 : Reac :=
  { pReacdef := { gidx := 0, order := 1, dep := fun g => g == 0, updColl := [0, 1] }
    pTet := 0, pUpdVec := [0, 1, 2], pCcst := 1, pKcst := 1 }

/-- The diffusion of A out of tet 0: only face 0 has a neighbour, so `d = (1,0,0,0)`. -/
def diff1 : Diff :=
  { ligGIdx := 0, lidxTet := 0, pDiffdef := { gidx := 0, lig := 0 }, pTet := 0
    pUpdVec := fun dir => if dir = 0 then [0, 1, 2] else []
    pNeighbCompLidx := fun i => if i = 0 then 0 else -1
    pScaledDcst := 1, pDcst := 1, pCDFSelector := fun _ => 1
    pDiffBndActive := fun _ => false, pDiffBndDirection := fun _ => false }

/-- The surface reaction S + A(inner) → B(inner) on triangle 0, with `c = 1`. -/
def sreac2 : SReac :=
  { pSReacdef := { gidx := 0, order := 2, surf_surf := false, inside := true, outside := false
                   dep_S := fun g => g == 0, dep_I := fun g => g == 0, dep_O := fun _ => false
                   updColl_S := [0], updColl_I := [0, 1], updColl_O := [] }
    pTri := 0, pUpdVec := [0, 1, 2], pCcst := 1, pKcst := 1 }

/-- The KProc at schedule index `i` with its selector record: all three sit in positive
group 2 with stored propensity 2. -/
def kproc (i : Nat) : KProc :=
  { rExtent := 0, pFlags := 0, pSchedIDX := i
    crData := { recorded := true, pow := 2, pos := i, rate := 2 }
    variant := if i = 0 then .reac reac0 else if i = 1 then .diff diff1 else .sreac sreac2 }

/-- The engine state at time 0. -/
def state : State :=
  { tets := fun i => if i = 0 then tet0 else tet1
    tris := fun _ => tri0
    pKProcs := kproc
    nEntries := 3
    nGroups := fun i => CRGroup.new (-(i : Int))
    nGroupsSize := 0
    pGroups := fun i => if i = 2
      then { capacity := 1024, size := 3, max := 4, sum := 6, indices := fun j => j }
      else CRGroup.new (i : Int)
    pGroupsSize := 3
    pSum := 0, nSum := 0, pA0 := 6, pTime := 0, pNSteps := 0 }

/-- The same system after `setTetCount` has put 2^31 molecules of B into tet 0; no
propensity reads the count of B, so the selector records are still current. -/
def bigState : State :=
  { state with
    tets := fun i => if i = 0
      then { tet0 with pools := fun sp => if sp = 0 then 2 else if sp = 1 then 2147483648 else 0 }
      else tet1 }

/-- A generator whose state counts the draws and whose draws are constant: 1/4 on [0,1] and
[0,1), 1/2 on (0,1), the integer 0, and the mean `1/rate` as exponential draw. -/
def rng : RNG Nat :=
  { getUnfII := fun n => (1 / 4, n + 1)
    getUnfIE := fun n => (1 / 4, n + 1)
    getUnfEE := fun n => (1 / 2, n + 1)
    get := fun n => (0, n + 1)
    getExp := fun a n => (1 / a, n + 1) }

/-- A generator that always returns the upper end 1 of the closed unit interval. -/
def rngOnes : RNG Unit :=
  { getUnfII := fun _ => (1, ())
    getUnfIE := fun _ => (1 / 2, ())
    getUnfEE := fun _ => (1 / 2, ())
    get := fun _ => (0, ())
    getExp := fun a _ => (1 / a, ()) }

/-- The same system with no molecule of A left in tet 0 (tet 0 holds only 1 B). -/
def drainedState : State :=
  { state with
    tets := fun i => if i = 0
      then { tet0 with pools := fun sp => if sp = 1 then 1 else 0 }
      else tet1 }

end Demo

/-! ## Mass conservation under diffusion (specification side) -/

/-- The count of the species with global index `g` in a tet, as the specification counts
it: the pool at the local index of `g` in the compartment of the tet, and nothing when
`g` is undefined there. -/
def Tet.countOf (t : Tet) (g : Nat) : Nat :=
  if t.compdef.specG2L g = LIDX_UNDEFINED then 0 else t.pools (t.compdef.specG2L g)

/-- The sum over the tets listed in `L` of the count of species `g`. -/
def totalCount (s : State) (L : List Nat) (g : Nat) : Nat :=
  (L.map (fun t => (s.tets t).countOf g)).sum

/-- A system in which only Diff events can fire, over the tets listed in `L`: every KProc
is a Diff wired as its constructor wires it (source tet in `L`, ligand defined in the
source compartment, `lidxTet` and `pNeighbCompLidx` the local indices of the ligand in the
source and in each neighbour); neighbours of listed tets are listed and differ from the
tet; no species is clamped; the local index maps are 32-bit and injective where defined;
and the total count of every species fits in 32 bits. -/
structure PureDiffusion (s : State) (L : List Nat) : Prop where
  allDiff : ∀ k, ∃ d, (s.pKProcs k).variant = .diff d ∧ d.pTet ∈ L ∧
    d.lidxTet = (s.tets d.pTet).compdef.specG2L d.ligGIdx ∧
    (s.tets d.pTet).compdef.specG2L d.ligGIdx ≠ LIDX_UNDEFINED ∧
    ∀ i nt, (s.tets d.pTet).nextTet i = some nt →
      d.pNeighbCompLidx i = toInt ((s.tets nt).compdef.specG2L d.ligGIdx)
  neighbours : ∀ t ∈ L, ∀ i nt, (s.tets t).nextTet i = some nt → nt ∈ L ∧ nt ≠ t
  noClamp : ∀ t p, (s.tets t).clamped p = false
  lidxBound : ∀ t g, (s.tets t).compdef.specG2L g < 4294967296
  lidxInj : ∀ t g g2, (s.tets t).compdef.specG2L g = (s.tets t).compdef.specG2L g2 →
    (s.tets t).compdef.specG2L g ≠ LIDX_UNDEFINED → g = g2
  fits : ∀ g, totalCount s L g < 4294967296

/-! ## The registries of the engine -/

/-- Data members of `tetexact::Comp` (comp.hpp); `pTets` holds the arena indices of the
tets added by `addTet`, in order. The method `pickTetByVol(rand01)` is declared in
comp.hpp but defined in comp.cpp, which is not among the sources: it is a parameter. -/
structure Comp where
  pCompdef : Compdef
  pVol : ℚ
  pTets : List Nat
  pickTetByVol : ℚ → Option Nat

/-- Data members of `tetexact::Patch` (patch.hpp); `pTris` holds the arena indices of
the triangles added by `addTri`. The method `pickTriByArea(rand01)` is defined in
patch.cpp, which is not among the sources: it is a parameter. -/
structure Patch where
  pPatchdef : Patchdef
  pArea : ℚ
  pTris : List Nat
  pickTriByArea : ℚ → Option Nat

/-- Modelled from the spec: `tetexact::DiffBoundary` (diffboundary.hpp is not among the
sources) links the compartments A and B (indices into `pComps`) and records, for each
tet adjacent to the boundary, the mesh index of the tet (`getTets()`) and the local
neighbour index 0..3 through which the boundary is crossed (`getTetDirection()`); the
two vectors have the same length. -/
structure DiffBoundary where
  compA : Nat
  compB : Nat
  getTets : List Nat
  getTetDirection : List Nat

/-- The containers of the class `Tetexact` that are fixed once the constructor has run,
with the counts of the `Statedef` that its methods assert against. The entry
`pTets[tidx]` is NULL (`none`) for a mesh tet that was not assigned to a compartment,
and otherwise the arena index of the local tet; likewise for `pTris`. -/
structure Engine where
  countSpecs : Nat
  countReacs : Nat
  countSReacs : Nat
  countDiffs : Nat
  pComps : List Comp
  pPatches : List Patch
  pDiffBoundaries : List DiffBoundary
  pTets : List (Option Nat)
  pTris : List (Option Nat)

/-- Result of a mutator of the engine on a generator state `σ`: either the new state and
generator, or the error raised together with the state and the generator as they were
when it was raised. -/
abbrev Outcome (σ : Type) := Except (Err × State × σ) (State × σ)

/-- Modelled from the spec: `Tet::diff(ldidx)` (tet.cpp is not among the sources)
returns the Diff object of local diffusion rule `ldidx`; the tet owns one Reac per
reaction of its compartment followed by one Diff per diffusion rule. -/
def Tet.diff (t : Tet) (ldidx : Nat) : Option Nat :=
  t.kprocs[t.compdef.countReacs + ldidx]?

/-- Insertion `std::set<KProc*>::insert`: the set is an ascending list without
repetition; KProcs are ordered by schedule index. -/
def setInsert (k : Nat) : List Nat → List Nat
  | [] => [k]
  | x :: xs => if k < x then k :: x :: xs else if k = x then x :: xs else x :: setInsert k xs

/-- Method `Tetexact::_updateSpec(tet, spec_lidx)`: refresh every KProc of the tet and of
its neighbouring triangles. -/
def _updateSpec (s : State) (tet : Nat) : Except Err State :=
  let updset0 := (s.tets tet).kprocs.foldl (fun acc k => setInsert k acc) []
  let updset := (List.range 4).foldl (fun acc i =>
    match (s.tets tet).nextTri i with
    | none => acc
    | some tri => (s.tris tri).kprocs.foldl (fun acc2 k => setInsert k acc2) acc) updset0
  if updset = [] then .ok s else _update s updset

/-- Method `Tetexact::_updateSpec(tri, spec_lidx)`: refresh every KProc of the triangle. -/
def _updateSpecTri (s : State) (tri : Nat) : Except Err State :=
  let updset := (s.tris tri).kprocs.foldl (fun acc k => setInsert k acc) []
  if updset = [] then .ok s else _update s updset

/-- Method `Tetexact::_reset()`: the full refresh `_update()`. -/
def _reset (s : State) : Except Err State := _updateAll s

/-- The probabilistic rounding shared by the population mutators: `c = floor(n)` as an
unsigned 32-bit value, incremented when `n` has a fractional part and the `getUnfIE` draw
falls below it. No draw is made for an integral `n`. -/
def roundCount {σ : Type} (R : RNG σ) (n : ℚ) (rng : σ) : Nat × σ :=
  let n_int : ℚ := (⌊n⌋ : Int)
  let n_frc := n - n_int
  let c := toUInt ⌊n⌋
  if n_frc > 0 then
    let rand01 := (R.getUnfIE rng).1
    (if rand01 < n_frc then (c + 1) % 4294967296 else c, (R.getUnfIE rng).2)
  else (c, rng)

/-- Method `Tetexact::_setTetCount(tidx, sidx, n)`. -/
def _setTetCount {σ : Type} (R : RNG σ) (E : Engine) (s : State) (tidx sidx : Nat) (n : ℚ)
    (rng : σ) : Outcome σ :=
  if ¬ (tidx < E.pTets.length) then .error (.assertFail, s, rng)
  else if ¬ (sidx < E.countSpecs) then .error (.assertFail, s, rng)
  else if ¬ (n ≥ 0) then .error (.assertFail, s, rng)
  else
    match E.pTets.getD tidx none with
    | none => .error (.argErr, s, rng)
    | some tet =>
      if n > 4294967295 then .error (.argErr, s, rng)
      else
        let lsidx := (s.tets tet).compdef.specG2L sidx
        if lsidx = LIDX_UNDEFINED then .error (.argErr, s, rng)
        else
          let c := (roundCount R n rng).1
          let rng1 := (roundCount R n rng).2
          let s1 := s.setTet tet ((s.tets tet).setCount lsidx c)
          match _updateSpec s1 tet with
          | .error e => .error (e, s1, rng1)
          | .ok s2 => .ok (s2, rng1)

/-- Method `Tetexact::_setTriCount(tidx, sidx, n)`. -/
def _setTriCount {σ : Type} (R : RNG σ) (E : Engine) (s : State) (tidx sidx : Nat) (n : ℚ)
    (rng : σ) : Outcome σ :=
  if ¬ (tidx < E.pTris.length) then .error (.assertFail, s, rng)
  else if ¬ (sidx < E.countSpecs) then .error (.assertFail, s, rng)
  else if ¬ (n ≥ 0) then .error (.assertFail, s, rng)
  else
    match E.pTris.getD tidx none with
    | none => .error (.argErr, s, rng)
    | some tri =>
      if n > 4294967295 then .error (.argErr, s, rng)
      else
        let lsidx := (s.tris tri).patchdef.specG2L sidx
        if lsidx = LIDX_UNDEFINED then .error (.argErr, s, rng)
        else
          let c := (roundCount R n rng).1
          let rng1 := (roundCount R n rng).2
          let s1 := s.setTri tri ((s.tris tri).setCount lsidx c)
          match _updateSpecTri s1 tri with
          | .error e => .error (e, s1, rng1)
          | .ok s2 => .ok (s2, rng1)

/-- Modelled from the spec: Avogadro's number `steps::math::AVOGADRO` (math/constants.hpp
is not among the sources). -/
def AVOGADRO : ℚ := 602214179000000000000000

/-- Method `Tetexact::_setTetConc(tidx, sidx, c)`. -/
def _setTetConc {σ : Type} (R : RNG σ) (E : Engine) (s : State) (tidx sidx : Nat) (c : ℚ)
    (rng : σ) : Outcome σ :=
  if ¬ (c ≥ 0) then .error (.assertFail, s, rng)
  else if ¬ (tidx < E.pTets.length) then .error (.assertFail, s, rng)
  else
    match E.pTets.getD tidx none with
    | none => .error (.argErr, s, rng)
    | some tet =>
      let count := c * (1000 * (s.tets tet).vol * AVOGADRO)
      _setTetCount R E s tidx sidx count rng

/-- Method `Tetexact::_getCompCount(cidx, sidx)`: the counts of the tets of the
compartment are accumulated in an unsigned 32-bit variable, returned as a double. -/
def _getCompCount (E : Engine) (s : State) (cidx sidx : Nat) : Except Err ℚ :=
  if ¬ (cidx < E.pComps.length) then .error .assertFail
  else if ¬ (sidx < E.countSpecs) then .error .assertFail
  else
    match E.pComps[cidx]? with
    | none => .error .assertFail
    | some comp =>
      let slidx := comp.pCompdef.specG2L sidx
      if slidx = LIDX_UNDEFINED then .error .argErr
      else
        let count := comp.pTets.foldl
          (fun count t => (count + (s.tets t).pools slidx) % 4294967296) 0
        .ok ((count : Nat) : ℚ)

/-- The first loop of `_setCompCount` over the tets of the compartment: each tet
receives its share `c·vol/totalvol` rounded down, or up with probability equal to the
fraction, capped so that no more than `c` are injected; tets after the total is
exhausted are set to zero. Returns the state, `nremoved` and the generator. -/
def setCompCountLoop {σ : Type} (R : RNG σ) (slidx c : Nat) (totalvol : ℚ) :
    List Nat → State → Nat → σ → State × Nat × σ
  | [], s, nremoved, rng => (s, nremoved, rng)
  | tet :: rest, s, nremoved, rng =>
    if nremoved = c then
      setCompCountLoop R slidx c totalvol rest
        (s.setTet tet ((s.tets tet).setCount slidx 0)) nremoved rng
    else
      let fract : ℚ := (c : ℚ) * ((s.tets tet).vol / totalvol)
      let n3 := toUInt ⌊fract⌋
      let n3_frac := fract - ((n3 : Nat) : ℚ)
      let n3a := if n3_frac > 0 ∧ (R.getUnfIE rng).1 < n3_frac then (n3 + 1) % 4294967296 else n3
      let rng1 := if n3_frac > 0 then (R.getUnfIE rng).2 else rng
      let nremoved1 := (nremoved + n3a) % 4294967296
      let n3b := if nremoved1 ≥ c then toUInt ((n3a : Int) - ((nremoved1 : Int) - (c : Int)))
        else n3a
      let nremoved2 := if nremoved1 ≥ c then c else nremoved1
      setCompCountLoop R slidx c totalvol rest
        (s.setTet tet ((s.tets tet).setCount slidx n3b)) nremoved2 rng1

/-- The loop `while (c != 0)` of `_setCompCount`: each remaining molecule goes to the
tet picked by `pickTetByVol` on a `getUnfIE` draw. -/
def setCompCountFill {σ : Type} (R : RNG σ) (comp : Comp) (slidx : Nat) :
    Nat → State → σ → Outcome σ
  | 0, s, rng => .ok (s, rng)
  | c + 1, s, rng =>
    match comp.pickTetByVol (R.getUnfIE rng).1 with
    | none => .error (.assertFail, s, (R.getUnfIE rng).2)
    | some tet =>
      setCompCountFill R comp slidx c
        (s.setTet tet ((s.tets tet).setCount slidx (((s.tets tet).pools slidx + 1) % 4294967296)))
        (R.getUnfIE rng).2

/-- The loop of `_setCompCount` and `_setPatchCount` that calls `_updateSpec` on every
voxel of the list. -/
def updateSpecLoop (upd : State → Nat → Except Err State) : List Nat → State → Except Err State
  | [], s => .ok s
  | t :: rest, s =>
    match upd s t with
    | .error e => .error e
    | .ok s1 => updateSpecLoop upd rest s1

/-- Method `Tetexact::_setCompCount(cidx, sidx, n)`. -/
def _setCompCount {σ : Type} (R : RNG σ) (E : Engine) (s : State) (cidx sidx : Nat) (n : ℚ)
    (rng : σ) : Outcome σ :=
  if ¬ (cidx < E.pComps.length) then .error (.assertFail, s, rng)
  else if ¬ (sidx < E.countSpecs) then .error (.assertFail, s, rng)
  else if ¬ (n ≥ 0) then .error (.assertFail, s, rng)
  else
    match E.pComps[cidx]? with
    | none => .error (.assertFail, s, rng)
    | some comp =>
      let slidx := comp.pCompdef.specG2L sidx
      if slidx = LIDX_UNDEFINED then .error (.argErr, s, rng)
      else if n > 4294967295 then .error (.argErr, s, rng)
      else
        let totalvol := comp.pCompdef.vol
        let c := (roundCount R n rng).1
        let rng1 := (roundCount R n rng).2
        let r1 := setCompCountLoop R slidx c totalvol comp.pTets s 0 rng1
        if ¬ (r1.2.1 ≤ c) then .error (.assertFail, r1.1, r1.2.2)
        else
          match setCompCountFill R comp slidx (c - r1.2.1) r1.1 r1.2.2 with
          | .error e => .error e
          | .ok (s2, rng2) =>
            match updateSpecLoop _updateSpec comp.pTets s2 with
            | .error e => .error (e, s2, rng2)
            | .ok s3 =>
              match _reset s3 with
              | .error e => .error (e, s3, rng2)
              | .ok s4 => .ok (s4, rng2)

/-- Method `Tetexact::_setCompConc(cidx, sidx, c)`. -/
def _setCompConc {σ : Type} (R : RNG σ) (E : Engine) (s : State) (cidx sidx : Nat) (c : ℚ)
    (rng : σ) : Outcome σ :=
  if ¬ (c ≥ 0) then .error (.assertFail, s, rng)
  else if ¬ (cidx < E.pComps.length) then .error (.assertFail, s, rng)
  else
    match E.pComps[cidx]? with
    | none => .error (.assertFail, s, rng)
    | some comp =>
      let count := c * (1000 * comp.pCompdef.vol * AVOGADRO)
      _setCompCount R E s cidx sidx count rng

/-- The first loop of `_setPatchCount` over the triangles of the patch; the analogue of
`setCompCountLoop` with areas instead of volumes. -/
def setPatchCountLoop {σ : Type} (R : RNG σ) (slidx c : Nat) (totalarea : ℚ) :
    List Nat → State → Nat → σ → State × Nat × σ
  | [], s, nremoved, rng => (s, nremoved, rng)
  | tri :: rest, s, nremoved, rng =>
    if nremoved = c then
      setPatchCountLoop R slidx c totalarea rest
        (s.setTri tri ((s.tris tri).setCount slidx 0)) nremoved rng
    else
      let fract : ℚ := (c : ℚ) * ((s.tris tri).area / totalarea)
      let n3 := toUInt ⌊fract⌋
      let n3_frac := fract - ((n3 : Nat) : ℚ)
      let n3a := if n3_frac > 0 ∧ (R.getUnfIE rng).1 < n3_frac then (n3 + 1) % 4294967296 else n3
      let rng1 := if n3_frac > 0 then (R.getUnfIE rng).2 else rng
      let nremoved1 := (nremoved + n3a) % 4294967296
      let n3b := if nremoved1 ≥ c then toUInt ((n3a : Int) - ((nremoved1 : Int) - (c : Int)))
        else n3a
      let nremoved2 := if nremoved1 ≥ c then c else nremoved1
      setPatchCountLoop R slidx c totalarea rest
        (s.setTri tri ((s.tris tri).setCount slidx n3b)) nremoved2 rng1

/-- The loop `while (c != 0)` of `_setPatchCount`. -/
def setPatchCountFill {σ : Type} (R : RNG σ) (patch : Patch) (slidx : Nat) :
    Nat → State → σ → Outcome σ
  | 0, s, rng => .ok (s, rng)
  | c + 1, s, rng =>
    match patch.pickTriByArea (R.getUnfIE rng).1 with
    | none => .error (.assertFail, s, (R.getUnfIE rng).2)
    | some tri =>
      setPatchCountFill R patch slidx c
        (s.setTri tri ((s.tris tri).setCount slidx (((s.tris tri).pools slidx + 1) % 4294967296)))
        (R.getUnfIE rng).2

/-- Method `Tetexact::_setPatchCount(pidx, sidx, n)`. -/
def _setPatchCount {σ : Type} (R : RNG σ) (E : Engine) (s : State) (pidx sidx : Nat) (n : ℚ)
    (rng : σ) : Outcome σ :=
  if ¬ (pidx < E.pPatches.length) then .error (.assertFail, s, rng)
  else if ¬ (sidx < E.countSpecs) then .error (.assertFail, s, rng)
  else if ¬ (n ≥ 0) then .error (.assertFail, s, rng)
  else
    match E.pPatches[pidx]? with
    | none => .error (.assertFail, s, rng)
    | some patch =>
      let slidx := patch.pPatchdef.specG2L sidx
      if slidx = LIDX_UNDEFINED then .error (.argErr, s, rng)
      else if n > 4294967295 then .error (.argErr, s, rng)
      else
        let totalarea := patch.pPatchdef.area
        let c := (roundCount R n rng).1
        let rng1 := (roundCount R n rng).2
        let r1 := setPatchCountLoop R slidx c totalarea patch.pTris s 0 rng1
        if ¬ (r1.2.1 ≤ c) then .error (.assertFail, r1.1, r1.2.2)
        else
          match setPatchCountFill R patch slidx (c - r1.2.1) r1.1 r1.2.2 with
          | .error e => .error e
          | .ok (s2, rng2) =>
            match updateSpecLoop _updateSpecTri patch.pTris s2 with
            | .error e => .error (e, s2, rng2)
            | .ok s3 =>
              match _reset s3 with
              | .error e => .error (e, s3, rng2)
              | .ok s4 => .ok (s4, rng2)

/-- Method `Tetexact::_setTetDiffActive(tidx, didx, act)`: set or clear the INACTIVATED
flag of the Diff of rule `didx` in the tet, then refresh its selector record and the total
propensity. An error carries the state as it was when it was raised. -/
def _setTetDiffActive (E : Engine) (s : State) (tidx didx : Nat) (act : Bool) :
    Except (Err × State) State :=
  if ¬ (tidx < E.pTets.length) then .error (.assertFail, s)
  else if ¬ (didx < E.countDiffs) then .error (.assertFail, s)
  else
    match E.pTets.getD tidx none with
    | none => .error (.argErr, s)
    | some tet =>
      let ldidx := (s.tets tet).compdef.diffG2L didx
      if ldidx = LIDX_UNDEFINED then .error (.argErr, s)
      else
        match (s.tets tet).diff ldidx with
        | none => .error (.nullDeref, s)
        | some k =>
          let s1 := s.setKProc k ((s.pKProcs k).setActive act)
          match _updateElement s1 k with
          | .error e => .error (e, s1)
          | .ok s2 => .ok (_updateSum s2)

/-- The inner loop of `_setDiffBoundaryDiffusionActive` over the diffusion rules `d` of
one boundary tet: every Diff whose ligand is the species `sidx` gets
`setDiffBndActive(direction, act)`. -/
def diffBndLoopDiffs (tet sidx direction : Nat) (act : Bool) :
    List Nat → State → Except (Err × State) State
  | [], s => .ok s
  | d :: rest, s =>
    match (s.tets tet).diff d with
    | none => .error (.nullDeref, s)
    | some k =>
      match (s.pKProcs k).variant with
      | .diff df =>
        if df.pDiffdef.lig = sidx then
          match Diff.setDiffBndActive s df direction act with
          | .error e => .error (e, s)
          | .ok df2 =>
            diffBndLoopDiffs tet sidx direction act rest
              (s.setKProc k { s.pKProcs k with variant := .diff df2 })
        else diffBndLoopDiffs tet sidx direction act rest s
      | _ => .error (.nullDeref, s)

/-- The outer loop of `_setDiffBoundaryDiffusionActive` over the recorded pairs of
boundary tet (mesh index) and direction. -/
def diffBndLoopTets (E : Engine) (sidx : Nat) (act : Bool) :
    List (Nat × Nat) → State → Except (Err × State) State
  | [], s => .ok s
  | (bdtet, direction) :: rest, s =>
    match E.pTets.getD bdtet none with
    | none => .error (.nullDeref, s)
    | some tet =>
      if ¬ (direction < 4) then .error (.assertFail, s)
      else
        match diffBndLoopDiffs tet sidx direction act
            (List.range (s.tets tet).compdef.countDiffs) s with
        | .error e => .error e
        | .ok s1 => diffBndLoopTets E sidx act rest s1

/-- Method `Tetexact::_setDiffBoundaryDiffusionActive(dbidx, sidx, act)`. -/
def _setDiffBoundaryDiffusionActive (E : Engine) (s : State) (dbidx sidx : Nat) (act : Bool) :
    Except (Err × State) State :=
  if ¬ (dbidx < E.pDiffBoundaries.length) then .error (.assertFail, s)
  else if ¬ (sidx < E.countSpecs) then .error (.assertFail, s)
  else
    match E.pDiffBoundaries[dbidx]? with
    | none => .error (.assertFail, s)
    | some diffb =>
      match E.pComps[diffb.compA]?, E.pComps[diffb.compB]? with
      | some compA, some compB =>
        let lsidxA := compA.pCompdef.specG2L sidx
        let lsidxB := compB.pCompdef.specG2L sidx
        if lsidxA = LIDX_UNDEFINED ∨ lsidxB = LIDX_UNDEFINED then .error (.argErr, s)
        else diffBndLoopTets E sidx act (diffb.getTets.zip diffb.getTetDirection) s
      | _, _ => .error (.nullDeref, s)

/-! ## The invariant of the composition-rejection groups (specification side) -/

/-- The sum of the rates `rate m` over the current members `m` of the group `g`, that is
over the entries `indices[0..size)`; 0 for an empty group. -/
def memberSum (rate : Nat → ℚ) (g : CRGroup) : ℚ :=
  ∑ j in Finset.range g.size, rate (g.indices j)

/-- The rate stored in the selector record of the KProc `m`. -/
def storedRate (s : State) (m : Nat) : ℚ := (s.pKProcs m).crData.rate

/-- The group that `_getGroup(pow)` returns has been pushed onto its vector. -/
def groupExists (s : State) (pow : Int) : Prop :=
  if pow ≥ 0 then pow.toNat < s.pGroupsSize else (-pow).toNat < s.nGroupsSize

/-- The members of the group `g` of power `pow` are KProcs of the schedule whose records
say: recorded, in the group of power `pow`, at the slot where the group holds them. -/
def GroupMembers (s : State) (g : CRGroup) (pow : Int) : Prop :=
  ∀ j, j < g.size → g.indices j < s.nEntries ∧
    (s.pKProcs (g.indices j)).crData.recorded = true ∧
    (s.pKProcs (g.indices j)).crData.pow = pow ∧
    (s.pKProcs (g.indices j)).crData.pos = j

/-- The invariant of the selector: the schedule fits a `uint`; every positive group `i`
and every negative group `i > 0` holds its members consistently; negative group 0 (no
power maps to it) is empty with sum 0; every recorded KProc sits in the group of its
power at its recorded slot; and every group's stored sum is the sum of the stored rates
of its members. -/
structure CRInv (s : State) : Prop where
  entries : s.nEntries < 4294967296
  pMembers : ∀ i, i < s.pGroupsSize → GroupMembers s (s.pGroups i) (i : Int)
  nMembers : ∀ i, i < s.nGroupsSize → 0 < i → GroupMembers s (s.nGroups i) (-(i : Int))
  nZero : 0 < s.nGroupsSize → (s.nGroups 0).size = 0 ∧ (s.nGroups 0).sum = 0
  recorded : ∀ m, m < s.nEntries → (s.pKProcs m).crData.recorded = true →
    groupExists s (s.pKProcs m).crData.pow ∧
    (s.pKProcs m).crData.pos < (_getGroup s (s.pKProcs m).crData.pow).size ∧
    (_getGroup s (s.pKProcs m).crData.pow).indices (s.pKProcs m).crData.pos = m
  pSums : ∀ i, i < s.pGroupsSize → (s.pGroups i).sum = memberSum (storedRate s) (s.pGroups i)
  nSums : ∀ i, i < s.nGroupsSize → (s.nGroups i).sum = memberSum (storedRate s) (s.nGroups i)

/-- The invariant around one `_updateElement(kp)`, while the record of `kp` is in flux:
`rate` stands for the stored rates the group sums account for, and `st` says where
`kp` currently sits (`none`: in no group; `some p`: in the group of power `p` at its
recorded slot). The fields `recorded` and `pow` of `kp` itself are not constrained. -/
structure InvAt (rate : Nat → ℚ) (s : State) (kp : Nat) (st : Option Int) : Prop where
  entries : s.nEntries < 4294967296
  kpValid : kp < s.nEntries
  groups : ∀ pow, groupExists s pow →
    (_getGroup s pow).sum = memberSum rate (_getGroup s pow) ∧
    ∀ j, j < (_getGroup s pow).size →
      (_getGroup s pow).indices j < s.nEntries ∧
      ((_getGroup s pow).indices j ≠ kp →
        (s.pKProcs ((_getGroup s pow).indices j)).crData.recorded = true ∧
        (s.pKProcs ((_getGroup s pow).indices j)).crData.pow = pow) ∧
      ((_getGroup s pow).indices j = kp → st = some pow) ∧
      (s.pKProcs ((_getGroup s pow).indices j)).crData.pos = j
  nZero : 0 < s.nGroupsSize → (s.nGroups 0).size = 0 ∧ (s.nGroups 0).sum = 0
  others : ∀ m, m < s.nEntries → m ≠ kp → (s.pKProcs m).crData.recorded = true →
    groupExists s (s.pKProcs m).crData.pow ∧
    (s.pKProcs m).crData.pos < (_getGroup s (s.pKProcs m).crData.pow).size ∧
    (_getGroup s (s.pKProcs m).crData.pow).indices (s.pKProcs m).crData.pos = m
  self : ∀ p, st = some p → groupExists s p ∧
    (s.pKProcs kp).crData.pos < (_getGroup s p).size ∧
    (_getGroup s p).indices (s.pKProcs kp).crData.pos = kp

/-- The selector as the constructor and `reset()` leave it: both vectors of groups are
empty and no KProc of the schedule is recorded. -/
def CREmpty (s : State) : Prop :=
  s.nEntries < 4294967296 ∧ s.pGroupsSize = 0 ∧ s.nGroupsSize = 0 ∧
  ∀ m, m < s.nEntries → (s.pKProcs m).crData.recorded = false

/-- A change of the state that leaves the selector alone (the groups, the schedule size and
every selector record), such as a change of counts, flags or constants between two
calls of `_updateElement`. -/
def CRSame (s s2 : State) : Prop :=
  s2.nEntries = s.nEntries ∧ s2.pGroups = s.pGroups ∧ s2.pGroupsSize = s.pGroupsSize ∧
  s2.nGroups = s.nGroups ∧ s2.nGroupsSize = s.nGroupsSize ∧
  ∀ m, (s2.pKProcs m).crData = (s.pKProcs m).crData

/-- The states reached from empty groups by any sequence of `_updateElement` calls on
KProcs of the schedule, of `_updateSum` calls, and of changes that leave the selector
alone. -/
inductive CRReach : State → Prop
  | empty (s : State) (h : CREmpty s) : CRReach s
  | element (s s2 : State) (kp : Nat) (h : CRReach s) (hkp : kp < s.nEntries)
      (hu : _updateElement s kp = .ok s2) : CRReach s2
  | other (s s2 : State) (h : CRReach s) (hs : CRSame s s2) : CRReach s2
  | sum (s : State) (h : CRReach s) : CRReach (_updateSum s)

/-! ## Frame of `_setDiffBoundaryDiffusionActive` (specification side) -/

/-- The KProc `k` is a diffusion rule of a tet adjacent to the boundary `db`, and `i` is
the direction recorded for that tet. -/
def DiffBoundary.records (E : Engine) (s : State) (db : DiffBoundary) (k i : Nat) : Prop :=
  ∃ bdtet tet j, (bdtet, i) ∈ db.getTets.zip db.getTetDirection ∧
    E.pTets.getD bdtet none = some tet ∧ j < (s.tets tet).compdef.countDiffs ∧
    (s.tets tet).diff j = some k

/-- The Diff `d2` differs from `d` at most in boundary-active flags of directions
satisfying `rec`, which then hold `act`, and in what `setDcst` derives from the flags
(`scaledDcst` and the CDF selector): either nothing changed, or some recorded direction
exists and `d2` is what `setDcst` recomputes from its own flags and constant. -/
def BndChange (s : State) (act : Bool) (rec : Nat → Prop) (d d2 : Diff) : Prop :=
  d2.ligGIdx = d.ligGIdx ∧ d2.lidxTet = d.lidxTet ∧ d2.pDiffdef = d.pDiffdef ∧
  d2.pTet = d.pTet ∧ d2.pUpdVec = d.pUpdVec ∧ d2.pNeighbCompLidx = d.pNeighbCompLidx ∧
  d2.pDcst = d.pDcst ∧ d2.pDiffBndDirection = d.pDiffBndDirection ∧
  (∀ i, d2.pDiffBndActive i ≠ d.pDiffBndActive i → rec i ∧ d2.pDiffBndActive i = act) ∧
  (d2 = d ∨ ((∃ i, rec i) ∧ Diff.setDcst s d2 d2.pDcst = .ok d2))

/-- What `_setDiffBoundaryDiffusionActive(db, sidx, act)` may change between `s` and `s2`:
nothing outside the KProcs (every count, the selector groups, the total propensity, time
and step counter agree), and of a KProc only its derived Diff object, only when its ligand
is `sidx`, and then only as `BndChange` allows for the directions the boundary records for
it. -/
def BndFrame (E : Engine) (s : State) (db : DiffBoundary) (sidx : Nat) (act : Bool)
    (s2 : State) : Prop :=
  s2.tets = s.tets ∧ s2.tris = s.tris ∧ s2.nEntries = s.nEntries ∧
  s2.nGroups = s.nGroups ∧ s2.nGroupsSize = s.nGroupsSize ∧
  s2.pGroups = s.pGroups ∧ s2.pGroupsSize = s.pGroupsSize ∧
  s2.pSum = s.pSum ∧ s2.nSum = s.nSum ∧ s2.pA0 = s.pA0 ∧
  s2.pTime = s.pTime ∧ s2.pNSteps = s.pNSteps ∧
  ∀ k, (s2.pKProcs k).rExtent = (s.pKProcs k).rExtent ∧
    (s2.pKProcs k).pFlags = (s.pKProcs k).pFlags ∧
    (s2.pKProcs k).pSchedIDX = (s.pKProcs k).pSchedIDX ∧
    (s2.pKProcs k).crData = (s.pKProcs k).crData ∧
    ((s2.pKProcs k).variant = (s.pKProcs k).variant ∨
      ∃ d d2, (s.pKProcs k).variant = .diff d ∧ (s2.pKProcs k).variant = .diff d2 ∧
        d.pDiffdef.lig = sidx ∧ BndChange s act (db.records E s k) d d2)

/-- Sanity of the boundary `db` in state `s` for species `sidx`: every recorded tet is
assigned to a compartment, its direction is one of the four faces, each of its local
diffusion rules is a Diff object, and for the Diffs of ligand `sidx` the recorded direction
is flagged as a boundary direction, the constant is not negative and the geometry of the
tet is not negative. -/
def BndSane (E : Engine) (s : State) (db : DiffBoundary) (sidx : Nat) : Prop :=
  ∀ bdtet dir, (bdtet, dir) ∈ db.getTets.zip db.getTetDirection →
    ∃ tet, E.pTets.getD bdtet none = some tet ∧ dir < 4 ∧
      ∀ j, j < (s.tets tet).compdef.countDiffs →
        ∃ k df, (s.tets tet).diff j = some k ∧ (s.pKProcs k).variant = .diff df ∧
          (df.pDiffdef.lig = sidx →
            df.pDiffBndDirection dir = true ∧ 0 ≤ df.pDcst ∧
            (∀ i, i < 4 → 0 ≤ (s.tets df.pTet).area i) ∧ 0 ≤ (s.tets df.pTet).vol)

/-! ## Populations of a compartment (specification side) -/

/-- The sum over the tets listed in `L` of the pool at local species index `slidx`. -/
def poolSum (s : State) (L : List Nat) (slidx : Nat) : Nat :=
  (L.map (fun t => (s.tets t).pools slidx)).sum

/-- The state in which the tets listed in `L` hold `v t` molecules of the species at local
index `slidx` and everything else is as in `s`. -/
def State.withCounts (s : State) (L : List Nat) (slidx : Nat) (v : Nat → Nat) : State :=
  { s with tets := fun t => if t ∈ L then (s.tets t).setCount slidx (v t) else s.tets t }

namespace Demo

/-- The compartment of the concrete system: tets 0 and 1; the picker returns tet 0 for a
draw below 1/2 and tet 1 otherwise (both tets have volume 1). -/
def comp0 : Comp :=
  { pCompdef := cdef, pVol := 2, pTets := [0, 1]
    pickTetByVol := fun r => if r < 1 / 2 then some 0 else some 1 }

/-- The patch of the concrete system: triangle 0. -/
def patch0 : Patch :=
  { pPatchdef := pdef, pArea := 1, pTris := [0], pickTriByArea := fun _ => some 0 }

/-- The registries of the concrete system: one compartment, one patch, no diffusion
boundary; mesh tets 0 and 1 and mesh triangle 0 are all assigned. -/
def engine : Engine :=
  { countSpecs := 2, countReacs := 1, countSReacs := 1, countDiffs := 1
    pComps := [comp0], pPatches := [patch0]
    pDiffBoundaries := [], pTets := [some 0, some 1], pTris := [some 0] }

end Demo

namespace Demo

/-- A compartment definition with two species, both defined, and one diffusion rule. -/
def cdefD : Compdef :=
  { cdef with specG2L := fun g => if g < 2 then g else LIDX_UNDEFINED, countReacs := 0 }

/-- The pure-diffusion system: tet 0 holds 2 A and 1 B, tet 1 is empty, they are each
other's neighbour through face 0, and every KProc is the diffusion of A out of tet 0. -/
def diffState : State :=
  { tets := fun i => if i = 0
      then { tet0 with compdef := cdefD, nextTri := fun _ => none, kprocs := [0] }
      else { tet1 with compdef := cdefD }
    tris := fun _ => tri0
    pKProcs := fun _ =>
      { rExtent := 0, pFlags := 0, pSchedIDX := 0
        crData := { recorded := true, pow := 2, pos := 0, rate := 2 }
        variant := .diff { diff1 with pUpdVec := fun _ => [0] } }
    nEntries := 1
    nGroups := fun i => CRGroup.new (-(i : Int))
    nGroupsSize := 0
    pGroups := fun i => if i = 2
      then { capacity := 1024, size := 1, max := 4, sum := 2, indices := fun _ => 0 }
      else CRGroup.new (i : Int)
    pGroupsSize := 3
    pSum := 0, nSum := 0, pA0 := 2, pTime := 0, pNSteps := 0 }

end Demo

namespace Demo

/-- The registries of the pure-diffusion system: one compartment with tets 0 and 1. -/
def engineD : Engine :=
  { engine with pComps := [{ comp0 with pCompdef := cdefD }] }

end Demo

namespace Demo

/-- The diffusion of A out of tet `t` towards its neighbour through face 0, which is a
diffusion-boundary face that is not active: `d = (0,0,0,0)`. -/
def diffB (t : Nat) : Diff :=
  { ligGIdx := 0, lidxTet := 0, pDiffdef := { gidx := 0, lig := 0 }, pTet := t
    pUpdVec := fun _ => [0, 1]
    pNeighbCompLidx := fun i => if i = 0 then 0 else -1
    pScaledDcst := 0, pDcst := 1, pCDFSelector := fun _ => 0
    pDiffBndActive := fun _ => false, pDiffBndDirection := fun i => i == 0 }

/-- Two compartments of one tet each, joined by a diffusion boundary: tet 0 holds 2 A
and 1 B, tet 1 is empty, they are each other's neighbour through face 0, and KProc `i` is
the diffusion of A out of tet `i`. The boundary is closed, so no propensity is recorded. -/
def bndState : State :=
  { tets := fun i => if i = 0
      then { tet0 with compdef := cdefD, nextTri := fun _ => none, kprocs := [0] }
      else { tet1 with compdef := cdefD, kprocs := [1] }
    tris := fun _ => tri0
    pKProcs := fun i =>
      { rExtent := 0, pFlags := 0, pSchedIDX := i
        crData := { recorded := false, pow := 0, pos := 0, rate := 0 }
        variant := .diff (diffB (if i = 0 then 0 else 1)) }
    nEntries := 2
    nGroups := fun i => CRGroup.new (-(i : Int))
    nGroupsSize := 0
    pGroups := fun i => CRGroup.new (i : Int)
    pGroupsSize := 0
    pSum := 0, nSum := 0, pA0 := 0, pTime := 0, pNSteps := 0 }

/-- The diffusion boundary between compartments 0 and 1: tets 0 and 1, each crossing it
through its face 0. -/
def boundary0 : DiffBoundary :=
  { compA := 0, compB := 1, getTets := [0, 1], getTetDirection := [0, 0] }

/-- The registries of the two-compartment system; the model knows three species, of which
the third is defined in neither compartment. -/
def engineB : Engine :=
  { countSpecs := 3, countReacs := 0, countSReacs := 0, countDiffs := 1
    pComps := [{ pCompdef := cdefD, pVol := 1, pTets := [0], pickTetByVol := fun _ => some 0 },
               { pCompdef := cdefD, pVol := 1, pTets := [1], pickTetByVol := fun _ => some 1 }]
    pPatches := [], pDiffBoundaries := [boundary0]
    pTets := [some 0, some 1], pTris := [] }

end Demo

namespace Demo

/-- The concrete system as the constructor leaves it: no group has been pushed and no
KProc is recorded. -/
def emptyState : State :=
  { state with
    pKProcs := fun i => { kproc i with crData := CRKProcData.cleared }
    pGroups := fun i => CRGroup.new (i : Int)
    pGroupsSize := 0
    pA0 := 0 }

end Demo

/-! ## Mesoscopic rate constants -/

/-- Static function `comp_ccst(kcst, vol, order, compvol)` of reac.cpp: `kcst` times
`pow(vscale, -o1)` with `vscale = 1.0e3 * vol * AVOGADRO` and the `int`
`o1 = static_cast<int>(order) - 1`; the last parameter is not used by the function. The
rational power is the value of `pow` whenever `vscale` is not 0. -/
def comp_ccst (kcst vol : ℚ) (order : Nat) (_compvol : ℚ) : ℚ :=
  let vscale := 1000 * vol * AVOGADRO
  let o1 := wrapInt (toInt order - 1)
  kcst * vscale ^ (wrapInt (-o1))

/-- Constructor `Reac::Reac(rdef, tet)` for the tet at index `tet`. -/
def Reac.new (s : State) (rdef : Reacdef) (tet : Nat) : Except Err Reac :=
  let cdef := (s.tets tet).compdef
  let kcst := cdef.kcst (cdef.reacG2L rdef.gidx)
  let ccst := comp_ccst kcst (s.tets tet).vol rdef.order cdef.vol
  if ¬ (ccst ≥ 0) then .error .assertFail
  else .ok { pReacdef := rdef, pTet := tet, pUpdVec := [], pCcst := ccst, pKcst := kcst }

/-- Method `Reac::resetCcst()`: both constants are restored from the compartment default. -/
def Reac.resetCcst (s : State) (r : Reac) : Except Err Reac :=
  let cdef := (s.tets r.pTet).compdef
  let kcst := cdef.kcst (cdef.reacG2L r.pReacdef.gidx)
  let ccst := comp_ccst kcst (s.tets r.pTet).vol r.pReacdef.order cdef.vol
  if ¬ (ccst ≥ 0) then .error .assertFail
  else .ok { r with pKcst := kcst, pCcst := ccst }

/-- Method `Reac::setKcst(k)`. -/
def Reac.setKcst (s : State) (r : Reac) (k : ℚ) : Except Err Reac :=
  if ¬ (k ≥ 0) then .error .assertFail
  else
    let ccst := comp_ccst k (s.tets r.pTet).vol r.pReacdef.order (s.tets r.pTet).compdef.vol
    if ¬ (ccst ≥ 0) then .error .assertFail
    else .ok { r with pKcst := k, pCcst := ccst }

/-- Method `Reac::reset()` on the KProc `k` that carries the reaction `r`. -/
def Reac.reset (s : State) (k : KProc) (r : Reac) : Except Err KProc :=
  match Reac.resetCcst s r with
  | .error e => .error e
  | .ok r2 =>
    .ok (KProc.setActive
      { k with crData := CRKProcData.cleared, rExtent := 0, variant := .reac r2 } true)

/-- Static function `comp_ccst_vol(kcst, vol, order)` of sreac.cpp. -/
def comp_ccst_vol (kcst vol : ℚ) (order : Nat) : ℚ :=
  let vscale := 1000 * vol * AVOGADRO
  let o1 := wrapInt (toInt order - 1)
  kcst * vscale ^ (wrapInt (-o1))

/-- Static function `comp_ccst_area(kcst, area, order)` of sreac.cpp. -/
def comp_ccst_area (kcst area : ℚ) (order : Nat) : ℚ :=
  let ascale := area * AVOGADRO
  let o1 := wrapInt (toInt order - 1)
  kcst * ascale ^ (wrapInt (-o1))

/-- The block that the constructor, `resetCcst` and `setKcst` of sreac.cpp each carry in
full: the constant for the macroscopic `kcst`, scaled by the volume of the inner tet
(`inside() == true`) or of the outer tet, or by the area of the triangle when
`surf_surf()` holds; the tet is asserted to exist. -/
def SReac.ccstFor (s : State) (sr : SReac) (kcst : ℚ) : Except Err ℚ :=
  if sr.pSReacdef.surf_surf = false then
    if sr.pSReacdef.inside = true then
      match (s.tris sr.pTri).iTet with
      | none => .error .assertFail
      | some t => .ok (comp_ccst_vol kcst (s.tets t).vol sr.pSReacdef.order)
    else
      match (s.tris sr.pTri).oTet with
      | none => .error .assertFail
      | some t => .ok (comp_ccst_vol kcst (s.tets t).vol sr.pSReacdef.order)
  else .ok (comp_ccst_area kcst (s.tris sr.pTri).area sr.pSReacdef.order)

/-- Constructor `SReac::SReac(srdef, tri)` for the triangle at index `tri`. -/
def SReac.new (s : State) (srdef : SReacdef) (tri : Nat) : Except Err SReac :=
  let pdef := (s.tris tri).patchdef
  let kcst := pdef.kcst (pdef.sreacG2L srdef.gidx)
  let sr0 : SReac := { pSReacdef := srdef, pTri := tri, pUpdVec := [], pCcst := 0, pKcst := kcst }
  match SReac.ccstFor s sr0 kcst with
  | .error e => .error e
  | .ok ccst =>
    if ¬ (ccst ≥ 0) then .error .assertFail
    else .ok { sr0 with pCcst := ccst }

/-- Method `SReac::resetCcst()`. -/
def SReac.resetCcst (s : State) (sr : SReac) : Except Err SReac :=
  let pdef := (s.tris sr.pTri).patchdef
  let kcst := pdef.kcst (pdef.sreacG2L sr.pSReacdef.gidx)
  match SReac.ccstFor s sr kcst with
  | .error e => .error e
  | .ok ccst =>
    if ¬ (ccst ≥ 0) then .error .assertFail
    else .ok { sr with pKcst := kcst, pCcst := ccst }

/-- Method `SReac::setKcst(k)`. -/
def SReac.setKcst (s : State) (sr : SReac) (k : ℚ) : Except Err SReac :=
  if ¬ (k ≥ 0) then .error .assertFail
  else
    match SReac.ccstFor s sr k with
    | .error e => .error e
    | .ok ccst =>
      if ¬ (ccst ≥ 0) then .error .assertFail
      else .ok { sr with pKcst := k, pCcst := ccst }

/-- Method `SReac::reset()` on the KProc `k` that carries the surface reaction `sr`. -/
def SReac.reset (s : State) (k : KProc) (sr : SReac) : Except Err KProc :=
  match SReac.resetCcst s sr with
  | .error e => .error e
  | .ok sr2 =>
    .ok (KProc.setActive
      { k with crData := CRKProcData.cleared, rExtent := 0, variant := .sreac sr2 } true)

/-- Virtual call `KProc::reset()`. -/
def KProc.reset (s : State) (k : KProc) : Except Err KProc :=
  match k.variant with
  | .reac r => Reac.reset s k r
  | .sreac sr => SReac.reset s k sr
  | .diff d => Diff.reset s k d

/-! ## Reset of the engine -/

/-- The loop over the KProcs of one voxel or facet that calls `reset()` on each. -/
def resetKProcs : List Nat → State → Except Err State
  | [], s => .ok s
  | k :: rest, s =>
    match KProc.reset s (s.pKProcs k) with
    | .error e => .error e
    | .ok k2 => resetKProcs rest (s.setKProc k k2)

/-- Modelled from the spec: `Tet::reset()` (tet.cpp is not among the sources) zeroes the
counts of the tet, clears its clamp flags and resets each of its KProcs. -/
def Tet.reset (s : State) (tet : Nat) : Except Err State :=
  resetKProcs (s.tets tet).kprocs
    (s.setTet tet { s.tets tet with pools := fun _ => 0, clamped := fun _ => false })

/-- Modelled from the spec: `Tri::reset()` (tri.cpp is not among the sources) zeroes the
counts of the triangle, clears its clamp flags and resets each of its KProcs. -/
def Tri.reset (s : State) (tri : Nat) : Except Err State :=
  resetKProcs (s.tris tri).kprocs
    (s.setTri tri { s.tris tri with pools := fun _ => 0, clamped := fun _ => false })

/-- The loop of `Tetexact::reset()` over `pTets`, skipping the NULL entries. -/
def resetTets : List (Option Nat) → State → Except Err State
  | [], s => .ok s
  | none :: rest, s => resetTets rest s
  | some t :: rest, s =>
    match Tet.reset s t with
    | .error e => .error e
    | .ok s1 => resetTets rest s1

/-- The loop of `Tetexact::reset()` over `pTris`, skipping the NULL entries. -/
def resetTris : List (Option Nat) → State → Except Err State
  | [], s => .ok s
  | none :: rest, s => resetTris rest s
  | some t :: rest, s =>
    match Tri.reset s t with
    | .error e => .error e
    | .ok s1 => resetTris rest s1

/-- Method `Tetexact::reset()`. The calls `Comp::reset` and `Patch::reset` forward to the
`Compdef` and `Patchdef`, which hold no state of this model. Clearing a vector of groups
sets its size to 0. `resetTime` and `resetNSteps` are modelled from the spec (statedef.hpp
is not among the sources): they zero the time and the step counter. -/
def reset (E : Engine) (s : State) : Except Err State :=
  match resetTets E.pTets s with
  | .error e => .error e
  | .ok s1 =>
    match resetTris E.pTris s1 with
    | .error e => .error e
    | .ok s2 =>
      .ok { s2 with
        nGroupsSize := 0, pGroupsSize := 0
        pSum := 0, nSum := 0, pA0 := 0
        pTime := 0, pNSteps := 0 }

namespace Demo

/-- The surface reaction S + A(outer) → B(outer) on triangle 0: second order, not
surface-surface, outside orientation, with `k = 1`. -/
def sreacOut : SReac :=
  { pSReacdef := { gidx := 0, order := 2, surf_surf := false, inside := false, outside := true
                   dep_S := fun g => g == 0, dep_I := fun _ => false, dep_O := fun g => g == 0
                   updColl_S := [0], updColl_I := [], updColl_O := [0, 1] }
    pTri := 0, pUpdVec := [2], pCcst := 1, pKcst := 1 }

/-- The concrete system with triangle 0 turned round: tet 0 (2 A, 1 B, volume 1) is its
outer tet, it has no inner tet, and the patch definition reads the reactant A on the outer
side. -/
def outState : State :=
  { state with
    tris := fun _ => { tri0 with
      iTet := none, oTet := some 0
      patchdef := { pdef with
        sreac_lhs_I_bgn := fun _ _ => 0
        sreac_lhs_O_bgn := fun _ sp => if sp = 0 then 1 else 0
        sreac_upd_I_bgn := fun _ _ => 0
        sreac_upd_O_bgn := fun _ sp => if sp = 0 then -1 else if sp = 1 then 1 else 0 } } }

/-- The two-compartment system with face 0 of both tets marked as a diffusion-boundary
face, as `setDiffBndDirection(0)` leaves them before the Diffs are constructed. -/
def gateState : State :=
  { bndState with
    tets := fun i => { bndState.tets i with getDiffBndDirection := fun j => j == 0 } }

end Demo

/-! ## Frame of `reset()` (specification side) -/

/-- The states `s` and `s2` have the same geometry and definitions: every tet and every
triangle agrees in all that a `reset()` of a KProc reads (definition, volume, areas,
distances, neighbours) and in its list of KProcs; counts and clamp flags may differ. -/
def GeoSame (s s2 : State) : Prop :=
  (∀ t, (s2.tets t).compdef = (s.tets t).compdef ∧ (s2.tets t).vol = (s.tets t).vol ∧
    (s2.tets t).area = (s.tets t).area ∧ (s2.tets t).dist = (s.tets t).dist ∧
    (s2.tets t).nextTet = (s.tets t).nextTet ∧ (s2.tets t).kprocs = (s.tets t).kprocs) ∧
  (∀ t, (s2.tris t).patchdef = (s.tris t).patchdef ∧ (s2.tris t).area = (s.tris t).area ∧
    (s2.tris t).iTet = (s.tris t).iTet ∧ (s2.tris t).oTet = (s.tris t).oTet ∧
    (s2.tris t).kprocs = (s.tris t).kprocs)

/-- The KProc `k` is as its own `reset()` leaves it: resetting it changes nothing. -/
def KProc.fresh (s : State) (k : KProc) : Prop := KProc.reset s k = .ok k

/-- The KProcs that `Tetexact::reset()` reaches: those owned by a tet or a triangle that
is assigned to a compartment or a patch. -/
def Engine.owns (E : Engine) (s : State) (k : Nat) : Prop :=
  (∃ t, some t ∈ E.pTets ∧ k ∈ (s.tets t).kprocs) ∨
  (∃ t, some t ∈ E.pTris ∧ k ∈ (s.tris t).kprocs)

/-- The state `s` is a stage of `Tetexact::reset()` started in `s0`: the geometry and the
size of the schedule are those of `s0`, and every KProc is either still the object of `s0`
or what its `reset()` made of it. -/
def ResetStage (s0 s : State) : Prop :=
  GeoSame s0 s ∧ s.nEntries = s0.nEntries ∧
  ∀ k, s.pKProcs k = s0.pKProcs k ∨ KProc.reset s0 (s0.pKProcs k) = .ok (s.pKProcs k)

namespace Demo

/-- The compartment definition with reaction 0 turned into the zero-order source ∅ → B. -/
def cdefZ : Compdef :=
  { cdef with
    reac_lhs_bgn := fun _ _ => 0
    reac_upd_bgn := fun _ sp => if sp = 1 then 1 else 0 }

/-- The zero-order reaction ∅ → B in tet 0, with `k = 1`. -/
def reacZ : Reac :=
  { pReacdef := { gidx := 0, order := 0, dep := fun _ => false, updColl := [1] }
    pTet := 0, pUpdVec := [], pCcst := 1000 * AVOGADRO, pKcst := 1 }

/-- The concrete system with the zero-order source in place of the reaction A → B. -/
def zeroState : State :=
  { state with
    tets := fun i => { state.tets i with compdef := cdefZ }
    pKProcs := fun i => if i = 0 then { kproc 0 with variant := .reac reacZ } else kproc i }

end Demo

/-! ## Rate constants and observables of one reaction -/

/-- Modelled from the spec: `Tet::reac(lridx)` (tet.cpp is not among the sources) returns
the Reac object of local reaction `lridx`; the tet owns one Reac per reaction of its
compartment, in the order of the local indices, before its Diffs. -/
def Tet.reac (t : Tet) (lridx : Nat) : Option Nat :=
  t.kprocs[lridx]?

/-- Modelled from the spec: `Tri::sreac(lsridx)` (tri.cpp is not among the sources) returns
the SReac object of local surface reaction `lsridx`; the triangle owns one SReac per surface
reaction of its patch, in the order of the local indices. -/
def Tri.sreac (t : Tri) (lsridx : Nat) : Option Nat :=
  t.kprocs[lsridx]?

/-- Accessor `Reac::h()` of reac.hpp: `rate()/pCcst`. The quotient of two doubles with a
zero divisor is not a finite number (`none`). -/
def Reac.h (s : State) (k : KProc) (r : Reac) : Except Err (Option ℚ) :=
  match Reac.rate s k r with
  | .error e => .error e
  | .ok a => if r.pCcst = 0 then .ok none else .ok (some (a / r.pCcst))

/-- The part that `_getTetReacH`, `_getTetReacC` and `_getTetReacA` share: the argument
checks and the lookup of the Reac of reaction `ridx` in the tet `tidx`; `f` is the accessor
called on the Reac. -/
def getTetReac {α : Type} (E : Engine) (s : State) (tidx ridx : Nat)
    (f : KProc → Reac → Except Err α) : Except Err α :=
  if ¬ (tidx < E.pTets.length) then .error .assertFail
  else if ¬ (ridx < E.countReacs) then .error .assertFail
  else
    match E.pTets.getD tidx none with
    | none => .error .argErr
    | some tet =>
      let lridx := (s.tets tet).compdef.reacG2L ridx
      if lridx = LIDX_UNDEFINED then .error .argErr
      else
        match (s.tets tet).reac lridx with
        | none => .error .nullDeref
        | some k =>
          match (s.pKProcs k).variant with
          | .reac r => f (s.pKProcs k) r
          | _ => .error .nullDeref

/-- Method `Tetexact::_getTetReacH(tidx, ridx)`. -/
def _getTetReacH (E : Engine) (s : State) (tidx ridx : Nat) : Except Err (Option ℚ) :=
  getTetReac E s tidx ridx (fun k r => Reac.h s k r)

/-- Method `Tetexact::_getTetReacC(tidx, ridx)`. -/
def _getTetReacC (E : Engine) (s : State) (tidx ridx : Nat) : Except Err ℚ :=
  getTetReac E s tidx ridx (fun _ r => .ok r.pCcst)

/-- Method `Tetexact::_getTetReacA(tidx, ridx)`. -/
def _getTetReacA (E : Engine) (s : State) (tidx ridx : Nat) : Except Err ℚ :=
  getTetReac E s tidx ridx (fun k r => Reac.rate s k r)

/-- Method `Tetexact::_setTetReacK(tidx, ridx, kf)`: store the constant in the Reac of
reaction `ridx` of the tet, then refresh its selector record and the total propensity. An
error carries the state as it was when it was raised. -/
def _setTetReacK (E : Engine) (s : State) (tidx ridx : Nat) (kf : ℚ) :
    Except (Err × State) State :=
  if ¬ (tidx < E.pTets.length) then .error (.assertFail, s)
  else if ¬ (ridx < E.countReacs) then .error (.assertFail, s)
  else if ¬ (kf ≥ 0) then .error (.assertFail, s)
  else
    match E.pTets.getD tidx none with
    | none => .error (.argErr, s)
    | some tet =>
      let lridx := (s.tets tet).compdef.reacG2L ridx
      if lridx = LIDX_UNDEFINED then .error (.argErr, s)
      else
        match (s.tets tet).reac lridx with
        | none => .error (.nullDeref, s)
        | some k =>
          match (s.pKProcs k).variant with
          | .reac r =>
            match Reac.setKcst s r kf with
            | .error e => .error (e, s)
            | .ok r2 =>
              let s1 := s.setKProc k { s.pKProcs k with variant := .reac r2 }
              match _updateElement s1 k with
              | .error e => .error (e, s1)
              | .ok s2 => .ok (_updateSum s2)
          | _ => .error (.nullDeref, s)

/-- Method `Tetexact::_setTetDiffD(tidx, didx, dk)`: store the constant in the Diff of rule
`didx` of the tet, then refresh its selector record and the total propensity. -/
def _setTetDiffD (E : Engine) (s : State) (tidx didx : Nat) (dk : ℚ) :
    Except (Err × State) State :=
  if ¬ (tidx < E.pTets.length) then .error (.assertFail, s)
  else if ¬ (didx < E.countDiffs) then .error (.assertFail, s)
  else
    match E.pTets.getD tidx none with
    | none => .error (.argErr, s)
    | some tet =>
      let ldidx := (s.tets tet).compdef.diffG2L didx
      if ldidx = LIDX_UNDEFINED then .error (.argErr, s)
      else
        match (s.tets tet).diff ldidx with
        | none => .error (.nullDeref, s)
        | some k =>
          match (s.pKProcs k).variant with
          | .diff d =>
            match Diff.setDcst s d dk with
            | .error e => .error (e, s)
            | .ok d2 =>
              let s1 := s.setKProc k { s.pKProcs k with variant := .diff d2 }
              match _updateElement s1 k with
              | .error e => .error (e, s1)
              | .ok s2 => .ok (_updateSum s2)
          | _ => .error (.nullDeref, s)

/-- Method `Tetexact::_setTriSReacK(tidx, ridx, kf)`: store the constant in the SReac of
surface reaction `ridx` of the triangle, then refresh its selector record and the total
propensity. -/
def _setTriSReacK (E : Engine) (s : State) (tidx ridx : Nat) (kf : ℚ) :
    Except (Err × State) State :=
  if ¬ (tidx < E.pTris.length) then .error (.assertFail, s)
  else if ¬ (ridx < E.countSReacs) then .error (.assertFail, s)
  else
    match E.pTris.getD tidx none with
    | none => .error (.argErr, s)
    | some tri =>
      let lsridx := (s.tris tri).patchdef.sreacG2L ridx
      if lsridx = LIDX_UNDEFINED then .error (.argErr, s)
      else
        match (s.tris tri).sreac lsridx with
        | none => .error (.nullDeref, s)
        | some k =>
          match (s.pKProcs k).variant with
          | .sreac sr =>
            match SReac.setKcst s sr kf with
            | .error e => .error (e, s)
            | .ok sr2 =>
              let s1 := s.setKProc k { s.pKProcs k with variant := .sreac sr2 }
              match _updateElement s1 k with
              | .error e => .error (e, s1)
              | .ok s2 => .ok (_updateSum s2)
          | _ => .error (.nullDeref, s)

namespace Demo

/-- The concrete system with the reaction A → B of tet 0 switched off by
`setTetReacActive`: its INACTIVATED flag is set. -/
def offState : State :=
  { state with
    pKProcs := fun i => if i = 0 then (kproc 0).setActive false else kproc i }

/-- The concrete system with the constant of the reaction A → B set to 0. -/
def nullState : State :=
  { state with
    pKProcs := fun i => if i = 0
      then { kproc 0 with variant := .reac { reac0 with pKcst := 0, pCcst := 0 } }
      else kproc i }

end Demo

/-! ## Checkpoint and restore -/

/-- One record of the checkpoint stream: the per-species counts and clamp flags of one tet
or triangle, or the time and step counter of the `Statedef`. -/
inductive CPRecord
  | pools (counts : Nat → Nat) (flags : Nat → Bool)
  | clock (time : ℚ) (nsteps : Nat)

/-- Modelled from the spec: `Tet::checkpoint` (tet.cpp is not among the sources) writes the
per-species counts and clamp flags of the tet. -/
def Tet.checkpoint (t : Tet) : List CPRecord := [.pools t.pools t.clamped]

/-- Modelled from the spec: `Tri::checkpoint` (tri.cpp is not among the sources) writes the
per-species counts and clamp flags of the triangle. -/
def Tri.checkpoint (t : Tri) : List CPRecord := [.pools t.pools t.clamped]

/-- Modelled from the spec: `Tet::restore` reads the counts and clamp flags back. A read
that fails (the stream is exhausted, or the next record has another layout, which a stream
written by `checkpoint` of the same engine never shows) leaves the object as it was and the
stream failed, so that every later read fails too. -/
def Tet.restore (t : Tet) : List CPRecord → Tet × List CPRecord
  | .pools c f :: rest => ({ t with pools := c, clamped := f }, rest)
  | _ => (t, [])

/-- Modelled from the spec: `Tri::restore` reads the counts and clamp flags back, failing
as `Tet::restore` does. -/
def Tri.restore (t : Tri) : List CPRecord → Tri × List CPRecord
  | .pools c f :: rest => ({ t with pools := c, clamped := f }, rest)
  | _ => (t, [])

/-- The loop of `checkpoint` over a range of tets, skipping the NULL entries. -/
def checkpointTets (s : State) : List (Option Nat) → List CPRecord
  | [] => []
  | none :: rest => checkpointTets s rest
  | some t :: rest => (s.tets t).checkpoint ++ checkpointTets s rest

/-- The loop of `checkpoint` over a range of triangles, skipping the NULL entries. -/
def checkpointTris (s : State) : List (Option Nat) → List CPRecord
  | [] => []
  | none :: rest => checkpointTris s rest
  | some t :: rest => (s.tris t).checkpoint ++ checkpointTris s rest

/-- The range of the triangle loops of `checkpoint` and `restore`: both run
`for (TriPVecCI t = pTris.end(); t != tri_e; ++t)` with `tri_e = pTris.end()`, that is, over
the part of `pTris` from its end to its end. -/
def triLoopRange (E : Engine) : List (Option Nat) := E.pTris.drop E.pTris.length

/-- The part of `Statedef::checkpoint` that concerns this state: the time and the step
counter. The records of the definition objects that follow hold no state of this model. -/
def Statedef.checkpoint (s : State) : List CPRecord := [.clock s.pTime s.pNSteps]

/-- Method `Tetexact::checkpoint(file_name)`, returning the stream it writes. The comps and
patches come first; their counts are kept by the definition objects and are no state of this
model, so they contribute no record here. -/
def checkpoint (E : Engine) (s : State) : List CPRecord :=
  checkpointTets s E.pTets ++ checkpointTris s (triLoopRange E) ++ Statedef.checkpoint s

/-- The loop of `restore` over a range of tets, skipping the NULL entries. -/
def restoreTets : List (Option Nat) → State → List CPRecord → State × List CPRecord
  | [], s, file => (s, file)
  | none :: rest, s, file => restoreTets rest s file
  | some t :: rest, s, file =>
    restoreTets rest (s.setTet t ((s.tets t).restore file).1) ((s.tets t).restore file).2

/-- The loop of `restore` over a range of triangles, skipping the NULL entries. -/
def restoreTris : List (Option Nat) → State → List CPRecord → State × List CPRecord
  | [], s, file => (s, file)
  | none :: rest, s, file => restoreTris rest s file
  | some t :: rest, s, file =>
    restoreTris rest (s.setTri t ((s.tris t).restore file).1) ((s.tris t).restore file).2

/-- The part of `Statedef::restore` that concerns this state: the time and the step counter
are read back. -/
def Statedef.restore (s : State) : List CPRecord → State × List CPRecord
  | .clock t n :: rest => ({ s with pTime := t, pNSteps := n }, rest)
  | _ => (s, [])

/-- Method `Tetexact::restore(file_name)` on the stream `file`: the tets, the triangle loop,
the `Statedef`, then `_reset()`. -/
def restore (E : Engine) (s : State) (file : List CPRecord) : Except Err State :=
  let r1 := restoreTets E.pTets s file
  let r2 := restoreTris (triLoopRange E) r1.1 r1.2
  let r3 := Statedef.restore r2.1 r2.2
  _reset r3.1

/-- The stream as the specification words it: the records of every tet, then of every
triangle (absent ones skipped), then the time and the step counter. -/
def checkpoint_spec (E : Engine) (s : State) : List CPRecord :=
  checkpointTets s E.pTets ++ checkpointTris s E.pTris ++ Statedef.checkpoint s

namespace Demo

/-- The concrete system with every count at 0, as an engine holds it before a checkpoint
is restored into it. -/
def wipedState : State :=
  { state with
    tets := fun i => { state.tets i with pools := fun _ => 0 }
    tris := fun i => { state.tris i with pools := fun _ => 0 } }

end Demo

/-! ## The full invariant of the selector (specification side) -/

/-- The invariant of the selector together with what every `_updateElement` establishes
for the record it writes: a KProc of the schedule is recorded exactly when its stored rate
exceeds the threshold 1e-20 of `_updateElement`, and a recorded KProc sits in the group of
the binary exponent of its stored rate. The constructor and `reset()` leave every record
unrecorded with stored rate 0, which satisfies both. -/
structure CRFull (s : State) : Prop where
  inv : CRInv s
  recOK : ∀ m, m < s.nEntries →
    ((s.pKProcs m).crData.recorded = true ↔ storedRate s m > 1 / 100000000000000000000)
  powOK : ∀ m, m < s.nEntries → (s.pKProcs m).crData.recorded = true →
    (s.pKProcs m).crData.pow = frexpExp (storedRate s m)

/-! ## What a refresh of one KProc leaves (specification side) -/

/-- The KProc `k` and the selector are as `_updateElement(k)` followed by `_updateSum()`
leaves them: the stored rate of `k` is its propensity `rate()`; when that exceeds 1e-20, `k`
is recorded and sits, at its recorded slot, in the group of the binary exponent of the
rate; otherwise `k` is not recorded and no group holds it; A0 is the sum of the sums of all
groups; and the full invariant of the selector holds. -/
def Refreshed (s : State) (k : Nat) : Prop :=
  ∃ a, KProc.rate s (s.pKProcs k) = .ok a ∧ storedRate s k = a ∧
    (a > 1 / 100000000000000000000 →
      (s.pKProcs k).crData.recorded = true ∧ (s.pKProcs k).crData.pow = frexpExp a ∧
      groupExists s (frexpExp a) ∧
      (s.pKProcs k).crData.pos < (_getGroup s (frexpExp a)).size ∧
      (_getGroup s (frexpExp a)).indices (s.pKProcs k).crData.pos = k) ∧
    (a ≤ 1 / 100000000000000000000 →
      (s.pKProcs k).crData.recorded = false ∧
      (∀ i, i < s.pGroupsSize → ∀ j, j < (s.pGroups i).size → (s.pGroups i).indices j ≠ k) ∧
      (∀ i, i < s.nGroupsSize → ∀ j, j < (s.nGroups i).size → (s.nGroups i).indices j ≠ k)) ∧
    s.pA0 = ∑ i in Finset.range s.nGroupsSize, (s.nGroups i).sum
      + ∑ i in Finset.range s.pGroupsSize, (s.pGroups i).sum ∧
    CRFull s

/-! ## Two compartments that share a face without a diffusion boundary -/

namespace Demo

/-- A second compartment definition (global index 1) in which only species B (1) is
defined; species A (0) is undefined there. -/
def cdefNoA : Compdef :=
  { cdefD with
    gidx := 1, countSpecs := 1, countDiffs := 0
    specG2L := fun g => if g = 1 then 0 else LIDX_UNDEFINED }

/-- Two tets of two compartments that share face 0, with no diffusion boundary on it: tet 0
(2 A, 1 B) lies in the compartment where A and B are defined, tet 1 in the compartment
where A is undefined; no face is a diffusion-boundary face, and the constructor has linked
the tets as each other's neighbour through face 0. -/
def splitState : State :=
  { bndState with
    tets := fun i => if i = 0 then bndState.tets 0
      else { bndState.tets 1 with compdef := cdefNoA, kprocs := [] } }

end Demo

/-! ## States reached from the fresh selector (specification side) -/

/-- The states reached from the selector as the constructor and `reset()` leave it (no
group pushed, no KProc recorded, every stored rate 0) by any sequence of `_updateElement`
calls on KProcs of the schedule, of `_updateSum` calls, and of changes that leave the
selector alone. -/
inductive CRReachZero : State → Prop
  | empty (s : State) (h : CREmpty s) (h0 : ∀ m, m < s.nEntries → storedRate s m = 0) :
      CRReachZero s
  | element (s s2 : State) (kp : Nat) (h : CRReachZero s) (hkp : kp < s.nEntries)
      (hu : _updateElement s kp = .ok s2) : CRReachZero s2
  | other (s s2 : State) (h : CRReachZero s) (hs : CRSame s s2) : CRReachZero s2
  | sum (s : State) (h : CRReachZero s) : CRReachZero (_updateSum s)

/-- The maxima of the groups: positive group `i` has the maximum `2^i` and negative group
`i` the maximum `2^(-i)`. -/
def MaxOK (s : State) : Prop :=
  (∀ i, i < s.pGroupsSize → (s.pGroups i).max = (2 : ℚ) ^ (i : Int)) ∧
  (∀ i, i < s.nGroupsSize → (s.nGroups i).max = (2 : ℚ) ^ (-(i : Int)))

/-! ## Dependency lists -/

/-- Method `Reac::depSpecTet(gidx, tet)`. -/
def Reac.depSpecTet (r : Reac) (gidx tet : Nat) : Bool :=
  if r.pTet ≠ tet then false else r.pReacdef.dep gidx

/-- Method `Reac::depSpecTri(gidx, tri)`. -/
def Reac.depSpecTri (_r : Reac) (_gidx _tri : Nat) : Bool := false

/-- Method `SReac::depSpecTet(gidx, tet)`; the flags `dep_I` and `dep_O` say whether the
dependency is not `DEP_NONE`. -/
def SReac.depSpecTet (s : State) (sr : SReac) (gidx tet : Nat) : Bool :=
  if (s.tris sr.pTri).iTet = some tet then sr.pSReacdef.dep_I gidx
  else if (s.tris sr.pTri).oTet = some tet then sr.pSReacdef.dep_O gidx
  else false

/-- Method `SReac::depSpecTri(gidx, triangle)`. -/
def SReac.depSpecTri (sr : SReac) (gidx tri : Nat) : Bool :=
  if tri ≠ sr.pTri then false else sr.pSReacdef.dep_S gidx

/-- Method `Diff::depSpecTet(gidx, tet)`. -/
def Diff.depSpecTet (d : Diff) (gidx tet : Nat) : Bool :=
  if d.pTet ≠ tet then false else if gidx ≠ d.ligGIdx then false else true

/-- Method `Diff::depSpecTri(gidx, tri)`. -/
def Diff.depSpecTri (_d : Diff) (_gidx _tri : Nat) : Bool := false

/-- Virtual call `KProc::depSpecTet(gidx, tet)`. -/
def KProc.depSpecTet (s : State) (k : KProc) (gidx tet : Nat) : Bool :=
  match k.variant with
  | .reac r => r.depSpecTet gidx tet
  | .sreac sr => sr.depSpecTet s gidx tet
  | .diff d => d.depSpecTet gidx tet

/-- Virtual call `KProc::depSpecTri(gidx, tri)`. -/
def KProc.depSpecTri (k : KProc) (gidx tri : Nat) : Bool :=
  match k.variant with
  | .reac r => r.depSpecTri gidx tri
  | .sreac sr => sr.depSpecTri gidx tri
  | .diff d => d.depSpecTri gidx tri

/-- The nested loop of `Reac::setupDeps` and `SReac::setupDeps` over the KProcs of one tet
or triangle and the species of an upd-collection: a KProc is inserted into the set for
each species for which `depSpecTet(species, tet)` holds. -/
def depLoopTet (s : State) (specs : List Nat) (tet : Nat) (kprocs updset : List Nat) :
    List Nat :=
  kprocs.foldl (fun acc k =>
    specs.foldl (fun acc2 sp =>
      if KProc.depSpecTet s (s.pKProcs k) sp tet = true then setInsert k acc2 else acc2) acc)
    updset

/-- The loop over the four triangle slots of the tet `tet`, running `depLoopTet` on the
KProcs of every triangle that a slot holds. -/
def depLoopNextTris (s : State) (specs : List Nat) (tet : Nat) (updset : List Nat) : List Nat :=
  (List.range 4).foldl (fun acc i =>
    match (s.tets tet).nextTri i with
    | none => acc
    | some tri => depLoopTet s specs tet (s.tris tri).kprocs acc) updset

/-- The nested loop of `SReac::setupDeps` over the KProcs of its triangle and the species
of the surface upd-collection. -/
def depLoopTri (s : State) (specs : List Nat) (tri : Nat) (kprocs updset : List Nat) :
    List Nat :=
  kprocs.foldl (fun acc k =>
    specs.foldl (fun acc2 sp =>
      if KProc.depSpecTri (s.pKProcs k) sp tri = true then setInsert k acc2 else acc2) acc)
    updset

/-- Method `Reac::setupDeps()`. -/
def Reac.setupDeps (s : State) (r : Reac) : Reac :=
  let updset := depLoopTet s r.pReacdef.updColl r.pTet (s.tets r.pTet).kprocs []
  let updset2 := depLoopNextTris s r.pReacdef.updColl r.pTet updset
  { r with pUpdVec := updset2 }

/-- The part of `SReac::setupDeps` for the inner or the outer tet, when it exists. -/
def depLoopSide (s : State) (specs : List Nat) (side : Option Nat) (updset : List Nat) :
    List Nat :=
  match side with
  | none => updset
  | some tet =>
    depLoopNextTris s specs tet (depLoopTet s specs tet (s.tets tet).kprocs updset)

/-- Method `SReac::setupDeps()`. -/
def SReac.setupDeps (s : State) (sr : SReac) : SReac :=
  let itet := (s.tris sr.pTri).iTet
  let otet := (s.tris sr.pTri).oTet
  let updset := depLoopTri s sr.pSReacdef.updColl_S sr.pTri (s.tris sr.pTri).kprocs []
  let updset2 := depLoopSide s sr.pSReacdef.updColl_I itet updset
  let updset3 := depLoopSide s sr.pSReacdef.updColl_O otet updset2
  { sr with pUpdVec := updset3 }

/-- The loop of `Diff::setupDeps` over the KProcs of one tet or triangle: a KProc is
inserted into the set when `depSpecTet(ligGIdx, tet)` holds. -/
def ligLoop (s : State) (lig tet : Nat) (kprocs updset : List Nat) : List Nat :=
  kprocs.foldl (fun acc k =>
    if KProc.depSpecTet s (s.pKProcs k) lig tet = true then setInsert k acc else acc) updset

/-- The loop of `Diff::setupDeps` over the four triangle slots of the tet `tet`. -/
def ligLoopNextTris (s : State) (lig tet : Nat) (updset : List Nat) : List Nat :=
  (List.range 4).foldl (fun acc i =>
    match (s.tets tet).nextTri i with
    | none => acc
    | some tri => ligLoop s lig tet (s.tris tri).kprocs acc) updset

/-- One round of the loop of `Diff::setupDeps` over the directions: a direction without
neighbour tet is skipped, and so is a direction whose triangle slot is taken; otherwise the
update list of the direction becomes the local set with the dependent KProcs of the
neighbour and of the neighbour's triangles inserted. -/
def Diff.setupDir (s : State) (d : Diff) (loc : List Nat) (d1 : Diff) (i : Nat) : Diff :=
  match (s.tets d.pTet).nextTet i with
  | none => d1
  | some next =>
    if ((s.tets d.pTet).nextTri i).isSome then d1
    else
      let local2 := ligLoop s d.ligGIdx next (s.tets next).kprocs loc
      let local3 := ligLoopNextTris s d.ligGIdx next local2
      { d1 with pUpdVec := Function.update d1.pUpdVec i local3 }

/-- Method `Diff::setupDeps()`. -/
def Diff.setupDeps (s : State) (d : Diff) : Diff :=
  let local0 := ligLoop s d.ligGIdx d.pTet (s.tets d.pTet).kprocs []
  let loc := ligLoopNextTris s d.ligGIdx d.pTet local0
  (List.range 4).foldl (Diff.setupDir s d loc) d

/-- Virtual call `KProc::setupDeps()` on the KProc at schedule index `k`. -/
def KProc.setupDeps (s : State) (k : Nat) : State :=
  match (s.pKProcs k).variant with
  | .reac r => s.setKProc k { s.pKProcs k with variant := .reac (r.setupDeps s) }
  | .sreac sr => s.setKProc k { s.pKProcs k with variant := .sreac (sr.setupDeps s) }
  | .diff d => s.setKProc k { s.pKProcs k with variant := .diff (d.setupDeps s) }

/-! ## The wiring of the KProcs (specification side) -/

/-- The KProcs that `setupDeps` scans around the tet `tet`: those of the tet itself and
those of the triangles in its four triangle slots. -/
def nearTet (s : State) (tet x : Nat) : Prop :=
  x ∈ (s.tets tet).kprocs ∨
    ∃ i tri, i < 4 ∧ (s.tets tet).nextTri i = some tri ∧ x ∈ (s.tris tri).kprocs

/-- Modelled from the spec: what the constructor and `_setup()` establish for the reaction
`r` that is the KProc `m` (`Tet::setupKProcs` and `solver::Reacdef` are not among the
sources). The reaction is one of the KProcs of its tet; its update list is the one
`Reac::setupDeps()` computes; the dep bitmap of its definition marks every species of the
compartment with a non-zero lhs multiplicity; and its upd-collection holds a global index
for every local species with a non-zero update. -/
def Reac.wired (s : State) (m : Nat) (r : Reac) : Prop :=
  m ∈ (s.tets r.pTet).kprocs ∧
  (r.setupDeps s).pUpdVec = r.pUpdVec ∧
  (∀ g, Reac.lhs_vec s r ((s.tets r.pTet).compdef.specG2L g) ≠ 0 →
    (s.tets r.pTet).compdef.specG2L g < Reac.nspecs s r → r.pReacdef.dep g = true) ∧
  (∀ l, l < Reac.nspecs s r → Reac.upd_vec s r l ≠ 0 →
    ∃ g, g ∈ r.pReacdef.updColl ∧ (s.tets r.pTet).compdef.specG2L g = l)

/-- Modelled from the spec: what the constructor and `_setup()` establish for the diffusion
`d` that is the KProc `m` (`Tet::setupKProcs`, `Tet::setNextTri` and `solver::Compdef` are
not among the sources). The diffusion is one of the KProcs of its tet; its update lists are
the ones `Diff::setupDeps()` computes; `lidxTet` is the local index of the ligand, and of no
other species; for every neighbour tet the stored neighbour index is the local index of the
ligand in the neighbour's compartment, an unsigned 32-bit value, cast to `int`; a slot of
the tet never holds both a neighbour tet and a triangle; and no tet is its own neighbour. -/
def Diff.wired (s : State) (m : Nat) (d : Diff) : Prop :=
  m ∈ (s.tets d.pTet).kprocs ∧
  (∀ k, (d.setupDeps s).pUpdVec k = d.pUpdVec k) ∧
  ((s.tets d.pTet).compdef.specG2L d.ligGIdx = d.lidxTet ∧
    ∀ g, (s.tets d.pTet).compdef.specG2L g = d.lidxTet → g = d.ligGIdx) ∧
  (∀ k nt, (s.tets d.pTet).nextTet k = some nt →
    d.pNeighbCompLidx k = toInt ((s.tets nt).compdef.specG2L d.ligGIdx) ∧
    (s.tets nt).compdef.specG2L d.ligGIdx < 4294967296) ∧
  (∀ k nt, (s.tets d.pTet).nextTet k = some nt → (s.tets d.pTet).nextTri k = none) ∧
  (∀ k nt, (s.tets d.pTet).nextTet k = some nt → nt ≠ d.pTet)

/-- Modelled from the spec: what the constructor and `_setup()` establish for the surface
reaction `sr` that is the KProc `m` (`Tri::setupKProcs` and `solver::SReacdef` are not among
the sources). The surface reaction is one of the KProcs of its triangle; its update list is
the one `SReac::setupDeps()` computes; the dep bitmaps of its definition mark every species
with a non-zero lhs multiplicity on the surface, in the inner and in the outer compartment;
its three upd-collections hold a global index for every local species with a non-zero
update; the triangle sits in a triangle slot of its inner and of its outer tet (the slot
loop of the constructor); and the inner tet is not the outer tet. -/
def SReac.wired (s : State) (m : Nat) (sr : SReac) : Prop :=
  m ∈ (s.tris sr.pTri).kprocs ∧
  (sr.setupDeps s).pUpdVec = sr.pUpdVec ∧
  ((∀ g, SReac.lhs_S s sr ((s.tris sr.pTri).patchdef.specG2L g) ≠ 0 →
      (s.tris sr.pTri).patchdef.specG2L g < (s.tris sr.pTri).patchdef.countSpecs →
      sr.pSReacdef.dep_S g = true) ∧
    (∀ it, (s.tris sr.pTri).iTet = some it →
      ∀ g, SReac.lhs_I s sr ((s.tets it).compdef.specG2L g) ≠ 0 →
        (s.tets it).compdef.specG2L g < (s.tris sr.pTri).patchdef.countSpecs_I →
        sr.pSReacdef.dep_I g = true) ∧
    (∀ ot, (s.tris sr.pTri).oTet = some ot →
      ∀ g, SReac.lhs_O s sr ((s.tets ot).compdef.specG2L g) ≠ 0 →
        (s.tets ot).compdef.specG2L g < (s.tris sr.pTri).patchdef.countSpecs_O →
        sr.pSReacdef.dep_O g = true)) ∧
  ((∀ l, l < (s.tris sr.pTri).patchdef.countSpecs → SReac.upd_S s sr l ≠ 0 →
      ∃ g, g ∈ sr.pSReacdef.updColl_S ∧ (s.tris sr.pTri).patchdef.specG2L g = l) ∧
    (∀ it, (s.tris sr.pTri).iTet = some it →
      ∀ l, l < (s.tris sr.pTri).patchdef.countSpecs_I → SReac.upd_I s sr l ≠ 0 →
        ∃ g, g ∈ sr.pSReacdef.updColl_I ∧ (s.tets it).compdef.specG2L g = l) ∧
    (∀ ot, (s.tris sr.pTri).oTet = some ot →
      ∀ l, l < (s.tris sr.pTri).patchdef.countSpecs_O → SReac.upd_O s sr l ≠ 0 →
        ∃ g, g ∈ sr.pSReacdef.updColl_O ∧ (s.tets ot).compdef.specG2L g = l)) ∧
  ((∀ it, (s.tris sr.pTri).iTet = some it →
      ∃ i, i < 4 ∧ (s.tets it).nextTri i = some sr.pTri) ∧
    (∀ ot, (s.tris sr.pTri).oTet = some ot →
      ∃ i, i < 4 ∧ (s.tets ot).nextTri i = some sr.pTri)) ∧
  (∀ it, (s.tris sr.pTri).iTet = some it → (s.tris sr.pTri).oTet ≠ some it)

/-- The wiring of the KProc at schedule index `m`, by variant. -/
def KProc.wired (s : State) (m : Nat) : Prop :=
  match (s.pKProcs m).variant with
  | .reac r => r.wired s m
  | .sreac sr => sr.wired s m
  | .diff d => d.wired s m

/-- Every KProc of the schedule is wired as the constructor and `_setup()` leave it. -/
def Wired (s : State) : Prop := ∀ m, m < s.nEntries → KProc.wired s m

/-- Every KProc of the schedule has its propensity as stored rate. -/
def RatesStored (s : State) : Prop :=
  ∀ m, m < s.nEntries → KProc.rate s (s.pKProcs m) = .ok (storedRate s m)

/-- Two states differ in their tets and triangles at most in the molecule counts. -/
def PoolsOnly (s s1 : State) : Prop :=
  (∀ t, s1.tets t = { s.tets t with pools := (s1.tets t).pools }) ∧
  (∀ t, s1.tris t = { s.tris t with pools := (s1.tris t).pools })

/-- Every count in which `s1` differs from `s` belongs to a species with some global index
`g` such that the list `upd` holds every KProc around that tet (or of that triangle) whose
`depSpecTet` (or `depSpecTri`) is true for `g`. -/
def Covered (s s1 : State) (upd : List Nat) : Prop :=
  (∀ t l, (s1.tets t).pools l ≠ (s.tets t).pools l →
    ∃ g, (s.tets t).compdef.specG2L g = l ∧
      ∀ x, nearTet s t x → KProc.depSpecTet s (s.pKProcs x) g t = true → x ∈ upd) ∧
  (∀ t l, (s1.tris t).pools l ≠ (s.tris t).pools l →
    ∃ g, (s.tris t).patchdef.specG2L g = l ∧
      ∀ x, x ∈ (s.tris t).kprocs → KProc.depSpecTri (s.pKProcs x) g t = true → x ∈ upd)

/-- The state `s1` differs from `s` in its tets and triangles at most in molecule counts,
and every count of a tet (of a triangle) that differs is one that `WT` (that `WS`)
describes. -/
def Writes (s s1 : State) (WT WS : Nat → Nat → Prop) : Prop :=
  PoolsOnly s s1 ∧
  (∀ t l, (s1.tets t).pools l ≠ (s.tets t).pools l → WT t l) ∧
  (∀ t l, (s1.tris t).pools l ≠ (s.tris t).pools l → WS t l)

/-! ## A system that runs out of molecules -/

namespace Demo

/-- A system with one tet, one molecule of A in it and the reaction A → B (`c = 1`) as its
only KProc: the propensity 1 is stored in positive group 1 (maximum 2), A0 = 1. After one
firing no A is left. -/
def lastState : State :=
  { tets := fun _ =>
      { tet0 with nextTet := fun _ => none, nextTri := fun _ => none
                  pools := fun sp => if sp = 0 then 1 else 0, kprocs := [0] }
    tris := fun _ => { tri0 with kprocs := [] }
    pKProcs := fun i =>
      { rExtent := 0, pFlags := 0, pSchedIDX := i
        crData := { recorded := true, pow := 1, pos := 0, rate := 1 }
        variant := .reac { reac0 with pUpdVec := [0] } }
    nEntries := 1
    nGroups := fun i => CRGroup.new (-(i : Int))
    nGroupsSize := 0
    pGroups := fun i => if i = 1
      then { capacity := 1024, size := 1, max := 2, sum := 1, indices := fun _ => 0 }
      else CRGroup.new (i : Int)
    pGroupsSize := 2
    pSum := 0, nSum := 0, pA0 := 1, pTime := 0, pNSteps := 0 }

end Demo

/-! ## Two compartments with an open diffusion boundary -/

namespace Demo

/-- The definition of a second compartment (global index 1) in which the two species have
the opposite local order: A has the local index 1 and B the local index 0. -/
def cdefSwap : Compdef :=
  { cdefD with
    gidx := 1
    specG2L := fun g => if g = 0 then 1 else if g = 1 then 0 else LIDX_UNDEFINED }

/-- The diffusion of A out of tet `t` of the open two-compartment system, after
`setupDeps` and with the boundary open for A: the ligand has the local index 0 in the
compartment of tet 0 and 1 in the compartment of tet 1, the stored neighbour index is the
local index of A in the compartment of the other tet, the update list of direction 0 holds
both diffusions, the boundary-active flag of face 0 is set and `d = (1,0,0,0)`. -/
def diffOpen (t : Nat) : Diff :=
  { ligGIdx := 0, lidxTet := if t = 0 then 0 else 1
    pDiffdef := { gidx := 0, lig := 0 }, pTet := t
    pUpdVec := fun i => if i = 0 then [0, 1] else []
    pNeighbCompLidx := fun i => if i = 0 then (if t = 0 then 1 else 0) else -1
    pScaledDcst := 1, pDcst := 1, pCDFSelector := fun i => if i < 3 then 1 else 0
    pDiffBndActive := fun i => i == 0, pDiffBndDirection := fun i => i == 0 }

/-- Two compartments of one tet each, joined by a diffusion boundary that is open for A:
tet 0 (compartment 0) holds 2 A and 1 B, tet 1 (compartment 1, where A has the local index
1) is empty, they are each other's neighbour through face 0, and KProc `i` is the diffusion
of A out of tet `i`. The selector is current: the diffusion out of tet 0 has the propensity
2 and sits in positive group 2, the diffusion out of the empty tet 1 has the propensity 0
and is not recorded; A0 = 2. -/
def openState : State :=
  { tets := fun i => if i = 0
      then { tet0 with compdef := cdefD, nextTri := fun _ => none, kprocs := [0]
                       getDiffBndDirection := fun j => j == 0 }
      else { tet1 with compdef := cdefSwap, kprocs := [1]
                       getDiffBndDirection := fun j => j == 0 }
    tris := fun _ => { tri0 with kprocs := [] }
    pKProcs := fun i =>
      if i = 0 then
        { rExtent := 0, pFlags := 0, pSchedIDX := 0
          crData := { recorded := true, pow := 2, pos := 0, rate := 2 }
          variant := .diff (diffOpen 0) }
      else
        { rExtent := 0, pFlags := 0, pSchedIDX := i
          crData := CRKProcData.cleared
          variant := .diff (diffOpen 1) }
    nEntries := 2
    nGroups := fun i => CRGroup.new (-(i : Int))
    nGroupsSize := 0
    pGroups := fun i => if i = 2
      then { capacity := 1024, size := 1, max := 4, sum := 2, indices := fun _ => 0 }
      else CRGroup.new (i : Int)
    pGroupsSize := 3
    pSum := 0, nSum := 0, pA0 := 2, pTime := 0, pNSteps := 0 }

end Demo

/-! # Theorems -/

/-! ## Propensities (claims C5, C7) -/

/-- The fall-through switch computes the falling factorial for multiplicities 1..4. -/
theorem switchLhs_eq (lhs cnt : Nat) (h : ℚ) (h1 : lhs ≠ 0) (h4 : lhs ≤ 4) (hc : lhs ≤ cnt) :
    switchLhs lhs cnt h = .ok (h * (Nat.descFactorial cnt lhs : ℚ)) := by
  have : lhs = 1 ∨ lhs = 2 ∨ lhs = 3 ∨ lhs = 4 := by omega
  rcases this with rfl | rfl | rfl | rfl <;>
    simp only [switchLhs, Nat.descFactorial, Nat.cast_mul, Nat.cast_one, mul_one, Nat.sub_zero] <;>
    congr 1 <;> ring

/-- Value of the loop of `Reac::rate`: the running factor times the falling factorials of
the species in the list, provided every multiplicity is at most 4. -/
theorem Reac_hmuLoop_eq (lhs_vec cnt_vec : Nat → Nat) :
    ∀ (l : List Nat) (h : ℚ), (∀ p ∈ l, lhs_vec p ≤ 4) →
      Reac.hmuLoop lhs_vec cnt_vec l h
        = .ok (h * (l.map (fun p => (Nat.descFactorial (cnt_vec p) (lhs_vec p) : ℚ))).prod) := by
  intro l
  induction l with
  | nil => intro h _; simp [Reac.hmuLoop]
  | cons p rest ih =>
    intro h hl
    have hp : lhs_vec p ≤ 4 := hl p (List.mem_cons_self _ _)
    have hrest : ∀ q ∈ rest, lhs_vec q ≤ 4 := fun q hq => hl q (List.mem_cons_of_mem _ hq)
    unfold Reac.hmuLoop
    by_cases h0 : lhs_vec p = 0
    · simp [h0, ih h hrest]
    · by_cases hgt : lhs_vec p > cnt_vec p
      · simp [h0, hgt, Nat.descFactorial_eq_zero_iff_lt.mpr hgt]
      · have hle : lhs_vec p ≤ cnt_vec p := Nat.le_of_not_gt hgt
        simp only [h0, hgt, if_false, switchLhs_eq _ _ h h0 hp hle, ih _ hrest]
        simp [mul_assoc]

/-- A product over `List.range n` is the product over `Finset.range n`. -/
theorem list_range_map_prod (f : Nat → ℚ) (n : Nat) :
    ((List.range n).map f).prod = ∏ p ∈ Finset.range n, f p := by
  induction n with
  | zero => simp
  | succ n ih => simp [List.range_succ, Finset.prod_range_succ, ih]

/-- The propensity of an active reaction whose multiplicities are at most 4. -/
theorem Reac_rate_active (s : State) (k : KProc) (r : Reac) (hact : k.inactive = false)
    (hlhs : ∀ p < Reac.nspecs s r, Reac.lhs_vec s r p ≤ 4) :
    Reac.rate s k r = .ok (r.pCcst *
      fallProd (Reac.lhs_vec s r) (s.tets r.pTet).pools (Reac.nspecs s r)) := by
  have hl : ∀ p ∈ List.range (Reac.nspecs s r), Reac.lhs_vec s r p ≤ 4 :=
    fun p hp => hlhs p (List.mem_range.mp hp)
  have := Reac_hmuLoop_eq (Reac.lhs_vec s r) (s.tets r.pTet).pools _ 1 hl
  simp only [Reac.lhs_vec, Reac.nspecs] at this
  simp only [Reac.rate, hact, Reac.lhs_vec, Reac.nspecs, this, list_range_map_prod, fallProd]
  simp [mul_comm]

/-- C5. `Reac::rate()` returns 0 when the reaction is inactive; when it is active and every
lhs entry of the compartment's species lies in 0..4, it returns `c` times the product of the
falling factorials `cnt[s]·(cnt[s]-1)·…·(cnt[s]-lhs[s]+1)` (`fallProd`), which is 0 as soon as
some species has `cnt[s] < lhs[s]`; and the result is non-negative whenever `c >= 0`. -/
theorem Reac_rate_spec (s : State) (k : KProc) (r : Reac) :
    (k.inactive = true → Reac.rate s k r = .ok 0) ∧
    (k.inactive = false → (∀ p < Reac.nspecs s r, Reac.lhs_vec s r p ≤ 4) →
      (Reac.rate s k r = .ok (r.pCcst *
        fallProd (Reac.lhs_vec s r) (s.tets r.pTet).pools (Reac.nspecs s r))) ∧
      ((∃ p < Reac.nspecs s r, (s.tets r.pTet).pools p < Reac.lhs_vec s r p) →
        Reac.rate s k r = .ok 0)) ∧
    ((∀ p < Reac.nspecs s r, Reac.lhs_vec s r p ≤ 4) → 0 ≤ r.pCcst →
      ∃ v, Reac.rate s k r = .ok v ∧ 0 ≤ v) := by
  refine ⟨?_, ?_, ?_⟩
  · intro h; simp [Reac.rate, h]
  · intro hact hlhs
    refine ⟨Reac_rate_active s k r hact hlhs, ?_⟩
    rintro ⟨p, hp, hlt⟩
    rw [Reac_rate_active s k r hact hlhs]
    have : fallProd (Reac.lhs_vec s r) (s.tets r.pTet).pools (Reac.nspecs s r) = 0 :=
      Finset.prod_eq_zero (Finset.mem_range.mpr hp)
        (by exact_mod_cast Nat.descFactorial_eq_zero_iff_lt.mpr hlt)
    rw [this, mul_zero]
  · intro hlhs hc
    cases hact : k.inactive with
    | true => exact ⟨0, by simp [Reac.rate, hact], le_refl _⟩
    | false =>
      refine ⟨_, Reac_rate_active s k r hact hlhs, ?_⟩
      exact mul_nonneg hc (Finset.prod_nonneg (fun _ _ => Nat.cast_nonneg _))

/-- A loop of `SReac::rate` returns early as soon as a reactant is insufficient. -/
theorem SReac_hmuLoop_none (lhs_vec cnt_vec : Nat → Nat) :
    ∀ (l : List Nat) (h : ℚ), (∀ p ∈ l, lhs_vec p ≤ 4) → (∃ p ∈ l, cnt_vec p < lhs_vec p) →
      SReac.hmuLoop lhs_vec cnt_vec l h = .ok none := by
  intro l
  induction l with
  | nil => intro h _ hex; obtain ⟨p, hp, _⟩ := hex; cases hp
  | cons p rest ih =>
    intro h hl hex
    have hp : lhs_vec p ≤ 4 := hl p (List.mem_cons_self _ _)
    have hrest : ∀ q ∈ rest, lhs_vec q ≤ 4 := fun q hq => hl q (List.mem_cons_of_mem _ hq)
    unfold SReac.hmuLoop
    by_cases hgt : lhs_vec p > cnt_vec p
    · have h0 : lhs_vec p ≠ 0 := by omega
      simp [h0, hgt]
    · have hle : lhs_vec p ≤ cnt_vec p := Nat.le_of_not_gt hgt
      have hex2 : ∃ q ∈ rest, cnt_vec q < lhs_vec q := by
        obtain ⟨q, hq, hlt⟩ := hex
        rcases List.mem_cons.mp hq with rfl | hq2
        · omega
        · exact ⟨q, hq2, hlt⟩
      by_cases h0 : lhs_vec p = 0
      · simp [h0, ih h hrest hex2]
      · simp only [h0, hgt, if_false, switchLhs_eq _ _ h h0 hp hle, ih _ hrest hex2]

/-- A loop of `SReac::rate` over sufficient reactants multiplies in their falling
factorials. -/
theorem SReac_hmuLoop_some (lhs_vec cnt_vec : Nat → Nat) :
    ∀ (l : List Nat) (h : ℚ), (∀ p ∈ l, lhs_vec p ≤ 4) → (∀ p ∈ l, lhs_vec p ≤ cnt_vec p) →
      SReac.hmuLoop lhs_vec cnt_vec l h
        = .ok (some (h * (l.map (fun p => (Nat.descFactorial (cnt_vec p) (lhs_vec p) : ℚ))).prod)) := by
  intro l
  induction l with
  | nil => intro h _ _; simp [SReac.hmuLoop]
  | cons p rest ih =>
    intro h hl hall
    have hp : lhs_vec p ≤ 4 := hl p (List.mem_cons_self _ _)
    have hrest : ∀ q ∈ rest, lhs_vec q ≤ 4 := fun q hq => hl q (List.mem_cons_of_mem _ hq)
    have hle : lhs_vec p ≤ cnt_vec p := hall p (List.mem_cons_self _ _)
    have hall2 : ∀ q ∈ rest, lhs_vec q ≤ cnt_vec q := fun q hq => hall q (List.mem_cons_of_mem _ hq)
    have hgt : ¬ lhs_vec p > cnt_vec p := by omega
    unfold SReac.hmuLoop
    by_cases h0 : lhs_vec p = 0
    · simp [h0, ih h hrest hall2]
    · simp only [h0, hgt, if_false, switchLhs_eq _ _ h h0 hp hle, ih _ hrest hall2]
      simp [mul_assoc]

/-- Value of one loop of `SReac::rate` over the species `0 .. n-1`. -/
theorem SReac_hmuLoop_range (lhs_vec cnt_vec : Nat → Nat) (n : Nat) (h : ℚ)
    (hl : ∀ p < n, lhs_vec p ≤ 4) :
    (SReac.hmuLoop lhs_vec cnt_vec (List.range n) h = .ok none ∧ fallProd lhs_vec cnt_vec n = 0 ∧
      ∃ p < n, cnt_vec p < lhs_vec p) ∨
    (SReac.hmuLoop lhs_vec cnt_vec (List.range n) h
        = .ok (some (h * fallProd lhs_vec cnt_vec n)) ∧ ∀ p < n, lhs_vec p ≤ cnt_vec p) := by
  have hl2 : ∀ p ∈ List.range n, lhs_vec p ≤ 4 := fun p hp => hl p (List.mem_range.mp hp)
  by_cases hex : ∃ p < n, cnt_vec p < lhs_vec p
  · left
    obtain ⟨p, hp, hlt⟩ := hex
    refine ⟨SReac_hmuLoop_none _ _ _ h hl2 ⟨p, List.mem_range.mpr hp, hlt⟩, ?_, ⟨p, hp, hlt⟩⟩
    exact Finset.prod_eq_zero (Finset.mem_range.mpr hp)
      (by exact_mod_cast Nat.descFactorial_eq_zero_iff_lt.mpr hlt)
  · right
    have hall : ∀ p < n, lhs_vec p ≤ cnt_vec p := by
      intro p hp
      by_contra hc
      exact hex ⟨p, hp, by omega⟩
    refine ⟨?_, hall⟩
    rw [SReac_hmuLoop_some _ _ _ h hl2 (fun p hp => hall p (List.mem_range.mp hp)),
      list_range_map_prod]
    rfl

/-- The volume part of `SReac::rate` on an existing tet. -/
theorem SReac_rateVol_eq (s : State) (sr : SReac) (lhs_vec : Nat → Nat) (n t : Nat) (h : ℚ)
    (hl : ∀ p < n, lhs_vec p ≤ 4) :
    SReac.rateVol s sr lhs_vec n (some t) h
      = .ok (sr.pCcst * h * fallProd lhs_vec (s.tets t).pools n) := by
  unfold SReac.rateVol
  rcases SReac_hmuLoop_range lhs_vec (s.tets t).pools n h hl with ⟨h1, h2, _⟩ | ⟨h1, _⟩
  · simp [h1, h2]
  · simp only [h1]
    congr 1
    ring

/-- C7. `SReac::rate()` returns 0 when inactive. When active (lhs entries in 0..4) it
returns 0 as soon as a surface reactant is insufficient; otherwise it is `c` times the
falling-factorial product over the Tri pools with `lhs_S`, times the product over the inner
tet's pools with `lhs_I` if `inside()` holds, else times the product over the outer tet's pools
with `lhs_O` if `outside()` holds, else times nothing: never both volume sides. An insufficient
reactant on the selected volume side also gives 0. -/
theorem SReac_rate_spec (s : State) (k : KProc) (sr : SReac) :
    (k.inactive = true → SReac.rate s k sr = .ok 0) ∧
    (k.inactive = false →
      (∀ p < (s.tris sr.pTri).patchdef.countSpecs, SReac.lhs_S s sr p ≤ 4) →
      ((∃ p < (s.tris sr.pTri).patchdef.countSpecs,
          (s.tris sr.pTri).pools p < SReac.lhs_S s sr p) → SReac.rate s k sr = .ok 0) ∧
      (sr.pSReacdef.inside = true → ∀ it, (s.tris sr.pTri).iTet = some it →
        (∀ p < (s.tris sr.pTri).patchdef.countSpecs_I, SReac.lhs_I s sr p ≤ 4) →
        SReac.rate s k sr = .ok (sr.pCcst
          * fallProd (SReac.lhs_S s sr) (s.tris sr.pTri).pools (s.tris sr.pTri).patchdef.countSpecs
          * fallProd (SReac.lhs_I s sr) (s.tets it).pools (s.tris sr.pTri).patchdef.countSpecs_I) ∧
        ((∃ p < (s.tris sr.pTri).patchdef.countSpecs_I,
            (s.tets it).pools p < SReac.lhs_I s sr p) → SReac.rate s k sr = .ok 0)) ∧
      (sr.pSReacdef.inside = false → sr.pSReacdef.outside = true →
        ∀ ot, (s.tris sr.pTri).oTet = some ot →
        (∀ p < (s.tris sr.pTri).patchdef.countSpecs_O, SReac.lhs_O s sr p ≤ 4) →
        SReac.rate s k sr = .ok (sr.pCcst
          * fallProd (SReac.lhs_S s sr) (s.tris sr.pTri).pools (s.tris sr.pTri).patchdef.countSpecs
          * fallProd (SReac.lhs_O s sr) (s.tets ot).pools (s.tris sr.pTri).patchdef.countSpecs_O) ∧
        ((∃ p < (s.tris sr.pTri).patchdef.countSpecs_O,
            (s.tets ot).pools p < SReac.lhs_O s sr p) → SReac.rate s k sr = .ok 0)) ∧
      (sr.pSReacdef.inside = false → sr.pSReacdef.outside = false →
        SReac.rate s k sr = .ok (sr.pCcst
          * fallProd (SReac.lhs_S s sr) (s.tris sr.pTri).pools
              (s.tris sr.pTri).patchdef.countSpecs))) := by
  refine ⟨fun h => by simp [SReac.rate, h], ?_⟩
  intro hact hS
  have key := SReac_hmuLoop_range (SReac.lhs_S s sr) (s.tris sr.pTri).pools
    (s.tris sr.pTri).patchdef.countSpecs 1 hS
  simp only [SReac.lhs_S, SReac.lidx] at key
  refine ⟨?_, ?_, ?_, ?_⟩
  · rintro ⟨p, hp, hlt⟩
    rcases key with ⟨h1, _, _⟩ | ⟨_, hall⟩
    · simp [SReac.rate, hact, h1]
    · exact absurd (hall p hp) (by simp only [SReac.lhs_S, SReac.lidx] at hlt; omega)
  · intro hin it hit hI
    have hv := fun h => SReac_rateVol_eq s sr (SReac.lhs_I s sr)
      (s.tris sr.pTri).patchdef.countSpecs_I it h hI
    simp only [SReac.lhs_I, SReac.lidx] at hv
    have hrate : SReac.rate s k sr = .ok (sr.pCcst
          * fallProd (SReac.lhs_S s sr) (s.tris sr.pTri).pools (s.tris sr.pTri).patchdef.countSpecs
          * fallProd (SReac.lhs_I s sr) (s.tets it).pools (s.tris sr.pTri).patchdef.countSpecs_I) := by
      rcases key with ⟨h1, h2, _⟩ | ⟨h1, _⟩
      · simp only [SReac.rate, hact, h1, SReac.lhs_S, SReac.lidx] at h2 ⊢
        simp [h2]
      · simp only [SReac.rate, hact, h1, hin, hit, hv, SReac.lhs_S, SReac.lhs_I, SReac.lidx]
        simp
    refine ⟨hrate, ?_⟩
    rintro ⟨p, hp, hlt⟩
    rw [hrate]
    have : fallProd (SReac.lhs_I s sr) (s.tets it).pools (s.tris sr.pTri).patchdef.countSpecs_I = 0 :=
      Finset.prod_eq_zero (Finset.mem_range.mpr hp)
        (by exact_mod_cast Nat.descFactorial_eq_zero_iff_lt.mpr hlt)
    rw [this, mul_zero]
  · intro hin hout ot hot hO
    have hv := fun h => SReac_rateVol_eq s sr (SReac.lhs_O s sr)
      (s.tris sr.pTri).patchdef.countSpecs_O ot h hO
    simp only [SReac.lhs_O, SReac.lidx] at hv
    have hrate : SReac.rate s k sr = .ok (sr.pCcst
          * fallProd (SReac.lhs_S s sr) (s.tris sr.pTri).pools (s.tris sr.pTri).patchdef.countSpecs
          * fallProd (SReac.lhs_O s sr) (s.tets ot).pools (s.tris sr.pTri).patchdef.countSpecs_O) := by
      rcases key with ⟨h1, h2, _⟩ | ⟨h1, _⟩
      · simp only [SReac.rate, hact, h1, SReac.lhs_S, SReac.lidx] at h2 ⊢
        simp [h2]
      · simp only [SReac.rate, hact, h1, hin, hout, hot, hv, SReac.lhs_S, SReac.lhs_O, SReac.lidx]
        simp
    refine ⟨hrate, ?_⟩
    rintro ⟨p, hp, hlt⟩
    rw [hrate]
    have : fallProd (SReac.lhs_O s sr) (s.tets ot).pools (s.tris sr.pTri).patchdef.countSpecs_O = 0 :=
      Finset.prod_eq_zero (Finset.mem_range.mpr hp)
        (by exact_mod_cast Nat.descFactorial_eq_zero_iff_lt.mpr hlt)
    rw [this, mul_zero]
  · intro hin hout
    rcases key with ⟨h1, h2, _⟩ | ⟨h1, _⟩
    · simp only [SReac.rate, hact, h1, SReac.lhs_S, SReac.lidx] at h2 ⊢
      simp [h2]
    · simp only [SReac.rate, hact, h1, hin, hout, SReac.lhs_S, SReac.lidx]
      simp [mul_comm]

/-! ## Diffusion constants (claim C6) -/

/-- The array `d[]` of `setDcst` agrees with the specification's per-face coefficient
for any Diff object carrying the same tet, flags and the diffusion constant `D`. -/
theorem Diff_dArray_eq_dSpec (s : State) (d d2 : Diff) (D : ℚ) (i : Nat)
    (hT : d2.pTet = d.pTet) (hD : d2.pDcst = D)
    (hdir : d2.pDiffBndDirection = d.pDiffBndDirection)
    (hact : d2.pDiffBndActive = d.pDiffBndActive) :
    Diff.dArray s d D i = Diff.dSpec s d2 i := by
  unfold Diff.dArray Diff.dSpec
  rw [hT, hD, hdir, hact]
  cases h1 : ((s.tets d.pTet).nextTet i).isSome <;> cases h2 : d.pDiffBndDirection i <;>
    cases h3 : d.pDiffBndActive i <;> by_cases h4 : (s.tets d.pTet).dist i > 0 <;> simp [h4]

/-- What a successful `setDcst` writes and what it leaves alone. -/
theorem Diff_setDcst_fields (s : State) (d d2 : Diff) (D : ℚ) (h : Diff.setDcst s d D = .ok d2) :
    d2.pTet = d.pTet ∧ d2.pDcst = D ∧ d2.pDiffBndDirection = d.pDiffBndDirection ∧
    d2.pDiffBndActive = d.pDiffBndActive ∧ d2.lidxTet = d.lidxTet ∧
    d2.pScaledDcst = Diff.dArray s d D 0 + Diff.dArray s d D 1 + Diff.dArray s d D 2
      + Diff.dArray s d D 3 := by
  unfold Diff.setDcst at h
  by_cases h1 : D ≥ 0
  · by_cases h2 : (0:ℚ) + Diff.dArray s d D 0 + Diff.dArray s d D 1 + Diff.dArray s d D 2
        + Diff.dArray s d D 3 ≥ 0
    · by_cases h3 : (0:ℚ) + Diff.dArray s d D 0 + Diff.dArray s d D 1 + Diff.dArray s d D 2
        + Diff.dArray s d D 3 = 0
      · simp only [h1, h2, h3, not_true_eq_false, if_false, if_true] at h
        cases h
        refine ⟨rfl, rfl, rfl, rfl, rfl, ?_⟩
        simp only [zero_add] at h3
        exact h3.symm
      · simp only [h1, h2, h3, not_true_eq_false, if_false] at h
        cases h
        refine ⟨rfl, rfl, rfl, rfl, rfl, ?_⟩
        simp only [zero_add]
    · simp only [h1, h2, not_true_eq_false, not_false_eq_true, if_false, if_true] at h
      cases h
  · simp only [h1, not_false_eq_true, if_true] at h
    cases h

/-- Every entry of `d[]` is non-negative for sane geometry. -/
theorem Diff_dArray_nonneg (s : State) (d : Diff) (D : ℚ) (i : Nat) (hD : 0 ≤ D)
    (ha : 0 ≤ (s.tets d.pTet).area i) (hv : 0 ≤ (s.tets d.pTet).vol) :
    0 ≤ Diff.dArray s d D i := by
  unfold Diff.dArray
  simp only
  split_ifs with h1 h2 h3
  · exact div_nonneg (mul_nonneg ha hD) (mul_nonneg hv (le_of_lt h1.1))
  · exact le_refl _
  · exact div_nonneg (mul_nonneg ha hD) (mul_nonneg hv (le_of_lt h1.1))
  · exact le_refl _

/-- For sane geometry `setDcst` passes both of its asserts. -/
theorem Diff_setDcst_ok (s : State) (d : Diff) (D : ℚ) (hD : 0 ≤ D)
    (ha : ∀ i < 4, 0 ≤ (s.tets d.pTet).area i) (hv : 0 ≤ (s.tets d.pTet).vol) :
    ∃ d2, Diff.setDcst s d D = .ok d2 := by
  have h0 := Diff_dArray_nonneg s d D 0 hD (ha 0 (by omega)) hv
  have h1 := Diff_dArray_nonneg s d D 1 hD (ha 1 (by omega)) hv
  have h2 := Diff_dArray_nonneg s d D 2 hD (ha 2 (by omega)) hv
  have h3 := Diff_dArray_nonneg s d D 3 hD (ha 3 (by omega)) hv
  have hs : (0:ℚ) + Diff.dArray s d D 0 + Diff.dArray s d D 1 + Diff.dArray s d D 2
      + Diff.dArray s d D 3 ≥ 0 := by linarith
  have hD2 : D ≥ 0 := hD
  unfold Diff.setDcst
  by_cases h3 : (0:ℚ) + Diff.dArray s d D 0 + Diff.dArray s d D 1 + Diff.dArray s d D 2
        + Diff.dArray s d D 3 = 0
  · simp only [hD2, hs, h3, not_true_eq_false, if_false, if_true]
    exact ⟨_, rfl⟩
  · simp only [hD2, hs, h3, not_true_eq_false, if_false]
    exact ⟨_, rfl⟩

/-- After `setDcst(D)` the stored constant is `D`, the flags are untouched and
`pScaledDcst` is the sum of the four specification coefficients. -/
theorem Diff_setDcst_consistent (s : State) (d d2 : Diff) (D : ℚ)
    (h : Diff.setDcst s d D = .ok d2) :
    d2.pDcst = D ∧ d2.pDiffBndActive = d.pDiffBndActive ∧
    (∀ i, Diff.dArray s d D i = Diff.dSpec s d2 i) ∧
    d2.pScaledDcst = Diff.dSpec s d2 0 + Diff.dSpec s d2 1 + Diff.dSpec s d2 2
      + Diff.dSpec s d2 3 := by
  obtain ⟨hT, hD, hdir, hact, _, hsc⟩ := Diff_setDcst_fields s d d2 D h
  have hd : ∀ i, Diff.dArray s d D i = Diff.dSpec s d2 i :=
    fun i => Diff_dArray_eq_dSpec s d d2 D i hT hD hdir hact
  refine ⟨hD, hact, hd, ?_⟩
  rw [hsc, hd 0, hd 1, hd 2, hd 3]

/-- C6. After `Diff::setDcst(D)` the local array satisfies `d[i] = dSpec i` (that is
`area[i]·D/(vol·dist[i])` if neighbour `i` exists, `dist[i] > 0` and face `i` is not a
diffusion-boundary face or its boundary-active flag is set, else 0) and
`scaledDcst = d[0]+d[1]+d[2]+d[3]`; the same holds when `setDcst` is reached through
`setDiffBndActive` (flag changed) or `reset` (all four flags false, default constant);
`Diff::rate()` is `scaledDcst` times the ligand count of the source tet, or 0 when inactive;
and for sane geometry `setDcst` returns normally. -/
theorem Diff_setDcst_spec (s : State) (d : Diff) :
    (∀ D d2, Diff.setDcst s d D = .ok d2 →
      d2.pDcst = D ∧ d2.pDiffBndActive = d.pDiffBndActive ∧
      (∀ i, Diff.dArray s d D i = Diff.dSpec s d2 i) ∧
      d2.pScaledDcst = Diff.dSpec s d2 0 + Diff.dSpec s d2 1 + Diff.dSpec s d2 2
        + Diff.dSpec s d2 3) ∧
    (∀ i active d2, Diff.setDiffBndActive s d i active = .ok d2 → d.pDiffBndActive i ≠ active →
      d2.pDiffBndActive i = active ∧ d2.pDcst = d.pDcst ∧
      d2.pScaledDcst = Diff.dSpec s d2 0 + Diff.dSpec s d2 1 + Diff.dSpec s d2 2
        + Diff.dSpec s d2 3) ∧
    (∀ k k2, Diff.reset s k d = .ok k2 → ∃ d2, k2.variant = .diff d2 ∧
      (∀ i < 4, d2.pDiffBndActive i = false) ∧
      d2.pDcst = (s.tets d.pTet).compdef.dcst ((s.tets d.pTet).compdef.diffG2L d.pDiffdef.gidx) ∧
      d2.pScaledDcst = Diff.dSpec s d2 0 + Diff.dSpec s d2 1 + Diff.dSpec s d2 2
        + Diff.dSpec s d2 3) ∧
    (∀ k : KProc, Diff.rate s k d = .ok (if k.inactive = true then 0
      else d.pScaledDcst * (((s.tets d.pTet).pools d.lidxTet : Nat) : ℚ))) ∧
    (∀ D, 0 ≤ D → (∀ i < 4, 0 ≤ (s.tets d.pTet).area i) → 0 ≤ (s.tets d.pTet).vol →
      ∃ d2, Diff.setDcst s d D = .ok d2) := by
  refine ⟨fun D d2 h => Diff_setDcst_consistent s d d2 D h, ?_, ?_, ?_, ?_⟩
  · intro i active d2 h hne
    unfold Diff.setDiffBndActive at h
    by_cases h1 : i < 4
    · by_cases h2 : d.pDiffBndDirection i = true
      · have h3 : (d.pDiffBndActive i != active) = true := by
          cases hx : d.pDiffBndActive i <;> cases active <;> simp_all
        simp only [h1, h2, h3, not_true_eq_false, if_false, if_true] at h
        obtain ⟨hD, hact, _, hsc⟩ := Diff_setDcst_consistent s _ d2 _ h
        refine ⟨?_, hD, hsc⟩
        rw [hact]
        simp
      · simp only [h1, h2, not_true_eq_false, not_false_eq_true, if_false, if_true] at h
        cases h
    · simp only [h1, not_false_eq_true, if_true] at h
      cases h
  · intro k k2 h
    unfold Diff.reset at h
    simp only at h
    split at h
    · cases h
    · rename_i d2 hd2
      cases h
      obtain ⟨hD, hact, _, hsc⟩ := Diff_setDcst_consistent s _ d2 _ hd2
      refine ⟨d2, ?_, ?_, hD, hsc⟩
      · unfold KProc.setActive
        simp
      · intro i hi
        rw [hact]
        have : i = 0 ∨ i = 1 ∨ i = 2 ∨ i = 3 := by omega
        rcases this with rfl | rfl | rfl | rfl <;> simp [Function.update]
  · intro k
    unfold Diff.rate
    cases k.inactive <;> simp
  · intro D hD ha hv
    exact Diff_setDcst_ok s d D hD ha hv

/-! ## Firing (claims C8, C9) -/

/-- The cast to `int`, the signed addition and the cast back to `uint` amount to an
addition modulo 2^32. -/
theorem toUInt_wrapInt_toInt (n : Nat) (j : Int) :
    toUInt (wrapInt (toInt n + j)) = toUInt ((n : Int) + j) := by
  unfold wrapInt toUInt toInt
  split_ifs <;> omega

/-- A value in the range of `uint` converts to itself. -/
theorem toUInt_of_range (z : Int) (h0 : 0 ≤ z) (h1 : z < 4294967296) : (toUInt z : Int) = z := by
  unfold toUInt
  omega

/-- The loop of `Reac::apply` only changes the pools of the tet: every listed species
that is not clamped and has a non-zero update gets `old + upd` modulo 2^32. -/
theorem Reac_applyLoop_eq (upd_vec : Nat → Int) :
    ∀ (l : List Nat) (t : Tet), l.Nodup →
      Reac.applyLoop upd_vec l t = { t with pools := (fun p =>
        if (p ∈ l ∧ t.clamped p = false ∧ upd_vec p ≠ 0)
        then toUInt ((t.pools p : Int) + upd_vec p) else t.pools p) } := by
  intro l
  induction l with
  | nil => intro t _; simp [Reac.applyLoop]
  | cons i rest ih =>
    intro t hnd
    have hi : i ∉ rest := (List.nodup_cons.mp hnd).1
    have hrest : rest.Nodup := (List.nodup_cons.mp hnd).2
    unfold Reac.applyLoop
    by_cases hc : t.clamped i = true
    · simp only [hc, if_true]
      rw [ih t hrest]
      congr 1
      funext p
      by_cases hp : p = i
      · subst hp; simp [hc, hi]
      · simp [hp]
    · have hcf : t.clamped i = false := by simpa using hc
      by_cases hu : upd_vec i = 0
      · simp only [hcf, hu, if_true, Bool.false_eq_true, if_false]
        rw [ih t hrest]
        congr 1
        funext p
        by_cases hp : p = i
        · subst hp; simp [hu, hi]
        · simp [hp]
      · simp only [hcf, hu, Bool.false_eq_true, if_false]
        rw [ih _ hrest]
        simp only [Tet.setCount]
        congr 1
        funext p
        by_cases hp : p = i
        · subst hp
          simp [hi, hcf, hu, toUInt_wrapInt_toInt]
        · simp [hp, Function.update_noteq hp]

/-- C8. `Reac::apply()` (the virtual call on a KProc that is a Reac) returns `pUpdVec`,
draws no random number, and for every local species `p` of the tet's compartment leaves the
count unchanged when `p` is clamped and stores `old + upd[p]` (reduced modulo 2^32, hence
exactly `old + upd[p]` whenever that is a valid 32-bit count) when it is not; species beyond
the compartment's, clamp flags, all other tets and all tris are unchanged; the extent of the
reaction grows by one (32-bit counter) and no other KProc changes. -/
theorem Reac_apply_spec {σ : Type} (R : RNG σ) (s : State) (kidx : Nat) (r : Reac) (rng : σ)
    (hvar : (s.pKProcs kidx).variant = .reac r) :
    ∃ s2, KProc.apply R s kidx rng = .ok (s2, r.pUpdVec, rng) ∧
      (∀ p < Reac.nspecs s r, (s.tets r.pTet).clamped p = true →
        (s2.tets r.pTet).pools p = (s.tets r.pTet).pools p) ∧
      (∀ p < Reac.nspecs s r, (s.tets r.pTet).clamped p = false →
        (Reac.upd_vec s r p = 0 → (s2.tets r.pTet).pools p = (s.tets r.pTet).pools p) ∧
        (Reac.upd_vec s r p ≠ 0 → (s2.tets r.pTet).pools p
          = toUInt (((s.tets r.pTet).pools p : Int) + Reac.upd_vec s r p)) ∧
        (0 ≤ ((s.tets r.pTet).pools p : Int) + Reac.upd_vec s r p →
          ((s.tets r.pTet).pools p : Int) + Reac.upd_vec s r p < 4294967296 →
          ((s2.tets r.pTet).pools p : Int)
            = ((s.tets r.pTet).pools p : Int) + Reac.upd_vec s r p)) ∧
      (∀ p, Reac.nspecs s r ≤ p → (s2.tets r.pTet).pools p = (s.tets r.pTet).pools p) ∧
      (s2.tets r.pTet).clamped = (s.tets r.pTet).clamped ∧
      (∀ t, t ≠ r.pTet → s2.tets t = s.tets t) ∧
      s2.tris = s.tris ∧
      (s2.pKProcs kidx).rExtent = ((s.pKProcs kidx).rExtent + 1) % 4294967296 ∧
      (∀ j, j ≠ kidx → s2.pKProcs j = s.pKProcs j) := by
  have hloop := Reac_applyLoop_eq (Reac.upd_vec s r) (List.range (Reac.nspecs s r))
    (s.tets r.pTet) (List.nodup_range _)
  simp only [Reac.upd_vec, Reac.nspecs] at hloop
  refine ⟨(Reac.apply s kidx r).1, ?_, ?_, ?_, ?_, ?_, ?_, ?_, ?_, ?_⟩
  · simp [KProc.apply, hvar, Reac.apply]
  · intro p hp hc
    simp [Reac.apply, State.setTet, State.setKProc, hloop, hc]
  · intro p hp hc
    have hp2 : p < (s.tets r.pTet).compdef.countSpecs := hp
    refine ⟨?_, ?_, ?_⟩
    · intro hu
      simp only [Reac.upd_vec] at hu
      simp [Reac.apply, State.setTet, State.setKProc, hloop, hu]
    · intro hu
      simp only [Reac.upd_vec] at hu
      simp [Reac.apply, State.setTet, State.setKProc, hloop, hu, hc, hp2, Reac.upd_vec]
    · intro h0 h1
      by_cases hu : Reac.upd_vec s r p = 0
      · simp only [Reac.upd_vec] at hu
        simp [Reac.apply, State.setTet, State.setKProc, hloop, hu, Reac.upd_vec]
      · simp only [Reac.upd_vec] at hu h0 h1
        simp only [Reac.apply, State.setTet, State.setKProc, hloop, Function.update_same,
          List.mem_range, hp2, hc, hu, ne_eq, not_false_eq_true, and_self, if_true, Reac.upd_vec]
        exact toUInt_of_range _ h0 h1
  · intro p hp
    have hp2 : ¬ p < (s.tets r.pTet).compdef.countSpecs := by
      simp only [Reac.nspecs] at hp; omega
    simp [Reac.apply, State.setTet, State.setKProc, hloop, hp2]
  · simp [Reac.apply, State.setTet, State.setKProc, hloop]
  · intro t ht
    simp [Reac.apply, State.setTet, State.setKProc, Function.update_noteq ht]
  · simp [Reac.apply, State.setTet, State.setKProc]
  · simp [Reac.apply, State.setTet, State.setKProc, KProc.incExtent]
  · intro j hj
    simp [Reac.apply, State.setTet, State.setKProc, Function.update_noteq hj]

/-- The specification's direction is the cascade of comparisons of `Diff::apply`. -/
theorem Diff_direction_cases (d : Diff) (u : ℚ) :
    Diff.direction d u =
      if u < d.pCDFSelector 0 then 0 else if u < d.pCDFSelector 1 then 1
      else if u < d.pCDFSelector 2 then 2 else 3 := by
  have h3 : List.range 3 = [0, 1, 2] := by decide
  unfold Diff.direction
  rw [h3]
  by_cases h0 : u < d.pCDFSelector 0 <;> by_cases h1 : u < d.pCDFSelector 1 <;>
    by_cases h2 : u < d.pCDFSelector 2 <;> simp [List.find?, h0, h1, h2]

/-- Firing `Diff::apply` as one branch on the specification's direction. -/
theorem Diff_apply_eq {σ : Type} (R : RNG σ) (s : State) (kidx : Nat) (d : Diff) (rng : σ) :
    Diff.apply R s kidx d rng =
      if (s.tets d.pTet).clamped d.lidxTet = false ∧ ¬ ((s.tets d.pTet).pools d.lidxTet > 0)
      then .error .assertFail
      else
        match Diff.applyDir s kidx d ((s.tets d.pTet).clamped d.lidxTet)
            (Diff.direction d (R.getUnfEE rng).1) with
        | .error e => .error e
        | .ok (s2, upd) => .ok (s2, upd, (R.getUnfEE rng).2) := by
  unfold Diff.apply
  rw [Diff_direction_cases]
  simp only
  split_ifs <;> rfl

/-- A direction branch with an existing neighbour and a defined neighbour index
succeeds with the mutations of `Diff.hop`. -/
theorem Diff_applyDir_ok (s : State) (kidx : Nat) (d : Diff) (clamped : Bool) (dir nt : Nat)
    (hnt : (s.tets d.pTet).nextTet dir = some nt) (hl : 0 ≤ d.pNeighbCompLidx dir) :
    Diff.applyDir s kidx d clamped dir = .ok (Diff.hop s kidx d clamped dir nt, d.pUpdVec dir) := by
  have hl2 : d.pNeighbCompLidx dir > -1 := by omega
  unfold Diff.applyDir
  simp only [hnt, hl2, not_true_eq_false, if_false]

/-- A direction branch only succeeds when the neighbour exists and its stored local
index is not negative. -/
theorem Diff_applyDir_inv (s : State) (kidx : Nat) (d : Diff) (clamped : Bool) (dir : Nat)
    (r : State × List Nat) (h : Diff.applyDir s kidx d clamped dir = .ok r) :
    ∃ nt, (s.tets d.pTet).nextTet dir = some nt ∧ 0 ≤ d.pNeighbCompLidx dir := by
  unfold Diff.applyDir at h
  cases hnt : (s.tets d.pTet).nextTet dir with
  | none => simp [hnt] at h
  | some nt =>
    refine ⟨nt, rfl, ?_⟩
    by_contra hc
    have : ¬ (d.pNeighbCompLidx dir > -1) := by omega
    simp [hnt, this] at h

/-- The effect of the mutations of a direction branch on tris, extents, clamp flags
and counts. -/
theorem Diff_hop_spec (s : State) (kidx : Nat) (d : Diff) (clamped : Bool) (dir nt : Nat) :
      (Diff.hop s kidx d clamped dir nt).tris = s.tris ∧
      ((Diff.hop s kidx d clamped dir nt).pKProcs kidx).rExtent
        = ((s.pKProcs kidx).rExtent + 1) % 4294967296 ∧
      (∀ j, j ≠ kidx → (Diff.hop s kidx d clamped dir nt).pKProcs j = s.pKProcs j) ∧
      (∀ t, ((Diff.hop s kidx d clamped dir nt).tets t).clamped = (s.tets t).clamped) ∧
      (∀ t p, ¬ (t = d.pTet ∧ p = d.lidxTet) → ¬ (t = nt ∧ p = toUInt (d.pNeighbCompLidx dir)) →
        ((Diff.hop s kidx d clamped dir nt).tets t).pools p = (s.tets t).pools p) ∧
      (nt ≠ d.pTet →
        ((Diff.hop s kidx d clamped dir nt).tets d.pTet).pools d.lidxTet =
          (if clamped = false then toUInt (((s.tets d.pTet).pools d.lidxTet : Int) + (-1))
           else (s.tets d.pTet).pools d.lidxTet) ∧
        ((Diff.hop s kidx d clamped dir nt).tets nt).pools (toUInt (d.pNeighbCompLidx dir)) =
          (if (s.tets nt).clamped (toUInt (d.pNeighbCompLidx dir)) = false
           then toUInt (((s.tets nt).pools (toUInt (d.pNeighbCompLidx dir)) : Int) + 1)
           else (s.tets nt).pools (toUInt (d.pNeighbCompLidx dir)))) := by
  simp only [Diff.hop]
  refine ⟨?_, ?_, ?_, ?_, ?_, ?_⟩
  · cases hc : (s.tets nt).clamped (toUInt (d.pNeighbCompLidx dir)) <;> cases clamped <;>
      simp [State.setKProc, State.setTet]
  · cases hc : (s.tets nt).clamped (toUInt (d.pNeighbCompLidx dir)) <;> cases clamped <;>
      simp [State.setKProc, State.setTet, KProc.incExtent]
  · intro j hj
    cases hc : (s.tets nt).clamped (toUInt (d.pNeighbCompLidx dir)) <;> cases clamped <;>
      simp [State.setKProc, State.setTet, Function.update_noteq hj]
  · intro t
    by_cases ht1 : t = nt <;> by_cases ht2 : t = d.pTet <;>
    cases hc : (s.tets nt).clamped (toUInt (d.pNeighbCompLidx dir)) <;> cases clamped <;>
      simp [State.setKProc, State.setTet, Tet.incCount, Function.update_apply, ht1, ht2] <;>
      simp_all
  · intro t p h1 h2
    by_cases ht1 : t = nt <;> by_cases ht2 : t = d.pTet <;>
    cases hc : (s.tets nt).clamped (toUInt (d.pNeighbCompLidx dir)) <;> cases clamped <;>
      simp [State.setKProc, State.setTet, Tet.incCount, Function.update_apply, ht1, ht2] <;>
      simp_all [Function.update_apply]
  · intro hne
    have hne2 : d.pTet ≠ nt := fun h => hne h.symm
    constructor
    · cases hc : (s.tets nt).clamped (toUInt (d.pNeighbCompLidx dir)) <;> cases clamped <;>
        simp [State.setKProc, State.setTet, Tet.incCount, Function.update_apply, hne, hne2]
    · cases hc : (s.tets nt).clamped (toUInt (d.pNeighbCompLidx dir)) <;> cases clamped <;>
        simp [State.setKProc, State.setTet, Tet.incCount, Function.update_apply, hne, hne2, hc]

/-- Decrementing a positive 32-bit count does not wrap. -/
theorem toUInt_pred (n : Nat) (h0 : 0 < n) (h1 : n < 4294967296) :
    toUInt ((n : Int) + (-1)) + 1 = n := by
  unfold toUInt
  omega

/-- Incrementing a count below the 32-bit maximum does not wrap. -/
theorem toUInt_succ (n : Nat) (h1 : n + 1 < 4294967296) : toUInt ((n : Int) + 1) = n + 1 := by
  unfold toUInt
  omega

/-- What the constructor stores: the source tet, the ligand's local index in the source
compartment and, per face, the ligand's local index in the neighbour's compartment
(`-1` when there is no neighbour). No other method writes these members. -/
theorem Diff_new_fields (s : State) (ddef : Diffdef) (tet : Nat) (stale : Nat → Bool)
    (d0 : Diff) (h : Diff.new s ddef tet stale = .ok d0) :
    d0.pTet = tet ∧ d0.ligGIdx = ddef.lig ∧
    d0.lidxTet = (s.tets tet).compdef.specG2L ddef.lig ∧
    ∀ i, d0.pNeighbCompLidx i =
      (match (s.tets tet).nextTet i with
        | none => -1
        | some next => toInt ((s.tets next).compdef.specG2L ddef.lig)) := by
  unfold Diff.new at h
  simp only at h
  split_ifs at h <;> (rw [← Except.ok.inj h]; exact ⟨rfl, rfl, rfl, fun _ => rfl⟩)

/-- C9. `Diff::apply()` with uniform draw `u` (one `getUnfEE` draw): the direction `k` is
the first index in {0,1,2} with `u < CDF[k]`, or 3; when the call returns, neighbour `k`
exists, its stored local index `pNeighbCompLidx[k]` is not negative, the returned list is
`pUpdVec[k]`; the ligand count of the source tet decreases by 1 iff the ligand is not clamped
there (and was positive), the count of neighbour `k` at index `pNeighbCompLidx[k]` increases by
1 iff it is not clamped there, no other count and no tri changes, and the extent grows by one;
and the call does return when the source count is positive or clamped, the neighbour exists and
its stored index is not negative. Counts are 32-bit values and the neighbour is a tet other than
the source. The stored `pNeighbCompLidx[k]` is, by the constructor, the ligand's local index
`specG2L(lig)` in the compartment of neighbour `k`. -/
theorem Diff_apply_spec {σ : Type} (R : RNG σ) (s : State) (kidx : Nat) (d : Diff) (rng : σ)
    (u : ℚ) (k : Nat) (hvar : (s.pKProcs kidx).variant = .diff d)
    (hu : u = (R.getUnfEE rng).1) (hk : k = Diff.direction d u) :
    (∀ s2 upd rng2, KProc.apply R s kidx rng = .ok (s2, upd, rng2) →
      rng2 = (R.getUnfEE rng).2 ∧ upd = d.pUpdVec k ∧
      ((s.tets d.pTet).clamped d.lidxTet = false → 0 < (s.tets d.pTet).pools d.lidxTet) ∧
      ∃ nt, (s.tets d.pTet).nextTet k = some nt ∧ 0 ≤ d.pNeighbCompLidx k ∧
        (nt ≠ d.pTet →
          ((s.tets d.pTet).clamped d.lidxTet = false →
            (s.tets d.pTet).pools d.lidxTet < 4294967296 →
            (s2.tets d.pTet).pools d.lidxTet + 1 = (s.tets d.pTet).pools d.lidxTet) ∧
          ((s.tets d.pTet).clamped d.lidxTet = true →
            (s2.tets d.pTet).pools d.lidxTet = (s.tets d.pTet).pools d.lidxTet) ∧
          ((s.tets nt).clamped (toUInt (d.pNeighbCompLidx k)) = false →
            (s.tets nt).pools (toUInt (d.pNeighbCompLidx k)) + 1 < 4294967296 →
            (s2.tets nt).pools (toUInt (d.pNeighbCompLidx k))
              = (s.tets nt).pools (toUInt (d.pNeighbCompLidx k)) + 1) ∧
          ((s.tets nt).clamped (toUInt (d.pNeighbCompLidx k)) = true →
            (s2.tets nt).pools (toUInt (d.pNeighbCompLidx k))
              = (s.tets nt).pools (toUInt (d.pNeighbCompLidx k)))) ∧
        (∀ t p, ¬ (t = d.pTet ∧ p = d.lidxTet) →
          ¬ (t = nt ∧ p = toUInt (d.pNeighbCompLidx k)) →
          (s2.tets t).pools p = (s.tets t).pools p) ∧
        s2.tris = s.tris ∧
        (s2.pKProcs kidx).rExtent = ((s.pKProcs kidx).rExtent + 1) % 4294967296 ∧
        (∀ j, j ≠ kidx → s2.pKProcs j = s.pKProcs j)) ∧
    (((s.tets d.pTet).clamped d.lidxTet = true ∨ 0 < (s.tets d.pTet).pools d.lidxTet) →
      ∀ nt, (s.tets d.pTet).nextTet k = some nt → 0 ≤ d.pNeighbCompLidx k →
      ∃ s2, KProc.apply R s kidx rng = .ok (s2, d.pUpdVec k, (R.getUnfEE rng).2)) ∧
    (∀ ddef tet stale d0, Diff.new s ddef tet stale = .ok d0 →
      d0.pTet = tet ∧ d0.ligGIdx = ddef.lig ∧
      d0.lidxTet = (s.tets tet).compdef.specG2L ddef.lig ∧
      ∀ i, d0.pNeighbCompLidx i =
        (match (s.tets tet).nextTet i with
          | none => -1
          | some next => toInt ((s.tets next).compdef.specG2L ddef.lig))) := by
  subst hu hk
  refine ⟨?_, ?_, fun ddef tet stale d0 h => Diff_new_fields s ddef tet stale d0 h⟩
  · intro s2 upd rng2 h
    simp only [KProc.apply, hvar, Diff_apply_eq] at h
    by_cases hassert : (s.tets d.pTet).clamped d.lidxTet = false ∧
        ¬ ((s.tets d.pTet).pools d.lidxTet > 0)
    · simp [hassert] at h
    · simp only [hassert, if_false] at h
      cases hdir : Diff.applyDir s kidx d ((s.tets d.pTet).clamped d.lidxTet)
          (Diff.direction d (R.getUnfEE rng).1) with
      | error e => simp [hdir] at h
      | ok r =>
        obtain ⟨nt, hnt, hl⟩ := Diff_applyDir_inv _ _ _ _ _ _ hdir
        rw [Diff_applyDir_ok _ _ _ _ _ nt hnt hl] at h
        simp only [Except.ok.injEq, Prod.mk.injEq] at h
        obtain ⟨rfl, rfl, rfl⟩ := h
        obtain ⟨h1, h2, h3, _, h5, h6⟩ := Diff_hop_spec s kidx d
          ((s.tets d.pTet).clamped d.lidxTet) (Diff.direction d (R.getUnfEE rng).1) nt
        refine ⟨rfl, rfl, ?_, nt, hnt, hl, ?_, h5, h1, h2, h3⟩
        · intro hc
          by_contra hpos
          exact hassert ⟨hc, hpos⟩
        · intro hne
          obtain ⟨h6a, h6b⟩ := h6 hne
          refine ⟨?_, ?_, ?_, ?_⟩
          · intro hc hfit
            rw [h6a]
            simp only [hc, if_true]
            have hpos : 0 < (s.tets d.pTet).pools d.lidxTet := by
              by_contra hpos
              exact hassert ⟨hc, hpos⟩
            exact toUInt_pred _ hpos hfit
          · intro hc
            rw [h6a]
            simp [hc]
          · intro hc hfit
            rw [h6b]
            simp only [hc, if_true]
            exact toUInt_succ _ hfit
          · intro hc
            rw [h6b]
            simp [hc]
  · intro hpre nt hnt hl
    refine ⟨Diff.hop s kidx d ((s.tets d.pTet).clamped d.lidxTet)
      (Diff.direction d (R.getUnfEE rng).1) nt, ?_⟩
    simp only [KProc.apply, hvar, Diff_apply_eq]
    have hassert : ¬ ((s.tets d.pTet).clamped d.lidxTet = false ∧
        ¬ ((s.tets d.pTet).pools d.lidxTet > 0)) := by
      rintro ⟨h1, h2⟩
      rcases hpre with h | h
      · rw [h1] at h; cases h
      · exact h2 h
    simp only [hassert, if_false, Diff_applyDir_ok _ _ _ _ _ nt hnt hl]

/-! ## Frame lemmas for the selector bookkeeping and for firing -/

theorem CRFrame.reflCR (s : State) : CRFrame s s :=
  ⟨rfl, rfl, rfl, rfl, rfl, fun _ => ⟨rfl, rfl, rfl, rfl⟩⟩

theorem CRFrame.transCR {s1 s2 s3 : State} (h12 : CRFrame s1 s2) (h23 : CRFrame s2 s3) :
    CRFrame s1 s3 := by
  obtain ⟨a1, a2, a3, a4, a5, a6⟩ := h12
  obtain ⟨b1, b2, b3, b4, b5, b6⟩ := h23
  refine ⟨b1.trans a1, b2.trans a2, b3.trans a3, b4.trans a4, b5.trans a5, fun j => ?_⟩
  obtain ⟨c1, c2, c3, c4⟩ := a6 j
  obtain ⟨d1, d2, d3, d4⟩ := b6 j
  exact ⟨d1.trans c1, d2.trans c2, d3.trans c3, d4.trans c4⟩

theorem CRFrame_setCRData (s : State) (kp : Nat) (data : CRKProcData) :
    CRFrame s (s.setCRData kp data) := by
  refine ⟨rfl, rfl, rfl, rfl, rfl, fun j => ?_⟩
  by_cases h : j = kp
  · subst h; simp [State.setCRData, State.setKProc]
  · simp [State.setCRData, State.setKProc, Function.update_noteq h]

theorem CRFrame_setGroup (s : State) (pow : Int) (g : CRGroup) :
    CRFrame s (s.setGroup pow g) := by
  unfold State.setGroup
  split_ifs <;> exact ⟨rfl, rfl, rfl, rfl, rfl, fun _ => ⟨rfl, rfl, rfl, rfl⟩⟩

theorem CRFrame_removeOld (s : State) (kp : Nat) (old_pow : Int) (old_rate : ℚ) :
    CRFrame s (removeOld s kp old_pow old_rate) := by
  unfold removeOld
  simp only
  split_ifs
  · exact CRFrame_setGroup _ _ _
  · exact (CRFrame_setGroup _ _ _).transCR (CRFrame_setCRData _ _ _)

theorem CRFrame_extendPLoop : ∀ (n : Nat) (s : State), CRFrame s (extendPLoop n s) := by
  intro n
  induction n with
  | zero => intro s; exact CRFrame.reflCR s
  | succ n ih =>
    intro s
    unfold extendPLoop
    exact CRFrame.transCR ⟨rfl, rfl, rfl, rfl, rfl, fun _ => ⟨rfl, rfl, rfl, rfl⟩⟩ (ih _)

theorem CRFrame_extendNLoop : ∀ (n : Nat) (s : State), CRFrame s (extendNLoop n s) := by
  intro n
  induction n with
  | zero => intro s; exact CRFrame.reflCR s
  | succ n ih =>
    intro s
    unfold extendNLoop
    exact CRFrame.transCR ⟨rfl, rfl, rfl, rfl, rfl, fun _ => ⟨rfl, rfl, rfl, rfl⟩⟩ (ih _)

theorem CRFrame_addNewP (s : State) (kp : Nat) (new_pow : Int) (new_rate : ℚ) :
    CRFrame s (addNewP s kp new_pow new_rate) := by
  unfold addNewP
  simp only
  refine CRFrame.transCR ?_ (CRFrame_setCRData _ _ _)
  refine @CRFrame.transCR s (if s.pGroupsSize ≤ new_pow.toNat
    then _extendPGroups s (new_pow.toNat + 1) else s) _ ?_
    ⟨rfl, rfl, rfl, rfl, rfl, fun _ => ⟨rfl, rfl, rfl, rfl⟩⟩
  split_ifs
  · exact CRFrame_extendPLoop _ _
  · exact CRFrame.reflCR s

theorem CRFrame_addNewN (s : State) (kp : Nat) (new_pow : Int) (new_rate : ℚ) :
    CRFrame s (addNewN s kp new_pow new_rate) := by
  unfold addNewN
  simp only
  refine CRFrame.transCR ?_ (CRFrame_setCRData _ _ _)
  refine @CRFrame.transCR s (if s.nGroupsSize ≤ (-new_pow).toNat
    then _extendNGroups s ((-new_pow).toNat + 1) else s) _ ?_
    ⟨rfl, rfl, rfl, rfl, rfl, fun _ => ⟨rfl, rfl, rfl, rfl⟩⟩
  split_ifs
  · exact CRFrame_extendNLoop _ _
  · exact CRFrame.reflCR s

theorem CRFrame.thenSetCRData {s0 s : State} (h : CRFrame s0 s) (kp : Nat) (data : CRKProcData) :
    CRFrame s0 (s.setCRData kp data) := h.transCR (CRFrame_setCRData s kp data)

theorem CRFrame.thenSetGroup {s0 s : State} (h : CRFrame s0 s) (pow : Int) (g : CRGroup) :
    CRFrame s0 (s.setGroup pow g) := h.transCR (CRFrame_setGroup s pow g)

theorem CRFrame.thenRemoveOld {s0 s : State} (h : CRFrame s0 s) (kp : Nat) (old_pow : Int)
    (old_rate : ℚ) : CRFrame s0 (removeOld s kp old_pow old_rate) :=
  h.transCR (CRFrame_removeOld s kp old_pow old_rate)

theorem CRFrame.thenAddNewP {s0 s : State} (h : CRFrame s0 s) (kp : Nat) (new_pow : Int)
    (new_rate : ℚ) : CRFrame s0 (addNewP s kp new_pow new_rate) :=
  h.transCR (CRFrame_addNewP s kp new_pow new_rate)

theorem CRFrame.thenAddNewN {s0 s : State} (h : CRFrame s0 s) (kp : Nat) (new_pow : Int)
    (new_rate : ℚ) : CRFrame s0 (addNewN s kp new_pow new_rate) :=
  h.transCR (CRFrame_addNewN s kp new_pow new_rate)

theorem CRFrame.thenMoveOrAdjust {s0 s : State} (h : CRFrame s0 s) (kp : Nat)
    (old_rate new_rate : ℚ) (positive : Bool) :
    CRFrame s0 (moveOrAdjust s kp old_rate new_rate positive) := by
  unfold moveOrAdjust
  simp only
  apply CRFrame.thenSetCRData
  split_ifs
  · exact h.thenSetGroup _ _
  · apply CRFrame.thenAddNewP
    apply CRFrame.thenRemoveOld
    exact h.thenSetCRData _ _
  · apply CRFrame.thenAddNewP
    exact h.thenSetCRData _ _
  · apply CRFrame.thenAddNewN
    apply CRFrame.thenRemoveOld
    exact h.thenSetCRData _ _
  · apply CRFrame.thenAddNewN
    exact h.thenSetCRData _ _

theorem CRFrame_updateElement (s s2 : State) (kp : Nat) (h : _updateElement s kp = .ok s2) :
    CRFrame s s2 := by
  unfold _updateElement at h
  cases hr : KProc.rate s (s.pKProcs kp) with
  | error e => rw [hr] at h; cases h
  | ok new_rate =>
    rw [hr] at h
    simp only at h
    split_ifs at h
    · rw [← Except.ok.inj h]
      exact (CRFrame.reflCR s).thenSetCRData _ _
    · rw [← Except.ok.inj h]
      apply CRFrame.thenMoveOrAdjust
      exact (CRFrame.reflCR s).thenSetCRData _ _
    · rw [← Except.ok.inj h]
      apply CRFrame.thenMoveOrAdjust
      exact (CRFrame.reflCR s).thenSetCRData _ _
    · rw [← Except.ok.inj h]
      apply CRFrame.thenSetCRData
      apply CRFrame.thenRemoveOld
      exact (CRFrame.reflCR s).thenSetCRData _ _
    · rw [← Except.ok.inj h]
      apply CRFrame.thenSetCRData
      exact (CRFrame.reflCR s).thenSetCRData _ _

theorem CRFrame_updateLoop : ∀ (l : List Nat) (s s2 : State), updateLoop l s = .ok s2 →
    CRFrame s s2 := by
  intro l
  induction l with
  | nil => intro s s2 h; simp only [updateLoop] at h; cases h; exact CRFrame.reflCR s
  | cons kp rest ih =>
    intro s s2 h
    unfold updateLoop at h
    cases h1 : _updateElement s kp with
    | error e => simp [h1] at h
    | ok s1 =>
      simp only [h1] at h
      exact (CRFrame_updateElement s s1 kp h1).transCR (ih s1 s2 h)

theorem CRFrame_update (s s2 : State) (upd : List Nat) (h : _update s upd = .ok s2) :
    CRFrame s s2 := by
  unfold _update at h
  cases h1 : updateLoop upd s with
  | error e => simp [h1] at h
  | ok s1 =>
    simp only [h1] at h
    cases h
    exact (CRFrame_updateLoop upd s s1 h1).transCR ⟨rfl, rfl, rfl, rfl, rfl, fun _ => ⟨rfl, rfl, rfl, rfl⟩⟩

theorem PoolFrame.reflPool (s : State) : PoolFrame s s :=
  ⟨rfl, rfl, rfl, rfl, rfl, rfl, rfl, rfl, rfl, rfl, rfl⟩

theorem PoolFrame.transPool {s1 s2 s3 : State} (h12 : PoolFrame s1 s2) (h23 : PoolFrame s2 s3) :
    PoolFrame s1 s3 := by
  obtain ⟨a1, a2, a3, a4, a5, a6, a7, a8, a9, a10, a11⟩ := h12
  obtain ⟨b1, b2, b3, b4, b5, b6, b7, b8, b9, b10, b11⟩ := h23
  exact ⟨b1.trans a1, b2.trans a2, b3.trans a3, b4.trans a4, b5.trans a5, b6.trans a6,
    b7.trans a7, b8.trans a8, b9.trans a9, b10.trans a10, b11.trans a11⟩

theorem PoolFrame_setTet (s : State) (i : Nat) (t : Tet) : PoolFrame s (s.setTet i t) :=
  ⟨rfl, rfl, rfl, rfl, rfl, rfl, rfl, rfl, rfl, rfl, rfl⟩

theorem PoolFrame_setTri (s : State) (i : Nat) (t : Tri) : PoolFrame s (s.setTri i t) :=
  ⟨rfl, rfl, rfl, rfl, rfl, rfl, rfl, rfl, rfl, rfl, rfl⟩

theorem PoolFrame_applyVol (s s2 : State) (upd_vec : Nat → Int) (n : Nat) (tet : Option Nat)
    (h : SReac.applyVol s upd_vec n tet = .ok s2) : PoolFrame s s2 := by
  unfold SReac.applyVol at h
  cases tet with
  | none => simp only at h; rw [← Except.ok.inj h]; exact PoolFrame.reflPool s
  | some t =>
    simp only at h
    cases hl : SReac.applyLoopTet upd_vec (List.range n) (s.tets t) with
    | error e => rw [hl] at h; cases h
    | ok t2 =>
      rw [hl] at h
      rw [← Except.ok.inj h]
      exact PoolFrame_setTet s t t2

theorem ApplyFrame_of_PoolFrame (s s1 : State) (kp : Nat) (h : PoolFrame s s1) :
    ApplyFrame s kp (s1.setKProc kp (s1.pKProcs kp).incExtent) := by
  obtain ⟨a1, a2, a3, a4, a5, a6, a7, a8, a9, a10, a11⟩ := h
  refine ⟨?_, a2, a3, a4, a5, a6, a7, a8, a9, a10, a11⟩
  simp [State.setKProc, a1]

theorem ApplyFrame_hop (s : State) (kidx : Nat) (d : Diff) (clamped : Bool) (dir nt : Nat) :
    ApplyFrame s kidx (Diff.hop s kidx d clamped dir nt) := by
  unfold Diff.hop
  simp only
  apply ApplyFrame_of_PoolFrame
  split_ifs <;> exact ⟨rfl, rfl, rfl, rfl, rfl, rfl, rfl, rfl, rfl, rfl, rfl⟩

theorem KProc_apply_frame {σ : Type} (R : RNG σ) (s s1 : State) (kp : Nat) (rng rng1 : σ)
    (upd : List Nat) (h : KProc.apply R s kp rng = .ok (s1, upd, rng1)) :
    ApplyFrame s kp s1 := by
  unfold KProc.apply at h
  cases hv : (s.pKProcs kp).variant with
  | reac r =>
    rw [hv] at h
    simp only [Except.ok.injEq, Prod.mk.injEq] at h
    rw [← h.1]
    exact ApplyFrame_of_PoolFrame s _ kp (PoolFrame_setTet _ _ _)
  | sreac sr =>
    rw [hv] at h
    simp only at h
    cases ha : SReac.apply s kp sr with
    | error e => rw [ha] at h; cases h
    | ok r =>
      rw [ha] at h
      simp only [Except.ok.injEq, Prod.mk.injEq] at h
      rw [← h.1]
      unfold SReac.apply at ha
      simp only at ha
      cases h1 : SReac.applyLoopTri ((s.tris sr.pTri).patchdef.sreac_upd_S_bgn
          ((s.tris sr.pTri).patchdef.sreacG2L sr.pSReacdef.gidx))
          (List.range (s.tris sr.pTri).patchdef.countSpecs) (s.tris sr.pTri) with
      | error e => rw [h1] at ha; cases ha
      | ok tri2 =>
        rw [h1] at ha
        simp only at ha
        cases h2 : SReac.applyVol (s.setTri sr.pTri tri2)
            ((s.tris sr.pTri).patchdef.sreac_upd_I_bgn
              ((s.tris sr.pTri).patchdef.sreacG2L sr.pSReacdef.gidx))
            (s.tris sr.pTri).patchdef.countSpecs_I ((s.setTri sr.pTri tri2).tris sr.pTri).iTet with
        | error e => rw [h2] at ha; cases ha
        | ok s2 =>
          rw [h2] at ha
          simp only at ha
          cases h3 : SReac.applyVol s2
              ((s.tris sr.pTri).patchdef.sreac_upd_O_bgn
                ((s.tris sr.pTri).patchdef.sreacG2L sr.pSReacdef.gidx))
              (s.tris sr.pTri).patchdef.countSpecs_O (s2.tris sr.pTri).oTet with
          | error e => rw [h3] at ha; cases ha
          | ok s3 =>
            rw [h3] at ha
            simp only [Except.ok.injEq] at ha
            rw [← ha]
            exact ApplyFrame_of_PoolFrame s s3 kp
              (((PoolFrame_setTri s _ _).transPool (PoolFrame_applyVol _ _ _ _ _ h2)).transPool
                (PoolFrame_applyVol _ _ _ _ _ h3))
  | diff d =>
    rw [hv] at h
    simp only [Diff_apply_eq] at h
    split_ifs at h
    cases hdir : Diff.applyDir s kp d ((s.tets d.pTet).clamped d.lidxTet)
        (Diff.direction d (R.getUnfEE rng).1) with
    | error e => rw [hdir] at h; cases h
    | ok r =>
      obtain ⟨nt, hnt, hl⟩ := Diff_applyDir_inv _ _ _ _ _ _ hdir
      rw [Diff_applyDir_ok _ _ _ _ _ nt hnt hl] at h
      simp only [Except.ok.injEq, Prod.mk.injEq] at h
      rw [← h.1]
      exact ApplyFrame_hop _ _ _ _ _ _

/-! ## The driver (claims C1 to C3) -/

/-- `_getNext` returns NULL only when the total propensity is zero, and then draws nothing. -/
theorem getNext_none {σ : Type} (R : RNG σ) (rfuel : Nat) (s : State) (rng rng1 : σ)
    (h : _getNext R rfuel s rng = .ok (none, rng1)) : s.pA0 = 0 ∧ rng1 = rng := by
  unfold _getNext at h
  by_cases h1 : s.pA0 ≥ 0
  · by_cases h2 : s.pA0 = 0
    · simp only [h1, h2, not_true_eq_false, if_false, if_true, Except.ok.injEq,
        Prod.mk.injEq, true_and] at h
      simp only [ge_iff_le, le_refl, not_true_eq_false, if_false, if_true, Except.ok.injEq,
        Prod.mk.injEq, true_and, h2] at h
      exact ⟨h2, h.symm⟩
    · exfalso
      simp only [h1, h2, not_true_eq_false, if_false] at h
      split at h
      · split at h
        · cases h
        · simp at h
      · split at h
        · split at h
          · cases h
          · simp at h
        · cases h
  · simp only [h1, not_false_eq_true, if_true] at h
    cases h

/-- With zero total propensity `_getNext` returns NULL without drawing. -/
theorem getNext_zero {σ : Type} (R : RNG σ) (rfuel : Nat) (s : State) (rng : σ)
    (h : s.pA0 = 0) : _getNext R rfuel s rng = .ok (none, rng) := by
  unfold _getNext
  simp [h]

/-- A successful `_executeStep` is a successful firing, a successful refresh and a
non-negative time increment. -/
theorem executeStep_inv {σ : Type} (R : RNG σ) (s s2 : State) (kp : Nat) (dt : ℚ) (rng rng2 : σ)
    (h : _executeStep R s kp dt rng = .ok (s2, rng2)) :
    ∃ s1 upd s1u, KProc.apply R s kp rng = .ok (s1, upd, rng2) ∧ _update s1 upd = .ok s1u ∧
      0 ≤ dt ∧
      s2 = { s1u with pTime := s1u.pTime + dt, pNSteps := (s1u.pNSteps + 1) % 4294967296 } := by
  unfold _executeStep at h
  cases ha : KProc.apply R s kp rng with
  | error e => rw [ha] at h; cases h
  | ok r =>
    obtain ⟨s1, upd, rng1⟩ := r
    rw [ha] at h
    simp only at h
    cases hu : _update s1 upd with
    | error e => rw [hu] at h; cases h
    | ok s1u =>
      rw [hu] at h
      simp only at h
      by_cases hdt : dt ≥ 0
      · simp only [hdt, not_true_eq_false, if_false, Except.ok.injEq, Prod.mk.injEq] at h
        obtain ⟨h1, h2⟩ := h
        subst h2
        exact ⟨s1, upd, s1u, rfl, hu, hdt, h1.symm⟩
      · simp only [hdt, not_false_eq_true, if_true] at h
        cases h

/-- Conversely these three make `_executeStep` succeed. -/
theorem executeStep_ok {σ : Type} (R : RNG σ) (s s1 s1u : State) (kp : Nat) (dt : ℚ)
    (rng rng2 : σ) (upd : List Nat)
    (ha : KProc.apply R s kp rng = .ok (s1, upd, rng2)) (hu : _update s1 upd = .ok s1u)
    (hdt : 0 ≤ dt) :
    _executeStep R s kp dt rng = .ok
      ({ s1u with pTime := s1u.pTime + dt, pNSteps := (s1u.pNSteps + 1) % 4294967296 }, rng2) := by
  have hdt2 : dt ≥ 0 := hdt
  unfold _executeStep
  simp only [ha, hu, hdt2, not_true_eq_false, if_false]

/-- Effect of `_executeStep` on time, step counter and extents. -/
theorem executeStep_effect {σ : Type} (R : RNG σ) (s s2 : State) (kp : Nat) (dt : ℚ)
    (rng rng2 : σ) (h : _executeStep R s kp dt rng = .ok (s2, rng2)) :
    0 ≤ dt ∧ s2.pTime = s.pTime + dt ∧ s2.pNSteps = (s.pNSteps + 1) % 4294967296 ∧
    (s2.pKProcs kp).rExtent = ((s.pKProcs kp).rExtent + 1) % 4294967296 ∧
    (∀ j, j ≠ kp → (s2.pKProcs j).rExtent = (s.pKProcs j).rExtent) := by
  obtain ⟨s1, upd, s1u, ha, hu, hdt, hs2⟩ := executeStep_inv R s s2 kp dt rng rng2 h
  obtain ⟨a1, _, _, _, _, _, _, _, _, a10, a11⟩ := KProc_apply_frame R s s1 kp rng rng2 upd ha
  obtain ⟨_, _, _, c4, c5, c6⟩ := CRFrame_update s1 s1u upd hu
  subst hs2
  refine ⟨hdt, ?_, ?_, ?_, ?_⟩
  · simp only [c4, a10]
  · simp only [c5, a11]
  · simp only [(c6 kp).1, a1, Function.update_same, KProc.incExtent]
  · intro j hj
    simp only [(c6 j).1, a1, Function.update_noteq hj]

/-- With zero total propensity `step()` is a no-op that draws nothing. -/
theorem step_zero {σ : Type} (R : RNG σ) (rfuel : Nat) (s : State) (rng : σ) (h0 : s.pA0 = 0) :
    step R rfuel s rng = .ok (s, rng) := by
  unfold step
  rw [getNext_zero R rfuel s rng h0]

/-- A returning `step()` with non-zero total propensity has selected, fired and refreshed
exactly once. -/
theorem step_inv {σ : Type} (R : RNG σ) (rfuel : Nat) (s s2 : State) (rng rng2 : σ)
    (hne : s.pA0 ≠ 0) (h : step R rfuel s rng = .ok (s2, rng2)) :
    ∃ kp rng1 s1 upd s1u, _getNext R rfuel s rng = .ok (some kp, rng1) ∧
      KProc.apply R s kp (R.getExp s.pA0 rng1).2 = .ok (s1, upd, rng2) ∧
      _update s1 upd = .ok s1u ∧
      s2 = { s1u with pTime := s1u.pTime + (R.getExp s.pA0 rng1).1,
                      pNSteps := (s1u.pNSteps + 1) % 4294967296 } ∧
      0 ≤ (R.getExp s.pA0 rng1).1 ∧
      s2.pTime = s.pTime + (R.getExp s.pA0 rng1).1 ∧
      s2.pNSteps = (s.pNSteps + 1) % 4294967296 ∧
      (s2.pKProcs kp).rExtent = ((s.pKProcs kp).rExtent + 1) % 4294967296 ∧
      (∀ j, j ≠ kp → (s2.pKProcs j).rExtent = (s.pKProcs j).rExtent) := by
  unfold step at h
  cases hn : _getNext R rfuel s rng with
  | error e => rw [hn] at h; cases h
  | ok r =>
    obtain ⟨okp, rng1⟩ := r
    cases okp with
    | none => exact absurd (getNext_none R rfuel s rng rng1 hn).1 hne
    | some kp =>
      rw [hn] at h
      simp only [hne, if_false] at h
      obtain ⟨s1, upd, s1u, ha, hu, hdt, hs2⟩ := executeStep_inv R s s2 kp _ _ rng2 h
      obtain ⟨_, e2, e3, e4, e5⟩ := executeStep_effect R s s2 kp _ _ rng2 h
      exact ⟨kp, rng1, s1, upd, s1u, rfl, ha, hu, hs2, hdt, e2, e3, e4, e5⟩

/-- With non-zero total propensity `step()` returns whenever selection, firing and refresh
return and the drawn time increment is not negative. -/
theorem step_ok {σ : Type} (R : RNG σ) (rfuel : Nat) (s s1 s1u : State) (rng rng1 rng2 : σ)
    (kp : Nat) (upd : List Nat) (hne : s.pA0 ≠ 0)
    (hn : _getNext R rfuel s rng = .ok (some kp, rng1))
    (ha : KProc.apply R s kp (R.getExp s.pA0 rng1).2 = .ok (s1, upd, rng2))
    (hu : _update s1 upd = .ok s1u) (hdt : 0 ≤ (R.getExp s.pA0 rng1).1) :
    step R rfuel s rng = .ok
      ({ s1u with pTime := s1u.pTime + (R.getExp s.pA0 rng1).1,
                  pNSteps := (s1u.pNSteps + 1) % 4294967296 }, rng2) := by
  unfold step
  rw [hn]
  simp only [hne, if_false]
  exact executeStep_ok R s s1 s1u kp _ _ rng2 upd ha hu hdt

/-- C1. `step()`: if `A0 == 0` it returns the state and the generator unchanged (nothing is
changed, nothing is drawn). Otherwise, whenever it returns, exactly one KProc, the one returned
by `_getNext`, has been applied once (its extent grew by one, no other extent changed), the
refresh `_update` of the returned list has run, the step counter grew by one (32-bit counter)
and the time grew by `dt`, the `getExp` draw taken with the `A0` held before the event; and it
does return whenever selection, firing and refresh return and `dt >= 0`. -/
theorem step_spec {σ : Type} (R : RNG σ) (rfuel : Nat) (s : State) (rng : σ) :
    (s.pA0 = 0 → step R rfuel s rng = .ok (s, rng)) ∧
    (s.pA0 ≠ 0 → ∀ s2 rng2, step R rfuel s rng = .ok (s2, rng2) →
      ∃ kp rng1 s1 upd s1u, _getNext R rfuel s rng = .ok (some kp, rng1) ∧
        KProc.apply R s kp (R.getExp s.pA0 rng1).2 = .ok (s1, upd, rng2) ∧
        _update s1 upd = .ok s1u ∧
        s2 = { s1u with pTime := s1u.pTime + (R.getExp s.pA0 rng1).1,
                        pNSteps := (s1u.pNSteps + 1) % 4294967296 } ∧
        0 ≤ (R.getExp s.pA0 rng1).1 ∧
        s2.pTime = s.pTime + (R.getExp s.pA0 rng1).1 ∧
        s2.pNSteps = (s.pNSteps + 1) % 4294967296 ∧
        (s2.pKProcs kp).rExtent = ((s.pKProcs kp).rExtent + 1) % 4294967296 ∧
        (∀ j, j ≠ kp → (s2.pKProcs j).rExtent = (s.pKProcs j).rExtent)) ∧
    (s.pA0 ≠ 0 → ∀ kp rng1 s1 upd rng2 s1u, _getNext R rfuel s rng = .ok (some kp, rng1) →
      KProc.apply R s kp (R.getExp s.pA0 rng1).2 = .ok (s1, upd, rng2) →
      _update s1 upd = .ok s1u → 0 ≤ (R.getExp s.pA0 rng1).1 →
      step R rfuel s rng = .ok
        ({ s1u with pTime := s1u.pTime + (R.getExp s.pA0 rng1).1,
                    pNSteps := (s1u.pNSteps + 1) % 4294967296 }, rng2)) :=
  ⟨step_zero R rfuel s rng,
   fun hne s2 rng2 h => step_inv R rfuel s s2 rng rng2 hne h,
   fun hne kp rng1 s1 upd rng2 s1u hn ha hu hdt =>
     step_ok R rfuel s s1 s1u rng rng1 rng2 kp upd hne hn ha hu hdt⟩

/-- What the loop of `run` guarantees whenever it ends: every executed event ended at or
before `endtime` and was fired with a non-zero total propensity, the time stays at or below
`endtime`, and step counter and time account for exactly the executed events. -/
theorem runLoop_props {σ : Type} (R : RNG σ) (rfuel : Nat) (endtime : ℚ) :
    ∀ (fuel : Nat) (s s1 : State) (rng rng1 : σ) (evs : List Event),
      runLoop R rfuel endtime fuel s rng = .ok (s1, rng1, evs) → s.pNSteps < 4294967296 →
      (∀ e ∈ evs, e.time + e.dt ≤ endtime ∧ e.a0 ≠ 0 ∧ 0 ≤ e.dt) ∧
      (s.pTime ≤ endtime → s1.pTime ≤ endtime) ∧
      s1.pNSteps = (s.pNSteps + evs.length) % 4294967296 ∧
      s1.pTime = s.pTime + (evs.map Event.dt).sum := by
  intro fuel
  induction fuel with
  | zero =>
    intro s s1 rng rng1 evs h hfit
    unfold runLoop at h
    split_ifs at h
    simp only [Except.ok.injEq, Prod.mk.injEq] at h
    obtain ⟨rfl, rfl, rfl⟩ := h
    simp [Nat.mod_eq_of_lt hfit]
  | succ fuel ih =>
    intro s s1 rng rng1 evs h hfit
    unfold runLoop at h
    by_cases ht : s.pTime < endtime
    · simp only [ht, not_true_eq_false, if_false] at h
      cases hn : _getNext R rfuel s rng with
      | error e => rw [hn] at h; cases h
      | ok r =>
        obtain ⟨okp, rng2⟩ := r
        rw [hn] at h
        cases okp with
        | none =>
          simp only [Except.ok.injEq, Prod.mk.injEq] at h
          obtain ⟨rfl, rfl, rfl⟩ := h
          simp [Nat.mod_eq_of_lt hfit]
        | some kp =>
          simp only at h
          by_cases h0 : s.pA0 = 0
          · simp only [h0, if_true, Except.ok.injEq, Prod.mk.injEq] at h
            obtain ⟨rfl, rfl, rfl⟩ := h
            simp [Nat.mod_eq_of_lt hfit]
          · simp only [h0, if_false] at h
            by_cases hov : s.pTime + (R.getExp s.pA0 rng2).1 > endtime
            · simp only [hov, if_true, Except.ok.injEq, Prod.mk.injEq] at h
              obtain ⟨rfl, rfl, rfl⟩ := h
              simp [Nat.mod_eq_of_lt hfit]
            · simp only [hov, if_false] at h
              cases he : _executeStep R s kp (R.getExp s.pA0 rng2).1 (R.getExp s.pA0 rng2).2 with
              | error e => rw [he] at h; cases h
              | ok r2 =>
                obtain ⟨s2, rng3⟩ := r2
                rw [he] at h
                simp only at h
                cases hr : runLoop R rfuel endtime fuel s2 rng3 with
                | error e => rw [hr] at h; cases h
                | ok r3 =>
                  obtain ⟨s3, rng4, evs3⟩ := r3
                  rw [hr] at h
                  simp only [Except.ok.injEq, Prod.mk.injEq] at h
                  obtain ⟨rfl, rfl, rfl⟩ := h
                  obtain ⟨e1, e2, e3, _, _⟩ := executeStep_effect R s s2 kp _ _ rng3 he
                  have hfit1 : s2.pNSteps < 4294967296 := by
                    rw [e3]; exact Nat.mod_lt _ (by norm_num)
                  obtain ⟨i1, i2, i3, i4⟩ := ih s2 s3 rng3 rng4 evs3 hr hfit1
                  have hle : s.pTime + (R.getExp s.pA0 rng2).1 ≤ endtime := not_lt.mp hov
                  refine ⟨?_, ?_, ?_, ?_⟩
                  · intro e he2
                    rcases List.mem_cons.mp he2 with rfl | hmem
                    · exact ⟨hle, h0, e1⟩
                    · exact i1 e hmem
                  · intro _
                    apply i2
                    rw [e2]; exact hle
                  · rw [i3, e3]
                    simp only [List.length_cons]
                    omega
                  · rw [i4, e2]
                    simp only [List.map_cons, List.sum_cons]
                    ring
    · simp only [ht, not_false_eq_true, if_true, Except.ok.injEq, Prod.mk.injEq] at h
      obtain ⟨rfl, rfl, rfl⟩ := h
      simp [Nat.mod_eq_of_lt hfit]

/-- One more unit of fuel does not change a result of the loop of `run`. -/
theorem runLoop_fuel_succ {σ : Type} (R : RNG σ) (rfuel : Nat) (endtime : ℚ) :
    ∀ (fuel : Nat) (s : State) (rng : σ) (r : State × σ × List Event),
      runLoop R rfuel endtime fuel s rng = .ok r →
      runLoop R rfuel endtime (fuel + 1) s rng = .ok r := by
  intro fuel
  induction fuel with
  | zero =>
    intro s rng r h
    unfold runLoop at h
    split_ifs at h with ht
    unfold runLoop
    simp only [ht, not_false_eq_true, if_true]
    exact h
  | succ fuel ih =>
    intro s rng r h
    unfold runLoop at h
    unfold runLoop
    by_cases ht : s.pTime < endtime
    · simp only [ht, not_true_eq_false, if_false] at h ⊢
      cases hn : _getNext R rfuel s rng with
      | error e => rw [hn] at h; cases h
      | ok r1 =>
        obtain ⟨okp, rng2⟩ := r1
        rw [hn] at h
        cases okp with
        | none => exact h
        | some kp =>
          simp only at h ⊢
          by_cases h0 : s.pA0 = 0
          · simp only [h0, if_true] at h ⊢
            exact h
          · simp only [h0, if_false] at h ⊢
            by_cases hov : s.pTime + (R.getExp s.pA0 rng2).1 > endtime
            · simp only [hov, if_true] at h ⊢
              exact h
            · simp only [hov, if_false] at h ⊢
              cases he : _executeStep R s kp (R.getExp s.pA0 rng2).1 (R.getExp s.pA0 rng2).2 with
              | error e => rw [he] at h; cases h
              | ok r2 =>
                obtain ⟨s2, rng3⟩ := r2
                rw [he] at h
                simp only at h ⊢
                cases hr : runLoop R rfuel endtime fuel s2 rng3 with
                | error e => rw [hr] at h; cases h
                | ok r3 =>
                  rw [hr] at h
                  rw [ih s2 rng3 r3 hr]
                  exact h
    · simp only [ht, not_false_eq_true, if_true] at h ⊢
      exact h

/-- More fuel does not change a result of the loop of `run`. -/
theorem runLoop_fuel_mono {σ : Type} (R : RNG σ) (rfuel : Nat) (endtime : ℚ)
    (fuel : Nat) (s : State) (rng : σ) (r : State × σ × List Event)
    (h : runLoop R rfuel endtime fuel s rng = .ok r) :
    ∀ k, runLoop R rfuel endtime (fuel + k) s rng = .ok r := by
  intro k
  induction k with
  | zero => exact h
  | succ k ih => exact runLoop_fuel_succ R rfuel endtime (fuel + k) s rng r ih

/-- The binary exponent of a positive rational is characterised by its bracket of powers
of two. -/
theorem frexpExp_eq (r : ℚ) (p : Int) (h1 : (2 : ℚ) ^ (p - 1) ≤ r) (h2 : r < (2 : ℚ) ^ p) :
    frexpExp r = p := by
  have hr : 0 < r := lt_of_lt_of_le (by positivity) h1
  unfold frexpExp
  have ha : p - 1 ≤ Int.log 2 r := by
    have := (Int.zpow_le_iff_le_log (b := 2) (by norm_num) hr (x := p - 1)).mp (by exact_mod_cast h1)
    exact this
  have hb : Int.log 2 r < p := by
    have := (Int.lt_zpow_iff_log_lt (b := 2) (by norm_num) hr (x := p)).mp (by exact_mod_cast h2)
    exact this
  omega

/-- A propensity only reads tets, tris and the flags and derived object of its KProc. -/
theorem KProc_rate_congr (s s2 : State) (k k2 : KProc) (ht : s2.tets = s.tets)
    (hr : s2.tris = s.tris) (hf : k2.pFlags = k.pFlags) (hv : k2.variant = k.variant) :
    KProc.rate s2 k2 = KProc.rate s k := by
  unfold KProc.rate
  rw [hv]
  cases k.variant with
  | reac r => simp only [Reac.rate, KProc.inactive, ht, hf]
  | sreac sr => simp only [SReac.rate, SReac.rateVol, KProc.inactive, ht, hr, hf]
  | diff d => simp only [Diff.rate, KProc.inactive, ht, hf]

/-- Selector bookkeeping does not change any propensity. -/
theorem KProc_rate_CRFrame (s s2 : State) (j : Nat) (h : CRFrame s s2) :
    KProc.rate s2 (s2.pKProcs j) = KProc.rate s (s.pKProcs j) :=
  KProc_rate_congr s s2 _ _ h.1 h.2.1 (h.2.2.2.2.2 j).2.1 (h.2.2.2.2.2 j).2.2.2

/-- `_updateElement` returns whenever the propensity does. -/
theorem updateElement_ok (s : State) (kp : Nat) (v : ℚ)
    (h : KProc.rate s (s.pKProcs kp) = .ok v) : ∃ s2, _updateElement s kp = .ok s2 := by
  unfold _updateElement
  rw [h]
  simp only
  split_ifs <;> exact ⟨_, rfl⟩

/-- The loop of `_update` returns whenever the propensities of the listed KProcs do. -/
theorem updateLoop_ok : ∀ (l : List Nat) (s : State),
    (∀ kp ∈ l, ∃ v, KProc.rate s (s.pKProcs kp) = .ok v) → ∃ s2, updateLoop l s = .ok s2 := by
  intro l
  induction l with
  | nil => intro s _; exact ⟨s, rfl⟩
  | cons kp rest ih =>
    intro s h
    obtain ⟨v, hv⟩ := h kp (List.mem_cons_self _ _)
    obtain ⟨s1, hs1⟩ := updateElement_ok s kp v hv
    have hfr := CRFrame_updateElement s s1 kp hs1
    have hrest : ∀ j ∈ rest, ∃ v, KProc.rate s1 (s1.pKProcs j) = .ok v := by
      intro j hj
      obtain ⟨w, hw⟩ := h j (List.mem_cons_of_mem _ hj)
      exact ⟨w, by rw [KProc_rate_CRFrame s s1 j hfr]; exact hw⟩
    obtain ⟨s2, hs2⟩ := ih s1 hrest
    refine ⟨s2, ?_⟩
    unfold updateLoop
    rw [hs1]
    exact hs2

/-- `_update` returns whenever the propensities of the listed KProcs do. -/
theorem update_ok (s : State) (upd : List Nat)
    (h : ∀ kp ∈ upd, ∃ v, KProc.rate s (s.pKProcs kp) = .ok v) :
    ∃ s2, _update s upd = .ok s2 := by
  obtain ⟨s1, hs1⟩ := updateLoop_ok upd s h
  exact ⟨_updateSum s1, by unfold _update; rw [hs1]⟩

/-- In the concrete system the selector picks the reaction (KProc 0) after three draws. -/
theorem demo_getNext : _getNext Demo.rng 1 Demo.state 0 = .ok (some 0, 3) := by
  norm_num [_getNext, Demo.state, scanGroups, CRGroup.new, rejectionLoop, Demo.rng, Demo.kproc]

/-- In the concrete system the reaction fires without drawing. -/
theorem demo_apply : KProc.apply Demo.rng Demo.state 0 4
    = .ok ((Reac.apply Demo.state 0 Demo.reac0).1, [0, 1, 2], 4) := by
  simp [KProc.apply, Demo.state, Demo.kproc, Reac.apply, Demo.reac0]

/-- After the reaction has fired in the concrete system, the three propensities are
computable. -/
theorem demo_rates (kp : Nat) (h : kp ∈ [0, 1, 2]) :
    ∃ v, KProc.rate (Reac.apply Demo.state 0 Demo.reac0).1
      ((Reac.apply Demo.state 0 Demo.reac0).1.pKProcs kp) = .ok v := by
  simp only [List.mem_cons, List.mem_singleton, List.not_mem_nil, or_false] at h
  rcases h with rfl | rfl | rfl
  · exact ⟨1, by
      norm_num [KProc.rate, Reac.apply, State.setTet, State.setKProc, KProc.incExtent,
        Demo.state, Demo.kproc, Reac.rate, KProc.inactive, INACTIVATED, Demo.reac0, Demo.tet0,
        Demo.cdef, Reac.hmuLoop, Reac.applyLoop, Tet.setCount, List.range, List.range.loop,
        switchLhs, toInt, toUInt, wrapInt, Function.update_apply]⟩
  · exact ⟨1, by
      norm_num [KProc.rate, Reac.apply, State.setTet, State.setKProc, KProc.incExtent,
        Demo.state, Demo.kproc, Diff.rate, KProc.inactive, INACTIVATED, Demo.reac0, Demo.tet0,
        Demo.diff1, Demo.cdef, Reac.applyLoop, Tet.setCount, List.range, List.range.loop,
        toInt, toUInt, wrapInt, Function.update_apply]⟩
  · exact ⟨1, by
      norm_num [KProc.rate, Reac.apply, State.setTet, State.setKProc, KProc.incExtent,
        Demo.state, Demo.kproc, SReac.rate, SReac.rateVol, KProc.inactive, INACTIVATED,
        Demo.reac0, Demo.tet0, Demo.tri0, Demo.pdef, Demo.sreac2,
        Demo.cdef, SReac.hmuLoop, Reac.applyLoop, Tet.setCount, List.range, List.range.loop,
        switchLhs, toInt, toUInt, wrapInt, Function.update_apply]⟩

/-- In the concrete system `step()` returns after firing the reaction at time 1/6. -/
theorem demo_step : ∃ s1u, _update (Reac.apply Demo.state 0 Demo.reac0).1 [0, 1, 2] = .ok s1u ∧
    step Demo.rng 1 Demo.state 0 = .ok
      ({ s1u with pTime := s1u.pTime + 1 / 6, pNSteps := (s1u.pNSteps + 1) % 4294967296 }, 4) := by
  obtain ⟨s1u, hu⟩ := update_ok _ [0, 1, 2] demo_rates
  refine ⟨s1u, hu, ?_⟩
  have hA : Demo.state.pA0 ≠ 0 := by norm_num [Demo.state]
  have h := step_ok Demo.rng 1 Demo.state (Reac.apply Demo.state 0 Demo.reac0).1 s1u 0 3 4 0
    [0, 1, 2] hA demo_getNext
    (by simpa [Demo.rng, Demo.state] using demo_apply) hu (by norm_num [Demo.rng, Demo.state])
  simpa [Demo.rng, Demo.state] using h

/-- Witness of C1 on the concrete system: `A0 = 6`, the selector returns KProc 0, the step
returns with time 1/6 = 0 + getExp(6), step counter 1, extent 1 for KProc 0 and 0 for KProc 1. -/
theorem step_spec_witness : ∃ s2, step Demo.rng 1 Demo.state 0 = .ok (s2, 4) ∧
    s2.pTime = 1 / 6 ∧ s2.pNSteps = 1 ∧ (s2.pKProcs 0).rExtent = 1 ∧
    (s2.pKProcs 1).rExtent = 0 := by
  obtain ⟨s1u, _, hstep⟩ := demo_step
  have hA : Demo.state.pA0 ≠ 0 := by norm_num [Demo.state]
  obtain ⟨kp, rng1, s1, upd, s1u2, hn, _, _, _, _, ht, hns, hext, hoth⟩ :=
    (step_spec Demo.rng 1 Demo.state 0).2.1 hA _ _ hstep
  rw [demo_getNext] at hn
  simp only [Except.ok.injEq, Prod.mk.injEq, Option.some.injEq] at hn
  obtain ⟨rfl, rfl⟩ := hn
  refine ⟨_, hstep, ?_, ?_, ?_, ?_⟩
  · rw [ht]; norm_num [Demo.rng, Demo.state]
  · rw [hns]; norm_num [Demo.state]
  · rw [hext]; norm_num [Demo.state, Demo.kproc]
  · rw [hoth 1 (by norm_num)]; norm_num [Demo.state, Demo.kproc]

/-- A returning `run` had `endtime` at or after the current, non-negative time and ended
its loop normally. -/
theorem run_inv {σ : Type} (R : RNG σ) (rfuel fuel : Nat) (endtime : ℚ) (s s2 : State)
    (rng rng2 : σ) (h : run R rfuel fuel endtime s rng = .ok (s2, rng2)) :
    s.pTime ≤ endtime ∧ 0 ≤ endtime ∧
    ∃ s1 evs, runLoop R rfuel endtime fuel s rng = .ok (s1, rng2, evs) ∧
      s2 = { s1 with pTime := endtime } := by
  unfold run at h
  by_cases h1 : endtime < s.pTime
  · simp only [h1, if_true] at h
    cases h
  · simp only [h1, if_false] at h
    cases hl : runLoop R rfuel endtime fuel s rng with
    | error e => rw [hl] at h; cases h
    | ok r =>
      obtain ⟨s1, rng1, evs⟩ := r
      rw [hl] at h
      simp only at h
      by_cases h2 : endtime ≥ 0
      · simp only [h2, not_true_eq_false, if_false, Except.ok.injEq, Prod.mk.injEq] at h
        obtain ⟨h3, rfl⟩ := h
        exact ⟨not_lt.mp h1, h2, s1, evs, rfl, h3.symm⟩
      · simp only [h2, not_false_eq_true, if_true] at h
        cases h

/-- Conversely `run` returns with the time set to `endtime` whenever its loop ends. -/
theorem run_of_runLoop {σ : Type} (R : RNG σ) (rfuel fuel : Nat) (endtime : ℚ) (s s1 : State)
    (rng rng1 : σ) (evs : List Event) (h1 : s.pTime ≤ endtime) (h2 : 0 ≤ endtime)
    (hl : runLoop R rfuel endtime fuel s rng = .ok (s1, rng1, evs)) :
    run R rfuel fuel endtime s rng = .ok ({ s1 with pTime := endtime }, rng1) := by
  have h2b : endtime ≥ 0 := h2
  unfold run
  simp only [not_lt.mpr h1, if_false, hl, h2b, not_true_eq_false]

/-- While the total propensity is zero the loop of `run` stops at its first iteration. -/
theorem runLoop_zero_A0 {σ : Type} (R : RNG σ) (rfuel fuel : Nat) (endtime : ℚ) (s : State)
    (rng : σ) (h0 : s.pA0 = 0) :
    runLoop R rfuel endtime (fuel + 1) s rng = .ok (s, rng, []) := by
  unfold runLoop
  by_cases ht : s.pTime < endtime
  · simp only [ht, not_true_eq_false, if_false, getNext_zero R rfuel s rng h0]
  · simp only [ht, not_false_eq_true, if_true]

/-- A first draw that overshoots `endtime` stops the loop of `run` before any firing. -/
theorem runLoop_overshoot {σ : Type} (R : RNG σ) (rfuel fuel : Nat) (endtime : ℚ) (s : State)
    (rng rng1 : σ) (kp : Nat) (ht : s.pTime < endtime) (hne : s.pA0 ≠ 0)
    (hn : _getNext R rfuel s rng = .ok (some kp, rng1))
    (hov : s.pTime + (R.getExp s.pA0 rng1).1 > endtime) :
    runLoop R rfuel endtime (fuel + 1) s rng = .ok (s, (R.getExp s.pA0 rng1).2, []) := by
  unfold runLoop
  simp only [ht, not_true_eq_false, if_false, hn, hne, hov, if_true]

/-- C2 (amended). For every `endtime`, every state with a 32-bit step counter and every
generator: whenever `run(endtime)` returns, the simulation time is exactly `endtime`, the
current time was at or before `endtime`, and every event the loop executed satisfied
`time before + dt <= endtime` (the loop leaves without firing at the first overshoot); a
result does not depend on the fuel once there is enough of it; and `run` does return at once
when `A0 == 0` or when the first drawn `dt` overshoots `endtime`. -/
theorem run_spec {σ : Type} (R : RNG σ) (rfuel : Nat) (endtime : ℚ) (s : State) (rng : σ)
    (hfit : s.pNSteps < 4294967296) :
    (∀ fuel s2 rng2, run R rfuel fuel endtime s rng = .ok (s2, rng2) →
      s2.pTime = endtime ∧ s.pTime ≤ endtime ∧
      ∃ s1 evs, runLoop R rfuel endtime fuel s rng = .ok (s1, rng2, evs) ∧
        s2 = { s1 with pTime := endtime } ∧
        (∀ e ∈ evs, e.time + e.dt ≤ endtime ∧ e.a0 ≠ 0 ∧ 0 ≤ e.dt) ∧
        s1.pTime ≤ endtime ∧
        s2.pNSteps = (s.pNSteps + evs.length) % 4294967296 ∧
        s1.pTime = s.pTime + (evs.map Event.dt).sum) ∧
    (∀ fuel r, run R rfuel fuel endtime s rng = .ok r →
      ∀ k, run R rfuel (fuel + k) endtime s rng = .ok r) ∧
    (s.pTime ≤ endtime → 0 ≤ endtime → s.pA0 = 0 →
      ∀ fuel, run R rfuel (fuel + 1) endtime s rng = .ok ({ s with pTime := endtime }, rng)) ∧
    (s.pTime < endtime → 0 ≤ endtime → s.pA0 ≠ 0 →
      ∀ kp rng1, _getNext R rfuel s rng = .ok (some kp, rng1) →
      s.pTime + (R.getExp s.pA0 rng1).1 > endtime →
      ∀ fuel, run R rfuel (fuel + 1) endtime s rng
        = .ok ({ s with pTime := endtime }, (R.getExp s.pA0 rng1).2)) := by
  refine ⟨?_, ?_, ?_, ?_⟩
  · intro fuel s2 rng2 h
    obtain ⟨h1, _, s1, evs, hl, hs2⟩ := run_inv R rfuel fuel endtime s s2 rng rng2 h
    obtain ⟨p1, p2, p3, p4⟩ := runLoop_props R rfuel endtime fuel s s1 rng rng2 evs hl hfit
    refine ⟨by rw [hs2], h1, s1, evs, hl, hs2, p1, p2 h1, ?_, p4⟩
    rw [hs2]
    exact p3
  · intro fuel r h k
    obtain ⟨s2, rng2⟩ := r
    obtain ⟨h1, h2, s1, evs, hl, hs2⟩ := run_inv R rfuel fuel endtime s s2 rng rng2 h
    rw [run_of_runLoop R rfuel (fuel + k) endtime s s1 rng rng2 evs h1 h2
      (runLoop_fuel_mono R rfuel endtime fuel s rng _ hl k), hs2]
  · intro h1 h2 h0 fuel
    exact run_of_runLoop R rfuel (fuel + 1) endtime s s rng rng [] h1 h2
      (runLoop_zero_A0 R rfuel fuel endtime s rng h0)
  · intro ht h2 hne kp rng1 hn hov fuel
    exact run_of_runLoop R rfuel (fuel + 1) endtime s s rng _ [] (le_of_lt ht) h2
      (runLoop_overshoot R rfuel fuel endtime s rng rng1 kp ht hne hn hov)

/-- Witness of C2 (amended) on the concrete system: with `endtime = 1/12` the first draw
`dt = 1/6` overshoots, so `run` returns the unchanged state with time 1/12. -/
theorem run_spec_witness :
    run Demo.rng 1 1 (1 / 12) Demo.state 0 = .ok ({ Demo.state with pTime := 1 / 12 }, 4) ∧
    (∀ s2 rng2, run Demo.rng 1 1 (1 / 12) Demo.state 0 = .ok (s2, rng2) →
      s2.pTime = 1 / 12) := by
  have hfit : Demo.state.pNSteps < 4294967296 := by norm_num [Demo.state]
  have hspec := run_spec Demo.rng 1 (1 / 12) Demo.state 0 hfit
  constructor
  · have h := hspec.2.2.2 (by norm_num [Demo.state]) (by norm_num) (by norm_num [Demo.state])
      0 3 demo_getNext (by norm_num [Demo.state, Demo.rng]) 0
    simpa [Demo.rng, Demo.state] using h
  · intro s2 rng2 h
    exact (hspec.1 1 s2 rng2 h).1

/-- With a generator that always draws 1 on [0,1] the rejection sampling in group 2 of the
concrete system never accepts: the drawn rate is the group maximum 4 and the stored
propensity is 2. -/
theorem demo_ones_rejection : ∀ rfuel : Nat,
    rejectionLoop Demo.rngOnes Demo.state (Demo.state.pGroups 2) rfuel () = .error .outOfFuel := by
  intro rfuel
  induction rfuel with
  | zero => rfl
  | succ n ih =>
    unfold rejectionLoop
    have hle : (Demo.state.pKProcs ((Demo.state.pGroups 2).indices
        ((Demo.rngOnes.get (Demo.rngOnes.getUnfII ()).2).1 % (Demo.state.pGroups 2).size))).crData.rate
        ≤ (Demo.state.pGroups 2).max * (Demo.rngOnes.getUnfII ()).1 := by
      norm_num [Demo.state, Demo.rngOnes, Demo.kproc]
    simp only [hle, if_true]
    exact ih

/-- Hence `_getNext` does not return on that generator, whatever the fuel. -/
theorem demo_ones_getNext (rfuel : Nat) :
    _getNext Demo.rngOnes rfuel Demo.state () = .error .outOfFuel := by
  have hscanN : scanGroups Demo.state.nGroups (Demo.state.pA0 * (Demo.rngOnes.getUnfII ()).1)
      Demo.state.nGroupsSize 0 0 = (none, 0) := by
    norm_num [Demo.state, scanGroups]
  have hscanP : scanGroups Demo.state.pGroups (Demo.state.pA0 * (Demo.rngOnes.getUnfII ()).1)
      Demo.state.pGroupsSize 0 0 = (some 2, 0) := by
    norm_num [Demo.state, scanGroups, CRGroup.new, Demo.rngOnes]
  have hA : Demo.state.pA0 ≥ 0 := by norm_num [Demo.state]
  have hA2 : ¬ Demo.state.pA0 = 0 := by norm_num [Demo.state]
  unfold _getNext
  simp only [hA, hA2, not_true_eq_false, if_false, hscanN, hscanP]
  have := demo_ones_rejection rfuel
  simp only [Demo.rngOnes] at this ⊢
  rw [this]

/-- Counterexample to C2 as stated: in the concrete system (time 0, `A0 = 6`), with
`endtime = 1 >= 0` and the generator whose `getUnfII` always returns 1, `run(1)` does not
return for any amount of fuel: `_getNext` enters group 2 and its rejection loop
`while (rate <= random_rate)` spins with `rate = 2 <= 4 = max·1`. -/
theorem run_not_total_counterexample :
    Demo.state.pTime ≤ 1 ∧
    ∀ rfuel fuel, run Demo.rngOnes rfuel fuel 1 Demo.state () = .error .outOfFuel := by
  refine ⟨by norm_num [Demo.state], ?_⟩
  intro rfuel fuel
  have ht : Demo.state.pTime < 1 := by norm_num [Demo.state]
  have hl : runLoop Demo.rngOnes rfuel 1 fuel Demo.state () = .error .outOfFuel := by
    cases fuel with
    | zero => unfold runLoop; simp only [ht, if_true]
    | succ n =>
      unfold runLoop
      simp only [ht, not_true_eq_false, if_false, demo_ones_getNext rfuel]
  unfold run
  simp only [not_lt.mpr (le_of_lt ht), if_false, hl]

/-- Repeating `step()` at zero total propensity changes nothing. -/
theorem iterStep_zero_A0 {σ : Type} (R : RNG σ) (rfuel : Nat) :
    ∀ (n : Nat) (s : State) (rng : σ), s.pA0 = 0 → iterStep R rfuel n s rng = .ok (s, rng) := by
  intro n
  induction n with
  | zero => intro s rng _; rfl
  | succ n ih =>
    intro s rng h0
    unfold iterStep
    rw [step_zero R rfuel s rng h0]
    exact ih s rng h0

/-- `advanceSteps(n)` is `n` calls of `step()`, errors included. -/
theorem advanceSteps_eq_iterStep {σ : Type} (R : RNG σ) (rfuel : Nat) :
    ∀ (n : Nat) (s : State) (rng : σ),
      dropEvents (advanceSteps R rfuel n s rng) = iterStep R rfuel n s rng := by
  intro n
  induction n with
  | zero => intro s rng; rfl
  | succ n ih =>
    intro s rng
    unfold advanceSteps iterStep step
    cases hn : _getNext R rfuel s rng with
    | error e => rfl
    | ok r =>
      obtain ⟨okp, rng1⟩ := r
      cases okp with
      | none =>
        obtain ⟨h0, hr⟩ := getNext_none R rfuel s rng rng1 hn
        subst hr
        simp only [dropEvents]
        exact (iterStep_zero_A0 R rfuel n s rng1 h0).symm
      | some kp =>
        simp only
        by_cases h0 : s.pA0 = 0
        · simp only [h0, if_true, dropEvents]
          exact (iterStep_zero_A0 R rfuel n s rng1 h0).symm
        · simp only [h0, if_false]
          cases he : _executeStep R s kp (R.getExp s.pA0 rng1).1 (R.getExp s.pA0 rng1).2 with
          | error e => rfl
          | ok r2 =>
            obtain ⟨s1, rng3⟩ := r2
            simp only
            rw [← ih s1 rng3]
            cases advanceSteps R rfuel n s1 rng3 with
            | error e => rfl
            | ok r3 => rfl

/-- The executed events of `advanceSteps(n)`: at most `n`, each fired with non-zero total
propensity, fewer than `n` only if the total propensity is zero on return; step counter and
time account for exactly these events. -/
theorem advanceSteps_props {σ : Type} (R : RNG σ) (rfuel : Nat) :
    ∀ (n : Nat) (s s2 : State) (rng rng2 : σ) (evs : List Event),
      advanceSteps R rfuel n s rng = .ok (s2, rng2, evs) → s.pNSteps < 4294967296 →
      evs.length ≤ n ∧
      s2.pNSteps = (s.pNSteps + evs.length) % 4294967296 ∧
      (evs.length < n → s2.pA0 = 0) ∧
      s2.pTime = s.pTime + (evs.map Event.dt).sum ∧
      (∀ e ∈ evs, e.a0 ≠ 0 ∧ 0 ≤ e.dt) := by
  intro n
  induction n with
  | zero =>
    intro s s2 rng rng2 evs h hfit
    simp only [advanceSteps, Except.ok.injEq, Prod.mk.injEq] at h
    obtain ⟨rfl, rfl, rfl⟩ := h
    simp [Nat.mod_eq_of_lt hfit]
  | succ n ih =>
    intro s s2 rng rng2 evs h hfit
    unfold advanceSteps at h
    cases hn : _getNext R rfuel s rng with
    | error e => rw [hn] at h; cases h
    | ok r =>
      obtain ⟨okp, rng1⟩ := r
      rw [hn] at h
      cases okp with
      | none =>
        obtain ⟨h0, _⟩ := getNext_none R rfuel s rng rng1 hn
        simp only [Except.ok.injEq, Prod.mk.injEq] at h
        obtain ⟨rfl, rfl, rfl⟩ := h
        simp [Nat.mod_eq_of_lt hfit, h0]
      | some kp =>
        simp only at h
        by_cases h0 : s.pA0 = 0
        · simp only [h0, if_true, Except.ok.injEq, Prod.mk.injEq] at h
          obtain ⟨rfl, rfl, rfl⟩ := h
          simp [Nat.mod_eq_of_lt hfit, h0]
        · simp only [h0, if_false] at h
          cases he : _executeStep R s kp (R.getExp s.pA0 rng1).1 (R.getExp s.pA0 rng1).2 with
          | error e => rw [he] at h; cases h
          | ok r2 =>
            obtain ⟨s1, rng3⟩ := r2
            rw [he] at h
            simp only at h
            cases hr : advanceSteps R rfuel n s1 rng3 with
            | error e => rw [hr] at h; cases h
            | ok r3 =>
              obtain ⟨s3, rng4, evs3⟩ := r3
              rw [hr] at h
              simp only [Except.ok.injEq, Prod.mk.injEq] at h
              obtain ⟨rfl, rfl, rfl⟩ := h
              obtain ⟨e1, e2, e3, _, _⟩ := executeStep_effect R s s1 kp _ _ rng3 he
              have hfit1 : s1.pNSteps < 4294967296 := by rw [e3]; exact Nat.mod_lt _ (by norm_num)
              obtain ⟨i1, i2, i3, i4, i5⟩ := ih s1 s3 rng3 rng4 evs3 hr hfit1
              refine ⟨?_, ?_, ?_, ?_, ?_⟩
              · simp only [List.length_cons]; omega
              · rw [i2, e3]
                simp only [List.length_cons]
                omega
              · intro hlt
                apply i3
                simp only [List.length_cons] at hlt
                omega
              · rw [i4, e2]
                simp only [List.map_cons, List.sum_cons]
                ring
              · intro e he2
                rcases List.mem_cons.mp he2 with rfl | hmem
                · exact ⟨h0, e1⟩
                · exact i5 e hmem

/-- In the concrete system `_executeStep` of the reaction with `dt = 1/6` returns. -/
theorem demo_executeStep :
    ∃ s2, _executeStep Demo.rng Demo.state 0 (1 / 6) 4 = .ok (s2, 4) := by
  obtain ⟨s1u, hu⟩ := update_ok _ [0, 1, 2] demo_rates
  exact ⟨_, executeStep_ok Demo.rng Demo.state _ s1u 0 (1 / 6) 4 4 [0, 1, 2] demo_apply hu
    (by norm_num)⟩

/-! ## Witnesses on the concrete system (claims C5 to C9) -/

/-- Witness of C5 on the concrete system: the reaction A → B with `c = 1` and 2 molecules of
A has propensity 2. -/
theorem Reac_rate_spec_witness : Reac.rate Demo.state (Demo.kproc 0) Demo.reac0 = .ok 2 := by
  have h := ((Reac_rate_spec Demo.state (Demo.kproc 0) Demo.reac0).2.1
    (by simp [KProc.inactive, Demo.kproc, INACTIVATED])
    (by
      intro p _
      simp [Reac.lhs_vec, Demo.state, Demo.reac0, Demo.tet0, Demo.cdef]
      split_ifs <;> norm_num)).1
  rw [h]
  norm_num [fallProd, Finset.prod_range_succ, Nat.descFactorial, Reac.nspecs, Reac.lhs_vec,
    Demo.state, Demo.reac0, Demo.tet0, Demo.cdef]

/-- Witness of C7 on the concrete system: the inside surface reaction S + A(inner) with
`c = 1`, 1 S on the triangle and 2 A in the inner tet has propensity 2. -/
theorem SReac_rate_spec_witness : SReac.rate Demo.state (Demo.kproc 2) Demo.sreac2 = .ok 2 := by
  have h := (((SReac_rate_spec Demo.state (Demo.kproc 2) Demo.sreac2).2
    (by simp [KProc.inactive, Demo.kproc, INACTIVATED])
    (by
      intro p _
      simp [SReac.lhs_S, SReac.lidx, Demo.state, Demo.sreac2, Demo.tri0, Demo.pdef]
      split_ifs <;> norm_num)).2.1 rfl 0 rfl
    (by
      intro p _
      simp [SReac.lhs_I, SReac.lidx, Demo.state, Demo.sreac2, Demo.tri0, Demo.pdef]
      split_ifs <;> norm_num)).1
  rw [h]
  norm_num [fallProd, Finset.prod_range_succ, Nat.descFactorial, SReac.lhs_S, SReac.lhs_I,
    SReac.lidx, Demo.state, Demo.sreac2, Demo.tri0, Demo.tet0, Demo.pdef]

/-- Witness of C6 on the concrete system: `setDcst(3)` on the diffusion of tet 0 (one
neighbour, unit geometry) returns with `scaledDcst = 3`, and the propensity is then 3·2 = 6. -/
theorem Diff_setDcst_spec_witness : ∃ d2, Diff.setDcst Demo.state Demo.diff1 3 = .ok d2 ∧
    d2.pDcst = 3 ∧ d2.pScaledDcst = 3 ∧ Diff.rate Demo.state (Demo.kproc 1) d2 = .ok 6 := by
  have hspec := Diff_setDcst_spec Demo.state Demo.diff1
  obtain ⟨d2, hd2⟩ := hspec.2.2.2.2 3 (by norm_num)
    (by intro i _; norm_num [Demo.state, Demo.diff1, Demo.tet0])
    (by norm_num [Demo.state, Demo.diff1, Demo.tet0])
  obtain ⟨h1, _, h3, h4⟩ := hspec.1 3 d2 hd2
  obtain ⟨f1, _, _, _, f5, _⟩ := Diff_setDcst_fields Demo.state Demo.diff1 d2 3 hd2
  have hsc : d2.pScaledDcst = 3 := by
    rw [h4, ← h3 0, ← h3 1, ← h3 2, ← h3 3]
    norm_num [Diff.dArray, Demo.state, Demo.diff1, Demo.tet0]
  refine ⟨d2, hd2, h1, hsc, ?_⟩
  rw [(Diff_setDcst_spec Demo.state d2).2.2.2.1 (Demo.kproc 1), hsc, f1, f5]
  norm_num [KProc.inactive, Demo.kproc, INACTIVATED, Demo.state, Demo.diff1, Demo.tet0]

/-- Witness of C8 on the concrete system: firing A → B in tet 0 turns (A,B) = (2,1) into
(1,2), returns the update list and sets the extent to 1. -/
theorem Reac_apply_spec_witness : ∃ s2,
    KProc.apply Demo.rng Demo.state 0 0 = .ok (s2, [0, 1, 2], 0) ∧
    (s2.tets 0).pools 0 = 1 ∧ (s2.tets 0).pools 1 = 2 ∧ (s2.pKProcs 0).rExtent = 1 := by
  obtain ⟨s2, h1, _, h3, _, _, _, _, h8, _⟩ := Reac_apply_spec Demo.rng Demo.state 0 Demo.reac0 0
    (by simp [Demo.state, Demo.kproc])
  refine ⟨s2, h1, ?_, ?_, ?_⟩
  · have := ((h3 0 (by norm_num [Reac.nspecs, Demo.state, Demo.reac0, Demo.tet0, Demo.cdef])
      (by simp [Demo.state, Demo.reac0, Demo.tet0])).2.2
      (by norm_num [Reac.upd_vec, Demo.state, Demo.reac0, Demo.tet0, Demo.cdef])
      (by norm_num [Reac.upd_vec, Demo.state, Demo.reac0, Demo.tet0, Demo.cdef]))
    have h : ((s2.tets 0).pools 0 : Int) = 1 := by
      simpa [Reac.upd_vec, Demo.state, Demo.reac0, Demo.tet0, Demo.cdef] using this
    exact_mod_cast h
  · have := ((h3 1 (by norm_num [Reac.nspecs, Demo.state, Demo.reac0, Demo.tet0, Demo.cdef])
      (by simp [Demo.state, Demo.reac0, Demo.tet0])).2.2
      (by norm_num [Reac.upd_vec, Demo.state, Demo.reac0, Demo.tet0, Demo.cdef])
      (by norm_num [Reac.upd_vec, Demo.state, Demo.reac0, Demo.tet0, Demo.cdef]))
    have h : ((s2.tets 0).pools 1 : Int) = 2 := by
      simpa [Reac.upd_vec, Demo.state, Demo.reac0, Demo.tet0, Demo.cdef] using this
    exact_mod_cast h
  · rw [h8]; norm_num [Demo.state, Demo.kproc]

/-- Witness of C9 on the concrete system: with `u = 1/2 < CDF[0] = 1` the hop goes to
direction 0, tet 0 loses one A, tet 1 gains one A and the extent becomes 1. -/
theorem Diff_apply_spec_witness : ∃ s2,
    KProc.apply Demo.rng Demo.state 1 0 = .ok (s2, [0, 1, 2], 1) ∧
    (s2.tets 0).pools 0 = 1 ∧ (s2.tets 1).pools 0 = 1 ∧ (s2.pKProcs 1).rExtent = 1 := by
  have hk : (0 : Nat) = Diff.direction Demo.diff1 (1 / 2) := by
    rw [Diff_direction_cases]
    norm_num [Demo.diff1]
  have hspec := Diff_apply_spec Demo.rng Demo.state 1 Demo.diff1 0 (1 / 2) 0
    (by simp [Demo.state, Demo.kproc]) (by simp [Demo.rng]) hk
  obtain ⟨s2, hs2⟩ := hspec.2.1 (Or.inr (by norm_num [Demo.state, Demo.diff1, Demo.tet0])) 1
    (by simp [Demo.state, Demo.diff1, Demo.tet0]) (by norm_num [Demo.diff1])
  obtain ⟨_, _, _, nt, hnt, _, hcnt, _, _, hext, _⟩ := hspec.1 s2 _ _ hs2
  have hnt1 : nt = 1 := by
    simp [Demo.state, Demo.diff1, Demo.tet0] at hnt
    exact hnt.symm
  subst hnt1
  obtain ⟨c1, _, c3, _⟩ := hcnt (by norm_num [Demo.diff1])
  have a1 := c1 (by simp [Demo.state, Demo.diff1, Demo.tet0])
    (by norm_num [Demo.state, Demo.diff1, Demo.tet0])
  have a3 := c3 (by simp [Demo.state, Demo.diff1, Demo.tet1])
    (by norm_num [Demo.state, Demo.diff1, Demo.tet1, toUInt])
  refine ⟨s2, by simpa [Demo.diff1, Demo.rng] using hs2, ?_, ?_, ?_⟩
  · have : (s2.tets 0).pools 0 + 1 = 2 := by
      simpa [Demo.state, Demo.diff1, Demo.tet0] using a1
    omega
  · simpa [Demo.state, Demo.diff1, Demo.tet1, toUInt] using a3
  · rw [hext]; norm_num [Demo.state, Demo.kproc]

/-! ## Non-negative counts (claim C10) -/

/-- The fall-through switch keeps a zero factor zero. -/
theorem switchLhs_ne_zero (lhs cnt : Nat) (h w : ℚ) (hsw : switchLhs lhs cnt h = .ok w)
    (hw : w ≠ 0) : h ≠ 0 := by
  intro h0
  subst h0
  unfold switchLhs at hsw
  split at hsw <;> simp at hsw <;> exact hw hsw.symm

/-- A non-zero result of the loop of `Reac::rate` means that no reactant was insufficient. -/
theorem Reac_hmuLoop_pos (lhs_vec cnt_vec : Nat → Nat) :
    ∀ (l : List Nat) (h w : ℚ), Reac.hmuLoop lhs_vec cnt_vec l h = .ok w → w ≠ 0 →
      ∀ p ∈ l, lhs_vec p ≤ cnt_vec p := by
  intro l
  induction l with
  | nil => intro h w _ _ p hp; cases hp
  | cons q rest ih =>
    intro h w hl hw p hp
    unfold Reac.hmuLoop at hl
    by_cases h0 : lhs_vec q = 0
    · simp only [h0, if_true] at hl
      rcases List.mem_cons.mp hp with rfl | hmem
      · omega
      · exact ih h w hl hw p hmem
    · by_cases hgt : lhs_vec q > cnt_vec q
      · simp only [h0, hgt, if_false, if_true, Except.ok.injEq] at hl
        exact absurd hl.symm hw
      · simp only [h0, hgt, if_false] at hl
        cases hsw : switchLhs (lhs_vec q) (cnt_vec q) h with
        | error e => rw [hsw] at hl; cases hl
        | ok h2 =>
          rw [hsw] at hl
          rcases List.mem_cons.mp hp with rfl | hmem
          · omega
          · exact ih h2 w hl hw p hmem

/-- A positive propensity of a Reac means that every reactant is sufficient. -/
theorem Reac_rate_pos (s : State) (k : KProc) (r : Reac) (v : ℚ)
    (h : Reac.rate s k r = .ok v) (hv : 0 < v) :
    ∀ p < Reac.nspecs s r, Reac.lhs_vec s r p ≤ (s.tets r.pTet).pools p := by
  intro p hp
  unfold Reac.rate at h
  cases hin : k.inactive with
  | true =>
    simp only [hin, if_true, Except.ok.injEq] at h
    rw [← h] at hv
    exact absurd hv (lt_irrefl 0)
  | false =>
    simp only [hin, Bool.false_eq_true, if_false] at h
    cases hl : Reac.hmuLoop ((s.tets r.pTet).compdef.reac_lhs_bgn
        ((s.tets r.pTet).compdef.reacG2L r.pReacdef.gidx)) (s.tets r.pTet).pools
        (List.range (s.tets r.pTet).compdef.countSpecs) 1 with
    | error e => rw [hl] at h; cases h
    | ok w =>
      rw [hl] at h
      simp only [Except.ok.injEq] at h
      have hw : w ≠ 0 := by
        rintro rfl
        rw [zero_mul] at h
        rw [← h] at hv
        exact lt_irrefl 0 hv
      exact Reac_hmuLoop_pos _ _ _ 1 w hl hw p (List.mem_range.mpr hp)

/-- The Reac part of the safety property: with a positive propensity, no clamped species and
`upd[p] >= -lhs[p]`, the new count `old + upd[p]` of every species is not negative, and it is
what `Reac::apply` stores whenever it fits in 32 bits. -/
theorem Reac_apply_nonneg (s : State) (k : KProc) (kidx : Nat) (r : Reac) (v : ℚ)
    (h : Reac.rate s k r = .ok v) (hv : 0 < v)
    (hupd : ∀ p < Reac.nspecs s r, -(Reac.lhs_vec s r p : Int) ≤ Reac.upd_vec s r p) :
    ∀ p < Reac.nspecs s r,
      0 ≤ ((s.tets r.pTet).pools p : Int) + Reac.upd_vec s r p ∧
      ((s.tets r.pTet).clamped p = false →
        ((s.tets r.pTet).pools p : Int) + Reac.upd_vec s r p < 4294967296 →
        ((((Reac.apply s kidx r).1).tets r.pTet).pools p : Int)
          = ((s.tets r.pTet).pools p : Int) + Reac.upd_vec s r p) := by
  intro p hp
  have hle := Reac_rate_pos s k r v h hv p hp
  have hu := hupd p hp
  have h0 : 0 ≤ ((s.tets r.pTet).pools p : Int) + Reac.upd_vec s r p := by omega
  refine ⟨h0, ?_⟩
  intro hc hfit
  have hloop := Reac_applyLoop_eq (Reac.upd_vec s r) (List.range (Reac.nspecs s r))
    (s.tets r.pTet) (List.nodup_range _)
  simp only [Reac.upd_vec, Reac.nspecs] at hloop hp h0 hfit
  by_cases hz : (s.tets r.pTet).compdef.reac_upd_bgn
      ((s.tets r.pTet).compdef.reacG2L r.pReacdef.gidx) p = 0
  · simp [Reac.apply, State.setTet, State.setKProc, hloop, hz, Reac.upd_vec]
  · simp only [Reac.apply, State.setTet, State.setKProc, hloop, Function.update_same,
      List.mem_range, hp, hc, hz, ne_eq, not_false_eq_true, and_self, if_true, Reac.upd_vec]
    exact toUInt_of_range _ h0 hfit

/-- The Diff part of the safety property: with a positive propensity the ligand count of the
source tet is at least 1, so the `assert(*local > 0)` of `Diff::apply` holds. -/
theorem Diff_rate_pos (s : State) (k : KProc) (d : Diff) (v : ℚ)
    (h : Diff.rate s k d = .ok v) (hv : 0 < v) : 1 ≤ (s.tets d.pTet).pools d.lidxTet := by
  unfold Diff.rate at h
  cases hin : k.inactive with
  | true =>
    simp only [hin, if_true, Except.ok.injEq] at h
    rw [← h] at hv
    exact absurd hv (lt_irrefl 0)
  | false =>
    simp only [hin, Bool.false_eq_true, if_false, Except.ok.injEq] at h
    by_contra hc
    have h0 : (s.tets d.pTet).pools d.lidxTet = 0 := by omega
    rw [h0] at h
    simp only [Nat.cast_zero, mul_zero] at h
    rw [← h] at hv
    exact lt_irrefl 0 hv

/-- C10 at its failing input. In the concrete system with 2^31 molecules of B in tet 0 the
surface reaction S + A(inner) → B(inner) has `rate() = 2 > 0`, no species is clamped, every
update entry satisfies `upd >= -lhs` and every count is a valid 32-bit value; yet
`SReac::apply` aborts on `assert(nc >= 0)`: for B it computes
`nc = static_cast<int>(2147483648) + 1 = -2147483647`. -/
theorem SReac_apply_assert_fails :
    KProc.rate Demo.bigState (Demo.bigState.pKProcs 2) = .ok 2 ∧
    (∀ p, (Demo.bigState.tris 0).clamped p = false ∧ (Demo.bigState.tets 0).clamped p = false) ∧
    (∀ p, -(SReac.lhs_S Demo.bigState Demo.sreac2 p : Int) ≤ SReac.upd_S Demo.bigState Demo.sreac2 p ∧
      -(SReac.lhs_I Demo.bigState Demo.sreac2 p : Int) ≤ SReac.upd_I Demo.bigState Demo.sreac2 p ∧
      -(SReac.lhs_O Demo.bigState Demo.sreac2 p : Int) ≤ SReac.upd_O Demo.bigState Demo.sreac2 p) ∧
    (∀ t p, (Demo.bigState.tets t).pools p < 4294967296) ∧
    KProc.apply Demo.rng Demo.bigState 2 0 = .error .assertFail := by
  refine ⟨?_, ?_, ?_, ?_, ?_⟩
  · norm_num [KProc.rate, Demo.bigState, Demo.state, Demo.kproc, SReac.rate, SReac.rateVol,
      KProc.inactive, INACTIVATED, Demo.sreac2, Demo.tri0, Demo.tet0, Demo.pdef, SReac.hmuLoop,
      List.range, List.range.loop, switchLhs]
  · intro p
    simp [Demo.bigState, Demo.state, Demo.tri0, Demo.tet0]
  · intro p
    simp only [SReac.lhs_S, SReac.lhs_I, SReac.lhs_O, SReac.upd_S, SReac.upd_I, SReac.upd_O,
      SReac.lidx, Demo.bigState, Demo.state, Demo.sreac2, Demo.tri0, Demo.pdef]
    refine ⟨?_, ?_, ?_⟩
    · split_ifs <;> norm_num
    · split_ifs <;> norm_num
    · norm_num
  · intro t p
    by_cases ht : t = 0
    · by_cases hp0 : p = 0
      · simp [Demo.bigState, ht, hp0]
      · by_cases hp1 : p = 1
        · simp [Demo.bigState, ht, hp1]
        · simp [Demo.bigState, ht, hp0, hp1]
    · simp [Demo.bigState, ht, Demo.tet1]
  · have e1 : wrapInt (toInt 1 + (-1)) = 0 := by decide
    have e2 : wrapInt (toInt 2 + (-1)) = 1 := by decide
    have e3 : wrapInt (toInt 2147483648 + 1) = -2147483647 := by decide
    have e4 : toUInt 0 = 0 := by decide
    have e5 : toUInt 1 = 1 := by decide
    simp [KProc.apply, SReac.apply, SReac.applyLoopTri, SReac.applyVol, SReac.applyLoopTet,
      Demo.bigState, Demo.state, Demo.kproc, Demo.sreac2, Demo.tri0, Demo.tet0, Demo.pdef,
      State.setTri, State.setTet, Tri.setCount, Tet.setCount, List.range, List.range.loop,
      e1, e2, e3, e4, e5, Function.update_apply]

/-! ## The direction selector of a Diff (claim C14) -/

/-- The selector entries written by `setDcst`, in terms of the local array `d[]`. -/
theorem Diff_setDcst_cdf (s : State) (d d2 : Diff) (D : ℚ) (h : Diff.setDcst s d D = .ok d2) :
    0 ≤ d2.pScaledDcst ∧
    (d2.pScaledDcst = 0 →
      d2.pCDFSelector 0 = 0 ∧ d2.pCDFSelector 1 = 0 ∧ d2.pCDFSelector 2 = 0) ∧
    (d2.pScaledDcst ≠ 0 →
      d2.pCDFSelector 0 = Diff.dArray s d D 0 / d2.pScaledDcst ∧
      d2.pCDFSelector 1 = Diff.dArray s d D 0 / d2.pScaledDcst
        + Diff.dArray s d D 1 / d2.pScaledDcst ∧
      d2.pCDFSelector 2 = Diff.dArray s d D 0 / d2.pScaledDcst
        + Diff.dArray s d D 1 / d2.pScaledDcst + Diff.dArray s d D 2 / d2.pScaledDcst) := by
  unfold Diff.setDcst at h
  by_cases h1 : D ≥ 0
  · by_cases h2 : (0:ℚ) + Diff.dArray s d D 0 + Diff.dArray s d D 1 + Diff.dArray s d D 2
        + Diff.dArray s d D 3 ≥ 0
    · by_cases h3 : (0:ℚ) + Diff.dArray s d D 0 + Diff.dArray s d D 1 + Diff.dArray s d D 2
        + Diff.dArray s d D 3 = 0
      · simp only [h1, h2, h3, not_true_eq_false, if_false, if_true] at h
        rw [← Except.ok.inj h]
        simp [h3]
      · simp only [h1, h2, h3, not_true_eq_false, if_false] at h
        rw [← Except.ok.inj h]
        refine ⟨h2, fun h0 => absurd h0 h3, fun _ => ?_⟩
        simp
    · simp only [h1, h2, not_true_eq_false, not_false_eq_true, if_false, if_true] at h
      cases h
  · simp only [h1, not_false_eq_true, if_true] at h
    cases h

/-- Arithmetic of the cumulative selector built from four non-negative weights. -/
theorem cdf_arith (a0 a1 a2 a3 S : ℚ) (h0 : 0 ≤ a0) (h1 : 0 ≤ a1) (h2 : 0 ≤ a2) (h3 : 0 ≤ a3)
    (hS : S = a0 + a1 + a2 + a3) (hpos : 0 < S) :
    0 ≤ a0 / S ∧ a0 / S ≤ a0 / S + a1 / S ∧ a0 / S + a1 / S ≤ a0 / S + a1 / S + a2 / S ∧
    a0 / S + a1 / S + a2 / S ≤ 1 ∧ a0 / S + a1 / S + a2 / S + a3 / S = 1 := by
  have e : a0 / S + a1 / S + a2 / S + a3 / S = 1 := by
    rw [← add_div, ← add_div, ← add_div, ← hS]
    exact div_self (ne_of_gt hpos)
  have p0 := div_nonneg h0 (le_of_lt hpos)
  have p1 := div_nonneg h1 (le_of_lt hpos)
  have p2 := div_nonneg h2 (le_of_lt hpos)
  have p3 := div_nonneg h3 (le_of_lt hpos)
  refine ⟨p0, by linarith, by linarith, by linarith, e⟩

/-- The constructor computes the same `d[]`, total and selector as `setDcst` does for the
default constant: its result has a non-negative `pScaledDcst` and the selector entries
written from the array `d[]` of that result. -/
theorem Diff_new_cdf (s : State) (ddef : Diffdef) (tet : Nat) (stale : Nat → Bool) (d2 : Diff)
    (h : Diff.new s ddef tet stale = .ok d2) :
    d2.pTet = tet ∧
    d2.pDcst = (s.tets tet).compdef.dcst ((s.tets tet).compdef.diffG2L ddef.gidx) ∧
    0 ≤ d2.pScaledDcst ∧
    d2.pScaledDcst = Diff.dArray s d2 d2.pDcst 0 + Diff.dArray s d2 d2.pDcst 1
      + Diff.dArray s d2 d2.pDcst 2 + Diff.dArray s d2 d2.pDcst 3 ∧
    (d2.pScaledDcst = 0 →
      d2.pCDFSelector 0 = 0 ∧ d2.pCDFSelector 1 = 0 ∧ d2.pCDFSelector 2 = 0) ∧
    (d2.pScaledDcst ≠ 0 →
      d2.pCDFSelector 0 = Diff.dArray s d2 d2.pDcst 0 / d2.pScaledDcst ∧
      d2.pCDFSelector 1 = Diff.dArray s d2 d2.pDcst 0 / d2.pScaledDcst
        + Diff.dArray s d2 d2.pDcst 1 / d2.pScaledDcst ∧
      d2.pCDFSelector 2 = Diff.dArray s d2 d2.pDcst 0 / d2.pScaledDcst
        + Diff.dArray s d2 d2.pDcst 1 / d2.pScaledDcst
        + Diff.dArray s d2 d2.pDcst 2 / d2.pScaledDcst) := by
  unfold Diff.new at h
  simp only at h
  split_ifs at h with h2 h3
  · rw [← Except.ok.inj h]
    refine ⟨rfl, rfl, ?_, ?_, ?_, ?_⟩
    · simpa using h2
    · simp [Diff.dArray]
    · intro _; simp
    · intro hne; exact absurd h3 hne
  · rw [← Except.ok.inj h]
    refine ⟨rfl, rfl, ?_, ?_, ?_, ?_⟩
    · simpa using h2
    · simp [Diff.dArray]
    · intro h0; exact absurd h0 h3
    · intro _
      simp [Diff.dArray]

/-- The sum of the four coefficients accumulated from 0 is not negative. -/
theorem Diff_dArray_sum_nonneg (s : State) (d : Diff) (D : ℚ) (hD : 0 ≤ D)
    (ha : ∀ i < 4, 0 ≤ (s.tets d.pTet).area i) (hv : 0 ≤ (s.tets d.pTet).vol) :
    (0 : ℚ) + Diff.dArray s d D 0 + Diff.dArray s d D 1 + Diff.dArray s d D 2
      + Diff.dArray s d D 3 ≥ 0 := by
  have n0 := Diff_dArray_nonneg s d D 0 hD (ha 0 (by omega)) hv
  have n1 := Diff_dArray_nonneg s d D 1 hD (ha 1 (by omega)) hv
  have n2 := Diff_dArray_nonneg s d D 2 hD (ha 2 (by omega)) hv
  have n3 := Diff_dArray_nonneg s d D 3 hD (ha 3 (by omega)) hv
  linarith

/-- For sane geometry and a non-negative default constant the constructor passes its
assert. -/
theorem Diff_new_ok (s : State) (ddef : Diffdef) (tet : Nat) (stale : Nat → Bool)
    (hD : 0 ≤ (s.tets tet).compdef.dcst ((s.tets tet).compdef.diffG2L ddef.gidx))
    (ha : ∀ i < 4, 0 ≤ (s.tets tet).area i) (hv : 0 ≤ (s.tets tet).vol) :
    ∃ d2, Diff.new s ddef tet stale = .ok d2 := by
  unfold Diff.new
  simp only
  split_ifs with h2 h3
  · exact ⟨_, rfl⟩
  · exact ⟨_, rfl⟩
  · exact absurd (Diff_dArray_sum_nonneg s _ _ hD ha hv) h2

/-- C14. In exact arithmetic, with face areas `>= 0` and volume `> 0`: after
`Diff::setDcst(D)` (which asserts `D >= 0`) and after the constructor (default constant
`>= 0`), if `scaledDcst > 0` then `0 <= CDF[0] <= CDF[1] <= CDF[2] <= 1` and
`CDF[2] + d[3]/scaledDcst = 1`, and if `scaledDcst == 0` then `CDF[0] = CDF[1] = CDF[2] = 0`;
`scaledDcst` is never negative, and both calls do return on such inputs. -/
theorem Diff_CDF_spec (s : State) :
    (∀ d D d2, Diff.setDcst s d D = .ok d2 →
      (∀ i < 4, 0 ≤ (s.tets d.pTet).area i) → 0 < (s.tets d.pTet).vol →
      0 ≤ d2.pScaledDcst ∧
      (0 < d2.pScaledDcst →
        0 ≤ d2.pCDFSelector 0 ∧ d2.pCDFSelector 0 ≤ d2.pCDFSelector 1 ∧
        d2.pCDFSelector 1 ≤ d2.pCDFSelector 2 ∧ d2.pCDFSelector 2 ≤ 1 ∧
        d2.pCDFSelector 2 + Diff.dArray s d D 3 / d2.pScaledDcst = 1) ∧
      (d2.pScaledDcst = 0 →
        d2.pCDFSelector 0 = 0 ∧ d2.pCDFSelector 1 = 0 ∧ d2.pCDFSelector 2 = 0)) ∧
    (∀ ddef tet stale d2, Diff.new s ddef tet stale = .ok d2 →
      (∀ i < 4, 0 ≤ (s.tets tet).area i) → 0 < (s.tets tet).vol →
      0 ≤ (s.tets tet).compdef.dcst ((s.tets tet).compdef.diffG2L ddef.gidx) →
      0 ≤ d2.pScaledDcst ∧
      (0 < d2.pScaledDcst →
        0 ≤ d2.pCDFSelector 0 ∧ d2.pCDFSelector 0 ≤ d2.pCDFSelector 1 ∧
        d2.pCDFSelector 1 ≤ d2.pCDFSelector 2 ∧ d2.pCDFSelector 2 ≤ 1 ∧
        d2.pCDFSelector 2 + Diff.dArray s d2 d2.pDcst 3 / d2.pScaledDcst = 1) ∧
      (d2.pScaledDcst = 0 →
        d2.pCDFSelector 0 = 0 ∧ d2.pCDFSelector 1 = 0 ∧ d2.pCDFSelector 2 = 0)) ∧
    (∀ d D, 0 ≤ D → (∀ i < 4, 0 ≤ (s.tets d.pTet).area i) → 0 < (s.tets d.pTet).vol →
      ∃ d2, Diff.setDcst s d D = .ok d2) ∧
    (∀ ddef tet stale, (∀ i < 4, 0 ≤ (s.tets tet).area i) → 0 < (s.tets tet).vol →
      0 ≤ (s.tets tet).compdef.dcst ((s.tets tet).compdef.diffG2L ddef.gidx) →
      ∃ d2, Diff.new s ddef tet stale = .ok d2) := by
  refine ⟨?_, ?_, ?_, ?_⟩
  · intro d D d2 h ha hv
    obtain ⟨hnn, hz, hnz⟩ := Diff_setDcst_cdf s d d2 D h
    obtain ⟨_, hD, _, _, _, hsc⟩ := Diff_setDcst_fields s d d2 D h
    have hD0 : 0 ≤ D := by
      by_contra hneg
      unfold Diff.setDcst at h
      have : ¬ (D ≥ 0) := hneg
      simp only [this, not_false_eq_true, if_true] at h
      cases h
    refine ⟨hnn, ?_, hz⟩
    intro hpos
    obtain ⟨e0, e1, e2⟩ := hnz (ne_of_gt hpos)
    have n0 := Diff_dArray_nonneg s d D 0 hD0 (ha 0 (by omega)) (le_of_lt hv)
    have n1 := Diff_dArray_nonneg s d D 1 hD0 (ha 1 (by omega)) (le_of_lt hv)
    have n2 := Diff_dArray_nonneg s d D 2 hD0 (ha 2 (by omega)) (le_of_lt hv)
    have n3 := Diff_dArray_nonneg s d D 3 hD0 (ha 3 (by omega)) (le_of_lt hv)
    obtain ⟨q0, q1, q2, q3, q4⟩ := cdf_arith _ _ _ _ _ n0 n1 n2 n3 hsc hpos
    rw [e0, e1, e2]
    exact ⟨q0, q1, q2, q3, q4⟩
  · intro ddef tet stale d2 h ha hv hD0
    obtain ⟨hT, hD, hnn, hsc, hz, hnz⟩ := Diff_new_cdf s ddef tet stale d2 h
    refine ⟨hnn, ?_, hz⟩
    intro hpos
    obtain ⟨e0, e1, e2⟩ := hnz (ne_of_gt hpos)
    rw [← hT] at ha hv
    rw [← hD] at hD0
    have n0 := Diff_dArray_nonneg s d2 _ 0 hD0 (ha 0 (by omega)) (le_of_lt hv)
    have n1 := Diff_dArray_nonneg s d2 _ 1 hD0 (ha 1 (by omega)) (le_of_lt hv)
    have n2 := Diff_dArray_nonneg s d2 _ 2 hD0 (ha 2 (by omega)) (le_of_lt hv)
    have n3 := Diff_dArray_nonneg s d2 _ 3 hD0 (ha 3 (by omega)) (le_of_lt hv)
    obtain ⟨q0, q1, q2, q3, q4⟩ := cdf_arith _ _ _ _ _ n0 n1 n2 n3 hsc hpos
    rw [e0, e1, e2]
    exact ⟨q0, q1, q2, q3, q4⟩
  · intro d D hD ha hv
    exact Diff_setDcst_ok s d D hD ha (le_of_lt hv)
  · intro ddef tet stale ha hv hD
    exact Diff_new_ok s ddef tet stale hD ha (le_of_lt hv)

/-- Witness of C14 on the concrete system: `setDcst(1)` on the diffusion of tet 0 returns
with `scaledDcst = 1 > 0`, so its selector is ordered within [0,1] and the four direction
probabilities sum to 1. -/
theorem Diff_CDF_spec_witness : ∃ d2, Diff.setDcst Demo.state Demo.diff1 1 = .ok d2 ∧
    0 ≤ d2.pCDFSelector 0 ∧ d2.pCDFSelector 0 ≤ d2.pCDFSelector 1 ∧
    d2.pCDFSelector 1 ≤ d2.pCDFSelector 2 ∧ d2.pCDFSelector 2 ≤ 1 ∧
    d2.pCDFSelector 2 + Diff.dArray Demo.state Demo.diff1 1 3 / d2.pScaledDcst = 1 := by
  have ha : ∀ i < 4, 0 ≤ (Demo.state.tets Demo.diff1.pTet).area i := by
    intro i _; simp [Demo.state, Demo.diff1, Demo.tet0]
  have hv : 0 < (Demo.state.tets Demo.diff1.pTet).vol := by
    simp [Demo.state, Demo.diff1, Demo.tet0]
  obtain ⟨d2, h⟩ := (Diff_CDF_spec Demo.state).2.2.1 Demo.diff1 1 (by norm_num) ha hv
  have hsc := (Diff_setDcst_fields _ _ _ _ h).2.2.2.2.2
  have hpos : 0 < d2.pScaledDcst := by
    rw [hsc]
    norm_num [Diff.dArray, Demo.state, Demo.diff1, Demo.tet0]
  exact ⟨d2, h, ((Diff_CDF_spec Demo.state).1 Demo.diff1 1 d2 h ha hv).2.1 hpos⟩

/-! ## Inactive diffusion rules (claim C15) -/

/-- Clearing activity sets the INACTIVATED bit. -/
theorem setActive_false_inactive (k : KProc) : (k.setActive false).inactive = true := by
  simp only [KProc.setActive, KProc.inactive, INACTIVATED]
  have : (k.pFlags ||| 1) &&& 1 = 1 := by
    apply Nat.eq_of_testBit_eq
    intro i
    simp only [Nat.testBit_and, Nat.testBit_or]
    cases k.pFlags.testBit i <;> cases Nat.testBit 1 i <;> rfl
  simp [this]

/-- Setting activity clears the INACTIVATED bit. -/
theorem setActive_true_active (k : KProc) : (k.setActive true).inactive = false := by
  simp only [KProc.setActive, KProc.inactive, INACTIVATED]
  have : (k.pFlags &&& (4294967295 - 1)) &&& 1 = 0 := by
    rw [Nat.and_assoc]
    simp
  simp [this]

/-- The mutator `setActive` writes the flags only. -/
theorem setActive_fields (k : KProc) (act : Bool) :
    (k.setActive act).variant = k.variant ∧ (k.setActive act).crData = k.crData ∧
    (k.setActive act).rExtent = k.rExtent ∧ (k.setActive act).pSchedIDX = k.pSchedIDX := by
  cases act <;> simp [KProc.setActive]

/-- What a returning `_setTetDiffActive` has done: the flag of the Diff `k` of the tet was
written and `_updateElement(k)`, `_updateSum()` have run. -/
theorem setTetDiffActive_inv (E : Engine) (s s2 : State) (tidx didx : Nat) (act : Bool)
    (h : _setTetDiffActive E s tidx didx act = .ok s2) :
    ∃ tet k s1u, E.pTets.getD tidx none = some tet ∧
      (s.tets tet).diff ((s.tets tet).compdef.diffG2L didx) = some k ∧
      _updateElement (s.setKProc k ((s.pKProcs k).setActive act)) k = .ok s1u ∧
      s2 = _updateSum s1u := by
  unfold _setTetDiffActive at h
  split_ifs at h with h1 h2
  cases ht : E.pTets.getD tidx none with
  | none => rw [ht] at h; cases h
  | some tet =>
    rw [ht] at h
    simp only at h
    split_ifs at h with h3
    cases hk : (s.tets tet).diff ((s.tets tet).compdef.diffG2L didx) with
    | none => rw [hk] at h; cases h
    | some k =>
      rw [hk] at h
      simp only at h
      cases hu : _updateElement (s.setKProc k ((s.pKProcs k).setActive act)) k with
      | error e => rw [hu] at h; cases h
      | ok s1u =>
        rw [hu] at h
        exact ⟨tet, k, s1u, rfl, hk, hu, (Except.ok.inj h).symm⟩

/-- Once its argument checks pass, `_setTetDiffActive` returns whenever the propensity of
the Diff does. -/
theorem setTetDiffActive_ok (E : Engine) (s : State) (tidx didx tet k : Nat) (act : Bool)
    (v : ℚ) (h1 : tidx < E.pTets.length) (h2 : didx < E.countDiffs)
    (ht : E.pTets.getD tidx none = some tet)
    (h3 : (s.tets tet).compdef.diffG2L didx ≠ LIDX_UNDEFINED)
    (hk : (s.tets tet).diff ((s.tets tet).compdef.diffG2L didx) = some k)
    (hr : KProc.rate (s.setKProc k ((s.pKProcs k).setActive act))
      ((s.setKProc k ((s.pKProcs k).setActive act)).pKProcs k) = .ok v) :
    ∃ s2, _setTetDiffActive E s tidx didx act = .ok s2 := by
  obtain ⟨s1u, hu⟩ := updateElement_ok _ k v hr
  refine ⟨_updateSum s1u, ?_⟩
  unfold _setTetDiffActive
  simp only [h1, h2, not_true_eq_false, if_false, ht, h3, hk, hu]

/-- The propensity of an inactive Diff is 0. -/
theorem KProc_rate_inactive_diff (s : State) (k : KProc) (d : Diff) (hv : k.variant = .diff d)
    (hin : k.inactive = true) : KProc.rate s k = .ok 0 := by
  simp [KProc.rate, hv, Diff.rate, hin]

/-- In the concrete system the KProc 1 is still the diffusion of tet 0 once its flag is
written. -/
theorem demo_deactivated_variant :
    ((Demo.state.setKProc 1 ((Demo.state.pKProcs 1).setActive false)).pKProcs 1).variant
      = .diff Demo.diff1 := by
  simp only [State.setKProc, Function.update_same]
  rw [(setActive_fields _ false).1]
  simp [Demo.state, Demo.kproc]

/-- C15 (amended). `setActive` writes the INACTIVATED flag only: the derived object of the
KProc, hence the three CDF entries and `scaledDcst` of a Diff, its selector record and its
extent are untouched; after `setActive(false)` the KProc is inactive and the `rate()` of an
inactive Diff is 0. `_setTetDiffActive` likewise leaves every count and the derived object of
every KProc (all CDF entries) as they were and makes the addressed Diff inactive exactly when
`act` is false. -/
theorem setActive_keeps_CDF :
    (∀ (k : KProc) (act : Bool), (k.setActive act).variant = k.variant ∧
      (k.setActive act).crData = k.crData ∧ (k.setActive act).rExtent = k.rExtent) ∧
    (∀ k : KProc, (k.setActive false).inactive = true ∧ (k.setActive true).inactive = false) ∧
    (∀ (s : State) (k : KProc) (d : Diff), k.inactive = true → Diff.rate s k d = .ok 0) ∧
    (∀ (E : Engine) (s s2 : State) (tidx didx : Nat) (act : Bool),
      _setTetDiffActive E s tidx didx act = .ok s2 →
      s2.tets = s.tets ∧ s2.tris = s.tris ∧
      (∀ j, (s2.pKProcs j).variant = (s.pKProcs j).variant) ∧
      ∃ tet k, E.pTets.getD tidx none = some tet ∧
        (s.tets tet).diff ((s.tets tet).compdef.diffG2L didx) = some k ∧
        (s2.pKProcs k).inactive = !act ∧
        (∀ j, j ≠ k → (s2.pKProcs j).pFlags = (s.pKProcs j).pFlags)) := by
  refine ⟨fun k act => ⟨(setActive_fields k act).1, (setActive_fields k act).2.1,
      (setActive_fields k act).2.2.1⟩,
    fun k => ⟨setActive_false_inactive k, setActive_true_active k⟩, ?_, ?_⟩
  · intro s k d h
    simp [Diff.rate, h]
  · intro E s s2 tidx didx act h
    obtain ⟨tet, k, s1u, ht, hk, hu, rfl⟩ := setTetDiffActive_inv E s s2 tidx didx act h
    have hf := CRFrame_updateElement _ _ _ hu
    obtain ⟨f1, f2, _, _, _, f6⟩ := hf
    refine ⟨?_, ?_, ?_, tet, k, ht, hk, ?_, ?_⟩
    · simp only [_updateSum]; rw [f1]; rfl
    · simp only [_updateSum]; rw [f2]; rfl
    · intro j
      simp only [_updateSum]
      rw [(f6 j).2.2.2]
      by_cases hj : j = k
      · subst hj
        simp [State.setKProc, (setActive_fields (s.pKProcs j) act).1]
      · simp [State.setKProc, Function.update_noteq hj]
    · have : (_updateSum s1u).pKProcs k = s1u.pKProcs k := rfl
      simp only [KProc.inactive, this]
      rw [(f6 k).2.1]
      simp only [State.setKProc, Function.update_same]
      cases act
      · exact setActive_false_inactive (s.pKProcs k)
      · exact setActive_true_active (s.pKProcs k)
    · intro j hj
      have : (_updateSum s1u).pKProcs j = s1u.pKProcs j := rfl
      rw [this, (f6 j).2.1]
      simp [State.setKProc, Function.update_noteq hj]

/-- Witness of C15 (amended) on the concrete system: deactivating the diffusion of tet 0
returns, the Diff is inactive afterwards and its derived object is the one it had. -/
theorem setActive_keeps_CDF_witness :
    ∃ s2, _setTetDiffActive Demo.engine Demo.state 0 0 false = .ok s2 ∧
      (s2.pKProcs 1).variant = (Demo.state.pKProcs 1).variant := by
  have hk : (Demo.state.tets 0).diff ((Demo.state.tets 0).compdef.diffG2L 0) = some 1 := by
    simp [Tet.diff, Demo.state, Demo.tet0, Demo.cdef]
  obtain ⟨s2, h⟩ := setTetDiffActive_ok Demo.engine Demo.state 0 0 0 1 false 0
    (by simp [Demo.engine]) (by simp [Demo.engine]) (by simp [Demo.engine])
    (by simp [Demo.state, Demo.tet0, Demo.cdef, LIDX_UNDEFINED]) hk
    (KProc_rate_inactive_diff _ _ Demo.diff1 demo_deactivated_variant
      (by simp only [State.setKProc, Function.update_same]; exact setActive_false_inactive _))
  exact ⟨s2, h, (setActive_keeps_CDF.2.2.2 Demo.engine Demo.state s2 0 0 false h).2.2.1 1⟩

/-- Counterexample to C15 as stated: in the concrete system the diffusion of tet 0 has
`CDF[0] = 1`; after `_setTetDiffActive(0, 0, false)` it is inactive and `CDF[0]` is still 1,
not 0. -/
theorem inactive_CDF_counterexample :
    ∃ s2 d, _setTetDiffActive Demo.engine Demo.state 0 0 false = .ok s2 ∧
      (s2.pKProcs 1).variant = .diff d ∧ (s2.pKProcs 1).inactive = true ∧
      d.pCDFSelector 0 = 1 ∧ d.pCDFSelector 0 ≠ 0 := by
  have hk : (Demo.state.tets 0).diff ((Demo.state.tets 0).compdef.diffG2L 0) = some 1 := by
    simp [Tet.diff, Demo.state, Demo.tet0, Demo.cdef]
  obtain ⟨s2, h⟩ := setTetDiffActive_ok Demo.engine Demo.state 0 0 0 1 false 0
    (by simp [Demo.engine]) (by simp [Demo.engine]) (by simp [Demo.engine])
    (by simp [Demo.state, Demo.tet0, Demo.cdef, LIDX_UNDEFINED]) hk
    (KProc_rate_inactive_diff _ _ Demo.diff1 demo_deactivated_variant
      (by simp only [State.setKProc, Function.update_same]; exact setActive_false_inactive _))
  obtain ⟨tet, k, s1u, ht, hk2, hu, rfl⟩ := setTetDiffActive_inv _ _ _ _ _ _ h
  have hk1 : k = 1 := by
    have ht0 : tet = 0 := by simpa [Demo.engine] using ht.symm
    subst ht0
    rw [hk] at hk2
    exact (Option.some.inj hk2).symm
  subst hk1
  obtain ⟨_, _, _, _, _, f6⟩ := CRFrame_updateElement _ _ _ hu
  refine ⟨_, Demo.diff1, h, ?_, ?_, by simp [Demo.diff1], by simp [Demo.diff1]⟩
  · have : (_updateSum s1u).pKProcs 1 = s1u.pKProcs 1 := rfl
    rw [this, (f6 1).2.2.2]
    exact demo_deactivated_variant
  · have : (_updateSum s1u).pKProcs 1 = s1u.pKProcs 1 := rfl
    simp only [KProc.inactive, this]
    rw [(f6 1).2.1]
    simp only [State.setKProc, Function.update_same]
    exact setActive_false_inactive _

/-! ## A negative count in `Reac::apply` (claim C19) -/

/-- C19 at its failing input. In the concrete system with no A in tet 0, species A is not
clamped and the reaction A → B would make its count `0 + (-1) < 0`; `Reac::apply` reports
nothing: it returns normally and stores the wrapped count `4294967295`. -/
theorem Reac_apply_stores_wrapped :
    (Demo.drainedState.tets 0).clamped 0 = false ∧
    ((Demo.drainedState.tets 0).pools 0 : Int) + Reac.upd_vec Demo.drainedState Demo.reac0 0 < 0 ∧
    ∃ s2, KProc.apply Demo.rng Demo.drainedState 0 0 = .ok (s2, [0, 1, 2], 0) ∧
      (s2.tets 0).pools 0 = 4294967295 := by
  refine ⟨by simp [Demo.drainedState, Demo.tet0], ?_, ?_⟩
  · norm_num [Demo.drainedState, Demo.tet0, Reac.upd_vec, Demo.reac0, Demo.cdef]
  · refine ⟨(Reac.apply Demo.drainedState 0 Demo.reac0).1, ?_, ?_⟩
    · simp [KProc.apply, Demo.drainedState, Demo.state, Demo.kproc, Reac.apply, Demo.reac0]
    · have e1 : toUInt (wrapInt (toInt 0 + (-1))) = 4294967295 := by decide
      have e2 : toUInt (wrapInt (toInt 1 + 1)) = 2 := by decide
      simp [Reac.apply, Reac.applyLoop, Demo.drainedState, Demo.state, Demo.reac0, Demo.tet0,
        Demo.cdef, State.setTet, State.setKProc, Tet.setCount, List.range, List.range.loop,
        Function.update_apply, e1, e2]

/-! ## Errors of the population mutators (claims C17, C18) -/

/-- The only error of the fall-through switch is its `assert(0)`. -/
theorem switchLhs_err (lhs cnt : Nat) (h : ℚ) (e : Err) (he : switchLhs lhs cnt h = .error e) :
    e ≠ .argErr := by
  unfold switchLhs at he
  split at he <;> first | (cases he; decide) | cases he

/-- The loop of `Reac::rate` never raises ArgErr. -/
theorem Reac_hmuLoop_err (lhs_vec cnt_vec : Nat → Nat) :
    ∀ (l : List Nat) (h : ℚ) (e : Err), Reac.hmuLoop lhs_vec cnt_vec l h = .error e →
      e ≠ .argErr := by
  intro l
  induction l with
  | nil => intro h e he; simp [Reac.hmuLoop] at he
  | cons p rest ih =>
    intro h e he
    unfold Reac.hmuLoop at he
    split_ifs at he with h0 h1
    · exact ih h e he
    · cases hs : switchLhs (lhs_vec p) (cnt_vec p) h with
      | error e2 =>
        rw [hs] at he
        cases he
        exact switchLhs_err _ _ _ _ hs
      | ok h2 =>
        rw [hs] at he
        exact ih h2 e he

/-- The loops of `SReac::rate` never raise ArgErr. -/
theorem SReac_hmuLoop_err (lhs_vec cnt_vec : Nat → Nat) :
    ∀ (l : List Nat) (h : ℚ) (e : Err), SReac.hmuLoop lhs_vec cnt_vec l h = .error e →
      e ≠ .argErr := by
  intro l
  induction l with
  | nil => intro h e he; simp [SReac.hmuLoop] at he
  | cons p rest ih =>
    intro h e he
    unfold SReac.hmuLoop at he
    split_ifs at he with h0 h1
    · exact ih h e he
    · cases hs : switchLhs (lhs_vec p) (cnt_vec p) h with
      | error e2 =>
        rw [hs] at he
        cases he
        exact switchLhs_err _ _ _ _ hs
      | ok h2 =>
        rw [hs] at he
        exact ih h2 e he

/-- The volume part of `SReac::rate` never raises ArgErr. -/
theorem SReac_rateVol_err (s : State) (sr : SReac) (lhs_vec : Nat → Nat) (nspecs : Nat)
    (tet : Option Nat) (h : ℚ) (e : Err)
    (he : SReac.rateVol s sr lhs_vec nspecs tet h = .error e) : e ≠ .argErr := by
  unfold SReac.rateVol at he
  cases tet with
  | none => cases he; decide
  | some t =>
    simp only at he
    cases hl : SReac.hmuLoop lhs_vec (s.tets t).pools (List.range nspecs) h with
    | error e2 =>
      rw [hl] at he
      cases he
      exact SReac_hmuLoop_err _ _ _ _ _ hl
    | ok r =>
      rw [hl] at he
      cases r <;> cases he

/-- No propensity raises ArgErr. -/
theorem KProc_rate_err (s : State) (k : KProc) (e : Err) (he : KProc.rate s k = .error e) :
    e ≠ .argErr := by
  unfold KProc.rate at he
  cases hv : k.variant with
  | reac r =>
    rw [hv] at he
    simp only [Reac.rate] at he
    split_ifs at he
    cases hl : Reac.hmuLoop ((s.tets r.pTet).compdef.reac_lhs_bgn
        ((s.tets r.pTet).compdef.reacG2L r.pReacdef.gidx)) (s.tets r.pTet).pools
        (List.range (s.tets r.pTet).compdef.countSpecs) 1 with
    | error e2 =>
      rw [hl] at he
      cases he
      exact Reac_hmuLoop_err _ _ _ _ _ hl
    | ok w => rw [hl] at he; cases he
  | sreac sr =>
    rw [hv] at he
    simp only [SReac.rate] at he
    by_cases hin : k.inactive = true
    · rw [if_pos hin] at he; cases he
    rw [if_neg hin] at he
    cases hl : SReac.hmuLoop ((s.tris sr.pTri).patchdef.sreac_lhs_S_bgn
        ((s.tris sr.pTri).patchdef.sreacG2L sr.pSReacdef.gidx)) (s.tris sr.pTri).pools
        (List.range (s.tris sr.pTri).patchdef.countSpecs) 1 with
    | error e2 =>
      rw [hl] at he
      cases he
      exact SReac_hmuLoop_err _ _ _ _ _ hl
    | ok w =>
      rw [hl] at he
      cases w with
      | none => cases he
      | some h_mu =>
        simp only at he
        split_ifs at he
        · exact SReac_rateVol_err _ _ _ _ _ _ _ he
        · exact SReac_rateVol_err _ _ _ _ _ _ _ he
  | diff d =>
    rw [hv] at he
    simp only [Diff.rate] at he
    split_ifs at he

/-- The refresh of one KProc never raises ArgErr. -/
theorem updateElement_err (s : State) (kp : Nat) (e : Err)
    (he : _updateElement s kp = .error e) : e ≠ .argErr := by
  unfold _updateElement at he
  cases hr : KProc.rate s (s.pKProcs kp) with
  | error e2 =>
    rw [hr] at he
    cases he
    exact KProc_rate_err _ _ _ hr
  | ok v =>
    rw [hr] at he
    simp only at he
    split_ifs at he

/-- The loop of `_update` never raises ArgErr. -/
theorem updateLoop_err : ∀ (l : List Nat) (s : State) (e : Err),
    updateLoop l s = .error e → e ≠ .argErr := by
  intro l
  induction l with
  | nil => intro s e he; simp [updateLoop] at he
  | cons kp rest ih =>
    intro s e he
    unfold updateLoop at he
    cases h1 : _updateElement s kp with
    | error e2 =>
      rw [h1] at he
      cases he
      exact updateElement_err _ _ _ h1
    | ok s1 =>
      rw [h1] at he
      exact ih s1 e he

/-- Method `_update` never raises ArgErr. -/
theorem update_err (s : State) (upd : List Nat) (e : Err) (he : _update s upd = .error e) :
    e ≠ .argErr := by
  unfold _update at he
  cases h1 : updateLoop upd s with
  | error e2 =>
    rw [h1] at he
    cases he
    exact updateLoop_err _ _ _ h1
  | ok s1 => rw [h1] at he; cases he

/-- Method `_updateSpec` on a tet never raises ArgErr. -/
theorem updateSpec_err (s : State) (tet : Nat) (e : Err) (he : _updateSpec s tet = .error e) :
    e ≠ .argErr := by
  unfold _updateSpec at he
  simp only at he
  split_ifs at he
  exact update_err _ _ _ he

/-- Method `_updateSpec` on a triangle never raises ArgErr. -/
theorem updateSpecTri_err (s : State) (tri : Nat) (e : Err)
    (he : _updateSpecTri s tri = .error e) : e ≠ .argErr := by
  unfold _updateSpecTri at he
  simp only at he
  split_ifs at he
  exact update_err _ _ _ he

/-- The loop over the voxels of a compartment or patch never raises ArgErr when the
refresh of one voxel does not. -/
theorem updateSpecLoop_err (upd : State → Nat → Except Err State)
    (hupd : ∀ s t e, upd s t = .error e → e ≠ .argErr) :
    ∀ (l : List Nat) (s : State) (e : Err), updateSpecLoop upd l s = .error e →
      e ≠ .argErr := by
  intro l
  induction l with
  | nil => intro s e he; simp [updateSpecLoop] at he
  | cons t rest ih =>
    intro s e he
    unfold updateSpecLoop at he
    cases h1 : upd s t with
    | error e2 =>
      rw [h1] at he
      cases he
      exact hupd _ _ _ h1
    | ok s1 =>
      rw [h1] at he
      exact ih s1 e he

/-- The fill loop of `_setCompCount` never raises ArgErr. -/
theorem setCompCountFill_err {σ : Type} (R : RNG σ) (comp : Comp) (slidx : Nat) :
    ∀ (c : Nat) (s : State) (rng : σ) (e : Err) (s2 : State) (rng2 : σ),
      setCompCountFill R comp slidx c s rng = .error (e, s2, rng2) → e ≠ .argErr := by
  intro c
  induction c with
  | zero => intro s rng e s2 rng2 he; simp [setCompCountFill] at he
  | succ c ih =>
    intro s rng e s2 rng2 he
    unfold setCompCountFill at he
    cases hp : comp.pickTetByVol (R.getUnfIE rng).1 with
    | none =>
      rw [hp] at he
      simp only [Except.error.injEq, Prod.mk.injEq] at he
      rw [← he.1]
      decide
    | some tet =>
      rw [hp] at he
      exact ih _ _ e s2 rng2 he

/-- ArgErr of `_setTetCount`: raised exactly for an unassigned tet, a count above the
unsigned maximum or a species undefined in the tet's compartment, and then with the state
and the generator untouched. -/
theorem setTetCount_argErr {σ : Type} (R : RNG σ) (E : Engine) (s : State) (rng : σ)
    (tidx sidx : Nat) (n : ℚ) (h1 : tidx < E.pTets.length) (h2 : sidx < E.countSpecs)
    (h3 : 0 ≤ n) :
    ((∃ s2 rng2, _setTetCount R E s tidx sidx n rng = .error (.argErr, s2, rng2)) ↔
      (E.pTets.getD tidx none = none ∨ n > 4294967295 ∨
        ∃ tet, E.pTets.getD tidx none = some tet ∧
          (s.tets tet).compdef.specG2L sidx = LIDX_UNDEFINED)) ∧
    (∀ s2 rng2, _setTetCount R E s tidx sidx n rng = .error (.argErr, s2, rng2) →
      s2 = s ∧ rng2 = rng) := by
  have h3b : n ≥ 0 := h3
  unfold _setTetCount
  simp only [h1, h2, h3b, not_true_eq_false, if_false]
  cases ht : E.pTets.getD tidx none with
  | none =>
    simp only
    refine ⟨⟨fun _ => by simp, fun _ => ⟨s, rng, rfl⟩⟩, ?_⟩
    intro s2 rng2 h
    simp only [Except.error.injEq, Prod.mk.injEq, true_and] at h
    exact ⟨h.1.symm, h.2.symm⟩
  | some tet =>
    simp only
    by_cases hn : n > 4294967295
    · simp only [hn, if_true]
      refine ⟨⟨fun _ => by simp, fun _ => ⟨s, rng, rfl⟩⟩, ?_⟩
      intro s2 rng2 h
      simp only [Except.error.injEq, Prod.mk.injEq, true_and] at h
      exact ⟨h.1.symm, h.2.symm⟩
    · simp only [hn, if_false]
      by_cases hl : (s.tets tet).compdef.specG2L sidx = LIDX_UNDEFINED
      · simp only [hl, if_true]
        refine ⟨⟨fun _ => by simp [hl], fun _ => ⟨s, rng, rfl⟩⟩, ?_⟩
        intro s2 rng2 h
        simp only [Except.error.injEq, Prod.mk.injEq, true_and] at h
        exact ⟨h.1.symm, h.2.symm⟩
      · simp only [hl, if_false]
        have key : ∀ s2 rng2, (match _updateSpec (s.setTet tet ((s.tets tet).setCount
            ((s.tets tet).compdef.specG2L sidx) (roundCount R n rng).1)) tet with
            | .error e => (.error (e, s.setTet tet ((s.tets tet).setCount
                ((s.tets tet).compdef.specG2L sidx) (roundCount R n rng).1),
                (roundCount R n rng).2) : Outcome σ)
            | .ok s2 => .ok (s2, (roundCount R n rng).2)) ≠ .error (.argErr, s2, rng2) := by
          intro s2 rng2 h
          cases hu : _updateSpec (s.setTet tet ((s.tets tet).setCount
            ((s.tets tet).compdef.specG2L sidx) (roundCount R n rng).1)) tet with
          | error e =>
            rw [hu] at h
            simp only [Except.error.injEq, Prod.mk.injEq] at h
            exact updateSpec_err _ _ _ hu h.1
          | ok s3 => rw [hu] at h; cases h
        refine ⟨⟨?_, ?_⟩, ?_⟩
        · rintro ⟨s2, rng2, h⟩
          exact absurd h (key s2 rng2)
        · intro h
          exfalso
          simp [hn, hl] at h
        · intro s2 rng2 h
          exact absurd h (key s2 rng2)

/-- The part of `_setCompCount` after its argument checks never raises ArgErr. -/
theorem setCompCount_body_err {σ : Type} (R : RNG σ) (comp : Comp) (slidx c : Nat)
    (r1 : State × Nat × σ) (e : Err) (s2 : State) (rng2 : σ)
    (h : (if ¬ (r1.2.1 ≤ c) then (.error (.assertFail, r1.1, r1.2.2) : Outcome σ)
        else
          match setCompCountFill R comp slidx (c - r1.2.1) r1.1 r1.2.2 with
          | .error e => .error e
          | .ok (s2, rng2) =>
            match updateSpecLoop _updateSpec comp.pTets s2 with
            | .error e => .error (e, s2, rng2)
            | .ok s3 =>
              match _reset s3 with
              | .error e => .error (e, s3, rng2)
              | .ok s4 => .ok (s4, rng2)) = .error (e, s2, rng2)) : e ≠ .argErr := by
  split_ifs at h with ha
  · cases hf : setCompCountFill R comp slidx (c - r1.2.1) r1.1 r1.2.2 with
    | error x =>
      rw [hf] at h
      simp only [Except.error.injEq] at h
      subst h
      exact setCompCountFill_err R comp slidx _ _ _ _ _ _ hf
    | ok p =>
      obtain ⟨sa, ra⟩ := p
      rw [hf] at h
      simp only at h
      cases hu : updateSpecLoop _updateSpec comp.pTets sa with
      | error x =>
        rw [hu] at h
        simp only [Except.error.injEq, Prod.mk.injEq] at h
        rw [← h.1]
        exact updateSpecLoop_err _ updateSpec_err _ _ _ hu
      | ok sb =>
        rw [hu] at h
        simp only at h
        cases hr : _reset sb with
        | error x =>
          rw [hr] at h
          simp only [Except.error.injEq, Prod.mk.injEq] at h
          rw [← h.1]
          exact update_err _ _ _ hr
        | ok sc => rw [hr] at h; cases h
  · simp only [Except.error.injEq, Prod.mk.injEq] at h
    rw [← h.1]
    decide

/-- ArgErr of `_setCompCount`: raised exactly for a species undefined in the compartment
or a count above the unsigned maximum, and then with the state and the generator
untouched. -/
theorem setCompCount_argErr {σ : Type} (R : RNG σ) (E : Engine) (s : State) (rng : σ)
    (cidx sidx : Nat) (n : ℚ) (h1 : cidx < E.pComps.length) (h2 : sidx < E.countSpecs)
    (h3 : 0 ≤ n) :
    ((∃ s2 rng2, _setCompCount R E s cidx sidx n rng = .error (.argErr, s2, rng2)) ↔
      (n > 4294967295 ∨
        ∃ comp, E.pComps[cidx]? = some comp ∧
          comp.pCompdef.specG2L sidx = LIDX_UNDEFINED)) ∧
    (∀ s2 rng2, _setCompCount R E s cidx sidx n rng = .error (.argErr, s2, rng2) →
      s2 = s ∧ rng2 = rng) := by
  have h3b : n ≥ 0 := h3
  have hc : E.pComps[cidx]? = some (E.pComps[cidx]) := List.getElem?_eq_getElem h1
  unfold _setCompCount
  simp only [h1, h2, h3b, not_true_eq_false, if_false, hc]
  by_cases hl : (E.pComps[cidx]).pCompdef.specG2L sidx = LIDX_UNDEFINED
  · rw [if_pos hl]
    refine ⟨⟨fun _ => by simp [hl], fun _ => ⟨s, rng, rfl⟩⟩, ?_⟩
    intro s2 rng2 h
    simp only [Except.error.injEq, Prod.mk.injEq, true_and] at h
    exact ⟨h.1.symm, h.2.symm⟩
  · rw [if_neg hl]
    by_cases hn : n > 4294967295
    · rw [if_pos hn]
      refine ⟨⟨fun _ => by simp [hn], fun _ => ⟨s, rng, rfl⟩⟩, ?_⟩
      intro s2 rng2 h
      simp only [Except.error.injEq, Prod.mk.injEq, true_and] at h
      exact ⟨h.1.symm, h.2.symm⟩
    · rw [if_neg hn]
      refine ⟨⟨?_, ?_⟩, ?_⟩
      · rintro ⟨s2, rng2, h⟩
        exact absurd rfl (setCompCount_body_err R _ _ _ _ _ _ _ h)
      · intro h
        exfalso
        simp [hn, hl] at h
      · intro s2 rng2 h
        exact absurd rfl (setCompCount_body_err R _ _ _ _ _ _ _ h)

/-- C17. With `n >= 0` and indices in range, `_setTetCount(t, s, n)` raises ArgErr exactly
when tet `t` is not assigned to a compartment, or `n > 2^32-1`, or species `s` is undefined
in the compartment of the tet; `_setCompCount(c, s, n)` raises ArgErr exactly when `s` is
undefined in `c` or `n > 2^32-1`. Whenever either raises ArgErr, the state (every count,
selector record and `A0`) and the generator are those it was called with. -/
theorem setCount_argErr_spec {σ : Type} (R : RNG σ) (E : Engine) (s : State) (rng : σ) :
    (∀ (tidx sidx : Nat) (n : ℚ), tidx < E.pTets.length → sidx < E.countSpecs → 0 ≤ n →
      ((∃ s2 rng2, _setTetCount R E s tidx sidx n rng = .error (.argErr, s2, rng2)) ↔
        (E.pTets.getD tidx none = none ∨ n > 4294967295 ∨
          ∃ tet, E.pTets.getD tidx none = some tet ∧
            (s.tets tet).compdef.specG2L sidx = LIDX_UNDEFINED)) ∧
      (∀ s2 rng2, _setTetCount R E s tidx sidx n rng = .error (.argErr, s2, rng2) →
        s2 = s ∧ rng2 = rng)) ∧
    (∀ (cidx sidx : Nat) (n : ℚ), cidx < E.pComps.length → sidx < E.countSpecs → 0 ≤ n →
      ((∃ s2 rng2, _setCompCount R E s cidx sidx n rng = .error (.argErr, s2, rng2)) ↔
        (n > 4294967295 ∨
          ∃ comp, E.pComps[cidx]? = some comp ∧
            comp.pCompdef.specG2L sidx = LIDX_UNDEFINED)) ∧
      (∀ s2 rng2, _setCompCount R E s cidx sidx n rng = .error (.argErr, s2, rng2) →
        s2 = s ∧ rng2 = rng)) :=
  ⟨fun tidx sidx n h1 h2 h3 => setTetCount_argErr R E s rng tidx sidx n h1 h2 h3,
   fun cidx sidx n h1 h2 h3 => setCompCount_argErr R E s rng cidx sidx n h1 h2 h3⟩

/-- Witness of C17 on the concrete system: a count above the unsigned maximum makes both
mutators raise ArgErr, with the state and the generator untouched. -/
theorem setCount_argErr_spec_witness :
    (∃ s2 rng2, _setTetCount Demo.rng Demo.engine Demo.state 0 0 4294967296 0
      = .error (.argErr, s2, rng2)) ∧
    (∃ s2 rng2, _setCompCount Demo.rng Demo.engine Demo.state 0 0 4294967296 0
      = .error (.argErr, s2, rng2)) :=
  ⟨((setCount_argErr_spec Demo.rng Demo.engine Demo.state 0).1 0 0 4294967296
      (by simp [Demo.engine]) (by simp [Demo.engine]) (by norm_num)).1.mpr
      (Or.inr (Or.inl (by norm_num))),
   ((setCount_argErr_spec Demo.rng Demo.engine Demo.state 0).2 0 0 4294967296
      (by simp [Demo.engine]) (by simp [Demo.engine]) (by norm_num)).1.mpr
      (Or.inl (by norm_num))⟩

/-! ## Negative populations (claim C18) -/

/-- A negative count stops `_setCompCount` at its assert. -/
theorem setCompCount_neg {σ : Type} (R : RNG σ) (E : Engine) (s : State) (rng : σ)
    (idx sidx : Nat) (n : ℚ) (hn : n < 0) :
    _setCompCount R E s idx sidx n rng = .error (.assertFail, s, rng) := by
  have h : ¬ (n ≥ 0) := not_le.mpr hn
  unfold _setCompCount
  split_ifs <;> rfl

/-- A negative count stops `_setPatchCount` at its assert. -/
theorem setPatchCount_neg {σ : Type} (R : RNG σ) (E : Engine) (s : State) (rng : σ)
    (idx sidx : Nat) (n : ℚ) (hn : n < 0) :
    _setPatchCount R E s idx sidx n rng = .error (.assertFail, s, rng) := by
  have h : ¬ (n ≥ 0) := not_le.mpr hn
  unfold _setPatchCount
  split_ifs <;> rfl

/-- A negative count stops `_setTetCount` at its assert. -/
theorem setTetCount_neg {σ : Type} (R : RNG σ) (E : Engine) (s : State) (rng : σ)
    (idx sidx : Nat) (n : ℚ) (hn : n < 0) :
    _setTetCount R E s idx sidx n rng = .error (.assertFail, s, rng) := by
  have h : ¬ (n ≥ 0) := not_le.mpr hn
  unfold _setTetCount
  split_ifs <;> rfl

/-- A negative count stops `_setTriCount` at its assert. -/
theorem setTriCount_neg {σ : Type} (R : RNG σ) (E : Engine) (s : State) (rng : σ)
    (idx sidx : Nat) (n : ℚ) (hn : n < 0) :
    _setTriCount R E s idx sidx n rng = .error (.assertFail, s, rng) := by
  have h : ¬ (n ≥ 0) := not_le.mpr hn
  unfold _setTriCount
  split_ifs <;> rfl

/-- A negative concentration stops `_setCompConc` at its first statement. -/
theorem setCompConc_neg {σ : Type} (R : RNG σ) (E : Engine) (s : State) (rng : σ)
    (idx sidx : Nat) (n : ℚ) (hn : n < 0) :
    _setCompConc R E s idx sidx n rng = .error (.assertFail, s, rng) := by
  have h : ¬ (n ≥ 0) := not_le.mpr hn
  unfold _setCompConc
  rw [if_pos h]

/-- A negative concentration stops `_setTetConc` at its first statement. -/
theorem setTetConc_neg {σ : Type} (R : RNG σ) (E : Engine) (s : State) (rng : σ)
    (idx sidx : Nat) (n : ℚ) (hn : n < 0) :
    _setTetConc R E s idx sidx n rng = .error (.assertFail, s, rng) := by
  have h : ¬ (n ≥ 0) := not_le.mpr hn
  unfold _setTetConc
  rw [if_pos h]

/-- C18 (amended). Each population mutator called with a negative population or
concentration stops at its `assert(n >= 0.0)`, which comes before any other statement that
can raise or mutate: it fails with an assertion failure (not ArgErr), and the state, with
every count, and the generator are those it was called with. -/
theorem negative_population_spec {σ : Type} (R : RNG σ) (E : Engine) (s : State) (rng : σ)
    (idx sidx : Nat) (n : ℚ) (hn : n < 0) :
    _setCompCount R E s idx sidx n rng = .error (.assertFail, s, rng) ∧
    _setPatchCount R E s idx sidx n rng = .error (.assertFail, s, rng) ∧
    _setTetCount R E s idx sidx n rng = .error (.assertFail, s, rng) ∧
    _setTriCount R E s idx sidx n rng = .error (.assertFail, s, rng) ∧
    _setCompConc R E s idx sidx n rng = .error (.assertFail, s, rng) ∧
    _setTetConc R E s idx sidx n rng = .error (.assertFail, s, rng) :=
  ⟨setCompCount_neg R E s rng idx sidx n hn, setPatchCount_neg R E s rng idx sidx n hn,
   setTetCount_neg R E s rng idx sidx n hn, setTriCount_neg R E s rng idx sidx n hn,
   setCompConc_neg R E s rng idx sidx n hn, setTetConc_neg R E s rng idx sidx n hn⟩

/-- Witness of C18 (amended) on the concrete system for the population `-1`. -/
theorem negative_population_spec_witness :
    _setCompCount Demo.rng Demo.engine Demo.state 0 0 (-1) 0
      = .error (.assertFail, Demo.state, 0) ∧
    _setTetConc Demo.rng Demo.engine Demo.state 0 0 (-1) 0
      = .error (.assertFail, Demo.state, 0) :=
  ⟨(negative_population_spec Demo.rng Demo.engine Demo.state 0 0 0 (-1) (by norm_num)).1,
   (negative_population_spec Demo.rng Demo.engine Demo.state 0 0 0 (-1)
      (by norm_num)).2.2.2.2.2⟩

/-- Counterexample to C18 as stated: in the concrete system `_setTetCount(0, 0, -1)` and
`_setCompCount(0, 0, -1)` do not raise ArgErr; they fail on `assert(n >= 0.0)`. -/
theorem negative_population_counterexample :
    (-1 : ℚ) < 0 ∧
    (¬ ∃ s2 rng2, _setTetCount Demo.rng Demo.engine Demo.state 0 0 (-1) 0
      = .error (.argErr, s2, rng2)) ∧
    (¬ ∃ s2 rng2, _setCompCount Demo.rng Demo.engine Demo.state 0 0 (-1) 0
      = .error (.argErr, s2, rng2)) ∧
    _setTetCount Demo.rng Demo.engine Demo.state 0 0 (-1) 0
      = .error (.assertFail, Demo.state, 0) := by
  have h1 := setTetCount_neg Demo.rng Demo.engine Demo.state 0 0 0 (-1) (by norm_num)
  have h2 := setCompCount_neg Demo.rng Demo.engine Demo.state 0 0 0 (-1) (by norm_num)
  refine ⟨by norm_num, ?_, ?_, h1⟩
  · rintro ⟨s2, rng2, h⟩
    rw [h1] at h
    have := (Prod.mk.inj (Except.error.inj h)).1
    cases this
  · rintro ⟨s2, rng2, h⟩
    rw [h2] at h
    have := (Prod.mk.inj (Except.error.inj h)).1
    cases this

/-! ## The compartment count (claim C13) -/

/-- Accumulating in an unsigned 32-bit variable gives the sum modulo 2^32. -/
theorem foldl_add_mod (f : Nat → Nat) : ∀ (l : List Nat) (a : Nat), a < 4294967296 →
    l.foldl (fun count t => (count + f t) % 4294967296) a
      = (a + (l.map f).sum) % 4294967296 := by
  intro l
  induction l with
  | nil => intro a ha; simp [Nat.mod_eq_of_lt ha]
  | cons t rest ih =>
    intro a _
    simp only [List.foldl_cons, List.map_cons, List.sum_cons]
    rw [ih _ (Nat.mod_lt _ (by norm_num))]
    omega

/-- Value of `_getCompCount` once its checks pass. -/
theorem getCompCount_eq (E : Engine) (s : State) (cidx sidx : Nat) (comp : Comp)
    (h1 : cidx < E.pComps.length) (h2 : sidx < E.countSpecs)
    (hc : E.pComps[cidx]? = some comp)
    (hl : comp.pCompdef.specG2L sidx ≠ LIDX_UNDEFINED) :
    _getCompCount E s cidx sidx = .ok (((
      (comp.pTets.map (fun t => (s.tets t).pools (comp.pCompdef.specG2L sidx))).sum
        % 4294967296 : Nat) : ℚ)) := by
  unfold _getCompCount
  simp only [h1, h2, not_true_eq_false, if_false, hc, hl]
  rw [foldl_add_mod (fun t => (s.tets t).pools (comp.pCompdef.specG2L sidx)) comp.pTets 0
    (by norm_num)]
  simp

/-- Method `_updateSpec` on a tet changes at most the selector bookkeeping. -/
theorem CRFrame_updateSpec (s s2 : State) (tet : Nat) (h : _updateSpec s tet = .ok s2) :
    CRFrame s s2 := by
  unfold _updateSpec at h
  simp only at h
  split_ifs at h
  · rw [← Except.ok.inj h]; exact CRFrame.reflCR s
  · exact CRFrame_update _ _ _ h

/-- Method `_updateSpec` on a triangle changes at most the selector bookkeeping. -/
theorem CRFrame_updateSpecTri (s s2 : State) (tri : Nat) (h : _updateSpecTri s tri = .ok s2) :
    CRFrame s s2 := by
  unfold _updateSpecTri at h
  simp only at h
  split_ifs at h
  · rw [← Except.ok.inj h]; exact CRFrame.reflCR s
  · exact CRFrame_update _ _ _ h

/-- Method `_updateSpec` on a tet returns whenever every propensity does. -/
theorem updateSpec_ok (s : State) (tet : Nat)
    (h : ∀ kp, ∃ v, KProc.rate s (s.pKProcs kp) = .ok v) : ∃ s2, _updateSpec s tet = .ok s2 := by
  unfold _updateSpec
  simp only
  split_ifs
  · exact ⟨s, rfl⟩
  · exact update_ok _ _ (fun kp _ => h kp)

/-- A returning `_setTetCount`: the count of the species in the tet is the rounded `n`, and
nothing else but the selector bookkeeping differs from the state it was called with. -/
theorem setTetCount_inv {σ : Type} (R : RNG σ) (E : Engine) (s s2 : State) (rng rng2 : σ)
    (tidx sidx : Nat) (n : ℚ) (h : _setTetCount R E s tidx sidx n rng = .ok (s2, rng2)) :
    ∃ tet, E.pTets.getD tidx none = some tet ∧ 0 ≤ n ∧ n ≤ 4294967295 ∧
      (s.tets tet).compdef.specG2L sidx ≠ LIDX_UNDEFINED ∧
      rng2 = (roundCount R n rng).2 ∧
      CRFrame (s.setTet tet ((s.tets tet).setCount ((s.tets tet).compdef.specG2L sidx)
        (roundCount R n rng).1)) s2 := by
  unfold _setTetCount at h
  by_cases h1 : ¬ (tidx < E.pTets.length)
  · rw [if_pos h1] at h; cases h
  rw [if_neg h1] at h
  by_cases h2 : ¬ (sidx < E.countSpecs)
  · rw [if_pos h2] at h; cases h
  rw [if_neg h2] at h
  by_cases h3 : ¬ (n ≥ 0)
  · rw [if_pos h3] at h; cases h
  rw [if_neg h3] at h
  cases ht : E.pTets.getD tidx none with
  | none => rw [ht] at h; cases h
  | some tet =>
    rw [ht] at h
    dsimp only at h
    by_cases h4 : n > 4294967295
    · rw [if_pos h4] at h; cases h
    rw [if_neg h4] at h
    by_cases h5 : (s.tets tet).compdef.specG2L sidx = LIDX_UNDEFINED
    · rw [if_pos h5] at h; cases h
    rw [if_neg h5] at h
    cases hu : _updateSpec (s.setTet tet ((s.tets tet).setCount
        ((s.tets tet).compdef.specG2L sidx) (roundCount R n rng).1)) tet with
    | error e => rw [hu] at h; cases h
    | ok s3 =>
      rw [hu] at h
      simp only [Except.ok.injEq, Prod.mk.injEq] at h
      refine ⟨tet, rfl, not_not.mp h3, not_lt.mp h4, h5, h.2.symm, ?_⟩
      rw [← h.1]
      exact CRFrame_updateSpec _ _ _ hu

/-- Once its checks pass, `_setTetCount` returns whenever the refresh does. -/
theorem setTetCount_ok {σ : Type} (R : RNG σ) (E : Engine) (s s3 : State) (rng : σ)
    (tidx sidx tet : Nat) (n : ℚ) (h1 : tidx < E.pTets.length) (h2 : sidx < E.countSpecs)
    (h3 : 0 ≤ n) (ht : E.pTets.getD tidx none = some tet) (h4 : n ≤ 4294967295)
    (h5 : (s.tets tet).compdef.specG2L sidx ≠ LIDX_UNDEFINED)
    (hu : _updateSpec (s.setTet tet ((s.tets tet).setCount
        ((s.tets tet).compdef.specG2L sidx) (roundCount R n rng).1)) tet = .ok s3) :
    _setTetCount R E s tidx sidx n rng = .ok (s3, (roundCount R n rng).2) := by
  have h3b : n ≥ 0 := h3
  have h4b : ¬ (n > 4294967295) := not_lt.mpr h4
  unfold _setTetCount
  simp only [h1, h2, h3b, not_true_eq_false, if_false, ht, h4b, h5, hu]

/-- An integral count is stored as it is, without a draw. -/
theorem roundCount_nat {σ : Type} (R : RNG σ) (n : Nat) (rng : σ) (h : n < 4294967296) :
    roundCount R (n : ℚ) rng = (n, rng) := by
  unfold roundCount
  simp only [Int.floor_natCast, Int.cast_natCast, sub_self, gt_iff_lt, lt_self_iff_false,
    if_false, Prod.mk.injEq, and_true]
  unfold toUInt
  omega

/-- C13 (amended). For every compartment `c` and every species `s` defined in it, in every
state, `_getCompCount(c, s)` returns the sum over the tets of `c` of `pools[s]` reduced
modulo 2^32 (the counts are accumulated in an unsigned 32-bit variable); it is that sum
exactly whenever the sum is below 2^32. -/
theorem getCompCount_spec (E : Engine) (s : State) (cidx sidx : Nat) (comp : Comp)
    (h1 : cidx < E.pComps.length) (h2 : sidx < E.countSpecs)
    (hc : E.pComps[cidx]? = some comp)
    (hl : comp.pCompdef.specG2L sidx ≠ LIDX_UNDEFINED) :
    _getCompCount E s cidx sidx = .ok (((
      (comp.pTets.map (fun t => (s.tets t).pools (comp.pCompdef.specG2L sidx))).sum
        % 4294967296 : Nat) : ℚ)) ∧
    ((comp.pTets.map (fun t => (s.tets t).pools (comp.pCompdef.specG2L sidx))).sum
        < 4294967296 →
      _getCompCount E s cidx sidx = .ok (((
        (comp.pTets.map (fun t => (s.tets t).pools (comp.pCompdef.specG2L sidx))).sum
          : Nat) : ℚ))) := by
  refine ⟨getCompCount_eq E s cidx sidx comp h1 h2 hc hl, ?_⟩
  intro hlt
  rw [getCompCount_eq E s cidx sidx comp h1 h2 hc hl, Nat.mod_eq_of_lt hlt]

/-- Witness of C13 (amended) on the concrete system: 2 molecules of A in the compartment. -/
theorem getCompCount_spec_witness : _getCompCount Demo.engine Demo.state 0 0 = .ok 2 := by
  have h := (getCompCount_spec Demo.engine Demo.state 0 0 Demo.comp0 (by simp [Demo.engine])
    (by simp [Demo.engine]) (by simp [Demo.engine])
    (by simp [Demo.comp0, Demo.cdef, LIDX_UNDEFINED])).2
    (by simp [Demo.comp0, Demo.cdef, Demo.state, Demo.tet0, Demo.tet1])
  rw [h]
  simp [Demo.comp0, Demo.cdef, Demo.state, Demo.tet0, Demo.tet1]

/-- In the concrete system every propensity returns once tet 0 holds 2^31 molecules of B. -/
theorem demo_big_rates (kp : Nat) :
    ∃ v, KProc.rate (Demo.state.setTet 0 ((Demo.state.tets 0).setCount 1 2147483648))
      ((Demo.state.setTet 0 ((Demo.state.tets 0).setCount 1 2147483648)).pKProcs kp)
        = .ok v := by
  by_cases h0 : kp = 0
  · subst h0
    exact ⟨2, by
      norm_num [KProc.rate, State.setTet, Tet.setCount, Demo.state, Demo.kproc, Reac.rate,
        KProc.inactive, INACTIVATED, Demo.reac0, Demo.tet0, Demo.cdef, Reac.hmuLoop,
        List.range, List.range.loop, switchLhs, Function.update_apply]⟩
  · by_cases h1 : kp = 1
    · subst h1
      exact ⟨_, by
        simp [KProc.rate, State.setTet, Demo.state, Demo.kproc, Diff.rate, KProc.inactive,
          INACTIVATED]
        rfl⟩
    · exact ⟨2, by
        norm_num [KProc.rate, State.setTet, Tet.setCount, Demo.state, Demo.kproc, h0, h1,
          SReac.rate, SReac.rateVol, KProc.inactive, INACTIVATED, Demo.sreac2, Demo.tri0,
          Demo.tet0, Demo.pdef, SReac.hmuLoop, List.range, List.range.loop, switchLhs,
          Function.update_apply]⟩

/-- Counterexample to C13 as stated: from the concrete system, `_setTetCount(0, B, 2^31)`
followed by `_setTetCount(1, B, 2^31)` both return; afterwards the tets of the compartment
hold `2^31 + 2^31 = 4294967296` molecules of B, and `_getCompCount` returns 0. -/
theorem getCompCount_counterexample :
    ∃ s1 r1 s2 r2,
      _setTetCount Demo.rng Demo.engine Demo.state 0 1 2147483648 0 = .ok (s1, r1) ∧
      _setTetCount Demo.rng Demo.engine s1 1 1 2147483648 r1 = .ok (s2, r2) ∧
      (Demo.comp0.pTets.map (fun t => (s2.tets t).pools 1)).sum = 4294967296 ∧
      _getCompCount Demo.engine s2 0 1 = .ok 0 := by
  have hcast : (2147483648 : ℚ) = ((2147483648 : Nat) : ℚ) := by norm_num
  have hr : ∀ r : Nat, roundCount Demo.rng (2147483648 : ℚ) r = (2147483648, r) := by
    intro r
    rw [hcast]
    exact roundCount_nat Demo.rng 2147483648 r (by norm_num)
  obtain ⟨s1, hu1⟩ := updateSpec_ok
    (Demo.state.setTet 0 ((Demo.state.tets 0).setCount 1 2147483648)) 0 demo_big_rates
  have hf1 := CRFrame_updateSpec _ _ _ hu1
  have hcall1 : _setTetCount Demo.rng Demo.engine Demo.state 0 1 2147483648 0
      = .ok (s1, 0) := by
    have := setTetCount_ok Demo.rng Demo.engine Demo.state s1 0 0 1 0 2147483648
      (by simp [Demo.engine]) (by simp [Demo.engine]) (by norm_num) (by simp [Demo.engine])
      (by norm_num) (by simp [Demo.state, Demo.tet0, Demo.cdef, LIDX_UNDEFINED])
      (by
        rw [hr 0]
        simpa [Demo.state, Demo.tet0, Demo.cdef] using hu1)
    rw [this, hr 0]
  have ht1 : s1.tets 1 = Demo.tet1 := by
    rw [hf1.1]
    simp [State.setTet, Demo.state]
  have ht0 : (s1.tets 0).pools 1 = 2147483648 := by
    rw [hf1.1]
    simp [State.setTet, Tet.setCount]
  have hu2 : _updateSpec (s1.setTet 1 ((s1.tets 1).setCount ((s1.tets 1).compdef.specG2L 1)
      (roundCount Demo.rng (2147483648 : ℚ) 0).1)) 1
      = .ok (s1.setTet 1 ((s1.tets 1).setCount 1 2147483648)) := by
    rw [hr 0, ht1]
    simp [_updateSpec, State.setTet, Tet.setCount, Demo.tet1, Demo.cdef, List.range,
      List.range.loop]
  have hcall2 : _setTetCount Demo.rng Demo.engine s1 1 1 2147483648 0
      = .ok (s1.setTet 1 ((s1.tets 1).setCount 1 2147483648), 0) := by
    have := setTetCount_ok Demo.rng Demo.engine s1 _ 0 1 1 1 2147483648
      (by simp [Demo.engine]) (by simp [Demo.engine]) (by norm_num) (by simp [Demo.engine])
      (by norm_num) (by rw [ht1]; simp [Demo.tet1, Demo.cdef, LIDX_UNDEFINED]) hu2
    rw [this, hr 0]
  have hsum : (Demo.comp0.pTets.map (fun t =>
      ((s1.setTet 1 ((s1.tets 1).setCount 1 2147483648)).tets t).pools 1)).sum
        = 4294967296 := by
    simp [Demo.comp0, State.setTet, Tet.setCount, ht0]
  refine ⟨s1, 0, _, 0, hcall1, hcall2, hsum, ?_⟩
  have hg := getCompCount_eq Demo.engine (s1.setTet 1 ((s1.tets 1).setCount 1 2147483648))
    0 1 Demo.comp0 (by simp [Demo.engine]) (by simp [Demo.engine]) (by simp [Demo.engine])
    (by simp [Demo.comp0, Demo.cdef, LIDX_UNDEFINED])
  have hidx : Demo.comp0.pCompdef.specG2L 1 = 1 := by simp [Demo.comp0, Demo.cdef]
  rw [hidx] at hg
  rw [hg, hsum]
  norm_num

/-! ## Mass conservation under diffusion (claim C11) -/

/-- Sum over a list without repetition of a function supported on one point. -/
theorem sum_map_single (a : Nat) (c : Int) : ∀ (L : List Nat), L.Nodup →
    (L.map (fun t => if t = a then c else 0)).sum = if a ∈ L then c else 0 := by
  intro L
  induction L with
  | nil => intro _; simp
  | cons x rest ih =>
    intro hnd
    have hx : x ∉ rest := (List.nodup_cons.mp hnd).1
    rw [List.map_cons, List.sum_cons, ih (List.nodup_cons.mp hnd).2]
    by_cases hxa : x = a
    · subst hxa
      simp [hx]
    · have : ¬ a = x := fun h => hxa h.symm
      simp [hxa, this]

/-- Moving one unit between two distinct listed points keeps the sum. -/
theorem sum_map_move (f f2 : Nat → Nat) (L : List Nat) (hnd : L.Nodup) (a b : Nat)
    (ha : a ∈ L) (hb : b ∈ L) (hab : a ≠ b) (h1 : f2 a + 1 = f a) (h2 : f2 b = f b + 1)
    (h3 : ∀ t, t ≠ a → t ≠ b → f2 t = f t) : (L.map f2).sum = (L.map f).sum := by
  have key : ∀ t, (f2 t : Int) = (f t : Int) + ((if t = a then (-1 : Int) else 0)
      + (if t = b then (1 : Int) else 0)) := by
    intro t
    by_cases hta : t = a
    · subst hta
      have : ¬ t = b := hab
      simp only [this, if_false, if_true]
      omega
    · by_cases htb : t = b
      · subst htb
        simp only [hta, if_false, if_true]
        omega
      · simp only [hta, htb, if_false]
        rw [h3 t hta htb]
        omega
  have e : ((L.map f2).sum : Int) = ((L.map f).sum : Int) := by
    have c1 : ((L.map f2).sum : Int) = (L.map (fun t => (f2 t : Int))).sum := by
      simp; rfl
    have c2 : ((L.map f).sum : Int) = (L.map (fun t => (f t : Int))).sum := by
      simp; rfl
    rw [c1, c2]
    have : (fun t => (f2 t : Int)) = fun t => (f t : Int) + ((if t = a then (-1 : Int) else 0)
        + (if t = b then (1 : Int) else 0)) := funext key
    rw [this, List.sum_map_add, List.sum_map_add, sum_map_single a (-1) L hnd,
      sum_map_single b 1 L hnd]
    simp [ha, hb]
  exact_mod_cast e

/-- Two distinct listed points contribute at most the sum. -/
theorem sum_map_two_le (f : Nat → Nat) : ∀ (L : List Nat), L.Nodup → ∀ a b, a ∈ L → b ∈ L →
    a ≠ b → f a + f b ≤ (L.map f).sum := by
  intro L
  induction L with
  | nil => intro _ a b ha; cases ha
  | cons x rest ih =>
    intro hnd a b ha hb hab
    have hx : x ∉ rest := (List.nodup_cons.mp hnd).1
    have hr := (List.nodup_cons.mp hnd).2
    rw [List.map_cons, List.sum_cons]
    have single : ∀ c, c ∈ rest → f c ≤ (rest.map f).sum :=
      fun c hc => List.single_le_sum (fun _ _ => Nat.zero_le _) _ (List.mem_map_of_mem f hc)
    rcases List.mem_cons.mp ha with rfl | ha2
    · rcases List.mem_cons.mp hb with rfl | hb2
      · exact absurd rfl hab
      · have := single b hb2
        omega
    · rcases List.mem_cons.mp hb with rfl | hb2
      · have := single a ha2
        omega
      · have := ih hr a b ha2 hb2 hab
        omega
/-- A hop changes pools only: compartment, neighbours and clamp flags of every tet stay. -/
theorem Diff_hop_static (s : State) (kidx : Nat) (d : Diff) (clamped : Bool) (dir nt : Nat)
    (t : Nat) :
    ((Diff.hop s kidx d clamped dir nt).tets t).compdef = (s.tets t).compdef ∧
    ((Diff.hop s kidx d clamped dir nt).tets t).nextTet = (s.tets t).nextTet ∧
    ((Diff.hop s kidx d clamped dir nt).tets t).clamped = (s.tets t).clamped := by
  simp only [Diff.hop]
  by_cases ht1 : t = nt <;> by_cases ht2 : t = d.pTet <;>
  cases hc : (s.tets nt).clamped (toUInt (d.pNeighbCompLidx dir)) <;> cases clamped <;>
    simp [State.setKProc, State.setTet, Tet.incCount, Function.update_apply, ht1, ht2] <;>
    simp_all

/-- A hop changes the KProc records only in the extent of the fired Diff. -/
theorem Diff_hop_kprocs (s : State) (kidx : Nat) (d : Diff) (clamped : Bool) (dir nt : Nat)
    (j : Nat) :
    ((Diff.hop s kidx d clamped dir nt).pKProcs j).variant = (s.pKProcs j).variant := by
  simp only [Diff.hop]
  by_cases hj : j = kidx <;>
  cases hc : (s.tets nt).clamped (toUInt (d.pNeighbCompLidx dir)) <;> cases clamped <;>
    simp [State.setKProc, State.setTet, KProc.incExtent, Function.update_apply, hj]

/-- What a returning `Diff::apply` has done: the hop of the chosen direction. -/
theorem Diff_apply_inv {σ : Type} (R : RNG σ) (s s2 : State) (kidx : Nat) (d : Diff)
    (rng rng2 : σ) (upd : List Nat) (hvar : (s.pKProcs kidx).variant = .diff d)
    (h : KProc.apply R s kidx rng = .ok (s2, upd, rng2)) :
    ∃ nt, (s.tets d.pTet).nextTet (Diff.direction d (R.getUnfEE rng).1) = some nt ∧
      0 ≤ d.pNeighbCompLidx (Diff.direction d (R.getUnfEE rng).1) ∧
      s2 = Diff.hop s kidx d ((s.tets d.pTet).clamped d.lidxTet)
        (Diff.direction d (R.getUnfEE rng).1) nt ∧
      ((s.tets d.pTet).clamped d.lidxTet = false → 0 < (s.tets d.pTet).pools d.lidxTet) := by
  simp only [KProc.apply, hvar, Diff_apply_eq] at h
  by_cases hassert : (s.tets d.pTet).clamped d.lidxTet = false ∧
      ¬ ((s.tets d.pTet).pools d.lidxTet > 0)
  · simp [hassert] at h
  · simp only [hassert, if_false] at h
    cases hdir : Diff.applyDir s kidx d ((s.tets d.pTet).clamped d.lidxTet)
        (Diff.direction d (R.getUnfEE rng).1) with
    | error e => simp [hdir] at h
    | ok r =>
      obtain ⟨nt, hnt, hl⟩ := Diff_applyDir_inv _ _ _ _ _ _ hdir
      rw [Diff_applyDir_ok _ _ _ _ _ nt hnt hl] at h
      simp only [Except.ok.injEq, Prod.mk.injEq] at h
      refine ⟨nt, hnt, hl, h.1.symm, ?_⟩
      intro hc
      by_contra hpos
      exact hassert ⟨hc, hpos⟩

/-- A defined 32-bit local index survives the round trip through `int`. -/
theorem toUInt_toInt (x : Nat) (h : x < 4294967296) : toUInt (toInt x) = x := by
  unfold toUInt toInt
  split_ifs <;> omega

/-- A stored neighbour index that passes `assert(idx > -1)` is a defined local index. -/
theorem toInt_nonneg_defined (x : Nat) (h0 : 0 ≤ toInt x) :
    x ≠ LIDX_UNDEFINED := by
  unfold toInt at h0
  unfold LIDX_UNDEFINED
  split_ifs at h0 <;> omega
/-- One Diff event in a pure-diffusion system keeps the total count of every species and
keeps the system a pure-diffusion system. -/
theorem Diff_apply_conserves {σ : Type} (R : RNG σ) (s s2 : State) (L : List Nat)
    (kidx : Nat) (rng rng2 : σ) (upd : List Nat) (hL : L.Nodup) (hP : PureDiffusion s L)
    (h : KProc.apply R s kidx rng = .ok (s2, upd, rng2)) :
    (∃ d nt, (s.pKProcs kidx).variant = .diff d ∧
      (s.tets d.pTet).nextTet (Diff.direction d (R.getUnfEE rng).1) = some nt ∧
      nt ≠ d.pTet ∧
      (s2.tets d.pTet).countOf d.ligGIdx + 1 = (s.tets d.pTet).countOf d.ligGIdx ∧
      (s2.tets nt).countOf d.ligGIdx = (s.tets nt).countOf d.ligGIdx + 1 ∧
      (∀ t, t ≠ d.pTet → t ≠ nt →
        (s2.tets t).countOf d.ligGIdx = (s.tets t).countOf d.ligGIdx) ∧
      (∀ t g, g ≠ d.ligGIdx → (s2.tets t).countOf g = (s.tets t).countOf g)) ∧
    (∀ g, totalCount s2 L g = totalCount s L g) ∧ PureDiffusion s2 L := by
  obtain ⟨d, hvar, hsrc, hlidx, hdef, hnb⟩ := hP.allDiff kidx
  obtain ⟨nt, hnt, hl, hs2, hpos⟩ := Diff_apply_inv R s s2 kidx d rng rng2 upd hvar h
  have hpos := hpos (hP.noClamp _ _)
  obtain ⟨hntL, hne⟩ := hP.neighbours d.pTet hsrc _ nt hnt
  have hnl := hnb _ nt hnt
  have hbn := hP.lidxBound nt d.ligGIdx
  have hnidx : toUInt (d.pNeighbCompLidx (Diff.direction d (R.getUnfEE rng).1))
      = (s.tets nt).compdef.specG2L d.ligGIdx := by
    rw [hnl]; exact toUInt_toInt _ hbn
  have hndef : (s.tets nt).compdef.specG2L d.ligGIdx ≠ LIDX_UNDEFINED := by
    apply toInt_nonneg_defined
    rw [← hnl]; exact hl
  have hc1 : (s.tets d.pTet).clamped d.lidxTet = false := hP.noClamp _ _
  have hc2 : (s.tets nt).clamped ((s.tets nt).compdef.specG2L d.ligGIdx) = false :=
    hP.noClamp _ _
  obtain ⟨_, _, _, _, hother, hmove⟩ := Diff_hop_spec s kidx d
    ((s.tets d.pTet).clamped d.lidxTet) (Diff.direction d (R.getUnfEE rng).1) nt
  obtain ⟨hm1, hm2⟩ := hmove hne
  rw [← hs2] at hm1 hm2 hother
  rw [hnidx] at hm2 hother
  rw [if_pos hc1] at hm1
  rw [if_pos hc2] at hm2
  have hstat := fun t => Diff_hop_static s kidx d ((s.tets d.pTet).clamped d.lidxTet)
    (Diff.direction d (R.getUnfEE rng).1) nt t
  rw [← hs2] at hstat
  have hcomp : ∀ t, (s2.tets t).compdef = (s.tets t).compdef := fun t => (hstat t).1
  -- the counts of the ligand in the source and in the neighbour
  have htot : (L.map (fun t => (s.tets t).countOf d.ligGIdx)).sum < 4294967296 :=
    hP.fits d.ligGIdx
  have htwo : (s.tets d.pTet).countOf d.ligGIdx + (s.tets nt).countOf d.ligGIdx
      ≤ (L.map (fun t => (s.tets t).countOf d.ligGIdx)).sum :=
    sum_map_two_le (fun t => (s.tets t).countOf d.ligGIdx) L hL d.pTet nt hsrc hntL
      (fun e => hne e.symm)
  have hcs : (s.tets d.pTet).countOf d.ligGIdx = (s.tets d.pTet).pools d.lidxTet := by
    simp only [Tet.countOf, hdef, if_false, hlidx]
  have hcn : (s.tets nt).countOf d.ligGIdx
      = (s.tets nt).pools ((s.tets nt).compdef.specG2L d.ligGIdx) := by
    simp only [Tet.countOf, hndef, if_false]
  rw [hcs, hcn] at htwo
  have hA : (s2.tets d.pTet).countOf d.ligGIdx + 1 = (s.tets d.pTet).countOf d.ligGIdx := by
    simp only [Tet.countOf, hcomp, hdef, if_false]
    rw [← hlidx, hm1]
    exact toUInt_pred _ hpos (by omega)
  have hB : (s2.tets nt).countOf d.ligGIdx = (s.tets nt).countOf d.ligGIdx + 1 := by
    simp only [Tet.countOf, hcomp, hndef, if_false]
    rw [hm2]
    exact toUInt_succ _ (by omega)
  have hC : ∀ t, t ≠ d.pTet → t ≠ nt →
      (s2.tets t).countOf d.ligGIdx = (s.tets t).countOf d.ligGIdx := by
    intro t ht1 ht2
    simp only [Tet.countOf, hcomp]
    split_ifs
    · rfl
    · exact hother t _ (fun e => ht1 e.1) (fun e => ht2 e.1)
  have hD : ∀ t g, g ≠ d.ligGIdx → (s2.tets t).countOf g = (s.tets t).countOf g := by
    intro t g hg
    simp only [Tet.countOf, hcomp]
    split_ifs with hu
    · rfl
    · apply hother
      · rintro ⟨e1, e2⟩
        subst e1
        rw [hlidx] at e2
        exact hg (hP.lidxInj _ _ _ e2 hu)
      · rintro ⟨e1, e2⟩
        subst e1
        exact hg (hP.lidxInj _ _ _ e2 hu)
  have hcount : ∀ g, totalCount s2 L g = totalCount s L g := by
    intro g
    by_cases hg : g = d.ligGIdx
    · subst hg
      exact sum_map_move (fun t => (s.tets t).countOf d.ligGIdx)
        (fun t => (s2.tets t).countOf d.ligGIdx) L hL d.pTet nt hsrc hntL
        (fun e => hne e.symm) hA hB hC
    · unfold totalCount
      congr 1
      apply List.map_congr_left
      intro t _
      exact hD t g hg
  refine ⟨⟨d, nt, hvar, hnt, hne, hA, hB, hC, hD⟩, hcount, ?_⟩
  have hnext : ∀ t, (s2.tets t).nextTet = (s.tets t).nextTet := fun t => (hstat t).2.1
  have hcl : ∀ t, (s2.tets t).clamped = (s.tets t).clamped := fun t => (hstat t).2.2
  have hkv : ∀ j, (s2.pKProcs j).variant = (s.pKProcs j).variant := by
    intro j; rw [hs2]; exact Diff_hop_kprocs _ _ _ _ _ _ _
  constructor
  · intro k
    obtain ⟨dk, v1, v2, v3, v4, v5⟩ := hP.allDiff k
    refine ⟨dk, by rw [hkv, v1], v2, by rw [hcomp]; exact v3, by rw [hcomp]; exact v4, ?_⟩
    intro i nt2 hi
    rw [hnext] at hi
    rw [hcomp]
    exact v5 i nt2 hi
  · intro t ht i nt2 hi
    rw [hnext] at hi
    exact hP.neighbours t ht i nt2 hi
  · intro t p
    rw [hcl]; exact hP.noClamp t p
  · intro t g
    rw [hcomp]; exact hP.lidxBound t g
  · intro t g g2
    rw [hcomp]; exact hP.lidxInj t g g2
  · intro g
    rw [hcount]; exact hP.fits g

/-- A change confined to the selector bookkeeping, the time and the step counter keeps a
pure-diffusion system and its totals. -/
theorem PureDiffusion_of_same (s s2 : State) (L : List Nat) (ht : s2.tets = s.tets)
    (hk : ∀ j, (s2.pKProcs j).variant = (s.pKProcs j).variant) (hP : PureDiffusion s L) :
    (∀ g, totalCount s2 L g = totalCount s L g) ∧ PureDiffusion s2 L := by
  have hcount : ∀ g, totalCount s2 L g = totalCount s L g := by
    intro g; unfold totalCount; rw [ht]
  refine ⟨hcount, ?_⟩
  constructor
  · intro k
    obtain ⟨dk, v1, v2, v3, v4, v5⟩ := hP.allDiff k
    exact ⟨dk, by rw [hk, v1], v2, by rw [ht]; exact v3, by rw [ht]; exact v4,
      by rw [ht]; exact v5⟩
  · rw [ht]; exact hP.neighbours
  · rw [ht]; exact hP.noClamp
  · rw [ht]; exact hP.lidxBound
  · rw [ht]; exact hP.lidxInj
  · intro g; rw [hcount]; exact hP.fits g

/-- One call of `step()` in a pure-diffusion system keeps every total. -/
theorem step_conserves {σ : Type} (R : RNG σ) (rfuel : Nat) (s s2 : State) (L : List Nat)
    (rng rng2 : σ) (hL : L.Nodup) (hP : PureDiffusion s L)
    (h : step R rfuel s rng = .ok (s2, rng2)) :
    (∀ g, totalCount s2 L g = totalCount s L g) ∧ PureDiffusion s2 L := by
  by_cases h0 : s.pA0 = 0
  · rw [step_zero R rfuel s rng h0] at h
    simp only [Except.ok.injEq, Prod.mk.injEq] at h
    rw [← h.1]
    exact ⟨fun _ => rfl, hP⟩
  · obtain ⟨kp, rng1, s1, upd, s1u, _, ha, hu, hs2, _⟩ := step_inv R rfuel s s2 rng rng2 h0 h
    obtain ⟨_, c1, P1⟩ := Diff_apply_conserves R s s1 L kp _ rng2 upd hL hP ha
    have hf := CRFrame_update _ _ _ hu
    obtain ⟨c2, P2⟩ := PureDiffusion_of_same s1 s1u L hf.1 (fun j => (hf.2.2.2.2.2 j).2.2.2) P1
    obtain ⟨c3, P3⟩ := PureDiffusion_of_same s1u s2 L (by rw [hs2]) (fun j => by rw [hs2]) P2
    exact ⟨fun g => by rw [c3, c2, c1], P3⟩

/-- Any number of calls of `step()` in a pure-diffusion system keeps every total. -/
theorem iterStep_conserves {σ : Type} (R : RNG σ) (rfuel : Nat) (L : List Nat) (hL : L.Nodup) :
    ∀ (n : Nat) (s s2 : State) (rng rng2 : σ), PureDiffusion s L →
      iterStep R rfuel n s rng = .ok (s2, rng2) →
      (∀ g, totalCount s2 L g = totalCount s L g) ∧ PureDiffusion s2 L := by
  intro n
  induction n with
  | zero =>
    intro s s2 rng rng2 hP h
    simp only [iterStep, Except.ok.injEq, Prod.mk.injEq] at h
    rw [← h.1]
    exact ⟨fun _ => rfl, hP⟩
  | succ n ih =>
    intro s s2 rng rng2 hP h
    unfold iterStep at h
    cases hs : step R rfuel s rng with
    | error e => rw [hs] at h; cases h
    | ok r =>
      obtain ⟨s1, rng1⟩ := r
      rw [hs] at h
      obtain ⟨c1, P1⟩ := step_conserves R rfuel s s1 L rng rng1 hL hP hs
      obtain ⟨c2, P2⟩ := ih s1 s2 rng1 rng2 P1 h
      exact ⟨fun g => by rw [c2, c1], P2⟩
/-- C11. In a system where only Diff events fire (every KProc is a Diff wired by its
constructor), no species is clamped and counts fit in 32 bits: each returning
`Diff::apply` takes one molecule of its ligand from the source tet and adds one of the same
species to exactly one neighbour, changing no other count; hence the sum over all tets of
the count of each species is the same after every event as before it, and after any number
of calls of `step()`. (A returning apply has passed `assert(pNeighbCompLidx > -1)`: the
ligand is defined in the neighbour reached.) -/
theorem diffusion_conserves_mass {σ : Type} (R : RNG σ) (rfuel : Nat) (L : List Nat)
    (hL : L.Nodup) (s : State) (hP : PureDiffusion s L) :
    (∀ (kidx : Nat) (rng rng2 : σ) (s2 : State) (upd : List Nat),
      KProc.apply R s kidx rng = .ok (s2, upd, rng2) →
      (∃ d nt, (s.pKProcs kidx).variant = .diff d ∧
        (s.tets d.pTet).nextTet (Diff.direction d (R.getUnfEE rng).1) = some nt ∧
        nt ≠ d.pTet ∧
        (s2.tets d.pTet).countOf d.ligGIdx + 1 = (s.tets d.pTet).countOf d.ligGIdx ∧
        (s2.tets nt).countOf d.ligGIdx = (s.tets nt).countOf d.ligGIdx + 1 ∧
        (∀ t, t ≠ d.pTet → t ≠ nt →
          (s2.tets t).countOf d.ligGIdx = (s.tets t).countOf d.ligGIdx) ∧
        (∀ t g, g ≠ d.ligGIdx → (s2.tets t).countOf g = (s.tets t).countOf g)) ∧
      (∀ g, totalCount s2 L g = totalCount s L g) ∧ PureDiffusion s2 L) ∧
    (∀ (n : Nat) (rng rng2 : σ) (s2 : State), iterStep R rfuel n s rng = .ok (s2, rng2) →
      ∀ g, totalCount s2 L g = totalCount s L g) :=
  ⟨fun kidx rng rng2 s2 upd h => Diff_apply_conserves R s s2 L kidx rng rng2 upd hL hP h,
   fun n rng rng2 s2 h => (iterStep_conserves R rfuel L hL n s s2 rng rng2 hP h).1⟩

/-- The concrete pure-diffusion system satisfies the hypotheses of C11. -/
theorem demo_pureDiffusion : PureDiffusion Demo.diffState [0, 1] := by
  constructor
  · intro k
    refine ⟨{ Demo.diff1 with pUpdVec := fun _ => [0] }, rfl, by simp [Demo.diff1], ?_, ?_, ?_⟩
    · simp [Demo.diff1, Demo.diffState, Demo.cdefD]
    · simp [Demo.diff1, Demo.diffState, Demo.cdefD, LIDX_UNDEFINED]
    · intro i nt hi
      simp only [Demo.diff1, Demo.diffState, Demo.tet0, if_true] at hi
      by_cases h0 : i = 0
      · subst h0
        simp only [if_true, Option.some.injEq] at hi
        subst hi
        simp [Demo.diff1, Demo.diffState, Demo.cdefD, Demo.tet1, toInt]
      · simp [h0] at hi
  · intro t ht i nt hi
    simp only [List.mem_cons, List.mem_singleton, List.not_mem_nil, or_false] at ht
    rcases ht with rfl | rfl
    · simp only [Demo.diffState, Demo.tet0, if_true] at hi
      by_cases h0 : i = 0
      · simp only [h0, if_true, Option.some.injEq] at hi
        subst hi
        simp
      · simp [h0] at hi
    · simp only [Demo.diffState, Demo.tet1] at hi
      by_cases h0 : i = 0
      · simp [h0] at hi
        subst hi
        simp
      · simp [h0] at hi
  · intro t p
    by_cases h0 : t = 0 <;> simp [Demo.diffState, h0, Demo.tet0, Demo.tet1]
  · intro t g
    by_cases h0 : t = 0 <;> by_cases hg : g < 2 <;>
      simp [Demo.diffState, h0, Demo.cdefD, hg, LIDX_UNDEFINED] <;> omega
  · intro t g g2 he hd
    by_cases h0 : t = 0 <;> by_cases hg : g < 2 <;> by_cases hg2 : g2 < 2 <;>
      simp [Demo.diffState, h0, Demo.cdefD, hg, hg2, LIDX_UNDEFINED] at he hd <;> omega
  · intro g
    by_cases hg0 : g = 0
    · subst hg0
      simp [totalCount, Tet.countOf, Demo.diffState, Demo.cdefD, Demo.tet0, Demo.tet1,
        LIDX_UNDEFINED]
    · by_cases hg1 : g = 1
      · subst hg1
        simp [totalCount, Tet.countOf, Demo.diffState, Demo.cdefD, Demo.tet0, Demo.tet1,
          LIDX_UNDEFINED]
      · have hg : ¬ g < 2 := by omega
        simp [totalCount, Tet.countOf, Demo.diffState, Demo.cdefD, hg]

/-- Witness of C11 on the concrete pure-diffusion system: the hop of one A from tet 0 to
tet 1 returns and leaves the total count of A at 2. -/
theorem diffusion_conserves_mass_witness :
    ∃ s2, KProc.apply Demo.rng Demo.diffState 0 0 = .ok (s2, [0], 1) ∧
      totalCount s2 [0, 1] 0 = 2 := by
  have hk : (0 : Nat) = Diff.direction { Demo.diff1 with pUpdVec := fun _ => [0] } (1 / 2) := by
    rw [Diff_direction_cases]
    norm_num [Demo.diff1]
  have happ : KProc.apply Demo.rng Demo.diffState 0 0
      = .ok (Diff.hop Demo.diffState 0 { Demo.diff1 with pUpdVec := fun _ => [0] } false 0 1,
        [0], 1) := by
    have e1 : (Demo.diffState.pKProcs 0).variant
        = .diff { Demo.diff1 with pUpdVec := fun _ => [0] } := rfl
    simp only [KProc.apply, e1, Diff_apply_eq]
    have e2 : (Demo.rng.getUnfEE 0) = (1 / 2, 1) := rfl
    rw [e2, ← hk]
    have e3 := Diff_applyDir_ok Demo.diffState 0 { Demo.diff1 with pUpdVec := fun _ => [0] }
      false 0 1 (by simp [Demo.diffState, Demo.diff1, Demo.tet0]) (by simp [Demo.diff1])
    have e4 : (Demo.diffState.tets ({ Demo.diff1 with pUpdVec := fun _ => [0] } : Diff).pTet).clamped
        ({ Demo.diff1 with pUpdVec := fun _ => [0] } : Diff).lidxTet = false := by
      simp [Demo.diffState, Demo.diff1, Demo.tet0]
    rw [e4, e3]
    simp [Demo.diffState, Demo.diff1, Demo.tet0]
  refine ⟨_, happ, ?_⟩
  rw [((diffusion_conserves_mass Demo.rng 1 [0, 1] (by decide) Demo.diffState
    demo_pureDiffusion).1 0 0 1 _ [0] happ).2.1 0]
  simp [totalCount, Tet.countOf, Demo.diffState, Demo.cdefD, Demo.tet0, Demo.tet1,
    LIDX_UNDEFINED]

/-! ## Distribution of a compartment population (claim C16) -/

/-- Replacing one value of a function on a list without repetition. -/
theorem sum_map_update (v : Nat → Nat) (t x : Nat) : ∀ (L : List Nat), L.Nodup → t ∈ L →
    (L.map (Function.update v t x)).sum + v t = (L.map v).sum + x := by
  intro L
  induction L with
  | nil => intro _ h; cases h
  | cons y rest ih =>
    intro hnd ht
    have hy : y ∉ rest := (List.nodup_cons.mp hnd).1
    have hr := (List.nodup_cons.mp hnd).2
    rw [List.map_cons, List.sum_cons, List.map_cons, List.sum_cons]
    rcases List.mem_cons.mp ht with rfl | ht2
    · have : rest.map (Function.update v t x) = rest.map v := by
        apply List.map_congr_left
        intro a ha
        have : a ≠ t := fun e => hy (e ▸ ha)
        simp [Function.update_noteq this]
      rw [this, Function.update_same]
      omega
    · have hne : y ≠ t := fun e => hy (e ▸ ht2)
      have := ih hr ht2
      rw [Function.update_noteq hne]
      omega

/-- A value outside the list does not matter. -/
theorem sum_map_update_not_mem (v : Nat → Nat) (t x : Nat) (L : List Nat) (ht : t ∉ L) :
    (L.map (Function.update v t x)).sum = (L.map v).sum := by
  congr 1
  apply List.map_congr_left
  intro a ha
  have : a ≠ t := fun e => ht (e ▸ ha)
  simp [Function.update_noteq this]

/-- The pool sum of a state with prescribed counts. -/
theorem poolSum_withCounts (s : State) (L : List Nat) (slidx : Nat) (v : Nat → Nat) :
    poolSum (s.withCounts L slidx v) L slidx = (L.map v).sum := by
  unfold poolSum
  congr 1
  apply List.map_congr_left
  intro t ht
  simp [State.withCounts, ht, Tet.setCount]

/-- Setting one more count of a state with prescribed counts. -/
theorem withCounts_setTet (s : State) (L : List Nat) (slidx : Nat) (v : Nat → Nat)
    (t x : Nat) (ht : t ∈ L) :
    (s.withCounts L slidx v).setTet t (((s.withCounts L slidx v).tets t).setCount slidx x)
      = s.withCounts L slidx (Function.update v t x) := by
  simp only [State.withCounts, State.setTet]
  congr 1
  funext a
  by_cases ha : a = t
  · subst ha
    simp [ht, Tet.setCount]
  · simp [Function.update_noteq ha]

/-- Prescribing the counts of the head and then of the tail. -/
theorem withCounts_cons (s : State) (t : Nat) (rest : List Nat) (slidx : Nat) (v : Nat → Nat)
    (x : Nat) (ht : t ∉ rest) :
    (s.setTet t ((s.tets t).setCount slidx x)).withCounts rest slidx v
      = s.withCounts (t :: rest) slidx (Function.update v t x) := by
  simp only [State.withCounts, State.setTet]
  congr 1
  funext a
  by_cases ha : a = t
  · subst ha
    simp [ht]
  · simp [Function.update_noteq ha, ha]
/-- No tet listed: the state with prescribed counts is the state. -/
theorem withCounts_nil (s : State) (slidx : Nat) (v : Nat → Nat) :
    s.withCounts [] slidx v = s := by
  cases s
  simp [State.withCounts]

/-- The share of one tet never exceeds the number of molecules to inject. -/
theorem share_le (c : Nat) (vol totalvol u : ℚ) (hc : c ≤ 2147483648) (hv0 : 0 ≤ vol)
    (hv1 : vol ≤ totalvol) (hV : 0 < totalvol) :
    (if (c : ℚ) * (vol / totalvol) - ((toUInt ⌊(c : ℚ) * (vol / totalvol)⌋ : Nat) : ℚ) > 0 ∧
        u < (c : ℚ) * (vol / totalvol) - ((toUInt ⌊(c : ℚ) * (vol / totalvol)⌋ : Nat) : ℚ)
      then (toUInt ⌊(c : ℚ) * (vol / totalvol)⌋ + 1) % 4294967296
      else toUInt ⌊(c : ℚ) * (vol / totalvol)⌋) ≤ c := by
  have hr0 : 0 ≤ vol / totalvol := div_nonneg hv0 (le_of_lt hV)
  have hr1 : vol / totalvol ≤ 1 := (div_le_one hV).mpr hv1
  have hf0 : 0 ≤ (c : ℚ) * (vol / totalvol) := mul_nonneg (Nat.cast_nonneg c) hr0
  have hf1 : (c : ℚ) * (vol / totalvol) ≤ c := by
    have := mul_le_mul_of_nonneg_left hr1 (Nat.cast_nonneg c : (0 : ℚ) ≤ c)
    simpa using this
  have hfl0 : 0 ≤ ⌊(c : ℚ) * (vol / totalvol)⌋ := Int.floor_nonneg.mpr hf0
  have hfl1 : ⌊(c : ℚ) * (vol / totalvol)⌋ ≤ (c : Int) := by
    have : ⌊(c : ℚ) * (vol / totalvol)⌋ ≤ ⌊((c : Nat) : ℚ)⌋ := Int.floor_le_floor hf1
    simpa using this
  have hu : toUInt ⌊(c : ℚ) * (vol / totalvol)⌋ = ⌊(c : ℚ) * (vol / totalvol)⌋.toNat := by
    unfold toUInt
    rw [Int.emod_eq_of_lt hfl0 (by omega)]
  have hcast : ((toUInt ⌊(c : ℚ) * (vol / totalvol)⌋ : Nat) : ℚ)
      = ((⌊(c : ℚ) * (vol / totalvol)⌋ : Int) : ℚ) := by
    rw [hu]
    have : ((⌊(c : ℚ) * (vol / totalvol)⌋.toNat : Nat) : Int) = ⌊(c : ℚ) * (vol / totalvol)⌋ :=
      Int.toNat_of_nonneg hfl0
    exact_mod_cast congrArg (fun z : Int => (z : ℚ)) this
  split_ifs with h
  · have hlt : ((⌊(c : ℚ) * (vol / totalvol)⌋ : Int) : ℚ) < (c : ℚ) * (vol / totalvol) := by
      have := h.1
      rw [hcast] at this
      linarith
    have hlt2 : ((⌊(c : ℚ) * (vol / totalvol)⌋ : Int) : ℚ) < ((c : Int) : ℚ) := by
      have : (((c : Int) : ℚ)) = (c : ℚ) := by norm_cast
      rw [this]
      exact lt_of_lt_of_le hlt hf1
    have hlt3 : ⌊(c : ℚ) * (vol / totalvol)⌋ < (c : Int) := by exact_mod_cast hlt2
    rw [hu]
    omega
  · rw [hu]
    omega
/-- The share of one tet, named: the value `n3` after the probabilistic rounding. -/
theorem share_le_named (c : Nat) (vol totalvol u : ℚ) (hc : c ≤ 2147483648) (hv0 : 0 ≤ vol)
    (hv1 : vol ≤ totalvol) (hV : 0 < totalvol) :
    ∃ n3a : Nat, n3a =
      (if (c : ℚ) * (vol / totalvol) - ((toUInt ⌊(c : ℚ) * (vol / totalvol)⌋ : Nat) : ℚ) > 0 ∧
          u < (c : ℚ) * (vol / totalvol) - ((toUInt ⌊(c : ℚ) * (vol / totalvol)⌋ : Nat) : ℚ)
        then (toUInt ⌊(c : ℚ) * (vol / totalvol)⌋ + 1) % 4294967296
        else toUInt ⌊(c : ℚ) * (vol / totalvol)⌋) ∧ n3a ≤ c :=
  ⟨_, rfl, share_le c vol totalvol u hc hv0 hv1 hV⟩

/-- The first loop of `_setCompCount`: over a list of distinct tets whose volumes lie
between 0 and the compartment volume, with at most 2^31 molecules to inject, it writes
counts `v t` into the listed tets only, their sum is what `nremoved` grew by, `nremoved`
never exceeds `c`, and once the total is exhausted every later tet is set to 0. -/
theorem setCompCountLoop_spec {σ : Type} (R : RNG σ) (slidx c : Nat) (totalvol : ℚ)
    (hc : c ≤ 2147483648) (hV : 0 < totalvol) :
    ∀ (L : List Nat), L.Nodup → ∀ (s : State) (nremoved : Nat) (rng : σ), nremoved ≤ c →
      (∀ t ∈ L, 0 ≤ (s.tets t).vol ∧ (s.tets t).vol ≤ totalvol) →
      ∃ v, (setCompCountLoop R slidx c totalvol L s nremoved rng).1 = s.withCounts L slidx v ∧
        (L.map v).sum + nremoved
          = (setCompCountLoop R slidx c totalvol L s nremoved rng).2.1 ∧
        (setCompCountLoop R slidx c totalvol L s nremoved rng).2.1 ≤ c ∧
        (nremoved = c → ∀ t ∈ L, v t = 0) := by
  intro L
  induction L with
  | nil =>
    intro _ s nremoved rng hle _
    exact ⟨fun _ => 0, by simp [setCompCountLoop, withCounts_nil], by simp [setCompCountLoop],
      by simpa [setCompCountLoop] using hle, fun _ t ht => by cases ht⟩
  | cons tet rest ih =>
    intro hnd s nremoved rng hle hvol
    have htet : tet ∉ rest := (List.nodup_cons.mp hnd).1
    have hr := (List.nodup_cons.mp hnd).2
    have step : ∀ (x N : Nat) (r : σ), N ≤ c → x + nremoved = N → (nremoved = c → x = 0) →
        ∃ v, (setCompCountLoop R slidx c totalvol rest
            (s.setTet tet ((s.tets tet).setCount slidx x)) N r).1
              = s.withCounts (tet :: rest) slidx v ∧
          ((tet :: rest).map v).sum + nremoved
            = (setCompCountLoop R slidx c totalvol rest
                (s.setTet tet ((s.tets tet).setCount slidx x)) N r).2.1 ∧
          (setCompCountLoop R slidx c totalvol rest
            (s.setTet tet ((s.tets tet).setCount slidx x)) N r).2.1 ≤ c ∧
          (nremoved = c → ∀ t ∈ tet :: rest, v t = 0) := by
      intro x N r hN hx hz
      have hvol2 : ∀ t ∈ rest, 0 ≤ ((s.setTet tet ((s.tets tet).setCount slidx x)).tets t).vol ∧
          ((s.setTet tet ((s.tets tet).setCount slidx x)).tets t).vol ≤ totalvol := by
        intro t ht
        have hne : t ≠ tet := fun e => htet (e ▸ ht)
        simp only [State.setTet, Function.update_noteq hne]
        exact hvol t (List.mem_cons_of_mem _ ht)
      obtain ⟨v, hv1, hv2, hv3, hv4⟩ := ih hr (s.setTet tet ((s.tets tet).setCount slidx x)) N r
        hN hvol2
      refine ⟨Function.update v tet x, ?_, ?_, hv3, ?_⟩
      · rw [hv1]
        exact withCounts_cons s tet rest slidx v x htet
      · rw [← hv2, List.map_cons, List.sum_cons, Function.update_same,
          sum_map_update_not_mem v tet x rest htet]
        omega
      · intro he t ht
        rcases List.mem_cons.mp ht with rfl | ht2
        · rw [Function.update_same]; exact hz he
        · have hne : t ≠ tet := fun e => htet (e ▸ ht2)
          rw [Function.update_noteq hne]
          have hNc : N = c := by have := hz he; omega
          exact hv4 hNc t ht2
    by_cases heq : nremoved = c
    · simp only [setCompCountLoop, if_pos heq]
      have := step 0 nremoved rng hle (by omega) (fun _ => rfl)
      simpa [heq] using this
    · obtain ⟨n3a, hdef, hA⟩ := share_le_named c (s.tets tet).vol totalvol (R.getUnfIE rng).1 hc
        (hvol tet (List.mem_cons_self _ _)).1 (hvol tet (List.mem_cons_self _ _)).2 hV
      simp only [setCompCountLoop, if_neg heq]
      rw [← hdef]
      have hlt : nremoved + n3a < 4294967296 := by omega
      rw [Nat.mod_eq_of_lt hlt]
      by_cases hge : nremoved + n3a ≥ c
      · simp only [hge, if_true]
        have hx : toUInt ((n3a : Int) - (((nremoved + n3a : Nat) : Int) - (c : Int)))
            = c - nremoved := by
          unfold toUInt
          omega
        rw [hx]
        exact step (c - nremoved) c _ (le_refl c) (by omega) (fun h => absurd h heq)
      · simp only [hge, if_false]
        exact step n3a (nremoved + n3a) _ (by omega) (by omega) (fun h => absurd h heq)
/-- The fill loop of `_setCompCount`: when the picker returns tets of the list and the
counts stay below 2^32, it returns, adds one molecule per round to a listed tet and
touches nothing else. -/
theorem setCompCountFill_spec {σ : Type} (R : RNG σ) (comp : Comp) (slidx : Nat) (s : State)
    (hnd : comp.pTets.Nodup)
    (hpick : ∀ r, ∃ t ∈ comp.pTets, comp.pickTetByVol r = some t) :
    ∀ (k : Nat) (v : Nat → Nat) (rng : σ), (comp.pTets.map v).sum + k < 4294967296 →
      ∃ v2 rng2, setCompCountFill R comp slidx k (s.withCounts comp.pTets slidx v) rng
          = .ok (s.withCounts comp.pTets slidx v2, rng2) ∧
        (comp.pTets.map v2).sum = (comp.pTets.map v).sum + k ∧
        (k = 0 → v2 = v ∧ rng2 = rng) := by
  intro k
  induction k with
  | zero =>
    intro v rng _
    exact ⟨v, rng, rfl, rfl, fun _ => ⟨rfl, rfl⟩⟩
  | succ k ih =>
    intro v rng hlt
    obtain ⟨t, ht, hp⟩ := hpick (R.getUnfIE rng).1
    have hvt : v t ≤ (comp.pTets.map v).sum :=
      List.single_le_sum (fun _ _ => Nat.zero_le _) _ (List.mem_map_of_mem v ht)
    have hpool : ((s.withCounts comp.pTets slidx v).tets t).pools slidx = v t := by
      simp [State.withCounts, ht, Tet.setCount]
    have hsum := sum_map_update v t (v t + 1) comp.pTets hnd ht
    obtain ⟨v2, rng2, h1, h2, _⟩ := ih (Function.update v t (v t + 1)) (R.getUnfIE rng).2
      (by omega)
    refine ⟨v2, rng2, ?_, by omega, fun h => by cases h⟩
    unfold setCompCountFill
    rw [hp]
    simp only
    rw [hpool, Nat.mod_eq_of_lt (by omega), withCounts_setTet s comp.pTets slidx v t _ ht]
    exact h1

/-- The first loop over a concatenation is the loop over the second part started from
the result of the loop over the first part. -/
theorem setCompCountLoop_append {σ : Type} (R : RNG σ) (slidx c : Nat) (totalvol : ℚ)
    (Q : List Nat) : ∀ (P : List Nat) (s : State) (nremoved : Nat) (rng : σ),
    setCompCountLoop R slidx c totalvol (P ++ Q) s nremoved rng
      = setCompCountLoop R slidx c totalvol Q
          (setCompCountLoop R slidx c totalvol P s nremoved rng).1
          (setCompCountLoop R slidx c totalvol P s nremoved rng).2.1
          (setCompCountLoop R slidx c totalvol P s nremoved rng).2.2 := by
  intro P
  induction P with
  | nil => intro s nremoved rng; simp [setCompCountLoop]
  | cons t rest ih =>
    intro s nremoved rng
    simp only [List.cons_append, setCompCountLoop]
    split_ifs <;> exact ih _ _ _

/-- Once the total is exhausted the first loop sets every later tet to 0 and keeps
`nremoved`. -/
theorem setCompCountLoop_exhausted {σ : Type} (R : RNG σ) (slidx c : Nat) (totalvol : ℚ) :
    ∀ (Q : List Nat) (s : State) (rng : σ),
      (setCompCountLoop R slidx c totalvol Q s c rng).2.1 = c ∧
      ∀ t ∈ Q, ((setCompCountLoop R slidx c totalvol Q s c rng).1.tets t).pools slidx = 0 := by
  intro Q
  induction Q with
  | nil => intro s rng; exact ⟨rfl, fun t ht => by cases ht⟩
  | cons q rest ih =>
    intro s rng
    simp only [setCompCountLoop, if_true]
    refine ⟨(ih _ _).1, ?_⟩
    intro t ht
    by_cases hr : t ∈ rest
    · exact (ih _ _).2 t hr
    · have htq : t = q := by
        rcases List.mem_cons.mp ht with h | h
        · exact h
        · exact absurd h hr
      subst htq
      -- the tet is not visited again: its count stays the 0 just written
      have key : ∀ (L : List Nat) (s1 : State) (r1 : σ), t ∉ L →
          ((setCompCountLoop R slidx c totalvol L s1 c r1).1.tets t) = s1.tets t := by
        intro L
        induction L with
        | nil => intro s1 r1 _; rfl
        | cons a L2 ih2 =>
          intro s1 r1 hn
          simp only [setCompCountLoop, if_true]
          rw [ih2 _ _ (fun h => hn (List.mem_cons_of_mem _ h))]
          have hne : t ≠ a := fun e => hn (e ▸ List.mem_cons_self _ _)
          simp [State.setTet, Function.update_noteq hne]
      rw [key rest _ _ hr]
      simp [State.setTet, Tet.setCount]
/-- The loop of `_updateSpec` calls over the tets changes at most the selector
bookkeeping. -/
theorem CRFrame_updateSpecLoop : ∀ (l : List Nat) (s s2 : State),
    updateSpecLoop _updateSpec l s = .ok s2 → CRFrame s s2 := by
  intro l
  induction l with
  | nil => intro s s2 h; simp only [updateSpecLoop] at h; cases h; exact CRFrame.reflCR s
  | cons t rest ih =>
    intro s s2 h
    unfold updateSpecLoop at h
    cases h1 : _updateSpec s t with
    | error e => rw [h1] at h; cases h
    | ok s1 =>
      rw [h1] at h
      exact (CRFrame_updateSpec s s1 t h1).transCR (ih s1 s2 h)

/-- Propensities returning is a property that the selector bookkeeping does not affect. -/
theorem rates_ok_CRFrame (s s2 : State) (h : CRFrame s s2)
    (hr : ∀ kp, ∃ x, KProc.rate s (s.pKProcs kp) = .ok x) :
    ∀ kp, ∃ x, KProc.rate s2 (s2.pKProcs kp) = .ok x := by
  intro kp
  rw [KProc_rate_CRFrame s s2 kp h]
  exact hr kp

/-- The loop of `_updateSpec` calls returns whenever every propensity does. -/
theorem updateSpecLoop_ok : ∀ (l : List Nat) (s : State),
    (∀ kp, ∃ x, KProc.rate s (s.pKProcs kp) = .ok x) →
    ∃ s2, updateSpecLoop _updateSpec l s = .ok s2 := by
  intro l
  induction l with
  | nil => intro s _; exact ⟨s, rfl⟩
  | cons t rest ih =>
    intro s hr
    obtain ⟨s1, h1⟩ := updateSpec_ok s t hr
    obtain ⟨s2, h2⟩ := ih s1 (rates_ok_CRFrame s s1 (CRFrame_updateSpec s s1 t h1) hr)
    exact ⟨s2, by unfold updateSpecLoop; rw [h1]; exact h2⟩

/-- The rounded count of a population below 2^31: `floor(n)` or `floor(n) + 1`, at most
2^31, and exactly `n` without a draw when `n` is integral. -/
theorem roundCount_bounds {σ : Type} (R : RNG σ) (n : ℚ) (rng : σ) (h0 : 0 ≤ n)
    (h1 : n < 2147483648) :
    ((roundCount R n rng).1 = ⌊n⌋.toNat ∨ (roundCount R n rng).1 = ⌊n⌋.toNat + 1) ∧
    (roundCount R n rng).1 ≤ 2147483648 ∧
    (n = ((⌊n⌋ : Int) : ℚ) → (roundCount R n rng).1 = ⌊n⌋.toNat ∧
      (roundCount R n rng).2 = rng) := by
  have hfl0 : 0 ≤ ⌊n⌋ := Int.floor_nonneg.mpr h0
  have hfl1 : ⌊n⌋ < 2147483648 := by
    have : ⌊n⌋ ≤ ⌊((2147483648 : Int) : ℚ)⌋ := Int.floor_le_floor (by push_cast; exact le_of_lt h1)
    rw [Int.floor_intCast] at this
    rcases lt_or_eq_of_le this with h | h
    · exact h
    · exfalso
      have hle : ((⌊n⌋ : Int) : ℚ) ≤ n := Int.floor_le n
      rw [h] at hle
      push_cast at hle
      linarith
  have hu : toUInt ⌊n⌋ = ⌊n⌋.toNat := by
    unfold toUInt
    rw [Int.emod_eq_of_lt hfl0 (by omega)]
  unfold roundCount
  simp only [hu]
  refine ⟨?_, ?_, ?_⟩
  · split_ifs
    · right; simp only; omega
    · left; rfl
    · left; rfl
  · split_ifs <;> simp only <;> omega
  · intro hn
    have : ¬ (n - ((⌊n⌋ : Int) : ℚ) > 0) := by
      rw [← hn]; simp
    simp only [this, if_false, and_self]
/-- The distribution performed by `_setCompCount` once its checks pass: the tets of the
compartment receive counts `v t` that sum to the rounded population, nothing else
changes before the refresh, and tets visited after the total is exhausted in the first
pass receive 0. -/
theorem setCompCount_run {σ : Type} (R : RNG σ) (E : Engine) (s : State) (cidx sidx : Nat)
    (n : ℚ) (rng : σ) (comp : Comp) (h1 : cidx < E.pComps.length) (h2 : sidx < E.countSpecs)
    (hc : E.pComps[cidx]? = some comp)
    (hl : comp.pCompdef.specG2L sidx ≠ LIDX_UNDEFINED)
    (hn0 : 0 ≤ n) (hn1 : n < 2147483648) (hnd : comp.pTets.Nodup)
    (hvol : ∀ t ∈ comp.pTets, 0 ≤ (s.tets t).vol ∧ (s.tets t).vol ≤ comp.pCompdef.vol)
    (hV : 0 < comp.pCompdef.vol)
    (hpick : ∀ r, ∃ t ∈ comp.pTets, comp.pickTetByVol r = some t) :
    ∃ v rngd,
      (comp.pTets.map v).sum = (roundCount R n rng).1 ∧
      _setCompCount R E s cidx sidx n rng =
        (match updateSpecLoop _updateSpec comp.pTets
            (s.withCounts comp.pTets (comp.pCompdef.specG2L sidx) v) with
          | .error e => .error (e, s.withCounts comp.pTets (comp.pCompdef.specG2L sidx) v, rngd)
          | .ok s3 =>
            match _reset s3 with
            | .error e => .error (e, s3, rngd)
            | .ok s4 => .ok (s4, rngd)) ∧
      (∀ P Q, comp.pTets = P ++ Q →
        (setCompCountLoop R (comp.pCompdef.specG2L sidx) (roundCount R n rng).1
          comp.pCompdef.vol P s 0 (roundCount R n rng).2).2.1 = (roundCount R n rng).1 →
        ∀ t ∈ Q, v t = 0) := by
  obtain ⟨_, hcle, _⟩ := roundCount_bounds R n rng hn0 hn1
  obtain ⟨v, hv1, hv2, hv3, _⟩ := setCompCountLoop_spec R (comp.pCompdef.specG2L sidx)
    (roundCount R n rng).1 comp.pCompdef.vol hcle hV comp.pTets hnd s 0
    (roundCount R n rng).2 (Nat.zero_le _) hvol
  obtain ⟨v2, rng2, hf1, hf2, hf3⟩ := setCompCountFill_spec R comp (comp.pCompdef.specG2L sidx)
    s hnd hpick ((roundCount R n rng).1 - (setCompCountLoop R (comp.pCompdef.specG2L sidx)
      (roundCount R n rng).1 comp.pCompdef.vol comp.pTets s 0 (roundCount R n rng).2).2.1)
    v (setCompCountLoop R (comp.pCompdef.specG2L sidx)
      (roundCount R n rng).1 comp.pCompdef.vol comp.pTets s 0 (roundCount R n rng).2).2.2
    (by omega)
  refine ⟨v2, rng2, by omega, ?_, ?_⟩
  · have hn0b : n ≥ 0 := hn0
    have hn2 : ¬ (n > 4294967295) := by
      intro h; linarith
    unfold _setCompCount
    simp only [h1, h2, hn0b, not_true_eq_false, if_false, hc, hl, hn2, hv3]
    rw [hv1, hf1]
  · intro P Q hPQ hex t ht
    have happ := setCompCountLoop_append R (comp.pCompdef.specG2L sidx) (roundCount R n rng).1
      comp.pCompdef.vol Q P s 0 (roundCount R n rng).2
    rw [← hPQ, hex] at happ
    obtain ⟨e1, e2⟩ := setCompCountLoop_exhausted R (comp.pCompdef.specG2L sidx)
      (roundCount R n rng).1 comp.pCompdef.vol Q
      (setCompCountLoop R (comp.pCompdef.specG2L sidx) (roundCount R n rng).1
        comp.pCompdef.vol P s 0 (roundCount R n rng).2).1
      (setCompCountLoop R (comp.pCompdef.specG2L sidx) (roundCount R n rng).1
        comp.pCompdef.vol P s 0 (roundCount R n rng).2).2.2
    rw [← happ] at e1 e2
    have hk : (roundCount R n rng).1 - (setCompCountLoop R (comp.pCompdef.specG2L sidx)
      (roundCount R n rng).1 comp.pCompdef.vol comp.pTets s 0 (roundCount R n rng).2).2.1
        = 0 := by omega
    obtain ⟨hvv, _⟩ := hf3 hk
    rw [hvv]
    have htL : t ∈ comp.pTets := by rw [hPQ]; exact List.mem_append_right _ ht
    have := e2 t ht
    rw [hv1] at this
    simpa [State.withCounts, htL, Tet.setCount] using this
/-- C16. For a compartment whose distinct tets have volumes between 0 and the (positive)
compartment volume, a species defined in it, `0 <= n < 2^31` and a picker that returns tets
of the compartment: whenever `_setCompCount(c, s, n)` returns, the sum over the tets of the
compartment of `pools[s]` is the rounded population, which is `floor(n)` or `floor(n)+1`
and exactly `n` when `n` is an integer; tets visited after the total is exhausted in the
first pass hold 0 (nothing is picked afterwards, since nothing is left); and the call does
return whenever every propensity returns for the counts it may write. -/
theorem setCompCount_spec {σ : Type} (R : RNG σ) (E : Engine) (s : State) (cidx sidx : Nat)
    (n : ℚ) (rng : σ) (comp : Comp) (h1 : cidx < E.pComps.length) (h2 : sidx < E.countSpecs)
    (hc : E.pComps[cidx]? = some comp)
    (hl : comp.pCompdef.specG2L sidx ≠ LIDX_UNDEFINED)
    (hn0 : 0 ≤ n) (hn1 : n < 2147483648) (hnd : comp.pTets.Nodup)
    (hvol : ∀ t ∈ comp.pTets, 0 ≤ (s.tets t).vol ∧ (s.tets t).vol ≤ comp.pCompdef.vol)
    (hV : 0 < comp.pCompdef.vol)
    (hpick : ∀ r, ∃ t ∈ comp.pTets, comp.pickTetByVol r = some t) :
    (∀ s4 rng4, _setCompCount R E s cidx sidx n rng = .ok (s4, rng4) →
      poolSum s4 comp.pTets (comp.pCompdef.specG2L sidx) = (roundCount R n rng).1 ∧
      ((roundCount R n rng).1 = ⌊n⌋.toNat ∨ (roundCount R n rng).1 = ⌊n⌋.toNat + 1) ∧
      (n = ((⌊n⌋ : Int) : ℚ) →
        ((poolSum s4 comp.pTets (comp.pCompdef.specG2L sidx) : Nat) : ℚ) = n) ∧
      (∀ P Q, comp.pTets = P ++ Q →
        (setCompCountLoop R (comp.pCompdef.specG2L sidx) (roundCount R n rng).1
          comp.pCompdef.vol P s 0 (roundCount R n rng).2).2.1 = (roundCount R n rng).1 →
        ∀ t ∈ Q, (s4.tets t).pools (comp.pCompdef.specG2L sidx) = 0)) ∧
    ((∀ v kp, ∃ x, KProc.rate (s.withCounts comp.pTets (comp.pCompdef.specG2L sidx) v)
        ((s.withCounts comp.pTets (comp.pCompdef.specG2L sidx) v).pKProcs kp) = .ok x) →
      ∃ s4 rng4, _setCompCount R E s cidx sidx n rng = .ok (s4, rng4)) := by
  obtain ⟨v, rngd, hsum, hrun, hzero⟩ := setCompCount_run R E s cidx sidx n rng comp h1 h2 hc hl
    hn0 hn1 hnd hvol hV hpick
  obtain ⟨hb1, _, hb3⟩ := roundCount_bounds R n rng hn0 hn1
  constructor
  · intro s4 rng4 h
    rw [hrun] at h
    cases hu : updateSpecLoop _updateSpec comp.pTets
        (s.withCounts comp.pTets (comp.pCompdef.specG2L sidx) v) with
    | error e => rw [hu] at h; cases h
    | ok s3 =>
      rw [hu] at h
      simp only at h
      cases hr : _reset s3 with
      | error e => rw [hr] at h; cases h
      | ok s5 =>
        rw [hr] at h
        simp only [Except.ok.injEq, Prod.mk.injEq] at h
        have f1 := CRFrame_updateSpecLoop _ _ _ hu
        have f2 : CRFrame s3 s5 := CRFrame_update _ _ _ hr
        have htets : s4.tets = (s.withCounts comp.pTets (comp.pCompdef.specG2L sidx) v).tets := by
          rw [← h.1, f2.1, f1.1]
        have hps : poolSum s4 comp.pTets (comp.pCompdef.specG2L sidx)
            = (roundCount R n rng).1 := by
          have : poolSum s4 comp.pTets (comp.pCompdef.specG2L sidx)
              = poolSum (s.withCounts comp.pTets (comp.pCompdef.specG2L sidx) v) comp.pTets
                (comp.pCompdef.specG2L sidx) := by
            unfold poolSum; rw [htets]
          rw [this, poolSum_withCounts, hsum]
        refine ⟨hps, hb1, ?_, ?_⟩
        · intro hint
          rw [hps, (hb3 hint).1]
          have hfl0 : 0 ≤ ⌊n⌋ := Int.floor_nonneg.mpr hn0
          have : ((⌊n⌋.toNat : Nat) : Int) = ⌊n⌋ := Int.toNat_of_nonneg hfl0
          rw [hint]
          simp only [Int.floor_intCast]
          exact_mod_cast congrArg (fun z : Int => (z : ℚ)) this
        · intro P Q hPQ hex t ht
          have htL : t ∈ comp.pTets := by rw [hPQ]; exact List.mem_append_right _ ht
          rw [htets]
          simp only [State.withCounts, htL, if_true, Tet.setCount, Function.update_same]
          exact hzero P Q hPQ hex t ht
  · intro hrates
    obtain ⟨s3, hu⟩ := updateSpecLoop_ok comp.pTets _ (hrates v)
    have f1 := CRFrame_updateSpecLoop _ _ _ hu
    have hr3 := rates_ok_CRFrame _ _ f1 (hrates v)
    obtain ⟨s5, hr⟩ : ∃ s5, _reset s3 = .ok s5 := update_ok s3 _ (fun kp _ => hr3 kp)
    exact ⟨s5, rngd, by rw [hrun, hu]; simp only; rw [hr]⟩

/-- Witness of C16 on the concrete pure-diffusion system: `_setCompCount(0, A, 3)` returns
and afterwards tets 0 and 1 hold 3 molecules of A together. -/
theorem setCompCount_spec_witness :
    ∃ s4 rng4, _setCompCount Demo.rng Demo.engineD Demo.diffState 0 0 3 0 = .ok (s4, rng4) ∧
      poolSum s4 [0, 1] 0 = 3 := by
  have hspec := setCompCount_spec Demo.rng Demo.engineD Demo.diffState 0 0 3 0
    { Demo.comp0 with pCompdef := Demo.cdefD }
    (by simp [Demo.engineD]) (by simp [Demo.engineD, Demo.engine]) (by simp [Demo.engineD])
    (by simp [Demo.cdefD, LIDX_UNDEFINED]) (by norm_num) (by norm_num)
    (by simp [Demo.comp0])
    (by
      intro t ht
      simp only [Demo.comp0, List.mem_cons, List.mem_singleton, List.not_mem_nil,
        or_false] at ht
      rcases ht with rfl | rfl <;>
        norm_num [Demo.diffState, Demo.tet0, Demo.tet1, Demo.cdefD, Demo.cdef])
    (by norm_num [Demo.cdefD, Demo.cdef])
    (by
      intro r
      by_cases h : r < 1 / 2
      · exact ⟨0, by simp [Demo.comp0], by simp only [Demo.comp0, h, if_true]⟩
      · exact ⟨1, by simp [Demo.comp0], by simp only [Demo.comp0, h, if_false]⟩)
  obtain ⟨s4, rng4, h⟩ := hspec.2 (by
    intro v kp
    exact ⟨_, by
      simp [KProc.rate, State.withCounts, Demo.diffState, Diff.rate, KProc.inactive,
        INACTIVATED]
      rfl⟩)
  refine ⟨s4, rng4, h, ?_⟩
  have h3 := (hspec.1 s4 rng4 h).1
  have hcast : (3 : ℚ) = ((3 : Nat) : ℚ) := by norm_num
  have hr : roundCount Demo.rng (3 : ℚ) 0 = (3, 0) := by
    rw [hcast]
    exact roundCount_nat Demo.rng 3 0 (by norm_num)
  rw [hr] at h3
  simpa [Demo.comp0, Demo.cdefD] using h3

/-! ## The diffusion-boundary switch (claim C20) -/

/-- The array `d[]` reads the state only through its tets. -/
theorem Diff_dArray_tets (s s2 : State) (d : Diff) (D : ℚ) (ht : s2.tets = s.tets) :
    Diff.dArray s2 d D = Diff.dArray s d D := by
  funext i
  unfold Diff.dArray
  rw [ht]

/-- Mutator `setDcst` reads the state only through its tets. -/
theorem Diff_setDcst_tets (s s2 : State) (d : Diff) (D : ℚ) (ht : s2.tets = s.tets) :
    Diff.setDcst s2 d D = Diff.setDcst s d D := by
  unfold Diff.setDcst
  rw [Diff_dArray_tets s s2 d D ht]

/-- Writing the three selector entries twice is the same as writing them once. -/
theorem update3_idem (f : Nat → ℚ) (a b c : ℚ) :
    Function.update (Function.update (Function.update
      (Function.update (Function.update (Function.update f 0 a) 1 b) 2 c) 0 a) 1 b) 2 c
    = Function.update (Function.update (Function.update f 0 a) 1 b) 2 c := by
  funext i
  simp only [Function.update, eq_rec_constant, dite_eq_ite]
  split_ifs <;> rfl

/-- A successful `setDcst` keeps every field but the constant, `pScaledDcst` and the
selector, and its result is a fixed point: recomputing from the result gives the result. -/
theorem Diff_setDcst_static (s : State) (d d2 : Diff) (D : ℚ)
    (h : Diff.setDcst s d D = .ok d2) :
    d2.ligGIdx = d.ligGIdx ∧ d2.lidxTet = d.lidxTet ∧ d2.pDiffdef = d.pDiffdef ∧
    d2.pTet = d.pTet ∧ d2.pUpdVec = d.pUpdVec ∧ d2.pNeighbCompLidx = d.pNeighbCompLidx ∧
    d2.pDcst = D ∧ d2.pDiffBndDirection = d.pDiffBndDirection ∧
    d2.pDiffBndActive = d.pDiffBndActive ∧ Diff.setDcst s d2 D = .ok d2 := by
  have hkey : ∀ d3 : Diff, d3.pTet = d.pTet → d3.pDiffBndDirection = d.pDiffBndDirection →
      d3.pDiffBndActive = d.pDiffBndActive → Diff.dArray s d3 D = Diff.dArray s d D := by
    intro d3 h1 h2 h3
    funext i
    unfold Diff.dArray
    rw [h1, h2, h3]
  unfold Diff.setDcst at h
  by_cases h1 : D ≥ 0
  · rw [if_neg (not_not.mpr h1)] at h
    dsimp only at h
    by_cases h2 : (0:ℚ) + Diff.dArray s d D 0 + Diff.dArray s d D 1 + Diff.dArray s d D 2
        + Diff.dArray s d D 3 ≥ 0
    · rw [if_neg (not_not.mpr h2)] at h
      by_cases h3 : (0:ℚ) + Diff.dArray s d D 0 + Diff.dArray s d D 1 + Diff.dArray s d D 2
          + Diff.dArray s d D 3 = 0
      · rw [if_pos h3] at h
        have hd2 := (Except.ok.inj h).symm
        have e : Diff.dArray s d2 D = Diff.dArray s d D := by
          rw [hd2]
          exact hkey _ rfl rfl rfl
        refine ⟨by rw [hd2], by rw [hd2], by rw [hd2], by rw [hd2], by rw [hd2], by rw [hd2],
          by rw [hd2], by rw [hd2], by rw [hd2], ?_⟩
        unfold Diff.setDcst
        rw [if_neg (not_not.mpr h1)]
        dsimp only
        rw [e, if_neg (not_not.mpr h2), if_pos h3]
        subst hd2
        dsimp only
        rw [update3_idem]
      · rw [if_neg h3] at h
        have hd2 := (Except.ok.inj h).symm
        have e : Diff.dArray s d2 D = Diff.dArray s d D := by
          rw [hd2]
          exact hkey _ rfl rfl rfl
        refine ⟨by rw [hd2], by rw [hd2], by rw [hd2], by rw [hd2], by rw [hd2], by rw [hd2],
          by rw [hd2], by rw [hd2], by rw [hd2], ?_⟩
        unfold Diff.setDcst
        rw [if_neg (not_not.mpr h1)]
        dsimp only
        rw [e, if_neg (not_not.mpr h2), if_neg h3]
        subst hd2
        dsimp only
        rw [update3_idem]
    · rw [if_pos h2] at h
      cases h
  · rw [if_pos h1] at h
    cases h

/-- What a successful `setDiffBndActive(i, active)` does: nothing when the flag already
holds `active`; otherwise it writes the flag of direction `i` and recomputes. -/
theorem Diff_setDiffBndActive_rel (s : State) (d d2 : Diff) (i : Nat) (act : Bool)
    (h : Diff.setDiffBndActive s d i act = .ok d2) :
    i < 4 ∧ d.pDiffBndDirection i = true ∧
    (d2 = d ∨
      (d2.ligGIdx = d.ligGIdx ∧ d2.lidxTet = d.lidxTet ∧ d2.pDiffdef = d.pDiffdef ∧
       d2.pTet = d.pTet ∧ d2.pUpdVec = d.pUpdVec ∧ d2.pNeighbCompLidx = d.pNeighbCompLidx ∧
       d2.pDcst = d.pDcst ∧ d2.pDiffBndDirection = d.pDiffBndDirection ∧
       d2.pDiffBndActive = Function.update d.pDiffBndActive i act ∧
       Diff.setDcst s d2 d2.pDcst = .ok d2)) := by
  unfold Diff.setDiffBndActive at h
  by_cases h1 : i < 4
  · rw [if_neg (not_not.mpr h1)] at h
    by_cases h2 : d.pDiffBndDirection i = true
    · rw [if_neg (not_not.mpr h2)] at h
      refine ⟨h1, h2, ?_⟩
      by_cases h3 : (d.pDiffBndActive i != act) = true
      · rw [if_pos h3] at h
        obtain ⟨a1, a2, a3, a4, a5, a6, a7, a8, a9, a10⟩ := Diff_setDcst_static s _ d2 _ h
        right
        refine ⟨a1, a2, a3, a4, a5, a6, a7, a8, a9, ?_⟩
        rw [a7]
        exact a10
      · rw [if_neg h3] at h
        left
        exact (Except.ok.inj h).symm
    · rw [if_pos h2] at h
      cases h
  · rw [if_pos h1] at h
    cases h

/-- Nothing changed is an allowed change. -/
theorem BndChange_same (s : State) (act : Bool) (rec : Nat → Prop) (d : Diff) :
    BndChange s act rec d d :=
  ⟨rfl, rfl, rfl, rfl, rfl, rfl, rfl, rfl, fun _ h => absurd rfl h, Or.inl rfl⟩

/-- One more `setDiffBndActive` in a recorded direction keeps the change allowed. -/
theorem BndChange_step (s0 s : State) (act : Bool) (rec : Nat → Prop) (d df df2 : Diff)
    (dir : Nat) (ht : s.tets = s0.tets) (hc : BndChange s0 act rec d df) (hrec : rec dir)
    (h : Diff.setDiffBndActive s df dir act = .ok df2) :
    BndChange s0 act rec d df2 := by
  obtain ⟨_, _, hrel⟩ := Diff_setDiffBndActive_rel s df df2 dir act h
  rcases hrel with hsame | ⟨a1, a2, a3, a4, a5, a6, a7, a8, a9, a10⟩
  · rw [hsame]; exact hc
  · obtain ⟨b1, b2, b3, b4, b5, b6, b7, b8, b9, _⟩ := hc
    refine ⟨a1.trans b1, a2.trans b2, a3.trans b3, a4.trans b4, a5.trans b5, a6.trans b6,
      a7.trans b7, a8.trans b8, ?_, Or.inr ⟨⟨dir, hrec⟩, ?_⟩⟩
    · intro i hi
      by_cases hid : i = dir
      · rw [hid, a9, Function.update_same]
        exact ⟨hrec, rfl⟩
      · rw [a9, Function.update_noteq hid] at hi ⊢
        exact b9 i hi
    · rw [← Diff_setDcst_tets s0 s df2 df2.pDcst ht]
      exact a10

/-- The frame holds between a state and itself. -/
theorem BndFrame_same (E : Engine) (s : State) (db : DiffBoundary) (sidx : Nat) (act : Bool) :
    BndFrame E s db sidx act s :=
  ⟨rfl, rfl, rfl, rfl, rfl, rfl, rfl, rfl, rfl, rfl, rfl, rfl,
    fun _ => ⟨rfl, rfl, rfl, rfl, Or.inl rfl⟩⟩

/-- Replacing the Diff of a recorded KProc of ligand `sidx` by the result of
`setDiffBndActive` in its recorded direction keeps the frame. -/
theorem BndFrame_step (E : Engine) (s0 s : State) (db : DiffBoundary) (sidx : Nat) (act : Bool)
    (k dir : Nat) (df df2 : Diff) (hF : BndFrame E s0 db sidx act s)
    (hrec : db.records E s0 k dir) (hv : (s.pKProcs k).variant = .diff df)
    (hl : df.pDiffdef.lig = sidx) (h : Diff.setDiffBndActive s df dir act = .ok df2) :
    BndFrame E s0 db sidx act (s.setKProc k { s.pKProcs k with variant := .diff df2 }) := by
  obtain ⟨f1, f2, f3, f4, f5, f6, f7, f8, f9, f10, f11, f12, fk⟩ := hF
  refine ⟨f1, f2, f3, f4, f5, f6, f7, f8, f9, f10, f11, f12, ?_⟩
  intro j
  by_cases hj : j = k
  · subst hj
    obtain ⟨g1, g2, g3, g4, g5⟩ := fk j
    have hnew : (s.setKProc j { s.pKProcs j with variant := .diff df2 }).pKProcs j
        = { s.pKProcs j with variant := .diff df2 } := by
      unfold State.setKProc
      exact Function.update_same _ _ _
    rw [hnew]
    refine ⟨g1, g2, g3, g4, Or.inr ?_⟩
    rcases g5 with g5 | ⟨d, d1, h0, h1, hl0, hc⟩
    · rw [hv] at g5
      exact ⟨df, df2, g5.symm, rfl, hl,
        BndChange_step s0 s act _ df df df2 dir f1 (BndChange_same s0 act _ df) hrec h⟩
    · rw [hv] at h1
      have hd1 : df = d1 := KProcVariant.diff.inj h1
      rw [← hd1] at hc
      exact ⟨d, df2, h0, rfl, hl0, BndChange_step s0 s act _ d df df2 dir f1 hc hrec h⟩
  · have hnew : (s.setKProc k { s.pKProcs k with variant := .diff df2 }).pKProcs j
        = s.pKProcs j := by
      unfold State.setKProc
      exact Function.update_noteq hj _ _
    rw [hnew]
    exact fk j

/-- The inner loop of `_setDiffBoundaryDiffusionActive` over the diffusion rules of one
recorded tet keeps the frame. -/
theorem diffBndLoopDiffs_frame (E : Engine) (s0 : State) (db : DiffBoundary) (sidx : Nat)
    (act : Bool) (bdtet tet dir : Nat)
    (hz : (bdtet, dir) ∈ db.getTets.zip db.getTetDirection)
    (ht : E.pTets.getD bdtet none = some tet) :
    ∀ (l : List Nat) (s s2 : State), (∀ j ∈ l, j < (s0.tets tet).compdef.countDiffs) →
      BndFrame E s0 db sidx act s → diffBndLoopDiffs tet sidx dir act l s = .ok s2 →
      BndFrame E s0 db sidx act s2 := by
  intro l
  induction l with
  | nil =>
    intro s s2 _ hF h
    unfold diffBndLoopDiffs at h
    rw [← Except.ok.inj h]
    exact hF
  | cons j rest ih =>
    intro s s2 hl hF h
    have hrest : ∀ j2 ∈ rest, j2 < (s0.tets tet).compdef.countDiffs :=
      fun j2 hj2 => hl j2 (List.mem_cons_of_mem _ hj2)
    unfold diffBndLoopDiffs at h
    cases hk : (s.tets tet).diff j with
    | none => rw [hk] at h; cases h
    | some k =>
      rw [hk] at h
      dsimp only at h
      cases hv : (s.pKProcs k).variant with
      | reac r => rw [hv] at h; cases h
      | sreac r => rw [hv] at h; cases h
      | diff df =>
        rw [hv] at h
        dsimp only at h
        by_cases hlig : df.pDiffdef.lig = sidx
        · rw [if_pos hlig] at h
          cases hset : Diff.setDiffBndActive s df dir act with
          | error e => rw [hset] at h; cases h
          | ok df2 =>
            rw [hset] at h
            dsimp only at h
            have hrec : db.records E s0 k dir := by
              refine ⟨bdtet, tet, j, hz, ht, hl j (List.mem_cons_self _ _), ?_⟩
              rw [← hF.1]
              exact hk
            exact ih _ s2 hrest (BndFrame_step E s0 s db sidx act k dir df df2 hF hrec hv hlig hset) h
        · rw [if_neg hlig] at h
          exact ih s s2 hrest hF h

/-- The outer loop of `_setDiffBoundaryDiffusionActive` over the recorded tets keeps the
frame. -/
theorem diffBndLoopTets_frame (E : Engine) (s0 : State) (db : DiffBoundary) (sidx : Nat)
    (act : Bool) :
    ∀ (l : List (Nat × Nat)) (s s2 : State),
      (∀ p ∈ l, p ∈ db.getTets.zip db.getTetDirection) →
      BndFrame E s0 db sidx act s → diffBndLoopTets E sidx act l s = .ok s2 →
      BndFrame E s0 db sidx act s2 := by
  intro l
  induction l with
  | nil =>
    intro s s2 _ hF h
    unfold diffBndLoopTets at h
    rw [← Except.ok.inj h]
    exact hF
  | cons p rest ih =>
    intro s s2 hl hF h
    obtain ⟨bdtet, dir⟩ := p
    have hrest : ∀ p2 ∈ rest, p2 ∈ db.getTets.zip db.getTetDirection :=
      fun p2 hp2 => hl p2 (List.mem_cons_of_mem _ hp2)
    unfold diffBndLoopTets at h
    cases ht : E.pTets.getD bdtet none with
    | none => rw [ht] at h; cases h
    | some tet =>
      rw [ht] at h
      dsimp only at h
      by_cases hd : dir < 4
      · rw [if_neg (not_not.mpr hd)] at h
        cases hin : diffBndLoopDiffs tet sidx dir act
            (List.range (s.tets tet).compdef.countDiffs) s with
        | error e => rw [hin] at h; cases h
        | ok s1 =>
          rw [hin] at h
          dsimp only at h
          have hF1 := diffBndLoopDiffs_frame E s0 db sidx act bdtet tet dir
            (hl _ (List.mem_cons_self _ _)) ht _ s s1
            (by intro j hj; rw [← hF.1]; exact List.mem_range.mp hj) hF hin
          exact ih s1 s2 hrest hF1 h
      · rw [if_pos hd] at h
        cases h

/-- A successful `_setDiffBoundaryDiffusionActive` found its boundary and kept the frame. -/
theorem setDiffBoundaryDiffusionActive_frame (E : Engine) (s s2 : State) (dbidx sidx : Nat)
    (act : Bool) (h : _setDiffBoundaryDiffusionActive E s dbidx sidx act = .ok s2) :
    ∃ db, E.pDiffBoundaries[dbidx]? = some db ∧ BndFrame E s db sidx act s2 := by
  unfold _setDiffBoundaryDiffusionActive at h
  by_cases h1 : dbidx < E.pDiffBoundaries.length
  · rw [if_neg (not_not.mpr h1)] at h
    by_cases h2 : sidx < E.countSpecs
    · rw [if_neg (not_not.mpr h2)] at h
      cases hdb : E.pDiffBoundaries[dbidx]? with
      | none => rw [hdb] at h; cases h
      | some db =>
        rw [hdb] at h
        dsimp only at h
        cases hA : E.pComps[db.compA]? with
        | none => rw [hA] at h; cases h
        | some cA =>
          cases hB : E.pComps[db.compB]? with
          | none => rw [hA, hB] at h; cases h
          | some cB =>
            rw [hA, hB] at h
            dsimp only at h
            by_cases hu : cA.pCompdef.specG2L sidx = LIDX_UNDEFINED ∨
                cB.pCompdef.specG2L sidx = LIDX_UNDEFINED
            · rw [if_pos hu] at h
              cases h
            · rw [if_neg hu] at h
              exact ⟨db, rfl, diffBndLoopTets_frame E s db sidx act _ s s2
                (fun _ hp => hp) (BndFrame_same E s db sidx act) h⟩
    · rw [if_pos h2] at h
      cases h
  · rw [if_pos h1] at h
    cases h

/-- Two KProcs with the same five members are the same. -/
theorem KProc_eq_of_fields (a b : KProc) (h1 : a.rExtent = b.rExtent) (h2 : a.pFlags = b.pFlags)
    (h3 : a.pSchedIDX = b.pSchedIDX) (h4 : a.crData = b.crData) (h5 : a.variant = b.variant) :
    a = b := by
  cases a
  cases b
  simp only at h1 h2 h3 h4 h5
  rw [h1, h2, h3, h4, h5]

/-- For sane geometry `setDiffBndActive` returns normally in a boundary direction. -/
theorem Diff_setDiffBndActive_ok (s : State) (d : Diff) (i : Nat) (act : Bool) (hi : i < 4)
    (hdir : d.pDiffBndDirection i = true) (hD : 0 ≤ d.pDcst)
    (ha : ∀ i, i < 4 → 0 ≤ (s.tets d.pTet).area i) (hv : 0 ≤ (s.tets d.pTet).vol) :
    ∃ d2, Diff.setDiffBndActive s d i act = .ok d2 := by
  unfold Diff.setDiffBndActive
  rw [if_neg (not_not.mpr hi), if_neg (not_not.mpr hdir)]
  by_cases h3 : (d.pDiffBndActive i != act) = true
  · rw [if_pos h3]
    exact Diff_setDcst_ok s _ d.pDcst hD ha hv
  · rw [if_neg h3]
    exact ⟨d, rfl⟩

/-- The sanity of the boundary survives every change the frame allows. -/
theorem BndSane_of_frame (E : Engine) (s0 s : State) (db : DiffBoundary) (sidx : Nat)
    (act : Bool) (hS : BndSane E s0 db sidx) (hF : BndFrame E s0 db sidx act s) :
    BndSane E s db sidx := by
  intro bdtet dir hz
  obtain ⟨tet, ht, hd, hj⟩ := hS bdtet dir hz
  refine ⟨tet, ht, hd, ?_⟩
  intro j hjlt
  rw [hF.1] at hjlt ⊢
  obtain ⟨k, df, hk, hv, hp⟩ := hj j hjlt
  obtain ⟨_, _, _, _, g5⟩ := hF.2.2.2.2.2.2.2.2.2.2.2.2 k
  rcases g5 with g5 | ⟨d, d2, h0, h2, _, hc⟩
  · exact ⟨k, df, hk, g5.trans hv, hp⟩
  · rw [hv] at h0
    have hd : df = d := KProcVariant.diff.inj h0
    rw [← hd] at hc
    obtain ⟨_, _, b3, b4, _, _, b7, b8, _, _⟩ := hc
    refine ⟨k, d2, hk, h2, ?_⟩
    rw [b3, b4, b7, b8]
    exact hp

/-- For a sane boundary the inner loop of `_setDiffBoundaryDiffusionActive` returns. -/
theorem diffBndLoopDiffs_ok (E : Engine) (s0 : State) (db : DiffBoundary) (sidx : Nat)
    (act : Bool) (bdtet tet dir : Nat) (hS : BndSane E s0 db sidx)
    (hz : (bdtet, dir) ∈ db.getTets.zip db.getTetDirection)
    (ht : E.pTets.getD bdtet none = some tet) :
    ∀ (l : List Nat) (s : State), (∀ j ∈ l, j < (s0.tets tet).compdef.countDiffs) →
      BndFrame E s0 db sidx act s → ∃ s2, diffBndLoopDiffs tet sidx dir act l s = .ok s2 := by
  intro l
  induction l with
  | nil =>
    intro s _ _
    exact ⟨s, by unfold diffBndLoopDiffs; rfl⟩
  | cons j rest ih =>
    intro s hl hF
    have hrest : ∀ j2 ∈ rest, j2 < (s0.tets tet).compdef.countDiffs :=
      fun j2 hj2 => hl j2 (List.mem_cons_of_mem _ hj2)
    obtain ⟨tet2, ht2, hd, hj⟩ := BndSane_of_frame E s0 s db sidx act hS hF bdtet dir hz
    rw [ht] at ht2
    have htt : tet = tet2 := Option.some.inj ht2
    rw [← htt] at hj
    have hjlt : j < (s.tets tet).compdef.countDiffs := by
      rw [hF.1]
      exact hl j (List.mem_cons_self _ _)
    obtain ⟨k, df, hk, hv, hp⟩ := hj j hjlt
    unfold diffBndLoopDiffs
    rw [hk]
    dsimp only
    rw [hv]
    dsimp only
    by_cases hlig : df.pDiffdef.lig = sidx
    · rw [if_pos hlig]
      obtain ⟨p1, p2, p3, p4⟩ := hp hlig
      obtain ⟨df2, hset⟩ := Diff_setDiffBndActive_ok s df dir act hd p1 p2 p3 p4
      rw [hset]
      dsimp only
      have hrec : db.records E s0 k dir := by
        refine ⟨bdtet, tet, j, hz, ht, hl j (List.mem_cons_self _ _), ?_⟩
        rw [← hF.1]
        exact hk
      exact ih _ hrest (BndFrame_step E s0 s db sidx act k dir df df2 hF hrec hv hlig hset)
    · rw [if_neg hlig]
      exact ih s hrest hF

/-- For a sane boundary the outer loop of `_setDiffBoundaryDiffusionActive` returns. -/
theorem diffBndLoopTets_ok (E : Engine) (s0 : State) (db : DiffBoundary) (sidx : Nat)
    (act : Bool) (hS : BndSane E s0 db sidx) :
    ∀ (l : List (Nat × Nat)) (s : State),
      (∀ p ∈ l, p ∈ db.getTets.zip db.getTetDirection) →
      BndFrame E s0 db sidx act s → ∃ s2, diffBndLoopTets E sidx act l s = .ok s2 := by
  intro l
  induction l with
  | nil =>
    intro s _ _
    exact ⟨s, by unfold diffBndLoopTets; rfl⟩
  | cons p rest ih =>
    intro s hl hF
    obtain ⟨bdtet, dir⟩ := p
    have hrest : ∀ p2 ∈ rest, p2 ∈ db.getTets.zip db.getTetDirection :=
      fun p2 hp2 => hl p2 (List.mem_cons_of_mem _ hp2)
    have hz := hl _ (List.mem_cons_self _ _)
    obtain ⟨tet, ht, hd, _⟩ := hS bdtet dir hz
    have hrange : ∀ j ∈ List.range (s.tets tet).compdef.countDiffs,
        j < (s0.tets tet).compdef.countDiffs := by
      intro j hj
      rw [← hF.1]
      exact List.mem_range.mp hj
    obtain ⟨s1, hin⟩ := diffBndLoopDiffs_ok E s0 db sidx act bdtet tet dir hS hz ht _ s hrange hF
    have hF1 := diffBndLoopDiffs_frame E s0 db sidx act bdtet tet dir hz ht _ s s1 hrange hF hin
    unfold diffBndLoopTets
    rw [ht]
    dsimp only
    rw [if_neg (not_not.mpr hd), hin]
    dsimp only
    exact ih s1 hrest hF1

/-- The checks before the loop of `_setDiffBoundaryDiffusionActive`: with valid indices
and both compartments present, the call is ArgErr in the entry state when the species is
undefined in either compartment, and otherwise it is the loop over the recorded tets. -/
theorem setDiffBoundaryDiffusionActive_checks (E : Engine) (s : State) (dbidx sidx : Nat)
    (act : Bool) (db : DiffBoundary) (cA cB : Comp)
    (h1 : dbidx < E.pDiffBoundaries.length) (h2 : sidx < E.countSpecs)
    (hdb : E.pDiffBoundaries[dbidx]? = some db)
    (hA : E.pComps[db.compA]? = some cA) (hB : E.pComps[db.compB]? = some cB) :
    _setDiffBoundaryDiffusionActive E s dbidx sidx act =
      if cA.pCompdef.specG2L sidx = LIDX_UNDEFINED ∨ cB.pCompdef.specG2L sidx = LIDX_UNDEFINED
      then .error (.argErr, s)
      else diffBndLoopTets E sidx act (db.getTets.zip db.getTetDirection) s := by
  unfold _setDiffBoundaryDiffusionActive
  rw [if_neg (not_not.mpr h1), if_neg (not_not.mpr h2), hdb]
  dsimp only
  rw [hA, hB]

/-- C20. Frame of `_setDiffBoundaryDiffusionActive(db, X, act)`. When the call returns,
it found its boundary `db` and the frame `BndFrame` holds: every count of every tet and
triangle, the selector groups, the total propensity, time and step counter are unchanged,
and a KProc can differ only in its Diff object, only if its ligand is `X` and it is a
diffusion rule of a tet recorded for the boundary, and then only in the boundary-active
flag of a recorded direction (which then holds `act`) and in the `scaledDcst` and CDF
that `setDcst` derives from the flags. In particular a KProc that is no Diff of ligand
`X` is unchanged, a KProc that is no diffusion rule of a recorded tet is unchanged, and
the flag of every direction not recorded for the KProc is unchanged. With valid indices
the call is ArgErr with the state unchanged when `X` is undefined in either compartment
joined by the boundary; and when `X` is defined in both and the boundary is sane the
call returns. -/
theorem setDiffBoundaryDiffusionActive_spec (E : Engine) (s : State) (dbidx sidx : Nat)
    (act : Bool) :
    (∀ s2, _setDiffBoundaryDiffusionActive E s dbidx sidx act = .ok s2 →
      ∃ db, E.pDiffBoundaries[dbidx]? = some db ∧ BndFrame E s db sidx act s2 ∧
        (∀ k, (∀ d, (s.pKProcs k).variant = .diff d → d.pDiffdef.lig ≠ sidx) →
          s2.pKProcs k = s.pKProcs k) ∧
        (∀ k, (∀ i, ¬ db.records E s k i) → s2.pKProcs k = s.pKProcs k) ∧
        (∀ k d d2 i, (s.pKProcs k).variant = .diff d → (s2.pKProcs k).variant = .diff d2 →
          ¬ db.records E s k i → d2.pDiffBndActive i = d.pDiffBndActive i) ∧
        (∀ t sp, (s2.tets t).pools sp = (s.tets t).pools sp) ∧
        (∀ t sp, (s2.tris t).pools sp = (s.tris t).pools sp)) ∧
    (∀ db cA cB, dbidx < E.pDiffBoundaries.length → sidx < E.countSpecs →
      E.pDiffBoundaries[dbidx]? = some db →
      E.pComps[db.compA]? = some cA → E.pComps[db.compB]? = some cB →
      (cA.pCompdef.specG2L sidx = LIDX_UNDEFINED ∨ cB.pCompdef.specG2L sidx = LIDX_UNDEFINED) →
      _setDiffBoundaryDiffusionActive E s dbidx sidx act = .error (.argErr, s)) ∧
    (∀ db cA cB, dbidx < E.pDiffBoundaries.length → sidx < E.countSpecs →
      E.pDiffBoundaries[dbidx]? = some db →
      E.pComps[db.compA]? = some cA → E.pComps[db.compB]? = some cB →
      cA.pCompdef.specG2L sidx ≠ LIDX_UNDEFINED → cB.pCompdef.specG2L sidx ≠ LIDX_UNDEFINED →
      BndSane E s db sidx →
      ∃ s2, _setDiffBoundaryDiffusionActive E s dbidx sidx act = .ok s2) := by
  refine ⟨?_, ?_, ?_⟩
  · intro s2 h
    obtain ⟨db, hdb, hF⟩ := setDiffBoundaryDiffusionActive_frame E s s2 dbidx sidx act h
    have fk := hF.2.2.2.2.2.2.2.2.2.2.2.2
    refine ⟨db, hdb, hF, ?_, ?_, ?_, ?_, ?_⟩
    · intro k hk
      obtain ⟨g1, g2, g3, g4, g5⟩ := fk k
      rcases g5 with g5 | ⟨d, d2, h0, _, hl, _⟩
      · exact KProc_eq_of_fields _ _ g1 g2 g3 g4 g5
      · exact absurd hl (hk d h0)
    · intro k hk
      obtain ⟨g1, g2, g3, g4, g5⟩ := fk k
      rcases g5 with g5 | ⟨d, d2, h0, h2, _, hc⟩
      · exact KProc_eq_of_fields _ _ g1 g2 g3 g4 g5
      · rcases hc.2.2.2.2.2.2.2.2.2 with hsame | ⟨⟨i, hi⟩, _⟩
        · refine KProc_eq_of_fields _ _ g1 g2 g3 g4 ?_
          rw [h2, h0, hsame]
        · exact absurd hi (hk i)
    · intro k d d2 i hd hd2 hrec
      obtain ⟨_, _, _, _, g5⟩ := fk k
      rcases g5 with g5 | ⟨e, e2, h0, h2, _, hc⟩
      · rw [hd, hd2] at g5
        rw [KProcVariant.diff.inj g5]
      · rw [hd] at h0
        rw [hd2] at h2
        rw [KProcVariant.diff.inj h0, KProcVariant.diff.inj h2]
        by_contra hne
        exact hrec (hc.2.2.2.2.2.2.2.2.1 i hne).1
    · intro t sp
      rw [hF.1]
    · intro t sp
      rw [hF.2.1]
  · intro db cA cB h1 h2 hdb hA hB hu
    rw [setDiffBoundaryDiffusionActive_checks E s dbidx sidx act db cA cB h1 h2 hdb hA hB,
      if_pos hu]
  · intro db cA cB h1 h2 hdb hA hB huA huB hS
    rw [setDiffBoundaryDiffusionActive_checks E s dbidx sidx act db cA cB h1 h2 hdb hA hB,
      if_neg (not_or.mpr ⟨huA, huB⟩)]
    exact diffBndLoopTets_ok E s db sidx act hS _ s (fun _ hp => hp)
      (BndFrame_same E s db sidx act)

/-- The two-compartment system has a sane boundary for species A. -/
theorem demo_bndSane : BndSane Demo.engineB Demo.bndState Demo.boundary0 0 := by
  intro bdtet dir hz
  have hz2 : (bdtet, dir) = (0, 0) ∨ (bdtet, dir) = (1, 0) := by
    simpa [Demo.boundary0] using hz
  rcases hz2 with hz2 | hz2
  · obtain ⟨rfl, rfl⟩ := Prod.mk.inj hz2
    refine ⟨0, rfl, by decide, ?_⟩
    intro j hj
    have hj0 : j = 0 := by
      simp [Demo.bndState, Demo.cdefD, Demo.cdef] at hj
      exact hj
    subst hj0
    refine ⟨0, Demo.diffB 0, rfl, rfl, ?_⟩
    intro _
    refine ⟨rfl, by norm_num [Demo.diffB], ?_, ?_⟩
    · intro i _
      norm_num [Demo.bndState, Demo.diffB, Demo.tet0]
    · norm_num [Demo.bndState, Demo.diffB, Demo.tet0]
  · obtain ⟨rfl, rfl⟩ := Prod.mk.inj hz2
    refine ⟨1, rfl, by decide, ?_⟩
    intro j hj
    have hj0 : j = 0 := by
      simp [Demo.bndState, Demo.cdefD, Demo.cdef] at hj
      exact hj
    subst hj0
    refine ⟨1, Demo.diffB 1, rfl, rfl, ?_⟩
    intro _
    refine ⟨rfl, by norm_num [Demo.diffB], ?_, ?_⟩
    · intro i _
      norm_num [Demo.bndState, Demo.diffB, Demo.tet1]
    · norm_num [Demo.bndState, Demo.diffB, Demo.tet1]

/-- Witness of C20 on the two-compartment system: opening the boundary for species A
returns and leaves the two A and the one B of tet 0 where they are, and the same call for
the third species, defined in neither compartment, is ArgErr with the state unchanged. -/
theorem setDiffBoundaryDiffusionActive_spec_witness :
    (∃ s2, _setDiffBoundaryDiffusionActive Demo.engineB Demo.bndState 0 0 true = .ok s2 ∧
      BndFrame Demo.engineB Demo.bndState Demo.boundary0 0 true s2 ∧
      (s2.tets 0).pools 0 = 2 ∧ (s2.tets 0).pools 1 = 1) ∧
    _setDiffBoundaryDiffusionActive Demo.engineB Demo.bndState 0 2 true
      = .error (.argErr, Demo.bndState) := by
  refine ⟨?_, ?_⟩
  · have hspec := setDiffBoundaryDiffusionActive_spec Demo.engineB Demo.bndState 0 0 true
    obtain ⟨s2, hs2⟩ := hspec.2.2 Demo.boundary0 _ _ (by decide) (by decide) rfl rfl rfl
      (by decide) (by decide) demo_bndSane
    obtain ⟨db, hdb, hF, _, _, _, hp, _⟩ := hspec.1 s2 hs2
    have hdb2 : Demo.boundary0 = db := Option.some.inj hdb
    rw [← hdb2] at hF
    refine ⟨s2, hs2, hF, ?_, ?_⟩
    · rw [hp]; rfl
    · rw [hp]; rfl
  · exact (setDiffBoundaryDiffusionActive_spec Demo.engineB Demo.bndState 0 2 true).2.1
      Demo.boundary0 _ _ (by decide) (by decide) rfl rfl rfl (Or.inl (by decide))

/-! ## The invariant of the composition-rejection groups (claim C12) -/

/-- Reading back the group just written. -/
theorem getGroup_setGroup_same (s : State) (p : Int) (g : CRGroup) :
    _getGroup (s.setGroup p g) p = g := by
  unfold _getGroup State.setGroup
  by_cases hp : p ≥ 0
  · rw [if_pos hp, if_pos hp]
    exact Function.update_same _ _ _
  · rw [if_neg hp, if_neg hp]
    exact Function.update_same _ _ _

/-- Writing the group of power `p` leaves the group of every other power alone. -/
theorem getGroup_setGroup_ne (s : State) (p q : Int) (g : CRGroup) (h : q ≠ p) :
    _getGroup (s.setGroup p g) q = _getGroup s q := by
  unfold _getGroup State.setGroup
  by_cases hp : p ≥ 0
  · rw [if_pos hp]
    by_cases hq : q ≥ 0
    · rw [if_pos hq, if_pos hq]
      exact Function.update_noteq (by omega) _ _
    · rw [if_neg hq, if_neg hq]
  · rw [if_neg hp]
    by_cases hq : q ≥ 0
    · rw [if_pos hq, if_pos hq]
    · rw [if_neg hq, if_neg hq]
      exact Function.update_noteq (by omega) _ _

/-- Writing a group changes neither the KProcs nor the sizes of the vectors, and never
negative group 0. -/
theorem setGroup_fields (s : State) (p : Int) (g : CRGroup) :
    (s.setGroup p g).pKProcs = s.pKProcs ∧ (s.setGroup p g).nEntries = s.nEntries ∧
    (s.setGroup p g).pGroupsSize = s.pGroupsSize ∧
    (s.setGroup p g).nGroupsSize = s.nGroupsSize ∧
    (s.setGroup p g).nGroups 0 = s.nGroups 0 := by
  unfold State.setGroup
  by_cases hp : p ≥ 0
  · rw [if_pos hp]
    exact ⟨rfl, rfl, rfl, rfl, rfl⟩
  · rw [if_neg hp]
    exact ⟨rfl, rfl, rfl, rfl, Function.update_noteq (by omega) _ _⟩

/-- Writing a group does not change which groups exist. -/
theorem groupExists_setGroup (s : State) (p q : Int) (g : CRGroup) :
    groupExists (s.setGroup p g) q ↔ groupExists s q := by
  obtain ⟨_, _, h3, h4, _⟩ := setGroup_fields s p g
  unfold groupExists
  rw [h3, h4]

/-- Writing a selector record changes no group. -/
theorem setCRData_fields (s : State) (k : Nat) (d : CRKProcData) :
    (s.setCRData k d).nEntries = s.nEntries ∧
    (s.setCRData k d).pGroups = s.pGroups ∧ (s.setCRData k d).pGroupsSize = s.pGroupsSize ∧
    (s.setCRData k d).nGroups = s.nGroups ∧ (s.setCRData k d).nGroupsSize = s.nGroupsSize ∧
    (∀ q, _getGroup (s.setCRData k d) q = _getGroup s q) ∧
    (∀ q, groupExists (s.setCRData k d) q ↔ groupExists s q) :=
  ⟨rfl, rfl, rfl, rfl, rfl, fun _ => rfl, fun _ => Iff.rfl⟩

/-- The record written is read back. -/
theorem setCRData_same (s : State) (k : Nat) (d : CRKProcData) :
    ((s.setCRData k d).pKProcs k).crData = d := by
  unfold State.setCRData State.setKProc
  simp only [Function.update_same]

/-- The record of every other KProc is untouched. -/
theorem setCRData_ne (s : State) (k m : Nat) (d : CRKProcData) (h : m ≠ k) :
    (s.setCRData k d).pKProcs m = s.pKProcs m := by
  unfold State.setCRData State.setKProc
  simp only [Function.update_noteq h]

/-- A rate changed at a KProc that is no member leaves the member sum alone. -/
theorem memberSum_update_not_mem (rate : Nat → ℚ) (g : CRGroup) (kp : Nat) (v : ℚ)
    (h : ∀ j, j < g.size → g.indices j ≠ kp) :
    memberSum (Function.update rate kp v) g = memberSum rate g := by
  unfold memberSum
  apply Finset.sum_congr rfl
  intro j hj
  rw [Function.update_noteq (h j (Finset.mem_range.mp hj))]

/-- A rate changed at the KProc held in exactly one slot changes the member sum by the
difference. -/
theorem memberSum_update_once (rate : Nat → ℚ) (g : CRGroup) (kp p : Nat) (v : ℚ)
    (hp : p < g.size) (hkp : g.indices p = kp)
    (hinj : ∀ j, j < g.size → g.indices j = kp → j = p) :
    memberSum (Function.update rate kp v) g = memberSum rate g + (v - rate kp) := by
  unfold memberSum
  have hmem : p ∈ Finset.range g.size := Finset.mem_range.mpr hp
  rw [← Finset.add_sum_erase _ _ hmem, ← Finset.add_sum_erase (Finset.range g.size) _ hmem]
  have hrest : ∑ j in (Finset.range g.size).erase p, Function.update rate kp v (g.indices j)
      = ∑ j in (Finset.range g.size).erase p, rate (g.indices j) := by
    apply Finset.sum_congr rfl
    intro j hj
    have hj2 := Finset.mem_erase.mp hj
    have hne : g.indices j ≠ kp := fun he => hj2.1 (hinj j (Finset.mem_range.mp hj2.2) he)
    rw [Function.update_noteq hne]
  rw [hrest, hkp, Function.update_same]
  ring

/-- Moving the last entry into slot `p` and dropping the last slot removes the rate of the
entry that was in slot `p` from the member sum. -/
theorem sum_swap_remove (f : Nat → ℚ) (idx : Nat → Nat) (n p : Nat) (hp : p < n + 1) :
    ∑ j in Finset.range n, f (Function.update idx p (idx n) j)
      = ∑ j in Finset.range (n + 1), f (idx j) - f (idx p) := by
  rw [Finset.sum_range_succ]
  by_cases hpn : p = n
  · have : ∑ j in Finset.range n, f (Function.update idx p (idx n) j)
        = ∑ j in Finset.range n, f (idx j) := by
      apply Finset.sum_congr rfl
      intro j hj
      have : j ≠ p := by
        have := Finset.mem_range.mp hj
        omega
      rw [Function.update_noteq this]
    rw [this, hpn]
    ring
  · have hplt : p < n := by omega
    have hmem : p ∈ Finset.range n := Finset.mem_range.mpr hplt
    rw [← Finset.add_sum_erase _ _ hmem, ← Finset.add_sum_erase (Finset.range n) _ hmem]
    have hrest : ∑ j in (Finset.range n).erase p, f (Function.update idx p (idx n) j)
        = ∑ j in (Finset.range n).erase p, f (idx j) := by
      apply Finset.sum_congr rfl
      intro j hj
      rw [Function.update_noteq (Finset.mem_erase.mp hj).1]
    rw [hrest, Function.update_same]
    ring

/-- A group whose slots hold distinct KProcs of the schedule has at most `nEntries`
members. -/
theorem size_le_of_injective (idx : Nat → Nat) (pos : Nat → Nat) (n N : Nat)
    (h : ∀ j, j < n → idx j < N ∧ pos (idx j) = j) : n ≤ N := by
  have hcard := Finset.card_le_card_of_injOn idx
    (fun j hj => Finset.mem_range.mpr (h j (Finset.mem_range.mp hj)).1)
    (fun a ha b hb hab => by
      have h1 := (h a (Finset.mem_range.mp ha)).2
      have h2 := (h b (Finset.mem_range.mp hb)).2
      rw [← h1, ← h2, hab])
  simpa using hcard


/-- Slots of a group hold distinct KProcs: the record of each member names its slot. -/
theorem InvAt_slot_unique (rate : Nat → ℚ) (s : State) (kp : Nat) (st : Option Int)
    (h : InvAt rate s kp st) (pow : Int) (hex : groupExists s pow) (i j : Nat)
    (hi : i < (_getGroup s pow).size) (hj : j < (_getGroup s pow).size)
    (hij : (_getGroup s pow).indices i = (_getGroup s pow).indices j) : i = j := by
  have h1 := ((h.groups pow hex).2 i hi).2.2.2
  have h2 := ((h.groups pow hex).2 j hj).2.2.2
  rw [← h1, ← h2, hij]

/-- While `kp` sits in the group of power `p`, no other group holds it. -/
theorem InvAt_not_member (rate : Nat → ℚ) (s : State) (kp : Nat) (st : Option Int)
    (h : InvAt rate s kp st) (q : Int) (hex : groupExists s q) (hq : st ≠ some q) :
    ∀ j, j < (_getGroup s q).size → (_getGroup s q).indices j ≠ kp :=
  fun j hj he => hq (((h.groups q hex).2 j hj).2.2.1 he)

/-- Rewriting the fields `recorded`, `pow` and `rate` of the record of `kp` keeps the
invariant in flux. -/
theorem InvAt_setCRData_self (rate : Nat → ℚ) (s : State) (kp : Nat) (st : Option Int)
    (d : CRKProcData) (h : InvAt rate s kp st) (hpos : d.pos = (s.pKProcs kp).crData.pos) :
    InvAt rate (s.setCRData kp d) kp st := by
  have hk : ∀ m, m ≠ kp → (s.setCRData kp d).pKProcs m = s.pKProcs m :=
    fun m hm => setCRData_ne s kp m d hm
  have hself : ((s.setCRData kp d).pKProcs kp).crData.pos = (s.pKProcs kp).crData.pos := by
    rw [setCRData_same, hpos]
  have hg : ∀ q, _getGroup (s.setCRData kp d) q = _getGroup s q := fun _ => rfl
  refine ⟨h.entries, h.kpValid, ?_, h.nZero, ?_, ?_⟩
  · intro pow hex
    have hex0 : groupExists s pow := hex
    obtain ⟨hs, hm⟩ := h.groups pow hex0
    rw [hg]
    refine ⟨hs, ?_⟩
    intro j hj
    obtain ⟨m1, m2, m3, m4⟩ := hm j hj
    refine ⟨m1, ?_, m3, ?_⟩
    · intro hne
      rw [hk _ hne]
      exact m2 hne
    · by_cases he : (_getGroup s pow).indices j = kp
      · rw [he, hself, ← he]
        exact m4
      · rw [hk _ he]
        exact m4
  · intro m hm hne hrec
    rw [hk m hne] at hrec ⊢
    exact h.others m hm hne hrec
  · intro p hp
    obtain ⟨a, b, c⟩ := h.self p hp
    rw [hself, hg]
    exact ⟨a, b, c⟩

/-- While `kp` is in no group its rate does not enter any group sum. -/
theorem InvAt_rate_none (rate : Nat → ℚ) (s : State) (kp : Nat) (v : ℚ)
    (h : InvAt rate s kp none) : InvAt (Function.update rate kp v) s kp none := by
  refine ⟨h.entries, h.kpValid, ?_, h.nZero, h.others, h.self⟩
  intro pow hex
  obtain ⟨hs, hm⟩ := h.groups pow hex
  refine ⟨?_, hm⟩
  rw [memberSum_update_not_mem rate _ kp v
    (InvAt_not_member rate s kp none h pow hex (by simp)), hs]

/-- The branch "same power": adding `new - old` to the sum of the group that holds `kp`
accounts for the new rate of `kp`. -/
theorem InvAt_adjust (rate : Nat → ℚ) (s : State) (kp : Nat) (p : Int) (v : ℚ)
    (h : InvAt rate s kp (some p)) :
    InvAt (Function.update rate kp v)
      (s.setGroup p { _getGroup s p with sum := (_getGroup s p).sum + (v - rate kp) })
      kp (some p) := by
  obtain ⟨hexp, hposlt, hidx⟩ := h.self p rfl
  obtain ⟨f1, f2, f3, f4, f5⟩ := setGroup_fields s p
    { _getGroup s p with sum := (_getGroup s p).sum + (v - rate kp) }
  have hex : ∀ q, groupExists (s.setGroup p
      { _getGroup s p with sum := (_getGroup s p).sum + (v - rate kp) }) q ↔ groupExists s q :=
    fun q => groupExists_setGroup s p q _
  refine ⟨by rw [f2]; exact h.entries, by rw [f2]; exact h.kpValid, ?_, ?_, ?_, ?_⟩
  · intro q hq
    have hq0 := (hex q).mp hq
    obtain ⟨hs, hm⟩ := h.groups q hq0
    by_cases hqp : q = p
    · subst hqp
      rw [getGroup_setGroup_same, f1, f2]
      refine ⟨?_, hm⟩
      have := memberSum_update_once rate (_getGroup s q) kp (s.pKProcs kp).crData.pos v
        hposlt hidx (fun j hj he => by
          have := (hm j hj).2.2.2
          rw [he] at this
          exact this.symm)
      unfold memberSum at this ⊢
      dsimp only
      rw [this, hs]
      rfl
    · rw [getGroup_setGroup_ne s p q _ hqp, f1, f2]
      refine ⟨?_, hm⟩
      rw [memberSum_update_not_mem rate _ kp v
        (InvAt_not_member rate s kp (some p) h q hq0
          (fun he => hqp (Option.some.inj he).symm)), hs]
  · rw [f4, f5]
    exact h.nZero
  · intro m hm hne hrec
    rw [f1] at hrec ⊢
    rw [f2] at hm
    obtain ⟨a, b, c⟩ := h.others m hm hne hrec
    refine ⟨(hex _).mpr a, ?_⟩
    by_cases hqp : (s.pKProcs m).crData.pow = p
    · rw [hqp, getGroup_setGroup_same]
      rw [hqp] at b c
      exact ⟨b, c⟩
    · rw [getGroup_setGroup_ne s p _ _ hqp]
      exact ⟨b, c⟩
  · intro p2 hp2
    have hpp : p = p2 := Option.some.inj hp2
    subst hpp
    rw [getGroup_setGroup_same, f1]
    exact ⟨(hex _).mpr hexp, hposlt, hidx⟩


/-- Removal of the only member: the group of power `p` becomes empty with sum 0. -/
theorem InvAt_remove_single (rate : Nat → ℚ) (s s2 : State) (kp : Nat) (p : Int)
    (h : InvAt rate s kp (some p)) (hsize : (_getGroup s p).size - 1 = 0)
    (hK : s2.pKProcs = s.pKProcs) (hN : s2.nEntries = s.nEntries)
    (hNS : s2.nGroupsSize = s.nGroupsSize) (hN0 : s2.nGroups 0 = s.nGroups 0)
    (hE : ∀ q, groupExists s2 q ↔ groupExists s q)
    (hGp : _getGroup s2 p = { _getGroup s p with size := (_getGroup s p).size - 1, sum := 0 })
    (hGq : ∀ q, q ≠ p → _getGroup s2 q = _getGroup s q) :
    InvAt rate s2 kp none := by
  obtain ⟨hexp, hposlt, hidx⟩ := h.self p rfl
  refine ⟨by rw [hN]; exact h.entries, by rw [hN]; exact h.kpValid, ?_, ?_, ?_, ?_⟩
  · intro q hq
    have hq0 := (hE q).mp hq
    obtain ⟨hs, hm⟩ := h.groups q hq0
    by_cases hqp : q = p
    · subst hqp
      rw [hGp]
      refine ⟨?_, ?_⟩
      · unfold memberSum
        dsimp only
        rw [hsize, Finset.range_zero, Finset.sum_empty]
      · intro j hj
        dsimp only at hj
        omega
    · rw [hGq q hqp, hK, hN]
      have hnot := InvAt_not_member rate s kp (some p) h q hq0
        (fun he => hqp (Option.some.inj he).symm)
      refine ⟨hs, ?_⟩
      intro j hj
      obtain ⟨m1, m2, _, m4⟩ := hm j hj
      exact ⟨m1, m2, fun he => absurd he (hnot j hj), m4⟩
  · rw [hNS, hN0]
    exact h.nZero
  · intro m hm hne hrec
    rw [hK] at hrec ⊢
    rw [hN] at hm
    obtain ⟨a, b, c⟩ := h.others m hm hne hrec
    refine ⟨(hE _).mpr a, ?_⟩
    by_cases hqp : (s.pKProcs m).crData.pow = p
    · exfalso
      rw [hqp] at b c
      have hb0 : (s.pKProcs m).crData.pos = 0 := by omega
      have hk0 : (s.pKProcs kp).crData.pos = 0 := by omega
      rw [hb0] at c
      rw [hk0] at hidx
      exact hne (c.symm.trans hidx)
    · rw [hGq _ hqp]
      exact ⟨b, c⟩
  · intro p2 hp2
    cases hp2

/-- Removal by moving the last member into the slot of `kp`: the sum loses the rate of
`kp`, the moved member learns its new slot, and `kp` is in no group afterwards. -/
theorem InvAt_remove_swap (rate : Nat → ℚ) (s s2 : State) (kp : Nat) (p : Int)
    (h : InvAt rate s kp (some p)) (hN : s2.nEntries = s.nEntries)
    (hNS : s2.nGroupsSize = s.nGroupsSize) (hN0 : s2.nGroups 0 = s.nGroups 0)
    (hE : ∀ q, groupExists s2 q ↔ groupExists s q)
    (hGp : _getGroup s2 p = { _getGroup s p with
      size := (_getGroup s p).size - 1
      sum := (_getGroup s p).sum - rate kp
      indices := Function.update (_getGroup s p).indices (s.pKProcs kp).crData.pos
        ((_getGroup s p).indices ((_getGroup s p).size - 1)) })
    (hGq : ∀ q, q ≠ p → _getGroup s2 q = _getGroup s q)
    (hKl : (s2.pKProcs ((_getGroup s p).indices ((_getGroup s p).size - 1))).crData
      = { (s.pKProcs ((_getGroup s p).indices ((_getGroup s p).size - 1))).crData with
          pos := (s.pKProcs kp).crData.pos })
    (hKm : ∀ m, m ≠ (_getGroup s p).indices ((_getGroup s p).size - 1) →
      s2.pKProcs m = s.pKProcs m) :
    InvAt rate s2 kp none := by
  obtain ⟨hexp, hposlt, hidx⟩ := h.self p rfl
  obtain ⟨hsp, hmp⟩ := h.groups p hexp
  have huniq := InvAt_slot_unique rate s kp (some p) h p hexp
  generalize hg : _getGroup s p = g at *
  generalize hpos : (s.pKProcs kp).crData.pos = pos at *
  have hn1 : g.size - 1 < g.size := by omega
  have hn2 : g.size - 1 + 1 = g.size := by omega
  generalize hlast : g.indices (g.size - 1) = last at *
  obtain ⟨l1, l2, _, l4⟩ := hmp (g.size - 1) hn1
  rw [hlast] at l1 l2 l4
  -- the last member is `kp` exactly when `kp` is in the last slot
  have hlk : last = kp → pos = g.size - 1 := by
    intro he
    have := huniq pos (g.size - 1) hposlt hn1 (by rw [hidx, hlast, he])
    exact this
  refine ⟨by rw [hN]; exact h.entries, by rw [hN]; exact h.kpValid, ?_, ?_, ?_, ?_⟩
  · intro q hq
    have hq0 := (hE q).mp hq
    by_cases hqp : q = p
    · subst hqp
      rw [hGp, hN]
      refine ⟨?_, ?_⟩
      · unfold memberSum
        dsimp only
        have := sum_swap_remove rate g.indices (g.size - 1) pos (by omega)
        rw [hlast, hn2, hidx] at this
        rw [this, hsp]
        rfl
      · intro j hj
        dsimp only at hj ⊢
        by_cases hjp : j = pos
        · rw [hjp, Function.update_same]
          have hne : last ≠ kp := fun he => by
            have := hlk he
            omega
          obtain ⟨r1, r2⟩ := l2 hne
          rw [hKl]
          exact ⟨l1, fun _ => ⟨r1, r2⟩, fun he => absurd he hne, rfl⟩
        · rw [Function.update_noteq hjp]
          have hjlt : j < g.size := by omega
          obtain ⟨m1, m2, _, m4⟩ := hmp j hjlt
          have hne : g.indices j ≠ kp := fun he => by
            rw [he, hpos] at m4
            exact hjp m4.symm
          have hnl : g.indices j ≠ last := fun he => by
            have := huniq j (g.size - 1) hjlt hn1 (by rw [he, hlast])
            omega
          rw [hKm _ hnl]
          exact ⟨m1, fun _ => m2 hne, fun he => absurd he hne, m4⟩
    · rw [hGq q hqp, hN]
      obtain ⟨hs, hm⟩ := h.groups q hq0
      have hnot := InvAt_not_member rate s kp (some p) h q hq0
        (fun he => hqp (Option.some.inj he).symm)
      refine ⟨hs, ?_⟩
      intro j hj
      obtain ⟨m1, m2, _, m4⟩ := hm j hj
      have hnl : (_getGroup s q).indices j ≠ last := fun he => by
        by_cases hk : last = kp
        · exact hnot j hj (he.trans hk)
        · have := (m2 (hnot j hj)).2
          rw [he, (l2 hk).2] at this
          exact hqp this.symm
      rw [hKm _ hnl]
      exact ⟨m1, m2, fun he => absurd he (hnot j hj), m4⟩
  · rw [hNS, hN0]
    exact h.nZero
  · intro m hm hne hrec
    rw [hN] at hm
    by_cases hml : m = last
    · have hlne : last ≠ kp := fun he => hne (hml.trans he)
      obtain ⟨_, r2⟩ := l2 hlne
      rw [hml, hKl]
      dsimp only
      rw [r2, hGp]
      dsimp only
      refine ⟨(hE _).mpr hexp, ?_, Function.update_same _ _ _⟩
      have : pos ≠ g.size - 1 := fun he => by
        rw [he, hlast] at hidx
        exact hlne hidx
      omega
    · rw [hKm m hml] at hrec ⊢
      obtain ⟨a, b, c⟩ := h.others m hm hne hrec
      refine ⟨(hE _).mpr a, ?_⟩
      by_cases hqp : (s.pKProcs m).crData.pow = p
      · rw [hqp] at b c ⊢
        rw [hg] at b c
        rw [hGp]
        dsimp only
        have h1 : (s.pKProcs m).crData.pos ≠ g.size - 1 := fun he => by
          rw [he, hlast] at c
          exact hml c.symm
        have h2 : (s.pKProcs m).crData.pos ≠ pos := fun he => by
          rw [he, hidx] at c
          exact hne c.symm
        refine ⟨by omega, ?_⟩
        rw [Function.update_noteq h2]
        exact c
      · rw [hGq _ hqp]
        exact ⟨b, c⟩
  · intro p2 hp2
    cases hp2


/-- The block "remove old" of `_updateElement` takes `kp` out of its group and keeps the
invariant in flux; the decrement of the size does not wrap. -/
theorem InvAt_removeOld (rate : Nat → ℚ) (s : State) (kp : Nat) (p : Int)
    (h : InvAt rate s kp (some p)) : InvAt rate (removeOld s kp p (rate kp)) kp none := by
  obtain ⟨hexp, hposlt, _⟩ := h.self p rfl
  have hle : (_getGroup s p).size ≤ s.nEntries :=
    size_le_of_injective (_getGroup s p).indices (fun m => (s.pKProcs m).crData.pos) _ _
      (fun j hj => ⟨((h.groups p hexp).2 j hj).1, ((h.groups p hexp).2 j hj).2.2.2⟩)
  have hent := h.entries
  have hsz : ((_getGroup s p).size + 4294967295) % 4294967296 = (_getGroup s p).size - 1 := by
    omega
  unfold removeOld
  dsimp only
  rw [hsz]
  by_cases h0 : (_getGroup s p).size - 1 = 0
  · rw [if_pos h0]
    obtain ⟨f1, f2, _, f4, f5⟩ := setGroup_fields s p
      { _getGroup s p with size := (_getGroup s p).size - 1, sum := 0 }
    exact InvAt_remove_single rate s _ kp p h h0 f1 f2 f4 f5
      (fun q => groupExists_setGroup s p q _) (getGroup_setGroup_same s p _)
      (fun q hq => getGroup_setGroup_ne s p q _ hq)
  · rw [if_neg h0]
    obtain ⟨f1, f2, _, f4, f5⟩ := setGroup_fields s p
      { _getGroup s p with
        size := (_getGroup s p).size - 1
        sum := (_getGroup s p).sum - rate kp
        indices := Function.update (_getGroup s p).indices (s.pKProcs kp).crData.pos
          ((_getGroup s p).indices ((_getGroup s p).size - 1)) }
    refine InvAt_remove_swap rate s _ kp p h ?_ ?_ ?_ ?_ ?_ ?_ ?_ ?_
    · exact f2
    · exact f4
    · exact f5
    · exact fun q => groupExists_setGroup s p q _
    · exact getGroup_setGroup_same s p _
    · exact fun q hq => getGroup_setGroup_ne s p q _ hq
    · rw [setCRData_same, f1]
    · intro m hm
      rw [setCRData_ne _ _ m _ hm, f1]


/-- Every record keeps its `rate`, `pow` and `recorded` through "remove old". -/
theorem removeOld_records (s : State) (kp : Nat) (p : Int) (r : ℚ) (m : Nat) :
    ((removeOld s kp p r).pKProcs m).crData.rate = (s.pKProcs m).crData.rate ∧
    ((removeOld s kp p r).pKProcs m).crData.pow = (s.pKProcs m).crData.pow ∧
    ((removeOld s kp p r).pKProcs m).crData.recorded = (s.pKProcs m).crData.recorded := by
  generalize hs2 : removeOld s kp p r = s2
  unfold removeOld at hs2
  dsimp only at hs2
  by_cases h0 : ((_getGroup s p).size + 4294967295) % 4294967296 = 0
  · rw [if_pos h0] at hs2
    rw [← hs2, (setGroup_fields s p _).1]
    exact ⟨rfl, rfl, rfl⟩
  · rw [if_neg h0] at hs2
    rw [← hs2]
    by_cases hm : m = (_getGroup s p).indices (((_getGroup s p).size + 4294967295) % 4294967296)
    · rw [← hm, setCRData_same, (setGroup_fields s p _).1]
      exact ⟨rfl, rfl, rfl⟩
    · rw [setCRData_ne _ _ m _ hm, (setGroup_fields s p _).1]
      exact ⟨rfl, rfl, rfl⟩


/-- Adding `kp`, which is in no group, at the end of the group of power `np`. -/
theorem InvAt_add_core (rate : Nat → ℚ) (s s2 : State) (kp : Nat) (np : Int) (v : ℚ)
    (h : InvAt rate s kp none) (hex : groupExists s np)
    (hN : s2.nEntries = s.nEntries)
    (hNS : s2.nGroupsSize = s.nGroupsSize) (hN0 : s2.nGroups 0 = s.nGroups 0)
    (hE : ∀ q, groupExists s2 q ↔ groupExists s q)
    (hGsz : (_getGroup s2 np).size = (_getGroup s np).size + 1)
    (hGsum : (_getGroup s2 np).sum = (_getGroup s np).sum + v)
    (hGidx : (_getGroup s2 np).indices
      = Function.update (_getGroup s np).indices (_getGroup s np).size kp)
    (hGq : ∀ q, q ≠ np → _getGroup s2 q = _getGroup s q)
    (hKk : (s2.pKProcs kp).crData.pos = (_getGroup s np).size)
    (hKm : ∀ m, m ≠ kp → s2.pKProcs m = s.pKProcs m) :
    InvAt (Function.update rate kp v) s2 kp (some np) := by
  have hnot : ∀ q, groupExists s q → ∀ j, j < (_getGroup s q).size →
      (_getGroup s q).indices j ≠ kp :=
    fun q hq => InvAt_not_member rate s kp none h q hq (by simp)
  refine ⟨by rw [hN]; exact h.entries, by rw [hN]; exact h.kpValid, ?_, ?_, ?_, ?_⟩
  · intro q hq
    have hq0 := (hE q).mp hq
    obtain ⟨hs, hm⟩ := h.groups q hq0
    by_cases hqp : q = np
    · subst hqp
      refine ⟨?_, ?_⟩
      · unfold memberSum
        rw [hGsz, Finset.sum_range_succ, hGidx, Function.update_same, Function.update_same,
          hGsum, hs]
        unfold memberSum
        congr 1
        apply Finset.sum_congr rfl
        intro j hj
        have hjlt := Finset.mem_range.mp hj
        have hjne : j ≠ (_getGroup s q).size := by omega
        rw [Function.update_noteq hjne, Function.update_noteq (hnot q hq0 j hjlt)]
      · intro j hj
        rw [hGsz] at hj
        rw [hGidx, hN]
        by_cases hjs : j = (_getGroup s q).size
        · rw [hjs, Function.update_same, hKk]
          exact ⟨h.kpValid, fun hne => absurd rfl hne, fun _ => rfl, rfl⟩
        · have hjlt : j < (_getGroup s q).size := by omega
          rw [Function.update_noteq hjs]
          obtain ⟨m1, m2, _, m4⟩ := hm j hjlt
          have hne := hnot q hq0 j hjlt
          rw [hKm _ hne]
          exact ⟨m1, m2, fun he => absurd he hne, m4⟩
    · rw [hGq q hqp, hN]
      refine ⟨?_, ?_⟩
      · rw [memberSum_update_not_mem rate _ kp v (hnot q hq0), hs]
      · intro j hj
        obtain ⟨m1, m2, _, m4⟩ := hm j hj
        have hne := hnot q hq0 j hj
        rw [hKm _ hne]
        exact ⟨m1, m2, fun he => absurd he hne, m4⟩
  · rw [hNS, hN0]
    exact h.nZero
  · intro m hm hne hrec
    rw [hN] at hm
    rw [hKm m hne] at hrec ⊢
    obtain ⟨a, b, c⟩ := h.others m hm hne hrec
    refine ⟨(hE _).mpr a, ?_⟩
    by_cases hqp : (s.pKProcs m).crData.pow = np
    · rw [hqp] at b c ⊢
      rw [hGsz, hGidx]
      have hbne : (s.pKProcs m).crData.pos ≠ (_getGroup s np).size := by omega
      refine ⟨by omega, ?_⟩
      rw [Function.update_noteq hbne]
      exact c
    · rw [hGq _ hqp]
      exact ⟨b, c⟩
  · intro p2 hp2
    have hpp : np = p2 := Option.some.inj hp2
    subst hpp
    rw [hKk, hGsz, hGidx]
    exact ⟨(hE _).mpr hex, by omega, Function.update_same _ _ _⟩


/-- Pushing fresh empty groups keeps the invariant in flux: every old group is still
there unchanged and every group that is new is empty with sum 0. -/
theorem InvAt_extend (rate : Nat → ℚ) (s s2 : State) (kp : Nat) (st : Option Int)
    (h : InvAt rate s kp st) (hK : s2.pKProcs = s.pKProcs) (hN : s2.nEntries = s.nEntries)
    (hG : ∀ q, groupExists s2 q → (groupExists s q ∧ _getGroup s2 q = _getGroup s q) ∨
      ((_getGroup s2 q).size = 0 ∧ (_getGroup s2 q).sum = 0))
    (hE : ∀ q, groupExists s q → groupExists s2 q ∧ _getGroup s2 q = _getGroup s q)
    (hZ : 0 < s2.nGroupsSize → (s2.nGroups 0).size = 0 ∧ (s2.nGroups 0).sum = 0) :
    InvAt rate s2 kp st := by
  refine ⟨by rw [hN]; exact h.entries, by rw [hN]; exact h.kpValid, ?_, hZ, ?_, ?_⟩
  · intro q hq
    rcases hG q hq with ⟨hq0, hg⟩ | ⟨hsz, hsum⟩
    · rw [hg, hK, hN]
      exact h.groups q hq0
    · refine ⟨?_, ?_⟩
      · unfold memberSum
        rw [hsum, hsz, Finset.range_zero, Finset.sum_empty]
      · intro j hj
        omega
  · intro m hm hne hrec
    rw [hK] at hrec ⊢
    rw [hN] at hm
    obtain ⟨a, b, c⟩ := h.others m hm hne hrec
    obtain ⟨a2, hg⟩ := hE _ a
    rw [hg]
    exact ⟨a2, b, c⟩
  · intro p hp
    obtain ⟨a, b, c⟩ := h.self p hp
    obtain ⟨a2, hg⟩ := hE _ a
    rw [hg, hK]
    exact ⟨a2, b, c⟩



/-- What `_extendPGroups` pushes: the old positive groups stay, the new ones are empty
with sum 0, and nothing else changes. -/
theorem extendPLoop_fields : ∀ (n : Nat) (s : State),
    (extendPLoop n s).pGroupsSize = s.pGroupsSize + n ∧
    (extendPLoop n s).pKProcs = s.pKProcs ∧ (extendPLoop n s).nEntries = s.nEntries ∧
    (extendPLoop n s).nGroups = s.nGroups ∧ (extendPLoop n s).nGroupsSize = s.nGroupsSize ∧
    (∀ i, i < s.pGroupsSize → (extendPLoop n s).pGroups i = s.pGroups i) ∧
    (∀ i, s.pGroupsSize ≤ i → i < s.pGroupsSize + n →
      ((extendPLoop n s).pGroups i).size = 0 ∧ ((extendPLoop n s).pGroups i).sum = 0) := by
  intro n
  induction n with
  | zero =>
    intro s
    exact ⟨rfl, rfl, rfl, rfl, rfl, fun _ _ => rfl, fun i h1 h2 => by omega⟩
  | succ n ih =>
    intro s
    unfold extendPLoop
    obtain ⟨a1, a2, a3, a4, a5, a6, a7⟩ := ih { s with
      pGroups := Function.update s.pGroups s.pGroupsSize (CRGroup.new (s.pGroupsSize : Int))
      pGroupsSize := s.pGroupsSize + 1 }
    dsimp only at a1 a2 a3 a4 a5 a6 a7
    refine ⟨by rw [a1]; omega, a2, a3, a4, a5, ?_, ?_⟩
    · intro i hi
      have hne : i ≠ s.pGroupsSize := by omega
      rw [a6 i (by omega), Function.update_noteq hne]
    · intro i h1 h2
      by_cases hi : i = s.pGroupsSize
      · rw [a6 i (by omega), hi, Function.update_same]
        exact ⟨rfl, rfl⟩
      · exact a7 i (by omega) (by omega)

/-- What `_extendNGroups` pushes: the old negative groups stay, the new ones are empty
with sum 0, and nothing else changes. -/
theorem extendNLoop_fields : ∀ (n : Nat) (s : State),
    (extendNLoop n s).nGroupsSize = s.nGroupsSize + n ∧
    (extendNLoop n s).pKProcs = s.pKProcs ∧ (extendNLoop n s).nEntries = s.nEntries ∧
    (extendNLoop n s).pGroups = s.pGroups ∧ (extendNLoop n s).pGroupsSize = s.pGroupsSize ∧
    (∀ i, i < s.nGroupsSize → (extendNLoop n s).nGroups i = s.nGroups i) ∧
    (∀ i, s.nGroupsSize ≤ i → i < s.nGroupsSize + n →
      ((extendNLoop n s).nGroups i).size = 0 ∧ ((extendNLoop n s).nGroups i).sum = 0) := by
  intro n
  induction n with
  | zero =>
    intro s
    exact ⟨rfl, rfl, rfl, rfl, rfl, fun _ _ => rfl, fun i h1 h2 => by omega⟩
  | succ n ih =>
    intro s
    unfold extendNLoop
    obtain ⟨a1, a2, a3, a4, a5, a6, a7⟩ := ih { s with
      nGroups := Function.update s.nGroups s.nGroupsSize (CRGroup.new (-(s.nGroupsSize : Int)))
      nGroupsSize := s.nGroupsSize + 1 }
    dsimp only at a1 a2 a3 a4 a5 a6 a7
    refine ⟨by rw [a1]; omega, a2, a3, a4, a5, ?_, ?_⟩
    · intro i hi
      have hne : i ≠ s.nGroupsSize := by omega
      rw [a6 i (by omega), Function.update_noteq hne]
    · intro i h1 h2
      by_cases hi : i = s.nGroupsSize
      · rw [a6 i (by omega), hi, Function.update_same]
        exact ⟨rfl, rfl⟩
      · exact a7 i (by omega) (by omega)

/-- Extending the vector of positive groups keeps the invariant in flux. -/
theorem InvAt_extendP (rate : Nat → ℚ) (s : State) (kp : Nat) (st : Option Int) (n : Nat)
    (h : InvAt rate s kp st) : InvAt rate (extendPLoop n s) kp st := by
  obtain ⟨a1, a2, a3, a4, a5, a6, a7⟩ := extendPLoop_fields n s
  refine InvAt_extend rate s _ kp st h a2 a3 ?_ ?_ ?_
  · intro q hq
    unfold groupExists _getGroup at *
    by_cases hq0 : q ≥ 0
    · rw [if_pos hq0] at hq ⊢
      rw [if_pos hq0, if_pos hq0]
      by_cases hlt : q.toNat < s.pGroupsSize
      · exact Or.inl ⟨hlt, a6 _ hlt⟩
      · exact Or.inr (a7 _ (by omega) (by omega))
    · rw [if_neg hq0] at hq ⊢
      rw [if_neg hq0, if_neg hq0, a4]
      rw [a5] at hq
      exact Or.inl ⟨hq, rfl⟩
  · intro q hq
    unfold groupExists _getGroup at *
    by_cases hq0 : q ≥ 0
    · rw [if_pos hq0] at hq ⊢
      rw [if_pos hq0, if_pos hq0]
      exact ⟨by omega, a6 _ hq⟩
    · rw [if_neg hq0] at hq ⊢
      rw [if_neg hq0, if_neg hq0, a4, a5]
      exact ⟨hq, rfl⟩
  · rw [a4, a5]
    exact h.nZero

/-- Extending the vector of negative groups keeps the invariant in flux; negative group 0,
if it is pushed, is empty. -/
theorem InvAt_extendN (rate : Nat → ℚ) (s : State) (kp : Nat) (st : Option Int) (n : Nat)
    (h : InvAt rate s kp st) : InvAt rate (extendNLoop n s) kp st := by
  obtain ⟨a1, a2, a3, a4, a5, a6, a7⟩ := extendNLoop_fields n s
  refine InvAt_extend rate s _ kp st h a2 a3 ?_ ?_ ?_
  · intro q hq
    unfold groupExists _getGroup at *
    by_cases hq0 : q ≥ 0
    · rw [if_pos hq0] at hq ⊢
      rw [if_pos hq0, if_pos hq0, a4]
      rw [a5] at hq
      exact Or.inl ⟨hq, rfl⟩
    · rw [if_neg hq0] at hq ⊢
      rw [if_neg hq0, if_neg hq0]
      by_cases hlt : (-q).toNat < s.nGroupsSize
      · exact Or.inl ⟨hlt, a6 _ hlt⟩
      · exact Or.inr (a7 _ (by omega) (by omega))
  · intro q hq
    unfold groupExists _getGroup at *
    by_cases hq0 : q ≥ 0
    · rw [if_pos hq0] at hq ⊢
      rw [if_pos hq0, if_pos hq0, a4, a5]
      exact ⟨hq, rfl⟩
    · rw [if_neg hq0] at hq ⊢
      rw [if_neg hq0, if_neg hq0]
      exact ⟨by omega, a6 _ hq⟩
  · intro hpos
    by_cases h0 : 0 < s.nGroupsSize
    · rw [a6 0 h0]
      exact h.nZero h0
    · exact a7 0 (by omega) (by omega)

/-- Adding `kp` at the end of an existing group, written through `setGroup`. -/
theorem InvAt_add_at (rate : Nat → ℚ) (s : State) (kp : Nat) (np : Int) (v : ℚ) (g1 : CRGroup)
    (h : InvAt rate s kp none) (hex : groupExists s np)
    (hsz : g1.size = (_getGroup s np).size) (hsum : g1.sum = (_getGroup s np).sum)
    (hidx : g1.indices = (_getGroup s np).indices) :
    InvAt (Function.update rate kp v)
      ((s.setGroup np { g1 with
          indices := Function.update g1.indices g1.size kp
          size := g1.size + 1
          sum := g1.sum + v }).setCRData kp { (s.pKProcs kp).crData with pos := g1.size })
      kp (some np) := by
  obtain ⟨f1, f2, _, f4, f5⟩ := setGroup_fields s np { g1 with
          indices := Function.update g1.indices g1.size kp
          size := g1.size + 1
          sum := g1.sum + v }
  have hG : _getGroup ((s.setGroup np { g1 with
          indices := Function.update g1.indices g1.size kp
          size := g1.size + 1
          sum := g1.sum + v }).setCRData kp { (s.pKProcs kp).crData with pos := g1.size }) np
      = { g1 with
          indices := Function.update g1.indices g1.size kp
          size := g1.size + 1
          sum := g1.sum + v } := getGroup_setGroup_same s np _
  refine InvAt_add_core rate s _ kp np v h hex f2 f4 f5
    (fun q => groupExists_setGroup s np q _) ?_ ?_ ?_
    (fun q hq => getGroup_setGroup_ne s np q _ hq) ?_ ?_
  · rw [hG, ← hsz]
  · rw [hG, ← hsum]
  · rw [hG, ← hsz, ← hidx]
  · rw [setCRData_same, ← hsz]
  · intro m hm
    rw [setCRData_ne _ _ m _ hm, f1]

/-- Growing the storage of a group changes neither its members nor its sum. -/
theorem extendGroup_if (g : CRGroup) :
    (if g.size = g.capacity then _extendGroup g else g).size = g.size ∧
    (if g.size = g.capacity then _extendGroup g else g).sum = g.sum ∧
    (if g.size = g.capacity then _extendGroup g else g).indices = g.indices := by
  by_cases h : g.size = g.capacity
  · rw [if_pos h]
    exact ⟨rfl, rfl, rfl⟩
  · rw [if_neg h]
    exact ⟨rfl, rfl, rfl⟩

/-- The block "add new" for a positive group puts `kp`, which is in no group, into the
group of power `np >= 0` and accounts for its rate. -/
theorem InvAt_addNewP (rate : Nat → ℚ) (s : State) (kp : Nat) (np : Int) (v : ℚ)
    (h : InvAt rate s kp none) (hnp : np ≥ 0) :
    InvAt (Function.update rate kp v) (addNewP s kp np v) kp (some np) := by
  generalize hres : addNewP s kp np v = s2
  unfold addNewP at hres
  dsimp only at hres
  have h1 : InvAt rate
      (if s.pGroupsSize ≤ np.toNat then _extendPGroups s (np.toNat + 1) else s) kp none ∧
      np.toNat < (if s.pGroupsSize ≤ np.toNat then _extendPGroups s (np.toNat + 1)
        else s).pGroupsSize := by
    by_cases hc : s.pGroupsSize ≤ np.toNat
    · rw [if_pos hc]
      unfold _extendPGroups
      refine ⟨InvAt_extendP rate s kp none _ h, ?_⟩
      rw [(extendPLoop_fields _ s).1]
      omega
    · rw [if_neg hc]
      exact ⟨h, by omega⟩
  generalize (if s.pGroupsSize ≤ np.toNat then _extendPGroups s (np.toNat + 1) else s) = s1
    at hres h1
  obtain ⟨hI, hlt⟩ := h1
  have hex : groupExists s1 np := by
    unfold groupExists
    rw [if_pos hnp]
    exact hlt
  have hgg : _getGroup s1 np = s1.pGroups np.toNat := by
    unfold _getGroup
    rw [if_pos hnp]
  obtain ⟨e1, e2, e3⟩ := extendGroup_if (s1.pGroups np.toNat)
  generalize (if (s1.pGroups np.toNat).size = (s1.pGroups np.toNat).capacity
    then _extendGroup (s1.pGroups np.toNat) else s1.pGroups np.toNat) = g1 at hres e1 e2 e3
  have := InvAt_add_at rate s1 kp np v g1 hI hex (by rw [hgg, e1]) (by rw [hgg, e2])
    (by rw [hgg, e3])
  unfold State.setGroup at this
  rw [if_pos hnp] at this
  rw [← hres]
  exact this

/-- The block "add new" for a negative group puts `kp`, which is in no group, into the
group of power `np < 0` and accounts for its rate. -/
theorem InvAt_addNewN (rate : Nat → ℚ) (s : State) (kp : Nat) (np : Int) (v : ℚ)
    (h : InvAt rate s kp none) (hnp : np < 0) :
    InvAt (Function.update rate kp v) (addNewN s kp np v) kp (some np) := by
  have hnp2 : ¬ np ≥ 0 := by omega
  generalize hres : addNewN s kp np v = s2
  unfold addNewN at hres
  dsimp only at hres
  have h1 : InvAt rate
      (if s.nGroupsSize ≤ (-np).toNat then _extendNGroups s ((-np).toNat + 1) else s) kp none ∧
      (-np).toNat < (if s.nGroupsSize ≤ (-np).toNat then _extendNGroups s ((-np).toNat + 1)
        else s).nGroupsSize := by
    by_cases hc : s.nGroupsSize ≤ (-np).toNat
    · rw [if_pos hc]
      unfold _extendNGroups
      refine ⟨InvAt_extendN rate s kp none _ h, ?_⟩
      rw [(extendNLoop_fields _ s).1]
      omega
    · rw [if_neg hc]
      exact ⟨h, by omega⟩
  generalize (if s.nGroupsSize ≤ (-np).toNat then _extendNGroups s ((-np).toNat + 1) else s)
    = s1 at hres h1
  obtain ⟨hI, hlt⟩ := h1
  have hex : groupExists s1 np := by
    unfold groupExists
    rw [if_neg hnp2]
    exact hlt
  have hgg : _getGroup s1 np = s1.nGroups (-np).toNat := by
    unfold _getGroup
    rw [if_neg hnp2]
  obtain ⟨e1, e2, e3⟩ := extendGroup_if (s1.nGroups (-np).toNat)
  generalize (if (s1.nGroups (-np).toNat).size = (s1.nGroups (-np).toNat).capacity
    then _extendGroup (s1.nGroups (-np).toNat) else s1.nGroups (-np).toNat) = g1
    at hres e1 e2 e3
  have := InvAt_add_at rate s1 kp np v g1 hI hex (by rw [hgg, e1]) (by rw [hgg, e2])
    (by rw [hgg, e3])
  unfold State.setGroup at this
  rw [if_neg hnp2] at this
  rw [← hres]
  exact this


/-- Every record keeps its `rate`, `pow` and `recorded` through "add new" (positive). -/
theorem addNewP_records (s : State) (kp : Nat) (np : Int) (v : ℚ) (m : Nat) :
    ((addNewP s kp np v).pKProcs m).crData.rate = (s.pKProcs m).crData.rate ∧
    ((addNewP s kp np v).pKProcs m).crData.pow = (s.pKProcs m).crData.pow ∧
    ((addNewP s kp np v).pKProcs m).crData.recorded = (s.pKProcs m).crData.recorded := by
  generalize hres : addNewP s kp np v = s2
  unfold addNewP at hres
  dsimp only at hres
  have h1 : (if s.pGroupsSize ≤ np.toNat then _extendPGroups s (np.toNat + 1) else s).pKProcs
      = s.pKProcs := by
    by_cases hc : s.pGroupsSize ≤ np.toNat
    · rw [if_pos hc]
      exact (extendPLoop_fields _ s).2.1
    · rw [if_neg hc]
  generalize (if s.pGroupsSize ≤ np.toNat then _extendPGroups s (np.toNat + 1) else s) = s1
    at hres h1
  rw [← hres]
  by_cases hm : m = kp
  · rw [hm, setCRData_same]
    dsimp only
    rw [h1]
    exact ⟨rfl, rfl, rfl⟩
  · rw [setCRData_ne _ _ m _ hm]
    dsimp only
    rw [h1]
    exact ⟨rfl, rfl, rfl⟩

/-- Every record keeps its `rate`, `pow` and `recorded` through "add new" (negative). -/
theorem addNewN_records (s : State) (kp : Nat) (np : Int) (v : ℚ) (m : Nat) :
    ((addNewN s kp np v).pKProcs m).crData.rate = (s.pKProcs m).crData.rate ∧
    ((addNewN s kp np v).pKProcs m).crData.pow = (s.pKProcs m).crData.pow ∧
    ((addNewN s kp np v).pKProcs m).crData.recorded = (s.pKProcs m).crData.recorded := by
  generalize hres : addNewN s kp np v = s2
  unfold addNewN at hres
  dsimp only at hres
  have h1 : (if s.nGroupsSize ≤ (-np).toNat then _extendNGroups s ((-np).toNat + 1)
      else s).pKProcs = s.pKProcs := by
    by_cases hc : s.nGroupsSize ≤ (-np).toNat
    · rw [if_pos hc]
      exact (extendNLoop_fields _ s).2.1
    · rw [if_neg hc]
  generalize (if s.nGroupsSize ≤ (-np).toNat then _extendNGroups s ((-np).toNat + 1) else s)
    = s1 at hres h1
  rw [← hres]
  by_cases hm : m = kp
  · rw [hm, setCRData_same]
    dsimp only
    rw [h1]
    exact ⟨rfl, rfl, rfl⟩
  · rw [setCRData_ne _ _ m _ hm]
    dsimp only
    rw [h1]
    exact ⟨rfl, rfl, rfl⟩

/-- A rate of at least 1/2 has a binary exponent of at least 0. -/
theorem frexpExp_nonneg (r : ℚ) (h : r ≥ 1 / 2) : frexpExp r ≥ 0 := by
  unfold frexpExp
  have hr : (0 : ℚ) < r := by linarith
  have : (-1 : Int) ≤ Int.log 2 r := by
    rw [← Int.zpow_le_iff_le_log (by norm_num) hr]
    norm_num
    linarith
  omega

/-- A positive rate below 1/2 has a negative binary exponent. -/
theorem frexpExp_neg (r : ℚ) (h0 : 0 < r) (h : r < 1 / 2) : frexpExp r < 0 := by
  unfold frexpExp
  have : Int.log 2 r < (-1 : Int) := by
    rw [← Int.lt_zpow_iff_log_lt (by norm_num) h0]
    norm_num
    linarith
  omega

/-- The positive group of index `i` is the group of power `i`. -/
theorem getGroup_ofNat (s : State) (i : Nat) :
    _getGroup s (i : Int) = s.pGroups i ∧ (groupExists s (i : Int) ↔ i < s.pGroupsSize) := by
  unfold _getGroup groupExists
  have h : (i : Int) ≥ 0 := by omega
  rw [if_pos h, if_pos h, Int.toNat_ofNat]
  exact ⟨rfl, Iff.rfl⟩

/-- The negative group of index `i > 0` is the group of power `-i`. -/
theorem getGroup_negNat (s : State) (i : Nat) (hi : 0 < i) :
    _getGroup s (-(i : Int)) = s.nGroups i ∧
    (groupExists s (-(i : Int)) ↔ i < s.nGroupsSize) := by
  unfold _getGroup groupExists
  have h : ¬ (-(i : Int)) ≥ 0 := by omega
  rw [if_neg h, if_neg h, neg_neg, Int.toNat_ofNat]
  exact ⟨rfl, Iff.rfl⟩

/-- Every power names a positive group or a negative group of index above 0. -/
theorem pow_cases (pow : Int) :
    (∃ i : Nat, pow = (i : Int)) ∨ (∃ i : Nat, 0 < i ∧ pow = -(i : Int)) := by
  by_cases h : pow ≥ 0
  · exact Or.inl ⟨pow.toNat, by omega⟩
  · exact Or.inr ⟨(-pow).toNat, by omega, by omega⟩


/-- The invariant of the selector gives the invariant in flux around any KProc of the
schedule, with the place of the KProc read from its record. -/
theorem CRInv_to_InvAt (s : State) (kp : Nat) (h : CRInv s) (hkp : kp < s.nEntries) :
    InvAt (storedRate s) s kp
      (if (s.pKProcs kp).crData.recorded = true then some (s.pKProcs kp).crData.pow
       else none) := by
  refine ⟨h.entries, hkp, ?_, h.nZero, fun m hm _ hrec => h.recorded m hm hrec, ?_⟩
  · intro pow hex
    rcases pow_cases pow with ⟨i, rfl⟩ | ⟨i, hi, rfl⟩
    · obtain ⟨hg, he⟩ := getGroup_ofNat s i
      rw [hg]
      have hlt := he.mp hex
      refine ⟨h.pSums i hlt, fun j hj => ?_⟩
      obtain ⟨m1, m2, m3, m4⟩ := h.pMembers i hlt j hj
      exact ⟨m1, fun _ => ⟨m2, m3⟩, fun he => by rw [← he, if_pos m2, m3], m4⟩
    · obtain ⟨hg, he⟩ := getGroup_negNat s i hi
      rw [hg]
      have hlt := he.mp hex
      refine ⟨h.nSums i hlt, fun j hj => ?_⟩
      obtain ⟨m1, m2, m3, m4⟩ := h.nMembers i hlt hi j hj
      exact ⟨m1, fun _ => ⟨m2, m3⟩, fun he => by rw [← he, if_pos m2, m3], m4⟩
  · intro p hp
    by_cases hrec : (s.pKProcs kp).crData.recorded = true
    · rw [if_pos hrec] at hp
      rw [← Option.some.inj hp]
      exact h.recorded kp hkp hrec
    · rw [if_neg hrec] at hp
      cases hp

/-- Once the record of `kp` says where `kp` sits, the invariant in flux with the stored
rates is the invariant of the selector. -/
theorem InvAt_to_CRInv (s : State) (kp : Nat) (st : Option Int)
    (h : InvAt (storedRate s) s kp st)
    (hst : st = if (s.pKProcs kp).crData.recorded = true then some (s.pKProcs kp).crData.pow
      else none) : CRInv s := by
  have hmem : ∀ (pow : Int), groupExists s pow →
      GroupMembers s (_getGroup s pow) pow := by
    intro pow hex j hj
    obtain ⟨m1, m2, m3, m4⟩ := (h.groups pow hex).2 j hj
    by_cases hk : (_getGroup s pow).indices j = kp
    · have hs := m3 hk
      rw [hst] at hs
      by_cases hrec : (s.pKProcs kp).crData.recorded = true
      · rw [if_pos hrec] at hs
        rw [hk]
        exact ⟨by rw [← hk]; exact m1, hrec, Option.some.inj hs, by rw [← hk]; exact m4⟩
      · rw [if_neg hrec] at hs
        cases hs
    · exact ⟨m1, (m2 hk).1, (m2 hk).2, m4⟩
  refine ⟨h.entries, ?_, ?_, h.nZero, ?_, ?_, ?_⟩
  · intro i hi
    obtain ⟨hg, he⟩ := getGroup_ofNat s i
    have := hmem i (he.mpr hi)
    rw [hg] at this
    exact this
  · intro i hi h0
    obtain ⟨hg, he⟩ := getGroup_negNat s i h0
    have := hmem (-(i : Int)) (he.mpr hi)
    rw [hg] at this
    exact this
  · intro m hm hrec
    by_cases hk : m = kp
    · rw [hk] at hrec ⊢
      exact h.self _ (by rw [hst, if_pos hrec])
    · exact h.others m hm hk hrec
  · intro i hi
    obtain ⟨hg, he⟩ := getGroup_ofNat s i
    have := (h.groups i (he.mpr hi)).1
    rw [hg] at this
    exact this
  · intro i hi
    by_cases h0 : 0 < i
    · obtain ⟨hg, he⟩ := getGroup_negNat s i h0
      have := (h.groups (-(i : Int)) (he.mpr hi)).1
      rw [hg] at this
      exact this
    · have hi0 : i = 0 := by omega
      subst hi0
      obtain ⟨z1, z2⟩ := h.nZero hi
      unfold memberSum
      rw [z2, z1, Finset.range_zero, Finset.sum_empty]

/-- The last write of `_updateElement`: with the group sums accounting for the new rate of
`kp` and the flag `recorded` written to say whether `kp` sits in a group, the invariant
of the selector holds. -/
theorem CRInv_finish (s0 X : State) (kp : Nat) (new : ℚ) (b : Bool) (st : Option Int)
    (hI : InvAt (Function.update (storedRate s0) kp new) X kp st)
    (hrate : ∀ m, (X.pKProcs m).crData.rate
      = if m = kp then new else (s0.pKProcs m).crData.rate)
    (hst : st = if b = true then some (X.pKProcs kp).crData.pow else none) :
    CRInv (X.setCRData kp { (X.pKProcs kp).crData with recorded := b }) := by
  have hρ : storedRate (X.setCRData kp { (X.pKProcs kp).crData with recorded := b })
      = Function.update (storedRate s0) kp new := by
    funext m
    unfold storedRate
    by_cases hm : m = kp
    · rw [hm, setCRData_same, Function.update_same]
      have := hrate kp
      rw [if_pos rfl] at this
      exact this
    · rw [setCRData_ne _ _ m _ hm, Function.update_noteq hm]
      have := hrate m
      rw [if_neg hm] at this
      exact this
  apply InvAt_to_CRInv _ kp st
  · rw [hρ]
    exact InvAt_setCRData_self _ X kp st _ hI rfl
  · rw [setCRData_same]
    exact hst


/-- The block "remove old if recorded" shared by the three branches of `_updateElement`:
afterwards `kp` is in no group. -/
theorem InvAt_removeIf (rate : Nat → ℚ) (s : State) (kp : Nat) (b : Bool) (p : Int)
    (h : InvAt rate s kp (if b = true then some p else none)) :
    InvAt rate (if b = true then removeOld s kp p (rate kp) else s) kp none := by
  by_cases hb : b = true
  · rw [if_pos hb] at h ⊢
    exact InvAt_removeOld rate s kp p h
  · rw [if_neg hb] at h ⊢
    exact h

/-- Every record keeps its `rate`, `pow` and `recorded` through "remove old if recorded". -/
theorem removeIf_records (s : State) (kp : Nat) (b : Bool) (p : Int) (r : ℚ) (m : Nat) :
    ((if b = true then removeOld s kp p r else s).pKProcs m).crData.rate
      = (s.pKProcs m).crData.rate ∧
    ((if b = true then removeOld s kp p r else s).pKProcs m).crData.pow
      = (s.pKProcs m).crData.pow ∧
    ((if b = true then removeOld s kp p r else s).pKProcs m).crData.recorded
      = (s.pKProcs m).crData.recorded := by
  by_cases hb : b = true
  · rw [if_pos hb]
    exact removeOld_records s kp p r m
  · rw [if_neg hb]
    exact ⟨rfl, rfl, rfl⟩

/-- The branches "positive group" and "negative group" of `_updateElement` keep the
invariant of the selector: `s1` is the state after the new rate has been stored, `s` the
state before. -/
theorem moveOrAdjust_CRInv (s s1 : State) (kp : Nat) (new : ℚ) (positive : Bool)
    (hI : InvAt (storedRate s) s1 kp
      (if (s1.pKProcs kp).crData.recorded = true then some (s1.pKProcs kp).crData.pow
       else none))
    (hrate : ∀ m, (s1.pKProcs m).crData.rate
      = if m = kp then new else (s.pKProcs m).crData.rate)
    (hsign : if positive = true then frexpExp new ≥ 0 else frexpExp new < 0) :
    CRInv (moveOrAdjust s1 kp (storedRate s kp) new positive) := by
  generalize hres : moveOrAdjust s1 kp (storedRate s kp) new positive = s2
  unfold moveOrAdjust at hres
  dsimp only at hres
  rw [← hres]
  by_cases hc : (s1.pKProcs kp).crData.pow = frexpExp new ∧
      (s1.pKProcs kp).crData.recorded = true
  · rw [if_pos hc]
    rw [if_pos hc.2] at hI
    have hA := InvAt_adjust (storedRate s) s1 kp (s1.pKProcs kp).crData.pow new hI
    have hK := (setGroup_fields s1 (s1.pKProcs kp).crData.pow
      { _getGroup s1 (s1.pKProcs kp).crData.pow with
        sum := (_getGroup s1 (s1.pKProcs kp).crData.pow).sum + (new - storedRate s kp) }).1
    refine CRInv_finish s _ kp new true _ hA ?_ ?_
    · intro m
      rw [hK]
      exact hrate m
    · rw [hK, if_pos rfl]
  · rw [if_neg hc]
    have h1 := InvAt_setCRData_self (storedRate s) s1 kp _
      { (s1.pKProcs kp).crData with pow := frexpExp new } hI rfl
    have h2 := InvAt_removeIf (storedRate s) _ kp (s1.pKProcs kp).crData.recorded
      (s1.pKProcs kp).crData.pow h1
    have hr2 : ∀ m, (((if (s1.pKProcs kp).crData.recorded = true
        then removeOld (s1.setCRData kp { (s1.pKProcs kp).crData with pow := frexpExp new })
          kp (s1.pKProcs kp).crData.pow (storedRate s kp)
        else s1.setCRData kp { (s1.pKProcs kp).crData with pow := frexpExp new }).pKProcs
          m).crData.rate = if m = kp then new else (s.pKProcs m).crData.rate) ∧
        ((if (s1.pKProcs kp).crData.recorded = true
        then removeOld (s1.setCRData kp { (s1.pKProcs kp).crData with pow := frexpExp new })
          kp (s1.pKProcs kp).crData.pow (storedRate s kp)
        else s1.setCRData kp { (s1.pKProcs kp).crData with pow := frexpExp new }).pKProcs
          kp).crData.pow = frexpExp new := by
      intro m
      obtain ⟨r1, _, _⟩ := removeIf_records
        (s1.setCRData kp { (s1.pKProcs kp).crData with pow := frexpExp new }) kp
        (s1.pKProcs kp).crData.recorded (s1.pKProcs kp).crData.pow (storedRate s kp) m
      obtain ⟨_, r2, _⟩ := removeIf_records
        (s1.setCRData kp { (s1.pKProcs kp).crData with pow := frexpExp new }) kp
        (s1.pKProcs kp).crData.recorded (s1.pKProcs kp).crData.pow (storedRate s kp) kp
      rw [r1, r2, setCRData_same]
      refine ⟨?_, rfl⟩
      by_cases hm : m = kp
      · rw [hm, setCRData_same]
        exact hrate kp
      · rw [setCRData_ne _ _ m _ hm]
        exact hrate m
    generalize (if (s1.pKProcs kp).crData.recorded = true
        then removeOld (s1.setCRData kp { (s1.pKProcs kp).crData with pow := frexpExp new })
          kp (s1.pKProcs kp).crData.pow (storedRate s kp)
        else s1.setCRData kp { (s1.pKProcs kp).crData with pow := frexpExp new }) = s3
      at h2 hr2 ⊢
    by_cases hp : positive = true
    · rw [if_pos hp] at hsign ⊢
      have hA := InvAt_addNewP (storedRate s) s3 kp (frexpExp new) new h2 hsign
      obtain ⟨a1, a2, _⟩ := addNewP_records s3 kp (frexpExp new) new kp
      refine CRInv_finish s _ kp new true _ hA ?_ ?_
      · intro m
        rw [(addNewP_records s3 kp (frexpExp new) new m).1]
        exact (hr2 m).1
      · rw [if_pos rfl, a2, (hr2 kp).2]
    · rw [if_neg hp] at hsign ⊢
      have hA := InvAt_addNewN (storedRate s) s3 kp (frexpExp new) new h2 hsign
      obtain ⟨a1, a2, _⟩ := addNewN_records s3 kp (frexpExp new) new kp
      refine CRInv_finish s _ kp new true _ hA ?_ ?_
      · intro m
        rw [(addNewN_records s3 kp (frexpExp new) new m).1]
        exact (hr2 m).1
      · rw [if_pos rfl, a2, (hr2 kp).2]

/-- One call of `_updateElement` on a KProc of the schedule keeps the invariant of the
selector. -/
theorem updateElement_CRInv (s s2 : State) (kp : Nat) (h : CRInv s) (hkp : kp < s.nEntries)
    (hu : _updateElement s kp = .ok s2) : CRInv s2 := by
  unfold _updateElement at hu
  cases hr : KProc.rate s (s.pKProcs kp) with
  | error e => rw [hr] at hu; cases hu
  | ok new =>
    rw [hr] at hu
    dsimp only at hu
    have hI0 := CRInv_to_InvAt s kp h hkp
    have hI1 := InvAt_setCRData_self (storedRate s) s kp _
      { (s.pKProcs kp).crData with rate := new } hI0 rfl
    have hd1 : ((s.setCRData kp { (s.pKProcs kp).crData with rate := new }).pKProcs kp).crData
        = { (s.pKProcs kp).crData with rate := new } := setCRData_same _ _ _
    have hrate : ∀ m, ((s.setCRData kp { (s.pKProcs kp).crData with rate := new }).pKProcs
        m).crData.rate = if m = kp then new else (s.pKProcs m).crData.rate := by
      intro m
      by_cases hm : m = kp
      · rw [hm, hd1, if_pos rfl]
      · rw [setCRData_ne _ _ m _ hm, if_neg hm]
    have hI1b : InvAt (storedRate s) (s.setCRData kp { (s.pKProcs kp).crData with rate := new })
        kp (if ((s.setCRData kp { (s.pKProcs kp).crData with rate := new }).pKProcs
          kp).crData.recorded = true
          then some ((s.setCRData kp { (s.pKProcs kp).crData with rate := new }).pKProcs
            kp).crData.pow else none) := by
      rw [hd1]
      exact hI1
    generalize s.setCRData kp { (s.pKProcs kp).crData with rate := new } = s1
      at hu hrate hI1b
    by_cases h1 : (s.pKProcs kp).crData.rate = new
    · rw [if_pos h1] at hu
      rw [← Except.ok.inj hu]
      have hρ : storedRate s1 = storedRate s := by
        funext m
        unfold storedRate
        rw [hrate m]
        by_cases hm : m = kp
        · rw [if_pos hm, hm, h1]
        · rw [if_neg hm]
      apply InvAt_to_CRInv s1 kp _ _ rfl
      rw [hρ]
      exact hI1b
    · rw [if_neg h1] at hu
      by_cases h2 : new ≥ 1 / 2
      · rw [if_pos h2] at hu
        rw [← Except.ok.inj hu]
        exact moveOrAdjust_CRInv s s1 kp new true hI1b hrate (frexpExp_nonneg new h2)
      · rw [if_neg h2] at hu
        by_cases h3 : new < 1 / 2 ∧ new > 1 / 100000000000000000000
        · rw [if_pos h3] at hu
          rw [← Except.ok.inj hu]
          have hpos : (0 : ℚ) < new := lt_trans (by norm_num) h3.2
          exact moveOrAdjust_CRInv s s1 kp new false hI1b hrate
            (by simpa using frexpExp_neg new hpos h3.1)
        · rw [if_neg h3] at hu
          rw [← Except.ok.inj hu]
          have hR := InvAt_removeIf (storedRate s) s1 kp (s1.pKProcs kp).crData.recorded
            (s1.pKProcs kp).crData.pow hI1b
          have hR2 := InvAt_rate_none (storedRate s) _ kp new hR
          refine CRInv_finish s _ kp new false none hR2 ?_ (by simp)
          intro m
          rw [(removeIf_records s1 kp _ _ _ m).1]
          exact hrate m


/-- The accumulation loop of `_updateSum` adds the group sums to its start value. -/
theorem foldl_add_range (f : Nat → ℚ) (a : ℚ) (n : Nat) :
    (List.range n).foldl (fun acc i => acc + f i) a = a + ∑ i in Finset.range n, f i := by
  induction n with
  | zero => simp
  | succ n ih =>
    rw [List.range_succ, List.foldl_append, ih, Finset.sum_range_succ]
    simp only [List.foldl_cons, List.foldl_nil]
    ring

/-- Method `_updateSum` sets A0 to the sum of all group sums and changes nothing else of
the selector. -/
theorem updateSum_A0 (s : State) :
    (_updateSum s).pA0 = ∑ i in Finset.range s.nGroupsSize, (s.nGroups i).sum
      + ∑ i in Finset.range s.pGroupsSize, (s.pGroups i).sum := by
  unfold _updateSum
  dsimp only
  rw [foldl_add_range, foldl_add_range, zero_add]

/-- The state after `_updateSum` carries the same selector. -/
theorem updateSum_same (s : State) : CRSame s (_updateSum s) :=
  ⟨rfl, rfl, rfl, rfl, rfl, fun _ => rfl⟩

/-- With no group pushed and no KProc recorded the invariant holds. -/
theorem CRInv_of_empty (s : State) (h : CREmpty s) : CRInv s := by
  obtain ⟨h1, h2, h3, h4⟩ := h
  refine ⟨h1, ?_, ?_, ?_, ?_, ?_, ?_⟩
  · intro i hi
    omega
  · intro i hi
    omega
  · intro hi
    omega
  · intro m hm hrec
    rw [h4 m hm] at hrec
    cases hrec
  · intro i hi
    omega
  · intro i hi
    omega

/-- A change that leaves the selector alone keeps its invariant. -/
theorem CRInv_of_same (s s2 : State) (hs : CRSame s s2) (h : CRInv s) : CRInv s2 := by
  obtain ⟨e1, e2, e3, e4, e5, e6⟩ := hs
  have hρ : storedRate s2 = storedRate s := by
    funext m
    unfold storedRate
    rw [e6 m]
  have hg : ∀ q, _getGroup s2 q = _getGroup s q := by
    intro q
    unfold _getGroup
    rw [e2, e4]
  have hx : ∀ q, groupExists s2 q ↔ groupExists s q := by
    intro q
    unfold groupExists
    rw [e3, e5]
  have hm : ∀ g pow, GroupMembers s g pow → GroupMembers s2 g pow := by
    intro g pow hgm j hj
    rw [e1, e6]
    exact hgm j hj
  refine ⟨by rw [e1]; exact h.entries, ?_, ?_, ?_, ?_, ?_, ?_⟩
  · intro i hi
    rw [e3] at hi
    rw [e2]
    exact hm _ _ (h.pMembers i hi)
  · intro i hi h0
    rw [e5] at hi
    rw [e4]
    exact hm _ _ (h.nMembers i hi h0)
  · rw [e5, e4]
    exact h.nZero
  · intro m hlt hrec
    rw [e1] at hlt
    rw [e6] at hrec ⊢
    rw [hg]
    exact ⟨(hx _).mpr (h.recorded m hlt hrec).1, (h.recorded m hlt hrec).2⟩
  · intro i hi
    rw [e3] at hi
    rw [e2, hρ]
    exact h.pSums i hi
  · intro i hi
    rw [e5] at hi
    rw [e4, hρ]
    exact h.nSums i hi

/-- Every state reached from empty groups satisfies the invariant of the selector. -/
theorem CRInv_of_reach (s : State) (h : CRReach s) : CRInv s := by
  induction h with
  | empty s he => exact CRInv_of_empty s he
  | element s s2 kp _ hkp hu ih => exact updateElement_CRInv s s2 kp ih hkp hu
  | other s s2 _ hs ih => exact CRInv_of_same s s2 hs ih
  | sum s _ ih => exact CRInv_of_same s _ (updateSum_same s) ih

/-- The loop of `_update` over KProcs of the schedule stays within the reachable states. -/
theorem CRReach_updateLoop : ∀ (l : List Nat) (s s2 : State), CRReach s →
    (∀ kp ∈ l, kp < s.nEntries) → updateLoop l s = .ok s2 → CRReach s2 := by
  intro l
  induction l with
  | nil =>
    intro s s2 hr _ h
    unfold updateLoop at h
    rw [← Except.ok.inj h]
    exact hr
  | cons kp rest ih =>
    intro s s2 hr hl h
    unfold updateLoop at h
    cases hu : _updateElement s kp with
    | error e => rw [hu] at h; cases h
    | ok s1 =>
      rw [hu] at h
      dsimp only at h
      have hn : s1.nEntries = s.nEntries := (CRFrame_updateElement s s1 kp hu).2.2.1
      exact ih s1 s2 (CRReach.element s s1 kp hr (hl kp (List.mem_cons_self _ _)) hu)
        (fun k hk => by rw [hn]; exact hl k (List.mem_cons_of_mem _ hk)) h

/-- Under the invariant no group has more members than the schedule has KProcs, so the
unsigned size of a group never wraps. -/
theorem CRInv_size_le (s : State) (h : CRInv s) :
    (∀ i, i < s.pGroupsSize → (s.pGroups i).size ≤ s.nEntries) ∧
    (∀ i, i < s.nGroupsSize → (s.nGroups i).size ≤ s.nEntries) := by
  refine ⟨?_, ?_⟩
  · intro i hi
    exact size_le_of_injective (s.pGroups i).indices (fun m => (s.pKProcs m).crData.pos) _ _
      (fun j hj => ⟨(h.pMembers i hi j hj).1, (h.pMembers i hi j hj).2.2.2⟩)
  · intro i hi
    by_cases h0 : 0 < i
    · exact size_le_of_injective (s.nGroups i).indices (fun m => (s.pKProcs m).crData.pos) _ _
        (fun j hj => ⟨(h.nMembers i hi h0 j hj).1, (h.nMembers i hi h0 j hj).2.2.2⟩)
    · have hi0 : i = 0 := by omega
      subst hi0
      rw [(h.nZero hi).1]
      exact Nat.zero_le _

/-- C12. In exact arithmetic, for every state `s` reached from empty groups (as the
constructor and `reset()` leave them) by any sequence of `_updateElement` calls on KProcs
of the schedule, interleaved with any changes that leave the selector alone, the state
after `_updateSum` satisfies: every positive and every negative group's stored sum is the
sum of the stored rates of its current members, an empty group has sum 0, every member of
a group is a recorded KProc whose record names that group and slot, every recorded KProc
is a member of the group of its power, A0 is the sum of all group sums, and no group has
more members than the schedule has KProcs (fewer than 2^32). -/
theorem CR_group_sums_spec (s : State) (h : CRReach s) :
    (∀ i, i < (_updateSum s).pGroupsSize →
      ((_updateSum s).pGroups i).sum
        = ∑ j in Finset.range ((_updateSum s).pGroups i).size,
            ((_updateSum s).pKProcs (((_updateSum s).pGroups i).indices j)).crData.rate) ∧
    (∀ i, i < (_updateSum s).nGroupsSize →
      ((_updateSum s).nGroups i).sum
        = ∑ j in Finset.range ((_updateSum s).nGroups i).size,
            ((_updateSum s).pKProcs (((_updateSum s).nGroups i).indices j)).crData.rate) ∧
    (∀ i, i < (_updateSum s).pGroupsSize → ((_updateSum s).pGroups i).size = 0 →
      ((_updateSum s).pGroups i).sum = 0) ∧
    (∀ i, i < (_updateSum s).nGroupsSize → ((_updateSum s).nGroups i).size = 0 →
      ((_updateSum s).nGroups i).sum = 0) ∧
    (_updateSum s).pA0
      = ∑ i in Finset.range (_updateSum s).nGroupsSize, ((_updateSum s).nGroups i).sum
        + ∑ i in Finset.range (_updateSum s).pGroupsSize, ((_updateSum s).pGroups i).sum ∧
    CRInv (_updateSum s) ∧
    (∀ i, i < (_updateSum s).pGroupsSize →
      ((_updateSum s).pGroups i).size ≤ (_updateSum s).nEntries) ∧
    (∀ i, i < (_updateSum s).nGroupsSize →
      ((_updateSum s).nGroups i).size ≤ (_updateSum s).nEntries) ∧
    (_updateSum s).nEntries < 4294967296 := by
  have hI : CRInv (_updateSum s) := CRInv_of_reach _ (CRReach.sum s h)
  refine ⟨hI.pSums, hI.nSums, ?_, ?_, updateSum_A0 s, hI, (CRInv_size_le _ hI).1,
    (CRInv_size_le _ hI).2, hI.entries⟩
  · intro i hi h0
    have := hI.pSums i hi
    unfold memberSum at this
    rw [this, h0, Finset.range_zero, Finset.sum_empty]
  · intro i hi h0
    have := hI.nSums i hi
    unfold memberSum at this
    rw [this, h0, Finset.range_zero, Finset.sum_empty]

/-- The concrete system with an empty selector is an initial state. -/
theorem demo_empty : CREmpty Demo.emptyState :=
  ⟨by decide, rfl, rfl, fun _ _ => rfl⟩

/-- The propensities of the three KProcs of the concrete system are defined. -/
theorem demo_empty_rates (kp : Nat) (h : kp ∈ List.range Demo.emptyState.nEntries) :
    ∃ v, KProc.rate Demo.emptyState (Demo.emptyState.pKProcs kp) = .ok v := by
  have h3 : kp < 3 := List.mem_range.mp h
  have hk : kp = 0 ∨ kp = 1 ∨ kp = 2 := by omega
  rcases hk with rfl | rfl | rfl
  · exact ⟨2, by
      norm_num [KProc.rate, Demo.emptyState, Demo.state, Demo.kproc, Reac.rate, KProc.inactive,
        INACTIVATED, Demo.reac0, Demo.tet0, Demo.cdef, Reac.hmuLoop, List.range,
        List.range.loop, switchLhs, toInt, toUInt, wrapInt]⟩
  · exact ⟨2, by
      norm_num [KProc.rate, Demo.emptyState, Demo.state, Demo.kproc, Diff.rate, KProc.inactive,
        INACTIVATED, Demo.diff1, Demo.tet0]⟩
  · exact ⟨2, by
      norm_num [KProc.rate, Demo.emptyState, Demo.state, Demo.kproc, SReac.rate,
        KProc.inactive, INACTIVATED, Demo.sreac2, Demo.tri0, Demo.tet0, Demo.pdef,
        SReac.hmuLoop, SReac.rateVol, SReac.lidx, List.range, List.range.loop, switchLhs,
        toInt, toUInt, wrapInt]⟩

/-- Witness of C12 on the concrete system: on the empty selector `_updateSum` gives
A0 = 0; and from the empty selector the refresh of all three KProcs returns, and in the
resulting state A0 is the sum of the group sums and the invariant of the selector
holds. -/
theorem CR_group_sums_spec_witness :
    (_updateSum Demo.emptyState).pA0 = 0 ∧
    ∃ s1 s2, _updateAll Demo.emptyState = .ok s2 ∧
      s2 = _updateSum s1 ∧ CRInv s2 ∧
      s2.pA0 = ∑ i in Finset.range s2.nGroupsSize, (s2.nGroups i).sum
        + ∑ i in Finset.range s2.pGroupsSize, (s2.pGroups i).sum := by
  refine ⟨?_, ?_⟩
  · have h0 := (CR_group_sums_spec Demo.emptyState (CRReach.empty _ demo_empty)).2.2.2.2.1
    rw [h0]
    have hn : (_updateSum Demo.emptyState).nGroupsSize = 0 := rfl
    have hp : (_updateSum Demo.emptyState).pGroupsSize = 0 := rfl
    rw [hn, hp, Finset.range_zero, Finset.sum_empty, Finset.sum_empty, add_zero]
  · obtain ⟨s1, hs1⟩ := updateLoop_ok (List.range Demo.emptyState.nEntries) Demo.emptyState
      demo_empty_rates
    have hreach : CRReach s1 :=
      CRReach_updateLoop _ Demo.emptyState s1 (CRReach.empty _ demo_empty)
        (fun kp hk => List.mem_range.mp hk) hs1
    obtain ⟨_, _, _, _, hA, hI, _⟩ := CR_group_sums_spec s1 hreach
    refine ⟨s1, _updateSum s1, ?_, rfl, hI, hA⟩
    unfold _updateAll _update
    rw [hs1]

/-! ## Mesoscopic constant of a reaction (claim C27) -/

/-- For an order that fits an `int`, the exponent `-o1` computed in `int` arithmetic is
`-(order - 1)`. -/
theorem ccst_exponent (n : Nat) (h : n < 2147483648) :
    wrapInt (-(wrapInt (toInt n - 1))) = -((n : Int) - 1) := by
  unfold wrapInt toUInt toInt
  split_ifs <;> omega

/-- Avogadro's number is positive. -/
theorem AVOGADRO_pos : (0 : ℚ) < AVOGADRO := by
  unfold AVOGADRO
  norm_num

/-- The value of `comp_ccst` for an order that fits an `int`. -/
theorem comp_ccst_eq (k V : ℚ) (n : Nat) (cv : ℚ) (hn : n < 2147483648) :
    comp_ccst k V n cv = k * (1000 * V * AVOGADRO) ^ (-((n : Int) - 1)) := by
  unfold comp_ccst
  dsimp only
  rw [ccst_exponent n hn]

/-- The constant is not negative for `k >= 0` and a positive volume, so the assertion that
follows every computation of it holds. -/
theorem comp_ccst_nonneg (k V : ℚ) (n : Nat) (cv : ℚ) (hk : 0 ≤ k) (hV : 0 < V) :
    0 ≤ comp_ccst k V n cv := by
  unfold comp_ccst
  dsimp only
  have hs : (0 : ℚ) < 1000 * V * AVOGADRO := by
    have := AVOGADRO_pos
    positivity
  exact mul_nonneg hk (le_of_lt (zpow_pos hs _))

/-- First order: the constant is `k`; zero order: it is `k * 1000 * V * N_A`. -/
theorem ccst_orders (k x : ℚ) :
    k * x ^ (-(((1 : Nat) : Int) - 1)) = k ∧ k * x ^ (-(((0 : Nat) : Int) - 1)) = k * x := by
  refine ⟨?_, ?_⟩
  · norm_num
  · norm_num

/-- Method `setKcst` returns for `k >= 0` and a positive tet volume, and stores `k` and
the constant computed from it. -/
theorem Reac_setKcst_ok (s : State) (r : Reac) (k : ℚ) (hk : 0 ≤ k)
    (hV : 0 < (s.tets r.pTet).vol) :
    Reac.setKcst s r k = .ok { r with
      pKcst := k
      pCcst := comp_ccst k (s.tets r.pTet).vol r.pReacdef.order (s.tets r.pTet).compdef.vol } := by
  unfold Reac.setKcst
  have hk2 : k ≥ 0 := hk
  have hc : comp_ccst k (s.tets r.pTet).vol r.pReacdef.order (s.tets r.pTet).compdef.vol ≥ 0 :=
    comp_ccst_nonneg k _ _ _ hk hV
  rw [if_neg (not_not.mpr hk2)]
  dsimp only
  rw [if_neg (not_not.mpr hc)]

/-- Method `resetCcst` returns for a default `k >= 0` and a positive tet volume, and
stores the default and the constant computed from it. -/
theorem Reac_resetCcst_ok (s : State) (r : Reac)
    (hk : 0 ≤ (s.tets r.pTet).compdef.kcst ((s.tets r.pTet).compdef.reacG2L r.pReacdef.gidx))
    (hV : 0 < (s.tets r.pTet).vol) :
    Reac.resetCcst s r = .ok { r with
      pKcst := (s.tets r.pTet).compdef.kcst ((s.tets r.pTet).compdef.reacG2L r.pReacdef.gidx)
      pCcst := comp_ccst
        ((s.tets r.pTet).compdef.kcst ((s.tets r.pTet).compdef.reacG2L r.pReacdef.gidx))
        (s.tets r.pTet).vol r.pReacdef.order (s.tets r.pTet).compdef.vol } := by
  unfold Reac.resetCcst
  dsimp only
  have hc := comp_ccst_nonneg _ (s.tets r.pTet).vol r.pReacdef.order
    (s.tets r.pTet).compdef.vol hk hV
  rw [if_neg (not_not.mpr hc)]

/-- The constructor returns for a default `k >= 0` and a positive tet volume, and stores
the default and the constant computed from it. -/
theorem Reac_new_ok (s : State) (rdef : Reacdef) (tet : Nat)
    (hk : 0 ≤ (s.tets tet).compdef.kcst ((s.tets tet).compdef.reacG2L rdef.gidx))
    (hV : 0 < (s.tets tet).vol) :
    Reac.new s rdef tet = .ok
      { pReacdef := rdef, pTet := tet, pUpdVec := []
        pCcst := comp_ccst ((s.tets tet).compdef.kcst ((s.tets tet).compdef.reacG2L rdef.gidx))
          (s.tets tet).vol rdef.order (s.tets tet).compdef.vol
        pKcst := (s.tets tet).compdef.kcst ((s.tets tet).compdef.reacG2L rdef.gidx) } := by
  unfold Reac.new
  dsimp only
  have hc := comp_ccst_nonneg _ (s.tets tet).vol rdef.order (s.tets tet).compdef.vol hk hV
  rw [if_neg (not_not.mpr hc)]

/-- C27. For every `k >= 0`, tet volume `V > 0` and reaction order `n` (as stored in the
`Reacdef`, fitting an `int`), the constant `c` that a Reac holds after `setKcst(k)`, after
`resetCcst()` (with `k` the compartment default) and after construction (likewise) is
`k * (1000*V*N_A)^(-(n-1))`, and the stored `k` is that `k`; all three calls return on such
inputs. In particular `c = k` for `n = 1` whatever `V` is, and `c = k*1000*V*N_A` for
`n = 0`. -/
theorem Reac_ccst_spec (s : State) (rdef : Reacdef) (tet : Nat) (k : ℚ)
    (hk : 0 ≤ k) (hV : 0 < (s.tets tet).vol) (hn : rdef.order < 2147483648) :
    (∀ r : Reac, r.pTet = tet → r.pReacdef = rdef →
      ∃ r2, Reac.setKcst s r k = .ok r2 ∧ r2.pKcst = k ∧
        r2.pCcst = k * (1000 * (s.tets tet).vol * AVOGADRO) ^ (-((rdef.order : Int) - 1)) ∧
        (rdef.order = 1 → r2.pCcst = k) ∧
        (rdef.order = 0 → r2.pCcst = k * (1000 * (s.tets tet).vol * AVOGADRO))) ∧
    ((s.tets tet).compdef.kcst ((s.tets tet).compdef.reacG2L rdef.gidx) = k →
      (∀ r : Reac, r.pTet = tet → r.pReacdef = rdef →
        ∃ r2, Reac.resetCcst s r = .ok r2 ∧ r2.pKcst = k ∧
          r2.pCcst = k * (1000 * (s.tets tet).vol * AVOGADRO) ^ (-((rdef.order : Int) - 1))) ∧
      (∃ r2, Reac.new s rdef tet = .ok r2 ∧ r2.pKcst = k ∧
          r2.pCcst = k * (1000 * (s.tets tet).vol * AVOGADRO) ^ (-((rdef.order : Int) - 1)))) := by
  refine ⟨?_, ?_⟩
  · intro r hT hD
    rw [← hT] at hV
    refine ⟨_, Reac_setKcst_ok s r k hk hV, rfl, ?_, ?_, ?_⟩
    · dsimp only
      rw [comp_ccst_eq _ _ _ _ (by rw [hD]; exact hn), hT, hD]
    · intro h1
      dsimp only
      rw [comp_ccst_eq _ _ _ _ (by rw [hD]; exact hn), hD, h1]
      exact (ccst_orders k _).1
    · intro h0
      dsimp only
      rw [comp_ccst_eq _ _ _ _ (by rw [hD]; exact hn), hD, h0, hT]
      exact (ccst_orders k _).2
  · intro hdef
    refine ⟨?_, ?_⟩
    · intro r hT hD
      have hk2 : 0 ≤ (s.tets r.pTet).compdef.kcst
          ((s.tets r.pTet).compdef.reacG2L r.pReacdef.gidx) := by
        rw [hT, hD, hdef]
        exact hk
      have hV2 : 0 < (s.tets r.pTet).vol := by rw [hT]; exact hV
      refine ⟨_, Reac_resetCcst_ok s r hk2 hV2, ?_, ?_⟩
      · dsimp only
        rw [hT, hD, hdef]
      · dsimp only
        rw [comp_ccst_eq _ _ _ _ (by rw [hD]; exact hn), hT, hD, hdef]
    · have hk2 : 0 ≤ (s.tets tet).compdef.kcst ((s.tets tet).compdef.reacG2L rdef.gidx) := by
        rw [hdef]
        exact hk
      refine ⟨_, Reac_new_ok s rdef tet hk2 hV, ?_, ?_⟩
      · dsimp only
        rw [hdef]
      · dsimp only
        rw [comp_ccst_eq _ _ _ _ hn, hdef]

/-- Witness of C27 on the concrete system: `setKcst(3)` on the first-order reaction A → B
of tet 0 (volume 1) returns with `k = 3` and `c = 3`. -/
theorem Reac_ccst_spec_witness :
    ∃ r2, Reac.setKcst Demo.state Demo.reac0 3 = .ok r2 ∧ r2.pKcst = 3 ∧ r2.pCcst = 3 := by
  obtain ⟨r2, h1, h2, _, h4, _⟩ :=
    (Reac_ccst_spec Demo.state Demo.reac0.pReacdef 0 3 (by norm_num)
      (by norm_num [Demo.state, Demo.tet0]) (by decide)).1 Demo.reac0 rfl rfl
  exact ⟨r2, h1, h2, h4 rfl⟩

/-! ## Mesoscopic constant of a surface reaction (claim C28) -/

/-- The value of `comp_ccst_vol` for an order that fits an `int`. -/
theorem comp_ccst_vol_eq (k V : ℚ) (n : Nat) (hn : n < 2147483648) :
    comp_ccst_vol k V n = k * (1000 * V * AVOGADRO) ^ (-((n : Int) - 1)) := by
  unfold comp_ccst_vol
  dsimp only
  rw [ccst_exponent n hn]

/-- The value of `comp_ccst_area` for an order that fits an `int`. -/
theorem comp_ccst_area_eq (k A : ℚ) (n : Nat) (hn : n < 2147483648) :
    comp_ccst_area k A n = k * (A * AVOGADRO) ^ (-((n : Int) - 1)) := by
  unfold comp_ccst_area
  dsimp only
  rw [ccst_exponent n hn]

/-- The volume-scaled constant is not negative for `k >= 0` and a positive volume. -/
theorem comp_ccst_vol_nonneg (k V : ℚ) (n : Nat) (hk : 0 ≤ k) (hV : 0 < V) :
    0 ≤ comp_ccst_vol k V n := by
  unfold comp_ccst_vol
  dsimp only
  have hs : (0 : ℚ) < 1000 * V * AVOGADRO := by
    have := AVOGADRO_pos
    positivity
  exact mul_nonneg hk (le_of_lt (zpow_pos hs _))

/-- The area-scaled constant is not negative for `k >= 0` and a positive area. -/
theorem comp_ccst_area_nonneg (k A : ℚ) (n : Nat) (hk : 0 ≤ k) (hA : 0 < A) :
    0 ≤ comp_ccst_area k A n := by
  unfold comp_ccst_area
  dsimp only
  have hs : (0 : ℚ) < A * AVOGADRO := by
    have := AVOGADRO_pos
    positivity
  exact mul_nonneg hk (le_of_lt (zpow_pos hs _))

/-- The scale that the code of sreac.cpp selects, as the specification words it: the area
of the triangle times `N_A` when `surf_surf` holds, otherwise `1000 * V * N_A` with `V` the
volume of the inner tet when `inside` holds and of the outer tet when it does not. -/
theorem SReac_ccstFor_cases (s : State) (sr : SReac) (k : ℚ)
    (hn : sr.pSReacdef.order < 2147483648) :
    (sr.pSReacdef.surf_surf = true →
      SReac.ccstFor s sr k = .ok (k * ((s.tris sr.pTri).area * AVOGADRO)
        ^ (-((sr.pSReacdef.order : Int) - 1)))) ∧
    (sr.pSReacdef.surf_surf = false → sr.pSReacdef.inside = true →
      ∀ t, (s.tris sr.pTri).iTet = some t →
      SReac.ccstFor s sr k = .ok (k * (1000 * (s.tets t).vol * AVOGADRO)
        ^ (-((sr.pSReacdef.order : Int) - 1)))) ∧
    (sr.pSReacdef.surf_surf = false → sr.pSReacdef.inside = false →
      ∀ t, (s.tris sr.pTri).oTet = some t →
      SReac.ccstFor s sr k = .ok (k * (1000 * (s.tets t).vol * AVOGADRO)
        ^ (-((sr.pSReacdef.order : Int) - 1)))) := by
  refine ⟨?_, ?_, ?_⟩
  · intro h1
    unfold SReac.ccstFor
    rw [h1, comp_ccst_area_eq _ _ _ hn]
    rfl
  · intro h1 h2 t ht
    unfold SReac.ccstFor
    rw [if_pos h1, if_pos h2, ht]
    dsimp only
    rw [comp_ccst_vol_eq _ _ _ hn]
  · intro h1 h2 t ht
    unfold SReac.ccstFor
    rw [if_pos h1, if_neg (by rw [h2]; simp), ht]
    dsimp only
    rw [comp_ccst_vol_eq _ _ _ hn]

/-- What a successful `setKcst(k)` stores. -/
theorem SReac_setKcst_inv (s : State) (sr sr2 : SReac) (k : ℚ)
    (h : SReac.setKcst s sr k = .ok sr2) :
    sr2.pKcst = k ∧ SReac.ccstFor s sr k = .ok sr2.pCcst ∧ sr2.pSReacdef = sr.pSReacdef ∧
    sr2.pTri = sr.pTri ∧ sr2.pUpdVec = sr.pUpdVec ∧ 0 ≤ k ∧ 0 ≤ sr2.pCcst := by
  unfold SReac.setKcst at h
  by_cases hk : k ≥ 0
  · rw [if_neg (not_not.mpr hk)] at h
    cases hc : SReac.ccstFor s sr k with
    | error e => rw [hc] at h; cases h
    | ok c =>
      rw [hc] at h
      dsimp only at h
      by_cases hc0 : c ≥ 0
      · rw [if_neg (not_not.mpr hc0)] at h
        rw [← Except.ok.inj h]
        exact ⟨rfl, rfl, rfl, rfl, rfl, hk, hc0⟩
      · rw [if_pos hc0] at h
        cases h
  · rw [if_pos hk] at h
    cases h

/-- Method `setKcst(k)` returns when `k >= 0`, the tet it scales by exists and the constant
is not negative. -/
theorem SReac_setKcst_ok (s : State) (sr : SReac) (k c : ℚ) (hk : 0 ≤ k)
    (hc : SReac.ccstFor s sr k = .ok c) (hc0 : 0 ≤ c) :
    SReac.setKcst s sr k = .ok { sr with pKcst := k, pCcst := c } := by
  unfold SReac.setKcst
  have hk2 : k ≥ 0 := hk
  have hc2 : c ≥ 0 := hc0
  rw [if_neg (not_not.mpr hk2), hc]
  dsimp only
  rw [if_neg (not_not.mpr hc2)]

/-- Method `resetCcst()` is `setKcst` with the default of the patch, when that default is
not negative. -/
theorem SReac_resetCcst_eq (s : State) (sr : SReac)
    (hk : 0 ≤ (s.tris sr.pTri).patchdef.kcst
      ((s.tris sr.pTri).patchdef.sreacG2L sr.pSReacdef.gidx)) :
    SReac.resetCcst s sr = SReac.setKcst s sr
      ((s.tris sr.pTri).patchdef.kcst ((s.tris sr.pTri).patchdef.sreacG2L sr.pSReacdef.gidx)) := by
  unfold SReac.resetCcst SReac.setKcst
  have hk2 : (s.tris sr.pTri).patchdef.kcst
      ((s.tris sr.pTri).patchdef.sreacG2L sr.pSReacdef.gidx) ≥ 0 := hk
  rw [if_neg (not_not.mpr hk2)]

/-- What a successful constructor stores. -/
theorem SReac_new_inv (s : State) (srdef : SReacdef) (tri : Nat) (sr2 : SReac)
    (h : SReac.new s srdef tri = .ok sr2) :
    sr2.pSReacdef = srdef ∧ sr2.pTri = tri ∧
    sr2.pKcst = (s.tris tri).patchdef.kcst ((s.tris tri).patchdef.sreacG2L srdef.gidx) ∧
    SReac.ccstFor s sr2 sr2.pKcst = .ok sr2.pCcst := by
  unfold SReac.new at h
  dsimp only at h
  cases hc : SReac.ccstFor s
      { pSReacdef := srdef, pTri := tri, pUpdVec := [], pCcst := 0
        pKcst := (s.tris tri).patchdef.kcst ((s.tris tri).patchdef.sreacG2L srdef.gidx) }
      ((s.tris tri).patchdef.kcst ((s.tris tri).patchdef.sreacG2L srdef.gidx)) with
  | error e => rw [hc] at h; cases h
  | ok c =>
    rw [hc] at h
    dsimp only at h
    by_cases hc0 : c ≥ 0
    · rw [if_neg (not_not.mpr hc0)] at h
      rw [← Except.ok.inj h]
      exact ⟨rfl, rfl, rfl, hc⟩
    · rw [if_pos hc0] at h
      cases h

/-- One of the loops of `SReac::rate` reads the counts only. -/
theorem SReac_rateVol_scale (s s2 : State) (sr sr2 : SReac) (lhs_vec : Nat → Nat) (n : Nat)
    (tet : Option Nat) (h_mu a v : ℚ) (hp : ∀ t, (s2.tets t).pools = (s.tets t).pools)
    (hc : sr2.pCcst = a * sr.pCcst)
    (h : SReac.rateVol s sr lhs_vec n tet h_mu = .ok v) :
    SReac.rateVol s2 sr2 lhs_vec n tet h_mu = .ok (a * v) := by
  unfold SReac.rateVol at h ⊢
  cases tet with
  | none => cases h
  | some t =>
    dsimp only at h ⊢
    rw [hp t]
    cases hl : SReac.hmuLoop lhs_vec (s.tets t).pools (List.range n) h_mu with
    | error e => rw [hl] at h; cases h
    | ok o =>
      rw [hl] at h
      cases o with
      | none =>
        dsimp only at h ⊢
        rw [← Except.ok.inj h, mul_zero]
      | some h2 =>
        dsimp only at h ⊢
        rw [← Except.ok.inj h, hc]
        congr 1
        ring

/-- The propensity of a surface reaction is linear in its constant: with the same counts,
the same flags and the same reaction, a constant scaled by `a` gives a propensity scaled
by `a`. -/
theorem SReac_rate_scale (s s2 : State) (k : KProc) (sr sr2 : SReac) (a v : ℚ)
    (htris : s2.tris = s.tris) (hp : ∀ t, (s2.tets t).pools = (s.tets t).pools)
    (hdef : sr2.pSReacdef = sr.pSReacdef) (htri : sr2.pTri = sr.pTri)
    (hc : sr2.pCcst = a * sr.pCcst)
    (h : SReac.rate s k sr = .ok v) : SReac.rate s2 k sr2 = .ok (a * v) := by
  unfold SReac.rate at h ⊢
  by_cases hin : k.inactive = true
  · rw [if_pos hin] at h ⊢
    rw [← Except.ok.inj h, mul_zero]
  · rw [if_neg hin] at h ⊢
    dsimp only at h ⊢
    rw [htris, htri, hdef]
    cases hl : SReac.hmuLoop
        ((s.tris sr.pTri).patchdef.sreac_lhs_S_bgn
          ((s.tris sr.pTri).patchdef.sreacG2L sr.pSReacdef.gidx))
        (s.tris sr.pTri).pools (List.range (s.tris sr.pTri).patchdef.countSpecs) 1 with
    | error e => rw [hl] at h; cases h
    | ok o =>
      rw [hl] at h
      cases o with
      | none =>
        dsimp only at h ⊢
        rw [← Except.ok.inj h, mul_zero]
      | some h_mu =>
        dsimp only at h ⊢
        by_cases hi : sr.pSReacdef.inside = true
        · rw [if_pos hi] at h ⊢
          exact SReac_rateVol_scale s s2 sr sr2 _ _ _ h_mu a v hp hc h
        · rw [if_neg hi] at h ⊢
          by_cases ho : sr.pSReacdef.outside = true
          · rw [if_pos ho] at h ⊢
            exact SReac_rateVol_scale s s2 sr sr2 _ _ _ h_mu a v hp hc h
          · rw [if_neg ho] at h ⊢
            rw [← Except.ok.inj h, hc]
            congr 1
            ring

/-- Doubling the scale halves the constant of a second-order reaction. -/
theorem ccst_second_order_half (k x : ℚ) :
    k * (1000 * (2 * x) * AVOGADRO) ^ (-(((2 : Nat) : Int) - 1))
      = (1 / 2) * (k * (1000 * x * AVOGADRO) ^ (-(((2 : Nat) : Int) - 1))) := by
  have h : (-(((2 : Nat) : Int) - 1)) = -1 := by norm_num
  rw [h, zpow_neg_one, zpow_neg_one]
  have hA := AVOGADRO_pos
  by_cases hx : x = 0
  · rw [hx]
    simp
  · have h1 : (1000 * (2 * x) * AVOGADRO) = 2 * (1000 * x * AVOGADRO) := by ring
    rw [h1, mul_inv]
    ring

/-- What a successful `resetCcst()` stores. -/
theorem SReac_resetCcst_inv (s : State) (sr sr2 : SReac)
    (h : SReac.resetCcst s sr = .ok sr2) :
    sr2.pKcst = (s.tris sr.pTri).patchdef.kcst
      ((s.tris sr.pTri).patchdef.sreacG2L sr.pSReacdef.gidx) ∧
    SReac.ccstFor s sr ((s.tris sr.pTri).patchdef.kcst
      ((s.tris sr.pTri).patchdef.sreacG2L sr.pSReacdef.gidx)) = .ok sr2.pCcst ∧
    sr2.pSReacdef = sr.pSReacdef ∧ sr2.pTri = sr.pTri ∧ sr2.pUpdVec = sr.pUpdVec ∧
    0 ≤ sr2.pCcst := by
  unfold SReac.resetCcst at h
  dsimp only at h
  cases hc : SReac.ccstFor s sr ((s.tris sr.pTri).patchdef.kcst
      ((s.tris sr.pTri).patchdef.sreacG2L sr.pSReacdef.gidx)) with
  | error e => rw [hc] at h; cases h
  | ok c =>
    rw [hc] at h
    dsimp only at h
    by_cases hc0 : c ≥ 0
    · rw [if_neg (not_not.mpr hc0)] at h
      rw [← Except.ok.inj h]
      exact ⟨rfl, rfl, rfl, rfl, rfl, hc0⟩
    · rw [if_pos hc0] at h
      cases h

/-- The constant depends on the SReac only through its definition and its triangle. -/
theorem SReac_ccstFor_congr (s : State) (sr sr2 : SReac) (k : ℚ)
    (hd : sr2.pSReacdef = sr.pSReacdef) (ht : sr2.pTri = sr.pTri) :
    SReac.ccstFor s sr2 k = SReac.ccstFor s sr k := by
  unfold SReac.ccstFor
  rw [hd, ht]

/-- C28. The constant `c` of an SReac after `setKcst(k)`, `resetCcst()` or construction
(`k` then being the default of the patch) is the value of the scaling block for the stored
`k`, and that value is `k * scale^(-(order-1))` with `scale = area*N_A` of the triangle
when `surf_surf` holds, and otherwise `scale = 1000*V*N_A` with `V` the volume of the
inner tet when `inside()` holds and of the outer tet when it does not; `setKcst` returns
whenever `k >= 0` and the constant is not negative. Consequently, for a second-order
reaction with `surf_surf = false` and outside orientation, `k >= 0` and an outer tet of
volume `V > 0`: in the state where that volume is `2*V` and nothing else differs,
`setKcst(k)` stores half the constant, and with that constant `rate()` is half of what it
is with the other, for the same counts and flags. -/
theorem SReac_ccst_spec (s : State) (sr : SReac) (hn : sr.pSReacdef.order < 2147483648) :
    (∀ k sr2, SReac.setKcst s sr k = .ok sr2 →
      sr2.pKcst = k ∧ SReac.ccstFor s sr k = .ok sr2.pCcst) ∧
    (∀ sr2, SReac.resetCcst s sr = .ok sr2 →
      sr2.pKcst = (s.tris sr.pTri).patchdef.kcst
        ((s.tris sr.pTri).patchdef.sreacG2L sr.pSReacdef.gidx) ∧
      SReac.ccstFor s sr sr2.pKcst = .ok sr2.pCcst) ∧
    (∀ sr2, SReac.new s sr.pSReacdef sr.pTri = .ok sr2 →
      sr2.pKcst = (s.tris sr.pTri).patchdef.kcst
        ((s.tris sr.pTri).patchdef.sreacG2L sr.pSReacdef.gidx) ∧
      SReac.ccstFor s sr sr2.pKcst = .ok sr2.pCcst) ∧
    (∀ k, (sr.pSReacdef.surf_surf = true →
        SReac.ccstFor s sr k = .ok (k * ((s.tris sr.pTri).area * AVOGADRO)
          ^ (-((sr.pSReacdef.order : Int) - 1)))) ∧
      (sr.pSReacdef.surf_surf = false → sr.pSReacdef.inside = true →
        ∀ t, (s.tris sr.pTri).iTet = some t →
        SReac.ccstFor s sr k = .ok (k * (1000 * (s.tets t).vol * AVOGADRO)
          ^ (-((sr.pSReacdef.order : Int) - 1)))) ∧
      (sr.pSReacdef.surf_surf = false → sr.pSReacdef.inside = false →
        ∀ t, (s.tris sr.pTri).oTet = some t →
        SReac.ccstFor s sr k = .ok (k * (1000 * (s.tets t).vol * AVOGADRO)
          ^ (-((sr.pSReacdef.order : Int) - 1))))) ∧
    (∀ k c, 0 ≤ k → SReac.ccstFor s sr k = .ok c → 0 ≤ c →
      SReac.setKcst s sr k = .ok { sr with pKcst := k, pCcst := c }) ∧
    (sr.pSReacdef.order = 2 → sr.pSReacdef.surf_surf = false →
      sr.pSReacdef.inside = false → sr.pSReacdef.outside = true →
      ∀ ot k, (s.tris sr.pTri).oTet = some ot → 0 < (s.tets ot).vol → 0 ≤ k →
      ∃ sr1 sr2, SReac.setKcst s sr k = .ok sr1 ∧
        SReac.setKcst (s.setTet ot { s.tets ot with vol := 2 * (s.tets ot).vol }) sr k
          = .ok sr2 ∧
        sr2.pCcst = (1 / 2) * sr1.pCcst ∧
        ∀ (kp : KProc) (v : ℚ), SReac.rate s kp sr1 = .ok v →
          SReac.rate (s.setTet ot { s.tets ot with vol := 2 * (s.tets ot).vol }) kp sr2
            = .ok ((1 / 2) * v)) := by
  refine ⟨?_, ?_, ?_, fun k => SReac_ccstFor_cases s sr k hn,
    fun k c hk hc hc0 => SReac_setKcst_ok s sr k c hk hc hc0, ?_⟩
  · intro k sr2 h
    obtain ⟨a, b, _⟩ := SReac_setKcst_inv s sr sr2 k h
    exact ⟨a, b⟩
  · intro sr2 h
    obtain ⟨a, b, _⟩ := SReac_resetCcst_inv s sr sr2 h
    refine ⟨a, ?_⟩
    rw [a]
    exact b
  · intro sr2 h
    obtain ⟨a, b, c, d⟩ := SReac_new_inv s _ _ sr2 h
    refine ⟨c, ?_⟩
    rw [← SReac_ccstFor_congr s sr sr2 _ a b]
    exact d
  · intro ho hss hin _ ot k hot hV hk
    have hc1 := (SReac_ccstFor_cases s sr k hn).2.2 hss hin ot hot
    have hpos : (0 : ℚ) < 1000 * (s.tets ot).vol * AVOGADRO := by
      have := AVOGADRO_pos
      positivity
    have hnn1 : 0 ≤ k * (1000 * (s.tets ot).vol * AVOGADRO)
        ^ (-((sr.pSReacdef.order : Int) - 1)) :=
      mul_nonneg hk (le_of_lt (zpow_pos hpos _))
    -- the state with the doubled volume
    have htris : (s.setTet ot { s.tets ot with vol := 2 * (s.tets ot).vol }).tris = s.tris := rfl
    have hvol : ((s.setTet ot { s.tets ot with vol := 2 * (s.tets ot).vol }).tets ot).vol
        = 2 * (s.tets ot).vol := by
      unfold State.setTet
      simp only [Function.update_same]
    have hpools : ∀ t, ((s.setTet ot { s.tets ot with vol := 2 * (s.tets ot).vol }).tets t).pools
        = (s.tets t).pools := by
      intro t
      unfold State.setTet
      by_cases ht : t = ot
      · rw [ht]
        simp only [Function.update_same]
      · simp only [Function.update_noteq ht]
    have hc2 := (SReac_ccstFor_cases
      (s.setTet ot { s.tets ot with vol := 2 * (s.tets ot).vol }) sr k hn).2.2 hss hin ot
      (by rw [htris]; exact hot)
    rw [hvol] at hc2
    have hpos2 : (0 : ℚ) < 1000 * (2 * (s.tets ot).vol) * AVOGADRO := by
      have := AVOGADRO_pos
      positivity
    have hnn2 : 0 ≤ k * (1000 * (2 * (s.tets ot).vol) * AVOGADRO)
        ^ (-((sr.pSReacdef.order : Int) - 1)) :=
      mul_nonneg hk (le_of_lt (zpow_pos hpos2 _))
    have hhalf : k * (1000 * (2 * (s.tets ot).vol) * AVOGADRO)
        ^ (-((sr.pSReacdef.order : Int) - 1))
        = (1 / 2) * (k * (1000 * (s.tets ot).vol * AVOGADRO)
          ^ (-((sr.pSReacdef.order : Int) - 1))) := by
      rw [ho]
      exact ccst_second_order_half k _
    refine ⟨_, _, SReac_setKcst_ok s sr k _ hk hc1 hnn1,
      SReac_setKcst_ok _ sr k _ hk hc2 hnn2, hhalf, ?_⟩
    intro kp v hv
    exact SReac_rate_scale s _ kp
      { sr with pKcst := k, pCcst := k * (1000 * (s.tets ot).vol * AVOGADRO)
        ^ (-((sr.pSReacdef.order : Int) - 1)) }
      { sr with pKcst := k, pCcst := k * (1000 * (2 * (s.tets ot).vol) * AVOGADRO)
        ^ (-((sr.pSReacdef.order : Int) - 1)) }
      (1 / 2) v htris hpools rfl rfl hhalf hv

/-- The propensity of the outside-oriented surface reaction of the concrete system with
constant `c`: one S on the triangle and two A in the outer tet give `2*c`. -/
theorem demo_out_rate (c : ℚ) :
    SReac.rate Demo.outState (Demo.kproc 2) { Demo.sreacOut with pKcst := 1, pCcst := c }
      = .ok (c * 1 * 2) := by
  norm_num [SReac.rate, Demo.outState, Demo.state, Demo.kproc, KProc.inactive, INACTIVATED,
    Demo.sreacOut, Demo.tri0, Demo.tet0, Demo.pdef, SReac.hmuLoop, SReac.rateVol, SReac.lidx,
    List.range, List.range.loop, switchLhs, toInt, toUInt, wrapInt]
  ring

/-- Witness of C28 on the concrete system with outside orientation: with `k = 1` and the
outer tet of volume 1 the constant is `1/(1000*N_A)` and the propensity twice that; with
the outer tet of volume 2 the constant and the propensity are half of these. -/
theorem SReac_ccst_spec_witness : ∃ sr1 sr2,
    SReac.setKcst Demo.outState Demo.sreacOut 1 = .ok sr1 ∧
    SReac.setKcst (Demo.outState.setTet 0
      { Demo.outState.tets 0 with vol := 2 * (Demo.outState.tets 0).vol }) Demo.sreacOut 1
      = .ok sr2 ∧
    sr1.pCcst = 1 / (1000 * AVOGADRO) ∧ sr2.pCcst = (1 / 2) * sr1.pCcst ∧
    SReac.rate Demo.outState (Demo.kproc 2) sr1 = .ok (sr1.pCcst * 1 * 2) ∧
    SReac.rate (Demo.outState.setTet 0
      { Demo.outState.tets 0 with vol := 2 * (Demo.outState.tets 0).vol }) (Demo.kproc 2) sr2
      = .ok ((1 / 2) * (sr1.pCcst * 1 * 2)) := by
  have hspec := SReac_ccst_spec Demo.outState Demo.sreacOut (by decide)
  obtain ⟨sr1, sr2, h1, h2, h3, h4⟩ := hspec.2.2.2.2.2 rfl rfl rfl rfl 0 1 rfl
    (by norm_num [Demo.outState, Demo.state, Demo.tet0]) (by norm_num)
  have hc := (hspec.2.2.2.1 1).2.2 rfl rfl 0 rfl
  have hs := (hspec.1 1 sr1 h1).2
  rw [hc] at hs
  have hc1 : sr1.pCcst = 1 / (1000 * AVOGADRO) := by
    rw [← Except.ok.inj hs]
    norm_num [Demo.outState, Demo.state, Demo.tet0, Demo.sreacOut]
  have hform : sr1 = { Demo.sreacOut with pKcst := 1, pCcst := sr1.pCcst } := by
    obtain ⟨a, _, c, d, e, _⟩ := SReac_setKcst_inv _ _ _ _ h1
    cases sr1
    simp only at a c d e ⊢
    rw [a, c, d, e]
  have hr : SReac.rate Demo.outState (Demo.kproc 2) sr1 = .ok (sr1.pCcst * 1 * 2) := by
    rw [hform]
    exact demo_out_rate _
  exact ⟨sr1, sr2, h1, h2, hc1, h3, hr, h4 _ _ hr⟩

/-! ## Reset and construction of a diffusion (claims C22, C21) -/

/-- What a successful `Diff::reset()` leaves: the Diff that `setDcst` derives from the four
cleared flags and the default constant, in a KProc with cleared record, zero extent and
the INACTIVATED bit cleared. -/
theorem Diff_reset_inv (s : State) (k k2 : KProc) (d : Diff) (h : Diff.reset s k d = .ok k2) :
    ∃ d2, Diff.setDcst s
        { d with pDiffBndActive := Function.update (Function.update (Function.update
          (Function.update d.pDiffBndActive 0 false) 1 false) 2 false) 3 false }
        ((s.tets d.pTet).compdef.dcst ((s.tets d.pTet).compdef.diffG2L d.pDiffdef.gidx))
        = .ok d2 ∧
      k2 = KProc.setActive
        { k with crData := CRKProcData.cleared, rExtent := 0, variant := .diff d2 } true := by
  unfold Diff.reset at h
  dsimp only at h
  cases hs : Diff.setDcst s
      { d with pDiffBndActive := Function.update (Function.update (Function.update
        (Function.update d.pDiffBndActive 0 false) 1 false) 2 false) 3 false }
      ((s.tets d.pTet).compdef.dcst ((s.tets d.pTet).compdef.diffG2L d.pDiffdef.gidx)) with
  | error e => rw [hs] at h; cases h
  | ok d2 =>
    rw [hs] at h
    exact ⟨d2, rfl, (Except.ok.inj h).symm⟩

/-- The four writes of `reset()` clear the flags of the four faces. -/
theorem cleared_flags (f : Nat → Bool) (i : Nat) (hi : i < 4) :
    Function.update (Function.update (Function.update (Function.update f 0 false) 1 false)
      2 false) 3 false i = false := by
  have : i = 0 ∨ i = 1 ∨ i = 2 ∨ i = 3 := by omega
  rcases this with rfl | rfl | rfl | rfl <;> simp [Function.update]

/-- A face that is a diffusion-boundary face and whose flag is clear contributes 0. -/
theorem Diff_dSpec_closed (s : State) (d : Diff) (i : Nat)
    (hdir : d.pDiffBndDirection i = true) (hact : d.pDiffBndActive i = false) :
    Diff.dSpec s d i = 0 := by
  unfold Diff.dSpec
  rw [if_neg]
  rintro ⟨_, _, h | h⟩
  · rw [hdir] at h
    cases h
  · rw [hact] at h
    cases h

/-- C22. After a returning `Diff::reset()`: all four boundary-active flags are false; the
diffusion constant is the compartment default; `scaledDcst` is the sum of the four
per-face coefficients, of which every diffusion-boundary face contributes 0, and the CDF
is the one `setDcst` derives from them (the result is a fixed point of `setDcst`, all
zero when `scaledDcst` is 0 and the running quotients otherwise); the extent is 0; the
KProc is active; and its CR record is cleared (recorded = false, pow = 0, pos = 0,
rate = 0). The call returns when the default constant and the geometry are not
negative. -/
theorem Diff_reset_spec (s : State) (k : KProc) (d : Diff) :
    (∀ k2, Diff.reset s k d = .ok k2 → ∃ d2, k2.variant = .diff d2 ∧
      (∀ i, i < 4 → d2.pDiffBndActive i = false) ∧
      d2.pDcst = (s.tets d.pTet).compdef.dcst ((s.tets d.pTet).compdef.diffG2L d.pDiffdef.gidx) ∧
      d2.pScaledDcst = Diff.dSpec s d2 0 + Diff.dSpec s d2 1 + Diff.dSpec s d2 2
        + Diff.dSpec s d2 3 ∧
      (∀ i, i < 4 → d2.pDiffBndDirection i = true → Diff.dSpec s d2 i = 0) ∧
      Diff.setDcst s d2 d2.pDcst = .ok d2 ∧
      (d2.pScaledDcst = 0 →
        d2.pCDFSelector 0 = 0 ∧ d2.pCDFSelector 1 = 0 ∧ d2.pCDFSelector 2 = 0) ∧
      (d2.pScaledDcst ≠ 0 →
        d2.pCDFSelector 0 = Diff.dSpec s d2 0 / d2.pScaledDcst ∧
        d2.pCDFSelector 1 = Diff.dSpec s d2 0 / d2.pScaledDcst
          + Diff.dSpec s d2 1 / d2.pScaledDcst ∧
        d2.pCDFSelector 2 = Diff.dSpec s d2 0 / d2.pScaledDcst
          + Diff.dSpec s d2 1 / d2.pScaledDcst + Diff.dSpec s d2 2 / d2.pScaledDcst) ∧
      d2.pTet = d.pTet ∧ d2.pDiffdef = d.pDiffdef ∧
      d2.pDiffBndDirection = d.pDiffBndDirection ∧
      k2.rExtent = 0 ∧ k2.inactive = false ∧
      k2.crData.recorded = false ∧ k2.crData.pow = 0 ∧ k2.crData.pos = 0 ∧
      k2.crData.rate = 0) ∧
    (0 ≤ (s.tets d.pTet).compdef.dcst ((s.tets d.pTet).compdef.diffG2L d.pDiffdef.gidx) →
      (∀ i, i < 4 → 0 ≤ (s.tets d.pTet).area i) → 0 ≤ (s.tets d.pTet).vol →
      ∃ k2, Diff.reset s k d = .ok k2) := by
  refine ⟨?_, ?_⟩
  · intro k2 h
    obtain ⟨d2, hs, hk2⟩ := Diff_reset_inv s k k2 d h
    obtain ⟨_, _, a3, a4, _, _, a7, a8, a9, a10⟩ := Diff_setDcst_static s _ d2 _ hs
    obtain ⟨_, _, c3, c4⟩ := Diff_setDcst_consistent s _ d2 _ hs
    obtain ⟨_, e2, e3⟩ := Diff_setDcst_cdf s _ d2 _ hs
    obtain ⟨f1, f2, f3, _⟩ := setActive_fields
      { k with crData := CRKProcData.cleared, rExtent := 0, variant := .diff d2 } true
    have hflags : ∀ i, i < 4 → d2.pDiffBndActive i = false := by
      intro i hi
      rw [a9]
      exact cleared_flags _ i hi
    refine ⟨d2, ?_, hflags, a7, c4, ?_, ?_, e2, ?_, a4, a3, a8, ?_, ?_, ?_, ?_, ?_, ?_⟩
    · rw [hk2, f1]
    · intro i hi hdir
      exact Diff_dSpec_closed s d2 i hdir (hflags i hi)
    · rw [a7]
      exact a10
    · intro hne
      obtain ⟨g0, g1, g2⟩ := e3 hne
      rw [c3 0] at g0 g1 g2
      rw [c3 1] at g1 g2
      rw [c3 2] at g2
      exact ⟨g0, g1, g2⟩
    · rw [hk2, f3]
    · rw [hk2]
      exact setActive_true_active _
    · rw [hk2, f2]
      rfl
    · rw [hk2, f2]
      rfl
    · rw [hk2, f2]
      rfl
    · rw [hk2, f2]
      rfl
  · intro hD ha hv
    obtain ⟨d2, hd2⟩ := Diff_setDcst_ok s
      { d with pDiffBndActive := Function.update (Function.update (Function.update
        (Function.update d.pDiffBndActive 0 false) 1 false) 2 false) 3 false }
      ((s.tets d.pTet).compdef.dcst ((s.tets d.pTet).compdef.diffG2L d.pDiffdef.gidx))
      hD ha hv
    unfold Diff.reset
    dsimp only
    rw [hd2]
    exact ⟨_, rfl⟩

/-- Witness of C22 on the concrete system: resetting the diffusion of A out of tet 0 (one
neighbour, unit geometry, default constant 1) returns with constant 1, cleared flags,
zero extent, the KProc active and an unrecorded CR record. -/
theorem Diff_reset_spec_witness : ∃ k2 d2,
    Diff.reset Demo.state (Demo.kproc 1) Demo.diff1 = .ok k2 ∧ k2.variant = .diff d2 ∧
    d2.pDcst = 1 ∧ d2.pDiffBndActive 0 = false ∧ k2.rExtent = 0 ∧ k2.inactive = false ∧
    k2.crData.recorded = false := by
  have hspec := Diff_reset_spec Demo.state (Demo.kproc 1) Demo.diff1
  obtain ⟨k2, hk2⟩ := hspec.2 (by norm_num [Demo.state, Demo.diff1, Demo.tet0, Demo.cdef])
    (by intro i _; norm_num [Demo.state, Demo.diff1, Demo.tet0])
    (by norm_num [Demo.state, Demo.diff1, Demo.tet0])
  obtain ⟨d2, h1, h2, h3, _, _, _, _, _, _, _, _, h12, h13, h14, _⟩ := hspec.1 k2 hk2
  refine ⟨k2, d2, hk2, h1, ?_, h2 0 (by decide), h12, h13, h14⟩
  rw [h3]
  norm_num [Demo.state, Demo.diff1, Demo.tet0, Demo.cdef]

/-- The constructor copies the boundary directions from the tet and never writes the
boundary-active flags: they are what the memory held. -/
theorem Diff_new_flags (s : State) (ddef : Diffdef) (tet : Nat) (stale : Nat → Bool)
    (d2 : Diff) (h : Diff.new s ddef tet stale = .ok d2) :
    d2.pDiffBndActive = stale ∧ d2.pDiffBndDirection = (s.tets tet).getDiffBndDirection := by
  unfold Diff.new at h
  simp only at h
  split_ifs at h <;> (rw [← Except.ok.inj h]; exact ⟨rfl, rfl⟩)

/-- The claim C21 fails on the code: constructing the diffusion of A in tet 0 of the
two-compartment system, whose face 0 is a diffusion-boundary face, in memory whose bytes
for `pDiffBndActive` are not zero, returns a Diff whose boundary-active flag of face 0 is
true and whose `d[0]`, `scaledDcst` and `CDF[0]` are 1: the boundary face contributes. -/
theorem Diff_new_reads_stale : ∃ d2,
    Diff.new Demo.gateState { gidx := 0, lig := 0 } 0 (fun _ => true) = .ok d2 ∧
    d2.pDiffBndDirection 0 = true ∧ d2.pDiffBndActive 0 = true ∧
    Diff.dArray Demo.gateState d2 d2.pDcst 0 = 1 ∧ d2.pScaledDcst = 1 ∧
    d2.pCDFSelector 0 = 1 := by
  obtain ⟨d2, hd2⟩ := Diff_new_ok Demo.gateState { gidx := 0, lig := 0 } 0 (fun _ => true)
    (by norm_num [Demo.gateState, Demo.bndState, Demo.cdefD, Demo.cdef])
    (by intro i _; norm_num [Demo.gateState, Demo.bndState, Demo.tet0])
    (by norm_num [Demo.gateState, Demo.bndState, Demo.tet0])
  obtain ⟨f1, f2⟩ := Diff_new_flags _ _ _ _ d2 hd2
  obtain ⟨c1, c2, _, c4, _, c6⟩ := Diff_new_cdf _ _ _ _ d2 hd2
  have hd : ∀ i, Diff.dArray Demo.gateState d2 d2.pDcst i = if i = 0 then 1 else 0 := by
    intro i
    unfold Diff.dArray
    rw [f1, f2, c1, c2]
    by_cases hi : i = 0
    · rw [hi]
      norm_num [Demo.gateState, Demo.bndState, Demo.tet0, Demo.cdefD, Demo.cdef]
    · simp [Demo.gateState, Demo.bndState, Demo.tet0, Demo.tet1, hi]
  have hsc : d2.pScaledDcst = 1 := by
    rw [c4, hd 0, hd 1, hd 2, hd 3]
    norm_num
  refine ⟨d2, hd2, ?_, ?_, ?_, hsc, ?_⟩
  · rw [f2]
    rfl
  · rw [f1]
  · rw [hd 0]
    rfl
  · rw [(c6 (by rw [hsc]; norm_num)).1, hd 0, hsc]
    norm_num

/-! ## Reset of the engine (claims C23, C24) -/

/-- Geometry agreement is reflexive. -/
theorem GeoSame_same (s : State) : GeoSame s s :=
  ⟨fun _ => ⟨rfl, rfl, rfl, rfl, rfl, rfl⟩, fun _ => ⟨rfl, rfl, rfl, rfl, rfl⟩⟩

/-- Geometry agreement is transitive. -/
theorem GeoSame_chain (s s2 s3 : State) (h1 : GeoSame s s2) (h2 : GeoSame s2 s3) :
    GeoSame s s3 := by
  refine ⟨fun t => ?_, fun t => ?_⟩
  · obtain ⟨a1, a2, a3, a4, a5, a6⟩ := h1.1 t
    obtain ⟨b1, b2, b3, b4, b5, b6⟩ := h2.1 t
    exact ⟨b1.trans a1, b2.trans a2, b3.trans a3, b4.trans a4, b5.trans a5, b6.trans a6⟩
  · obtain ⟨a1, a2, a3, a4, a5⟩ := h1.2 t
    obtain ⟨b1, b2, b3, b4, b5⟩ := h2.2 t
    exact ⟨b1.trans a1, b2.trans a2, b3.trans a3, b4.trans a4, b5.trans a5⟩

/-- Writing a KProc keeps the geometry. -/
theorem GeoSame_setKProc (s : State) (k : Nat) (x : KProc) : GeoSame s (s.setKProc k x) :=
  ⟨fun _ => ⟨rfl, rfl, rfl, rfl, rfl, rfl⟩, fun _ => ⟨rfl, rfl, rfl, rfl, rfl⟩⟩

/-- Writing the counts of a tet keeps the geometry. -/
theorem GeoSame_setPools (s : State) (t : Nat) (p : Nat → Nat) (c : Nat → Bool) :
    GeoSame s (s.setTet t { s.tets t with pools := p, clamped := c }) := by
  refine ⟨fun u => ?_, fun _ => ⟨rfl, rfl, rfl, rfl, rfl⟩⟩
  unfold State.setTet
  by_cases hu : u = t
  · rw [hu]
    simp [Function.update_same]
  · simp [Function.update_noteq hu]

/-- Writing the counts of a triangle keeps the geometry. -/
theorem GeoSame_setPoolsTri (s : State) (t : Nat) (p : Nat → Nat) (c : Nat → Bool) :
    GeoSame s (s.setTri t { s.tris t with pools := p, clamped := c }) := by
  refine ⟨fun _ => ⟨rfl, rfl, rfl, rfl, rfl, rfl⟩, fun u => ?_⟩
  unfold State.setTri
  by_cases hu : u = t
  · rw [hu]
    simp [Function.update_same]
  · simp [Function.update_noteq hu]

/-- Mutator `setDcst` reads the geometry of the tet only. -/
theorem Diff_setDcst_geo (s s2 : State) (d : Diff) (D : ℚ) (hg : GeoSame s s2) :
    Diff.setDcst s2 d D = Diff.setDcst s d D := by
  obtain ⟨_, a2, a3, a4, a5, _⟩ := hg.1 d.pTet
  have hd : Diff.dArray s2 d D = Diff.dArray s d D := by
    funext i
    unfold Diff.dArray
    rw [a2, a3, a4, a5]
  unfold Diff.setDcst
  rw [hd]

/-- The block of sreac.cpp that computes the constant reads the geometry only. -/
theorem SReac_ccstFor_geo (s s2 : State) (sr : SReac) (k : ℚ) (hg : GeoSame s s2) :
    SReac.ccstFor s2 sr k = SReac.ccstFor s sr k := by
  obtain ⟨_, b2, b3, b4, _⟩ := hg.2 sr.pTri
  have hv : ∀ t, (s2.tets t).vol = (s.tets t).vol := fun t => (hg.1 t).2.1
  unfold SReac.ccstFor
  rw [b2, b3, b4]
  simp only [hv]

/-- The `reset()` of a KProc reads the geometry and the definitions only. -/
theorem KProc_reset_geo (s s2 : State) (k : KProc) (hg : GeoSame s s2) :
    KProc.reset s2 k = KProc.reset s k := by
  unfold KProc.reset
  cases k.variant with
  | reac r =>
    obtain ⟨a1, a2, _⟩ := hg.1 r.pTet
    dsimp only
    unfold Reac.reset Reac.resetCcst
    rw [a1, a2]
  | sreac sr =>
    obtain ⟨b1, _⟩ := hg.2 sr.pTri
    dsimp only
    unfold SReac.reset SReac.resetCcst
    rw [b1]
    simp only [SReac_ccstFor_geo s s2 sr _ hg]
  | diff d =>
    obtain ⟨a1, _⟩ := hg.1 d.pTet
    dsimp only
    unfold Diff.reset
    rw [a1]
    simp only [Diff_setDcst_geo s s2 _ _ hg]

/-- Clearing the INACTIVATED bit twice is clearing it once. -/
theorem setActive_true_idem (k : KProc) :
    (k.setActive true).setActive true = k.setActive true := by
  unfold KProc.setActive
  simp only [if_true]
  have : k.pFlags &&& (4294967295 - INACTIVATED) &&& (4294967295 - INACTIVATED)
      = k.pFlags &&& (4294967295 - INACTIVATED) := by
    rw [Nat.and_assoc, Nat.and_self]
  rw [this]

/-- Clearing the four flags twice is clearing them once. -/
theorem cleared_flags_idem (f : Nat → Bool) :
    Function.update (Function.update (Function.update (Function.update
      (Function.update (Function.update (Function.update (Function.update f 0 false) 1 false)
        2 false) 3 false) 0 false) 1 false) 2 false) 3 false
    = Function.update (Function.update (Function.update (Function.update f 0 false) 1 false)
        2 false) 3 false := by
  funext i
  simp only [Function.update, eq_rec_constant, dite_eq_ite]
  split_ifs <;> rfl

/-- Resetting a KProc that has just been reset changes nothing. -/
theorem KProc_reset_idem (s : State) (k k2 : KProc) (h : KProc.reset s k = .ok k2) :
    KProc.reset s k2 = .ok k2 := by
  unfold KProc.reset at h
  cases hv : k.variant with
  | reac r =>
    rw [hv] at h
    dsimp only at h
    unfold Reac.reset Reac.resetCcst at h
    dsimp only at h
    by_cases hc : comp_ccst ((s.tets r.pTet).compdef.kcst
        ((s.tets r.pTet).compdef.reacG2L r.pReacdef.gidx)) (s.tets r.pTet).vol r.pReacdef.order
        (s.tets r.pTet).compdef.vol ≥ 0
    · rw [if_neg (not_not.mpr hc)] at h
      dsimp only at h
      rw [← Except.ok.inj h]
      unfold KProc.reset KProc.setActive
      simp only [if_true]
      unfold Reac.reset Reac.resetCcst
      dsimp only
      rw [if_neg (not_not.mpr hc)]
      dsimp only
      unfold KProc.setActive
      simp only [if_true, Nat.and_assoc, Nat.and_self]
    · rw [if_pos hc] at h
      cases h
  | sreac sr =>
    rw [hv] at h
    dsimp only at h
    unfold SReac.reset SReac.resetCcst at h
    dsimp only at h
    have hcc : ∀ x y z : ℚ, SReac.ccstFor s { sr with pKcst := x, pCcst := y } z
        = SReac.ccstFor s sr z := fun _ _ _ => rfl
    cases hf : SReac.ccstFor s sr ((s.tris sr.pTri).patchdef.kcst
        ((s.tris sr.pTri).patchdef.sreacG2L sr.pSReacdef.gidx)) with
    | error e => rw [hf] at h; cases h
    | ok c =>
      rw [hf] at h
      dsimp only at h
      by_cases hc : c ≥ 0
      · rw [if_neg (not_not.mpr hc)] at h
        dsimp only at h
        rw [← Except.ok.inj h]
        unfold KProc.reset KProc.setActive
        simp only [if_true]
        unfold SReac.reset SReac.resetCcst
        dsimp only
        rw [hcc, hf]
        dsimp only
        rw [if_neg (not_not.mpr hc)]
        dsimp only
        unfold KProc.setActive
        simp only [if_true, Nat.and_assoc, Nat.and_self]
      · rw [if_pos hc] at h
        cases h
  | diff d =>
    rw [hv] at h
    dsimp only at h
    obtain ⟨d2, hs, hk⟩ := Diff_reset_inv s k k2 d h
    obtain ⟨_, _, e3, e4, _, _, _, _, e9, hfix⟩ := Diff_setDcst_static s _ d2 _ hs
    dsimp only at e3 e4 e9
    have hd2 : ({ d2 with pDiffBndActive := Function.update (Function.update (Function.update
        (Function.update d2.pDiffBndActive 0 false) 1 false) 2 false) 3 false } : Diff) = d2 := by
      rw [e9, cleared_flags_idem, ← e9]
    rw [hk]
    unfold KProc.reset KProc.setActive
    simp only [if_true]
    unfold Diff.reset
    dsimp only
    rw [hd2, e3, e4, hfix]
    dsimp only
    unfold KProc.setActive
    simp only [if_true, Nat.and_assoc, Nat.and_self]

/-- The start of a reset is a stage of it. -/
theorem ResetStage_start (s : State) : ResetStage s s :=
  ⟨GeoSame_same s, rfl, fun _ => Or.inl rfl⟩

/-- At a stage of a reset, the `reset()` of a KProc returns what the `reset()` of the
object of the starting state returns. -/
theorem ResetStage_reset (s0 s : State) (k : Nat) (hs : ResetStage s0 s) (k2 : KProc)
    (hok : KProc.reset s0 (s0.pKProcs k) = .ok k2) :
    KProc.reset s (s.pKProcs k) = .ok k2 := by
  rw [KProc_reset_geo s0 s _ hs.1]
  rcases hs.2.2 k with h | h
  · rw [h]
    exact hok
  · rw [hok] at h
    rw [← Except.ok.inj h]
    exact KProc_reset_idem s0 _ k2 hok

/-- The loop over the KProcs of one voxel or facet returns when each `reset()` passes its
assertions in the starting state; it changes KProcs only, and every KProc of the list ends
as what its `reset()` makes of the object of the starting state. -/
theorem resetKProcs_ok (s0 : State) (ks : List Nat)
    (hok : ∀ k ∈ ks, ∃ k2, KProc.reset s0 (s0.pKProcs k) = .ok k2) :
    ∀ s, ResetStage s0 s →
    ∃ s2, resetKProcs ks s = .ok s2 ∧ ResetStage s0 s2 ∧
      s2.tets = s.tets ∧ s2.tris = s.tris ∧
      (∀ j, KProc.reset s0 (s0.pKProcs j) = .ok (s.pKProcs j) →
        KProc.reset s0 (s0.pKProcs j) = .ok (s2.pKProcs j)) ∧
      (∀ k ∈ ks, KProc.reset s0 (s0.pKProcs k) = .ok (s2.pKProcs k)) := by
  induction ks with
  | nil =>
    intro s hs
    exact ⟨s, rfl, hs, rfl, rfl, fun _ h => h, fun k hk => absurd hk (List.not_mem_nil k)⟩
  | cons k rest ih =>
    intro s hs
    obtain ⟨k2, hk0⟩ := hok k (List.mem_cons_self k rest)
    have hk2 := ResetStage_reset s0 s k hs k2 hk0
    have hhead : (s.setKProc k k2).pKProcs k = k2 := by
      unfold State.setKProc
      simp only [Function.update_same]
    have hother : ∀ j, j ≠ k → (s.setKProc k k2).pKProcs j = s.pKProcs j := by
      intro j hj
      unfold State.setKProc
      simp only [Function.update_noteq hj]
    have hs1 : ResetStage s0 (s.setKProc k k2) := by
      refine ⟨GeoSame_chain s0 s _ hs.1 (GeoSame_setKProc s k k2), hs.2.1, fun j => ?_⟩
      by_cases hj : j = k
      · right
        rw [hj, hhead]
        exact hk0
      · rw [hother j hj]
        exact hs.2.2 j
    obtain ⟨s2, h2, hst, ht, hr, hkeep, hfr⟩ :=
      ih (fun j hj => hok j (List.mem_cons_of_mem k hj)) (s.setKProc k k2) hs1
    refine ⟨s2, ?_, hst, ?_, ?_, fun j hj => ?_, fun j hj => ?_⟩
    · unfold resetKProcs
      rw [hk2]
      exact h2
    · rw [ht]; rfl
    · rw [hr]; rfl
    · apply hkeep
      by_cases hjk : j = k
      · rw [hjk, hhead]
        exact hk0
      · rw [hother j hjk]
        exact hj
    · rcases List.mem_cons.mp hj with hjk | hjr
      · rw [hjk]
        apply hkeep
        rw [hhead]
        exact hk0
      · exact hfr j hjr

/-- Method `Tet::reset()` returns at a stage of a reset when the `reset()` of each KProc of
the tet passes its assertions in the starting state. -/
theorem Tet_reset_ok (s0 s : State) (t : Nat) (hs : ResetStage s0 s)
    (hok : ∀ k ∈ (s0.tets t).kprocs, ∃ k2, KProc.reset s0 (s0.pKProcs k) = .ok k2) :
    ∃ s2, Tet.reset s t = .ok s2 ∧ ResetStage s0 s2 ∧
      (∀ j, KProc.reset s0 (s0.pKProcs j) = .ok (s.pKProcs j) →
        KProc.reset s0 (s0.pKProcs j) = .ok (s2.pKProcs j)) ∧
      (∀ k ∈ (s0.tets t).kprocs, KProc.reset s0 (s0.pKProcs k) = .ok (s2.pKProcs k)) := by
  have hk : (s.tets t).kprocs = (s0.tets t).kprocs := (hs.1.1 t).2.2.2.2.2
  have hs1 : ResetStage s0
      (s.setTet t { s.tets t with pools := fun _ => 0, clamped := fun _ => false }) :=
    ⟨GeoSame_chain s0 s _ hs.1 (GeoSame_setPools s t _ _), hs.2.1, hs.2.2⟩
  obtain ⟨s2, h2, hst, _, _, hkeep, hfr⟩ := resetKProcs_ok s0 (s0.tets t).kprocs hok _ hs1
  refine ⟨s2, ?_, hst, hkeep, hfr⟩
  unfold Tet.reset
  rw [hk]
  exact h2

/-- Method `Tri::reset()` returns at a stage of a reset when the `reset()` of each KProc of
the triangle passes its assertions in the starting state. -/
theorem Tri_reset_ok (s0 s : State) (t : Nat) (hs : ResetStage s0 s)
    (hok : ∀ k ∈ (s0.tris t).kprocs, ∃ k2, KProc.reset s0 (s0.pKProcs k) = .ok k2) :
    ∃ s2, Tri.reset s t = .ok s2 ∧ ResetStage s0 s2 ∧
      (∀ j, KProc.reset s0 (s0.pKProcs j) = .ok (s.pKProcs j) →
        KProc.reset s0 (s0.pKProcs j) = .ok (s2.pKProcs j)) ∧
      (∀ k ∈ (s0.tris t).kprocs, KProc.reset s0 (s0.pKProcs k) = .ok (s2.pKProcs k)) := by
  have hk : (s.tris t).kprocs = (s0.tris t).kprocs := (hs.1.2 t).2.2.2.2
  have hs1 : ResetStage s0
      (s.setTri t { s.tris t with pools := fun _ => 0, clamped := fun _ => false }) :=
    ⟨GeoSame_chain s0 s _ hs.1 (GeoSame_setPoolsTri s t _ _), hs.2.1, hs.2.2⟩
  obtain ⟨s2, h2, hst, _, _, hkeep, hfr⟩ := resetKProcs_ok s0 (s0.tris t).kprocs hok _ hs1
  refine ⟨s2, ?_, hst, hkeep, hfr⟩
  unfold Tri.reset
  rw [hk]
  exact h2

/-- The loop of `Tetexact::reset()` over the tets returns when every `reset()` it reaches
passes its assertions in the starting state. -/
theorem resetTets_ok (s0 : State) (ts : List (Option Nat))
    (hok : ∀ t, some t ∈ ts → ∀ k ∈ (s0.tets t).kprocs,
      ∃ k2, KProc.reset s0 (s0.pKProcs k) = .ok k2) :
    ∀ s, ResetStage s0 s →
    ∃ s2, resetTets ts s = .ok s2 ∧ ResetStage s0 s2 ∧
      (∀ j, KProc.reset s0 (s0.pKProcs j) = .ok (s.pKProcs j) →
        KProc.reset s0 (s0.pKProcs j) = .ok (s2.pKProcs j)) ∧
      (∀ t, some t ∈ ts → ∀ k ∈ (s0.tets t).kprocs,
        KProc.reset s0 (s0.pKProcs k) = .ok (s2.pKProcs k)) := by
  induction ts with
  | nil =>
    intro s hs
    exact ⟨s, rfl, hs, fun _ h => h, fun t ht => absurd ht (List.not_mem_nil _)⟩
  | cons o rest ih =>
    intro s hs
    cases o with
    | none =>
      obtain ⟨s2, h2, hst, hkeep, hfr⟩ :=
        ih (fun t ht => hok t (List.mem_cons_of_mem _ ht)) s hs
      refine ⟨s2, ?_, hst, hkeep, fun t ht => ?_⟩
      · unfold resetTets
        exact h2
      · rcases List.mem_cons.mp ht with h | h
        · cases h
        · exact hfr t h
    | some u =>
      obtain ⟨s1, h1, hs1, hkeep1, hfr1⟩ :=
        Tet_reset_ok s0 s u hs (hok u (List.mem_cons_self _ _))
      obtain ⟨s2, h2, hst, hkeep, hfr⟩ :=
        ih (fun t ht => hok t (List.mem_cons_of_mem _ ht)) s1 hs1
      refine ⟨s2, ?_, hst, fun j hj => hkeep j (hkeep1 j hj), fun t ht => ?_⟩
      · unfold resetTets
        rw [h1]
        exact h2
      · rcases List.mem_cons.mp ht with h | h
        · have htu : t = u := Option.some.inj h
          rw [htu]
          intro k hk
          exact hkeep k (hfr1 k hk)
        · exact hfr t h

/-- The loop of `Tetexact::reset()` over the triangles returns when every `reset()` it
reaches passes its assertions in the starting state. -/
theorem resetTris_ok (s0 : State) (ts : List (Option Nat))
    (hok : ∀ t, some t ∈ ts → ∀ k ∈ (s0.tris t).kprocs,
      ∃ k2, KProc.reset s0 (s0.pKProcs k) = .ok k2) :
    ∀ s, ResetStage s0 s →
    ∃ s2, resetTris ts s = .ok s2 ∧ ResetStage s0 s2 ∧
      (∀ j, KProc.reset s0 (s0.pKProcs j) = .ok (s.pKProcs j) →
        KProc.reset s0 (s0.pKProcs j) = .ok (s2.pKProcs j)) ∧
      (∀ t, some t ∈ ts → ∀ k ∈ (s0.tris t).kprocs,
        KProc.reset s0 (s0.pKProcs k) = .ok (s2.pKProcs k)) := by
  induction ts with
  | nil =>
    intro s hs
    exact ⟨s, rfl, hs, fun _ h => h, fun t ht => absurd ht (List.not_mem_nil _)⟩
  | cons o rest ih =>
    intro s hs
    cases o with
    | none =>
      obtain ⟨s2, h2, hst, hkeep, hfr⟩ :=
        ih (fun t ht => hok t (List.mem_cons_of_mem _ ht)) s hs
      refine ⟨s2, ?_, hst, hkeep, fun t ht => ?_⟩
      · unfold resetTris
        exact h2
      · rcases List.mem_cons.mp ht with h | h
        · cases h
        · exact hfr t h
    | some u =>
      obtain ⟨s1, h1, hs1, hkeep1, hfr1⟩ :=
        Tri_reset_ok s0 s u hs (hok u (List.mem_cons_self _ _))
      obtain ⟨s2, h2, hst, hkeep, hfr⟩ :=
        ih (fun t ht => hok t (List.mem_cons_of_mem _ ht)) s1 hs1
      refine ⟨s2, ?_, hst, fun j hj => hkeep j (hkeep1 j hj), fun t ht => ?_⟩
      · unfold resetTris
        rw [h1]
        exact h2
      · rcases List.mem_cons.mp ht with h | h
        · have htu : t = u := Option.some.inj h
          rw [htu]
          intro k hk
          exact hkeep k (hfr1 k hk)
        · exact hfr t h

/-- What `Tetexact::reset()` returns, read off its last assignments. -/
theorem reset_inv (E : Engine) (s s2 : State) (h : reset E s = .ok s2) :
    s2.pTime = 0 ∧ s2.pNSteps = 0 ∧ s2.pA0 = 0 ∧ s2.pSum = 0 ∧ s2.nSum = 0 ∧
    s2.pGroupsSize = 0 ∧ s2.nGroupsSize = 0 := by
  unfold reset at h
  cases h1 : resetTets E.pTets s with
  | error e => rw [h1] at h; cases h
  | ok s1 =>
    rw [h1] at h
    dsimp only at h
    cases h2 : resetTris E.pTris s1 with
    | error e => rw [h2] at h; cases h
    | ok s3 =>
      rw [h2] at h
      dsimp only at h
      rw [← Except.ok.inj h]
      exact ⟨rfl, rfl, rfl, rfl, rfl, rfl, rfl⟩

/-- Method `Tetexact::reset()` returns when the `reset()` of every KProc it reaches passes
its assertions; the geometry is kept and every such KProc ends as what its `reset()`
returns. -/
theorem reset_ok (E : Engine) (s : State)
    (hok : ∀ k, E.owns s k → ∃ k2, KProc.reset s (s.pKProcs k) = .ok k2) :
    ∃ s2, reset E s = .ok s2 ∧ GeoSame s s2 ∧ s2.nEntries = s.nEntries ∧
      ∀ k, E.owns s k → KProc.reset s (s.pKProcs k) = .ok (s2.pKProcs k) := by
  obtain ⟨s1, h1, hs1, _, hfr1⟩ := resetTets_ok s E.pTets
    (fun t ht k hk => hok k (Or.inl ⟨t, ht, hk⟩)) s (ResetStage_start s)
  obtain ⟨s2, h2, hs2, hkeep2, hfr2⟩ := resetTris_ok s E.pTris
    (fun t ht k hk => hok k (Or.inr ⟨t, ht, hk⟩)) s1 hs1
  have hg : GeoSame s { s2 with
      nGroupsSize := 0, pGroupsSize := 0, pSum := 0, nSum := 0, pA0 := 0
      pTime := 0, pNSteps := 0 } := hs2.1
  refine ⟨_, ?_, hg, hs2.2.1, fun k hk => ?_⟩
  · unfold reset
    rw [h1]
    dsimp only
    rw [h2]
  · rcases hk with ⟨t, ht, hk⟩ | ⟨t, ht, hk⟩
    · exact hkeep2 k (hfr1 t ht k hk)
    · exact hfr2 t ht k hk

/-- The `reset()` of a reaction returns when the default constant is not negative and the
volume of the tet is positive. -/
theorem KProc_reset_reac_ok (s : State) (k : KProc) (r : Reac) (hv : k.variant = .reac r)
    (hk : 0 ≤ (s.tets r.pTet).compdef.kcst ((s.tets r.pTet).compdef.reacG2L r.pReacdef.gidx))
    (hV : 0 < (s.tets r.pTet).vol) :
    ∃ k2, KProc.reset s k = .ok k2 := by
  unfold KProc.reset
  rw [hv]
  dsimp only
  unfold Reac.reset
  rw [Reac_resetCcst_ok s r hk hV]
  exact ⟨_, rfl⟩

/-- The `reset()` of a surface reaction returns when the default constant is not negative
and the block that scales it returns a constant that is not negative. -/
theorem KProc_reset_sreac_ok (s : State) (k : KProc) (sr : SReac) (c : ℚ)
    (hv : k.variant = .sreac sr)
    (hk : 0 ≤ (s.tris sr.pTri).patchdef.kcst
      ((s.tris sr.pTri).patchdef.sreacG2L sr.pSReacdef.gidx))
    (hc : SReac.ccstFor s sr ((s.tris sr.pTri).patchdef.kcst
      ((s.tris sr.pTri).patchdef.sreacG2L sr.pSReacdef.gidx)) = .ok c) (hc0 : 0 ≤ c) :
    ∃ k2, KProc.reset s k = .ok k2 := by
  unfold KProc.reset
  rw [hv]
  dsimp only
  unfold SReac.reset
  rw [SReac_resetCcst_eq s sr hk, SReac_setKcst_ok s sr _ c hk hc hc0]
  exact ⟨_, rfl⟩

/-- The `reset()` of a diffusion returns when the default constant and the geometry of the
tet are not negative. -/
theorem KProc_reset_diff_ok (s : State) (k : KProc) (d : Diff) (hv : k.variant = .diff d)
    (hD : 0 ≤ (s.tets d.pTet).compdef.dcst ((s.tets d.pTet).compdef.diffG2L d.pDiffdef.gidx))
    (ha : ∀ i, i < 4 → 0 ≤ (s.tets d.pTet).area i) (hV : 0 ≤ (s.tets d.pTet).vol) :
    ∃ k2, KProc.reset s k = .ok k2 := by
  obtain ⟨d2, hd2⟩ := Diff_setDcst_ok s
    { d with pDiffBndActive := Function.update (Function.update (Function.update
      (Function.update d.pDiffBndActive 0 false) 1 false) 2 false) 3 false }
    ((s.tets d.pTet).compdef.dcst ((s.tets d.pTet).compdef.diffG2L d.pDiffdef.gidx))
    hD ha hV
  unfold KProc.reset
  rw [hv]
  dsimp only
  unfold Diff.reset
  dsimp only
  rw [hd2]
  exact ⟨_, rfl⟩

/-- The KProcs that `reset()` reaches in the concrete engine are those at 0, 1 and 2,
whatever the counts and definitions in the state, as long as the lists of KProcs are those of
the concrete system. -/
theorem demo_owns (s : State) (k : Nat)
    (h0 : (s.tets 0).kprocs = [0, 1]) (h1 : (s.tets 1).kprocs = [])
    (h2 : (s.tris 0).kprocs = [2]) (h : Demo.engine.owns s k) :
    k = 0 ∨ k = 1 ∨ k = 2 := by
  rcases h with ⟨t, ht, hk⟩ | ⟨t, ht, hk⟩
  · have ht2 : t = 0 ∨ t = 1 := by
      simpa [Demo.engine] using ht
    rcases ht2 with rfl | rfl
    · rw [h0] at hk
      simp at hk
      omega
    · rw [h1] at hk
      simp at hk
  · have ht2 : t = 0 := by
      simpa [Demo.engine] using ht
    rw [ht2, h2] at hk
    simp at hk
    omega

/-- Every `reset()` that `Tetexact::reset()` reaches in the concrete system passes its
assertions. -/
theorem demo_reset_passes (k : Nat) (h : Demo.engine.owns Demo.state k) :
    ∃ k2, KProc.reset Demo.state (Demo.state.pKProcs k) = .ok k2 := by
  rcases demo_owns Demo.state k rfl rfl rfl h with rfl | rfl | rfl
  · exact KProc_reset_reac_ok Demo.state _ Demo.reac0 rfl
      (by norm_num [Demo.state, Demo.reac0, Demo.tet0, Demo.cdef])
      (by norm_num [Demo.state, Demo.reac0, Demo.tet0])
  · exact KProc_reset_diff_ok Demo.state _ Demo.diff1 rfl
      (by norm_num [Demo.state, Demo.diff1, Demo.tet0, Demo.cdef])
      (by intro i _; norm_num [Demo.state, Demo.diff1, Demo.tet0])
      (by norm_num [Demo.state, Demo.diff1, Demo.tet0])
  · refine KProc_reset_sreac_ok Demo.state _ Demo.sreac2 _ rfl
      (by norm_num [Demo.state, Demo.sreac2, Demo.tri0, Demo.pdef])
      ((SReac_ccstFor_cases Demo.state Demo.sreac2 _ (by decide)).2.1 rfl rfl 0 rfl) ?_
    have := AVOGADRO_pos
    norm_num [Demo.state, Demo.sreac2, Demo.tri0, Demo.pdef, Demo.tet0]
    positivity

/-- Claim C23. `Tetexact::reset()` leaves the simulation time 0, the step counter 0, the
total propensity A0 0 (with both partial sums 0) and both lists of composition-rejection
groups empty, whenever it returns; and it returns when the `reset()` of every KProc of an
assigned tet or triangle passes its assertions, every such KProc then being what its
`reset()` returns. -/
theorem reset_spec (E : Engine) (s : State) :
    (∀ s2, reset E s = .ok s2 →
      s2.pTime = 0 ∧ s2.pNSteps = 0 ∧ s2.pA0 = 0 ∧ s2.pSum = 0 ∧ s2.nSum = 0 ∧
      s2.pGroupsSize = 0 ∧ s2.nGroupsSize = 0) ∧
    ((∀ k, E.owns s k → ∃ k2, KProc.reset s (s.pKProcs k) = .ok k2) →
      ∃ s2, reset E s = .ok s2 ∧
        ∀ k, E.owns s k → KProc.reset s (s.pKProcs k) = .ok (s2.pKProcs k)) := by
  refine ⟨fun s2 h => reset_inv E s s2 h, fun hok => ?_⟩
  obtain ⟨s2, h2, _, _, hfr⟩ := reset_ok E s hok
  exact ⟨s2, h2, hfr⟩

/-- Witness of C23 on the concrete system (time 0 here, total propensity 6, three KProcs in
one positive group): `reset()` returns, with time, step counter and A0 at 0 and no group
left. -/
theorem reset_spec_witness : ∃ s2, reset Demo.engine Demo.state = .ok s2 ∧
    s2.pTime = 0 ∧ s2.pNSteps = 0 ∧ s2.pA0 = 0 ∧ s2.pGroupsSize = 0 ∧ s2.nGroupsSize = 0 := by
  obtain ⟨s2, h2, _⟩ := (reset_spec Demo.engine Demo.state).2 demo_reset_passes
  obtain ⟨a, b, c, _, _, d, e⟩ := (reset_spec Demo.engine Demo.state).1 s2 h2
  exact ⟨s2, h2, a, b, c, d, e⟩

/-- An active reaction with no reactant has its constant `c` as propensity. -/
theorem Reac_rate_source (s : State) (k : KProc) (r : Reac) (hact : k.inactive = false)
    (hlhs : ∀ p, Reac.lhs_vec s r p = 0) :
    Reac.rate s k r = .ok r.pCcst := by
  rw [Reac_rate_active s k r hact (fun p _ => by rw [hlhs p]; omega)]
  unfold fallProd
  simp [hlhs]

/-- What the code does after `reset()`. `Tetexact::reset()` ends with A0 = 0 and no group,
and calls neither `_update()` nor `_reset()`; `step()` holds no call of `_update()` before
the selection. So the call of `step()` that follows a `reset()` returns at once: it leaves
the state as `reset()` left it (A0 still 0, no stored propensity recomputed, time and step
counter unchanged) and draws no random number, whatever the propensities `rate()` of the
KProcs are. -/
theorem step_after_reset {σ : Type} (R : RNG σ) (rfuel : Nat) (E : Engine) (s s2 : State)
    (rng : σ) (h : reset E s = .ok s2) :
    s2.pA0 = 0 ∧ s2.pGroupsSize = 0 ∧ s2.nGroupsSize = 0 ∧
    step R rfuel s2 rng = .ok (s2, rng) := by
  obtain ⟨_, _, a, _, _, d, e⟩ := reset_inv E s s2 h
  exact ⟨a, d, e, step_zero R rfuel s2 rng a⟩

/-- On the concrete system: after `reset()` the next `step()` changes nothing and consumes
no random number. -/
theorem step_after_reset_witness : ∃ s2, reset Demo.engine Demo.state = .ok s2 ∧
    s2.pA0 = 0 ∧ step Demo.rng 10 s2 0 = .ok (s2, 0) := by
  obtain ⟨s2, h2, _⟩ := reset_ok Demo.engine Demo.state demo_reset_passes
  obtain ⟨a, _, _, b⟩ := step_after_reset Demo.rng 10 Demo.engine Demo.state s2 0 h2
  exact ⟨s2, h2, a, b⟩

/-- Claim C24 (after `reset()` the next `step()` runs the full `_update()` pass, so that a
KProc with `rate() > 0` can fire) and the code part: `reset()` ends without the refresh
that `restore()` and the mutators end with. In the concrete system with the zero-order
source ∅ → B in tet 0, `reset()` returns a state in which the source has the propensity
`rate() = 1000·N_A > 0`, yet the next `step()` returns that state unchanged, with A0 = 0,
the stored propensity of the source still 0 and unrecorded, the step counter 0, and no random
number drawn: no `_update()` pass ran and no event fired. -/
theorem step_after_reset_no_update : ∃ s2 a,
    reset Demo.engine Demo.zeroState = .ok s2 ∧
    KProc.rate s2 (s2.pKProcs 0) = .ok a ∧ 0 < a ∧
    step Demo.rng 10 s2 0 = .ok (s2, 0) ∧ s2.pA0 = 0 ∧ s2.pNSteps = 0 ∧
    (s2.pKProcs 0).crData.rate = 0 ∧ (s2.pKProcs 0).crData.recorded = false := by
  have hok : ∀ k, Demo.engine.owns Demo.zeroState k →
      ∃ k2, KProc.reset Demo.zeroState (Demo.zeroState.pKProcs k) = .ok k2 := by
    intro k h
    rcases demo_owns Demo.zeroState k rfl rfl rfl h with rfl | rfl | rfl
    · exact KProc_reset_reac_ok Demo.zeroState _ Demo.reacZ rfl
        (by norm_num [Demo.zeroState, Demo.reacZ, Demo.cdefZ, Demo.cdef])
        (by norm_num [Demo.zeroState, Demo.state, Demo.reacZ, Demo.tet0])
    · exact KProc_reset_diff_ok Demo.zeroState _ Demo.diff1 rfl
        (by norm_num [Demo.zeroState, Demo.diff1, Demo.cdefZ, Demo.cdef])
        (by intro i _; norm_num [Demo.zeroState, Demo.state, Demo.diff1, Demo.tet0])
        (by norm_num [Demo.zeroState, Demo.state, Demo.diff1, Demo.tet0])
    · refine KProc_reset_sreac_ok Demo.zeroState _ Demo.sreac2 _ rfl
        (by norm_num [Demo.zeroState, Demo.state, Demo.sreac2, Demo.tri0, Demo.pdef])
        ((SReac_ccstFor_cases Demo.zeroState Demo.sreac2 _ (by decide)).2.1 rfl rfl 0 rfl) ?_
      have := AVOGADRO_pos
      norm_num [Demo.zeroState, Demo.state, Demo.sreac2, Demo.tri0, Demo.pdef, Demo.tet0]
      positivity
  obtain ⟨s2, h2, hg, _, hfr⟩ := reset_ok Demo.engine Demo.zeroState hok
  have hk := hfr 0 (Or.inl ⟨0, by simp [Demo.engine], by simp [Demo.zeroState, Demo.state, Demo.tet0]⟩)
  have hr : Reac.resetCcst Demo.zeroState Demo.reacZ = .ok { Demo.reacZ with
      pKcst := 1, pCcst := comp_ccst 1 1 0 2 } :=
    Reac_resetCcst_ok Demo.zeroState Demo.reacZ
      (by norm_num [Demo.zeroState, Demo.reacZ, Demo.cdefZ, Demo.cdef])
      (by norm_num [Demo.zeroState, Demo.state, Demo.reacZ, Demo.tet0])
  have hk0 : KProc.reset Demo.zeroState (Demo.zeroState.pKProcs 0) = .ok
      (KProc.setActive { Demo.kproc 0 with
        crData := CRKProcData.cleared, rExtent := 0
        variant := .reac { Demo.reacZ with pKcst := 1, pCcst := comp_ccst 1 1 0 2 } } true) := by
    show Reac.reset Demo.zeroState _ Demo.reacZ = _
    unfold Reac.reset
    rw [hr]
    rfl
  rw [hk0] at hk
  have hk2 := (Except.ok.inj hk).symm
  obtain ⟨_, ns, st0, _⟩ := reset_inv Demo.engine Demo.zeroState s2 h2
  have stp := step_zero Demo.rng 10 s2 0 st0
  have hc : comp_ccst 1 1 0 2 = 1000 * AVOGADRO := by
    rw [comp_ccst_eq 1 1 0 2 (by decide)]
    norm_num
  refine ⟨s2, 1000 * AVOGADRO, h2, ?_, ?_, stp, st0, ns, ?_, ?_⟩
  · rw [hk2]
    have hv : (KProc.setActive { Demo.kproc 0 with
        crData := CRKProcData.cleared, rExtent := 0
        variant := .reac { Demo.reacZ with pKcst := 1, pCcst := comp_ccst 1 1 0 2 } }
        true).variant
        = .reac { Demo.reacZ with pKcst := 1, pCcst := comp_ccst 1 1 0 2 } := rfl
    unfold KProc.rate
    rw [hv]
    dsimp only
    rw [Reac_rate_source s2 _ _ (by decide) ?_, hc]
    intro p
    unfold Reac.lhs_vec
    have hcd : (s2.tets 0).compdef = Demo.cdefZ := (hg.1 0).1
    show (s2.tets 0).compdef.reac_lhs_bgn _ p = 0
    rw [hcd]
    rfl
  · have := AVOGADRO_pos
    positivity
  · rw [hk2]
    rfl
  · rw [hk2]
    rfl

/-! ## Observables of one reaction (claim C30) -/

/-- Once the argument checks pass and the Reac is found, the three observables are the
accessor called on it. -/
theorem getTetReac_eq {α : Type} (E : Engine) (s : State) (tidx ridx tet k : Nat) (r : Reac)
    (f : KProc → Reac → Except Err α)
    (ht : tidx < E.pTets.length) (hr : ridx < E.countReacs)
    (hpt : E.pTets.getD tidx none = some tet)
    (hl : (s.tets tet).compdef.reacG2L ridx ≠ LIDX_UNDEFINED)
    (hk : (s.tets tet).reac ((s.tets tet).compdef.reacG2L ridx) = some k)
    (hv : (s.pKProcs k).variant = .reac r) :
    getTetReac E s tidx ridx f = f (s.pKProcs k) r := by
  unfold getTetReac
  rw [if_neg (not_not.mpr ht), if_neg (not_not.mpr hr), hpt]
  dsimp only
  rw [if_neg hl, hk]
  dsimp only
  rw [hv]

/-- Accessor `h()` of an active reaction with `c ≠ 0` is the product of the falling
factorials; of an inactive one with `c ≠ 0` it is 0; with `c = 0` it is not a number. -/
theorem Reac_h_cases (s : State) (k : KProc) (r : Reac)
    (hlhs : ∀ p < Reac.nspecs s r, Reac.lhs_vec s r p ≤ 4) :
    (k.inactive = false → r.pCcst ≠ 0 → Reac.h s k r = .ok (some
      (fallProd (Reac.lhs_vec s r) (s.tets r.pTet).pools (Reac.nspecs s r)))) ∧
    (k.inactive = true → r.pCcst ≠ 0 → Reac.h s k r = .ok (some 0)) ∧
    (r.pCcst = 0 → Reac.h s k r = .ok none) := by
  refine ⟨fun hact hc => ?_, fun hin hc => ?_, fun hc => ?_⟩
  · unfold Reac.h
    rw [Reac_rate_active s k r hact hlhs]
    dsimp only
    rw [if_neg hc, mul_comm, mul_div_assoc, div_self hc, mul_one]
  · have h0 : Reac.rate s k r = .ok 0 := by simp [Reac.rate, hin]
    unfold Reac.h
    rw [h0]
    dsimp only
    rw [if_neg hc, zero_div]
  · unfold Reac.h
    cases hin : k.inactive with
    | true =>
      have h0 : Reac.rate s k r = .ok 0 := by simp [Reac.rate, hin]
      rw [h0]
      dsimp only
      rw [if_pos hc]
    | false =>
      rw [Reac_rate_active s k r hin hlhs]
      dsimp only
      rw [if_pos hc]

/-- The three observables as the code computes them, in exact arithmetic (the doubles are
rationals here, so that `(h·c)/c = h` for `c ≠ 0`). For a tet assigned to a compartment and
a reaction defined in it (lhs multiplicities within 0..4): `_getTetReacC` returns `c`;
`_getTetReacA` returns `rate()`, which is `c` times the product of the falling factorials
for an active reaction and 0 for an inactive one; `_getTetReacH` returns `rate()/c`, which
is the product of the falling factorials only for an active reaction with `c ≠ 0`: it is 0
for an inactive reaction with `c ≠ 0`, and not a number when `c = 0`; and whenever H returns
a number `h`, A is `h * c`. -/
theorem getTetReacHCA_spec (E : Engine) (s : State) (tidx ridx tet k : Nat) (r : Reac)
    (ht : tidx < E.pTets.length) (hr : ridx < E.countReacs)
    (hpt : E.pTets.getD tidx none = some tet)
    (hl : (s.tets tet).compdef.reacG2L ridx ≠ LIDX_UNDEFINED)
    (hk : (s.tets tet).reac ((s.tets tet).compdef.reacG2L ridx) = some k)
    (hv : (s.pKProcs k).variant = .reac r)
    (hlhs : ∀ p < Reac.nspecs s r, Reac.lhs_vec s r p ≤ 4) :
    _getTetReacC E s tidx ridx = .ok r.pCcst ∧
    ((s.pKProcs k).inactive = false →
      _getTetReacA E s tidx ridx = .ok (r.pCcst *
        fallProd (Reac.lhs_vec s r) (s.tets r.pTet).pools (Reac.nspecs s r))) ∧
    ((s.pKProcs k).inactive = true → _getTetReacA E s tidx ridx = .ok 0) ∧
    ((s.pKProcs k).inactive = false → r.pCcst ≠ 0 →
      _getTetReacH E s tidx ridx = .ok (some
        (fallProd (Reac.lhs_vec s r) (s.tets r.pTet).pools (Reac.nspecs s r)))) ∧
    ((s.pKProcs k).inactive = true → r.pCcst ≠ 0 →
      _getTetReacH E s tidx ridx = .ok (some 0)) ∧
    (r.pCcst = 0 → _getTetReacH E s tidx ridx = .ok none) ∧
    (∀ h a, _getTetReacH E s tidx ridx = .ok (some h) → _getTetReacA E s tidx ridx = .ok a →
      a = h * r.pCcst) := by
  have eC : _getTetReacC E s tidx ridx = .ok r.pCcst :=
    getTetReac_eq E s tidx ridx tet k r _ ht hr hpt hl hk hv
  have eA : _getTetReacA E s tidx ridx = Reac.rate s (s.pKProcs k) r :=
    getTetReac_eq E s tidx ridx tet k r _ ht hr hpt hl hk hv
  have eH : _getTetReacH E s tidx ridx = Reac.h s (s.pKProcs k) r :=
    getTetReac_eq E s tidx ridx tet k r _ ht hr hpt hl hk hv
  obtain ⟨c1, c2, c3⟩ := Reac_h_cases s (s.pKProcs k) r hlhs
  refine ⟨eC, fun hact => ?_, fun hin => ?_, fun hact hc => ?_, fun hin hc => ?_,
    fun hc => ?_, fun h a hH hA => ?_⟩
  · rw [eA]
    exact Reac_rate_active s _ r hact hlhs
  · rw [eA]
    simp [Reac.rate, hin]
  · rw [eH]
    exact c1 hact hc
  · rw [eH]
    exact c2 hin hc
  · rw [eH]
    exact c3 hc
  · rw [eH] at hH
    rw [eA] at hA
    unfold Reac.h at hH
    rw [hA] at hH
    dsimp only at hH
    by_cases hc : r.pCcst = 0
    · rw [if_pos hc] at hH
      cases hH
    · rw [if_neg hc] at hH
      have e : a / r.pCcst = h := Option.some.inj (Except.ok.inj hH)
      rw [← e, div_mul_cancel₀ a hc]

/-- On the concrete system the active reaction A → B of tet 0 (2 A, `c = 1`) has H = 2,
C = 1 and A = 2 = H · C. -/
theorem getTetReacHCA_spec_witness :
    _getTetReacC Demo.engine Demo.state 0 0 = .ok 1 ∧
    _getTetReacA Demo.engine Demo.state 0 0 = .ok 2 ∧
    _getTetReacH Demo.engine Demo.state 0 0 = .ok (some 2) := by
  have hf : fallProd (Reac.lhs_vec Demo.state Demo.reac0) (Demo.state.tets Demo.reac0.pTet).pools
      (Reac.nspecs Demo.state Demo.reac0) = 2 := by
    norm_num [fallProd, Finset.prod_range_succ, Nat.descFactorial, Reac.nspecs, Reac.lhs_vec,
      Demo.state, Demo.reac0, Demo.tet0, Demo.cdef]
  obtain ⟨hC, hA, _, hH, _⟩ := getTetReacHCA_spec Demo.engine Demo.state 0 0 0 0 Demo.reac0
    (by decide) (by decide) rfl (by decide) rfl rfl
    (by
      intro p _
      simp [Reac.lhs_vec, Demo.state, Demo.reac0, Demo.tet0, Demo.cdef]
      split_ifs <;> norm_num)
  have hact : (Demo.state.pKProcs 0).inactive = false := by decide
  have hc : Demo.reac0.pCcst ≠ 0 := by norm_num [Demo.reac0]
  refine ⟨hC, ?_, ?_⟩
  · rw [hA hact, hf]
    norm_num [Demo.reac0]
  · rw [hH hact hc, hf]

/-- Claim C30 (`_getTetReacH` returns the combinatorial factor `h`, the product of the
falling factorials of the reactant counts) and the code part: `Reac::h()` divides the
propensity by `c` instead of computing `h` from the counts. With the constant of the
reaction A → B of tet 0 set to 0 (2 A in the tet, so `h = 2`), `_getTetReacC` returns 0 and
`_getTetReacH` returns the quotient 0/0, which is no number; and with the reaction switched
off (`c = 1`, `h = 2`) `_getTetReacH` returns 0. -/
theorem getTetReacH_not_combinatorial :
    fallProd (Reac.lhs_vec Demo.nullState { Demo.reac0 with pKcst := 0, pCcst := 0 })
      (Demo.nullState.tets 0).pools
      (Reac.nspecs Demo.nullState { Demo.reac0 with pKcst := 0, pCcst := 0 }) = 2 ∧
    _getTetReacC Demo.engine Demo.nullState 0 0 = .ok 0 ∧
    _getTetReacH Demo.engine Demo.nullState 0 0 = .ok none ∧
    fallProd (Reac.lhs_vec Demo.offState Demo.reac0) (Demo.offState.tets 0).pools
      (Reac.nspecs Demo.offState Demo.reac0) = 2 ∧
    _getTetReacH Demo.engine Demo.offState 0 0 = .ok (some 0) := by
  refine ⟨?_, ?_, ?_, ?_, ?_⟩
  · norm_num [fallProd, Finset.prod_range_succ, Nat.descFactorial, Reac.nspecs, Reac.lhs_vec,
      Demo.nullState, Demo.state, Demo.reac0, Demo.tet0, Demo.cdef]
  · exact getTetReac_eq Demo.engine Demo.nullState 0 0 0 0
      { Demo.reac0 with pKcst := 0, pCcst := 0 } _
      (by decide) (by decide) rfl (by decide) rfl rfl
  · have eH : _getTetReacH Demo.engine Demo.nullState 0 0
        = Reac.h Demo.nullState (Demo.nullState.pKProcs 0)
          { Demo.reac0 with pKcst := 0, pCcst := 0 } :=
      getTetReac_eq Demo.engine Demo.nullState 0 0 0 0 _ _
        (by decide) (by decide) rfl (by decide) rfl rfl
    rw [eH]
    exact (Reac_h_cases Demo.nullState _ _ (by
      intro p _
      simp [Reac.lhs_vec, Demo.nullState, Demo.state, Demo.reac0, Demo.tet0, Demo.cdef]
      split_ifs <;> norm_num)).2.2 rfl
  · norm_num [fallProd, Finset.prod_range_succ, Nat.descFactorial, Reac.nspecs, Reac.lhs_vec,
      Demo.offState, Demo.state, Demo.reac0, Demo.tet0, Demo.cdef]
  · have eH : _getTetReacH Demo.engine Demo.offState 0 0
        = Reac.h Demo.offState (Demo.offState.pKProcs 0) Demo.reac0 :=
      getTetReac_eq Demo.engine Demo.offState 0 0 0 0 Demo.reac0 _
        (by decide) (by decide) rfl (by decide) rfl rfl
    rw [eH]
    exact (Reac_h_cases Demo.offState _ Demo.reac0 (by
      intro p _
      simp [Reac.lhs_vec, Demo.offState, Demo.state, Demo.reac0, Demo.tet0, Demo.cdef]
      split_ifs <;> norm_num)).2.1 (by decide) (by norm_num [Demo.reac0])

/-! ## Checkpoint and restore (claim C26) -/

/-- The triangle loops of `checkpoint` and `restore` run over no triangle at all. -/
theorem triLoopRange_nil (E : Engine) : triLoopRange E = [] := by
  unfold triLoopRange
  exact List.drop_length _

/-- The stream written by `checkpoint` holds the records of the tets and the time and step
counter, and no record of any triangle. -/
theorem checkpoint_no_tri (E : Engine) (s : State) :
    checkpoint E s = checkpointTets s E.pTets ++ [.clock s.pTime s.pNSteps] := by
  unfold checkpoint
  rw [triLoopRange_nil]
  unfold checkpointTris Statedef.checkpoint
  rw [List.append_nil]

/-- The stream of `checkpoint` is the stream of the specification for an engine without
triangles. -/
theorem checkpoint_eq_spec_no_tris (E : Engine) (s : State) :
    checkpoint E s = checkpoint_spec { E with pTris := [] } s := by
  unfold checkpoint checkpoint_spec
  rw [triLoopRange_nil]

/-- The loop of `restore` over the tets leaves every triangle as it was. -/
theorem restoreTets_tris : ∀ (l : List (Option Nat)) (s : State) (file : List CPRecord),
    (restoreTets l s file).1.tris = s.tris := by
  intro l
  induction l with
  | nil => intro s file; rfl
  | cons o rest ih =>
    intro s file
    cases o with
    | none => exact ih s file
    | some t =>
      unfold restoreTets
      rw [ih]
      rfl

/-- The part of `Statedef::restore` modelled here leaves every triangle as it was. -/
theorem Statedef_restore_tris (s : State) (file : List CPRecord) :
    (Statedef.restore s file).1.tris = s.tris := by
  unfold Statedef.restore
  split <;> rfl

/-- Method `restore` leaves the counts and clamp flags of every triangle as they were in
the engine before the call, whatever the stream holds. -/
theorem restore_keeps_tris (E : Engine) (s s2 : State) (file : List CPRecord)
    (h : restore E s file = .ok s2) : s2.tris = s.tris := by
  unfold restore at h
  dsimp only at h
  rw [triLoopRange_nil] at h
  have hf := CRFrame_update _ s2 _ h
  rw [hf.2.1]
  unfold restoreTris
  rw [Statedef_restore_tris, restoreTets_tris]

/-- The propensities of the three KProcs of the concrete system are computable after the
tets of the checkpointed state have been read into the wiped system. -/
theorem demo_restored_rates (kp : Nat) (h : kp ∈ List.range 3) :
    ∃ v, KProc.rate
      (Statedef.restore (restoreTets Demo.engine.pTets Demo.wipedState
        (checkpoint Demo.engine Demo.state)).1
        (restoreTets Demo.engine.pTets Demo.wipedState
          (checkpoint Demo.engine Demo.state)).2).1
      (Demo.kproc kp) = .ok v := by
  have h3 : kp = 0 ∨ kp = 1 ∨ kp = 2 := by
    have := List.mem_range.mp h
    omega
  rcases h3 with rfl | rfl | rfl
  · exact ⟨2, by
      norm_num [KProc.rate, checkpoint, checkpointTets, checkpointTris, triLoopRange,
        Statedef.checkpoint, Statedef.restore, restoreTets, Tet.restore, Tet.checkpoint,
        Demo.engine, Demo.wipedState, State.setTet,
        Demo.state, Demo.kproc, Reac.rate, KProc.inactive, INACTIVATED, Demo.reac0, Demo.tet0,
        Demo.tet1, Demo.cdef, Reac.hmuLoop, List.range, List.range.loop,
        switchLhs, toInt, toUInt, wrapInt, Function.update_apply]⟩
  · exact ⟨2, by
      norm_num [KProc.rate, checkpoint, checkpointTets, checkpointTris, triLoopRange,
        Statedef.checkpoint, Statedef.restore, restoreTets, Tet.restore, Tet.checkpoint,
        Demo.engine, Demo.wipedState, State.setTet,
        Demo.state, Demo.kproc, Diff.rate, KProc.inactive, INACTIVATED, Demo.tet0,
        Demo.tet1, Demo.diff1, Demo.cdef, List.range, List.range.loop,
        toInt, toUInt, wrapInt, Function.update_apply]⟩
  · exact ⟨0, by
      norm_num [KProc.rate, checkpoint, checkpointTets, checkpointTris, triLoopRange,
        Statedef.checkpoint, Statedef.restore, restoreTets, Tet.restore, Tet.checkpoint,
        Demo.engine, Demo.wipedState, State.setTet,
        Demo.state, Demo.kproc, SReac.rate, SReac.rateVol, KProc.inactive, INACTIVATED,
        Demo.tet0, Demo.tet1, Demo.tri0, Demo.pdef, Demo.sreac2,
        Demo.cdef, SReac.hmuLoop, List.range, List.range.loop,
        switchLhs, toInt, toUInt, wrapInt, Function.update_apply]⟩

/-- The claim C26 fails on the code. The checkpoint of the concrete system (2 A and 1 B in
tet 0, 1 S on triangle 0) holds three records, two tets and the clock, where the order of
the specification gives four; restoring it into the wiped system returns, with the counts of
tet 0 read back (2 A, 1 B) and the count of S on triangle 0 still 0, not the 1 of the
checkpointed state: the triangle loops start at `pTris.end()`. -/
theorem restore_loses_tri_counts : ∃ s2,
    restore Demo.engine Demo.wipedState (checkpoint Demo.engine Demo.state) = .ok s2 ∧
    (s2.tets 0).pools 0 = 2 ∧ (s2.tets 0).pools 1 = 1 ∧
    (Demo.state.tris 0).pools 0 = 1 ∧ (s2.tris 0).pools 0 = 0 ∧
    (checkpoint Demo.engine Demo.state).length = 3 ∧
    (checkpoint_spec Demo.engine Demo.state).length = 4 := by
  have hr : restore Demo.engine Demo.wipedState (checkpoint Demo.engine Demo.state)
      = _update (Statedef.restore (restoreTets Demo.engine.pTets Demo.wipedState
        (checkpoint Demo.engine Demo.state)).1
        (restoreTets Demo.engine.pTets Demo.wipedState
          (checkpoint Demo.engine Demo.state)).2).1 (List.range 3) := rfl
  obtain ⟨s2, h2⟩ := update_ok _ (List.range 3) demo_restored_rates
  have hf := CRFrame_update _ s2 _ h2
  refine ⟨s2, ?_, ?_, ?_, rfl, ?_, rfl, rfl⟩
  · rw [hr]
    exact h2
  · rw [hf.1]
    rfl
  · rw [hf.1]
    rfl
  · rw [hf.2.1]
    rfl

/-! ## The total propensity after a full pass (claim C25) -/

/-- What the branches "positive group" and "negative group" of `_updateElement` write into
the records: no stored rate changes, the record of every other KProc keeps its power and
its flag, and the record of `kp` ends recorded with the binary exponent of the new rate. -/
theorem moveOrAdjust_records (s : State) (kp : Nat) (old new : ℚ) (positive : Bool) :
    (∀ m, ((moveOrAdjust s kp old new positive).pKProcs m).crData.rate
      = (s.pKProcs m).crData.rate) ∧
    (∀ m, m ≠ kp →
      ((moveOrAdjust s kp old new positive).pKProcs m).crData.pow = (s.pKProcs m).crData.pow ∧
      ((moveOrAdjust s kp old new positive).pKProcs m).crData.recorded
        = (s.pKProcs m).crData.recorded) ∧
    ((moveOrAdjust s kp old new positive).pKProcs kp).crData.recorded = true ∧
    ((moveOrAdjust s kp old new positive).pKProcs kp).crData.pow = frexpExp new := by
  generalize hres : moveOrAdjust s kp old new positive = s2
  unfold moveOrAdjust at hres
  dsimp only at hres
  rw [← hres]
  by_cases hc : (s.pKProcs kp).crData.pow = frexpExp new ∧ (s.pKProcs kp).crData.recorded = true
  · rw [if_pos hc]
    have hK := (setGroup_fields s (s.pKProcs kp).crData.pow
      { _getGroup s (s.pKProcs kp).crData.pow with
        sum := (_getGroup s (s.pKProcs kp).crData.pow).sum + (new - old) }).1
    refine ⟨fun m => ?_, fun m hm => ?_, ?_, ?_⟩
    · by_cases hm : m = kp
      · rw [hm, setCRData_same, hK]
      · rw [setCRData_ne _ _ m _ hm, hK]
    · rw [setCRData_ne _ _ m _ hm, hK]
      exact ⟨rfl, rfl⟩
    · rw [setCRData_same]
    · rw [setCRData_same, hK]
      exact hc.1
  · rw [if_neg hc]
    have hr2 : ∀ m, (((if (s.pKProcs kp).crData.recorded = true
        then removeOld (s.setCRData kp { (s.pKProcs kp).crData with pow := frexpExp new })
          kp (s.pKProcs kp).crData.pow old
        else s.setCRData kp { (s.pKProcs kp).crData with pow := frexpExp new }).pKProcs
          m).crData.rate = (s.pKProcs m).crData.rate) ∧
        (m ≠ kp → ((if (s.pKProcs kp).crData.recorded = true
        then removeOld (s.setCRData kp { (s.pKProcs kp).crData with pow := frexpExp new })
          kp (s.pKProcs kp).crData.pow old
        else s.setCRData kp { (s.pKProcs kp).crData with pow := frexpExp new }).pKProcs
          m).crData.pow = (s.pKProcs m).crData.pow ∧
          ((if (s.pKProcs kp).crData.recorded = true
        then removeOld (s.setCRData kp { (s.pKProcs kp).crData with pow := frexpExp new })
          kp (s.pKProcs kp).crData.pow old
        else s.setCRData kp { (s.pKProcs kp).crData with pow := frexpExp new }).pKProcs
          m).crData.recorded = (s.pKProcs m).crData.recorded) ∧
        ((if (s.pKProcs kp).crData.recorded = true
        then removeOld (s.setCRData kp { (s.pKProcs kp).crData with pow := frexpExp new })
          kp (s.pKProcs kp).crData.pow old
        else s.setCRData kp { (s.pKProcs kp).crData with pow := frexpExp new }).pKProcs
          kp).crData.pow = frexpExp new := by
      intro m
      obtain ⟨r1, r2, r3⟩ := removeIf_records
        (s.setCRData kp { (s.pKProcs kp).crData with pow := frexpExp new }) kp
        (s.pKProcs kp).crData.recorded (s.pKProcs kp).crData.pow old m
      obtain ⟨_, q2, _⟩ := removeIf_records
        (s.setCRData kp { (s.pKProcs kp).crData with pow := frexpExp new }) kp
        (s.pKProcs kp).crData.recorded (s.pKProcs kp).crData.pow old kp
      rw [r1, r2, r3, q2, setCRData_same]
      refine ⟨?_, fun hm => ?_, rfl⟩
      · by_cases hm : m = kp
        · rw [hm, setCRData_same]
        · rw [setCRData_ne _ _ m _ hm]
      · rw [setCRData_ne _ _ m _ hm]
        exact ⟨rfl, rfl⟩
    generalize (if (s.pKProcs kp).crData.recorded = true
        then removeOld (s.setCRData kp { (s.pKProcs kp).crData with pow := frexpExp new })
          kp (s.pKProcs kp).crData.pow old
        else s.setCRData kp { (s.pKProcs kp).crData with pow := frexpExp new }) = s3
      at hr2 ⊢
    have hadd : ∀ m, ((if positive = true then addNewP s3 kp (frexpExp new) new
        else addNewN s3 kp (frexpExp new) new).pKProcs m).crData.rate
          = (s3.pKProcs m).crData.rate ∧
        ((if positive = true then addNewP s3 kp (frexpExp new) new
        else addNewN s3 kp (frexpExp new) new).pKProcs m).crData.pow
          = (s3.pKProcs m).crData.pow ∧
        ((if positive = true then addNewP s3 kp (frexpExp new) new
        else addNewN s3 kp (frexpExp new) new).pKProcs m).crData.recorded
          = (s3.pKProcs m).crData.recorded := by
      intro m
      by_cases hp : positive = true
      · rw [if_pos hp]
        exact addNewP_records s3 kp (frexpExp new) new m
      · rw [if_neg hp]
        exact addNewN_records s3 kp (frexpExp new) new m
    generalize (if positive = true then addNewP s3 kp (frexpExp new) new
        else addNewN s3 kp (frexpExp new) new) = s4 at hadd ⊢
    refine ⟨fun m => ?_, fun m hm => ?_, ?_, ?_⟩
    · by_cases hm : m = kp
      · rw [hm, setCRData_same]
        dsimp only
        rw [(hadd kp).1, (hr2 kp).1]
      · rw [setCRData_ne _ _ m _ hm, (hadd m).1, (hr2 m).1]
    · rw [setCRData_ne _ _ m _ hm, (hadd m).2.1, (hadd m).2.2, ((hr2 m).2.1 hm).1,
        ((hr2 m).2.1 hm).2]
      exact ⟨rfl, rfl⟩
    · rw [setCRData_same]
    · rw [setCRData_same]
      dsimp only
      rw [(hadd kp).2.1, (hr2 kp).2.2]

/-- What a returning `_updateElement(kp)` writes into the records: the stored rate of `kp`
is its propensity, no other record changes its rate, power or flag; when the propensity
differs from the rate stored before, `kp` ends recorded exactly when the propensity exceeds
1e-20, and then with the binary exponent of the propensity as power; when it does not
differ, the power and the flag of `kp` stay. -/
theorem updateElement_records (s s2 : State) (kp : Nat) (hu : _updateElement s kp = .ok s2) :
    ∃ new, KProc.rate s (s.pKProcs kp) = .ok new ∧
      (s2.pKProcs kp).crData.rate = new ∧
      (∀ m, m ≠ kp → (s2.pKProcs m).crData.rate = (s.pKProcs m).crData.rate ∧
        (s2.pKProcs m).crData.pow = (s.pKProcs m).crData.pow ∧
        (s2.pKProcs m).crData.recorded = (s.pKProcs m).crData.recorded) ∧
      ((s.pKProcs kp).crData.rate = new →
        (s2.pKProcs kp).crData.pow = (s.pKProcs kp).crData.pow ∧
        (s2.pKProcs kp).crData.recorded = (s.pKProcs kp).crData.recorded) ∧
      ((s.pKProcs kp).crData.rate ≠ new →
        ((s2.pKProcs kp).crData.recorded = true ↔ new > 1 / 100000000000000000000) ∧
        ((s2.pKProcs kp).crData.recorded = true →
          (s2.pKProcs kp).crData.pow = frexpExp new)) := by
  unfold _updateElement at hu
  cases hr : KProc.rate s (s.pKProcs kp) with
  | error e => rw [hr] at hu; cases hu
  | ok new =>
    rw [hr] at hu
    dsimp only at hu
    refine ⟨new, rfl, ?_⟩
    have hd1 : ((s.setCRData kp { (s.pKProcs kp).crData with rate := new }).pKProcs kp).crData
        = { (s.pKProcs kp).crData with rate := new } := setCRData_same _ _ _
    have hne : ∀ m, m ≠ kp →
        (s.setCRData kp { (s.pKProcs kp).crData with rate := new }).pKProcs m = s.pKProcs m :=
      fun m hm => setCRData_ne _ _ m _ hm
    generalize s.setCRData kp { (s.pKProcs kp).crData with rate := new } = s1
      at hu hd1 hne
    by_cases h1 : (s.pKProcs kp).crData.rate = new
    · rw [if_pos h1] at hu
      rw [← Except.ok.inj hu]
      refine ⟨by rw [hd1], fun m hm => by rw [hne m hm]; exact ⟨rfl, rfl, rfl⟩,
        fun _ => by rw [hd1]; exact ⟨rfl, rfl⟩, fun hn => absurd h1 hn⟩
    · rw [if_neg h1] at hu
      by_cases h2 : new ≥ 1 / 2
      · rw [if_pos h2] at hu
        rw [← Except.ok.inj hu]
        obtain ⟨m1, m2, m3, m4⟩ :=
          moveOrAdjust_records s1 kp (s.pKProcs kp).crData.rate new true
        refine ⟨by rw [m1 kp, hd1], fun m hm => ?_, fun he => absurd he h1, fun _ => ?_⟩
        · rw [m1 m, (m2 m hm).1, (m2 m hm).2, hne m hm]
          exact ⟨rfl, rfl, rfl⟩
        · refine ⟨⟨fun _ => ?_, fun _ => m3⟩, fun _ => m4⟩
          have : (1:ℚ) / 100000000000000000000 < 1 / 2 := by norm_num
          exact lt_of_lt_of_le this h2
      · rw [if_neg h2] at hu
        by_cases h3 : new < 1 / 2 ∧ new > 1 / 100000000000000000000
        · rw [if_pos h3] at hu
          rw [← Except.ok.inj hu]
          obtain ⟨m1, m2, m3, m4⟩ :=
            moveOrAdjust_records s1 kp (s.pKProcs kp).crData.rate new false
          refine ⟨by rw [m1 kp, hd1], fun m hm => ?_, fun he => absurd he h1, fun _ => ?_⟩
          · rw [m1 m, (m2 m hm).1, (m2 m hm).2, hne m hm]
            exact ⟨rfl, rfl, rfl⟩
          · exact ⟨⟨fun _ => h3.2, fun _ => m3⟩, fun _ => m4⟩
        · rw [if_neg h3] at hu
          rw [← Except.ok.inj hu]
          have hrem := removeIf_records s1 kp (s1.pKProcs kp).crData.recorded
            (s1.pKProcs kp).crData.pow (s.pKProcs kp).crData.rate
          generalize (if (s1.pKProcs kp).crData.recorded = true
            then removeOld s1 kp (s1.pKProcs kp).crData.pow (s.pKProcs kp).crData.rate
            else s1) = s3 at hrem ⊢
          refine ⟨?_, fun m hm => ?_, fun he => absurd he h1, fun _ => ?_⟩
          · rw [setCRData_same]
            dsimp only
            rw [(hrem kp).1, hd1]
          · rw [setCRData_ne _ _ m _ hm, (hrem m).1, (hrem m).2.1, (hrem m).2.2, hne m hm]
            exact ⟨rfl, rfl, rfl⟩
          · rw [setCRData_same]
            dsimp only
            have hle : ¬ new > 1 / 100000000000000000000 := by
              intro hgt
              apply h3
              refine ⟨?_, hgt⟩
              exact lt_of_not_ge h2
            exact ⟨⟨fun hf => absurd hf (by decide), fun hgt => absurd hgt hle⟩,
              fun hf => absurd hf (by decide)⟩

/-- One call of `_updateElement` on a KProc of the schedule keeps the full invariant of the
selector. -/
theorem updateElement_CRFull (s s2 : State) (kp : Nat) (h : CRFull s) (hkp : kp < s.nEntries)
    (hu : _updateElement s kp = .ok s2) : CRFull s2 := by
  have hn : s2.nEntries = s.nEntries := (CRFrame_updateElement s s2 kp hu).2.2.1
  obtain ⟨new, _, r1, r2, r3, r4⟩ := updateElement_records s s2 kp hu
  refine ⟨updateElement_CRInv s s2 kp h.inv hkp hu, fun m hm => ?_, fun m hm hrec => ?_⟩
  · rw [hn] at hm
    unfold storedRate
    by_cases hmk : m = kp
    · rw [hmk, r1]
      by_cases he : (s.pKProcs kp).crData.rate = new
      · rw [(r3 he).2, ← he]
        exact h.recOK kp hkp
      · exact (r4 he).1
    · rw [(r2 m hmk).1, (r2 m hmk).2.2]
      exact h.recOK m hm
  · rw [hn] at hm
    unfold storedRate
    by_cases hmk : m = kp
    · rw [hmk] at hrec ⊢
      rw [r1]
      by_cases he : (s.pKProcs kp).crData.rate = new
      · rw [(r3 he).2] at hrec
        rw [(r3 he).1, ← he]
        exact h.powOK kp hkp hrec
      · exact (r4 he).2 hrec
    · rw [(r2 m hmk).2.2] at hrec
      rw [(r2 m hmk).1, (r2 m hmk).2.1]
      exact h.powOK m hm hrec

/-- The loop of `_update` over KProcs of the schedule keeps the full invariant of the
selector, stores the propensity of every listed KProc as its rate and leaves the stored
rate of every other KProc alone. -/
theorem updateLoop_CRFull : ∀ (l : List Nat) (s s2 : State), CRFull s →
    (∀ kp ∈ l, kp < s.nEntries) → updateLoop l s = .ok s2 →
    CRFull s2 ∧ CRFrame s s2 ∧
    (∀ kp ∈ l, KProc.rate s (s.pKProcs kp) = .ok (storedRate s2 kp)) ∧
    (∀ m, m ∉ l → storedRate s2 m = storedRate s m) := by
  intro l
  induction l with
  | nil =>
    intro s s2 hf _ h
    unfold updateLoop at h
    rw [← Except.ok.inj h]
    exact ⟨hf, CRFrame.reflCR s, fun kp hk => absurd hk (List.not_mem_nil _), fun _ _ => rfl⟩
  | cons k rest ih =>
    intro s s2 hf hl h
    unfold updateLoop at h
    cases hu : _updateElement s k with
    | error e => rw [hu] at h; cases h
    | ok s1 =>
      rw [hu] at h
      dsimp only at h
      have hk : k < s.nEntries := hl k (List.mem_cons_self _ _)
      have hf1 := updateElement_CRFull s s1 k hf hk hu
      have hfr1 := CRFrame_updateElement s s1 k hu
      obtain ⟨new, q0, q1, q2, _, _⟩ := updateElement_records s s1 k hu
      obtain ⟨hf2, hfr2, hr2, hk2⟩ := ih s1 s2 hf1
        (fun kp hkp => by rw [hfr1.2.2.1]; exact hl kp (List.mem_cons_of_mem _ hkp)) h
      refine ⟨hf2, CRFrame.transCR hfr1 hfr2, fun kp hkp => ?_, fun m hm => ?_⟩
      · by_cases hin : kp ∈ rest
        · rw [← KProc_rate_CRFrame s s1 kp hfr1]
          exact hr2 kp hin
        · have hkk : kp = k := by
            rcases List.mem_cons.mp hkp with h1 | h1
            · exact h1
            · exact absurd h1 hin
          rw [hkk] at hin ⊢
          rw [hk2 k hin, q0]
          unfold storedRate
          rw [q1]
      · have hmk : m ≠ k := fun he => hm (by rw [he]; exact List.mem_cons_self _ _)
        have hmr : m ∉ rest := fun hin => hm (List.mem_cons_of_mem _ hin)
        rw [hk2 m hmr]
        unfold storedRate
        exact (q2 m hmk).1

/-- The sum over the members of a group is the sum over the KProcs of the schedule that
the property `P` singles out, when the members are exactly those KProcs, each at the slot
`pos` names. -/
theorem memberSum_eq_filter (rate : Nat → ℚ) (N : Nat) (g : CRGroup) (P : Nat → Prop)
    [DecidablePred P] (pos : Nat → Nat)
    (hmem : ∀ j, j < g.size → g.indices j < N ∧ P (g.indices j) ∧ pos (g.indices j) = j)
    (hrec : ∀ m, m < N → P m → pos m < g.size ∧ g.indices (pos m) = m) :
    memberSum rate g = ∑ m in Finset.range N, if P m then rate m else 0 := by
  unfold memberSum
  rw [← Finset.sum_filter]
  have himg : Finset.filter P (Finset.range N) = Finset.image g.indices (Finset.range g.size) := by
    ext m
    simp only [Finset.mem_filter, Finset.mem_range, Finset.mem_image]
    constructor
    · rintro ⟨hm, hP⟩
      exact ⟨pos m, (hrec m hm hP).1, (hrec m hm hP).2⟩
    · rintro ⟨j, hj, rfl⟩
      exact ⟨(hmem j hj).1, (hmem j hj).2.1⟩
  rw [himg, Finset.sum_image]
  intro a ha b hb hab
  have ha2 := (hmem a (Finset.mem_range.mp ha)).2.2
  have hb2 := (hmem b (Finset.mem_range.mp hb)).2.2
  rw [← ha2, ← hb2, hab]

/-- Under the invariant of the selector, the sums of all groups together are the sum of the
stored rates of the recorded KProcs of the schedule. -/
theorem CRInv_total (s : State) (h : CRInv s) :
    ∑ i in Finset.range s.nGroupsSize, (s.nGroups i).sum
      + ∑ i in Finset.range s.pGroupsSize, (s.pGroups i).sum
    = ∑ m in Finset.range s.nEntries,
        if (s.pKProcs m).crData.recorded = true then storedRate s m else 0 := by
  have hP : ∀ i, i ∈ Finset.range s.pGroupsSize → (s.pGroups i).sum
      = ∑ m in Finset.range s.nEntries,
          if ((s.pKProcs m).crData.recorded = true ∧ (s.pKProcs m).crData.pow = (i : Int))
          then storedRate s m else 0 := by
    intro i hi
    have hi2 := Finset.mem_range.mp hi
    rw [h.pSums i hi2]
    apply memberSum_eq_filter (storedRate s) s.nEntries (s.pGroups i) _
      (fun m => (s.pKProcs m).crData.pos)
    · intro j hj
      obtain ⟨m1, m2, m3, m4⟩ := h.pMembers i hi2 j hj
      exact ⟨m1, ⟨m2, m3⟩, m4⟩
    · rintro m hm ⟨hr, hp⟩
      obtain ⟨_, r2, r3⟩ := h.recorded m hm hr
      rw [hp, (getGroup_ofNat s i).1] at r2 r3
      exact ⟨r2, r3⟩
  have hN : ∀ i, i ∈ Finset.range s.nGroupsSize → (s.nGroups i).sum
      = ∑ m in Finset.range s.nEntries,
          if (0 < i ∧ (s.pKProcs m).crData.recorded = true ∧
            (s.pKProcs m).crData.pow = -(i : Int))
          then storedRate s m else 0 := by
    intro i hi
    have hi2 := Finset.mem_range.mp hi
    by_cases h0 : 0 < i
    · rw [h.nSums i hi2]
      have := memberSum_eq_filter (storedRate s) s.nEntries (s.nGroups i)
        (fun m => (s.pKProcs m).crData.recorded = true ∧ (s.pKProcs m).crData.pow = -(i : Int))
        (fun m => (s.pKProcs m).crData.pos)
        (by
          intro j hj
          obtain ⟨m1, m2, m3, m4⟩ := h.nMembers i hi2 h0 j hj
          exact ⟨m1, ⟨m2, m3⟩, m4⟩)
        (by
          rintro m hm ⟨hr, hp⟩
          obtain ⟨_, r2, r3⟩ := h.recorded m hm hr
          rw [hp, (getGroup_negNat s i h0).1] at r2 r3
          exact ⟨r2, r3⟩)
      rw [this]
      apply Finset.sum_congr rfl
      intro m _
      simp only [h0, true_and]
    · have hi0 : i = 0 := by omega
      rw [hi0, (h.nZero (by omega)).2]
      symm
      apply Finset.sum_eq_zero
      intro m _
      rw [if_neg]
      rintro ⟨hlt, _⟩
      omega
  rw [Finset.sum_congr rfl hN, Finset.sum_congr rfl hP, Finset.sum_comm,
    Finset.sum_comm (s := Finset.range s.pGroupsSize), ← Finset.sum_add_distrib]
  apply Finset.sum_congr rfl
  intro m hm
  have hm2 := Finset.mem_range.mp hm
  by_cases hr : (s.pKProcs m).crData.recorded = true
  · rw [if_pos hr]
    obtain ⟨hex, _, _⟩ := h.recorded m hm2 hr
    unfold groupExists at hex
    by_cases hp : (s.pKProcs m).crData.pow ≥ 0
    · rw [if_pos hp] at hex
      have hz : ∑ i in Finset.range s.nGroupsSize,
          (if (0 < i ∧ (s.pKProcs m).crData.recorded = true ∧
            (s.pKProcs m).crData.pow = -(i : Int)) then storedRate s m else 0) = 0 := by
        apply Finset.sum_eq_zero
        intro i _
        rw [if_neg]
        rintro ⟨h0, _, he⟩
        omega
      rw [hz, zero_add, Finset.sum_eq_single (s.pKProcs m).crData.pow.toNat]
      · rw [if_pos]
        exact ⟨hr, by omega⟩
      · intro i _ hne
        rw [if_neg]
        rintro ⟨_, he⟩
        apply hne
        omega
      · intro hnot
        exact absurd (Finset.mem_range.mpr hex) hnot
    · rw [if_neg hp] at hex
      have hz : ∑ i in Finset.range s.pGroupsSize,
          (if ((s.pKProcs m).crData.recorded = true ∧
            (s.pKProcs m).crData.pow = (i : Int)) then storedRate s m else 0) = 0 := by
        apply Finset.sum_eq_zero
        intro i _
        rw [if_neg]
        rintro ⟨_, he⟩
        omega
      rw [hz, add_zero, Finset.sum_eq_single (-(s.pKProcs m).crData.pow).toNat]
      · rw [if_pos]
        exact ⟨by omega, hr, by omega⟩
      · intro i _ hne
        rw [if_neg]
        rintro ⟨_, _, he⟩
        apply hne
        omega
      · intro hnot
        exact absurd (Finset.mem_range.mpr hex) hnot
  · rw [if_neg hr]
    have hz1 : ∑ i in Finset.range s.nGroupsSize,
        (if (0 < i ∧ (s.pKProcs m).crData.recorded = true ∧
          (s.pKProcs m).crData.pow = -(i : Int)) then storedRate s m else 0) = 0 := by
      apply Finset.sum_eq_zero
      intro i _
      rw [if_neg]
      rintro ⟨_, h1, _⟩
      exact hr h1
    have hz2 : ∑ i in Finset.range s.pGroupsSize,
        (if ((s.pKProcs m).crData.recorded = true ∧
          (s.pKProcs m).crData.pow = (i : Int)) then storedRate s m else 0) = 0 := by
      apply Finset.sum_eq_zero
      intro i _
      rw [if_neg]
      rintro ⟨h1, _⟩
      exact hr h1
    rw [hz1, hz2, add_zero]

/-- A change that leaves the selector alone keeps its full invariant. -/
theorem CRFull_of_same (s s2 : State) (hs : CRSame s s2) (h : CRFull s) : CRFull s2 := by
  have hI := CRInv_of_same s s2 hs h.inv
  obtain ⟨e1, _, _, _, _, e6⟩ := hs
  refine ⟨hI, fun m hm => ?_, fun m hm hrec => ?_⟩
  · rw [e1] at hm
    unfold storedRate
    rw [e6 m]
    exact h.recOK m hm
  · rw [e1] at hm
    rw [e6 m] at hrec
    unfold storedRate
    rw [e6 m]
    exact h.powOK m hm hrec

/-- With no group pushed, no KProc recorded and no stored rate above the threshold, the
full invariant holds. -/
theorem CRFull_of_empty (s : State) (h : CREmpty s)
    (hr : ∀ m, m < s.nEntries → storedRate s m ≤ 1 / 100000000000000000000) : CRFull s := by
  refine ⟨CRInv_of_empty s h, fun m hm => ?_, fun m hm hrec => ?_⟩
  · have hf := h.2.2.2 m hm
    rw [hf]
    exact ⟨fun hx => absurd hx (by decide), fun hx => absurd hx (not_lt.mpr (hr m hm))⟩
  · have hf := h.2.2.2 m hm
    rw [hf] at hrec
    exact absurd hrec (by decide)

/-- Every `reset()` of a KProc leaves its selector record cleared. -/
theorem KProc_reset_crData (s : State) (k k2 : KProc) (h : KProc.reset s k = .ok k2) :
    k2.crData = CRKProcData.cleared := by
  unfold KProc.reset at h
  cases hv : k.variant with
  | reac r =>
    rw [hv] at h
    dsimp only at h
    unfold Reac.reset at h
    cases hc : Reac.resetCcst s r with
    | error e => rw [hc] at h; cases h
    | ok r2 =>
      rw [hc] at h
      rw [← Except.ok.inj h]
      exact (setActive_fields _ true).2.1
  | sreac sr =>
    rw [hv] at h
    dsimp only at h
    unfold SReac.reset at h
    cases hc : SReac.resetCcst s sr with
    | error e => rw [hc] at h; cases h
    | ok r2 =>
      rw [hc] at h
      rw [← Except.ok.inj h]
      exact (setActive_fields _ true).2.1
  | diff d =>
    rw [hv] at h
    dsimp only at h
    obtain ⟨d2, _, hk⟩ := Diff_reset_inv s k k2 d h
    rw [hk]
    exact (setActive_fields _ true).2.1

/-- After `Tetexact::reset()` of an engine whose schedule holds only KProcs of assigned tets
and triangles, the full invariant of the selector holds: no group, no KProc recorded, every
stored rate 0. -/
theorem reset_CRFull (E : Engine) (s : State) (hN : s.nEntries < 4294967296)
    (hall : ∀ m, m < s.nEntries → E.owns s m)
    (hok : ∀ k, E.owns s k → ∃ k2, KProc.reset s (s.pKProcs k) = .ok k2) :
    ∃ s2, reset E s = .ok s2 ∧ CRFull s2 ∧ s2.nEntries = s.nEntries := by
  obtain ⟨s2, h2, _, hn, hfr⟩ := reset_ok E s hok
  obtain ⟨_, _, _, _, _, g1, g2⟩ := reset_inv E s s2 h2
  have hcl : ∀ m, m < s2.nEntries → (s2.pKProcs m).crData = CRKProcData.cleared := by
    intro m hm
    rw [hn] at hm
    exact KProc_reset_crData s _ _ (hfr m (hall m hm))
  refine ⟨s2, h2, CRFull_of_empty s2 ⟨by rw [hn]; exact hN, g1, g2, fun m hm => ?_⟩
    (fun m hm => ?_), hn⟩
  · rw [hcl m hm]
    rfl
  · unfold storedRate
    rw [hcl m hm]
    norm_num [CRKProcData.cleared]

/-- Claim C25. From any state that satisfies the full invariant of the selector, the full
pass `_update()` (it is what `_reset()` runs) returns whenever every `rate()` does, and
then: A0 is the sum of `rate()` over the KProcs of the schedule whose `rate()` exceeds
1e-20; the stored rate of every KProc is its `rate()`, before and after the pass alike; a
KProc is recorded exactly when its rate exceeds 1e-20; and the full invariant holds again.
Hence A0 depends on the propensities alone and not on the history: two states with the same
schedule size and the same propensities get the same A0. -/
theorem updateAll_A0_spec (s : State) (h : CRFull s) :
    ((∀ m, m < s.nEntries → ∃ v, KProc.rate s (s.pKProcs m) = .ok v) →
      ∃ s2, _updateAll s = .ok s2) ∧
    (∀ s2, _updateAll s = .ok s2 → ∀ r : Nat → ℚ,
      (∀ m, m < s.nEntries → KProc.rate s (s.pKProcs m) = .ok (r m)) →
      s2.pA0 = (∑ m in Finset.range s.nEntries,
        if r m > 1 / 100000000000000000000 then r m else 0) ∧
      (∀ m, m < s.nEntries → storedRate s2 m = r m ∧
        KProc.rate s2 (s2.pKProcs m) = .ok (r m) ∧
        ((s2.pKProcs m).crData.recorded = true ↔ r m > 1 / 100000000000000000000)) ∧
      CRFull s2) ∧
    (∀ t s2 t2, CRFull t → t.nEntries = s.nEntries →
      (∀ m, m < s.nEntries → KProc.rate t (t.pKProcs m) = KProc.rate s (s.pKProcs m)) →
      _updateAll s = .ok s2 → _updateAll t = .ok t2 → t2.pA0 = s2.pA0) := by
  have key : ∀ (u u2 : State), CRFull u → _updateAll u = .ok u2 → ∀ r : Nat → ℚ,
      (∀ m, m < u.nEntries → KProc.rate u (u.pKProcs m) = .ok (r m)) →
      u2.pA0 = (∑ m in Finset.range u.nEntries,
        if r m > 1 / 100000000000000000000 then r m else 0) ∧
      (∀ m, m < u.nEntries → storedRate u2 m = r m ∧
        KProc.rate u2 (u2.pKProcs m) = .ok (r m) ∧
        ((u2.pKProcs m).crData.recorded = true ↔ r m > 1 / 100000000000000000000)) ∧
      CRFull u2 := by
    intro u u2 hu hup r hr
    unfold _updateAll _update at hup
    cases hl : updateLoop (List.range u.nEntries) u with
    | error e => rw [hl] at hup; cases hup
    | ok u1 =>
      rw [hl] at hup
      dsimp only at hup
      obtain ⟨hf1, hfr1, hst, _⟩ := updateLoop_CRFull _ u u1 hu
        (fun kp hk => List.mem_range.mp hk) hl
      have hn : u1.nEntries = u.nEntries := hfr1.2.2.1
      have hsr : ∀ m, m < u.nEntries → storedRate u1 m = r m := by
        intro m hm
        have h1 := hst m (List.mem_range.mpr hm)
        rw [hr m hm] at h1
        exact (Except.ok.inj h1).symm
      have hf2 : CRFull (_updateSum u1) := CRFull_of_same u1 _ (updateSum_same u1) hf1
      rw [← Except.ok.inj hup]
      refine ⟨?_, fun m hm => ⟨hsr m hm, ?_, ?_⟩, hf2⟩
      · rw [updateSum_A0, CRInv_total u1 hf1.inv, hn]
        apply Finset.sum_congr rfl
        intro m hm
        have hm2 := Finset.mem_range.mp hm
        have hrec := hf1.recOK m (by rw [hn]; exact hm2)
        rw [hsr m hm2] at hrec ⊢
        by_cases hc : r m > 1 / 100000000000000000000
        · rw [if_pos hc, if_pos (hrec.mpr hc)]
        · rw [if_neg hc, if_neg (fun hx => hc (hrec.mp hx))]
      · have e : KProc.rate (_updateSum u1) ((_updateSum u1).pKProcs m)
            = KProc.rate u1 (u1.pKProcs m) := rfl
        rw [e, KProc_rate_CRFrame u u1 m hfr1]
        exact hr m hm
      · have hrec := hf1.recOK m (by rw [hn]; exact hm)
        rw [hsr m hm] at hrec
        exact hrec
  refine ⟨fun hr => ?_, fun s2 h2 r hr => key s s2 h h2 r hr, ?_⟩
  · exact update_ok s _ (fun kp hk => hr kp (List.mem_range.mp hk))
  · intro t s2 t2 ht hn hrt h2 ht2
    have hex : ∀ m, m < s.nEntries → ∃ v, KProc.rate s (s.pKProcs m) = .ok v := by
      intro m hm
      have hfr := CRFrame_update s s2 _ h2
      unfold _updateAll _update at h2
      cases hl : updateLoop (List.range s.nEntries) s with
      | error e => rw [hl] at h2; cases h2
      | ok s1 =>
        obtain ⟨_, _, hst, _⟩ := updateLoop_CRFull _ s s1 h
          (fun kp hk => List.mem_range.mp hk) hl
        exact ⟨_, hst m (List.mem_range.mpr hm)⟩
    have hr : ∀ m, m < s.nEntries →
        KProc.rate s (s.pKProcs m) = .ok (if hm : m < s.nEntries then
          Classical.choose (hex m hm) else 0) := by
      intro m hm
      rw [dif_pos hm]
      exact Classical.choose_spec (hex m hm)
    obtain ⟨a1, _, _⟩ := key s s2 h h2 _ hr
    obtain ⟨b1, _, _⟩ := key t t2 ht ht2 _ (by
      intro m hm
      rw [hn] at hm
      rw [hrt m hm]
      exact hr m hm)
    rw [a1, b1, hn]

/-- Witness of C25 on the concrete system as the constructor leaves it (no group, no KProc
recorded, stored rates 0; 2 A and 1 B in tet 0, 1 S on the triangle): the full pass
returns and sets A0 = 2 + 2 + 2 = 6, the sum of the three propensities. -/
theorem updateAll_A0_spec_witness : ∃ s2, _updateAll Demo.emptyState = .ok s2 ∧ s2.pA0 = 6 := by
  have hF : CRFull Demo.emptyState :=
    CRFull_of_empty _ ⟨by decide, rfl, rfl, fun _ _ => rfl⟩
      (fun m _ => by norm_num [storedRate, Demo.emptyState, CRKProcData.cleared])
  have hr : ∀ m, m < Demo.emptyState.nEntries →
      KProc.rate Demo.emptyState (Demo.emptyState.pKProcs m) = .ok ((fun _ => (2 : ℚ)) m) := by
    intro m hm
    have hk : m = 0 ∨ m = 1 ∨ m = 2 := by
      have : m < 3 := hm
      omega
    rcases hk with rfl | rfl | rfl
    · norm_num [KProc.rate, Demo.emptyState, Demo.state, Demo.kproc, Reac.rate, KProc.inactive,
        INACTIVATED, Demo.reac0, Demo.tet0, Demo.cdef, Reac.hmuLoop, List.range,
        List.range.loop, switchLhs, toInt, toUInt, wrapInt]
    · norm_num [KProc.rate, Demo.emptyState, Demo.state, Demo.kproc, Diff.rate, KProc.inactive,
        INACTIVATED, Demo.diff1, Demo.tet0]
    · norm_num [KProc.rate, Demo.emptyState, Demo.state, Demo.kproc, SReac.rate,
        KProc.inactive, INACTIVATED, Demo.sreac2, Demo.tri0, Demo.tet0, Demo.pdef,
        SReac.hmuLoop, SReac.rateVol, SReac.lidx, List.range, List.range.loop, switchLhs,
        toInt, toUInt, wrapInt]
  obtain ⟨s2, h2⟩ := (updateAll_A0_spec Demo.emptyState hF).1 (fun m hm => ⟨_, hr m hm⟩)
  obtain ⟨hA, _, _⟩ := (updateAll_A0_spec Demo.emptyState hF).2.1 s2 h2 _ hr
  refine ⟨s2, h2, ?_⟩
  rw [hA]
  have hn : Demo.emptyState.nEntries = 3 := rfl
  rw [hn]
  norm_num [Finset.sum_range_succ]

/-! ## Setters of rate constants (claim C29) -/

/-- Replacing the derived object of a KProc leaves the selector alone. -/
theorem CRSame_setVariant (s : State) (k : Nat) (v : KProcVariant) :
    CRSame s (s.setKProc k { s.pKProcs k with variant := v }) := by
  refine ⟨rfl, rfl, rfl, rfl, rfl, fun m => ?_⟩
  unfold State.setKProc
  by_cases hm : m = k
  · rw [hm]
    simp only [Function.update_same]
  · simp only [Function.update_noteq hm]

/-- Under the invariant of the selector a KProc that is not recorded is a member of no
group. -/
theorem CRInv_not_member (s : State) (h : CRInv s) (k : Nat)
    (hrec : (s.pKProcs k).crData.recorded = false) :
    (∀ i, i < s.pGroupsSize → ∀ j, j < (s.pGroups i).size → (s.pGroups i).indices j ≠ k) ∧
    (∀ i, i < s.nGroupsSize → ∀ j, j < (s.nGroups i).size → (s.nGroups i).indices j ≠ k) := by
  refine ⟨fun i hi j hj he => ?_, fun i hi j hj he => ?_⟩
  · have := (h.pMembers i hi j hj).2.1
    rw [he, hrec] at this
    cases this
  · by_cases h0 : 0 < i
    · have := (h.nMembers i hi h0 j hj).2.1
      rw [he, hrec] at this
      cases this
    · have hi0 : i = 0 := by omega
      rw [hi0] at hj
      rw [(h.nZero (by omega)).1] at hj
      omega

/-- The refresh that ends every setter of a rate constant: after a change that left the
selector alone, `_updateElement(k)` and `_updateSum()` leave `k` and the selector
refreshed, and the derived object of `k` as the change wrote it. -/
theorem refresh_spec (s s1 s2 : State) (k : Nat) (hF : CRFull s) (hk : k < s.nEntries)
    (hsame : CRSame s s1) (hu : _updateElement s1 k = .ok s2) :
    Refreshed (_updateSum s2) k ∧
    ((_updateSum s2).pKProcs k).variant = (s1.pKProcs k).variant ∧
    CRFrame s1 (_updateSum s2) := by
  have hF1 : CRFull s1 := CRFull_of_same s s1 hsame hF
  have hk1 : k < s1.nEntries := by rw [hsame.1]; exact hk
  have hF2 : CRFull s2 := updateElement_CRFull s1 s2 k hF1 hk1 hu
  have hfr := CRFrame_updateElement s1 s2 k hu
  have hk2 : k < s2.nEntries := by rw [hfr.2.2.1]; exact hk1
  have hF3 : CRFull (_updateSum s2) := CRFull_of_same s2 _ (updateSum_same s2) hF2
  obtain ⟨a, q0, q1, _, _, _⟩ := updateElement_records s1 s2 k hu
  have hrate : KProc.rate (_updateSum s2) ((_updateSum s2).pKProcs k) = .ok a := by
    have e : KProc.rate (_updateSum s2) ((_updateSum s2).pKProcs k)
        = KProc.rate s2 (s2.pKProcs k) := rfl
    rw [e, KProc_rate_CRFrame s1 s2 k hfr]
    exact q0
  have hst : storedRate s2 k = a := q1
  have hrec := hF2.recOK k hk2
  rw [hst] at hrec
  refine ⟨⟨a, hrate, hst, fun ha => ?_, fun ha => ?_, updateSum_A0 s2, hF3⟩,
    (hfr.2.2.2.2.2 k).2.2.2,
    ⟨hfr.1, hfr.2.1, hfr.2.2.1, hfr.2.2.2.1, hfr.2.2.2.2.1, hfr.2.2.2.2.2⟩⟩
  · have hr : (s2.pKProcs k).crData.recorded = true := hrec.mpr ha
    have hp := hF2.powOK k hk2 hr
    rw [hst] at hp
    obtain ⟨g1, g2, g3⟩ := hF2.inv.recorded k hk2 hr
    rw [hp] at g1 g2 g3
    exact ⟨hr, hp, g1, g2, g3⟩
  · have hr : (s2.pKProcs k).crData.recorded = false := by
      cases hc : (s2.pKProcs k).crData.recorded with
      | false => rfl
      | true => exact absurd (hrec.mp hc) (not_lt.mpr ha)
    exact ⟨hr, CRInv_not_member s2 hF2.inv k hr⟩

/-- What a returning `setKcst` of a reaction stores. -/
theorem Reac_setKcst_inv (s : State) (r r2 : Reac) (k : ℚ) (h : Reac.setKcst s r k = .ok r2) :
    r2 = { r with pKcst := k
                  pCcst := comp_ccst k (s.tets r.pTet).vol r.pReacdef.order
                    (s.tets r.pTet).compdef.vol } ∧ 0 ≤ k ∧ 0 ≤ r2.pCcst := by
  unfold Reac.setKcst at h
  by_cases hk : k ≥ 0
  · rw [if_neg (not_not.mpr hk)] at h
    dsimp only at h
    by_cases hc : comp_ccst k (s.tets r.pTet).vol r.pReacdef.order (s.tets r.pTet).compdef.vol ≥ 0
    · rw [if_neg (not_not.mpr hc)] at h
      rw [← Except.ok.inj h]
      exact ⟨rfl, hk, hc⟩
    · rw [if_pos hc] at h
      cases h
  · rw [if_pos hk] at h
    cases h

/-- What a returning `_setTetReacK` has done: `setKcst` on the Reac, `_updateElement` on
it and `_updateSum()`. -/
theorem setTetReacK_inv (E : Engine) (s s2 : State) (tidx ridx tet k : Nat) (r : Reac)
    (kf : ℚ)
    (hpt : E.pTets.getD tidx none = some tet)
    (hk : (s.tets tet).reac ((s.tets tet).compdef.reacG2L ridx) = some k)
    (hv : (s.pKProcs k).variant = .reac r)
    (h : _setTetReacK E s tidx ridx kf = .ok s2) :
    ∃ r2 s3, Reac.setKcst s r kf = .ok r2 ∧
      _updateElement (s.setKProc k { s.pKProcs k with variant := .reac r2 }) k = .ok s3 ∧
      s2 = _updateSum s3 := by
  unfold _setTetReacK at h
  split_ifs at h
  rw [hpt] at h
  dsimp only at h
  split_ifs at h
  rw [hk] at h
  dsimp only at h
  rw [hv] at h
  dsimp only at h
  cases hs : Reac.setKcst s r kf with
  | error e => rw [hs] at h; cases h
  | ok r2 =>
    rw [hs] at h
    dsimp only at h
    cases hu : _updateElement (s.setKProc k { s.pKProcs k with variant := .reac r2 }) k with
    | error e => rw [hu] at h; cases h
    | ok s3 =>
      rw [hu] at h
      exact ⟨r2, s3, rfl, hu, ((Except.ok.inj h)).symm⟩

/-- What a returning `_setTetDiffD` has done: `setDcst` on the Diff, `_updateElement` on it
and `_updateSum()`. -/
theorem setTetDiffD_inv (E : Engine) (s s2 : State) (tidx didx tet k : Nat) (d : Diff)
    (dk : ℚ)
    (hpt : E.pTets.getD tidx none = some tet)
    (hk : (s.tets tet).diff ((s.tets tet).compdef.diffG2L didx) = some k)
    (hv : (s.pKProcs k).variant = .diff d)
    (h : _setTetDiffD E s tidx didx dk = .ok s2) :
    ∃ d2 s3, Diff.setDcst s d dk = .ok d2 ∧
      _updateElement (s.setKProc k { s.pKProcs k with variant := .diff d2 }) k = .ok s3 ∧
      s2 = _updateSum s3 := by
  unfold _setTetDiffD at h
  split_ifs at h
  rw [hpt] at h
  dsimp only at h
  split_ifs at h
  rw [hk] at h
  dsimp only at h
  rw [hv] at h
  dsimp only at h
  cases hs : Diff.setDcst s d dk with
  | error e => rw [hs] at h; cases h
  | ok d2 =>
    rw [hs] at h
    dsimp only at h
    cases hu : _updateElement (s.setKProc k { s.pKProcs k with variant := .diff d2 }) k with
    | error e => rw [hu] at h; cases h
    | ok s3 =>
      rw [hu] at h
      exact ⟨d2, s3, rfl, hu, ((Except.ok.inj h)).symm⟩

/-- What a returning `_setTriSReacK` has done: `setKcst` on the SReac, `_updateElement` on
it and `_updateSum()`. -/
theorem setTriSReacK_inv (E : Engine) (s s2 : State) (tidx ridx tri k : Nat) (sr : SReac)
    (kf : ℚ)
    (hpt : E.pTris.getD tidx none = some tri)
    (hk : (s.tris tri).sreac ((s.tris tri).patchdef.sreacG2L ridx) = some k)
    (hv : (s.pKProcs k).variant = .sreac sr)
    (h : _setTriSReacK E s tidx ridx kf = .ok s2) :
    ∃ sr2 s3, SReac.setKcst s sr kf = .ok sr2 ∧
      _updateElement (s.setKProc k { s.pKProcs k with variant := .sreac sr2 }) k = .ok s3 ∧
      s2 = _updateSum s3 := by
  unfold _setTriSReacK at h
  split_ifs at h
  rw [hpt] at h
  dsimp only at h
  split_ifs at h
  rw [hk] at h
  dsimp only at h
  rw [hv] at h
  dsimp only at h
  cases hs : SReac.setKcst s sr kf with
  | error e => rw [hs] at h; cases h
  | ok sr2 =>
    rw [hs] at h
    dsimp only at h
    cases hu : _updateElement (s.setKProc k { s.pKProcs k with variant := .sreac sr2 }) k with
    | error e => rw [hu] at h; cases h
    | ok s3 =>
      rw [hu] at h
      exact ⟨sr2, s3, rfl, hu, ((Except.ok.inj h)).symm⟩

/-- Method `_setTetReacK` returns when its argument checks pass, the constant is not
negative, the volume of the tet is positive and the lhs multiplicities lie within 0..4. -/
theorem setTetReacK_ok (E : Engine) (s : State) (tidx ridx tet k : Nat) (r : Reac) (kf : ℚ)
    (ht : tidx < E.pTets.length) (hr : ridx < E.countReacs) (hkf : 0 ≤ kf)
    (hpt : E.pTets.getD tidx none = some tet)
    (hl : (s.tets tet).compdef.reacG2L ridx ≠ LIDX_UNDEFINED)
    (hk : (s.tets tet).reac ((s.tets tet).compdef.reacG2L ridx) = some k)
    (hv : (s.pKProcs k).variant = .reac r)
    (hV : 0 < (s.tets r.pTet).vol)
    (hlhs : ∀ p < Reac.nspecs s r, Reac.lhs_vec s r p ≤ 4) :
    ∃ s2, _setTetReacK E s tidx ridx kf = .ok s2 := by
  have hkf2 : kf ≥ 0 := hkf
  have hrate : ∃ v, KProc.rate
      (s.setKProc k { s.pKProcs k with variant := .reac { r with
        pKcst := kf
        pCcst := comp_ccst kf (s.tets r.pTet).vol r.pReacdef.order
          (s.tets r.pTet).compdef.vol } })
      ((s.setKProc k { s.pKProcs k with variant := .reac { r with
        pKcst := kf
        pCcst := comp_ccst kf (s.tets r.pTet).vol r.pReacdef.order
          (s.tets r.pTet).compdef.vol } }).pKProcs k) = .ok v := by
    have e : (s.setKProc k { s.pKProcs k with variant := .reac { r with
        pKcst := kf
        pCcst := comp_ccst kf (s.tets r.pTet).vol r.pReacdef.order
          (s.tets r.pTet).compdef.vol } }).pKProcs k
        = { s.pKProcs k with variant := .reac { r with
        pKcst := kf
        pCcst := comp_ccst kf (s.tets r.pTet).vol r.pReacdef.order
          (s.tets r.pTet).compdef.vol } } := by
      unfold State.setKProc
      simp only [Function.update_same]
    rw [e]
    unfold KProc.rate
    dsimp only
    cases hin : (s.pKProcs k).inactive with
    | true =>
      refine ⟨0, ?_⟩
      have : ({ s.pKProcs k with variant := KProcVariant.reac { r with
        pKcst := kf
        pCcst := comp_ccst kf (s.tets r.pTet).vol r.pReacdef.order
          (s.tets r.pTet).compdef.vol } } : KProc).inactive = true := hin
      simp [Reac.rate, this]
    | false =>
      exact ⟨_, Reac_rate_active _ _ _ hin hlhs⟩
  obtain ⟨v, hv2⟩ := hrate
  obtain ⟨s3, hs3⟩ := updateElement_ok _ k v hv2
  refine ⟨_updateSum s3, ?_⟩
  unfold _setTetReacK
  rw [if_neg (not_not.mpr ht), if_neg (not_not.mpr hr), if_neg (not_not.mpr hkf2), hpt]
  dsimp only
  rw [if_neg hl, hk]
  dsimp only
  rw [hv]
  dsimp only
  rw [Reac_setKcst_ok s r kf hkf hV]
  dsimp only
  rw [hs3]

/-- Claim C29. In a state that satisfies the full invariant of the selector, when
`_setTetReacK(t, r, k)`, `_setTetDiffD(t, d, D)` or `_setTriSReacK(t, r, k)` returns for a
KProc of the schedule: the stored macroscopic constant is the argument; the mesoscopic
constant has been recomputed from it (for a Reac `c = comp_ccst(k, V, order)`, which is
`k·(1000·V·N_A)^(-(order-1))`; for a Diff `scaledDcst` is the sum of the four per-face
coefficients of the new constant and the CDF the one `setDcst` derives from them; for an
SReac `c` is what the scaling block of sreac.cpp returns for `k`); no count changes; the
stored rate of the KProc is its propensity `rate()`; it sits in the group of the binary
exponent of that rate when the rate exceeds 1e-20 and in no group otherwise; A0 is the sum
of all group sums; and the full invariant holds again. -/
theorem setRateConstant_spec (E : Engine) (s : State) (hF : CRFull s) :
    (∀ tidx ridx tet k r kf s2,
      E.pTets.getD tidx none = some tet →
      (s.tets tet).reac ((s.tets tet).compdef.reacG2L ridx) = some k →
      k < s.nEntries → (s.pKProcs k).variant = .reac r →
      _setTetReacK E s tidx ridx kf = .ok s2 →
      ∃ r2, (s2.pKProcs k).variant = .reac r2 ∧ r2.pKcst = kf ∧
        r2.pCcst = comp_ccst kf (s.tets r.pTet).vol r.pReacdef.order
          (s.tets r.pTet).compdef.vol ∧
        (r.pReacdef.order < 2147483648 →
          r2.pCcst = kf * (1000 * (s.tets r.pTet).vol * AVOGADRO)
            ^ (-((r.pReacdef.order : Int) - 1))) ∧
        r2.pReacdef = r.pReacdef ∧ r2.pTet = r.pTet ∧
        s2.tets = s.tets ∧ s2.tris = s.tris ∧ Refreshed s2 k) ∧
    (∀ tidx didx tet k d dk s2,
      E.pTets.getD tidx none = some tet →
      (s.tets tet).diff ((s.tets tet).compdef.diffG2L didx) = some k →
      k < s.nEntries → (s.pKProcs k).variant = .diff d →
      _setTetDiffD E s tidx didx dk = .ok s2 →
      ∃ d2, (s2.pKProcs k).variant = .diff d2 ∧ d2.pDcst = dk ∧
        d2.pScaledDcst = Diff.dSpec s d2 0 + Diff.dSpec s d2 1 + Diff.dSpec s d2 2
          + Diff.dSpec s d2 3 ∧
        (d2.pScaledDcst = 0 →
          d2.pCDFSelector 0 = 0 ∧ d2.pCDFSelector 1 = 0 ∧ d2.pCDFSelector 2 = 0) ∧
        (d2.pScaledDcst ≠ 0 →
          d2.pCDFSelector 0 = Diff.dSpec s d2 0 / d2.pScaledDcst ∧
          d2.pCDFSelector 1 = Diff.dSpec s d2 0 / d2.pScaledDcst
            + Diff.dSpec s d2 1 / d2.pScaledDcst ∧
          d2.pCDFSelector 2 = Diff.dSpec s d2 0 / d2.pScaledDcst
            + Diff.dSpec s d2 1 / d2.pScaledDcst + Diff.dSpec s d2 2 / d2.pScaledDcst) ∧
        Diff.setDcst s d2 dk = .ok d2 ∧
        d2.pTet = d.pTet ∧ d2.pDiffBndActive = d.pDiffBndActive ∧
        s2.tets = s.tets ∧ s2.tris = s.tris ∧ Refreshed s2 k) ∧
    (∀ tidx ridx tri k sr kf s2,
      E.pTris.getD tidx none = some tri →
      (s.tris tri).sreac ((s.tris tri).patchdef.sreacG2L ridx) = some k →
      k < s.nEntries → (s.pKProcs k).variant = .sreac sr →
      _setTriSReacK E s tidx ridx kf = .ok s2 →
      ∃ sr2, (s2.pKProcs k).variant = .sreac sr2 ∧ sr2.pKcst = kf ∧
        SReac.ccstFor s sr kf = .ok sr2.pCcst ∧
        sr2.pSReacdef = sr.pSReacdef ∧ sr2.pTri = sr.pTri ∧
        s2.tets = s.tets ∧ s2.tris = s.tris ∧ Refreshed s2 k) := by
  have hvar : ∀ (k : Nat) (v : KProcVariant),
      ((s.setKProc k { s.pKProcs k with variant := v }).pKProcs k).variant = v := by
    intro k v
    unfold State.setKProc
    simp only [Function.update_same]
  refine ⟨?_, ?_, ?_⟩
  · intro tidx ridx tet k r kf s2 hpt hk hkn hv h
    obtain ⟨r2, s3, h1, h2, h3⟩ := setTetReacK_inv E s s2 tidx ridx tet k r kf hpt hk hv h
    obtain ⟨e1, _, _⟩ := Reac_setKcst_inv s r r2 kf h1
    obtain ⟨g1, g2, g3⟩ := refresh_spec s _ s3 k hF hkn (CRSame_setVariant s k _) h2
    rw [hvar] at g2
    rw [h3]
    refine ⟨r2, g2, by rw [e1], by rw [e1], fun hn => ?_, by rw [e1], by rw [e1],
      g3.1, g3.2.1, g1⟩
    rw [e1]
    exact comp_ccst_eq kf (s.tets r.pTet).vol r.pReacdef.order (s.tets r.pTet).compdef.vol hn
  · intro tidx didx tet k d dk s2 hpt hk hkn hv h
    obtain ⟨d2, s3, h1, h2, h3⟩ := setTetDiffD_inv E s s2 tidx didx tet k d dk hpt hk hv h
    obtain ⟨_, _, _, a4, _, _, a7, _, a9, a10⟩ := Diff_setDcst_static s d d2 dk h1
    obtain ⟨_, _, c3, c4⟩ := Diff_setDcst_consistent s d d2 dk h1
    obtain ⟨_, e2, e3⟩ := Diff_setDcst_cdf s d d2 dk h1
    obtain ⟨g1, g2, g3⟩ := refresh_spec s _ s3 k hF hkn (CRSame_setVariant s k _) h2
    rw [hvar] at g2
    rw [h3]
    refine ⟨d2, g2, a7, c4, e2, fun hne => ?_, a10, a4, a9, g3.1, g3.2.1, g1⟩
    obtain ⟨q0, q1, q2⟩ := e3 hne
    rw [c3 0] at q0 q1 q2
    rw [c3 1] at q1 q2
    rw [c3 2] at q2
    exact ⟨q0, q1, q2⟩
  · intro tidx ridx tri k sr kf s2 hpt hk hkn hv h
    obtain ⟨sr2, s3, h1, h2, h3⟩ := setTriSReacK_inv E s s2 tidx ridx tri k sr kf hpt hk hv h
    obtain ⟨b1, b2, b3, b4, _⟩ := SReac_setKcst_inv s sr sr2 kf h1
    obtain ⟨g1, g2, g3⟩ := refresh_spec s _ s3 k hF hkn (CRSame_setVariant s k _) h2
    rw [hvar] at g2
    rw [h3]
    exact ⟨sr2, g2, b1, b2, b3, b4, g3.1, g3.2.1, g1⟩

/-- Witness of C29 on the concrete system as the constructor leaves it: setting the
constant of the reaction A → B of tet 0 to 3 returns, stores `k = 3` and `c = 3` (first
order), and leaves the KProc and the selector refreshed. -/
theorem setRateConstant_spec_witness : ∃ s2 r2,
    _setTetReacK Demo.engine Demo.emptyState 0 0 3 = .ok s2 ∧
    (s2.pKProcs 0).variant = .reac r2 ∧ r2.pKcst = 3 ∧ r2.pCcst = 3 ∧ Refreshed s2 0 := by
  have hF : CRFull Demo.emptyState :=
    CRFull_of_empty _ ⟨by decide, rfl, rfl, fun _ _ => rfl⟩
      (fun m _ => by norm_num [storedRate, Demo.emptyState, CRKProcData.cleared])
  obtain ⟨s2, h2⟩ := setTetReacK_ok Demo.engine Demo.emptyState 0 0 0 0 Demo.reac0 3
    (by decide) (by decide) (by norm_num) rfl (by decide) rfl rfl
    (by norm_num [Demo.emptyState, Demo.state, Demo.reac0, Demo.tet0])
    (by
      intro p _
      simp [Reac.lhs_vec, Demo.emptyState, Demo.state, Demo.reac0, Demo.tet0, Demo.cdef]
      split_ifs <;> norm_num)
  obtain ⟨r2, a1, a2, _, a4, _, _, _, _, a9⟩ :=
    (setRateConstant_spec Demo.engine Demo.emptyState hF).1 0 0 0 0 Demo.reac0 3 s2
      rfl rfl (by decide) rfl h2
  refine ⟨s2, r2, h2, a1, a2, ?_, a9⟩
  rw [a4 (by decide)]
  exact (ccst_orders 3 _).1

/-! ## The direction of a hop has a positive coefficient (claim C34) -/

/-- The cascade of comparisons against the cumulative selector built from four
non-negative weights never lands on a weight that is 0, for a draw in the open unit
interval. -/
theorem cdf_pick (a0 a1 a2 a3 S u : ℚ) (h0 : 0 ≤ a0) (h1 : 0 ≤ a1) (h2 : 0 ≤ a2) (h3 : 0 ≤ a3)
    (hS : S = a0 + a1 + a2 + a3) (hpos : 0 < S) (hu0 : 0 < u) (hu1 : u < 1) :
    (u < a0 / S → 0 < a0) ∧
    (¬ u < a0 / S → u < a0 / S + a1 / S → 0 < a1) ∧
    (¬ u < a0 / S + a1 / S → u < a0 / S + a1 / S + a2 / S → 0 < a2) ∧
    (¬ u < a0 / S + a1 / S + a2 / S → 0 < a3) := by
  have e : a0 / S + a1 / S + a2 / S + a3 / S = 1 := by
    rw [← add_div, ← add_div, ← add_div, ← hS]
    exact div_self (ne_of_gt hpos)
  refine ⟨fun hu => ?_, fun hn hu => ?_, fun hn hu => ?_, fun hn => ?_⟩
  · rcases lt_or_eq_of_le h0 with h | h
    · exact h
    · rw [← h, zero_div] at hu
      exact absurd hu0 (not_lt.mpr (le_of_lt hu))
  · rcases lt_or_eq_of_le h1 with h | h
    · exact h
    · rw [← h, zero_div, add_zero] at hu
      exact absurd hu hn
  · rcases lt_or_eq_of_le h2 with h | h
    · exact h
    · rw [← h, zero_div, add_zero] at hu
      exact absurd hu hn
  · rcases lt_or_eq_of_le h3 with h | h
    · exact h
    · rw [← h, zero_div, add_zero] at e
      rw [e] at hn
      exact absurd hu1 hn

/-- A positive per-face coefficient means an open face: the neighbour tet exists, the
distance to it is positive, and the face is no diffusion-boundary face or its
boundary-active flag is set. -/
theorem Diff_dSpec_pos (s : State) (d : Diff) (i : Nat) (h : 0 < Diff.dSpec s d i) :
    ((s.tets d.pTet).nextTet i).isSome = true ∧ (s.tets d.pTet).dist i > 0 ∧
    (d.pDiffBndDirection i = false ∨ d.pDiffBndActive i = true) := by
  unfold Diff.dSpec at h
  by_cases hc : ((s.tets d.pTet).nextTet i).isSome = true ∧ (s.tets d.pTet).dist i > 0 ∧
      (d.pDiffBndDirection i = false ∨ d.pDiffBndActive i = true)
  · exact hc
  · rw [if_neg hc] at h
    exact absurd h (lt_irrefl 0)

/-- The direction chosen from a selector that was derived from the four per-face
coefficients has a positive coefficient. -/
theorem Diff_direction_pos (d2 : Diff) (a : Nat → ℚ) (u : ℚ)
    (hnn : ∀ i, i < 4 → 0 ≤ a i)
    (hsum : d2.pScaledDcst = a 0 + a 1 + a 2 + a 3) (hpos : 0 < d2.pScaledDcst)
    (hc0 : d2.pCDFSelector 0 = a 0 / d2.pScaledDcst)
    (hc1 : d2.pCDFSelector 1 = a 0 / d2.pScaledDcst + a 1 / d2.pScaledDcst)
    (hc2 : d2.pCDFSelector 2 = a 0 / d2.pScaledDcst + a 1 / d2.pScaledDcst
      + a 2 / d2.pScaledDcst)
    (hu0 : 0 < u) (hu1 : u < 1) :
    Diff.direction d2 u < 4 ∧ 0 < a (Diff.direction d2 u) := by
  obtain ⟨p0, p1, p2, p3⟩ := cdf_pick (a 0) (a 1) (a 2) (a 3) d2.pScaledDcst u
    (hnn 0 (by omega)) (hnn 1 (by omega)) (hnn 2 (by omega)) (hnn 3 (by omega))
    hsum hpos hu0 hu1
  rw [Diff_direction_cases, hc0, hc1, hc2]
  by_cases q0 : u < a 0 / d2.pScaledDcst
  · rw [if_pos q0]
    exact ⟨by omega, p0 q0⟩
  · rw [if_neg q0]
    by_cases q1 : u < a 0 / d2.pScaledDcst + a 1 / d2.pScaledDcst
    · rw [if_pos q1]
      exact ⟨by omega, p1 q0 q1⟩
    · rw [if_neg q1]
      by_cases q2 : u < a 0 / d2.pScaledDcst + a 1 / d2.pScaledDcst + a 2 / d2.pScaledDcst
      · rw [if_pos q2]
        exact ⟨by omega, p2 q1 q2⟩
      · rw [if_neg q2]
        exact ⟨by omega, p3 q2⟩

/-- Claim C34. Over exact rationals, with face areas `>= 0` and tet volume `>= 0`: for a
Diff as `setDcst(D)` or the constructor leaves it, with `scaledDcst > 0`, and every draw `u`
in the open interval (0,1), the direction `k` that `Diff::apply` takes (the first index in
{0,1,2} with `u < CDF[k]`, else 3) has `d[k] > 0`; so the neighbour tet in direction `k`
exists, `dist[k] > 0`, and face `k` is no diffusion-boundary face or its boundary-active
flag is set. In particular direction 3 is taken only when `d[3] > 0`. -/
theorem Diff_direction_spec (s : State) (u : ℚ) (hu0 : 0 < u) (hu1 : u < 1) :
    (∀ d D d2, Diff.setDcst s d D = .ok d2 →
      (∀ i, i < 4 → 0 ≤ (s.tets d.pTet).area i) → 0 ≤ (s.tets d.pTet).vol →
      0 < d2.pScaledDcst →
      Diff.direction d2 u < 4 ∧ 0 < Diff.dSpec s d2 (Diff.direction d2 u) ∧
      (∃ nt, (s.tets d2.pTet).nextTet (Diff.direction d2 u) = some nt) ∧
      (s.tets d2.pTet).dist (Diff.direction d2 u) > 0 ∧
      (d2.pDiffBndDirection (Diff.direction d2 u) = false ∨
        d2.pDiffBndActive (Diff.direction d2 u) = true) ∧
      (Diff.direction d2 u = 3 → 0 < Diff.dSpec s d2 3)) ∧
    (∀ ddef tet stale d2, Diff.new s ddef tet stale = .ok d2 →
      (∀ i, i < 4 → 0 ≤ (s.tets tet).area i) → 0 ≤ (s.tets tet).vol →
      0 ≤ (s.tets tet).compdef.dcst ((s.tets tet).compdef.diffG2L ddef.gidx) →
      0 < d2.pScaledDcst →
      Diff.direction d2 u < 4 ∧ 0 < Diff.dSpec s d2 (Diff.direction d2 u) ∧
      (∃ nt, (s.tets d2.pTet).nextTet (Diff.direction d2 u) = some nt) ∧
      (s.tets d2.pTet).dist (Diff.direction d2 u) > 0 ∧
      (d2.pDiffBndDirection (Diff.direction d2 u) = false ∨
        d2.pDiffBndActive (Diff.direction d2 u) = true) ∧
      (Diff.direction d2 u = 3 → 0 < Diff.dSpec s d2 3)) := by
  have fin : ∀ d2 : Diff, Diff.direction d2 u < 4 →
      0 < Diff.dSpec s d2 (Diff.direction d2 u) →
      Diff.direction d2 u < 4 ∧ 0 < Diff.dSpec s d2 (Diff.direction d2 u) ∧
      (∃ nt, (s.tets d2.pTet).nextTet (Diff.direction d2 u) = some nt) ∧
      (s.tets d2.pTet).dist (Diff.direction d2 u) > 0 ∧
      (d2.pDiffBndDirection (Diff.direction d2 u) = false ∨
        d2.pDiffBndActive (Diff.direction d2 u) = true) ∧
      (Diff.direction d2 u = 3 → 0 < Diff.dSpec s d2 3) := by
    intro d2 hk hp
    obtain ⟨q1, q2, q3⟩ := Diff_dSpec_pos s d2 _ hp
    refine ⟨hk, hp, Option.isSome_iff_exists.mp q1, q2, q3, fun h3 => ?_⟩
    rw [h3] at hp
    exact hp
  refine ⟨?_, ?_⟩
  · intro d D d2 h ha hv hpos
    obtain ⟨_, _, hz⟩ := Diff_setDcst_cdf s d d2 D h
    obtain ⟨hD, _, c3, c4⟩ := Diff_setDcst_consistent s d d2 D h
    have hD0 : 0 ≤ D := by
      unfold Diff.setDcst at h
      by_contra hneg
      have : ¬ D ≥ 0 := hneg
      rw [if_pos this] at h
      cases h
    have hnn : ∀ i, i < 4 → 0 ≤ Diff.dSpec s d2 i := by
      intro i hi
      rw [← c3 i]
      exact Diff_dArray_nonneg s d D i hD0 (ha i hi) hv
    obtain ⟨g0, g1, g2⟩ := hz (ne_of_gt hpos)
    rw [c3 0] at g0 g1 g2
    rw [c3 1] at g1 g2
    rw [c3 2] at g2
    obtain ⟨hk, hp⟩ := Diff_direction_pos d2 (Diff.dSpec s d2) u hnn c4 hpos g0 g1 g2 hu0 hu1
    exact fin d2 hk hp
  · intro ddef tet stale d2 h ha hv hD hpos
    obtain ⟨hT, hDc, _, hsum, _, hz⟩ := Diff_new_cdf s ddef tet stale d2 h
    have hnn : ∀ i, i < 4 → 0 ≤ Diff.dArray s d2 d2.pDcst i := by
      intro i hi
      apply Diff_dArray_nonneg s d2 d2.pDcst i
      · rw [hDc]; exact hD
      · rw [hT]; exact ha i hi
      · rw [hT]; exact hv
    have hc : ∀ i, Diff.dArray s d2 d2.pDcst i = Diff.dSpec s d2 i :=
      fun i => Diff_dArray_eq_dSpec s d2 d2 d2.pDcst i rfl rfl rfl rfl
    obtain ⟨g0, g1, g2⟩ := hz (ne_of_gt hpos)
    obtain ⟨hk, hp⟩ := Diff_direction_pos d2 (Diff.dArray s d2 d2.pDcst) u hnn hsum hpos
      g0 g1 g2 hu0 hu1
    rw [hc] at hp
    exact fin d2 hk hp

/-- Witness of C34 on the concrete system: after `setDcst(1)` the diffusion of A out of
tet 0 has `scaledDcst = 1 > 0`, and for the draw 1/2 the direction taken is face 0, the
only face with a neighbour. -/
theorem Diff_direction_spec_witness : ∃ d2, Diff.setDcst Demo.state Demo.diff1 1 = .ok d2 ∧
    Diff.direction d2 (1 / 2) < 4 ∧
    ∃ nt, (Demo.state.tets d2.pTet).nextTet (Diff.direction d2 (1 / 2)) = some nt := by
  obtain ⟨d2, h⟩ := Diff_setDcst_ok Demo.state Demo.diff1 1 (by norm_num)
    (by intro i _; norm_num [Demo.state, Demo.diff1, Demo.tet0])
    (by norm_num [Demo.state, Demo.diff1, Demo.tet0])
  have hsc : d2.pScaledDcst = 1 := by
    rw [(Diff_setDcst_fields Demo.state Demo.diff1 d2 1 h).2.2.2.2.2]
    norm_num [Diff.dArray, Demo.state, Demo.diff1, Demo.tet0]
  obtain ⟨a, _, c, _⟩ := (Diff_direction_spec Demo.state (1 / 2) (by norm_num) (by norm_num)).1
    Demo.diff1 1 d2 h (by intro i _; norm_num [Demo.state, Demo.diff1, Demo.tet0])
    (by norm_num [Demo.state, Demo.diff1, Demo.tet0]) (by rw [hsc]; norm_num)
  exact ⟨d2, h, a, c⟩

/-! ## Neighbours in whose compartment the ligand is undefined (claim C35) -/

/-- The per-face coefficients do not read the stored local index of the ligand in the
neighbour's compartment. -/
theorem Diff_dArray_lidx (s : State) (d : Diff) (f : Nat → Int) (D : ℚ) :
    Diff.dArray s { d with pNeighbCompLidx := f } D = Diff.dArray s d D := rfl

/-- The claim C35 fails on the code. Tets 0 and 1 lie in different compartments and share
face 0, which is no diffusion-boundary face; the ligand A is undefined in the compartment of
tet 1. The constructor of the diffusion of A in tet 0 (in zeroed memory) stores the
undefined neighbour index -1 for face 0 and yet `d[0] = 1`, `scaledDcst = 1` and
`CDF[0] = 1`; after `setDcst(3)` `d[0] = 3`. For the draw 1/2 `Diff::apply` takes
direction 0 and stops on `assert(pNeighbCompLidx[0] > -1)`. -/
theorem Diff_undefined_neighbour_open : ∃ d2 d3,
    Diff.new Demo.splitState { gidx := 0, lig := 0 } 0 (fun _ => false) = .ok d2 ∧
    (Demo.splitState.tets 0).nextTet 0 = some 1 ∧
    (Demo.splitState.tets 1).compdef.specG2L 0 = LIDX_UNDEFINED ∧
    d2.pNeighbCompLidx 0 = -1 ∧
    Diff.dArray Demo.splitState d2 d2.pDcst 0 = 1 ∧ d2.pScaledDcst = 1 ∧
    d2.pCDFSelector 0 = 1 ∧
    Diff.setDcst Demo.splitState d2 3 = .ok d3 ∧ Diff.dSpec Demo.splitState d3 0 = 3 ∧
    d3.pNeighbCompLidx 0 = -1 ∧
    Diff.direction d2 (1 / 2) = 0 ∧
    Diff.apply Demo.rng Demo.splitState 0 d2 0 = .error .assertFail := by
  obtain ⟨d2, hd2⟩ := Diff_new_ok Demo.splitState { gidx := 0, lig := 0 } 0 (fun _ => false)
    (by norm_num [Demo.splitState, Demo.bndState, Demo.cdefD, Demo.cdef])
    (by intro i _; norm_num [Demo.splitState, Demo.bndState, Demo.tet0])
    (by norm_num [Demo.splitState, Demo.bndState, Demo.tet0])
  obtain ⟨f1, f2⟩ := Diff_new_flags _ _ _ _ d2 hd2
  obtain ⟨c1, c2, _, c4, _, c6⟩ := Diff_new_cdf _ _ _ _ d2 hd2
  obtain ⟨_, _, n3, n4⟩ := Diff_new_fields _ _ _ _ d2 hd2
  have hl : d2.pNeighbCompLidx 0 = -1 := by
    rw [n4 0]
    norm_num [Demo.splitState, Demo.bndState, Demo.tet0, Demo.cdefNoA, toInt, LIDX_UNDEFINED]
  have hd : ∀ i, Diff.dArray Demo.splitState d2 d2.pDcst i = if i = 0 then 1 else 0 := by
    intro i
    unfold Diff.dArray
    rw [f1, f2, c1, c2]
    by_cases hi : i = 0
    · rw [hi]
      norm_num [Demo.splitState, Demo.bndState, Demo.tet0, Demo.cdefD, Demo.cdef]
    · simp [Demo.splitState, Demo.bndState, Demo.tet0, Demo.tet1, hi]
  have hsc : d2.pScaledDcst = 1 := by
    rw [c4, hd 0, hd 1, hd 2, hd 3]
    norm_num
  have hcdf : d2.pCDFSelector 0 = 1 := by
    rw [(c6 (by rw [hsc]; norm_num)).1, hd 0, hsc]
    norm_num
  obtain ⟨d3, hd3⟩ := Diff_setDcst_ok Demo.splitState d2 3 (by norm_num)
    (by intro i _; rw [c1]; norm_num [Demo.splitState, Demo.bndState, Demo.tet0])
    (by rw [c1]; norm_num [Demo.splitState, Demo.bndState, Demo.tet0])
  obtain ⟨_, _, _, _, _, s6, _⟩ := Diff_setDcst_static Demo.splitState d2 d3 3 hd3
  obtain ⟨_, _, k3, _⟩ := Diff_setDcst_consistent Demo.splitState d2 d3 3 hd3
  have hdir : Diff.direction d2 (1 / 2) = 0 := by
    rw [Diff_direction_cases, hcdf]
    norm_num
  refine ⟨d2, d3, hd2, ?_, ?_, hl, ?_, hsc, hcdf, hd3, ?_, ?_, hdir, ?_⟩
  · simp [Demo.splitState, Demo.bndState, Demo.tet0]
  · simp [Demo.splitState, Demo.cdefNoA]
  · rw [hd 0]
    rfl
  · rw [← k3 0]
    unfold Diff.dArray
    rw [f1, f2, c1]
    norm_num [Demo.splitState, Demo.bndState, Demo.tet0]
  · rw [s6, hl]
  · rw [Diff_apply_eq]
    have hu : (Demo.rng.getUnfEE 0).1 = 1 / 2 := rfl
    rw [hu, hdir, n3, c1]
    have hne : ¬ ((Demo.splitState.tets 0).clamped
        ((Demo.splitState.tets 0).compdef.specG2L ({ gidx := 0, lig := 0 } : Diffdef).lig) = false ∧
        ¬ ((Demo.splitState.tets 0).pools
          ((Demo.splitState.tets 0).compdef.specG2L ({ gidx := 0, lig := 0 } : Diffdef).lig)
          > 0)) := by
      simp [Demo.splitState, Demo.bndState, Demo.tet0, Demo.cdefD, Demo.cdef]
    rw [if_neg hne]
    unfold Diff.applyDir
    rw [c1]
    have hnt : (Demo.splitState.tets 0).nextTet 0 = some 1 := by
      simp [Demo.splitState, Demo.bndState, Demo.tet0]
    rw [hnt]
    dsimp only
    rw [hl]
    simp

/-! ## The scan of the selector (claim C31) -/

/-- What the scan over one list of groups returns. If it enters group `k`: `k` lies in the
scanned range and is not empty, the returned partial sum is the start value plus the sums
of the non-empty groups before `k`, the selector does not exceed that partial sum plus the
sum of `k`, and every non-empty group before `k` was passed because the selector exceeded
the partial sum with its own sum added. If it enters none: the returned partial sum is the
start value plus the sums of all non-empty groups of the range, and either no group of the
range is non-empty or the selector exceeds the returned partial sum. -/
theorem scanGroups_spec (groups : Nat → CRGroup) (sel : ℚ) :
    ∀ (n i : Nat) (ps : ℚ),
    (∀ k q, scanGroups groups sel n i ps = (some k, q) →
      i ≤ k ∧ k < i + n ∧ (groups k).size ≠ 0 ∧
      q = ps + ∑ j in Finset.Ico i k, (if (groups j).size = 0 then 0 else (groups j).sum) ∧
      sel ≤ q + (groups k).sum ∧
      ∀ j, i ≤ j → j < k → (groups j).size ≠ 0 →
        sel > ps + ∑ l in Finset.Ico i j, (if (groups l).size = 0 then 0 else (groups l).sum)
          + (groups j).sum) ∧
    (∀ q, scanGroups groups sel n i ps = (none, q) →
      q = ps + ∑ j in Finset.Ico i (i + n),
        (if (groups j).size = 0 then 0 else (groups j).sum) ∧
      ((∀ j, i ≤ j → j < i + n → (groups j).size = 0) ∨ sel > q) ∧
      ∀ j, i ≤ j → j < i + n → (groups j).size ≠ 0 →
        sel > ps + ∑ l in Finset.Ico i j, (if (groups l).size = 0 then 0 else (groups l).sum)
          + (groups j).sum) := by
  intro n
  induction n with
  | zero =>
    intro i ps
    refine ⟨fun k q h => ?_, fun q h => ?_⟩
    · unfold scanGroups at h
      cases h
    · unfold scanGroups at h
      have hq : ps = q := (Prod.mk.inj h).2
      rw [← hq]
      refine ⟨by simp, Or.inl (fun j hj1 hj2 => ?_), fun j hj1 hj2 => ?_⟩
      · omega
      · omega
  | succ n ih =>
    intro i ps
    by_cases h0 : (groups i).size = 0
    · have hstep : scanGroups groups sel (n + 1) i ps = scanGroups groups sel n (i + 1) ps := by
        rw [scanGroups, if_pos h0]
      have hsum : ∀ m, i + 1 ≤ m →
          ∑ j in Finset.Ico i m, (if (groups j).size = 0 then 0 else (groups j).sum)
          = ∑ j in Finset.Ico (i + 1) m,
              (if (groups j).size = 0 then 0 else (groups j).sum) := by
        intro m hm
        rw [Finset.sum_eq_sum_Ico_succ_bot (by omega), if_pos h0, zero_add]
      obtain ⟨ih1, ih2⟩ := ih (i + 1) ps
      refine ⟨fun k q h => ?_, fun q h => ?_⟩
      · rw [hstep] at h
        obtain ⟨a1, a2, a3, a4, a5, a6⟩ := ih1 k q h
        refine ⟨by omega, by omega, a3, ?_, a5, fun j hj1 hj2 hj3 => ?_⟩
        · rw [hsum k a1]
          exact a4
        · have hji : j ≠ i := fun e => hj3 (by rw [e]; exact h0)
          have := a6 j (by omega) hj2 hj3
          rw [hsum j (by omega)]
          exact this
      · rw [hstep] at h
        obtain ⟨b1, b2, b3⟩ := ih2 q h
        refine ⟨?_, ?_, fun j hj1 hj2 hj3 => ?_⟩
        · rw [hsum (i + (n + 1)) (by omega)]
          have e : i + 1 + n = i + (n + 1) := by omega
          rw [← e]
          exact b1
        · rcases b2 with b2 | b2
          · left
            intro j hj1 hj2
            by_cases hji : j = i
            · rw [hji]; exact h0
            · exact b2 j (by omega) (by omega)
          · right
            exact b2
        · have hji : j ≠ i := fun e => hj3 (by rw [e]; exact h0)
          have := b3 j (by omega) (by omega) hj3
          rw [hsum j (by omega)]
          exact this
    · by_cases h1 : sel > ps + (groups i).sum
      · have hstep : scanGroups groups sel (n + 1) i ps
            = scanGroups groups sel n (i + 1) (ps + (groups i).sum) := by
          rw [scanGroups, if_neg h0, if_pos h1]
        have hsum : ∀ m, i + 1 ≤ m →
            ps + ∑ j in Finset.Ico i m, (if (groups j).size = 0 then 0 else (groups j).sum)
            = ps + (groups i).sum + ∑ j in Finset.Ico (i + 1) m,
                (if (groups j).size = 0 then 0 else (groups j).sum) := by
          intro m hm
          rw [Finset.sum_eq_sum_Ico_succ_bot (by omega), if_neg h0, add_assoc]
        obtain ⟨ih1, ih2⟩ := ih (i + 1) (ps + (groups i).sum)
        refine ⟨fun k q h => ?_, fun q h => ?_⟩
        · rw [hstep] at h
          obtain ⟨a1, a2, a3, a4, a5, a6⟩ := ih1 k q h
          refine ⟨by omega, by omega, a3, ?_, a5, fun j hj1 hj2 hj3 => ?_⟩
          · rw [hsum k a1]
            exact a4
          · by_cases hji : j = i
            · rw [hji]
              simp only [Finset.Ico_self, Finset.sum_empty, add_zero]
              exact h1
            · have := a6 j (by omega) hj2 hj3
              rw [hsum j (by omega)]
              exact this
        · rw [hstep] at h
          obtain ⟨b1, b2, b3⟩ := ih2 q h
          refine ⟨?_, Or.inr ?_, fun j hj1 hj2 hj3 => ?_⟩
          · rw [hsum (i + (n + 1)) (by omega)]
            have e : i + 1 + n = i + (n + 1) := by omega
            rw [← e]
            exact b1
          rotate_left
          · by_cases hji : j = i
            · rw [hji]
              simp only [Finset.Ico_self, Finset.sum_empty, add_zero]
              exact h1
            · have := b3 j (by omega) (by omega) hj3
              rw [hsum j (by omega)]
              exact this
          · rcases b2 with b2 | b2
            · have hz : ∑ j in Finset.Ico (i + 1) (i + 1 + n),
                  (if (groups j).size = 0 then 0 else (groups j).sum) = 0 := by
                apply Finset.sum_eq_zero
                intro j hj
                have hj2 := Finset.mem_Ico.mp hj
                rw [if_pos (b2 j hj2.1 hj2.2)]
              rw [b1, hz, add_zero]
              exact h1
            · exact b2
      · have hstep : scanGroups groups sel (n + 1) i ps = (some i, ps) := by
          rw [scanGroups, if_neg h0, if_neg h1]
        refine ⟨fun k q h => ?_, fun q h => ?_⟩
        · rw [hstep] at h
          have hk : i = k := Option.some.inj (Prod.mk.inj h).1
          have hq : ps = q := (Prod.mk.inj h).2
          rw [← hk, ← hq]
          refine ⟨le_refl _, by omega, h0, by simp, le_of_not_gt h1, fun j hj1 hj2 _ => ?_⟩
          omega
        · rw [hstep] at h
          cases (Prod.mk.inj h).1

/-- The rejection loop ends with a KProc or with its fuel used up, never with the terminal
error of the scan. -/
theorem rejectionLoop_not_terminate {σ : Type} (R : RNG σ) (s : State) (group : CRGroup) :
    ∀ (fuel : Nat) (rng : σ), rejectionLoop R s group fuel rng ≠ .error .terminate := by
  intro fuel
  induction fuel with
  | zero =>
    intro rng h
    unfold rejectionLoop at h
    cases h
  | succ n ih =>
    intro rng h
    unfold rejectionLoop at h
    dsimp only at h
    split at h
    · exact ih _ h
    · cases h

/-- When empty groups carry the sum 0, the scan's partial sums are plain sums of group
sums. -/
theorem sum_skip_empty (groups : Nat → CRGroup) (N : Nat)
    (h : ∀ j, j < N → (groups j).size = 0 → (groups j).sum = 0) (k : Nat) (hk : k ≤ N) :
    ∑ j in Finset.Ico 0 k, (if (groups j).size = 0 then 0 else (groups j).sum)
      = ∑ j in Finset.range k, (groups j).sum := by
  rw [Finset.range_eq_Ico]
  apply Finset.sum_congr rfl
  intro j hj
  have hj2 := (Finset.mem_Ico.mp hj).2
  by_cases h0 : (groups j).size = 0
  · rw [if_pos h0, h j (by omega) h0]
  · rw [if_neg h0]

/-- A group whose stored sum is the sum over its members has sum 0 when it is empty. -/
theorem memberSum_empty (rate : Nat → ℚ) (g : CRGroup) (h : g.sum = memberSum rate g)
    (h0 : g.size = 0) : g.sum = 0 := by
  rw [h]
  unfold memberSum
  rw [h0]
  simp

/-- Claim C31. When the stored sum of every group is the sum of the stored rates of its
members, A0 is the sum of all group sums and A0 > 0, then for every draw u ≤ 1 (so for
every u in [0,1]) the scan of `_getNext` with selector A0·u enters a non-empty group: the
first non-empty group, negative groups in index order and then positive groups, whose sum
added to the partial sum of the groups before it is not below the selector; every
non-empty group before it was passed because the selector exceeded that bound. From
there `_getNext` is the rejection loop in that group, and the terminal error of the scan
is not reached. -/
theorem getNext_scan_spec {σ : Type} (R : RNG σ) (rfuel : Nat) (s : State) (rng : σ)
    (hnS : ∀ i, i < s.nGroupsSize → (s.nGroups i).sum = memberSum (storedRate s) (s.nGroups i))
    (hpS : ∀ i, i < s.pGroupsSize → (s.pGroups i).sum = memberSum (storedRate s) (s.pGroups i))
    (hA : s.pA0 = ∑ i in Finset.range s.nGroupsSize, (s.nGroups i).sum
      + ∑ i in Finset.range s.pGroupsSize, (s.pGroups i).sum)
    (hpos : 0 < s.pA0) (hu : (R.getUnfII rng).1 ≤ 1) :
    ((∃ k, k < s.nGroupsSize ∧ (s.nGroups k).size ≠ 0 ∧
        scanGroups s.nGroups (s.pA0 * (R.getUnfII rng).1) s.nGroupsSize 0 0
          = (some k, ∑ j in Finset.range k, (s.nGroups j).sum) ∧
        s.pA0 * (R.getUnfII rng).1
          ≤ ∑ j in Finset.range k, (s.nGroups j).sum + (s.nGroups k).sum ∧
        (∀ j, j < k → (s.nGroups j).size ≠ 0 → s.pA0 * (R.getUnfII rng).1
          > ∑ l in Finset.range j, (s.nGroups l).sum + (s.nGroups j).sum) ∧
        _getNext R rfuel s rng
          = (match rejectionLoop R s (s.nGroups k) rfuel (R.getUnfII rng).2 with
             | .error e => .error e
             | .ok (kp, rng2) => .ok (some kp, rng2))) ∨
     (∃ k, k < s.pGroupsSize ∧ (s.pGroups k).size ≠ 0 ∧
        scanGroups s.nGroups (s.pA0 * (R.getUnfII rng).1) s.nGroupsSize 0 0
          = (none, ∑ j in Finset.range s.nGroupsSize, (s.nGroups j).sum) ∧
        scanGroups s.pGroups (s.pA0 * (R.getUnfII rng).1) s.pGroupsSize 0
            (∑ j in Finset.range s.nGroupsSize, (s.nGroups j).sum)
          = (some k, ∑ j in Finset.range s.nGroupsSize, (s.nGroups j).sum
              + ∑ j in Finset.range k, (s.pGroups j).sum) ∧
        s.pA0 * (R.getUnfII rng).1
          ≤ ∑ j in Finset.range s.nGroupsSize, (s.nGroups j).sum
              + ∑ j in Finset.range k, (s.pGroups j).sum + (s.pGroups k).sum ∧
        (∀ j, j < s.nGroupsSize → (s.nGroups j).size ≠ 0 → s.pA0 * (R.getUnfII rng).1
          > ∑ l in Finset.range j, (s.nGroups l).sum + (s.nGroups j).sum) ∧
        (∀ j, j < k → (s.pGroups j).size ≠ 0 → s.pA0 * (R.getUnfII rng).1
          > ∑ j in Finset.range s.nGroupsSize, (s.nGroups j).sum
              + ∑ l in Finset.range j, (s.pGroups l).sum + (s.pGroups j).sum) ∧
        _getNext R rfuel s rng
          = (match rejectionLoop R s (s.pGroups k) rfuel (R.getUnfII rng).2 with
             | .error e => .error e
             | .ok (kp, rng2) => .ok (some kp, rng2)))) ∧
    _getNext R rfuel s rng ≠ .error .terminate := by
  have hn0 : ∀ j, j < s.nGroupsSize → (s.nGroups j).size = 0 → (s.nGroups j).sum = 0 :=
    fun j hj h0 => memberSum_empty _ _ (hnS j hj) h0
  have hp0 : ∀ j, j < s.pGroupsSize → (s.pGroups j).size = 0 → (s.pGroups j).sum = 0 :=
    fun j hj h0 => memberSum_empty _ _ (hpS j hj) h0
  have hsel : s.pA0 * (R.getUnfII rng).1 ≤ s.pA0 := by
    have := mul_le_mul_of_nonneg_left hu (le_of_lt hpos)
    rwa [mul_one] at this
  have hA1 : ¬ ¬ (s.pA0 ≥ 0) := not_not.mpr (le_of_lt hpos)
  have hA2 : ¬ s.pA0 = 0 := ne_of_gt hpos
  have hterm : ∀ (g : CRGroup),
      (match rejectionLoop R s g rfuel (R.getUnfII rng).2 with
        | .error e => (.error e : Except Err (Option Nat × σ))
        | .ok (kp, rng2) => .ok (some kp, rng2)) ≠ .error .terminate := by
    intro g h
    have hr := rejectionLoop_not_terminate R s g rfuel (R.getUnfII rng).2
    cases hx : rejectionLoop R s g rfuel (R.getUnfII rng).2 with
    | error e =>
      rw [hx] at h hr
      exact hr (by rw [Except.error.inj h])
    | ok v =>
      rw [hx] at h
      cases h
  obtain ⟨n1, n2⟩ := scanGroups_spec s.nGroups (s.pA0 * (R.getUnfII rng).1) s.nGroupsSize 0 0
  cases hsn : scanGroups s.nGroups (s.pA0 * (R.getUnfII rng).1) s.nGroupsSize 0 0 with
  | mk o q =>
    cases o with
    | some k =>
      obtain ⟨a1, a2, a3, a4, a5, a6⟩ := n1 k q hsn
      rw [Nat.zero_add] at a2
      rw [zero_add, sum_skip_empty s.nGroups s.nGroupsSize hn0 k (le_of_lt a2)] at a4
      have hg : _getNext R rfuel s rng
          = (match rejectionLoop R s (s.nGroups k) rfuel (R.getUnfII rng).2 with
             | .error e => .error e
             | .ok (kp, rng2) => .ok (some kp, rng2)) := by
        unfold _getNext
        rw [if_neg hA1, if_neg hA2]
        simp only [hsn]
      refine ⟨Or.inl ⟨k, a2, a3, ?_, ?_, ?_, hg⟩, ?_⟩
      · rw [a4]
      · rw [← a4]
        exact a5
      · intro j hj1 hj2
        have := a6 j (Nat.zero_le _) hj1 hj2
        rw [zero_add, sum_skip_empty s.nGroups s.nGroupsSize hn0 j (by omega)] at this
        exact this
      · rw [hg]
        exact hterm _
    | none =>
      obtain ⟨b1, b2, b3⟩ := n2 q hsn
      rw [Nat.zero_add, zero_add,
        sum_skip_empty s.nGroups s.nGroupsSize hn0 s.nGroupsSize (le_refl _)] at b1
      obtain ⟨p1, p2⟩ :=
        scanGroups_spec s.pGroups (s.pA0 * (R.getUnfII rng).1) s.pGroupsSize 0 q
      cases hsp : scanGroups s.pGroups (s.pA0 * (R.getUnfII rng).1) s.pGroupsSize 0 q with
      | mk o2 q2 =>
        cases o2 with
        | some k =>
          obtain ⟨a1, a2, a3, a4, a5, a6⟩ := p1 k q2 hsp
          rw [Nat.zero_add] at a2
          rw [sum_skip_empty s.pGroups s.pGroupsSize hp0 k (le_of_lt a2)] at a4
          have hg : _getNext R rfuel s rng
              = (match rejectionLoop R s (s.pGroups k) rfuel (R.getUnfII rng).2 with
                 | .error e => .error e
                 | .ok (kp, rng2) => .ok (some kp, rng2)) := by
            unfold _getNext
            rw [if_neg hA1, if_neg hA2]
            simp only [hsn, hsp]
          refine ⟨Or.inr ⟨k, a2, a3, ?_, ?_, ?_, ?_, ?_, hg⟩, ?_⟩
          · rw [b1]
          · rw [← b1, hsp, a4]
          · rw [← b1, ← a4]
            exact a5
          · intro j hj1 hj2
            have := b3 j (Nat.zero_le _) (by omega) hj2
            rw [zero_add, sum_skip_empty s.nGroups s.nGroupsSize hn0 j (by omega)] at this
            exact this
          · intro j hj1 hj2
            have := a6 j (Nat.zero_le _) hj1 hj2
            rw [sum_skip_empty s.pGroups s.pGroupsSize hp0 j (by omega), b1] at this
            exact this
          · rw [hg]
            exact hterm _
        | none =>
          exfalso
          obtain ⟨c1, c2, c3⟩ := p2 q2 hsp
          rw [Nat.zero_add,
            sum_skip_empty s.pGroups s.pGroupsSize hp0 s.pGroupsSize (le_refl _)] at c1
          have hq2 : q2 = s.pA0 := by rw [c1, b1, hA]
          rcases c2 with c2 | c2
          · have hz : ∑ j in Finset.range s.pGroupsSize, (s.pGroups j).sum = 0 := by
              apply Finset.sum_eq_zero
              intro j hj
              have hj2 := Finset.mem_range.mp hj
              exact hp0 j hj2 (c2 j (Nat.zero_le _) (by omega))
            rcases b2 with b2 | b2
            · have hz2 : ∑ j in Finset.range s.nGroupsSize, (s.nGroups j).sum = 0 := by
                apply Finset.sum_eq_zero
                intro j hj
                have hj2 := Finset.mem_range.mp hj
                exact hn0 j hj2 (b2 j (Nat.zero_le _) (by omega))
              rw [hA, hz, hz2] at hpos
              norm_num at hpos
            · rw [b1] at b2
              rw [hA, hz, add_zero] at hsel
              rw [hA, hz, add_zero] at b2
              exact absurd hsel (not_le.mpr b2)
          · rw [hq2] at c2
            exact absurd hsel (not_le.mpr c2)

/-- Witness of C31: the concrete system satisfies the hypotheses (its three KProcs
of stored rate 2 sit in positive group 2, whose sum and A0 are 6, and the draw is 1/4), and
its scan does not reach the terminal error. -/
theorem getNext_scan_spec_witness :
    (∀ i, i < Demo.state.nGroupsSize →
      (Demo.state.nGroups i).sum = memberSum (storedRate Demo.state) (Demo.state.nGroups i)) ∧
    (∀ i, i < Demo.state.pGroupsSize →
      (Demo.state.pGroups i).sum = memberSum (storedRate Demo.state) (Demo.state.pGroups i)) ∧
    Demo.state.pA0 = ∑ i in Finset.range Demo.state.nGroupsSize, (Demo.state.nGroups i).sum
      + ∑ i in Finset.range Demo.state.pGroupsSize, (Demo.state.pGroups i).sum ∧
    0 < Demo.state.pA0 ∧ (Demo.rng.getUnfII 0).1 ≤ 1 ∧
    _getNext Demo.rng 1 Demo.state 0 ≠ .error .terminate := by
  have h1 : ∀ i, i < Demo.state.nGroupsSize →
      (Demo.state.nGroups i).sum = memberSum (storedRate Demo.state) (Demo.state.nGroups i) :=
    fun i hi => absurd hi (Nat.not_lt_zero i)
  have h2 : ∀ i, i < Demo.state.pGroupsSize →
      (Demo.state.pGroups i).sum
        = memberSum (storedRate Demo.state) (Demo.state.pGroups i) := by
    intro i hi
    have hi3 : i < 3 := hi
    interval_cases i <;>
      norm_num [Demo.state, memberSum, storedRate, CRGroup.new, Demo.kproc,
        Finset.sum_range_succ]
  have h3 : Demo.state.pA0
      = ∑ i in Finset.range Demo.state.nGroupsSize, (Demo.state.nGroups i).sum
      + ∑ i in Finset.range Demo.state.pGroupsSize, (Demo.state.pGroups i).sum := by
    norm_num [Demo.state, CRGroup.new, Finset.sum_range_succ]
  have h4 : 0 < Demo.state.pA0 := by norm_num [Demo.state]
  have h5 : (Demo.rng.getUnfII 0).1 ≤ 1 := by norm_num [Demo.rng]
  exact ⟨h1, h2, h3, h4, h5, (getNext_scan_spec Demo.rng 1 Demo.state 0 h1 h2 h3 h4 h5).2⟩

/-! ## The maxima of the groups and the states reached from the fresh selector -/

/-- Writing a selector record keeps the maxima of the groups. -/
theorem MaxOK_setCRData (s : State) (k : Nat) (d : CRKProcData) (h : MaxOK s) :
    MaxOK (s.setCRData k d) := h

/-- Writing a group whose maximum is the one of the group it replaces keeps the maxima. -/
theorem MaxOK_setGroup (s : State) (p : Int) (g : CRGroup) (h : MaxOK s)
    (hg : g.max = (_getGroup s p).max) : MaxOK (s.setGroup p g) := by
  unfold _getGroup at hg
  unfold State.setGroup
  by_cases hp : p ≥ 0
  · rw [if_pos hp] at hg ⊢
    refine ⟨fun i hi => ?_, h.2⟩
    dsimp only at hi ⊢
    by_cases hip : i = p.toNat
    · rw [hip, Function.update_same, hg, ← hip]
      exact h.1 i hi
    · rw [Function.update_noteq hip]
      exact h.1 i hi
  · rw [if_neg hp] at hg ⊢
    refine ⟨h.1, fun i hi => ?_⟩
    dsimp only at hi ⊢
    by_cases hip : i = (-p).toNat
    · rw [hip, Function.update_same, hg, ← hip]
      exact h.2 i hi
    · rw [Function.update_noteq hip]
      exact h.2 i hi

/-- The block "remove old" keeps the maxima of the groups. -/
theorem MaxOK_removeOld (s : State) (kp : Nat) (p : Int) (r : ℚ) (h : MaxOK s) :
    MaxOK (removeOld s kp p r) := by
  unfold removeOld
  dsimp only
  split_ifs
  · exact MaxOK_setGroup s p _ h rfl
  · exact MaxOK_setCRData _ _ _ (MaxOK_setGroup s p _ h rfl)

/-- Pushing fresh positive groups keeps the maxima: the group pushed at index `i` is made
with power `i`. -/
theorem MaxOK_extendPLoop : ∀ (n : Nat) (s : State), MaxOK s → MaxOK (extendPLoop n s) := by
  intro n
  induction n with
  | zero => intro s h; exact h
  | succ n ih =>
    intro s h
    unfold extendPLoop
    apply ih
    refine ⟨fun i hi => ?_, h.2⟩
    dsimp only at hi ⊢
    by_cases hip : i = s.pGroupsSize
    · rw [hip, Function.update_same]
      rfl
    · rw [Function.update_noteq hip]
      exact h.1 i (by omega)

/-- Pushing fresh negative groups keeps the maxima: the group pushed at index `i` is made
with power `-i`. -/
theorem MaxOK_extendNLoop : ∀ (n : Nat) (s : State), MaxOK s → MaxOK (extendNLoop n s) := by
  intro n
  induction n with
  | zero => intro s h; exact h
  | succ n ih =>
    intro s h
    unfold extendNLoop
    apply ih
    refine ⟨h.1, fun i hi => ?_⟩
    dsimp only at hi ⊢
    by_cases hip : i = s.nGroupsSize
    · rw [hip, Function.update_same]
      rfl
    · rw [Function.update_noteq hip]
      exact h.2 i (by omega)

/-- Growing the capacity of a group keeps its maximum. -/
theorem extendGroup_if_max (g : CRGroup) :
    (if g.size = g.capacity then _extendGroup g else g).max = g.max := by
  by_cases h : g.size = g.capacity
  · rw [if_pos h]
    rfl
  · rw [if_neg h]

/-- The block "add new" for a positive group keeps the maxima of the groups. -/
theorem MaxOK_addNewP (s : State) (kp : Nat) (np : Int) (v : ℚ) (h : MaxOK s) :
    MaxOK (addNewP s kp np v) := by
  unfold addNewP
  dsimp only
  have h1 : MaxOK (if s.pGroupsSize ≤ np.toNat then _extendPGroups s (np.toNat + 1) else s) := by
    by_cases hc : s.pGroupsSize ≤ np.toNat
    · rw [if_pos hc]
      exact MaxOK_extendPLoop _ s h
    · rw [if_neg hc]
      exact h
  generalize (if s.pGroupsSize ≤ np.toNat then _extendPGroups s (np.toNat + 1) else s) = s1
    at h1
  apply MaxOK_setCRData
  refine ⟨fun i hi => ?_, h1.2⟩
  dsimp only at hi ⊢
  by_cases hip : i = np.toNat
  · rw [hip, Function.update_same]
    dsimp only
    rw [extendGroup_if_max, ← hip]
    exact h1.1 i hi
  · rw [Function.update_noteq hip]
    exact h1.1 i hi

/-- The block "add new" for a negative group keeps the maxima of the groups. -/
theorem MaxOK_addNewN (s : State) (kp : Nat) (np : Int) (v : ℚ) (h : MaxOK s) :
    MaxOK (addNewN s kp np v) := by
  unfold addNewN
  dsimp only
  have h1 : MaxOK (if s.nGroupsSize ≤ (-np).toNat then _extendNGroups s ((-np).toNat + 1)
      else s) := by
    by_cases hc : s.nGroupsSize ≤ (-np).toNat
    · rw [if_pos hc]
      exact MaxOK_extendNLoop _ s h
    · rw [if_neg hc]
      exact h
  generalize (if s.nGroupsSize ≤ (-np).toNat then _extendNGroups s ((-np).toNat + 1) else s)
    = s1 at h1
  apply MaxOK_setCRData
  refine ⟨h1.1, fun i hi => ?_⟩
  dsimp only at hi ⊢
  by_cases hip : i = (-np).toNat
  · rw [hip, Function.update_same]
    dsimp only
    rw [extendGroup_if_max, ← hip]
    exact h1.2 i hi
  · rw [Function.update_noteq hip]
    exact h1.2 i hi

/-- The branches "positive group" and "negative group" of `_updateElement` keep the maxima
of the groups. -/
theorem MaxOK_moveOrAdjust (s : State) (kp : Nat) (old new : ℚ) (positive : Bool)
    (h : MaxOK s) : MaxOK (moveOrAdjust s kp old new positive) := by
  unfold moveOrAdjust
  dsimp only
  apply MaxOK_setCRData
  split_ifs
  · exact MaxOK_setGroup s _ _ h rfl
  · apply MaxOK_addNewP
    apply MaxOK_removeOld
    apply MaxOK_setCRData
    exact h
  · apply MaxOK_addNewP
    apply MaxOK_setCRData
    exact h
  · apply MaxOK_addNewN
    apply MaxOK_removeOld
    apply MaxOK_setCRData
    exact h
  · apply MaxOK_addNewN
    apply MaxOK_setCRData
    exact h

/-- One call of `_updateElement` keeps the maxima of the groups. -/
theorem MaxOK_updateElement (s s2 : State) (kp : Nat) (h : MaxOK s)
    (hu : _updateElement s kp = .ok s2) : MaxOK s2 := by
  unfold _updateElement at hu
  cases hr : KProc.rate s (s.pKProcs kp) with
  | error e => rw [hr] at hu; cases hu
  | ok new =>
    rw [hr] at hu
    dsimp only at hu
    split_ifs at hu
    · rw [← Except.ok.inj hu]
      apply MaxOK_setCRData
      exact h
    · rw [← Except.ok.inj hu]
      apply MaxOK_moveOrAdjust
      apply MaxOK_setCRData
      exact h
    · rw [← Except.ok.inj hu]
      apply MaxOK_moveOrAdjust
      apply MaxOK_setCRData
      exact h
    · rw [← Except.ok.inj hu]
      apply MaxOK_setCRData
      apply MaxOK_removeOld
      apply MaxOK_setCRData
      exact h
    · rw [← Except.ok.inj hu]
      apply MaxOK_setCRData
      apply MaxOK_setCRData
      exact h

/-- A change that leaves the selector alone keeps the maxima of the groups. -/
theorem MaxOK_of_same (s s2 : State) (hs : CRSame s s2) (h : MaxOK s) : MaxOK s2 := by
  obtain ⟨_, e2, e3, e4, e5, _⟩ := hs
  unfold MaxOK
  rw [e2, e3, e4, e5]
  exact h

/-- Every state reached from the fresh selector has the maxima of its groups right. -/
theorem MaxOK_of_reach (s : State) (h : CRReachZero s) : MaxOK s := by
  induction h with
  | empty s he _ =>
    refine ⟨fun i hi => ?_, fun i hi => ?_⟩
    · rw [he.2.1] at hi
      omega
    · rw [he.2.2.1] at hi
      omega
  | element s s2 kp _ _ hu ih => exact MaxOK_updateElement s s2 kp ih hu
  | other s s2 _ hs ih => exact MaxOK_of_same s s2 hs ih
  | sum s _ ih => exact MaxOK_of_same s _ (updateSum_same s) ih

/-- Every state reached from the fresh selector satisfies the full invariant of the
selector. -/
theorem CRFull_of_reach (s : State) (h : CRReachZero s) : CRFull s := by
  induction h with
  | empty s he h0 =>
    exact CRFull_of_empty s he (fun m hm => by rw [h0 m hm]; norm_num)
  | element s s2 kp _ hkp hu ih => exact updateElement_CRFull s s2 kp ih hkp hu
  | other s s2 _ hs ih => exact CRFull_of_same s s2 hs ih
  | sum s _ ih => exact CRFull_of_same s _ (updateSum_same s) ih

/-- The loop of `_update` over KProcs of the schedule stays within the states reached from
the fresh selector. -/
theorem CRReachZero_updateLoop : ∀ (l : List Nat) (s s2 : State), CRReachZero s →
    (∀ kp ∈ l, kp < s.nEntries) → updateLoop l s = .ok s2 → CRReachZero s2 := by
  intro l
  induction l with
  | nil =>
    intro s s2 hr _ h
    unfold updateLoop at h
    rw [← Except.ok.inj h]
    exact hr
  | cons kp rest ih =>
    intro s s2 hr hl h
    unfold updateLoop at h
    cases hu : _updateElement s kp with
    | error e => rw [hu] at h; cases h
    | ok s1 =>
      rw [hu] at h
      dsimp only at h
      have hn : s1.nEntries = s.nEntries := (CRFrame_updateElement s s1 kp hu).2.2.1
      exact ih s1 s2 (CRReachZero.element s s1 kp hr (hl kp (List.mem_cons_self _ _)) hu)
        (fun k hk => by rw [hn]; exact hl k (List.mem_cons_of_mem _ hk)) h

/-- A positive rate lies in the bracket of powers of two named by its binary exponent. -/
theorem frexpExp_bracket (r : ℚ) (h : 0 < r) :
    (2 : ℚ) ^ (frexpExp r - 1) ≤ r ∧ r < (2 : ℚ) ^ (frexpExp r) := by
  unfold frexpExp
  refine ⟨?_, ?_⟩
  · have := Int.zpow_log_le_self (b := 2) (by norm_num) h
    rw [add_sub_cancel_right]
    exact_mod_cast this
  · have := Int.lt_zpow_succ_log_self (b := 2) (by norm_num) r
    exact_mod_cast this

/-! ## The invariant kept by `_updateElement` (claim C32) -/

/-- Claim C32. In every state reached from the fresh selector by `_updateElement` calls: a
KProc of the schedule is recorded exactly when its stored rate exceeds 1e-20; a recorded
KProc with stored rate at least 1/2 sits in the positive group `p` and one with stored
rate below 1/2 in the negative group `-p`, `p` being the binary exponent of the stored
rate, at the slot `pos` of its record, which lies below the size of the group and holds
the KProc; any slot of any group that holds the KProc is that slot of that group, so it is
in no other group; and every slot below the size of a group holds a recorded KProc of the
schedule whose record names that group and that slot. -/
theorem updateElement_invariant_spec (s : State) (h : CRReachZero s) :
    (∀ m, m < s.nEntries →
      ((s.pKProcs m).crData.recorded = true ↔ storedRate s m > 1 / 100000000000000000000) ∧
      ((s.pKProcs m).crData.recorded = true → storedRate s m ≥ 1 / 2 →
        ∃ i : Nat, frexpExp (storedRate s m) = (i : Int) ∧
          (s.pKProcs m).crData.pow = (i : Int) ∧ i < s.pGroupsSize ∧
          (s.pKProcs m).crData.pos < (s.pGroups i).size ∧
          (s.pGroups i).indices (s.pKProcs m).crData.pos = m) ∧
      ((s.pKProcs m).crData.recorded = true → storedRate s m < 1 / 2 →
        ∃ i : Nat, 0 < i ∧ frexpExp (storedRate s m) = -(i : Int) ∧
          (s.pKProcs m).crData.pow = -(i : Int) ∧ i < s.nGroupsSize ∧
          (s.pKProcs m).crData.pos < (s.nGroups i).size ∧
          (s.nGroups i).indices (s.pKProcs m).crData.pos = m) ∧
      (∀ i j, i < s.pGroupsSize → j < (s.pGroups i).size → (s.pGroups i).indices j = m →
        (s.pKProcs m).crData.recorded = true ∧ (s.pKProcs m).crData.pow = (i : Int) ∧
        (s.pKProcs m).crData.pos = j) ∧
      (∀ i j, i < s.nGroupsSize → j < (s.nGroups i).size → (s.nGroups i).indices j = m →
        (s.pKProcs m).crData.recorded = true ∧ (s.pKProcs m).crData.pow = -(i : Int) ∧
        0 < i ∧ (s.pKProcs m).crData.pos = j)) ∧
    (∀ i j, i < s.pGroupsSize → j < (s.pGroups i).size →
      (s.pGroups i).indices j < s.nEntries ∧
      (s.pKProcs ((s.pGroups i).indices j)).crData.recorded = true ∧
      (s.pKProcs ((s.pGroups i).indices j)).crData.pow = (i : Int) ∧
      (s.pKProcs ((s.pGroups i).indices j)).crData.pos = j) ∧
    (∀ i j, i < s.nGroupsSize → j < (s.nGroups i).size →
      0 < i ∧ (s.nGroups i).indices j < s.nEntries ∧
      (s.pKProcs ((s.nGroups i).indices j)).crData.recorded = true ∧
      (s.pKProcs ((s.nGroups i).indices j)).crData.pow = -(i : Int) ∧
      (s.pKProcs ((s.nGroups i).indices j)).crData.pos = j) := by
  have hF := CRFull_of_reach s h
  have hP : ∀ i j, i < s.pGroupsSize → j < (s.pGroups i).size →
      (s.pGroups i).indices j < s.nEntries ∧
      (s.pKProcs ((s.pGroups i).indices j)).crData.recorded = true ∧
      (s.pKProcs ((s.pGroups i).indices j)).crData.pow = (i : Int) ∧
      (s.pKProcs ((s.pGroups i).indices j)).crData.pos = j :=
    fun i j hi hj => hF.inv.pMembers i hi j hj
  have hN : ∀ i j, i < s.nGroupsSize → j < (s.nGroups i).size →
      0 < i ∧ (s.nGroups i).indices j < s.nEntries ∧
      (s.pKProcs ((s.nGroups i).indices j)).crData.recorded = true ∧
      (s.pKProcs ((s.nGroups i).indices j)).crData.pow = -(i : Int) ∧
      (s.pKProcs ((s.nGroups i).indices j)).crData.pos = j := by
    intro i j hi hj
    have h0 : 0 < i := by
      by_contra hc
      have hi0 : i = 0 := by omega
      rw [hi0] at hj
      rw [(hF.inv.nZero (by omega)).1] at hj
      omega
    exact ⟨h0, hF.inv.nMembers i hi h0 j hj⟩
  refine ⟨fun m hm => ⟨hF.recOK m hm, fun hrec hge => ?_, fun hrec hlt => ?_,
    fun i j hi hj he => ?_, fun i j hi hj he => ?_⟩, hP, hN⟩
  · have hpow := hF.powOK m hm hrec
    have hnn := frexpExp_nonneg _ hge
    obtain ⟨g1, g2, g3⟩ := hF.inv.recorded m hm hrec
    have hcast : (s.pKProcs m).crData.pow = (((s.pKProcs m).crData.pow.toNat : Nat) : Int) := by
      rw [hpow]
      omega
    rw [hcast] at g1 g2 g3
    obtain ⟨e1, e2⟩ := getGroup_ofNat s (s.pKProcs m).crData.pow.toNat
    rw [e1] at g2 g3
    exact ⟨(s.pKProcs m).crData.pow.toNat, by rw [← hpow]; exact hcast, hcast, e2.mp g1, g2, g3⟩
  · have hpow := hF.powOK m hm hrec
    have hpos : (0 : ℚ) < storedRate s m :=
      lt_trans (by norm_num) ((hF.recOK m hm).mp hrec)
    have hneg := frexpExp_neg _ hpos hlt
    obtain ⟨g1, g2, g3⟩ := hF.inv.recorded m hm hrec
    have hi0 : 0 < (-(s.pKProcs m).crData.pow).toNat := by
      rw [hpow]
      omega
    have hcast : (s.pKProcs m).crData.pow
        = -((((-(s.pKProcs m).crData.pow).toNat : Nat)) : Int) := by
      rw [hpow]
      omega
    rw [hcast] at g1 g2 g3
    obtain ⟨e1, e2⟩ := getGroup_negNat s (-(s.pKProcs m).crData.pow).toNat hi0
    rw [e1] at g2 g3
    exact ⟨(-(s.pKProcs m).crData.pow).toNat, hi0, by rw [← hpow]; exact hcast, hcast,
      e2.mp g1, g2, g3⟩
  · obtain ⟨_, a2, a3, a4⟩ := hP i j hi hj
    rw [he] at a2 a3 a4
    exact ⟨a2, a3, a4⟩
  · obtain ⟨a0, _, a2, a3, a4⟩ := hN i j hi hj
    rw [he] at a2 a3 a4
    exact ⟨a2, a3, a0, a4⟩

/-- Witness of C32 on the concrete system as the constructor leaves it: the refresh of the
reaction (KProc 0, propensity 2) returns a state reached from the fresh selector, in which
the reaction has stored rate 2, is recorded with power 2 and sits in positive group 2 at
its recorded slot. -/
theorem updateElement_invariant_spec_witness :
    ∃ s2, _updateElement Demo.emptyState 0 = .ok s2 ∧ CRReachZero s2 ∧
      storedRate s2 0 = 2 ∧ (s2.pKProcs 0).crData.recorded = true ∧
      (s2.pKProcs 0).crData.pow = 2 ∧ 2 < s2.pGroupsSize ∧
      (s2.pKProcs 0).crData.pos < (s2.pGroups 2).size ∧
      (s2.pGroups 2).indices (s2.pKProcs 0).crData.pos = 0 := by
  have hrate : KProc.rate Demo.emptyState (Demo.emptyState.pKProcs 0) = .ok 2 := by
    norm_num [KProc.rate, Demo.emptyState, Demo.state, Demo.kproc, Reac.rate, KProc.inactive,
      INACTIVATED, Demo.reac0, Demo.tet0, Demo.cdef, Reac.hmuLoop, List.range,
      List.range.loop, switchLhs, toInt, toUInt, wrapInt]
  obtain ⟨s2, hs2⟩ := updateElement_ok Demo.emptyState 0 2 hrate
  have hreach : CRReachZero s2 :=
    CRReachZero.element Demo.emptyState s2 0
      (CRReachZero.empty _ ⟨by decide, rfl, rfl, fun _ _ => rfl⟩
        (fun m _ => by norm_num [storedRate, Demo.emptyState, CRKProcData.cleared]))
      (by decide) hs2
  obtain ⟨new, r1, r2, _⟩ := updateElement_records Demo.emptyState s2 0 hs2
  rw [hrate] at r1
  have hnew : new = 2 := (Except.ok.inj r1).symm
  have hst : storedRate s2 0 = 2 := by
    unfold storedRate
    rw [r2, hnew]
  have hn : s2.nEntries = Demo.emptyState.nEntries :=
    (CRFrame_updateElement Demo.emptyState s2 0 hs2).2.2.1
  have h0 : 0 < s2.nEntries := by
    rw [hn]
    decide
  obtain ⟨c1, c2, _⟩ := (updateElement_invariant_spec s2 hreach).1 0 h0
  have hrec : (s2.pKProcs 0).crData.recorded = true := c1.mpr (by rw [hst]; norm_num)
  obtain ⟨i, d1, d2, d3, d4, d5⟩ := c2 hrec (by rw [hst]; norm_num)
  have hf : frexpExp (2 : ℚ) = 2 := frexpExp_eq 2 2 (by norm_num) (by norm_num)
  rw [hst, hf] at d1
  have hi : i = 2 := by omega
  rw [hi] at d2 d3 d4 d5
  exact ⟨s2, hs2, hreach, hst, hrec, d2, d3, d4, d5⟩

/-! ## Acceptance in the rejection loop (claim C33) -/

/-- One round of the rejection loop in a group with a positive maximum: the member drawn
is accepted exactly when the draw `u` lies below its stored rate divided by the maximum. -/
theorem rejection_step {σ : Type} (R : RNG σ) (s : State) (g : CRGroup) (fuel : Nat) (rng : σ)
    (hmax : 0 < g.max) :
    rejectionLoop R s g (fuel + 1) rng
      = if (R.getUnfII rng).1
            < storedRate s (g.indices ((R.get (R.getUnfII rng).2).1 % g.size)) / g.max
        then .ok (g.indices ((R.get (R.getUnfII rng).2).1 % g.size),
          (R.get (R.getUnfII rng).2).2)
        else rejectionLoop R s g fuel (R.get (R.getUnfII rng).2).2 := by
  rw [rejectionLoop]
  unfold storedRate
  by_cases hc : (s.pKProcs (g.indices ((R.get (R.getUnfII rng).2).1 % g.size))).crData.rate
      ≤ g.max * (R.getUnfII rng).1
  · rw [if_pos hc, if_neg]
    rw [not_lt, div_le_iff₀ hmax, mul_comm]
    exact hc
  · rw [if_neg hc, if_pos]
    rw [lt_div_iff₀ hmax, mul_comm]
    exact not_le.mp hc

/-- A rate in the bracket `[max/2, max)` of a positive maximum: its share of the maximum
lies in `[1/2, 1)`, and it exceeds `max * u` exactly when `u` lies below that share. -/
theorem accept_arith (r mx : ℚ) (hmx : 0 < mx) (h1 : mx / 2 ≤ r) (h2 : r < mx) :
    1 / 2 ≤ r / mx ∧ r / mx < 1 ∧ ∀ u : ℚ, (r > mx * u ↔ u < r / mx) := by
  refine ⟨?_, ?_, fun u => ?_⟩
  · rw [le_div_iff₀ hmx]
    linarith
  · rw [div_lt_one hmx]
    exact h2
  · rw [lt_div_iff₀ hmx, mul_comm]

/-- In the concrete system as the constructor leaves it, the refresh of the reaction
(KProc 0, propensity 2) returns a state reached from the fresh selector, in which the
reaction has stored rate 2, is recorded with power 2 and sits in positive group 2 at its
recorded slot. -/
theorem demo_refresh0 :
    ∃ s2, _updateElement Demo.emptyState 0 = .ok s2 ∧ CRReachZero s2 ∧
      storedRate s2 0 = 2 ∧ (s2.pKProcs 0).crData.recorded = true ∧
      (s2.pKProcs 0).crData.pow = 2 ∧ 2 < s2.pGroupsSize ∧
      (s2.pKProcs 0).crData.pos < (s2.pGroups 2).size ∧
      (s2.pGroups 2).indices (s2.pKProcs 0).crData.pos = 0 := by
  have hrate : KProc.rate Demo.emptyState (Demo.emptyState.pKProcs 0) = .ok 2 := by
    norm_num [KProc.rate, Demo.emptyState, Demo.state, Demo.kproc, Reac.rate, KProc.inactive,
      INACTIVATED, Demo.reac0, Demo.tet0, Demo.cdef, Reac.hmuLoop, List.range,
      List.range.loop, switchLhs, toInt, toUInt, wrapInt]
  obtain ⟨s2, hs2⟩ := updateElement_ok Demo.emptyState 0 2 hrate
  have hreach : CRReachZero s2 :=
    CRReachZero.element Demo.emptyState s2 0
      (CRReachZero.empty _ ⟨by decide, rfl, rfl, fun _ _ => rfl⟩
        (fun m _ => by norm_num [storedRate, Demo.emptyState, CRKProcData.cleared]))
      (by decide) hs2
  obtain ⟨new, r1, r2, _⟩ := updateElement_records Demo.emptyState s2 0 hs2
  rw [hrate] at r1
  have hnew : new = 2 := (Except.ok.inj r1).symm
  have hst : storedRate s2 0 = 2 := by
    unfold storedRate
    rw [r2, hnew]
  have hn : s2.nEntries = Demo.emptyState.nEntries :=
    (CRFrame_updateElement Demo.emptyState s2 0 hs2).2.2.1
  have h0 : 0 < s2.nEntries := by
    rw [hn]
    decide
  have hF := CRFull_of_reach s2 hreach
  have hrec : (s2.pKProcs 0).crData.recorded = true :=
    (hF.recOK 0 h0).mpr (by rw [hst]; norm_num)
  have hf : frexpExp (2 : ℚ) = 2 := frexpExp_eq 2 2 (by norm_num) (by norm_num)
  have hpow : (s2.pKProcs 0).crData.pow = 2 := by
    rw [hF.powOK 0 h0 hrec, hst, hf]
  obtain ⟨g1, g2, g3⟩ := hF.inv.recorded 0 h0 hrec
  rw [hpow] at g1 g2 g3
  obtain ⟨e1, e2⟩ := getGroup_ofNat s2 2
  simp only [Nat.cast_ofNat] at e1 e2
  rw [e1] at g2 g3
  exact ⟨s2, hs2, hreach, hst, hrec, hpow, e2.mp g1, g2, g3⟩

/-- Claim C33. In every state reached from the fresh selector, positive group `i` has the
maximum `2^i` and negative group `i` the maximum `2^(-i)`; the stored rate `r` of every
member satisfies `max/2 <= r < max`, so `r/max` lies in `[1/2, 1)`; the test `r > max*u`
holds exactly when `u < r/max`; and one round of the rejection loop of `_getNext` in the
group accepts the member it drew exactly when its draw `u` is below `r/max`. -/
theorem group_max_spec (s : State) (h : CRReachZero s) :
    (∀ i, i < s.pGroupsSize →
      (s.pGroups i).max = (2 : ℚ) ^ (i : Int) ∧
      (∀ j, j < (s.pGroups i).size →
        (s.pGroups i).max / 2 ≤ storedRate s ((s.pGroups i).indices j) ∧
        storedRate s ((s.pGroups i).indices j) < (s.pGroups i).max ∧
        1 / 2 ≤ storedRate s ((s.pGroups i).indices j) / (s.pGroups i).max ∧
        storedRate s ((s.pGroups i).indices j) / (s.pGroups i).max < 1 ∧
        ∀ u : ℚ, (storedRate s ((s.pGroups i).indices j) > (s.pGroups i).max * u
          ↔ u < storedRate s ((s.pGroups i).indices j) / (s.pGroups i).max)) ∧
      (∀ (σ : Type) (R : RNG σ) (fuel : Nat) (rng : σ),
        rejectionLoop R s (s.pGroups i) (fuel + 1) rng
          = if (R.getUnfII rng).1
              < storedRate s ((s.pGroups i).indices
                  ((R.get (R.getUnfII rng).2).1 % (s.pGroups i).size)) / (s.pGroups i).max
            then .ok ((s.pGroups i).indices
              ((R.get (R.getUnfII rng).2).1 % (s.pGroups i).size),
              (R.get (R.getUnfII rng).2).2)
            else rejectionLoop R s (s.pGroups i) fuel (R.get (R.getUnfII rng).2).2)) ∧
    (∀ i, i < s.nGroupsSize →
      (s.nGroups i).max = (2 : ℚ) ^ (-(i : Int)) ∧
      (∀ j, j < (s.nGroups i).size →
        (s.nGroups i).max / 2 ≤ storedRate s ((s.nGroups i).indices j) ∧
        storedRate s ((s.nGroups i).indices j) < (s.nGroups i).max ∧
        1 / 2 ≤ storedRate s ((s.nGroups i).indices j) / (s.nGroups i).max ∧
        storedRate s ((s.nGroups i).indices j) / (s.nGroups i).max < 1 ∧
        ∀ u : ℚ, (storedRate s ((s.nGroups i).indices j) > (s.nGroups i).max * u
          ↔ u < storedRate s ((s.nGroups i).indices j) / (s.nGroups i).max)) ∧
      (∀ (σ : Type) (R : RNG σ) (fuel : Nat) (rng : σ),
        rejectionLoop R s (s.nGroups i) (fuel + 1) rng
          = if (R.getUnfII rng).1
              < storedRate s ((s.nGroups i).indices
                  ((R.get (R.getUnfII rng).2).1 % (s.nGroups i).size)) / (s.nGroups i).max
            then .ok ((s.nGroups i).indices
              ((R.get (R.getUnfII rng).2).1 % (s.nGroups i).size),
              (R.get (R.getUnfII rng).2).2)
            else rejectionLoop R s (s.nGroups i) fuel (R.get (R.getUnfII rng).2).2)) := by
  have hF := CRFull_of_reach s h
  have hM := MaxOK_of_reach s h
  have key : ∀ (g : CRGroup) (p : Int) (j : Nat), g.max = (2 : ℚ) ^ p →
      g.indices j < s.nEntries →
      (s.pKProcs (g.indices j)).crData.recorded = true →
      (s.pKProcs (g.indices j)).crData.pow = p →
      g.max / 2 ≤ storedRate s (g.indices j) ∧ storedRate s (g.indices j) < g.max := by
    intro g p j hmax hlt hrec hpow
    have hpos : (0 : ℚ) < storedRate s (g.indices j) :=
      lt_trans (by norm_num) ((hF.recOK _ hlt).mp hrec)
    have hfe := hF.powOK _ hlt hrec
    rw [hpow] at hfe
    obtain ⟨b1, b2⟩ := frexpExp_bracket _ hpos
    rw [← hfe] at b1 b2
    rw [hmax]
    refine ⟨?_, b2⟩
    have h2 : (2 : ℚ) ^ p / 2 = (2 : ℚ) ^ (p - 1) := by
      rw [zpow_sub_one₀ (by norm_num)]
      rfl
    rw [h2]
    exact b1
  refine ⟨fun i hi => ?_, fun i hi => ?_⟩
  · have hmax := hM.1 i hi
    have hpos : 0 < (s.pGroups i).max := by
      rw [hmax]
      positivity
    refine ⟨hmax, fun j hj => ?_, fun σ R fuel rng => rejection_step R s _ fuel rng hpos⟩
    obtain ⟨m1, m2, m3, _⟩ := hF.inv.pMembers i hi j hj
    obtain ⟨k1, k2⟩ := key (s.pGroups i) (i : Int) j hmax m1 m2 m3
    obtain ⟨a1, a2, a3⟩ := accept_arith _ _ hpos k1 k2
    exact ⟨k1, k2, a1, a2, a3⟩
  · have hmax := hM.2 i hi
    have hpos : 0 < (s.nGroups i).max := by
      rw [hmax]
      positivity
    refine ⟨hmax, fun j hj => ?_, fun σ R fuel rng => rejection_step R s _ fuel rng hpos⟩
    have h0 : 0 < i := by
      by_contra hc
      have hi0 : i = 0 := by omega
      rw [hi0] at hj
      rw [(hF.inv.nZero (by omega)).1] at hj
      omega
    obtain ⟨m1, m2, m3, _⟩ := hF.inv.nMembers i hi h0 j hj
    obtain ⟨k1, k2⟩ := key (s.nGroups i) (-(i : Int)) j hmax m1 m2 m3
    obtain ⟨a1, a2, a3⟩ := accept_arith _ _ hpos k1 k2
    exact ⟨k1, k2, a1, a2, a3⟩

/-- Witness of C33 on the concrete system as the constructor leaves it: after the refresh
of the reaction (KProc 0, propensity 2) positive group 2 has the maximum 4 and holds the
reaction, whose stored rate 2 lies in [4/2, 4) and whose share of the maximum lies in
[1/2, 1). -/
theorem group_max_spec_witness :
    ∃ s2 j, _updateElement Demo.emptyState 0 = .ok s2 ∧ CRReachZero s2 ∧
      2 < s2.pGroupsSize ∧ j < (s2.pGroups 2).size ∧ (s2.pGroups 2).indices j = 0 ∧
      storedRate s2 0 = 2 ∧
      (s2.pGroups 2).max = (2 : ℚ) ^ (2 : Int) ∧
      (s2.pGroups 2).max / 2 ≤ storedRate s2 ((s2.pGroups 2).indices j) ∧
      storedRate s2 ((s2.pGroups 2).indices j) < (s2.pGroups 2).max ∧
      1 / 2 ≤ storedRate s2 ((s2.pGroups 2).indices j) / (s2.pGroups 2).max ∧
      storedRate s2 ((s2.pGroups 2).indices j) / (s2.pGroups 2).max < 1 := by
  obtain ⟨s2, hs2, hreach, hst, _, _, h3, h4, h5⟩ := demo_refresh0
  obtain ⟨m1, m2, _⟩ := (group_max_spec s2 hreach).1 2 h3
  obtain ⟨a1, a2, a3, a4, _⟩ := m2 _ h4
  exact ⟨s2, _, hs2, hreach, h3, h4, h5, hst, m1, a1, a2, a3, a4⟩

/-! ## Opening a diffusion boundary and the selector (claim C40) -/

/-- The inner loop of `_setDiffBoundaryDiffusionActive` for a tet with a single diffusion
rule whose ligand is the species: the Diff is replaced by what `setDiffBndActive`
returns, and nothing else is done. -/
theorem diffBndLoopDiffs_single (tet sidx dir : Nat) (act : Bool) (s : State) (k : Nat)
    (df df2 : Diff) (h1 : (s.tets tet).diff 0 = some k)
    (h2 : (s.pKProcs k).variant = .diff df) (h3 : df.pDiffdef.lig = sidx)
    (h4 : Diff.setDiffBndActive s df dir act = .ok df2) :
    diffBndLoopDiffs tet sidx dir act [0] s
      = .ok (s.setKProc k { s.pKProcs k with variant := .diff df2 }) := by
  unfold diffBndLoopDiffs
  rw [h1]
  dsimp only
  rw [h2]
  dsimp only
  rw [if_pos h3, h4]
  dsimp only
  unfold diffBndLoopDiffs
  rfl

/-- One round of the outer loop of `_setDiffBoundaryDiffusionActive`. -/
theorem diffBndLoopTets_cons (E : Engine) (sidx : Nat) (act : Bool) (bdtet dir : Nat)
    (rest : List (Nat × Nat)) (s s1 : State) (tet : Nat)
    (h1 : E.pTets.getD bdtet none = some tet) (hd : dir < 4)
    (h2 : diffBndLoopDiffs tet sidx dir act (List.range (s.tets tet).compdef.countDiffs) s
      = .ok s1) :
    diffBndLoopTets E sidx act ((bdtet, dir) :: rest) s = diffBndLoopTets E sidx act rest s1 := by
  rw [diffBndLoopTets, h1]
  dsimp only
  rw [if_neg (not_not.mpr hd), h2]

/-- Opening a closed boundary direction: `setDiffBndActive(i, true)` on a Diff whose flag
of the boundary direction `i` is clear returns, for sane geometry, a Diff with the flag
set and `pScaledDcst` recomputed as the sum of the array `d[]` under the new flag; the
ligand index, tet and constant stay. -/
theorem Diff_open_direction (s : State) (d : Diff) (i : Nat) (hi : i < 4)
    (hdir : d.pDiffBndDirection i = true) (hoff : d.pDiffBndActive i = false)
    (hD : 0 ≤ d.pDcst) (ha : ∀ i, i < 4 → 0 ≤ (s.tets d.pTet).area i)
    (hv : 0 ≤ (s.tets d.pTet).vol) :
    ∃ d2, Diff.setDiffBndActive s d i true = .ok d2 ∧ d2.pTet = d.pTet ∧
      d2.lidxTet = d.lidxTet ∧ d2.pDiffdef = d.pDiffdef ∧
      d2.pDiffBndActive = Function.update d.pDiffBndActive i true ∧
      d2.pScaledDcst
        = Diff.dArray s { d with pDiffBndActive := Function.update d.pDiffBndActive i true }
            d.pDcst 0
        + Diff.dArray s { d with pDiffBndActive := Function.update d.pDiffBndActive i true }
            d.pDcst 1
        + Diff.dArray s { d with pDiffBndActive := Function.update d.pDiffBndActive i true }
            d.pDcst 2
        + Diff.dArray s { d with pDiffBndActive := Function.update d.pDiffBndActive i true }
            d.pDcst 3 := by
  have hne : (d.pDiffBndActive i != true) = true := by
    rw [hoff]
    rfl
  have hset : Diff.setDiffBndActive s d i true
      = Diff.setDcst s { d with pDiffBndActive := Function.update d.pDiffBndActive i true }
          d.pDcst := by
    unfold Diff.setDiffBndActive
    rw [if_neg (not_not.mpr hi), if_neg (not_not.mpr hdir), if_pos hne]
  obtain ⟨d2, hd2⟩ := Diff_setDcst_ok s
    { d with pDiffBndActive := Function.update d.pDiffBndActive i true } d.pDcst hD ha hv
  obtain ⟨f1, _, _, f4, f5, f6⟩ := Diff_setDcst_fields s _ d2 _ hd2
  obtain ⟨_, _, g3, _⟩ := Diff_setDcst_static s _ d2 _ hd2
  exact ⟨d2, by rw [hset, hd2], f1, f5, g3, f4, f6⟩

/-- Claim C40 fails on the code. In the two-compartment system (tet 0 holds 2 A, the
boundary is closed, no KProc is recorded, A0 = 0) the call
`_setDiffBoundaryDiffusionActive(0, A, true)` returns and changes `scaledDcst` of the
diffusion of A out of tet 0 from 0 to 1, so that its propensity `rate()` is 2; but its
stored rate is still 0, it is not recorded, no group exists and A0 is still 0, so the next
`_getNext` returns NULL. The method calls neither `_updateElement` nor `_updateSum`. -/
theorem boundary_open_leaves_selector_stale :
    ∃ s2 d2, _setDiffBoundaryDiffusionActive Demo.engineB Demo.bndState 0 0 true = .ok s2 ∧
      (Demo.bndState.pKProcs 0).variant = .diff (Demo.diffB 0) ∧
      (Demo.diffB 0).pScaledDcst = 0 ∧
      (s2.pKProcs 0).variant = .diff d2 ∧ d2.pScaledDcst = 1 ∧
      KProc.rate s2 (s2.pKProcs 0) = .ok 2 ∧ storedRate s2 0 = 0 ∧
      (s2.pKProcs 0).crData.recorded = false ∧
      s2.pGroupsSize = 0 ∧ s2.nGroupsSize = 0 ∧ s2.pA0 = 0 ∧
      _getNext Demo.rng 1 s2 0 = .ok (none, 0) := by
  have hchk := setDiffBoundaryDiffusionActive_checks Demo.engineB Demo.bndState 0 0 true
    Demo.boundary0 _ _ (by decide) (by decide) rfl rfl rfl
  have hrun0 : _setDiffBoundaryDiffusionActive Demo.engineB Demo.bndState 0 0 true
      = diffBndLoopTets Demo.engineB 0 true [(0, 0), (1, 0)] Demo.bndState := by
    rw [hchk]
    exact if_neg (by decide)
  obtain ⟨dA, a1, a2, a3, a4, a5, a6⟩ := Diff_open_direction Demo.bndState (Demo.diffB 0) 0
    (by decide) rfl rfl (by norm_num [Demo.diffB])
    (fun i _ => by norm_num [Demo.bndState, Demo.diffB, Demo.tet0])
    (by norm_num [Demo.bndState, Demo.diffB, Demo.tet0])
  have hsc : dA.pScaledDcst = 1 := by
    rw [a6]
    norm_num [Diff.dArray, Demo.bndState, Demo.diffB, Demo.tet0, Function.update]
  have hl0 : diffBndLoopDiffs 0 0 0 true
      (List.range (Demo.bndState.tets 0).compdef.countDiffs) Demo.bndState
      = .ok (Demo.bndState.setKProc 0 { Demo.bndState.pKProcs 0 with variant := .diff dA }) :=
    diffBndLoopDiffs_single 0 0 0 true Demo.bndState 0 (Demo.diffB 0) dA rfl rfl rfl a1
  generalize hsA : Demo.bndState.setKProc 0
    { Demo.bndState.pKProcs 0 with variant := .diff dA } = sA at hl0
  have htA : sA.tets = Demo.bndState.tets := by rw [← hsA]; rfl
  have hkA1 : sA.pKProcs 1 = Demo.bndState.pKProcs 1 := by
    rw [← hsA]
    simp only [State.setKProc]
    exact Function.update_noteq (show (1 : Nat) ≠ 0 by decide) _ _
  have hkA0 : sA.pKProcs 0 = { Demo.bndState.pKProcs 0 with variant := .diff dA } := by
    rw [← hsA]
    simp only [State.setKProc, Function.update_same]
  obtain ⟨dB, b1, _⟩ := Diff_open_direction sA (Demo.diffB 1) 0
    (by decide) rfl rfl (by norm_num [Demo.diffB])
    (fun i _ => by rw [htA]; norm_num [Demo.bndState, Demo.diffB, Demo.tet1])
    (by rw [htA]; norm_num [Demo.bndState, Demo.diffB, Demo.tet1])
  have hl1 : diffBndLoopDiffs 1 0 0 true
      (List.range (sA.tets 1).compdef.countDiffs) sA
      = .ok (sA.setKProc 1 { sA.pKProcs 1 with variant := .diff dB }) := by
    have hr : List.range (sA.tets 1).compdef.countDiffs = [0] := by rw [htA]; rfl
    rw [hr]
    exact diffBndLoopDiffs_single 1 0 0 true sA 1 (Demo.diffB 1) dB (by rw [htA]; rfl)
      (by rw [hkA1]; rfl) rfl b1
  have hrun : _setDiffBoundaryDiffusionActive Demo.engineB Demo.bndState 0 0 true
      = .ok (sA.setKProc 1 { sA.pKProcs 1 with variant := .diff dB }) := by
    rw [hrun0,
      diffBndLoopTets_cons Demo.engineB 0 true 0 0 _ Demo.bndState sA 0 rfl (by decide) hl0,
      diffBndLoopTets_cons Demo.engineB 0 true 1 0 _ sA _ 1 rfl (by decide) hl1]
    rfl
  have hk0 : (sA.setKProc 1 { sA.pKProcs 1 with variant := .diff dB }).pKProcs 0
      = { Demo.bndState.pKProcs 0 with variant := .diff dA } := by
    rw [← hkA0]
    simp only [State.setKProc]
    exact Function.update_noteq (show (0 : Nat) ≠ 1 by decide) _ _
  have hA0 : (sA.setKProc 1 { sA.pKProcs 1 with variant := .diff dB }).pA0 = 0 := by
    rw [← hsA]
    rfl
  refine ⟨_, dA, hrun, rfl, rfl, by rw [hk0], hsc, ?_, by unfold storedRate; rw [hk0]; rfl,
    by rw [hk0]; rfl, by rw [← hsA]; rfl, by rw [← hsA]; rfl, hA0, getNext_zero _ _ _ _ hA0⟩
  rw [hk0]
  have ht : (sA.setKProc 1 { sA.pKProcs 1 with variant := .diff dB }).tets
      = Demo.bndState.tets := by rw [← hsA]; rfl
  unfold KProc.rate Diff.rate
  dsimp only
  rw [ht, a2, a3, hsc]
  norm_num [KProc.inactive, INACTIVATED, Demo.bndState, Demo.diffB, Demo.tet0]

/-! ## Dependency lists of reactions and surface reactions (claims C36 and C38) -/

/-- Membership after `std::set::insert`. -/
theorem mem_setInsert (k x : Nat) : ∀ l : List Nat, x ∈ setInsert k l ↔ x = k ∨ x ∈ l := by
  intro l
  induction l with
  | nil => simp [setInsert]
  | cons y ys ih =>
    unfold setInsert
    by_cases h1 : k < y
    · rw [if_pos h1]
      simp
    · rw [if_neg h1]
      by_cases h2 : k = y
      · rw [if_pos h2, h2]
        simp
      · rw [if_neg h2]
        simp only [List.mem_cons, ih]
        tauto

/-- Insertion keeps the set ascending. -/
theorem sorted_setInsert (k : Nat) : ∀ l : List Nat, l.Sorted (· < ·) →
    (setInsert k l).Sorted (· < ·) := by
  intro l
  induction l with
  | nil =>
    intro _
    simp [setInsert]
  | cons y ys ih =>
    intro h
    unfold setInsert
    have hy := List.sorted_cons.mp h
    by_cases h1 : k < y
    · rw [if_pos h1]
      refine List.sorted_cons.mpr ⟨fun b hb => ?_, h⟩
      rcases List.mem_cons.mp hb with hb | hb
      · rw [hb]; exact h1
      · exact lt_trans h1 (hy.1 b hb)
    · rw [if_neg h1]
      by_cases h2 : k = y
      · rw [if_pos h2]
        exact h
      · rw [if_neg h2]
        refine List.sorted_cons.mpr ⟨fun b hb => ?_, ih hy.2⟩
        rcases (mem_setInsert k b ys).mp hb with hb | hb
        · rw [hb]; omega
        · exact hy.1 b hb

/-- The inner loop over the species of an upd-collection for one KProc `k`: `k` is
inserted exactly when the test `c k sp` holds for some species of the collection. -/
theorem specLoop_spec (c : Nat → Nat → Bool) (k : Nat) : ∀ (specs acc : List Nat),
    (∀ x, x ∈ specs.foldl (fun acc2 sp => if c k sp = true then setInsert k acc2 else acc2) acc
      ↔ x ∈ acc ∨ (x = k ∧ ∃ sp, sp ∈ specs ∧ c k sp = true)) ∧
    (acc.Sorted (· < ·) →
      (specs.foldl (fun acc2 sp => if c k sp = true then setInsert k acc2 else acc2)
        acc).Sorted (· < ·)) := by
  intro specs
  induction specs with
  | nil =>
    intro acc
    refine ⟨fun x => ?_, fun h => h⟩
    simp
  | cons sp rest ih =>
    intro acc
    rw [List.foldl_cons]
    obtain ⟨i1, i2⟩ := ih (if c k sp = true then setInsert k acc else acc)
    refine ⟨fun x => ?_, fun h => ?_⟩
    · rw [i1 x]
      by_cases hc : c k sp = true
      · rw [if_pos hc, mem_setInsert]
        constructor
        · rintro ((h | h) | ⟨h1, sp2, h2, h3⟩)
          · exact Or.inr ⟨h, sp, List.mem_cons_self _ _, hc⟩
          · exact Or.inl h
          · exact Or.inr ⟨h1, sp2, List.mem_cons_of_mem _ h2, h3⟩
        · rintro (h | ⟨h1, _⟩)
          · exact Or.inl (Or.inr h)
          · exact Or.inl (Or.inl h1)
      · rw [if_neg hc]
        constructor
        · rintro (h | ⟨h1, sp2, h2, h3⟩)
          · exact Or.inl h
          · exact Or.inr ⟨h1, sp2, List.mem_cons_of_mem _ h2, h3⟩
        · rintro (h | ⟨h1, sp2, h2, h3⟩)
          · exact Or.inl h
          · rcases List.mem_cons.mp h2 with h2 | h2
            · rw [h2] at h3
              exact absurd h3 hc
            · exact Or.inr ⟨h1, sp2, h2, h3⟩
    · apply i2
      by_cases hc : c k sp = true
      · rw [if_pos hc]
        exact sorted_setInsert k acc h
      · rw [if_neg hc]
        exact h

/-- The nested loop over KProcs and species: the set gains exactly the listed KProcs for
which the test holds for some species of the collection, and stays ascending. -/
theorem kprocLoop_spec (c : Nat → Nat → Bool) (specs : List Nat) :
    ∀ (kprocs updset : List Nat),
    (∀ x, x ∈ kprocs.foldl (fun acc k =>
        specs.foldl (fun acc2 sp => if c k sp = true then setInsert k acc2 else acc2) acc)
        updset
      ↔ x ∈ updset ∨ (x ∈ kprocs ∧ ∃ sp, sp ∈ specs ∧ c x sp = true)) ∧
    (updset.Sorted (· < ·) →
      (kprocs.foldl (fun acc k =>
        specs.foldl (fun acc2 sp => if c k sp = true then setInsert k acc2 else acc2) acc)
        updset).Sorted (· < ·)) := by
  intro kprocs
  induction kprocs with
  | nil =>
    intro updset
    refine ⟨fun x => ?_, fun h => h⟩
    simp
  | cons k rest ih =>
    intro updset
    rw [List.foldl_cons]
    obtain ⟨i1, i2⟩ := ih (specs.foldl
      (fun acc2 sp => if c k sp = true then setInsert k acc2 else acc2) updset)
    obtain ⟨j1, j2⟩ := specLoop_spec c k specs updset
    refine ⟨fun x => ?_, fun h => i2 (j2 h)⟩
    rw [i1 x, j1 x]
    constructor
    · rintro ((h | ⟨h1, h2⟩) | ⟨h1, h2⟩)
      · exact Or.inl h
      · exact Or.inr ⟨by rw [h1]; exact List.mem_cons_self _ _, by rw [h1]; exact h2⟩
      · exact Or.inr ⟨List.mem_cons_of_mem _ h1, h2⟩
    · rintro (h | ⟨h1, h2⟩)
      · exact Or.inl (Or.inl h)
      · rcases List.mem_cons.mp h1 with h1 | h1
        · exact Or.inl (Or.inr ⟨h1, by rw [← h1]; exact h2⟩)
        · exact Or.inr ⟨h1, h2⟩

/-- The loop of `setupDeps` over the KProcs of a tet or triangle, for the test
`depSpecTet(species, tet)`. -/
theorem depLoopTet_spec (s : State) (specs : List Nat) (tet : Nat) (kprocs updset : List Nat) :
    (∀ x, x ∈ depLoopTet s specs tet kprocs updset
      ↔ x ∈ updset ∨ (x ∈ kprocs ∧
          ∃ sp, sp ∈ specs ∧ KProc.depSpecTet s (s.pKProcs x) sp tet = true)) ∧
    (updset.Sorted (· < ·) → (depLoopTet s specs tet kprocs updset).Sorted (· < ·)) :=
  kprocLoop_spec (fun k sp => KProc.depSpecTet s (s.pKProcs k) sp tet) specs kprocs updset

/-- The loop of `SReac::setupDeps` over the KProcs of its triangle, for the test
`depSpecTri(species, tri)`. -/
theorem depLoopTri_spec (s : State) (specs : List Nat) (tri : Nat) (kprocs updset : List Nat) :
    (∀ x, x ∈ depLoopTri s specs tri kprocs updset
      ↔ x ∈ updset ∨ (x ∈ kprocs ∧
          ∃ sp, sp ∈ specs ∧ KProc.depSpecTri (s.pKProcs x) sp tri = true)) ∧
    (updset.Sorted (· < ·) → (depLoopTri s specs tri kprocs updset).Sorted (· < ·)) :=
  kprocLoop_spec (fun k sp => KProc.depSpecTri (s.pKProcs k) sp tri) specs kprocs updset

/-- The loop over a list of triangle slots of a tet. -/
theorem slotLoop_spec (s : State) (specs : List Nat) (tet : Nat) :
    ∀ (slots updset : List Nat),
    (∀ x, x ∈ slots.foldl (fun acc i =>
        match (s.tets tet).nextTri i with
        | none => acc
        | some tri => depLoopTet s specs tet (s.tris tri).kprocs acc) updset
      ↔ x ∈ updset ∨ ∃ i tri, i ∈ slots ∧ (s.tets tet).nextTri i = some tri ∧
          x ∈ (s.tris tri).kprocs ∧
          ∃ sp, sp ∈ specs ∧ KProc.depSpecTet s (s.pKProcs x) sp tet = true) ∧
    (updset.Sorted (· < ·) →
      (slots.foldl (fun acc i =>
        match (s.tets tet).nextTri i with
        | none => acc
        | some tri => depLoopTet s specs tet (s.tris tri).kprocs acc) updset).Sorted (· < ·)) := by
  intro slots
  induction slots with
  | nil =>
    intro updset
    refine ⟨fun x => ?_, fun h => h⟩
    simp
  | cons i rest ih =>
    intro updset
    rw [List.foldl_cons]
    cases hn : (s.tets tet).nextTri i with
    | none =>
      dsimp only
      obtain ⟨i1, i2⟩ := ih updset
      refine ⟨fun x => ?_, i2⟩
      rw [i1 x]
      constructor
      · rintro (h | ⟨j, tri, h1, h2, h3⟩)
        · exact Or.inl h
        · exact Or.inr ⟨j, tri, List.mem_cons_of_mem _ h1, h2, h3⟩
      · rintro (h | ⟨j, tri, h1, h2, h3⟩)
        · exact Or.inl h
        · rcases List.mem_cons.mp h1 with h1 | h1
          · rw [h1, hn] at h2
            cases h2
          · exact Or.inr ⟨j, tri, h1, h2, h3⟩
    | some t =>
      dsimp only
      obtain ⟨i1, i2⟩ := ih (depLoopTet s specs tet (s.tris t).kprocs updset)
      obtain ⟨j1, j2⟩ := depLoopTet_spec s specs tet (s.tris t).kprocs updset
      refine ⟨fun x => ?_, fun h => i2 (j2 h)⟩
      rw [i1 x, j1 x]
      constructor
      · rintro ((h | ⟨h1, h2⟩) | ⟨j, tri, h1, h2, h3⟩)
        · exact Or.inl h
        · exact Or.inr ⟨i, t, List.mem_cons_self _ _, hn, h1, h2⟩
        · exact Or.inr ⟨j, tri, List.mem_cons_of_mem _ h1, h2, h3⟩
      · rintro (h | ⟨j, tri, h1, h2, h3, h4⟩)
        · exact Or.inl (Or.inl h)
        · rcases List.mem_cons.mp h1 with h1 | h1
          · rw [h1, hn] at h2
            rw [← Option.some.inj h2] at h3
            exact Or.inl (Or.inr ⟨h3, h4⟩)
          · exact Or.inr ⟨j, tri, h1, h2, h3, h4⟩

/-- The loop of `setupDeps` over the four triangle slots of a tet. -/
theorem depLoopNextTris_spec (s : State) (specs : List Nat) (tet : Nat) (updset : List Nat) :
    (∀ x, x ∈ depLoopNextTris s specs tet updset
      ↔ x ∈ updset ∨ ∃ i tri, i < 4 ∧ (s.tets tet).nextTri i = some tri ∧
          x ∈ (s.tris tri).kprocs ∧
          ∃ sp, sp ∈ specs ∧ KProc.depSpecTet s (s.pKProcs x) sp tet = true) ∧
    (updset.Sorted (· < ·) → (depLoopNextTris s specs tet updset).Sorted (· < ·)) := by
  obtain ⟨h1, h2⟩ := slotLoop_spec s specs tet (List.range 4) updset
  refine ⟨fun x => ?_, h2⟩
  have h := h1 x
  simp only [List.mem_range] at h
  exact h

/-- The loops of `Diff::setupDeps` are the loops of `Reac::setupDeps` for the collection
that holds the ligand alone. -/
theorem ligLoop_eq (s : State) (lig tet : Nat) (kprocs updset : List Nat) :
    ligLoop s lig tet kprocs updset = depLoopTet s [lig] tet kprocs updset := rfl

/-- The loop of `Diff::setupDeps` over the triangle slots, likewise. -/
theorem ligLoopNextTris_eq (s : State) (lig tet : Nat) (updset : List Nat) :
    ligLoopNextTris s lig tet updset = depLoopNextTris s [lig] tet updset := rfl

/-- Claim C36. After `Reac::setupDeps()` the update list of a Reac in the tet `T`
contains exactly the KProcs `k`, among those owned by `T` and by the triangles held in the
four neighbour slots of `T`, for which `k.depSpecTet(s, T)` holds for at least one species
`s` of the upd-collection of the reaction; the list is ascending and so has no
duplicates; and no other member of the Reac changes. -/
theorem Reac_setupDeps_spec (s : State) (r : Reac) :
    (∀ k, k ∈ (r.setupDeps s).pUpdVec ↔
      (k ∈ (s.tets r.pTet).kprocs ∨
        ∃ i tri, i < 4 ∧ (s.tets r.pTet).nextTri i = some tri ∧ k ∈ (s.tris tri).kprocs) ∧
      ∃ sp, sp ∈ r.pReacdef.updColl ∧ KProc.depSpecTet s (s.pKProcs k) sp r.pTet = true) ∧
    (r.setupDeps s).pUpdVec.Nodup ∧ (r.setupDeps s).pUpdVec.Sorted (· < ·) ∧
    (r.setupDeps s).pReacdef = r.pReacdef ∧ (r.setupDeps s).pTet = r.pTet ∧
    (r.setupDeps s).pCcst = r.pCcst ∧ (r.setupDeps s).pKcst = r.pKcst := by
  obtain ⟨a1, a2⟩ := depLoopTet_spec s r.pReacdef.updColl r.pTet (s.tets r.pTet).kprocs []
  obtain ⟨b1, b2⟩ := depLoopNextTris_spec s r.pReacdef.updColl r.pTet
    (depLoopTet s r.pReacdef.updColl r.pTet (s.tets r.pTet).kprocs [])
  have hs : (r.setupDeps s).pUpdVec.Sorted (· < ·) := b2 (a2 List.sorted_nil)
  refine ⟨fun k => ?_, hs.nodup, hs, rfl, rfl, rfl, rfl⟩
  have hk := b1 k
  rw [a1 k] at hk
  unfold Reac.setupDeps
  dsimp only
  rw [hk]
  constructor
  · rintro ((h | ⟨h1, h2⟩) | ⟨i, tri, h1, h2, h3, h4⟩)
    · cases h
    · exact ⟨Or.inl h1, h2⟩
    · exact ⟨Or.inr ⟨i, tri, h1, h2, h3⟩, h4⟩
  · rintro ⟨h1 | ⟨i, tri, h1, h2, h3⟩, h4⟩
    · exact Or.inl (Or.inr ⟨h1, h4⟩)
    · exact Or.inr ⟨i, tri, h1, h2, h3, h4⟩

/-- In the concrete system the update list of the reaction A → B in tet 0 holds the
reaction, the diffusion of A out of tet 0 and the surface reaction on the triangle of
tet 0. -/
theorem demo_reac_deps : (Demo.reac0.setupDeps Demo.state).pUpdVec = [0, 1, 2] := by
  decide

/-- What the part of `SReac::setupDeps` for the inner or outer tet adds. -/
theorem depLoopSide_spec (s : State) (specs : List Nat) (side : Option Nat)
    (updset : List Nat) :
    (∀ x, x ∈ depLoopSide s specs side updset
      ↔ x ∈ updset ∨ ∃ tet, side = some tet ∧
          (x ∈ (s.tets tet).kprocs ∨
            ∃ i tri, i < 4 ∧ (s.tets tet).nextTri i = some tri ∧ x ∈ (s.tris tri).kprocs) ∧
          ∃ sp, sp ∈ specs ∧ KProc.depSpecTet s (s.pKProcs x) sp tet = true) ∧
    (updset.Sorted (· < ·) → (depLoopSide s specs side updset).Sorted (· < ·)) := by
  cases side with
  | none =>
    refine ⟨fun x => ?_, fun h => h⟩
    unfold depLoopSide
    dsimp only
    constructor
    · exact fun h => Or.inl h
    · rintro (h | ⟨tet, h1, _⟩)
      · exact h
      · cases h1
  | some tet =>
    obtain ⟨a1, a2⟩ := depLoopTet_spec s specs tet (s.tets tet).kprocs updset
    obtain ⟨b1, b2⟩ := depLoopNextTris_spec s specs tet
      (depLoopTet s specs tet (s.tets tet).kprocs updset)
    refine ⟨fun x => ?_, fun h => b2 (a2 h)⟩
    have hk := b1 x
    rw [a1 x] at hk
    unfold depLoopSide
    dsimp only
    rw [hk]
    constructor
    · rintro ((h | ⟨h1, h2⟩) | ⟨i, tri, h1, h2, h3, h4⟩)
      · exact Or.inl h
      · exact Or.inr ⟨tet, rfl, Or.inl h1, h2⟩
      · exact Or.inr ⟨tet, rfl, Or.inr ⟨i, tri, h1, h2, h3⟩, h4⟩
    · rintro (h | ⟨t2, e, h1 | ⟨i, tri, h1, h2, h3⟩, h4⟩)
      · exact Or.inl (Or.inl h)
      · rw [← Option.some.inj e] at h1 h4
        exact Or.inl (Or.inr ⟨h1, h4⟩)
      · rw [← Option.some.inj e] at h2 h4
        exact Or.inr ⟨i, tri, h1, h2, h3, h4⟩

/-- Claim C38. After `SReac::setupDeps()` the update list of an SReac on the triangle `T`
contains exactly: the KProcs of `T` with `depSpecTri(s, T)` for some species `s` of the
surface upd-collection; if the inner tet exists, the KProcs of the inner tet and of the
triangles held in its four neighbour slots with `depSpecTet(s, inner)` for some `s` of the
inner upd-collection; and, if the outer tet exists, the same for the outer tet with the
outer upd-collection. The list is ascending and so has no duplicates, and no other member
of the SReac changes. -/
theorem SReac_setupDeps_spec (s : State) (sr : SReac) :
    (∀ k, k ∈ (sr.setupDeps s).pUpdVec ↔
      (k ∈ (s.tris sr.pTri).kprocs ∧
        ∃ sp, sp ∈ sr.pSReacdef.updColl_S ∧
          KProc.depSpecTri (s.pKProcs k) sp sr.pTri = true) ∨
      (∃ itet, (s.tris sr.pTri).iTet = some itet ∧
        (k ∈ (s.tets itet).kprocs ∨
          ∃ i tri, i < 4 ∧ (s.tets itet).nextTri i = some tri ∧ k ∈ (s.tris tri).kprocs) ∧
        ∃ sp, sp ∈ sr.pSReacdef.updColl_I ∧
          KProc.depSpecTet s (s.pKProcs k) sp itet = true) ∨
      (∃ otet, (s.tris sr.pTri).oTet = some otet ∧
        (k ∈ (s.tets otet).kprocs ∨
          ∃ i tri, i < 4 ∧ (s.tets otet).nextTri i = some tri ∧ k ∈ (s.tris tri).kprocs) ∧
        ∃ sp, sp ∈ sr.pSReacdef.updColl_O ∧
          KProc.depSpecTet s (s.pKProcs k) sp otet = true)) ∧
    (sr.setupDeps s).pUpdVec.Nodup ∧ (sr.setupDeps s).pUpdVec.Sorted (· < ·) ∧
    (sr.setupDeps s).pSReacdef = sr.pSReacdef ∧ (sr.setupDeps s).pTri = sr.pTri ∧
    (sr.setupDeps s).pCcst = sr.pCcst ∧ (sr.setupDeps s).pKcst = sr.pKcst := by
  obtain ⟨a1, a2⟩ := depLoopTri_spec s sr.pSReacdef.updColl_S sr.pTri
    (s.tris sr.pTri).kprocs []
  obtain ⟨b1, b2⟩ := depLoopSide_spec s sr.pSReacdef.updColl_I (s.tris sr.pTri).iTet
    (depLoopTri s sr.pSReacdef.updColl_S sr.pTri (s.tris sr.pTri).kprocs [])
  obtain ⟨c1, c2⟩ := depLoopSide_spec s sr.pSReacdef.updColl_O (s.tris sr.pTri).oTet
    (depLoopSide s sr.pSReacdef.updColl_I (s.tris sr.pTri).iTet
      (depLoopTri s sr.pSReacdef.updColl_S sr.pTri (s.tris sr.pTri).kprocs []))
  have hs : (sr.setupDeps s).pUpdVec.Sorted (· < ·) := c2 (b2 (a2 List.sorted_nil))
  refine ⟨fun k => ?_, hs.nodup, hs, rfl, rfl, rfl, rfl⟩
  have hk := c1 k
  rw [b1 k, a1 k] at hk
  unfold SReac.setupDeps
  dsimp only
  rw [hk]
  constructor
  · rintro (((h | h) | h) | h)
    · cases h
    · exact Or.inl h
    · exact Or.inr (Or.inl h)
    · exact Or.inr (Or.inr h)
  · rintro (h | h | h)
    · exact Or.inl (Or.inl (Or.inr h))
    · exact Or.inl (Or.inr h)
    · exact Or.inr h

/-- In the concrete system the update list of the surface reaction on the triangle of
tet 0 holds the reaction and the diffusion in tet 0 and the surface reaction itself. -/
theorem demo_sreac_deps : (Demo.sreac2.setupDeps Demo.state).pUpdVec = [0, 1, 2] := by
  decide

/-! ## Dependency lists of a diffusion (claim C37) -/

/-- One round of the direction loop of `Diff::setupDeps` writes at most the update list of
its own direction. -/
theorem setupDir_other (s : State) (d : Diff) (loc : List Nat) (d1 : Diff) (i k : Nat)
    (h : k ≠ i) : (Diff.setupDir s d loc d1 i).pUpdVec k = d1.pUpdVec k := by
  unfold Diff.setupDir
  cases (s.tets d.pTet).nextTet i with
  | none => rfl
  | some next =>
    dsimp only
    split_ifs
    · rfl
    · exact Function.update_noteq h _ _

/-- A direction without neighbour tet, or whose triangle slot is taken, is skipped. -/
theorem setupDir_skip (s : State) (d : Diff) (loc : List Nat) (d1 : Diff) (k : Nat)
    (h : (s.tets d.pTet).nextTet k = none ∨ ((s.tets d.pTet).nextTri k).isSome = true) :
    Diff.setupDir s d loc d1 k = d1 := by
  unfold Diff.setupDir
  cases hn : (s.tets d.pTet).nextTet k with
  | none => rfl
  | some next =>
    rcases h with h | h
    · rw [hn] at h
      cases h
    · dsimp only
      rw [if_pos h]

/-- A direction with a neighbour tet and a free triangle slot gets the local set with the
dependent KProcs of the neighbour and of the neighbour's triangles inserted. -/
theorem setupDir_open (s : State) (d : Diff) (loc : List Nat) (d1 : Diff) (k next : Nat)
    (hn : (s.tets d.pTet).nextTet k = some next) (ht : (s.tets d.pTet).nextTri k = none) :
    (Diff.setupDir s d loc d1 k).pUpdVec k
      = ligLoopNextTris s d.ligGIdx next (ligLoop s d.ligGIdx next (s.tets next).kprocs loc) := by
  unfold Diff.setupDir
  rw [hn, ht]
  dsimp only
  exact Function.update_same _ _ _

/-- The direction loop leaves the list of a direction it does not visit. -/
theorem setupLoop_other (s : State) (d : Diff) (loc : List Nat) (k : Nat) :
    ∀ (l : List Nat) (d1 : Diff), k ∉ l →
      (l.foldl (Diff.setupDir s d loc) d1).pUpdVec k = d1.pUpdVec k := by
  intro l
  induction l with
  | nil => intro d1 _; rfl
  | cons i rest ih =>
    intro d1 hk
    rw [List.foldl_cons, ih _ (fun h => hk (List.mem_cons_of_mem _ h))]
    exact setupDir_other s d loc d1 i k (fun h => hk (by rw [h]; exact List.mem_cons_self _ _))

/-- The direction loop leaves the list of a skipped direction. -/
theorem setupLoop_skip (s : State) (d : Diff) (loc : List Nat) (k : Nat)
    (h : (s.tets d.pTet).nextTet k = none ∨ ((s.tets d.pTet).nextTri k).isSome = true) :
    ∀ (l : List Nat) (d1 : Diff),
      (l.foldl (Diff.setupDir s d loc) d1).pUpdVec k = d1.pUpdVec k := by
  intro l
  induction l with
  | nil => intro d1; rfl
  | cons i rest ih =>
    intro d1
    rw [List.foldl_cons, ih]
    by_cases hik : k = i
    · rw [← hik, setupDir_skip s d loc d1 k h]
    · exact setupDir_other s d loc d1 i k hik

/-- The direction loop writes the list of a visited direction with a neighbour tet and a
free triangle slot. -/
theorem setupLoop_open (s : State) (d : Diff) (loc : List Nat) (k next : Nat)
    (hn : (s.tets d.pTet).nextTet k = some next) (ht : (s.tets d.pTet).nextTri k = none) :
    ∀ (l : List Nat) (d1 : Diff), k ∈ l →
      (l.foldl (Diff.setupDir s d loc) d1).pUpdVec k
        = ligLoopNextTris s d.ligGIdx next
            (ligLoop s d.ligGIdx next (s.tets next).kprocs loc) := by
  intro l
  induction l with
  | nil =>
    intro d1 hk
    cases hk
  | cons i rest ih =>
    intro d1 hk
    rw [List.foldl_cons]
    by_cases hr : k ∈ rest
    · exact ih _ hr
    · have hki : k = i := by
        rcases List.mem_cons.mp hk with h | h
        · exact h
        · exact absurd h hr
      rw [setupLoop_other s d loc k rest _ hr, ← hki]
      exact setupDir_open s d loc d1 k next hn ht

/-- Method `Diff::setupDeps()` skips every direction without neighbour tet and every
direction whose triangle slot is taken: its update list stays as it was. -/
theorem Diff_setupDeps_skip (s : State) (d : Diff) (k : Nat)
    (h : (s.tets d.pTet).nextTet k = none ∨ ((s.tets d.pTet).nextTri k).isSome = true) :
    (d.setupDeps s).pUpdVec k = d.pUpdVec k := by
  unfold Diff.setupDeps
  dsimp only
  exact setupLoop_skip s d _ k h _ d

/-- For a direction `k < 4` with a neighbour tet `N` and a free triangle slot,
`Diff::setupDeps()` makes the update list exactly (i) the KProcs of the source tet and of
its triangles that depend on the ligand in the source tet and (ii) the KProcs of `N` and of
the triangles of `N` that depend on the ligand in `N`, without duplicates. -/
theorem Diff_setupDeps_open (s : State) (d : Diff) (k next : Nat) (hk : k < 4)
    (hn : (s.tets d.pTet).nextTet k = some next) (ht : (s.tets d.pTet).nextTri k = none) :
    (∀ x, x ∈ (d.setupDeps s).pUpdVec k ↔
      ((x ∈ (s.tets d.pTet).kprocs ∨
          ∃ i tri, i < 4 ∧ (s.tets d.pTet).nextTri i = some tri ∧ x ∈ (s.tris tri).kprocs) ∧
        KProc.depSpecTet s (s.pKProcs x) d.ligGIdx d.pTet = true) ∨
      ((x ∈ (s.tets next).kprocs ∨
          ∃ i tri, i < 4 ∧ (s.tets next).nextTri i = some tri ∧ x ∈ (s.tris tri).kprocs) ∧
        KProc.depSpecTet s (s.pKProcs x) d.ligGIdx next = true)) ∧
    ((d.setupDeps s).pUpdVec k).Nodup := by
  have hlist : (d.setupDeps s).pUpdVec k
      = ligLoopNextTris s d.ligGIdx next (ligLoop s d.ligGIdx next (s.tets next).kprocs
          (ligLoopNextTris s d.ligGIdx d.pTet
            (ligLoop s d.ligGIdx d.pTet (s.tets d.pTet).kprocs []))) := by
    unfold Diff.setupDeps
    dsimp only
    exact setupLoop_open s d _ k next hn ht _ d (List.mem_range.mpr hk)
  rw [hlist]
  simp only [ligLoop_eq, ligLoopNextTris_eq]
  obtain ⟨a1, a2⟩ := depLoopTet_spec s [d.ligGIdx] d.pTet (s.tets d.pTet).kprocs []
  obtain ⟨b1, b2⟩ := depLoopNextTris_spec s [d.ligGIdx] d.pTet
    (depLoopTet s [d.ligGIdx] d.pTet (s.tets d.pTet).kprocs [])
  obtain ⟨c1, c2⟩ := depLoopTet_spec s [d.ligGIdx] next (s.tets next).kprocs
    (depLoopNextTris s [d.ligGIdx] d.pTet
      (depLoopTet s [d.ligGIdx] d.pTet (s.tets d.pTet).kprocs []))
  obtain ⟨e1, e2⟩ := depLoopNextTris_spec s [d.ligGIdx] next
    (depLoopTet s [d.ligGIdx] next (s.tets next).kprocs
      (depLoopNextTris s [d.ligGIdx] d.pTet
        (depLoopTet s [d.ligGIdx] d.pTet (s.tets d.pTet).kprocs [])))
  refine ⟨fun x => ?_, (e2 (c2 (b2 (a2 List.sorted_nil)))).nodup⟩
  have ha := a1 x
  have hb := b1 x
  have hc := c1 x
  have he := e1 x
  simp only [List.mem_singleton, exists_eq_left, List.not_mem_nil, false_or] at ha hb hc he
  rw [he, hc, hb, ha]
  constructor
  · rintro (((⟨h1, h2⟩ | ⟨i, tri, h1, h2, h3, h4⟩) | ⟨h1, h2⟩) | ⟨i, tri, h1, h2, h3, h4⟩)
    · exact Or.inl ⟨Or.inl h1, h2⟩
    · exact Or.inl ⟨Or.inr ⟨i, tri, h1, h2, h3⟩, h4⟩
    · exact Or.inr ⟨Or.inl h1, h2⟩
    · exact Or.inr ⟨Or.inr ⟨i, tri, h1, h2, h3⟩, h4⟩
  · rintro (⟨h1 | ⟨i, tri, h1, h2, h3⟩, h4⟩ | ⟨h1 | ⟨i, tri, h1, h2, h3⟩, h4⟩)
    · exact Or.inl (Or.inl (Or.inl ⟨h1, h4⟩))
    · exact Or.inl (Or.inl (Or.inr ⟨i, tri, h1, h2, h3, h4⟩))
    · exact Or.inl (Or.inr ⟨h1, h4⟩)
    · exact Or.inr ⟨i, tri, h1, h2, h3, h4⟩

/-- The constructor leaves every update list empty. -/
theorem Diff_new_updVec (s : State) (ddef : Diffdef) (tet : Nat) (stale : Nat → Bool)
    (d2 : Diff) (h : Diff.new s ddef tet stale = .ok d2) : d2.pUpdVec = fun _ => [] := by
  unfold Diff.new at h
  simp only at h
  split_ifs at h <;> (rw [← Except.ok.inj h])

/-- Claim C37. After `Diff::setupDeps()`, for every direction `k < 4` in which a neighbour
tet `N` exists (the triangle slot `k` of the source tet then is free: a slot never holds
both a neighbour tet and a triangle), the update list of direction `k` holds exactly
(i) the KProcs of the source tet and of the triangles in its slots that depend on the
ligand in the source tet and (ii) the KProcs of `N` and of the triangles in the slots of `N`
that depend on the ligand in `N`; it has no duplicates; and in particular it holds the KProc
that carries the diffusion itself. -/
theorem Diff_setupDeps_spec (s : State) (d : Diff) (k N : Nat) (hk : k < 4)
    (hn : (s.tets d.pTet).nextTet k = some N) (ht : (s.tets d.pTet).nextTri k = none) :
    (∀ x, x ∈ (d.setupDeps s).pUpdVec k ↔
      ((x ∈ (s.tets d.pTet).kprocs ∨
          ∃ i tri, i < 4 ∧ (s.tets d.pTet).nextTri i = some tri ∧ x ∈ (s.tris tri).kprocs) ∧
        KProc.depSpecTet s (s.pKProcs x) d.ligGIdx d.pTet = true) ∨
      ((x ∈ (s.tets N).kprocs ∨
          ∃ i tri, i < 4 ∧ (s.tets N).nextTri i = some tri ∧ x ∈ (s.tris tri).kprocs) ∧
        KProc.depSpecTet s (s.pKProcs x) d.ligGIdx N = true)) ∧
    ((d.setupDeps s).pUpdVec k).Nodup ∧
    (∀ m, m ∈ (s.tets d.pTet).kprocs → (s.pKProcs m).variant = .diff d →
      m ∈ (d.setupDeps s).pUpdVec k) := by
  obtain ⟨h1, h2⟩ := Diff_setupDeps_open s d k N hk hn ht
  refine ⟨h1, h2, fun m hm hv => ?_⟩
  rw [h1 m]
  refine Or.inl ⟨Or.inl hm, ?_⟩
  unfold KProc.depSpecTet
  rw [hv]
  dsimp only
  unfold Diff.depSpecTet
  rw [if_neg (not_not.mpr rfl), if_neg (not_not.mpr rfl)]

/-- Witness of C37 on the two-compartment system: tet 1 is the neighbour of tet 0 through
face 0 and the triangle slot 0 of tet 0 is free; the update list of direction 0 of the
diffusion of A out of tet 0 holds that diffusion itself (KProc 0, of the source tet), the
diffusion of A out of tet 1 (KProc 1, of the neighbour), nothing else, and no duplicate. -/
theorem Diff_setupDeps_spec_witness :
    (Demo.bndState.tets (Demo.diffB 0).pTet).nextTet 0 = some 1 ∧
    (Demo.bndState.tets (Demo.diffB 0).pTet).nextTri 0 = none ∧
    0 ∈ ((Demo.diffB 0).setupDeps Demo.bndState).pUpdVec 0 ∧
    1 ∈ ((Demo.diffB 0).setupDeps Demo.bndState).pUpdVec 0 ∧
    2 ∉ ((Demo.diffB 0).setupDeps Demo.bndState).pUpdVec 0 ∧
    (((Demo.diffB 0).setupDeps Demo.bndState).pUpdVec 0).Nodup := by
  obtain ⟨h1, h2, h3⟩ := Diff_setupDeps_spec Demo.bndState (Demo.diffB 0) 0 1 (by decide) rfl rfl
  refine ⟨rfl, rfl, h3 0 (by decide) rfl, ?_, ?_, h2⟩
  · rw [h1 1]
    exact Or.inr ⟨Or.inl (by decide), by decide⟩
  · rw [h1 2]
    rintro (⟨h | ⟨i, tri, _, h, _⟩, _⟩ | ⟨h | ⟨i, tri, _, h, _⟩, _⟩)
    · revert h; decide
    · simp [Demo.bndState, Demo.diffB] at h
    · revert h; decide
    · simp [Demo.bndState, Demo.tet1] at h

/-! ## Events and stored propensities (claim C39) -/

/-- The loop of `Reac::rate` reads the counts of the species with a non-zero lhs
multiplicity only. -/
theorem Reac_hmuLoop_congr (lhs_vec c c2 : Nat → Nat) :
    ∀ (l : List Nat) (h : ℚ), (∀ p ∈ l, lhs_vec p ≠ 0 → c2 p = c p) →
      Reac.hmuLoop lhs_vec c2 l h = Reac.hmuLoop lhs_vec c l h := by
  intro l
  induction l with
  | nil => intro h _; rfl
  | cons p rest ih =>
    intro h hc
    unfold Reac.hmuLoop
    by_cases h0 : lhs_vec p = 0
    · simp only [h0, if_true]
      exact ih h (fun q hq => hc q (List.mem_cons_of_mem _ hq))
    · have e := hc p (List.mem_cons_self _ _) h0
      simp only [h0, if_false, e]
      split_ifs
      · rfl
      · cases switchLhs (lhs_vec p) (c p) h with
        | error e => rfl
        | ok h2 => exact ih h2 (fun q hq => hc q (List.mem_cons_of_mem _ hq))

/-- The loops of `SReac::rate` read the counts of the species with a non-zero lhs
multiplicity only. -/
theorem SReac_hmuLoop_congr (lhs_vec c c2 : Nat → Nat) :
    ∀ (l : List Nat) (h : ℚ), (∀ p ∈ l, lhs_vec p ≠ 0 → c2 p = c p) →
      SReac.hmuLoop lhs_vec c2 l h = SReac.hmuLoop lhs_vec c l h := by
  intro l
  induction l with
  | nil => intro h _; rfl
  | cons p rest ih =>
    intro h hc
    unfold SReac.hmuLoop
    by_cases h0 : lhs_vec p = 0
    · simp only [h0, if_true]
      exact ih h (fun q hq => hc q (List.mem_cons_of_mem _ hq))
    · have e := hc p (List.mem_cons_self _ _) h0
      simp only [h0, if_false, e]
      split_ifs
      · rfl
      · cases switchLhs (lhs_vec p) (c p) h with
        | error e => rfl
        | ok h2 => exact ih h2 (fun q hq => hc q (List.mem_cons_of_mem _ hq))

/-- The propensity of a reaction depends on the state only through the definition of the
compartment and the counts of its reactants in its tet. -/
theorem Reac_rate_pools (s s1 : State) (k k1 : KProc) (r : Reac)
    (hf : k1.pFlags = k.pFlags)
    (hc : (s1.tets r.pTet).compdef = (s.tets r.pTet).compdef)
    (hp : ∀ l, l < Reac.nspecs s r → Reac.lhs_vec s r l ≠ 0 →
      (s1.tets r.pTet).pools l = (s.tets r.pTet).pools l) :
    Reac.rate s1 k1 r = Reac.rate s k r := by
  have hi : k1.inactive = k.inactive := by unfold KProc.inactive; rw [hf]
  have e : Reac.hmuLoop ((s.tets r.pTet).compdef.reac_lhs_bgn
        ((s.tets r.pTet).compdef.reacG2L r.pReacdef.gidx)) (s1.tets r.pTet).pools
        (List.range (s.tets r.pTet).compdef.countSpecs) 1
      = Reac.hmuLoop ((s.tets r.pTet).compdef.reac_lhs_bgn
        ((s.tets r.pTet).compdef.reacG2L r.pReacdef.gidx)) (s.tets r.pTet).pools
        (List.range (s.tets r.pTet).compdef.countSpecs) 1 :=
    Reac_hmuLoop_congr _ (s.tets r.pTet).pools (s1.tets r.pTet).pools _ 1
      (fun p hp2 h0 => hp p (List.mem_range.mp hp2) h0)
  unfold Reac.rate
  rw [hi, hc]
  dsimp only
  rw [e]

/-- The propensity of a diffusion depends on the state only through the count of the
ligand in its tet. -/
theorem Diff_rate_pools (s s1 : State) (k k1 : KProc) (d : Diff)
    (hf : k1.pFlags = k.pFlags)
    (hp : (s1.tets d.pTet).pools d.lidxTet = (s.tets d.pTet).pools d.lidxTet) :
    Diff.rate s1 k1 d = Diff.rate s k d := by
  have hi : k1.inactive = k.inactive := by unfold KProc.inactive; rw [hf]
  unfold Diff.rate
  rw [hi, hp]

/-- The volume part of the propensity of a surface reaction depends on the state only
through the counts of the reactants in the tet. -/
theorem SReac_rateVol_pools (s s1 : State) (sr : SReac) (lhs_vec : Nat → Nat) (n : Nat)
    (tet : Option Nat) (h : ℚ)
    (hp : ∀ t, tet = some t → ∀ l, l < n → lhs_vec l ≠ 0 →
      (s1.tets t).pools l = (s.tets t).pools l) :
    SReac.rateVol s1 sr lhs_vec n tet h = SReac.rateVol s sr lhs_vec n tet h := by
  unfold SReac.rateVol
  cases tet with
  | none => rfl
  | some t =>
    have e := SReac_hmuLoop_congr lhs_vec (s.tets t).pools (s1.tets t).pools (List.range n) h
      (fun p hp2 h0 => hp t rfl p (List.mem_range.mp hp2) h0)
    dsimp only
    rw [e]

/-- The propensity of a surface reaction depends on the state only through its triangle
(definition, inner and outer tet), the counts of its surface reactants and the counts of
its volume reactants in the tet it reads. -/
theorem SReac_rate_pools (s s1 : State) (k k1 : KProc) (sr : SReac)
    (hf : k1.pFlags = k.pFlags)
    (hd : (s1.tris sr.pTri).patchdef = (s.tris sr.pTri).patchdef)
    (hi : (s1.tris sr.pTri).iTet = (s.tris sr.pTri).iTet)
    (ho : (s1.tris sr.pTri).oTet = (s.tris sr.pTri).oTet)
    (hS : ∀ l, l < (s.tris sr.pTri).patchdef.countSpecs → SReac.lhs_S s sr l ≠ 0 →
      (s1.tris sr.pTri).pools l = (s.tris sr.pTri).pools l)
    (hI : sr.pSReacdef.inside = true → ∀ t, (s.tris sr.pTri).iTet = some t →
      ∀ l, l < (s.tris sr.pTri).patchdef.countSpecs_I → SReac.lhs_I s sr l ≠ 0 →
      (s1.tets t).pools l = (s.tets t).pools l)
    (hO : sr.pSReacdef.inside = false → sr.pSReacdef.outside = true →
      ∀ t, (s.tris sr.pTri).oTet = some t →
      ∀ l, l < (s.tris sr.pTri).patchdef.countSpecs_O → SReac.lhs_O s sr l ≠ 0 →
      (s1.tets t).pools l = (s.tets t).pools l) :
    SReac.rate s1 k1 sr = SReac.rate s k sr := by
  have hin : k1.inactive = k.inactive := by unfold KProc.inactive; rw [hf]
  have e : SReac.hmuLoop ((s.tris sr.pTri).patchdef.sreac_lhs_S_bgn
        ((s.tris sr.pTri).patchdef.sreacG2L sr.pSReacdef.gidx)) (s1.tris sr.pTri).pools
        (List.range (s.tris sr.pTri).patchdef.countSpecs) 1
      = SReac.hmuLoop ((s.tris sr.pTri).patchdef.sreac_lhs_S_bgn
        ((s.tris sr.pTri).patchdef.sreacG2L sr.pSReacdef.gidx)) (s.tris sr.pTri).pools
        (List.range (s.tris sr.pTri).patchdef.countSpecs) 1 :=
    SReac_hmuLoop_congr _ (s.tris sr.pTri).pools (s1.tris sr.pTri).pools _ 1
      (fun p hp2 h0 => hS p (List.mem_range.mp hp2) h0)
  unfold SReac.rate
  dsimp only
  rw [hin, hd, hi, ho, e]
  cases k.inactive with
  | true => rfl
  | false =>
    simp only [Bool.false_eq_true, if_false]
    cases SReac.hmuLoop ((s.tris sr.pTri).patchdef.sreac_lhs_S_bgn
        ((s.tris sr.pTri).patchdef.sreacG2L sr.pSReacdef.gidx)) (s.tris sr.pTri).pools
        (List.range (s.tris sr.pTri).patchdef.countSpecs) 1 with
    | error e => rfl
    | ok o =>
      cases o with
      | none => rfl
      | some h_mu =>
        dsimp only
        cases hins : sr.pSReacdef.inside with
        | true =>
          simp only [if_true]
          exact SReac_rateVol_pools s s1 sr _ _ _ _ (hI hins)
        | false =>
          simp only [Bool.false_eq_true, if_false]
          cases hout : sr.pSReacdef.outside with
          | true =>
            simp only [if_true]
            exact SReac_rateVol_pools s s1 sr _ _ _ _ (hO hins hout)
          | false => rfl

theorem PoolsOnly.reflP (s : State) : PoolsOnly s s := ⟨fun _ => rfl, fun _ => rfl⟩

theorem PoolsOnly.transP {s s1 s2 : State} (h1 : PoolsOnly s s1) (h2 : PoolsOnly s1 s2) :
    PoolsOnly s s2 := by
  refine ⟨fun t => ?_, fun t => ?_⟩
  · rw [h2.1 t, h1.1 t]
  · rw [h2.2 t, h1.2 t]

/-- What two states that differ only in counts share. -/
theorem PoolsOnly.fields {s s1 : State} (h : PoolsOnly s s1) :
    (∀ t, (s1.tets t).compdef = (s.tets t).compdef ∧
      (s1.tets t).nextTet = (s.tets t).nextTet ∧ (s1.tets t).nextTri = (s.tets t).nextTri ∧
      (s1.tets t).kprocs = (s.tets t).kprocs ∧ (s1.tets t).clamped = (s.tets t).clamped) ∧
    (∀ t, (s1.tris t).patchdef = (s.tris t).patchdef ∧
      (s1.tris t).iTet = (s.tris t).iTet ∧ (s1.tris t).oTet = (s.tris t).oTet ∧
      (s1.tris t).kprocs = (s.tris t).kprocs ∧ (s1.tris t).clamped = (s.tris t).clamped) := by
  refine ⟨fun t => ?_, fun t => ?_⟩
  · rw [h.1 t]
    exact ⟨rfl, rfl, rfl, rfl, rfl⟩
  · rw [h.2 t]
    exact ⟨rfl, rfl, rfl, rfl, rfl⟩

theorem Writes.reflW (s : State) (WT WS : Nat → Nat → Prop) : Writes s s WT WS :=
  ⟨PoolsOnly.reflP s, fun _ _ h => absurd rfl h, fun _ _ h => absurd rfl h⟩

theorem Writes.transW {s s1 s2 : State} {WT WS : Nat → Nat → Prop}
    (h1 : Writes s s1 WT WS) (h2 : Writes s1 s2 WT WS) : Writes s s2 WT WS := by
  refine ⟨h1.1.transP h2.1, fun t l hne => ?_, fun t l hne => ?_⟩
  · by_cases e : (s1.tets t).pools l = (s.tets t).pools l
    · exact h2.2.1 t l (by rw [e]; exact hne)
    · exact h1.2.1 t l e
  · by_cases e : (s1.tris t).pools l = (s.tris t).pools l
    · exact h2.2.2 t l (by rw [e]; exact hne)
    · exact h1.2.2 t l e

theorem Writes.monoW {s s1 : State} {WT WS WT2 WS2 : Nat → Nat → Prop}
    (h : Writes s s1 WT WS) (hT : ∀ t l, WT t l → WT2 t l) (hS : ∀ t l, WS t l → WS2 t l) :
    Writes s s1 WT2 WS2 :=
  ⟨h.1, fun t l hne => hT t l (h.2.1 t l hne), fun t l hne => hS t l (h.2.2 t l hne)⟩

theorem Writes_setTet (s : State) (T : Nat) (t2 : Tet) (WT WS : Nat → Nat → Prop)
    (h1 : t2 = { s.tets T with pools := t2.pools })
    (h2 : ∀ l, t2.pools l ≠ (s.tets T).pools l → WT T l) :
    Writes s (s.setTet T t2) WT WS := by
  refine ⟨⟨fun t => ?_, fun _ => rfl⟩, fun t l hne => ?_, fun _ _ hne => absurd rfl hne⟩
  · by_cases e : t = T
    · subst e
      simp only [State.setTet, Function.update_same]
      exact h1
    · simp only [State.setTet, Function.update_noteq e]
  · by_cases e : t = T
    · subst e
      simp only [State.setTet, Function.update_same] at hne
      exact h2 l hne
    · simp only [State.setTet, Function.update_noteq e] at hne
      exact absurd rfl hne

theorem Writes_setTri (s : State) (T : Nat) (t2 : Tri) (WT WS : Nat → Nat → Prop)
    (h1 : t2 = { s.tris T with pools := t2.pools })
    (h2 : ∀ l, t2.pools l ≠ (s.tris T).pools l → WS T l) :
    Writes s (s.setTri T t2) WT WS := by
  refine ⟨⟨fun _ => rfl, fun t => ?_⟩, fun _ _ hne => absurd rfl hne, fun t l hne => ?_⟩
  · by_cases e : t = T
    · subst e
      simp only [State.setTri, Function.update_same]
      exact h1
    · simp only [State.setTri, Function.update_noteq e]
  · by_cases e : t = T
    · subst e
      simp only [State.setTri, Function.update_same] at hne
      exact h2 l hne
    · simp only [State.setTri, Function.update_noteq e] at hne
      exact absurd rfl hne

theorem Writes_setKProc (s : State) (k : Nat) (kp : KProc) (WT WS : Nat → Nat → Prop) :
    Writes s (s.setKProc k kp) WT WS :=
  ⟨⟨fun _ => rfl, fun _ => rfl⟩, fun _ _ hne => absurd rfl hne, fun _ _ hne => absurd rfl hne⟩

/-- The loop of `Reac::apply` changes counts only, and only of listed species with a
non-zero update. -/
theorem Reac_applyLoop_writes (upd_vec : Nat → Int) :
    ∀ (l : List Nat) (t : Tet),
      Reac.applyLoop upd_vec l t = { t with pools := (Reac.applyLoop upd_vec l t).pools } ∧
      ∀ p, (Reac.applyLoop upd_vec l t).pools p ≠ t.pools p → p ∈ l ∧ upd_vec p ≠ 0 := by
  intro l
  induction l with
  | nil => intro t; exact ⟨rfl, fun p h => absurd rfl h⟩
  | cons i rest ih =>
    intro t
    unfold Reac.applyLoop
    split_ifs with hc hu
    · exact ⟨(ih t).1, fun p h => ⟨List.mem_cons_of_mem _ ((ih t).2 p h).1, ((ih t).2 p h).2⟩⟩
    · exact ⟨(ih t).1, fun p h => ⟨List.mem_cons_of_mem _ ((ih t).2 p h).1, ((ih t).2 p h).2⟩⟩
    · obtain ⟨a, b⟩ := ih (t.setCount i (toUInt (wrapInt (toInt (t.pools i) + upd_vec i))))
      refine ⟨?_, fun p h => ?_⟩
      · dsimp only
        rw [a]
        rfl
      · dsimp only at h
        by_cases e : p = i
        · exact ⟨by rw [e]; exact List.mem_cons_self _ _, by rw [e]; exact hu⟩
        · have h2 : (Reac.applyLoop upd_vec rest
              (t.setCount i (toUInt (wrapInt (toInt (t.pools i) + upd_vec i))))).pools p
              ≠ (t.setCount i (toUInt (wrapInt (toInt (t.pools i) + upd_vec i)))).pools p := by
            simp only [Tet.setCount, Function.update_noteq e]
            exact h
          exact ⟨List.mem_cons_of_mem _ (b p h2).1, (b p h2).2⟩

/-- The tet loops of `SReac::apply` change counts only, and only of listed species with a
non-zero update. -/
theorem SReac_applyLoopTet_writes (upd_vec : Nat → Int) :
    ∀ (l : List Nat) (t t2 : Tet), SReac.applyLoopTet upd_vec l t = .ok t2 →
      t2 = { t with pools := t2.pools } ∧
      ∀ p, t2.pools p ≠ t.pools p → p ∈ l ∧ upd_vec p ≠ 0 := by
  intro l
  induction l with
  | nil =>
    intro t t2 h
    unfold SReac.applyLoopTet at h
    rw [← Except.ok.inj h]
    exact ⟨rfl, fun p h => absurd rfl h⟩
  | cons i rest ih =>
    intro t t2 h
    unfold SReac.applyLoopTet at h
    split_ifs at h with hc hu
    · exact ⟨(ih t t2 h).1, fun p hp =>
        ⟨List.mem_cons_of_mem _ ((ih t t2 h).2 p hp).1, ((ih t t2 h).2 p hp).2⟩⟩
    · exact ⟨(ih t t2 h).1, fun p hp =>
        ⟨List.mem_cons_of_mem _ ((ih t t2 h).2 p hp).1, ((ih t t2 h).2 p hp).2⟩⟩
    · dsimp only at h
      split_ifs at h
      obtain ⟨a, b⟩ := ih (t.setCount i (toUInt (wrapInt (toInt (t.pools i) + upd_vec i)))) t2 h
      refine ⟨?_, fun p hp => ?_⟩
      · rw [a]
        rfl
      · by_cases e : p = i
        · exact ⟨by rw [e]; exact List.mem_cons_self _ _, by rw [e]; exact hu⟩
        · have h2 : t2.pools p
              ≠ (t.setCount i (toUInt (wrapInt (toInt (t.pools i) + upd_vec i)))).pools p := by
            simp only [Tet.setCount, Function.update_noteq e]
            exact hp
          exact ⟨List.mem_cons_of_mem _ (b p h2).1, (b p h2).2⟩

/-- The triangle loop of `SReac::apply` changes counts only, and only of listed species with
a non-zero update. -/
theorem SReac_applyLoopTri_writes (upd_vec : Nat → Int) :
    ∀ (l : List Nat) (t t2 : Tri), SReac.applyLoopTri upd_vec l t = .ok t2 →
      t2 = { t with pools := t2.pools } ∧
      ∀ p, t2.pools p ≠ t.pools p → p ∈ l ∧ upd_vec p ≠ 0 := by
  intro l
  induction l with
  | nil =>
    intro t t2 h
    unfold SReac.applyLoopTri at h
    rw [← Except.ok.inj h]
    exact ⟨rfl, fun p h => absurd rfl h⟩
  | cons i rest ih =>
    intro t t2 h
    unfold SReac.applyLoopTri at h
    split_ifs at h with hc hu
    · exact ⟨(ih t t2 h).1, fun p hp =>
        ⟨List.mem_cons_of_mem _ ((ih t t2 h).2 p hp).1, ((ih t t2 h).2 p hp).2⟩⟩
    · exact ⟨(ih t t2 h).1, fun p hp =>
        ⟨List.mem_cons_of_mem _ ((ih t t2 h).2 p hp).1, ((ih t t2 h).2 p hp).2⟩⟩
    · dsimp only at h
      split_ifs at h
      obtain ⟨a, b⟩ := ih (t.setCount i (toUInt (wrapInt (toInt (t.pools i) + upd_vec i)))) t2 h
      refine ⟨?_, fun p hp => ?_⟩
      · rw [a]
        rfl
      · by_cases e : p = i
        · exact ⟨by rw [e]; exact List.mem_cons_self _ _, by rw [e]; exact hu⟩
        · have h2 : t2.pools p
              ≠ (t.setCount i (toUInt (wrapInt (toInt (t.pools i) + upd_vec i)))).pools p := by
            simp only [Tri.setCount, Function.update_noteq e]
            exact hp
          exact ⟨List.mem_cons_of_mem _ (b p h2).1, (b p h2).2⟩

/-- What `Reac::apply` writes: counts of the species of the compartment with a non-zero
update, in the tet of the reaction. -/
theorem Reac_apply_writes (s : State) (kidx : Nat) (r : Reac) :
    Writes s (Reac.apply s kidx r).1
      (fun t l => t = r.pTet ∧ l < Reac.nspecs s r ∧ Reac.upd_vec s r l ≠ 0)
      (fun _ _ => False) := by
  unfold Reac.apply
  dsimp only
  refine Writes.transW (Writes_setTet s r.pTet _ _ _ (Reac_applyLoop_writes _ _ _).1
    (fun l h => ?_)) (Writes_setKProc _ _ _ _ _)
  obtain ⟨a, b⟩ := (Reac_applyLoop_writes _ _ _).2 l h
  exact ⟨rfl, List.mem_range.mp a, b⟩

/-- What the inner or outer block of `SReac::apply` writes. -/
theorem SReac_applyVol_writes (s s2 : State) (upd_vec : Nat → Int) (n : Nat) (tet : Option Nat)
    (h : SReac.applyVol s upd_vec n tet = .ok s2) :
    Writes s s2 (fun t l => tet = some t ∧ l < n ∧ upd_vec l ≠ 0) (fun _ _ => False) := by
  unfold SReac.applyVol at h
  cases tet with
  | none =>
    simp only at h
    rw [← Except.ok.inj h]
    exact Writes.reflW s _ _
  | some t =>
    simp only at h
    cases hl : SReac.applyLoopTet upd_vec (List.range n) (s.tets t) with
    | error e => rw [hl] at h; cases h
    | ok t2 =>
      rw [hl] at h
      rw [← Except.ok.inj h]
      obtain ⟨a, b⟩ := SReac_applyLoopTet_writes upd_vec _ _ _ hl
      exact Writes_setTet s t t2 _ _ a
        (fun l hne => ⟨rfl, List.mem_range.mp (b l hne).1, (b l hne).2⟩)

/-- What `SReac::apply` writes: counts of the surface species with a non-zero update on the
triangle, and counts of the species with a non-zero inner (outer) update in the inner
(outer) tet; it returns the update list of the surface reaction. -/
theorem SReac_apply_writes (s s1 : State) (kidx : Nat) (sr : SReac) (upd : List Nat)
    (h : SReac.apply s kidx sr = .ok (s1, upd)) :
    upd = sr.pUpdVec ∧
    Writes s s1
      (fun t l =>
        ((s.tris sr.pTri).iTet = some t ∧ l < (s.tris sr.pTri).patchdef.countSpecs_I ∧
          SReac.upd_I s sr l ≠ 0) ∨
        ((s.tris sr.pTri).oTet = some t ∧ l < (s.tris sr.pTri).patchdef.countSpecs_O ∧
          SReac.upd_O s sr l ≠ 0))
      (fun t l => t = sr.pTri ∧ l < (s.tris sr.pTri).patchdef.countSpecs ∧
        SReac.upd_S s sr l ≠ 0) := by
  unfold SReac.apply at h
  simp only at h
  cases h1 : SReac.applyLoopTri ((s.tris sr.pTri).patchdef.sreac_upd_S_bgn
      ((s.tris sr.pTri).patchdef.sreacG2L sr.pSReacdef.gidx))
      (List.range (s.tris sr.pTri).patchdef.countSpecs) (s.tris sr.pTri) with
  | error e => rw [h1] at h; cases h
  | ok tri2 =>
    rw [h1] at h
    simp only at h
    cases h2 : SReac.applyVol (s.setTri sr.pTri tri2)
        ((s.tris sr.pTri).patchdef.sreac_upd_I_bgn
          ((s.tris sr.pTri).patchdef.sreacG2L sr.pSReacdef.gidx))
        (s.tris sr.pTri).patchdef.countSpecs_I ((s.setTri sr.pTri tri2).tris sr.pTri).iTet with
    | error e => rw [h2] at h; cases h
    | ok s2 =>
      rw [h2] at h
      simp only at h
      cases h3 : SReac.applyVol s2
          ((s.tris sr.pTri).patchdef.sreac_upd_O_bgn
            ((s.tris sr.pTri).patchdef.sreacG2L sr.pSReacdef.gidx))
          (s.tris sr.pTri).patchdef.countSpecs_O (s2.tris sr.pTri).oTet with
      | error e => rw [h3] at h; cases h
      | ok s3 =>
        rw [h3] at h
        simp only [Except.ok.injEq, Prod.mk.injEq] at h
        obtain ⟨hs, hu⟩ := h
        refine ⟨hu.symm, ?_⟩
        rw [← hs]
        obtain ⟨a, b⟩ := SReac_applyLoopTri_writes _ _ _ _ h1
        have w1 : Writes s (s.setTri sr.pTri tri2)
            (fun t l =>
              ((s.tris sr.pTri).iTet = some t ∧ l < (s.tris sr.pTri).patchdef.countSpecs_I ∧
                SReac.upd_I s sr l ≠ 0) ∨
              ((s.tris sr.pTri).oTet = some t ∧ l < (s.tris sr.pTri).patchdef.countSpecs_O ∧
                SReac.upd_O s sr l ≠ 0))
            (fun t l => t = sr.pTri ∧ l < (s.tris sr.pTri).patchdef.countSpecs ∧
              SReac.upd_S s sr l ≠ 0) :=
          Writes_setTri s sr.pTri tri2 _ _ a
            (fun l hne => ⟨rfl, List.mem_range.mp (b l hne).1, (b l hne).2⟩)
        have e1 : ((s.setTri sr.pTri tri2).tris sr.pTri).iTet = (s.tris sr.pTri).iTet :=
          ((PoolsOnly.fields w1.1).2 sr.pTri).2.1
        have w2 := SReac_applyVol_writes _ _ _ _ _ h2
        rw [e1] at w2
        have w12 : Writes s s2
            (fun t l =>
              ((s.tris sr.pTri).iTet = some t ∧ l < (s.tris sr.pTri).patchdef.countSpecs_I ∧
                SReac.upd_I s sr l ≠ 0) ∨
              ((s.tris sr.pTri).oTet = some t ∧ l < (s.tris sr.pTri).patchdef.countSpecs_O ∧
                SReac.upd_O s sr l ≠ 0))
            (fun t l => t = sr.pTri ∧ l < (s.tris sr.pTri).patchdef.countSpecs ∧
              SReac.upd_S s sr l ≠ 0) :=
          Writes.transW w1 (Writes.monoW w2 (fun t l hw => Or.inl hw)
            (fun _ _ hf => False.elim hf))
        have e2 : (s2.tris sr.pTri).oTet = (s.tris sr.pTri).oTet :=
          ((PoolsOnly.fields w12.1).2 sr.pTri).2.2.1
        have w3 := SReac_applyVol_writes _ _ _ _ _ h3
        rw [e2] at w3
        have w123 : Writes s s3
            (fun t l =>
              ((s.tris sr.pTri).iTet = some t ∧ l < (s.tris sr.pTri).patchdef.countSpecs_I ∧
                SReac.upd_I s sr l ≠ 0) ∨
              ((s.tris sr.pTri).oTet = some t ∧ l < (s.tris sr.pTri).patchdef.countSpecs_O ∧
                SReac.upd_O s sr l ≠ 0))
            (fun t l => t = sr.pTri ∧ l < (s.tris sr.pTri).patchdef.countSpecs ∧
              SReac.upd_S s sr l ≠ 0) :=
          Writes.transW w12 (Writes.monoW w3 (fun t l hw => Or.inr hw)
            (fun _ _ hf => False.elim hf))
        exact Writes.transW w123 (Writes_setKProc _ _ _ _ _)

/-- The increment of one count changes that count only. -/
theorem Tet_incCount_writes (t : Tet) (l : Nat) (inc : Int) :
    t.incCount l inc = { t with pools := (t.incCount l inc).pools } ∧
    ∀ p, (t.incCount l inc).pools p ≠ t.pools p → p = l := by
  refine ⟨rfl, fun p h => ?_⟩
  by_contra e
  apply h
  simp only [Tet.incCount, Function.update_noteq e]

/-- What a hop of `Diff::apply` writes: the count of the ligand in the source tet and the
count with the stored neighbour index in the destination tet. -/
theorem Diff_hop_writes (s : State) (kidx : Nat) (d : Diff) (clamped : Bool) (dir nt : Nat) :
    Writes s (Diff.hop s kidx d clamped dir nt)
      (fun t l => (t = d.pTet ∧ l = d.lidxTet) ∨
        (t = nt ∧ l = toUInt (d.pNeighbCompLidx dir)))
      (fun _ _ => False) := by
  unfold Diff.hop
  dsimp only
  have wa : Writes s
      (if (s.tets nt).clamped (toUInt (d.pNeighbCompLidx dir)) = false
        then s.setTet nt ((s.tets nt).incCount (toUInt (d.pNeighbCompLidx dir)) 1) else s)
      (fun t l => (t = d.pTet ∧ l = d.lidxTet) ∨
        (t = nt ∧ l = toUInt (d.pNeighbCompLidx dir)))
      (fun _ _ => False) := by
    split_ifs
    · exact Writes_setTet s nt _ _ _ (Tet_incCount_writes _ _ _).1
        (fun l h => Or.inr ⟨rfl, (Tet_incCount_writes _ _ _).2 l h⟩)
    · exact Writes.reflW s _ _
  refine Writes.transW (Writes.transW wa ?_) (Writes_setKProc _ _ _ _ _)
  split_ifs
  · exact Writes_setTet _ d.pTet _ _ _ (Tet_incCount_writes _ _ _).1
      (fun l h => Or.inl ⟨rfl, (Tet_incCount_writes _ _ _).2 l h⟩)
  · exact Writes.reflW _ _ _
  · exact Writes_setTet _ d.pTet _ _ _ (Tet_incCount_writes _ _ _).1
      (fun l h => Or.inl ⟨rfl, (Tet_incCount_writes _ _ _).2 l h⟩)
  · exact Writes.reflW _ _ _

/-- The list that `Reac::setupDeps()` computes holds every KProc around the tet of the
reaction whose `depSpecTet` is true for a species of the upd-collection. -/
theorem Reac_setupDeps_mem (s : State) (r : Reac) (x g : Nat) (hx : nearTet s r.pTet x)
    (hg : g ∈ r.pReacdef.updColl)
    (hd : KProc.depSpecTet s (s.pKProcs x) g r.pTet = true) :
    x ∈ (r.setupDeps s).pUpdVec := by
  obtain ⟨a1, _⟩ := depLoopTet_spec s r.pReacdef.updColl r.pTet (s.tets r.pTet).kprocs []
  obtain ⟨b1, _⟩ := depLoopNextTris_spec s r.pReacdef.updColl r.pTet
    (depLoopTet s r.pReacdef.updColl r.pTet (s.tets r.pTet).kprocs [])
  unfold Reac.setupDeps
  dsimp only
  rw [b1 x, a1 x]
  rcases hx with h1 | ⟨i, tri, h1, h2, h3⟩
  · exact Or.inl (Or.inr ⟨h1, g, hg, hd⟩)
  · exact Or.inr ⟨i, tri, h1, h2, h3, g, hg, hd⟩

/-- The list that `SReac::setupDeps()` computes holds every KProc of the triangle whose
`depSpecTri` is true for a species of the surface upd-collection. -/
theorem SReac_setupDeps_mem_S (s : State) (sr : SReac) (x g : Nat)
    (hx : x ∈ (s.tris sr.pTri).kprocs) (hg : g ∈ sr.pSReacdef.updColl_S)
    (hd : KProc.depSpecTri (s.pKProcs x) g sr.pTri = true) :
    x ∈ (sr.setupDeps s).pUpdVec := by
  obtain ⟨a1, _⟩ := depLoopTri_spec s sr.pSReacdef.updColl_S sr.pTri
    (s.tris sr.pTri).kprocs []
  obtain ⟨b1, _⟩ := depLoopSide_spec s sr.pSReacdef.updColl_I (s.tris sr.pTri).iTet
    (depLoopTri s sr.pSReacdef.updColl_S sr.pTri (s.tris sr.pTri).kprocs [])
  obtain ⟨c1, _⟩ := depLoopSide_spec s sr.pSReacdef.updColl_O (s.tris sr.pTri).oTet
    (depLoopSide s sr.pSReacdef.updColl_I (s.tris sr.pTri).iTet
      (depLoopTri s sr.pSReacdef.updColl_S sr.pTri (s.tris sr.pTri).kprocs []))
  unfold SReac.setupDeps
  dsimp only
  rw [c1 x, b1 x, a1 x]
  exact Or.inl (Or.inl (Or.inr ⟨hx, g, hg, hd⟩))

/-- The list that `SReac::setupDeps()` computes holds every KProc around the inner tet
whose `depSpecTet` is true for a species of the inner upd-collection. -/
theorem SReac_setupDeps_mem_I (s : State) (sr : SReac) (x g it : Nat)
    (hi : (s.tris sr.pTri).iTet = some it) (hx : nearTet s it x)
    (hg : g ∈ sr.pSReacdef.updColl_I)
    (hd : KProc.depSpecTet s (s.pKProcs x) g it = true) :
    x ∈ (sr.setupDeps s).pUpdVec := by
  obtain ⟨b1, _⟩ := depLoopSide_spec s sr.pSReacdef.updColl_I (s.tris sr.pTri).iTet
    (depLoopTri s sr.pSReacdef.updColl_S sr.pTri (s.tris sr.pTri).kprocs [])
  obtain ⟨c1, _⟩ := depLoopSide_spec s sr.pSReacdef.updColl_O (s.tris sr.pTri).oTet
    (depLoopSide s sr.pSReacdef.updColl_I (s.tris sr.pTri).iTet
      (depLoopTri s sr.pSReacdef.updColl_S sr.pTri (s.tris sr.pTri).kprocs []))
  unfold SReac.setupDeps
  dsimp only
  rw [c1 x, b1 x]
  exact Or.inl (Or.inr ⟨it, hi, hx, g, hg, hd⟩)

/-- The list that `SReac::setupDeps()` computes holds every KProc around the outer tet
whose `depSpecTet` is true for a species of the outer upd-collection. -/
theorem SReac_setupDeps_mem_O (s : State) (sr : SReac) (x g ot : Nat)
    (ho : (s.tris sr.pTri).oTet = some ot) (hx : nearTet s ot x)
    (hg : g ∈ sr.pSReacdef.updColl_O)
    (hd : KProc.depSpecTet s (s.pKProcs x) g ot = true) :
    x ∈ (sr.setupDeps s).pUpdVec := by
  obtain ⟨c1, _⟩ := depLoopSide_spec s sr.pSReacdef.updColl_O (s.tris sr.pTri).oTet
    (depLoopSide s sr.pSReacdef.updColl_I (s.tris sr.pTri).iTet
      (depLoopTri s sr.pSReacdef.updColl_S sr.pTri (s.tris sr.pTri).kprocs []))
  unfold SReac.setupDeps
  dsimp only
  rw [c1 x]
  exact Or.inr ⟨ot, ho, hx, g, hg, hd⟩

/-- The direction of a hop is one of the four faces. -/
theorem Diff_direction_lt (d : Diff) (u : ℚ) : Diff.direction d u < 4 := by
  rw [Diff_direction_cases]
  split_ifs <;> omega

/-- Firing a wired KProc changes counts only, and every count it changes is covered by the
update list it returns. -/
theorem KProc_apply_covered {σ : Type} (R : RNG σ) (s s1 : State) (kp : Nat) (rng rng1 : σ)
    (upd : List Nat) (hw : KProc.wired s kp)
    (h : KProc.apply R s kp rng = .ok (s1, upd, rng1)) :
    PoolsOnly s s1 ∧ Covered s s1 upd := by
  unfold KProc.wired at hw
  unfold KProc.apply at h
  cases hv : (s.pKProcs kp).variant with
  | reac r =>
    rw [hv] at h hw
    simp only [Except.ok.injEq, Prod.mk.injEq] at h
    obtain ⟨hs, hu, _⟩ := h
    obtain ⟨_, r2, _, r4⟩ := hw
    have w := Reac_apply_writes s kp r
    rw [hs] at w
    refine ⟨w.1, fun t l hne => ?_, fun t l hne => False.elim (w.2.2 t l hne)⟩
    obtain ⟨e, hl, hupd⟩ := w.2.1 t l hne
    obtain ⟨g, hg, hgl⟩ := r4 l hl hupd
    rw [e]
    refine ⟨g, hgl, fun x hx hd => ?_⟩
    rw [← hu]
    show x ∈ r.pUpdVec
    rw [← r2]
    exact Reac_setupDeps_mem s r x g hx hg hd
  | sreac sr =>
    rw [hv] at h hw
    simp only at h
    cases ha : SReac.apply s kp sr with
    | error e => rw [ha] at h; cases h
    | ok res =>
      obtain ⟨s1a, upda⟩ := res
      rw [ha] at h
      simp only [Except.ok.injEq, Prod.mk.injEq] at h
      obtain ⟨hs, hu, _⟩ := h
      obtain ⟨_, s2, _, ⟨s4S, s4I, s4O⟩, _, _⟩ := hw
      obtain ⟨eu, w⟩ := SReac_apply_writes s s1a kp sr upda ha
      rw [hs] at w
      rw [hu] at eu
      refine ⟨w.1, fun t l hne => ?_, fun t l hne => ?_⟩
      · rcases w.2.1 t l hne with ⟨hi, hl, hupd⟩ | ⟨ho, hl, hupd⟩
        · obtain ⟨g, hg, hgl⟩ := s4I t hi l hl hupd
          refine ⟨g, hgl, fun x hx hd => ?_⟩
          rw [eu, ← s2]
          exact SReac_setupDeps_mem_I s sr x g t hi hx hg hd
        · obtain ⟨g, hg, hgl⟩ := s4O t ho l hl hupd
          refine ⟨g, hgl, fun x hx hd => ?_⟩
          rw [eu, ← s2]
          exact SReac_setupDeps_mem_O s sr x g t ho hx hg hd
      · obtain ⟨e, hl, hupd⟩ := w.2.2 t l hne
        obtain ⟨g, hg, hgl⟩ := s4S l hl hupd
        rw [e]
        refine ⟨g, hgl, fun x hx hd => ?_⟩
        rw [eu, ← s2]
        exact SReac_setupDeps_mem_S s sr x g hx hg hd
  | diff d =>
    rw [hv] at h hw
    simp only [Diff_apply_eq] at h
    split_ifs at h
    cases hdir : Diff.applyDir s kp d ((s.tets d.pTet).clamped d.lidxTet)
        (Diff.direction d (R.getUnfEE rng).1) with
    | error e => rw [hdir] at h; cases h
    | ok res =>
      obtain ⟨nt, hnt, hl⟩ := Diff_applyDir_inv _ _ _ _ _ _ hdir
      rw [Diff_applyDir_ok _ _ _ _ _ nt hnt hl] at h
      simp only [Except.ok.injEq, Prod.mk.injEq] at h
      obtain ⟨hs, hu, _⟩ := h
      obtain ⟨_, d2, ⟨d3, _⟩, d4, d5, _⟩ := hw
      have w := Diff_hop_writes s kp d ((s.tets d.pTet).clamped d.lidxTet)
        (Diff.direction d (R.getUnfEE rng).1) nt
      rw [hs] at w
      have hopen := (Diff_setupDeps_open s d (Diff.direction d (R.getUnfEE rng).1) nt
        (Diff_direction_lt d _) hnt (d5 _ nt hnt)).1
      refine ⟨w.1, fun t l hne => ?_, fun t l hne => False.elim (w.2.2 t l hne)⟩
      rcases w.2.1 t l hne with ⟨e1, e2⟩ | ⟨e1, e2⟩
      · rw [e1, e2]
        refine ⟨d.ligGIdx, d3, fun x hx hd => ?_⟩
        rw [← hu, ← d2, hopen x]
        exact Or.inl ⟨hx, hd⟩
      · rw [e1, e2]
        obtain ⟨f1, f2⟩ := d4 _ nt hnt
        refine ⟨d.ligGIdx, ?_, fun x hx hd => ?_⟩
        · rw [f1, toUInt_toInt _ f2]
        · rw [← hu, ← d2, hopen x]
          exact Or.inr ⟨hx, hd⟩

/-- A wired KProc that is not in a covering update list keeps its propensity. -/
theorem KProc_rate_uncovered (s s1 : State) (upd : List Nat) (m : Nat) (k1 : KProc)
    (hP : PoolsOnly s s1) (hC : Covered s s1 upd) (hw : KProc.wired s m)
    (hv : k1.variant = (s.pKProcs m).variant) (hf : k1.pFlags = (s.pKProcs m).pFlags)
    (hm : m ∉ upd) :
    KProc.rate s1 k1 = KProc.rate s (s.pKProcs m) := by
  obtain ⟨fT, fS⟩ := PoolsOnly.fields hP
  unfold KProc.wired at hw
  unfold KProc.rate
  rw [hv]
  cases hvm : (s.pKProcs m).variant with
  | reac r =>
    rw [hvm] at hw
    obtain ⟨r1, _, r3, _⟩ := hw
    dsimp only
    refine Reac_rate_pools s s1 _ k1 r hf (fT r.pTet).1 (fun l hl h0 => ?_)
    by_contra hne
    obtain ⟨g, hg, hcov⟩ := hC.1 r.pTet l hne
    apply hm
    refine hcov m (Or.inl r1) ?_
    unfold KProc.depSpecTet
    rw [hvm]
    dsimp only
    unfold Reac.depSpecTet
    rw [if_neg (not_not.mpr rfl)]
    exact r3 g (by rw [hg]; exact h0) (by rw [hg]; exact hl)
  | diff d =>
    rw [hvm] at hw
    obtain ⟨d1, _, ⟨_, d3⟩, _⟩ := hw
    dsimp only
    refine Diff_rate_pools s s1 _ k1 d hf ?_
    by_contra hne
    obtain ⟨g, hg, hcov⟩ := hC.1 d.pTet d.lidxTet hne
    apply hm
    refine hcov m (Or.inl d1) ?_
    unfold KProc.depSpecTet
    rw [hvm]
    dsimp only
    unfold Diff.depSpecTet
    rw [if_neg (not_not.mpr rfl), if_neg (not_not.mpr (d3 g hg))]
  | sreac sr =>
    rw [hvm] at hw
    obtain ⟨s1m, _, ⟨s3S, s3I, s3O⟩, _, ⟨s5I, s5O⟩, s6⟩ := hw
    dsimp only
    refine SReac_rate_pools s s1 _ k1 sr hf (fS sr.pTri).1 (fS sr.pTri).2.1 (fS sr.pTri).2.2.1
      (fun l hl h0 => ?_) (fun _ t ht l hl h0 => ?_) (fun _ _ t ht l hl h0 => ?_)
    · by_contra hne
      obtain ⟨g, hg, hcov⟩ := hC.2 sr.pTri l hne
      apply hm
      refine hcov m s1m ?_
      unfold KProc.depSpecTri
      rw [hvm]
      dsimp only
      unfold SReac.depSpecTri
      rw [if_neg (not_not.mpr rfl)]
      exact s3S g (by rw [hg]; exact h0) (by rw [hg]; exact hl)
    · by_contra hne
      obtain ⟨g, hg, hcov⟩ := hC.1 t l hne
      obtain ⟨i, hi4, hslot⟩ := s5I t ht
      apply hm
      refine hcov m (Or.inr ⟨i, sr.pTri, hi4, hslot, s1m⟩) ?_
      unfold KProc.depSpecTet
      rw [hvm]
      dsimp only
      unfold SReac.depSpecTet
      rw [if_pos ht]
      exact s3I t ht g (by rw [hg]; exact h0) (by rw [hg]; exact hl)
    · by_contra hne
      obtain ⟨g, hg, hcov⟩ := hC.1 t l hne
      obtain ⟨i, hi4, hslot⟩ := s5O t ht
      apply hm
      refine hcov m (Or.inr ⟨i, sr.pTri, hi4, hslot, s1m⟩) ?_
      unfold KProc.depSpecTet
      rw [hvm]
      dsimp only
      unfold SReac.depSpecTet
      have hni : ¬ (s.tris sr.pTri).iTet = some t := fun hi => s6 t hi ht
      rw [if_neg hni, if_pos ht]
      exact s3O t ht g (by rw [hg]; exact h0) (by rw [hg]; exact hl)

/-- What a returning loop of `_update` leaves in the records: the stored rate of every
listed KProc is its propensity, and no other stored rate changes. -/
theorem updateLoop_stored : ∀ (l : List Nat) (s s2 : State), updateLoop l s = .ok s2 →
    (∀ m ∈ l, KProc.rate s (s.pKProcs m) = .ok (storedRate s2 m)) ∧
    (∀ m, m ∉ l → storedRate s2 m = storedRate s m) := by
  intro l
  induction l with
  | nil =>
    intro s s2 h
    unfold updateLoop at h
    rw [← Except.ok.inj h]
    exact ⟨fun m hm => absurd hm (List.not_mem_nil _), fun _ _ => rfl⟩
  | cons k rest ih =>
    intro s s2 h
    unfold updateLoop at h
    cases h1 : _updateElement s k with
    | error e => rw [h1] at h; cases h
    | ok sa =>
      rw [h1] at h
      simp only at h
      obtain ⟨i1, i2⟩ := ih sa s2 h
      obtain ⟨new, hnew, hst, hoth, _⟩ := updateElement_records s sa k h1
      have hfr := CRFrame_updateElement s sa k h1
      refine ⟨fun m hm => ?_, fun m hm => ?_⟩
      · by_cases hmr : m ∈ rest
        · rw [← KProc_rate_CRFrame s sa m hfr]
          exact i1 m hmr
        · have hmk : m = k := by
            rcases List.mem_cons.mp hm with e | e
            · exact e
            · exact absurd e hmr
          rw [hmk] at hmr ⊢
          rw [hnew, i2 k hmr]
          unfold storedRate
          rw [hst]
      · have hmk : m ≠ k := fun e => hm (by rw [e]; exact List.mem_cons_self _ _)
        have hmr : m ∉ rest := fun e => hm (List.mem_cons_of_mem _ e)
        rw [i2 m hmr]
        unfold storedRate
        exact (hoth m hmk).1

/-- The same for `_update`, which ends with `_updateSum`. -/
theorem update_stored (s s2 : State) (upd : List Nat) (h : _update s upd = .ok s2) :
    (∀ m ∈ upd, KProc.rate s (s.pKProcs m) = .ok (storedRate s2 m)) ∧
    (∀ m, m ∉ upd → storedRate s2 m = storedRate s m) := by
  unfold _update at h
  cases h1 : updateLoop upd s with
  | error e => rw [h1] at h; cases h
  | ok sa =>
    rw [h1] at h
    simp only [Except.ok.injEq] at h
    rw [← h]
    exact updateLoop_stored upd s sa h1

/-- An event keeps the stored rates current: if every KProc of the schedule is wired and
has its propensity as stored rate, then after a returning `_executeStep` of a KProc of the
schedule every KProc of the schedule again has its propensity as stored rate. -/
theorem executeStep_stored {σ : Type} (R : RNG σ) (s s2 : State) (kp : Nat) (dt : ℚ)
    (rng rng2 : σ) (hW : Wired s) (hkp : kp < s.nEntries) (hR : RatesStored s)
    (h : _executeStep R s kp dt rng = .ok (s2, rng2)) : RatesStored s2 := by
  obtain ⟨s1, upd, s1u, ha, hu, _, hs2⟩ := executeStep_inv R s s2 kp dt rng rng2 h
  obtain ⟨hP, hC⟩ := KProc_apply_covered R s s1 kp rng rng2 upd (hW kp hkp) ha
  obtain ⟨af, an, _⟩ := KProc_apply_frame R s s1 kp rng rng2 upd ha
  obtain ⟨u1, u2⟩ := update_stored s1 s1u upd hu
  have hfr := CRFrame_update s1 s1u upd hu
  have hrate2 : ∀ m, KProc.rate s2 (s2.pKProcs m) = KProc.rate s1 (s1.pKProcs m) := by
    intro m
    rw [← KProc_rate_CRFrame s1 s1u m hfr, hs2]
    exact KProc_rate_congr s1u _ _ _ rfl rfl rfl rfl
  have hst2 : ∀ m, storedRate s2 m = storedRate s1u m := by
    intro m
    rw [hs2]
    rfl
  have hn2 : s2.nEntries = s.nEntries := by
    rw [hs2]
    show s1u.nEntries = s.nEntries
    rw [hfr.2.2.1, an]
  have hk1 : ∀ m, (s1.pKProcs m).variant = (s.pKProcs m).variant ∧
      (s1.pKProcs m).pFlags = (s.pKProcs m).pFlags ∧
      (s1.pKProcs m).crData = (s.pKProcs m).crData := by
    intro m
    rw [af]
    by_cases e : m = kp
    · rw [e, Function.update_same]
      exact ⟨rfl, rfl, rfl⟩
    · rw [Function.update_noteq e]
      exact ⟨rfl, rfl, rfl⟩
  intro m hm
  rw [hn2] at hm
  rw [hrate2 m, hst2 m]
  by_cases hmu : m ∈ upd
  · exact u1 m hmu
  · rw [u2 m hmu]
    have e1 : storedRate s1 m = storedRate s m := by
      unfold storedRate
      rw [(hk1 m).2.2]
    rw [e1, ← hR m hm]
    exact KProc_rate_uncovered s s1 upd m _ hP hC (hW m hm) (hk1 m).1 (hk1 m).2.1 hmu

/-- The dependency test `depSpecTet` reads the variant of the KProc and the inner and outer
tet of a triangle only. -/
theorem depSpecTet_static (s s2 : State) (hP : PoolsOnly s s2)
    (hv : ∀ m, (s2.pKProcs m).variant = (s.pKProcs m).variant) (x g t : Nat) :
    KProc.depSpecTet s2 (s2.pKProcs x) g t = KProc.depSpecTet s (s.pKProcs x) g t := by
  obtain ⟨_, fS⟩ := PoolsOnly.fields hP
  unfold KProc.depSpecTet
  rw [hv x]
  cases (s.pKProcs x).variant with
  | reac r => rfl
  | diff d => rfl
  | sreac sr =>
    dsimp only
    unfold SReac.depSpecTet
    rw [(fS sr.pTri).2.1, (fS sr.pTri).2.2.1]

/-- The dependency test `depSpecTri` reads the variant of the KProc only. -/
theorem depSpecTri_static (s s2 : State)
    (hv : ∀ m, (s2.pKProcs m).variant = (s.pKProcs m).variant) (x g t : Nat) :
    KProc.depSpecTri (s2.pKProcs x) g t = KProc.depSpecTri (s.pKProcs x) g t := by
  unfold KProc.depSpecTri
  rw [hv x]

theorem depLoopTet_static (s s2 : State) (hP : PoolsOnly s s2)
    (hv : ∀ m, (s2.pKProcs m).variant = (s.pKProcs m).variant)
    (specs : List Nat) (tet : Nat) (kprocs updset : List Nat) :
    depLoopTet s2 specs tet kprocs updset = depLoopTet s specs tet kprocs updset := by
  unfold depLoopTet
  simp only [depSpecTet_static s s2 hP hv]

theorem depLoopTri_static (s s2 : State)
    (hv : ∀ m, (s2.pKProcs m).variant = (s.pKProcs m).variant)
    (specs : List Nat) (tri : Nat) (kprocs updset : List Nat) :
    depLoopTri s2 specs tri kprocs updset = depLoopTri s specs tri kprocs updset := by
  unfold depLoopTri
  simp only [depSpecTri_static s s2 hv]

theorem depLoopNextTris_static (s s2 : State) (hP : PoolsOnly s s2)
    (hv : ∀ m, (s2.pKProcs m).variant = (s.pKProcs m).variant)
    (specs : List Nat) (tet : Nat) (updset : List Nat) :
    depLoopNextTris s2 specs tet updset = depLoopNextTris s specs tet updset := by
  obtain ⟨fT, fS⟩ := PoolsOnly.fields hP
  have h1 : ∀ t, (s2.tets t).nextTri = (s.tets t).nextTri := fun t => (fT t).2.2.1
  have h2 : ∀ t, (s2.tris t).kprocs = (s.tris t).kprocs := fun t => (fS t).2.2.2.1
  unfold depLoopNextTris
  simp only [h1, h2, depLoopTet_static s s2 hP hv]

theorem depLoopSide_static (s s2 : State) (hP : PoolsOnly s s2)
    (hv : ∀ m, (s2.pKProcs m).variant = (s.pKProcs m).variant)
    (specs : List Nat) (side : Option Nat) (updset : List Nat) :
    depLoopSide s2 specs side updset = depLoopSide s specs side updset := by
  obtain ⟨fT, _⟩ := PoolsOnly.fields hP
  unfold depLoopSide
  cases side with
  | none => rfl
  | some tet =>
    dsimp only
    rw [depLoopNextTris_static s s2 hP hv, depLoopTet_static s s2 hP hv, (fT tet).2.2.2.1]

/-- The list of `Reac::setupDeps()` does not depend on molecule counts or selector
records. -/
theorem Reac_setupDeps_static (s s2 : State) (hP : PoolsOnly s s2)
    (hv : ∀ m, (s2.pKProcs m).variant = (s.pKProcs m).variant) (r : Reac) :
    (r.setupDeps s2).pUpdVec = (r.setupDeps s).pUpdVec := by
  obtain ⟨fT, _⟩ := PoolsOnly.fields hP
  unfold Reac.setupDeps
  dsimp only
  rw [depLoopNextTris_static s s2 hP hv, depLoopTet_static s s2 hP hv, (fT r.pTet).2.2.2.1]

/-- The list of `SReac::setupDeps()` does not depend on molecule counts or selector
records. -/
theorem SReac_setupDeps_static (s s2 : State) (hP : PoolsOnly s s2)
    (hv : ∀ m, (s2.pKProcs m).variant = (s.pKProcs m).variant) (sr : SReac) :
    (sr.setupDeps s2).pUpdVec = (sr.setupDeps s).pUpdVec := by
  obtain ⟨_, fS⟩ := PoolsOnly.fields hP
  unfold SReac.setupDeps
  dsimp only
  rw [depLoopSide_static s s2 hP hv, depLoopSide_static s s2 hP hv,
    depLoopTri_static s s2 hv, (fS sr.pTri).2.1, (fS sr.pTri).2.2.1, (fS sr.pTri).2.2.2.1]

/-- The lists of `Diff::setupDeps()` do not depend on molecule counts or selector
records. -/
theorem Diff_setupDeps_static (s s2 : State) (hP : PoolsOnly s s2)
    (hv : ∀ m, (s2.pKProcs m).variant = (s.pKProcs m).variant) (d : Diff) :
    d.setupDeps s2 = d.setupDeps s := by
  obtain ⟨fT, fS⟩ := PoolsOnly.fields hP
  have h0 : ∀ t, (s2.tets t).nextTet = (s.tets t).nextTet := fun t => (fT t).2.1
  have h1 : ∀ t, (s2.tets t).nextTri = (s.tets t).nextTri := fun t => (fT t).2.2.1
  have h2 : ∀ t, (s2.tets t).kprocs = (s.tets t).kprocs := fun t => (fT t).2.2.2.1
  have hdir : ∀ loc, Diff.setupDir s2 d loc = Diff.setupDir s d loc := by
    intro loc
    funext d1 i
    unfold Diff.setupDir
    simp only [h0, h1, h2, ligLoop_eq, ligLoopNextTris_eq, depLoopNextTris_static s s2 hP hv,
      depLoopTet_static s s2 hP hv]
  unfold Diff.setupDeps
  simp only [hdir, h2, ligLoop_eq, ligLoopNextTris_eq, depLoopNextTris_static s s2 hP hv,
    depLoopTet_static s s2 hP hv]

/-- The wiring of a KProc does not depend on molecule counts or selector records. -/
theorem KProc_wired_static (s s2 : State) (hP : PoolsOnly s s2)
    (hv : ∀ m, (s2.pKProcs m).variant = (s.pKProcs m).variant) (m : Nat)
    (hw : KProc.wired s m) : KProc.wired s2 m := by
  obtain ⟨fT, fS⟩ := PoolsOnly.fields hP
  have h0 : ∀ t, (s2.tets t).nextTet = (s.tets t).nextTet := fun t => (fT t).2.1
  have h1 : ∀ t, (s2.tets t).nextTri = (s.tets t).nextTri := fun t => (fT t).2.2.1
  have h2 : ∀ t, (s2.tets t).kprocs = (s.tets t).kprocs := fun t => (fT t).2.2.2.1
  have h3 : ∀ t, (s2.tets t).compdef = (s.tets t).compdef := fun t => (fT t).1
  have g0 : ∀ t, (s2.tris t).patchdef = (s.tris t).patchdef := fun t => (fS t).1
  have g1 : ∀ t, (s2.tris t).iTet = (s.tris t).iTet := fun t => (fS t).2.1
  have g2 : ∀ t, (s2.tris t).oTet = (s.tris t).oTet := fun t => (fS t).2.2.1
  have g3 : ∀ t, (s2.tris t).kprocs = (s.tris t).kprocs := fun t => (fS t).2.2.2.1
  unfold KProc.wired at hw ⊢
  rw [hv m]
  cases hvm : (s.pKProcs m).variant with
  | reac r =>
    rw [hvm] at hw
    dsimp only at hw ⊢
    unfold Reac.wired at hw ⊢
    unfold Reac.lhs_vec Reac.upd_vec Reac.nspecs at hw ⊢
    rw [Reac_setupDeps_static s s2 hP hv]
    simp only [h2, h3]
    exact hw
  | diff d =>
    rw [hvm] at hw
    dsimp only at hw ⊢
    unfold Diff.wired at hw ⊢
    rw [Diff_setupDeps_static s s2 hP hv]
    simp only [h0, h1, h2, h3]
    exact hw
  | sreac sr =>
    rw [hvm] at hw
    dsimp only at hw ⊢
    unfold SReac.wired at hw ⊢
    unfold SReac.lhs_S SReac.lhs_I SReac.lhs_O SReac.upd_S SReac.upd_I SReac.upd_O
      SReac.lidx at hw ⊢
    rw [SReac_setupDeps_static s s2 hP hv]
    simp only [h1, h3, g0, g1, g2, g3]
    exact hw

/-- An event keeps the wiring. -/
theorem executeStep_wired {σ : Type} (R : RNG σ) (s s2 : State) (kp : Nat) (dt : ℚ)
    (rng rng2 : σ) (hW : Wired s) (hkp : kp < s.nEntries)
    (h : _executeStep R s kp dt rng = .ok (s2, rng2)) : Wired s2 := by
  obtain ⟨s1, upd, s1u, ha, hu, _, hs2⟩ := executeStep_inv R s s2 kp dt rng rng2 h
  obtain ⟨hP, _⟩ := KProc_apply_covered R s s1 kp rng rng2 upd (hW kp hkp) ha
  obtain ⟨af, an, _⟩ := KProc_apply_frame R s s1 kp rng rng2 upd ha
  have hfr := CRFrame_update s1 s1u upd hu
  have hP2 : PoolsOnly s s2 := by
    refine ⟨fun t => ?_, fun t => ?_⟩
    · rw [hs2]
      show s1u.tets t = { s.tets t with pools := (s1u.tets t).pools }
      rw [hfr.1]
      exact hP.1 t
    · rw [hs2]
      show s1u.tris t = { s.tris t with pools := (s1u.tris t).pools }
      rw [hfr.2.1]
      exact hP.2 t
  have hv2 : ∀ m, (s2.pKProcs m).variant = (s.pKProcs m).variant := by
    intro m
    rw [hs2]
    show (s1u.pKProcs m).variant = (s.pKProcs m).variant
    rw [(hfr.2.2.2.2.2 m).2.2.2, af]
    by_cases e : m = kp
    · rw [e, Function.update_same]
      rfl
    · rw [Function.update_noteq e]
  have hn2 : s2.nEntries = s.nEntries := by
    rw [hs2]
    show s1u.nEntries = s.nEntries
    rw [hfr.2.2.1, an]
  intro m hm
  rw [hn2] at hm
  exact KProc_wired_static s s2 hP2 hv2 m (hW m hm)

/-- The concrete system is wired. -/
theorem demo_wired : Wired Demo.state := by
  intro m hm
  have hk : m = 0 ∨ m = 1 ∨ m = 2 := by
    have : m < 3 := hm
    omega
  rcases hk with rfl | rfl | rfl
  · show Demo.reac0.wired Demo.state 0
    refine ⟨by decide, demo_reac_deps, fun g h _ => ?_, fun l hl _ => ?_⟩
    · simp only [Reac.lhs_vec, Demo.state, Demo.reac0, Demo.tet0, Demo.cdef] at h ⊢
      by_cases e : g = 0
      · simp [e]
      · simp [e] at h
    · have hl2 : l < 2 := hl
      refine ⟨l, ?_, rfl⟩
      interval_cases l <;> simp [Demo.reac0]
  · show Demo.diff1.wired Demo.state 1
    refine ⟨by decide, fun k => ?_, ⟨rfl, fun g h => h⟩, fun k nt h => ?_, fun k nt h => ?_,
      fun k nt h => ?_⟩
    · by_cases e : k = 0
      · rw [e]
        decide
      · exact Diff_setupDeps_skip Demo.state Demo.diff1 k
          (Or.inl (by simp [Demo.state, Demo.diff1, Demo.tet0, e]))
    · by_cases e : k = 0
      · subst e
        simp only [Demo.state, Demo.diff1, Demo.tet0, if_true, Option.some.injEq] at h
        subst h
        exact ⟨by decide, by decide⟩
      · simp [Demo.state, Demo.diff1, Demo.tet0, e] at h
    · by_cases e : k = 0
      · subst e
        rfl
      · simp [Demo.state, Demo.diff1, Demo.tet0, e] at h
    · by_cases e : k = 0
      · subst e
        simp only [Demo.state, Demo.diff1, Demo.tet0, if_true, Option.some.injEq] at h
        subst h
        decide
      · simp [Demo.state, Demo.diff1, Demo.tet0, e] at h
  · show Demo.sreac2.wired Demo.state 2
    refine ⟨by decide, demo_sreac_deps, ⟨fun g h _ => ?_, fun it hi g h _ => ?_,
      fun ot ho => ?_⟩, ⟨fun l hl _ => ?_, fun it hi l hl _ => ?_, fun ot ho => ?_⟩,
      ⟨fun it hi => ?_, fun ot ho => ?_⟩, fun it _ => by simp [Demo.state, Demo.sreac2, Demo.tri0]⟩
    · simp only [SReac.lhs_S, SReac.lidx, Demo.state, Demo.sreac2, Demo.tri0, Demo.pdef] at h ⊢
      by_cases e : g = 0
      · simp [e]
      · simp [e] at h
    · simp only [Demo.state, Demo.sreac2, Demo.tri0, Option.some.injEq] at hi
      subst hi
      simp only [SReac.lhs_I, SReac.lidx, Demo.state, Demo.sreac2, Demo.tri0, Demo.pdef,
        Demo.tet0, Demo.cdef, if_true] at h ⊢
      by_cases e : g = 0
      · simp [e]
      · simp [e] at h
    · simp [Demo.state, Demo.sreac2, Demo.tri0] at ho
    · have hl2 : l < 1 := hl
      refine ⟨l, ?_, rfl⟩
      interval_cases l
      simp [Demo.sreac2]
    · simp only [Demo.state, Demo.sreac2, Demo.tri0, Option.some.injEq] at hi
      subst hi
      have hl2 : l < 2 := hl
      refine ⟨l, ?_, rfl⟩
      interval_cases l <;> simp [Demo.sreac2]
    · simp [Demo.state, Demo.sreac2, Demo.tri0] at ho
    · simp only [Demo.state, Demo.sreac2, Demo.tri0, Option.some.injEq] at hi
      subst hi
      exact ⟨1, by decide, rfl⟩
    · simp [Demo.state, Demo.sreac2, Demo.tri0] at ho

/-- In the concrete system every KProc has its propensity 2 as stored rate. -/
theorem demo_ratesStored : RatesStored Demo.state := by
  intro m hm
  have hk : m = 0 ∨ m = 1 ∨ m = 2 := by
    have : m < 3 := hm
    omega
  rcases hk with rfl | rfl | rfl
  · norm_num [storedRate, KProc.rate, Demo.state, Demo.kproc, Reac.rate, KProc.inactive,
      INACTIVATED, Demo.reac0, Demo.tet0, Demo.cdef, Reac.hmuLoop, List.range,
      List.range.loop, switchLhs, toInt, toUInt, wrapInt]
  · norm_num [storedRate, KProc.rate, Demo.state, Demo.kproc, Diff.rate, KProc.inactive,
      INACTIVATED, Demo.diff1, Demo.tet0]
  · norm_num [storedRate, KProc.rate, Demo.state, Demo.kproc, SReac.rate, SReac.rateVol,
      KProc.inactive, INACTIVATED, Demo.sreac2, Demo.tri0, Demo.pdef, Demo.tet0,
      SReac.hmuLoop, List.range, List.range.loop, switchLhs, toInt, toUInt, wrapInt]

/-- Claim C39. Stored-propensity consistency is preserved by events. Let every KProc of the
schedule be wired as the constructor and `_setup()` leave it (`Wired`: it is owned by its
tet or triangle, its update lists are those `setupDeps()` computes, the dep bitmaps and
upd-collections of its definition agree with its lhs and update vectors, a triangle sits in
a slot of its inner and outer tet, a slot never holds both a neighbour tet and a triangle,
and the neighbour index of a diffusion is the local index of the ligand in the compartment
of the neighbour, which may be another compartment) and have its propensity `rate()` as stored
rate. Then for every KProc `kp` of the schedule, whatever its variant and whatever the
direction a diffusion takes, every `dt` and every generator: whenever `_executeStep(kp, dt)`
returns, every KProc of the schedule again has its propensity as stored rate, and the
wiring and the schedule are as before, so that the property is kept by any sequence of
events; and `_executeStep` does return whenever the firing returns, `dt >= 0` and the
propensities of the KProcs of the returned list are defined. -/
theorem executeStep_keeps_rates {σ : Type} (R : RNG σ) (s : State) (kp : Nat) (dt : ℚ)
    (rng : σ) (hW : Wired s) (hkp : kp < s.nEntries) (hR : RatesStored s) :
    (∀ s2 rng2, _executeStep R s kp dt rng = .ok (s2, rng2) →
      RatesStored s2 ∧ Wired s2 ∧ s2.nEntries = s.nEntries) ∧
    (∀ s1 upd rng1, KProc.apply R s kp rng = .ok (s1, upd, rng1) → 0 ≤ dt →
      (∀ m ∈ upd, ∃ v, KProc.rate s1 (s1.pKProcs m) = .ok v) →
      ∃ s2, _executeStep R s kp dt rng = .ok (s2, rng1)) := by
  refine ⟨fun s2 rng2 h => ⟨executeStep_stored R s s2 kp dt rng rng2 hW hkp hR h,
    executeStep_wired R s s2 kp dt rng rng2 hW hkp h, ?_⟩, fun s1 upd rng1 ha hdt hr => ?_⟩
  · obtain ⟨s1, upd, s1u, ha, hu, _, hs2⟩ := executeStep_inv R s s2 kp dt rng rng2 h
    obtain ⟨_, an, _⟩ := KProc_apply_frame R s s1 kp rng rng2 upd ha
    have hfr := CRFrame_update s1 s1u upd hu
    rw [hs2]
    show s1u.nEntries = s.nEntries
    rw [hfr.2.2.1, an]
  · obtain ⟨s1u, hu⟩ := update_ok s1 upd hr
    exact ⟨_, executeStep_ok R s s1 s1u kp dt rng rng1 upd ha hu hdt⟩

/-- After the reaction A → B has fired in the concrete system, the diffusion of A out of
tet 0 has the propensity 1. -/
theorem demo_rate_after : KProc.rate (Reac.apply Demo.state 0 Demo.reac0).1
    ((Reac.apply Demo.state 0 Demo.reac0).1.pKProcs 1) = .ok 1 := by
  norm_num [KProc.rate, Reac.apply, State.setTet, State.setKProc, KProc.incExtent,
    Demo.state, Demo.kproc, Diff.rate, KProc.inactive, INACTIVATED, Demo.reac0, Demo.tet0,
    Demo.diff1, Demo.cdef, Reac.applyLoop, Tet.setCount, List.range, List.range.loop,
    toInt, toUInt, wrapInt, Function.update_apply]

/-- The open two-compartment system is wired. -/
theorem demo_open_wired : Wired Demo.openState := by
  intro m hm
  have hk : m = 0 ∨ m = 1 := by
    have : m < 2 := hm
    omega
  rcases hk with rfl | rfl
  · show (Demo.diffOpen 0).wired Demo.openState 0
    refine ⟨by decide, fun k => ?_, ⟨rfl, fun g h => ?_⟩, fun k nt h => ?_, fun k nt h => rfl,
      fun k nt h => ?_⟩
    · by_cases e : k = 0
      · rw [e]
        decide
      · exact Diff_setupDeps_skip Demo.openState (Demo.diffOpen 0) k
          (Or.inl (by simp [Demo.openState, Demo.diffOpen, Demo.tet0, e]))
    · have h2 : (if g < 2 then g else LIDX_UNDEFINED) = 0 := h
      by_cases e0 : g < 2
      · rw [if_pos e0] at h2
        exact h2
      · simp [e0, LIDX_UNDEFINED] at h2
    · by_cases e : k = 0
      · subst e
        simp only [Demo.openState, Demo.diffOpen, Demo.tet0, if_true, Option.some.injEq] at h
        subst h
        exact ⟨by decide, by decide⟩
      · simp [Demo.openState, Demo.diffOpen, Demo.tet0, e] at h
    · by_cases e : k = 0
      · subst e
        simp only [Demo.openState, Demo.diffOpen, Demo.tet0, if_true, Option.some.injEq] at h
        subst h
        decide
      · simp [Demo.openState, Demo.diffOpen, Demo.tet0, e] at h
  · show (Demo.diffOpen 1).wired Demo.openState 1
    refine ⟨by decide, fun k => ?_, ⟨rfl, fun g h => ?_⟩, fun k nt h => ?_, fun k nt h => rfl,
      fun k nt h => ?_⟩
    · by_cases e : k = 0
      · rw [e]
        decide
      · exact Diff_setupDeps_skip Demo.openState (Demo.diffOpen 1) k
          (Or.inl (by simp [Demo.openState, Demo.diffOpen, Demo.tet1, e]))
    · have h2 : (if g = 0 then 1 else if g = 1 then 0 else LIDX_UNDEFINED) = 1 := h
      by_cases e0 : g = 0
      · exact e0
      · by_cases e1 : g = 1
        · simp [e1] at h2
        · simp [e0, e1, LIDX_UNDEFINED] at h2
    · by_cases e : k = 0
      · subst e
        simp only [Demo.openState, Demo.diffOpen, Demo.tet1, show ¬ (1 : Nat) = 0 by decide,
          if_false, if_true, Option.some.injEq] at h
        subst h
        exact ⟨by decide, by decide⟩
      · simp [Demo.openState, Demo.diffOpen, Demo.tet1, e] at h
    · by_cases e : k = 0
      · subst e
        simp only [Demo.openState, Demo.diffOpen, Demo.tet1, show ¬ (1 : Nat) = 0 by decide,
          if_false, if_true, Option.some.injEq] at h
        subst h
        decide
      · simp [Demo.openState, Demo.diffOpen, Demo.tet1, e] at h

/-- In the open two-compartment system every KProc has its propensity as stored rate. -/
theorem demo_open_ratesStored : RatesStored Demo.openState := by
  intro m hm
  have hk : m = 0 ∨ m = 1 := by
    have : m < 2 := hm
    omega
  rcases hk with rfl | rfl
  · norm_num [storedRate, KProc.rate, Demo.openState, Diff.rate, KProc.inactive,
      INACTIVATED, Demo.diffOpen, Demo.tet0]
  · norm_num [storedRate, KProc.rate, Demo.openState, Diff.rate, KProc.inactive,
      INACTIVATED, Demo.diffOpen, Demo.tet1, CRKProcData.cleared]

/-- In the open two-compartment system the diffusion out of tet 0 hops through the boundary
face 0 into tet 1 and returns the update list of direction 0. -/
theorem demo_open_apply : KProc.apply Demo.rng Demo.openState 0 0
    = .ok (Diff.hop Demo.openState 0 (Demo.diffOpen 0) false 0 1, [0, 1], 1) := by
  have hdir : Diff.direction (Demo.diffOpen 0) (1 / 2) = 0 := by
    rw [Diff_direction_cases]
    norm_num [Demo.diffOpen]
  have hne : ¬ ((Demo.openState.tets (Demo.diffOpen 0).pTet).clamped
      (Demo.diffOpen 0).lidxTet = false ∧
      ¬ ((Demo.openState.tets (Demo.diffOpen 0).pTet).pools (Demo.diffOpen 0).lidxTet
        > 0)) := by
    decide
  unfold KProc.apply
  have hv : (Demo.openState.pKProcs 0).variant = .diff (Demo.diffOpen 0) := rfl
  rw [hv]
  dsimp only
  rw [Diff_apply_eq, if_neg hne]
  have hu : (Demo.rng.getUnfEE 0).1 = 1 / 2 := rfl
  rw [hu, hdir, Diff_applyDir_ok Demo.openState 0 (Demo.diffOpen 0) _ 0 1 rfl (by decide)]
  rfl

/-- After the hop each tet holds one A (under the local index 0 in tet 0 and 1 in tet 1),
and both diffusions have the propensity 1. -/
theorem demo_open_rates (kp : Nat) (h : kp ∈ [0, 1]) :
    KProc.rate (Diff.hop Demo.openState 0 (Demo.diffOpen 0) false 0 1)
      ((Diff.hop Demo.openState 0 (Demo.diffOpen 0) false 0 1).pKProcs kp) = .ok 1 := by
  simp only [List.mem_cons, List.mem_singleton, List.not_mem_nil, or_false] at h
  rcases h with rfl | rfl
  · norm_num [KProc.rate, Diff.rate, KProc.inactive, INACTIVATED, Diff.hop,
      State.setKProc, State.setTet, Tet.incCount, KProc.incExtent, toUInt, toInt,
      Demo.openState, Demo.diffOpen, Demo.tet0, Demo.tet1, Function.update_apply]
  · norm_num [KProc.rate, Diff.rate, KProc.inactive, INACTIVATED, Diff.hop,
      State.setKProc, State.setTet, Tet.incCount, KProc.incExtent, toUInt, toInt,
      Demo.openState, Demo.diffOpen, Demo.tet0, Demo.tet1, Function.update_apply]

/-- Witness of C39. In the concrete system, which is wired and has every propensity
(2, 2, 2) as stored rate, `_executeStep` of the reaction A → B (KProc 0) returns, and
afterwards every KProc again has its propensity as stored rate; for the diffusion of A out
of tet 0 (KProc 1) both are now 1. In the two-compartment system with the open diffusion
boundary, which is wired and has the propensities (2, 0) as stored rates, `_executeStep` of
the diffusion out of tet 0 moves one A through the boundary face into tet 1, which lies in
the other compartment, and afterwards every KProc again has its propensity as stored rate;
for the diffusion out of tet 1 (KProc 1) both are now 1. -/
theorem executeStep_keeps_rates_witness : ∃ s2 s3,
    _executeStep Demo.rng Demo.state 0 (1 / 6) 4 = .ok (s2, 4) ∧ RatesStored s2 ∧
    KProc.rate s2 (s2.pKProcs 1) = .ok 1 ∧ storedRate s2 1 = 1 ∧
    storedRate Demo.state 1 = 2 ∧
    _executeStep Demo.rng Demo.openState 0 (1 / 2) 0 = .ok (s3, 1) ∧ RatesStored s3 ∧
    KProc.rate s3 (s3.pKProcs 1) = .ok 1 ∧ storedRate s3 1 = 1 ∧
    storedRate Demo.openState 1 = 0 := by
  obtain ⟨a, b⟩ := executeStep_keeps_rates Demo.rng Demo.state 0 (1 / 6) 4 demo_wired
    (by decide) demo_ratesStored
  obtain ⟨s2, h⟩ := b _ _ _ demo_apply (by norm_num) demo_rates
  obtain ⟨hR, _, _⟩ := a s2 4 h
  obtain ⟨s1, upd, s1u, ha, hu, _, hs2⟩ := executeStep_inv Demo.rng Demo.state s2 0 (1 / 6) 4 4 h
  rw [demo_apply] at ha
  simp only [Except.ok.injEq, Prod.mk.injEq, and_true] at ha
  obtain ⟨e1, e2⟩ := ha
  subst e1
  subst e2
  have hst : storedRate s2 1 = 1 := by
    have h1 := (update_stored _ s1u _ hu).1 1 (by decide)
    rw [demo_rate_after] at h1
    rw [hs2]
    exact (Except.ok.inj h1).symm
  have h2 := hR 1 (by
    rw [hs2]
    show s1u.nEntries > 1
    rw [(CRFrame_update _ s1u _ hu).2.2.1]
    decide)
  rw [hst] at h2
  obtain ⟨c, d⟩ := executeStep_keeps_rates Demo.rng Demo.openState 0 (1 / 2) 0 demo_open_wired
    (by decide) demo_open_ratesStored
  obtain ⟨s3, g⟩ := d _ _ _ demo_open_apply (by norm_num)
    (fun m hm => ⟨1, demo_open_rates m hm⟩)
  obtain ⟨gR, _, _⟩ := c s3 1 g
  obtain ⟨t1, upd3, t1u, ga, gu, _, gs3⟩ :=
    executeStep_inv Demo.rng Demo.openState s3 0 (1 / 2) 0 1 g
  rw [demo_open_apply] at ga
  simp only [Except.ok.injEq, Prod.mk.injEq, and_true] at ga
  obtain ⟨e3, e4⟩ := ga
  subst e3
  subst e4
  have gst : storedRate s3 1 = 1 := by
    have g1 := (update_stored _ t1u _ gu).1 1 (by decide)
    rw [demo_open_rates 1 (by decide)] at g1
    rw [gs3]
    exact (Except.ok.inj g1).symm
  have g2 := gR 1 (by
    rw [gs3]
    show t1u.nEntries > 1
    rw [(CRFrame_update _ t1u _ gu).2.2.1]
    decide)
  rw [gst] at g2
  exact ⟨s2, s3, h, hR, h2, hst, rfl, g, gR, g2, gst, rfl⟩

/-! ## The loop of `advanceSteps` (claim C4) -/

/-- A result of the rejection loop does not depend on the fuel. -/
theorem rejectionLoop_fuel_mono {σ : Type} (R : RNG σ) (s : State) (group : CRGroup) :
    ∀ (fuel : Nat) (rng : σ) (r : Nat × σ), rejectionLoop R s group fuel rng = .ok r →
      ∀ k, rejectionLoop R s group (fuel + k) rng = .ok r := by
  intro fuel
  induction fuel with
  | zero => intro rng r h; cases h
  | succ n ih =>
    intro rng r h k
    rw [Nat.add_right_comm]
    unfold rejectionLoop at h ⊢
    dsimp only at h ⊢
    split_ifs at h ⊢ with hc
    · exact ih _ r h k
    · exact h

/-- A result of `_getNext` does not depend on the fuel of the rejection loop. -/
theorem getNext_fuel_mono {σ : Type} (R : RNG σ) (rfuel : Nat) (s : State) (rng : σ)
    (r : Option Nat × σ) (h : _getNext R rfuel s rng = .ok r) (k : Nat) :
    _getNext R (rfuel + k) s rng = .ok r := by
  unfold _getNext at h ⊢
  split_ifs at h ⊢ with h1 h2
  · exact h
  · dsimp only at h ⊢
    cases hsn : scanGroups s.nGroups (s.pA0 * (R.getUnfII rng).1) s.nGroupsSize 0 0 with
    | mk oi ps =>
      rw [hsn] at h
      cases oi with
      | some i =>
        simp only at h ⊢
        cases hr : rejectionLoop R s (s.nGroups i) rfuel (R.getUnfII rng).2 with
        | error e => rw [hr] at h; cases h
        | ok res =>
          rw [hr] at h
          rw [rejectionLoop_fuel_mono R s _ rfuel _ res hr k]
          exact h
      | none =>
        simp only at h ⊢
        cases hsp : scanGroups s.pGroups (s.pA0 * (R.getUnfII rng).1) s.pGroupsSize 0 ps with
        | mk oj ps2 =>
          rw [hsp] at h
          cases oj with
          | some j =>
            simp only at h ⊢
            cases hr : rejectionLoop R s (s.pGroups j) rfuel (R.getUnfII rng).2 with
            | error e => rw [hr] at h; cases h
            | ok res =>
              rw [hr] at h
              rw [rejectionLoop_fuel_mono R s _ rfuel _ res hr k]
              exact h
          | none => cases h

/-- A result of `advanceSteps` does not depend on the fuel of the rejection loop. -/
theorem advanceSteps_fuel_mono {σ : Type} (R : RNG σ) (rfuel : Nat) :
    ∀ (n : Nat) (s : State) (rng : σ) (r : State × σ × List Event),
      advanceSteps R rfuel n s rng = .ok r →
      ∀ k, advanceSteps R (rfuel + k) n s rng = .ok r := by
  intro n
  induction n with
  | zero => intro s rng r h k; exact h
  | succ n ih =>
    intro s rng r h k
    unfold advanceSteps at h ⊢
    cases hn : _getNext R rfuel s rng with
    | error e => rw [hn] at h; cases h
    | ok res =>
      obtain ⟨okp, rng1⟩ := res
      rw [hn] at h
      rw [getNext_fuel_mono R rfuel s rng _ hn k]
      cases okp with
      | none => exact h
      | some kp =>
        simp only at h ⊢
        by_cases h0 : s.pA0 = 0
        · simp only [h0, if_true] at h ⊢
          exact h
        · simp only [h0, if_false] at h ⊢
          cases he : _executeStep R s kp (R.getExp s.pA0 rng1).1 (R.getExp s.pA0 rng1).2 with
          | error e => rw [he] at h; cases h
          | ok r2 =>
            obtain ⟨s1, rng3⟩ := r2
            rw [he] at h
            simp only at h ⊢
            cases hr : advanceSteps R rfuel n s1 rng3 with
            | error e => rw [hr] at h; cases h
            | ok r3 =>
              rw [hr] at h
              rw [ih s1 rng3 r3 hr k]
              exact h

/-- With zero total propensity `advanceSteps(n)` returns at once and applies nothing. -/
theorem advanceSteps_zero_A0 {σ : Type} (R : RNG σ) (rfuel n : Nat) (s : State) (rng : σ)
    (h0 : s.pA0 = 0) : advanceSteps R rfuel n s rng = .ok (s, rng, []) := by
  cases n with
  | zero => rfl
  | succ n =>
    unfold advanceSteps
    rw [getNext_zero R rfuel s rng h0]

/-- One round of the loop of `advanceSteps`: a selected KProc whose `_executeStep` returns
is followed by the remaining steps. -/
theorem advanceSteps_succ {σ : Type} (R : RNG σ) (rfuel n : Nat) (s s1 s2 : State)
    (rng rng1 rng3 rng4 : σ) (kp : Nat) (evs : List Event) (h0 : s.pA0 ≠ 0)
    (hn : _getNext R rfuel s rng = .ok (some kp, rng1))
    (he : _executeStep R s kp (R.getExp s.pA0 rng1).1 (R.getExp s.pA0 rng1).2 = .ok (s1, rng3))
    (hr : advanceSteps R rfuel n s1 rng3 = .ok (s2, rng4, evs)) :
    advanceSteps R rfuel (n + 1) s rng = .ok (s2, rng4,
      { kp := kp, time := s.pTime, a0 := s.pA0, dt := (R.getExp s.pA0 rng1).1 } :: evs) := by
  unfold advanceSteps
  simp only [hn, h0, if_false, he, hr]

/-- In the one-molecule system the selector picks the reaction after three draws. -/
theorem demo_last_getNext : _getNext Demo.rng 1 Demo.lastState 0 = .ok (some 0, 3) := by
  norm_num [_getNext, Demo.lastState, scanGroups, CRGroup.new, rejectionLoop, Demo.rng]

/-- In the one-molecule system the reaction fires without drawing. -/
theorem demo_last_apply : KProc.apply Demo.rng Demo.lastState 0 4
    = .ok ((Reac.apply Demo.lastState 0 { Demo.reac0 with pUpdVec := [0] }).1, [0], 4) := by
  simp [KProc.apply, Demo.lastState, Reac.apply, Demo.reac0]

/-- After the firing no A is left and the propensity of the reaction is 0. -/
theorem demo_last_rate :
    KProc.rate (Reac.apply Demo.lastState 0 { Demo.reac0 with pUpdVec := [0] }).1
      ((Reac.apply Demo.lastState 0 { Demo.reac0 with pUpdVec := [0] }).1.pKProcs 0) = .ok 0 := by
  norm_num [KProc.rate, Reac.apply, State.setTet, State.setKProc, KProc.incExtent,
    Demo.lastState, Reac.rate, KProc.inactive, INACTIVATED, Demo.reac0, Demo.tet0,
    Demo.cdef, Reac.hmuLoop, Reac.applyLoop, Tet.setCount, List.range, List.range.loop,
    switchLhs, toInt, toUInt, wrapInt, Function.update_apply]

/-- The refresh after the firing empties group 1, so that the total propensity is 0. -/
theorem demo_last_update (sa : State)
    (h : _update (Reac.apply Demo.lastState 0 { Demo.reac0 with pUpdVec := [0] }).1 [0]
      = .ok sa) : sa.pA0 = 0 := by
  unfold _update updateLoop at h
  unfold _updateElement at h
  rw [demo_last_rate] at h
  simp only [updateLoop] at h
  norm_num [Reac.apply, State.setTet, State.setKProc, State.setCRData, KProc.incExtent,
    Demo.lastState, Function.update_apply] at h
  rw [← h]
  norm_num [_updateSum, removeOld, _getGroup, State.setGroup, State.setCRData, State.setKProc,
    Reac.apply, State.setTet, KProc.incExtent, Demo.lastState, CRGroup.new,
    Function.update_apply, List.range, List.range.loop]

/-- C4 (amended). `advanceSteps(n)` is `n` calls of `step()`. Whenever it returns, it has
applied `k <= n` events, each with `A0 != 0` before it, and `k < n` only if `A0 == 0` on
return (so `k = min(n, m)` with `m` the number of events after which `A0` first is 0); the
step counter has grown by exactly `k` (32-bit counter) and the final time is the start time
plus the sum of the drawn `dt`, without clamping. A result does not depend on the fuel of
the rejection loop once there is enough of it; `advanceSteps` does return at once, applying
nothing, when `n == 0` or `A0 == 0`; and when `A0 != 0`, the selector returns a KProc and
its `_executeStep` returns, `advanceSteps(n + 1)` is that event followed by what
`advanceSteps(n)` does from the state after it. -/
theorem advanceSteps_spec {σ : Type} (R : RNG σ) (rfuel n : Nat) (s : State) (rng : σ) :
    dropEvents (advanceSteps R rfuel n s rng) = iterStep R rfuel n s rng ∧
    (∀ s2 rng2 evs, advanceSteps R rfuel n s rng = .ok (s2, rng2, evs) →
      s.pNSteps < 4294967296 →
      evs.length ≤ n ∧
      s2.pNSteps = (s.pNSteps + evs.length) % 4294967296 ∧
      (evs.length < n → s2.pA0 = 0) ∧
      s2.pTime = s.pTime + (evs.map Event.dt).sum ∧
      (∀ e ∈ evs, e.a0 ≠ 0 ∧ 0 ≤ e.dt)) ∧
    (∀ r, advanceSteps R rfuel n s rng = .ok r →
      ∀ k, advanceSteps R (rfuel + k) n s rng = .ok r) ∧
    (n = 0 ∨ s.pA0 = 0 → advanceSteps R rfuel n s rng = .ok (s, rng, [])) ∧
    (s.pA0 ≠ 0 → ∀ kp rng1 s1 rng3 s2 rng4 evs,
      _getNext R rfuel s rng = .ok (some kp, rng1) →
      _executeStep R s kp (R.getExp s.pA0 rng1).1 (R.getExp s.pA0 rng1).2 = .ok (s1, rng3) →
      advanceSteps R rfuel n s1 rng3 = .ok (s2, rng4, evs) →
      advanceSteps R rfuel (n + 1) s rng = .ok (s2, rng4,
        { kp := kp, time := s.pTime, a0 := s.pA0, dt := (R.getExp s.pA0 rng1).1 } :: evs)) := by
  refine ⟨advanceSteps_eq_iterStep R rfuel n s rng,
    fun s2 rng2 evs h hfit => advanceSteps_props R rfuel n s s2 rng rng2 evs h hfit,
    fun r h k => advanceSteps_fuel_mono R rfuel n s rng r h k, fun h => ?_,
    fun h0 kp rng1 s1 rng3 s2 rng4 evs hn he hr =>
      advanceSteps_succ R rfuel n s s1 s2 rng rng1 rng3 rng4 kp evs h0 hn he hr⟩
  rcases h with h | h
  · rw [h]
    rfl
  · exact advanceSteps_zero_A0 R rfuel n s rng h

/-- Witness of C4 (amended) on the one-molecule system: `advanceSteps(2)` returns after one
event, the firing of the reaction that uses up the last A, because the total propensity is
then 0: `min(2, 1) = 1` event, step counter 1, time `0 + 1`, and `A0 == 0` on return. -/
theorem advanceSteps_spec_witness : ∃ s2 evs,
    advanceSteps Demo.rng 1 2 Demo.lastState 0 = .ok (s2, 4, evs) ∧ evs.length = 1 ∧
    s2.pA0 = 0 ∧ s2.pNSteps = 1 ∧ s2.pTime = 1 := by
  obtain ⟨s1u, hu⟩ := update_ok _ [0]
    (fun k hk => by rw [List.mem_singleton] at hk; rw [hk]; exact ⟨0, demo_last_rate⟩)
  have he := executeStep_ok Demo.rng Demo.lastState _ s1u 0 1 4 4 [0] demo_last_apply hu
    (by norm_num)
  have hA1 : ({ s1u with
      pTime := s1u.pTime + 1
      pNSteps := (s1u.pNSteps + 1) % 4294967296 } : State).pA0 = 0 := demo_last_update s1u hu
  have hrest := (advanceSteps_spec Demo.rng 1 1 _ 4).2.2.2.1 (Or.inr hA1)
  have hg : Demo.rng.getExp Demo.lastState.pA0 3 = (1, 4) := by
    norm_num [Demo.rng, Demo.lastState]
  have hrun := (advanceSteps_spec Demo.rng 1 1 Demo.lastState 0).2.2.2.2
    (by norm_num [Demo.lastState]) 0 3 _ 4 _ 4 [] demo_last_getNext (by rw [hg]; exact he) hrest
  obtain ⟨_, h2, h3, h4, _⟩ := (advanceSteps_spec Demo.rng 1 2 Demo.lastState 0).2.1 _ _ _ hrun
    (by norm_num [Demo.lastState])
  refine ⟨_, _, hrun, rfl, h3 (by simp), ?_, ?_⟩
  · rw [h2]
    norm_num [Demo.lastState]
  · rw [h4]
    norm_num [Demo.lastState, Demo.rng]

/-- Counterexample to C4 as stated: in the concrete system (`A0 = 6`), with the generator
whose `getUnfII` always returns 1, `advanceSteps(n)` does not return for any `n >= 1`,
whatever the fuel, and so applies no number of events: `_getNext` enters group 2 and its
rejection loop `while (rate <= random_rate)` spins with `rate = 2 <= 4 = max·1`. -/
theorem advanceSteps_not_total_counterexample :
    Demo.state.pA0 ≠ 0 ∧
    ∀ rfuel n, advanceSteps Demo.rngOnes rfuel (n + 1) Demo.state () = .error .outOfFuel := by
  refine ⟨by norm_num [Demo.state], fun rfuel n => ?_⟩
  unfold advanceSteps
  rw [demo_ones_getNext rfuel]

end Tetexact
